import Mathlib


/-!
# flumps: a streaming JSON parser, its UTF-8 helpers and its callback visitor

A shallow embedding of `string_helpers.cpp`, `detail/json_parser_impl.h`,
`json_value_path.cpp` and `detail/json_callback_visitor_impl.h`.

Conventions of the embedding

* A byte is a natural number; a byte string is a `List Nat` (`Bytes`).  The bytes of a
  real buffer are below 256; `char` comparisons of the source are written on the
  unsigned value of the byte (for instance `ch >= '\0' && ch <= '\x1f'` is `b ≤ 0x1F`).
* A read position `const char* pos` inside `[begin, end)` is a `Cursor`: the offset
  `pos - begin` together with the bytes of `[pos, end)`.
* A C++ function that may throw returns a `Res`: `ok` with the returned value and the
  state it leaves, `throw` with the exception and the state at the throw, or `fuel`.
  `fuel` is not a behaviour of the program: loops whose step consumes a variable number
  of bytes are written by recursion on a counter, and `fuel` is the answer of such a loop
  when the counter is used up.
* The visitor of the parser is the recording visitor: the list of the events it received.
-/

namespace flumps

/-! ## Bytes, exceptions, results -/

abbrev Bytes := List Nat

/-- The three exception classes derived from `DecodeError` (exception.h). -/
inductive ErrorKind
  | Utf8DecodeError
  | UnicodeCodePointError
  | JsonParseError
  deriving DecidableEq, Repr

/-- A thrown `DecodeError`: its dynamic class and its `what()` text. -/
structure DecodeError where
  kind : ErrorKind
  what : String
  deriving DecidableEq, Repr

/-- Outcome of a call: returned value and final state, thrown exception and the state at
the throw, or an exhausted loop counter of the embedding. -/
inductive Res (σ : Type) (α : Type)
  | ok (a : α) (s : σ)
  | throw (e : DecodeError) (s : σ)
  | fuel
  deriving DecidableEq, Repr

/-- Sequencing: run `f` on the value and state of a successful call, propagate a throw. -/
def Res.bind {σ α β : Type} (r : Res σ α) (f : α → σ → Res σ β) : Res σ β :=
  match r with
  | .ok a s => f a s
  | .throw e s => .throw e s
  | .fuel => .fuel

/-- Run a call on a part `τ` of the state and store the part it leaves with `put`. -/
def Res.lift {σ τ α : Type} (put : τ → σ) (r : Res τ α) : Res σ α :=
  match r with
  | .ok a t => .ok a (put t)
  | .throw e t => .throw e (put t)
  | .fuel => .fuel

/-- A read position: `pos` is the offset `*pos - begin`, `rest` the bytes of `[*pos, end)`. -/
structure Cursor where
  pos : Nat
  rest : Bytes
  deriving DecidableEq, Repr

/-- The step `++*pos`. -/
def Cursor.next (c : Cursor) : Cursor := ⟨c.pos + 1, c.rest.tail⟩

/-- The step `*pos += k`. -/
def Cursor.advance (c : Cursor) (k : Nat) : Cursor := ⟨c.pos + k, c.rest.drop k⟩

/-- The read `**pos` (the source reads it only where `*pos != end`). -/
def Cursor.peek (c : Cursor) : Nat := c.rest.headD 0

/-! ## string_helpers.cpp -/

def is_hex (ch : Nat) : Bool :=
  (0x30 ≤ ch && ch ≤ 0x39) || (0x61 ≤ ch && ch ≤ 0x66) || (0x41 ≤ ch && ch ≤ 0x46)

/-- The source compares with `0x0b` and adds `val - 0x0a` to `'a'`. -/
def to_hex (val : Nat) : Nat :=
  if val < 0x0b then 0x30 + val else 0x61 + (val - 0x0a)

/-- Assumes a valid hex char. -/
def hex_to_dec (ch : Nat) : Nat :=
  if ch ≤ 0x39 then ch - 0x30
  else if ch ≥ 0x61 then 10 + (ch - 0x61)
  else 10 + (ch - 0x41)

def too_large (cp : Nat) : DecodeError :=
  ⟨.UnicodeCodePointError, "Invalid Unicode code point - too large (" ++ toString cp ++ ")"⟩

/-- Append the UTF-8 encoding of a code point to `output`; the last branch of the source
is `cp < 0x10FFFF`. -/
def code_point_to_utf8 (cp : Nat) (output : Bytes) : Except DecodeError Bytes :=
  if cp < 0x0080 then
    .ok (output ++ [cp])
  else if cp < 0x0800 then
    .ok (output ++ [0xC0 ||| (cp >>> 6), 0x80 ||| (cp &&& 0x3F)])
  else if cp < 0x10000 then
    .ok (output ++ [0xE0 ||| (cp >>> 12), 0x80 ||| ((cp >>> 6) &&& 0x3F), 0x80 ||| (cp &&& 0x3F)])
  else if cp < 0x10FFFF then
    .ok (output ++ [0xF0 ||| (cp >>> 18), 0x80 ||| ((cp >>> 12) &&& 0x3F),
      0x80 ||| ((cp >>> 6) &&& 0x3F), 0x80 ||| (cp &&& 0x3F)])
  else
    .error (too_large cp)

inductive CodePointType
  | high_surrogate
  | low_surrogate
  | non_surrogate
  deriving DecidableEq, Repr

def code_point_type (cp : Nat) : Except DecodeError CodePointType :=
  if cp > 0x10FFFF then .error (too_large cp)
  else if cp < 0xD800 ∨ cp > 0xDFFF then .ok .non_surrogate
  else if cp ≤ 0xDBFF then .ok .high_surrogate
  else .ok .low_surrogate

/-- The loop `while (cp > 0)` of `code_point_to_json_escape`: `hex_inserter` is the index
in `output` of the character that is overwritten next. -/
def hex_insert_loop : Nat → Nat → Nat → Bytes → Option Bytes
  | 0, _, _, _ => none
  | fuel + 1, cp, hex_inserter, output =>
    if cp > 0 then
      hex_insert_loop fuel (cp >>> 4) (hex_inserter - 1) (output.set hex_inserter (to_hex (cp &&& 4)))
    else some output

/-- Append the JSON escape of a code point; `depth` bounds the recursion of the source,
which calls itself on the two halves of a pair. -/
def code_point_to_json_escape : Nat → Nat → Bytes → Res Unit Bytes
  | 0, _, _ => .fuel
  | depth + 1, cp, output =>
    if cp > 0x10FFFF then .throw (too_large cp) ()
    else if cp > 0x10000 then
      let cp1 := cp - 0x10000
      let high := 0xD800 &&& (cp1 >>> 10)
      let low := 0xDC00 &&& (cp1 &&& 0x03FF)
      (code_point_to_json_escape depth high output).bind fun out1 _ =>
        code_point_to_json_escape depth low out1
    else
      let out0 := output ++ [0x5C, 0x75, 0x30, 0x30, 0x30, 0x30]
      match hex_insert_loop (cp + 1) cp (out0.length - 1) out0 with
      | some out1 => .ok out1 ()
      | none => .fuel

/-- The loop over the continuation bytes in `chomp_utf8_char`. -/
def chomp_utf8_continuation : Nat → Nat → Cursor → Res Cursor Nat
  | 0, code_point, c => .ok code_point c
  | k + 1, code_point, c =>
    if c.peek &&& 0xC0 ≠ 0x80 then
      .throw ⟨.Utf8DecodeError, "Invalid: multi-byte utf-8 byte invalid"⟩ c
    else
      chomp_utf8_continuation k ((code_point <<< 6) ||| (c.peek &&& 0x3F)) c.next

/-- The lead byte of `chomp_utf8_char`: the bits it gives and `additional_bytes`. -/
def utf8_lead (b : Nat) : Option (Nat × Nat) :=
  if b &&& 0x80 = 0 then some (0 ||| b, 0)
  else if b &&& 0xE0 = 0xC0 then some (0 ||| (b &&& 0x1F), 1)
  else if b &&& 0xF0 = 0xE0 then some (0 ||| (b &&& 0x0F), 2)
  else if b &&& 0xF8 = 0xF0 then some (0 ||| (b &&& 0x07), 3)
  else none

def chomp_utf8_char (c : Cursor) : Res Cursor Nat :=
  let decoded : Res Cursor Nat :=
    match c.rest with
    | [] => .ok 0 c
    | b :: _ =>
      match utf8_lead b with
      | none => .throw ⟨.Utf8DecodeError, "Invalid: leading utf-8 byte invalid"⟩ c
      | some (code_point, additional_bytes) =>
        if c.next.rest.length < additional_bytes then
          .throw ⟨.Utf8DecodeError, "End of data: partial utf-8 codepoint"⟩ c.next
        else chomp_utf8_continuation additional_bytes code_point c.next
  decoded.bind fun code_point c1 =>
    match code_point_type code_point with
    | .error e => .throw e c1
    | .ok t =>
      if t ≠ .non_surrogate then
        .throw ⟨.Utf8DecodeError, "Invalid: surrogate code point present"⟩ c1
      else .ok code_point c1

/-- The loop of `is_utf8`. -/
def is_utf8_loop : Nat → Cursor → Res Cursor Unit
  | 0, _ => .fuel
  | fuel + 1, c =>
    if c.rest = [] then .ok () c
    else (chomp_utf8_char c).bind fun _ c1 => is_utf8_loop fuel c1

/-- Whether `[pos, end)` decodes as UTF-8: the two exception classes that `chomp_utf8_char`
throws are caught and give `false`. -/
def is_utf8 (s : Bytes) : Res Unit Bool :=
  match is_utf8_loop (s.length + 1) ⟨0, s⟩ with
  | .ok _ _ => .ok true ()
  | .throw e _ =>
    if e.kind = .Utf8DecodeError ∨ e.kind = .UnicodeCodePointError then .ok false ()
    else .throw e ()
  | .fuel => .fuel

def force_to_utf8 : Bytes → Bytes
  | [] => []
  | u :: s =>
    if u < 0x80 then u :: force_to_utf8 s
    else (0xC0 ||| (u >>> 6)) :: (0x80 ||| (u &&& 0x3F)) :: force_to_utf8 s

def surrogate_pair_to_code_point (high low : Nat) : Except DecodeError Nat :=
  match code_point_type high with
  | .error e => .error e
  | .ok th =>
    if th ≠ .high_surrogate then
      .error ⟨.JsonParseError, "surrogate_pair_to_code_point - invalid high"⟩
    else
      match code_point_type low with
      | .error e => .error e
      | .ok tl =>
        if tl ≠ .low_surrogate then
          .error ⟨.JsonParseError, "surrogate_pair_to_code_point - invalid low"⟩
        else .ok (0x10000 + ((high &&& 0x03FF) <<< 10) + (low &&& 0x03FF))

structure utf8_surrogate_checker where
  last_code_point : Nat := 0
  surrogate_low_needed : Bool := false
  deriving DecidableEq, Repr

/-- The member `check_code_point`: the returned flag and the tracker it leaves.  The call
without an argument of the source is the call with `code_point = 0`. -/
def utf8_surrogate_checker.check_code_point (t : utf8_surrogate_checker) (code_point : Nat) :
    Except DecodeError (Bool × utf8_surrogate_checker) :=
  match code_point_type code_point with
  | .error e => .error e
  | .ok .low_surrogate =>
    if !t.surrogate_low_needed then
      .error ⟨.UnicodeCodePointError, "Invalid: low surrogate code point not preceded by high"⟩
    else
      match surrogate_pair_to_code_point t.last_code_point code_point with
      | .error e => .error e
      | .ok cp => .ok (true, ⟨cp, false⟩)
  | .ok .high_surrogate =>
    if t.surrogate_low_needed then
      .error ⟨.UnicodeCodePointError, "Invalid: high surrogate code point preceded by high"⟩
    else .ok (false, ⟨code_point, true⟩)
  | .ok .non_surrogate =>
    if t.surrogate_low_needed then
      .error ⟨.UnicodeCodePointError, "Invalid: high surrogate code point not followed by low"⟩
    else .ok (true, ⟨code_point, false⟩)

/-- The loop `while (*pos != cp_end)` of `json_hex_seq_to_code_point`; `column` counts
down from 3 and `k` is the number of characters still to read. -/
def json_hex_seq_loop : Nat → Nat → Nat → Cursor → Res Cursor Nat
  | 0, _, cp, c => .ok cp c
  | k + 1, column, cp, c =>
    if !is_hex c.peek then
      .throw ⟨.JsonParseError, "Invalid: hex character expected"⟩ c
    else
      json_hex_seq_loop k (column - 1) (cp + ((hex_to_dec c.peek) <<< (column * 4))) c.next

def json_hex_seq_to_code_point (c : Cursor) : Res Cursor Nat :=
  if c.rest.length < 4 then
    .throw ⟨.JsonParseError, "End of data: partial unicode escape sequence"⟩ c
  else json_hex_seq_loop 4 3 0 c

/-- The value of `ret` after the `switch` on the character that follows a backslash, for
the eight short escapes; `none` for `u` and for every other character. -/
def short_escape (e : Nat) : Option Nat :=
  if e = 0x5C ∨ e = 0x22 ∨ e = 0x2F then some e
  else if e = 0x62 then some 0x08
  else if e = 0x66 then some 0x0C
  else if e = 0x6E then some 0x0A
  else if e = 0x72 then some 0x0D
  else if e = 0x74 then some 0x09
  else none

/-- One pass of the body of the `while` loop of `json_string_content_to_utf8`, entered with
`*pos != end`: the new `ret`, the tracker and `last_cp_was_hex_seq`, and the position after
the `++pos` that ends the body (in the `u` case the source steps back by one before it). -/
def json_string_content_body (ret : Bytes) (sur : utf8_surrogate_checker) (c : Cursor) :
    Res Cursor (Bytes × utf8_surrogate_checker × Bool) :=
  if c.peek = 0x5C then
    match c.next.rest with
    | [] => .throw ⟨.JsonParseError, "End of data: partial escape sequence"⟩ c.next
    | e :: _ =>
      match short_escape e with
      | some b => .ok (ret ++ [b], sur, false) c.next.next
      | none =>
        if e = 0x75 then
          (json_hex_seq_to_code_point c.next.next).bind fun code_point c2 =>
            match sur.check_code_point code_point with
            | .error err => .throw err c2
            | .ok (complete, sur1) =>
              if complete then
                match code_point_to_utf8 sur1.last_code_point ret with
                | .error err => .throw err c2
                | .ok ret1 => .ok (ret1, sur1, true) c2
              else .ok (ret, sur1, true) c2
        else .throw ⟨.JsonParseError, "Invalid: invalid escape sequence"⟩ c.next
  else .ok (ret ++ [c.peek], sur, false) c.next

/-- The `while (pos != end)` loop of `json_string_content_to_utf8`. -/
def json_string_content_loop :
    Nat → Bytes → utf8_surrogate_checker → Cursor → Res Cursor (Bytes × utf8_surrogate_checker)
  | 0, _, _, _ => .fuel
  | fuel + 1, ret, sur, c =>
    if c.rest = [] then .ok (ret, sur) c
    else
      (json_string_content_body ret sur c).bind fun (ret1, sur1, last_cp_was_hex_seq) c1 =>
        if !last_cp_was_hex_seq then
          match sur1.check_code_point 0 with
          | .error err => .throw err c1
          | .ok (_, sur2) => json_string_content_loop fuel ret1 sur2 c1
        else json_string_content_loop fuel ret1 sur1 c1

def json_string_content_to_utf8 (input : Bytes) : Res Unit Bytes :=
  match json_string_content_loop (input.length + 1) [] {} ⟨0, input⟩ with
  | .ok (ret, sur) _ =>
    match sur.check_code_point 0 with
    | .error err => .throw err ()
    | .ok _ => .ok ret ()
  | .throw e _ => .throw e ()
  | .fuel => .fuel

/-- The `switch` of `utf8_to_json_string_content` on a character that is escaped. -/
def escape_char_to_json (b : Nat) (output : Bytes) : Res Unit Bytes :=
  if b = 0x5C ∨ b = 0x22 ∨ b = 0x2F then .ok (output ++ [0x5C, b]) ()
  else if b = 0x08 then .ok (output ++ [0x5C, 0x62]) ()
  else if b = 0x0C then .ok (output ++ [0x5C, 0x66]) ()
  else if b = 0x0A then .ok (output ++ [0x5C, 0x6E]) ()
  else if b = 0x0D then .ok (output ++ [0x5C, 0x72]) ()
  else if b = 0x09 then .ok (output ++ [0x5C, 0x74]) ()
  else code_point_to_json_escape 2 b output

/-- The `while (pos != end)` loop of `utf8_to_json_string_content`. -/
def utf8_to_json_string_content_loop : Nat → Bytes → Cursor → Res Cursor Bytes
  | 0, _, _ => .fuel
  | fuel + 1, output, c =>
    if c.rest = [] then .ok output c
    else if c.peek = 0x22 ∨ c.peek = 0x5C ∨ c.peek = 0x2F ∨ c.peek < 0x20 ∨ c.peek = 0x7F then
      ((escape_char_to_json c.peek output).lift fun _ => c).bind fun out1 _ =>
        utf8_to_json_string_content_loop fuel out1 c.next
    else
      (chomp_utf8_char c).bind fun _ c1 =>
        utf8_to_json_string_content_loop fuel (output ++ c.rest.take (c1.pos - c.pos)) c1

def utf8_to_json_string_content (input : Bytes) : Res Unit Bytes :=
  (utf8_to_json_string_content_loop (input.length + 1) [] ⟨0, input⟩).lift fun _ => ()

def to_json_string_content_safe (input : Bytes) : Res Unit Bytes :=
  (is_utf8 input).bind fun valid _ =>
    if valid then utf8_to_json_string_content input
    else utf8_to_json_string_content (force_to_utf8 input)

/-! ## json_value_type.h and the events of a visitor -/

inductive JsonValueType
  | Array
  | Object
  | True
  | False
  | Null
  | String
  | Number
  deriving DecidableEq, Repr

/-- A call of one of the six visitor methods; a pointer argument is the offset from `begin`. -/
inductive Event
  | on_array_start (start : Nat)
  | on_array_end (start : Nat) (length : Nat)
  | on_object_start (start : Nat)
  | on_object_key (start : Nat) (length : Nat)
  | on_object_end (start : Nat) (length : Nat)
  | on_primitive_value (type : JsonValueType) (start : Nat) (length : Nat)
  deriving DecidableEq, Repr

/-! ## detail/json_parser_impl.h -/

inductive ParseElement
  | initial
  | parse_value
  deriving DecidableEq, Repr

inductive ParseValue
  | initial
  | parse_array
  | parse_object
  deriving DecidableEq, Repr

inductive ParseArray
  | initial
  | element_read
  | end_array
  deriving DecidableEq, Repr

inductive ParseObject
  | initial
  | member_read
  | object_read
  deriving DecidableEq, Repr

/-- A frame of the explicit stack; `start` is an offset from `begin` (0 for `nullptr`). -/
structure State where
  parse_element : ParseElement := .initial
  parse_value : ParseValue := .initial
  parse_array : ParseArray := .initial
  parse_object : ParseObject := .initial
  start : Nat := 0
  deriving DecidableEq, Repr

/-- The parser object: `state_` with `state_.back()` at the head of the list, the recording
visitor, and the depth limit.  (The member `depth_` of the source is never read.) -/
structure JsonParserImpl where
  state_ : List State
  visitor_ : List Event
  depth_limit_ : Nat
  deriving DecidableEq, Repr

/-- The state of a parse: the parser object and the local `pos` of `parse_json`. -/
abbrev ParseState := JsonParserImpl × Cursor

def JsonParserImpl.back (p : JsonParserImpl) : State := p.state_.headD {}

/-- An assignment to a member of `state_.back()`. -/
def JsonParserImpl.set_back (p : JsonParserImpl) (f : State → State) : JsonParserImpl :=
  match p.state_ with
  | [] => p
  | s :: below => { p with state_ := f s :: below }

/-- A call of a visitor method. -/
def JsonParserImpl.visit (p : JsonParserImpl) (e : Event) : JsonParserImpl :=
  { p with visitor_ := p.visitor_ ++ [e] }

def json_parse_error (what : String) : DecodeError := ⟨.JsonParseError, what⟩

def inc_depth (p : JsonParserImpl) (c : Cursor) : Res ParseState Unit :=
  let p1 : JsonParserImpl := { p with state_ := {} :: p.state_ }
  if p1.depth_limit_ > 0 ∧ p1.state_.length > p1.depth_limit_ then
    .throw (json_parse_error
      ("Maximum JSON nesting depth (" ++ toString p1.depth_limit_ ++ ") reached")) (p1, c)
  else .ok () (p1, c)

def dec_depth (p : JsonParserImpl) : JsonParserImpl :=
  { p with state_ := p.state_.tail }

def is_whitespace (ch : Nat) : Bool :=
  ch = 0x20 || ch = 0x09 || ch = 0x0D || ch = 0x0A

def is_dec (ch : Nat) : Bool := 0x30 ≤ ch && ch ≤ 0x39

/-- The loop of `chomp_whitespace` from offset `pos`. -/
def chomp_whitespace_from (pos : Nat) : Bytes → Cursor
  | [] => ⟨pos, []⟩
  | b :: r => if is_whitespace b then chomp_whitespace_from (pos + 1) r else ⟨pos, b :: r⟩

def chomp_whitespace (c : Cursor) : Cursor := chomp_whitespace_from c.pos c.rest

/-- The loop `while (*pos != end && is_dec(**pos)) ++*pos` of `parse_number`. -/
def chomp_digits_from (pos : Nat) : Bytes → Cursor
  | [] => ⟨pos, []⟩
  | b :: r => if is_dec b then chomp_digits_from (pos + 1) r else ⟨pos, b :: r⟩

def chomp_digits (c : Cursor) : Cursor := chomp_digits_from c.pos c.rest

/-- The part of `parse_number` under `// Decode exponent`, entered after the later of the
two `if (*pos == end) return` tests. -/
def parse_number_exponent (c : Cursor) : Res Cursor Unit :=
  if c.peek = 0x65 ∨ c.peek = 0x45 then
    let c1 := c.next
    if c1.rest = [] then
      .throw (json_parse_error "End of data: no exponent following 'e'") c1
    else
      let c2 := if c1.peek = 0x2D ∨ c1.peek = 0x2B then c1.next else c1
      if c2.rest = [] then
        .throw (json_parse_error "End of data: no exponent digit following 'e(+|-|)'") c2
      else if !is_dec c2.peek then
        .throw (json_parse_error "Invalid: digit expected following 'e(+|-|)'") c2
      else .ok () (chomp_digits c2.next)
  else .ok () c

/-- The part of `parse_number` from the earlier `if (*pos == end) return` on. -/
def parse_number_fraction (c : Cursor) : Res Cursor Unit :=
  if c.rest = [] then .ok () c
  else
    let after_fraction : Res Cursor Unit :=
      if c.peek = 0x2E then
        let c1 := c.next
        if c1.rest = [] then
          .throw (json_parse_error "End of data: no digits following decimal point") c1
        else if !is_dec c1.peek then
          .throw (json_parse_error "Invalid: digit expected following decimal point") c1
        else .ok () (chomp_digits c1.next)
      else .ok () c
    after_fraction.bind fun _ c2 =>
      if c2.rest = [] then .ok () c2 else parse_number_exponent c2

/-- On entry `*pos` is present and is `'-'` or a digit. -/
def parse_number (c : Cursor) : Res Cursor Unit :=
  let after_sign : Res Cursor Unit :=
    if c.peek = 0x2D then
      if c.next.rest = [] then
        .throw (json_parse_error "End of data: no integer part following leading '-'") c.next
      else .ok () c.next
    else .ok () c
  after_sign.bind fun _ c1 =>
    if !is_dec c1.peek then
      .throw (json_parse_error "Invalid: non-decimal in integer part") c1
    else
      let c2 := if c1.peek = 0x30 then c1.next else chomp_digits c1.next
      parse_number_fraction c2

/-- The characters of `escape_char = "\"\\/bfnrtu"`. -/
def escape_char : Bytes := [0x22, 0x5C, 0x2F, 0x62, 0x66, 0x6E, 0x72, 0x74, 0x75]

/-- One pass of the body of the `while` loop of `parse_string` up to the test of
`last_cp_was_hex_seq`, entered with `*pos != end`: the tracker and the flag it leaves. -/
def parse_string_body (sur : utf8_surrogate_checker) (last_cp_was_hex_seq : Bool) (c : Cursor) :
    Res Cursor (utf8_surrogate_checker × Bool) :=
  if c.peek ≠ 0x5C then
    if c.peek ≤ 0x1F then
      .throw (json_parse_error "Invalid: control characters must be escaped as \\uxxxx") c
    else (chomp_utf8_char c).bind fun _ c1 => .ok (sur, last_cp_was_hex_seq) c1
  else
    let c1 := c.next
    if c1.rest = [] then
      .throw (json_parse_error "End of data: partial escape sequence") c1
    else if c1.peek ∉ escape_char then
      .throw (json_parse_error "Invalid: invalid escape sequence") c1
    else if c1.peek ≠ 0x75 then .ok (sur, last_cp_was_hex_seq) c1.next
    else
      (json_hex_seq_to_code_point c1.next).bind fun code_point c2 =>
        match sur.check_code_point code_point with
        | .error err => .throw err c2
        | .ok (_, sur1) => .ok (sur1, true) c2

/-- The loop `while (*pos != end && **pos != '"')` of `parse_string`. -/
def parse_string_loop :
    Nat → utf8_surrogate_checker → Bool → Cursor → Res Cursor utf8_surrogate_checker
  | 0, _, _, _ => .fuel
  | fuel + 1, sur, last_cp_was_hex_seq, c =>
    if c.rest = [] ∨ c.peek = 0x22 then .ok sur c
    else
      (parse_string_body sur last_cp_was_hex_seq c).bind fun (sur1, last1) c1 =>
        if !last1 then
          match sur1.check_code_point 0 with
          | .error err => .throw err c1
          | .ok (_, sur2) => parse_string_loop fuel sur2 last1 c1
        else parse_string_loop fuel sur1 last1 c1

/-- On entry `*pos` is present and is the opening quote. -/
def parse_string (c : Cursor) : Res Cursor Unit :=
  (parse_string_loop (c.next.rest.length + 1) {} false c.next).bind fun sur c1 =>
    match sur.check_code_point 0 with
    | .error err => .throw err c1
    | .ok _ =>
      if c1.rest = [] then
        .throw (json_parse_error "End of data: no string '\"' terminator reached") c1
      else .ok () c1.next

def parse_member_key (p : JsonParserImpl) (c : Cursor) : Res ParseState Unit :=
  let c1 := chomp_whitespace c
  if c1.rest = [] then
    .throw (json_parse_error "End of data: object key expected") (p, c1)
  else if c1.peek ≠ 0x22 then
    .throw (json_parse_error "Invalid: object key string expected") (p, c1)
  else
    ((parse_string c1).lift fun c2 => (p, c2)).bind fun _ s2 =>
      let p1 := s2.1.visit (.on_object_key (c1.pos + 1) ((s2.2.pos - c1.pos) - 2))
      let c3 := chomp_whitespace s2.2
      if c3.rest = [] ∨ c3.peek ≠ 0x3A then
        .throw (json_parse_error "Invalid: object member colon expected") (p1, c3)
      else .ok () (p1, c3.next)

/-- The `do … while (*pos != end)` loop of `parse_object`; the counter is the number of
passes (a pass that leaves the `switch` by `break` has stored `object_read`). -/
def parse_object : Nat → JsonParserImpl → Cursor → Res ParseState Bool
  | 0, _, _ => .fuel
  | fuel + 1, p, c =>
    match p.back.parse_object with
    | .initial =>
      let p1 := p.set_back fun s => { s with start := c.pos }
      let p2 := p1.visit (.on_object_start p1.back.start)
      let c1 := chomp_whitespace c.next
      if c1.rest = [] ∨ c1.peek ≠ 0x7D then
        (parse_member_key p2 c1).bind fun _ s2 =>
          (inc_depth (s2.1.set_back fun s => { s with parse_object := .member_read }) s2.2).bind
            fun _ s3 => .ok true s3
      else
        let p3 := p2.set_back fun s => { s with parse_object := .object_read }
        if c1.rest ≠ [] then parse_object fuel p3 c1 else .ok false (p3, c1)
    | .member_read =>
      if c.rest ≠ [] then
        if c.peek = 0x7D then
          let p1 := p.set_back fun s => { s with parse_object := .object_read }
          if c.rest ≠ [] then parse_object fuel p1 c else .ok false (p1, c)
        else if c.peek = 0x2C then
          (parse_member_key p c.next).bind fun _ s2 =>
            (inc_depth s2.1 s2.2).bind fun _ s3 => .ok true s3
        else .throw (json_parse_error "Invalid: end of object or comma expected") (p, c)
      else .throw (json_parse_error "End of data: end of object or comma expected") (p, c)
    | .object_read =>
      let c1 := c.next
      .ok false (p.visit (.on_object_end p.back.start (c1.pos - p.back.start)), c1)

/-- The `do … while (*pos != end)` loop of `parse_array`; the counter is the number of
passes (a pass that leaves the `switch` by `break` has stored `end_array`). -/
def parse_array : Nat → JsonParserImpl → Cursor → Res ParseState Bool
  | 0, _, _ => .fuel
  | fuel + 1, p, c =>
    match p.back.parse_array with
    | .initial =>
      let p1 := p.set_back fun s => { s with start := c.pos }
      let p2 := p1.visit (.on_array_start p1.back.start)
      let c1 := chomp_whitespace c.next
      if c1.rest = [] ∨ c1.peek ≠ 0x5D then
        (inc_depth (p2.set_back fun s => { s with parse_array := .element_read }) c1).bind
          fun _ s3 => .ok true s3
      else
        let p3 := p2.set_back fun s => { s with parse_array := .end_array }
        if c1.rest ≠ [] then parse_array fuel p3 c1 else .ok false (p3, c1)
    | .element_read =>
      if c.rest ≠ [] then
        if c.peek = 0x5D then
          let p1 := p.set_back fun s => { s with parse_array := .end_array }
          if c.rest ≠ [] then parse_array fuel p1 c else .ok false (p1, c)
        else if c.peek = 0x2C then
          (inc_depth p c.next).bind fun _ s3 => .ok true s3
        else .throw (json_parse_error "Invalid: end of array or comma expected") (p, c)
      else .throw (json_parse_error "End of data: end of array or comma expected") (p, c)
    | .end_array =>
      let c1 := c.next
      .ok false (p.visit (.on_array_end p.back.start (c1.pos - p.back.start)), c1)

/-- The case `ParseValue::initial` of `parse_value` for a value that is neither an object
nor an array, entered with `*pos != end`. -/
def parse_primitive (p : JsonParserImpl) (c : Cursor) : Res ParseState Bool :=
  if c.peek = 0x22 then
    ((parse_string c).lift fun c1 => (p, c1)).bind fun _ s1 =>
      .ok false (s1.1.visit (.on_primitive_value .String (c.pos + 1) ((s1.2.pos - c.pos) - 2)), s1.2)
  else if c.peek = 0x2D ∨ is_dec c.peek then
    ((parse_number c).lift fun c1 => (p, c1)).bind fun _ s1 =>
      .ok false (s1.1.visit (.on_primitive_value .Number c.pos (s1.2.pos - c.pos)), s1.2)
  else if c.rest.length ≥ 4 ∧ c.rest.take 4 = [0x74, 0x72, 0x75, 0x65] then
    .ok false (p.visit (.on_primitive_value .True c.pos 4), c.advance 4)
  else if c.rest.length ≥ 4 ∧ c.rest.take 4 = [0x6E, 0x75, 0x6C, 0x6C] then
    .ok false (p.visit (.on_primitive_value .Null c.pos 4), c.advance 4)
  else if c.rest.length ≥ 5 ∧ c.rest.take 5 = [0x66, 0x61, 0x6C, 0x73, 0x65] then
    .ok false (p.visit (.on_primitive_value .False c.pos 5), c.advance 5)
  else .throw (json_parse_error "Invalid: value expected") (p, c)

/-- The `do … while (*pos != end)` loop of `parse_value`; the counter is the number of
passes (a pass that leaves the `switch` by `break` has stored the phase of a collection,
and the pass after it returns). -/
def parse_value : Nat → JsonParserImpl → Cursor → Res ParseState Bool
  | 0, _, _ => .fuel
  | fuel + 1, p, c =>
    match p.back.parse_value with
    | .initial =>
      if c.rest = [] then .throw (json_parse_error "End of data: value expected") (p, c)
      else if c.peek = 0x7B then
        let p1 := p.set_back fun s => { s with parse_value := .parse_object }
        if c.rest ≠ [] then parse_value fuel p1 c else .ok false (p1, c)
      else if c.peek = 0x5B then
        let p1 := p.set_back fun s => { s with parse_value := .parse_array }
        if c.rest ≠ [] then parse_value fuel p1 c else .ok false (p1, c)
      else parse_primitive p c
    | .parse_object => parse_object 2 p c
    | .parse_array => parse_array 2 p c

def parse_element (p : JsonParserImpl) (c : Cursor) : Res ParseState Bool :=
  let s0 : ParseState :=
    match p.back.parse_element with
    | .initial => (p.set_back fun s => { s with parse_element := .parse_value }, chomp_whitespace c)
    | .parse_value => (p, c)
  (parse_value 2 s0.1 s0.2).bind fun call_again s1 =>
    if call_again then .ok call_again s1
    else .ok false (s1.1, chomp_whitespace s1.2)

/-- The `do … while (pos != end)` loop of `parse_json`. -/
def parse_json_loop : Nat → JsonParserImpl → Cursor → Res ParseState Unit
  | 0, _, _ => .fuel
  | fuel + 1, p, c =>
    (parse_element p c).bind fun call_again s1 =>
      let p2 := if !call_again then dec_depth s1.1 else s1.1
      if p2.state_ = [] ∧ s1.2.rest ≠ [] then
        .throw (json_parse_error "Invalid: extra data present after JSON") (p2, s1.2)
      else if s1.2.rest ≠ [] then parse_json_loop fuel p2 s1.2
      else .ok () (p2, s1.2)

/-- The member `parse_json(begin, end)` on the bytes `input` of `[begin, end)`: the value
returned, or the exception thrown, with the parser object and `pos` as they are left. -/
def parse_json (p : JsonParserImpl) (input : Bytes) : Res ParseState Bool :=
  (inc_depth { p with state_ := [] } ⟨0, input⟩).bind fun _ s0 =>
    let tried : Res ParseState Unit :=
      (parse_json_loop (input.length + 1) s0.1 s0.2).bind fun _ s1 =>
        if s1.1.state_ ≠ [] then .throw (json_parse_error "Invalid: JSON truncated") s1
        else .ok () s1
    match tried with
    | .ok _ s2 => .ok (decide (s2.2.rest = [])) s2
    | .throw e s2 =>
      .throw (json_parse_error (e.what ++ " (offset=" ++ toString s2.2.pos ++ ")")) s2
    | .fuel => .fuel

/-- A parser as constructed: empty stack, a visitor that has received nothing. -/
def JsonParser (depth_limit : Nat) : JsonParserImpl := ⟨[], [], depth_limit⟩

/-! ## The JSON grammar (reference)

A JSON text as a syntax tree that keeps its insignificant whitespace, so that the text and
every byte span can be read off the tree.  With `element = ws value ws` and
`member = ws string ws ':' element`, an array that is not empty is
`'[' element (',' element)* ']'` and an object that is not empty is
`'{' member (',' member)* '}'`. -/

mutual
/-- A JSON value as written. -/
inductive JsonValue
  | primitive (type : JsonValueType) (text : Bytes)
  | empty_array (ws : Bytes)
  | array (ws1 : Bytes) (first : JsonValue) (ws2 : Bytes) (more : JsonElements)
  | empty_object (ws : Bytes)
  | object (ws1 : Bytes) (key : Bytes) (ws2 : Bytes) (ws3 : Bytes) (first : JsonValue)
      (ws4 : Bytes) (more : JsonMembers)
/-- The further elements of an array, each written after a comma. -/
inductive JsonElements
  | nil
  | cons (ws1 : Bytes) (value : JsonValue) (ws2 : Bytes) (tail : JsonElements)
/-- The further members of an object, each written after a comma. -/
inductive JsonMembers
  | nil
  | cons (ws1 : Bytes) (key : Bytes) (ws2 : Bytes) (ws3 : Bytes) (value : JsonValue)
      (ws4 : Bytes) (tail : JsonMembers)
end

/-- The text of a primitive token: a string is written between quotes. -/
def primitive_text (type : JsonValueType) (text : Bytes) : Bytes :=
  if type = .String then 0x22 :: (text ++ [0x22]) else text

/-- The text `ws '"' key '"' ws ':'` that precedes the value of a member. -/
def key_text (ws1 key ws2 : Bytes) : Bytes :=
  ws1 ++ (0x22 :: (key ++ 0x22 :: (ws2 ++ [0x3A])))

mutual
/-- The text of a value. -/
def JsonValue.render : JsonValue → Bytes
  | .primitive type text => primitive_text type text
  | .empty_array ws => 0x5B :: (ws ++ [0x5D])
  | .array ws1 v ws2 more => 0x5B :: (ws1 ++ (v.render ++ (ws2 ++ (more.render ++ [0x5D]))))
  | .empty_object ws => 0x7B :: (ws ++ [0x7D])
  | .object ws1 key ws2 ws3 v ws4 more =>
    0x7B :: (key_text ws1 key ws2 ++ (ws3 ++ (v.render ++ (ws4 ++ (more.render ++ [0x7D])))))
/-- The text of the further elements, commas included. -/
def JsonElements.render : JsonElements → Bytes
  | .nil => []
  | .cons ws1 v ws2 tl => 0x2C :: (ws1 ++ (v.render ++ (ws2 ++ tl.render)))
/-- The text of the further members, commas included. -/
def JsonMembers.render : JsonMembers → Bytes
  | .nil => []
  | .cons ws1 key ws2 ws3 v ws4 tl =>
    0x2C :: (key_text ws1 key ws2 ++ (ws3 ++ (v.render ++ (ws4 ++ tl.render))))
end

/-- Insignificant whitespace: space, tab, CR and LF only. -/
def IsWhitespace (ws : Bytes) : Prop := ∀ b ∈ ws, is_whitespace b = true

/-- A Unicode scalar value. -/
def IsScalar (cp : Nat) : Prop := cp ≤ 0x10FFFF ∧ ¬ (0xD800 ≤ cp ∧ cp ≤ 0xDFFF)

/-- The standard (shortest form) UTF-8 encoding of a scalar value. -/
def utf8_encode (cp : Nat) : Bytes :=
  if cp < 0x80 then [cp]
  else if cp < 0x800 then [0xC0 + cp / 64, 0x80 + cp % 64]
  else if cp < 0x10000 then [0xE0 + cp / 4096, 0x80 + cp / 64 % 64, 0x80 + cp % 64]
  else [0xF0 + cp / 262144, 0x80 + cp / 4096 % 64, 0x80 + cp / 64 % 64, 0x80 + cp % 64]

/-- The value of four hexadecimal digits. -/
def hex4_value (d1 d2 d3 d4 : Nat) : Nat :=
  hex_to_dec d1 * 4096 + hex_to_dec d2 * 256 + hex_to_dec d3 * 16 + hex_to_dec d4

/-- One character of a JSON string as it is written between the quotes. -/
inductive StringItem
  | char (cp : Nat)
  | escape (e : Nat)
  | hex (d1 d2 d3 d4 : Nat)
  | pair (h1 h2 h3 h4 l1 l2 l3 l4 : Nat)

def StringItem.render : StringItem → Bytes
  | .char cp => utf8_encode cp
  | .escape e => [0x5C, e]
  | .hex d1 d2 d3 d4 => [0x5C, 0x75, d1, d2, d3, d4]
  | .pair h1 h2 h3 h4 l1 l2 l3 l4 => [0x5C, 0x75, h1, h2, h3, h4, 0x5C, 0x75, l1, l2, l3, l4]

/-- The characters of the standard grammar: an unescaped scalar value other than a control
character, the quote and the backslash, in UTF-8; a short escape; a `\u` escape of a code
point that is not a surrogate; a `\u` escape of a high surrogate immediately followed by a
`\u` escape of a low surrogate. -/
def StringItem.Valid : StringItem → Prop
  | .char cp => IsScalar cp ∧ 0x20 ≤ cp ∧ cp ≠ 0x22 ∧ cp ≠ 0x5C
  | .escape e => e ∈ [0x22, 0x5C, 0x2F, 0x62, 0x66, 0x6E, 0x72, 0x74]
  | .hex d1 d2 d3 d4 =>
    is_hex d1 = true ∧ is_hex d2 = true ∧ is_hex d3 = true ∧ is_hex d4 = true ∧
      ¬ (0xD800 ≤ hex4_value d1 d2 d3 d4 ∧ hex4_value d1 d2 d3 d4 ≤ 0xDFFF)
  | .pair h1 h2 h3 h4 l1 l2 l3 l4 =>
    is_hex h1 = true ∧ is_hex h2 = true ∧ is_hex h3 = true ∧ is_hex h4 = true ∧
      is_hex l1 = true ∧ is_hex l2 = true ∧ is_hex l3 = true ∧ is_hex l4 = true ∧
      (0xD800 ≤ hex4_value h1 h2 h3 h4 ∧ hex4_value h1 h2 h3 h4 ≤ 0xDBFF) ∧
      (0xDC00 ≤ hex4_value l1 l2 l3 l4 ∧ hex4_value l1 l2 l3 l4 ≤ 0xDFFF)

def render_string : List StringItem → Bytes
  | [] => []
  | i :: rest => i.render ++ render_string rest

/-- The bytes between the quotes of a string of the standard grammar. -/
def IsStringContent (s : Bytes) : Prop :=
  ∃ items : List StringItem, (∀ i ∈ items, i.Valid) ∧ s = render_string items

def IsDigits (ds : Bytes) : Prop := ∀ d ∈ ds, is_dec d = true

/-- `int = "0" / ( digit1-9 *DIGIT )`. -/
def IsInt (s : Bytes) : Prop :=
  s = [0x30] ∨ ∃ d ds, s = d :: ds ∧ 0x31 ≤ d ∧ d ≤ 0x39 ∧ IsDigits ds

/-- `[ frac ]`, `frac = "." 1*DIGIT`. -/
def IsFrac (s : Bytes) : Prop :=
  s = [] ∨ ∃ d ds, s = 0x2E :: d :: ds ∧ is_dec d = true ∧ IsDigits ds

/-- `[ exp ]`, `exp = ("e" / "E") [ "-" / "+" ] 1*DIGIT`. -/
def IsExp (s : Bytes) : Prop :=
  s = [] ∨ ∃ e sign d ds, s = e :: (sign ++ d :: ds) ∧ (e = 0x65 ∨ e = 0x45) ∧
    (sign = [] ∨ sign = [0x2D] ∨ sign = [0x2B]) ∧ is_dec d = true ∧ IsDigits ds

/-- `number = [ "-" ] int [ frac ] [ exp ]`. -/
def IsNumber (s : Bytes) : Prop :=
  ∃ sign i f e, s = sign ++ (i ++ (f ++ e)) ∧ (sign = [] ∨ sign = [0x2D]) ∧
    IsInt i ∧ IsFrac f ∧ IsExp e

/-- The tokens of the standard grammar. -/
def IsPrimitive (type : JsonValueType) (text : Bytes) : Prop :=
  match type with
  | .True => text = [0x74, 0x72, 0x75, 0x65]
  | .False => text = [0x66, 0x61, 0x6C, 0x73, 0x65]
  | .Null => text = [0x6E, 0x75, 0x6C, 0x6C]
  | .Number => IsNumber text
  | .String => IsStringContent text
  | .Array => False
  | .Object => False

mutual
/-- A value of the standard grammar. -/
def JsonValue.Valid : JsonValue → Prop
  | .primitive type text => IsPrimitive type text
  | .empty_array ws => IsWhitespace ws
  | .array ws1 v ws2 more => IsWhitespace ws1 ∧ v.Valid ∧ IsWhitespace ws2 ∧ more.Valid
  | .empty_object ws => IsWhitespace ws
  | .object ws1 key ws2 ws3 v ws4 more =>
    IsWhitespace ws1 ∧ IsStringContent key ∧ IsWhitespace ws2 ∧ IsWhitespace ws3 ∧ v.Valid ∧
      IsWhitespace ws4 ∧ more.Valid
def JsonElements.Valid : JsonElements → Prop
  | .nil => True
  | .cons ws1 v ws2 tl => IsWhitespace ws1 ∧ v.Valid ∧ IsWhitespace ws2 ∧ tl.Valid
def JsonMembers.Valid : JsonMembers → Prop
  | .nil => True
  | .cons ws1 key ws2 ws3 v ws4 tl =>
    IsWhitespace ws1 ∧ IsStringContent key ∧ IsWhitespace ws2 ∧ IsWhitespace ws3 ∧ v.Valid ∧
      IsWhitespace ws4 ∧ tl.Valid
end

/-- A JSON text: one value surrounded by optional whitespace. -/
structure JsonText where
  ws1 : Bytes
  value : JsonValue
  ws2 : Bytes

def JsonText.render (t : JsonText) : Bytes := t.ws1 ++ (t.value.render ++ t.ws2)

def JsonText.Valid (t : JsonText) : Prop :=
  IsWhitespace t.ws1 ∧ t.value.Valid ∧ IsWhitespace t.ws2

/-! ## What a parse of a text of the grammar is expected to do -/

mutual
/-- The events of a value whose text starts at offset `s`, in document order. -/
def JsonValue.events : Nat → JsonValue → List Event
  | s, .primitive type text =>
    [.on_primitive_value type (if type = .String then s + 1 else s) text.length]
  | s, .empty_array ws => [.on_array_start s, .on_array_end s (ws.length + 2)]
  | s, .array ws1 v ws2 more =>
    .on_array_start s :: (v.events (s + 1 + ws1.length) ++
      (more.events (s + 1 + ws1.length + v.render.length + ws2.length) ++
        [.on_array_end s (JsonValue.array ws1 v ws2 more).render.length]))
  | s, .empty_object ws => [.on_object_start s, .on_object_end s (ws.length + 2)]
  | s, .object ws1 key ws2 ws3 v ws4 more =>
    .on_object_start s :: .on_object_key (s + 1 + ws1.length + 1) key.length ::
      (v.events (s + 1 + (key_text ws1 key ws2).length + ws3.length) ++
        (more.events
            (s + 1 + (key_text ws1 key ws2).length + ws3.length + v.render.length + ws4.length) ++
          [.on_object_end s (JsonValue.object ws1 key ws2 ws3 v ws4 more).render.length]))
/-- The events of the further elements; `s` is the offset of the first comma. -/
def JsonElements.events : Nat → JsonElements → List Event
  | _, .nil => []
  | s, .cons ws1 v ws2 tl =>
    v.events (s + 1 + ws1.length) ++ tl.events (s + 1 + ws1.length + v.render.length + ws2.length)
/-- The events of the further members; `s` is the offset of the first comma. -/
def JsonMembers.events : Nat → JsonMembers → List Event
  | _, .nil => []
  | s, .cons ws1 key ws2 ws3 v ws4 tl =>
    .on_object_key (s + 1 + ws1.length + 1) key.length ::
      (v.events (s + 1 + (key_text ws1 key ws2).length + ws3.length) ++
        tl.events
          (s + 1 + (key_text ws1 key ws2).length + ws3.length + v.render.length + ws4.length))
end

mutual
/-- The depth of the deepest value below a value: 0 for a primitive or an empty
collection, one more than the deepest element or member value otherwise. -/
def JsonValue.height : JsonValue → Nat
  | .primitive _ _ => 0
  | .empty_array _ => 0
  | .array _ v _ more => 1 + max v.height more.height
  | .empty_object _ => 0
  | .object _ _ _ _ v _ more => 1 + max v.height more.height
def JsonElements.height : JsonElements → Nat
  | .nil => 0
  | .cons _ v _ tl => max v.height tl.height
def JsonMembers.height : JsonMembers → Nat
  | .nil => 0
  | .cons _ _ _ _ v _ tl => max v.height tl.height
end

mutual
/-- The depths of the values of a text, in document order: the root value is at depth `d`
and each element or member value is one deeper than its array or object. -/
def JsonValue.depths : Nat → JsonValue → List Nat
  | d, .primitive _ _ => [d]
  | d, .empty_array _ => [d]
  | d, .array _ v _ more => d :: (v.depths (d + 1) ++ more.depths (d + 1))
  | d, .empty_object _ => [d]
  | d, .object _ _ _ _ v _ more => d :: (v.depths (d + 1) ++ more.depths (d + 1))
def JsonElements.depths : Nat → JsonElements → List Nat
  | _, .nil => []
  | d, .cons _ v _ tl => v.depths d ++ tl.depths d
def JsonMembers.depths : Nat → JsonMembers → List Nat
  | _, .nil => []
  | d, .cons _ _ _ _ v _ tl => v.depths d ++ tl.depths d
end

mutual
/-- The greatest number of arrays and objects of a text that are open at the same place,
the outermost one counting as 1. -/
def JsonValue.open_collections : JsonValue → Nat
  | .primitive _ _ => 0
  | .empty_array _ => 1
  | .array _ v _ more => 1 + max v.open_collections more.open_collections
  | .empty_object _ => 1
  | .object _ _ _ _ v _ more => 1 + max v.open_collections more.open_collections
def JsonElements.open_collections : JsonElements → Nat
  | .nil => 0
  | .cons _ v _ tl => max v.open_collections tl.open_collections
def JsonMembers.open_collections : JsonMembers → Nat
  | .nil => 0
  | .cons _ _ _ _ v _ tl => max v.open_collections tl.open_collections
end

mutual
/-- The greatest number of values of a text that are open at the same place: a value is
open from its first byte to its last, so the root value counts as 1 and an element or a
member value is open together with every array and object around it. -/
def JsonValue.open_values : JsonValue → Nat
  | .primitive _ _ => 1
  | .empty_array _ => 1
  | .array _ v _ more => 1 + max v.open_values more.open_values
  | .empty_object _ => 1
  | .object _ _ _ _ v _ more => 1 + max v.open_values more.open_values
def JsonElements.open_values : JsonElements → Nat
  | .nil => 0
  | .cons _ v _ tl => max v.open_values tl.open_values
def JsonMembers.open_values : JsonMembers → Nat
  | .nil => 0
  | .cons _ _ _ _ v _ tl => max v.open_values tl.open_values
end

mutual
/-- The number of passes of the loop of `parse_json` that a value takes. -/
def JsonValue.steps : JsonValue → Nat
  | .primitive _ _ => 1
  | .empty_array _ => 1
  | .array _ v _ more => 1 + (v.steps + more.steps)
  | .empty_object _ => 1
  | .object _ _ _ _ v _ more => 1 + (v.steps + more.steps)
def JsonElements.steps : JsonElements → Nat
  | .nil => 1
  | .cons _ v _ tl => 1 + (v.steps + tl.steps)
def JsonMembers.steps : JsonMembers → Nat
  | .nil => 1
  | .cons _ _ _ _ v _ tl => 1 + (v.steps + tl.steps)
end

/-- The first byte of `t`, if there is one, satisfies `P`. -/
def HeadIs (P : Nat → Prop) (t : Bytes) : Prop := ∀ b r, t = b :: r → P b

/-- A byte that cannot continue a number. -/
def StopsNumber (b : Nat) : Prop := is_dec b = false ∧ b ≠ 0x2E ∧ b ≠ 0x65 ∧ b ≠ 0x45

/-- A byte that follows an element inside a collection: a comma or a closing bracket. -/
def Delimiter (b : Nat) : Prop := b = 0x2C ∨ b = 0x5D ∨ b = 0x7D

/-- A byte that starts a value of the grammar. -/
def ValueStart (b : Nat) : Prop :=
  b = 0x22 ∨ b = 0x2D ∨ is_dec b = true ∨ b = 0x74 ∨ b = 0x66 ∨ b = 0x6E ∨ b = 0x5B ∨ b = 0x7B

/-- The frame of a value whose token has not been reached: whitespace may have been
skipped. -/
def value_frame : State := { parse_element := .parse_value }

/-- The frame of an array that started at offset `start` and awaits a comma or its end. -/
def array_frame (start : Nat) : State :=
  { parse_element := .parse_value, parse_value := .parse_array, parse_array := .element_read,
    start := start }

/-- The frame of an object that started at offset `start` and awaits a comma or its end. -/
def object_frame (start : Nat) : State :=
  { parse_element := .parse_value, parse_value := .parse_object, parse_object := .member_read,
    start := start }

/-- The part of a pass of the loop of `parse_json` that follows `dec_depth`: the test for
extra data and the loop condition, then the further passes. -/
def loop_tail (fuel : Nat) (p : JsonParserImpl) (c : Cursor) : Res ParseState Unit :=
  if p.state_ = [] ∧ c.rest ≠ [] then
    .throw (json_parse_error "Invalid: extra data present after JSON") (p, c)
  else if c.rest ≠ [] then parse_json_loop fuel p c
  else .ok () (p, c)

/-! ## The grammar read on bytes

The same grammar with the body of a string taken byte by byte: a byte from 0x20 on other
than the quote and the backslash, a short escape, or `\u` and four hexadecimal digits.
Whether the bytes are well-formed UTF-8 and whether surrogate escapes are paired is not
part of it. -/

/-- The bytes between the quotes of a string, read byte by byte. -/
inductive IsStringShape : Bytes → Prop
  | nil : IsStringShape []
  | raw (b : Nat) (rest : Bytes) : 0x20 ≤ b → b ≠ 0x22 → b ≠ 0x5C → IsStringShape rest →
      IsStringShape (b :: rest)
  | escape (e : Nat) (rest : Bytes) : e ∈ [0x22, 0x5C, 0x2F, 0x62, 0x66, 0x6E, 0x72, 0x74] →
      IsStringShape rest → IsStringShape (0x5C :: e :: rest)
  | hex (d1 d2 d3 d4 : Nat) (rest : Bytes) : is_hex d1 = true → is_hex d2 = true →
      is_hex d3 = true → is_hex d4 = true → IsStringShape rest →
      IsStringShape (0x5C :: 0x75 :: d1 :: d2 :: d3 :: d4 :: rest)

/-- The tokens of the grammar read on bytes. -/
def IsPrimitiveShape (type : JsonValueType) (text : Bytes) : Prop :=
  match type with
  | .True => text = [0x74, 0x72, 0x75, 0x65]
  | .False => text = [0x66, 0x61, 0x6C, 0x73, 0x65]
  | .Null => text = [0x6E, 0x75, 0x6C, 0x6C]
  | .Number => IsNumber text
  | .String => IsStringShape text
  | .Array => False
  | .Object => False

mutual
/-- A value of the grammar read on bytes. -/
def JsonValue.Shaped : JsonValue → Prop
  | .primitive type text => IsPrimitiveShape type text
  | .empty_array ws => IsWhitespace ws
  | .array ws1 v ws2 more => IsWhitespace ws1 ∧ v.Shaped ∧ IsWhitespace ws2 ∧ more.Shaped
  | .empty_object ws => IsWhitespace ws
  | .object ws1 key ws2 ws3 v ws4 more =>
    IsWhitespace ws1 ∧ IsStringShape key ∧ IsWhitespace ws2 ∧ IsWhitespace ws3 ∧ v.Shaped ∧
      IsWhitespace ws4 ∧ more.Shaped
def JsonElements.Shaped : JsonElements → Prop
  | .nil => True
  | .cons ws1 v ws2 tl => IsWhitespace ws1 ∧ v.Shaped ∧ IsWhitespace ws2 ∧ tl.Shaped
def JsonMembers.Shaped : JsonMembers → Prop
  | .nil => True
  | .cons ws1 key ws2 ws3 v ws4 tl =>
    IsWhitespace ws1 ∧ IsStringShape key ∧ IsWhitespace ws2 ∧ IsWhitespace ws3 ∧ v.Shaped ∧
      IsWhitespace ws4 ∧ tl.Shaped
end

def JsonText.Shaped (t : JsonText) : Prop :=
  IsWhitespace t.ws1 ∧ t.value.Shaped ∧ IsWhitespace t.ws2

/-- The further elements with one more element at their end. -/
def JsonElements.snoc : JsonElements → Bytes → JsonValue → Bytes → JsonElements
  | .nil, w1, v, w2 => .cons w1 v w2 .nil
  | .cons a x b tl, w1, v, w2 => .cons a x b (tl.snoc w1 v w2)

/-- The further members with one more member at their end. -/
def JsonMembers.snoc :
    JsonMembers → Bytes → Bytes → Bytes → Bytes → JsonValue → Bytes → JsonMembers
  | .nil, w1, k, w2, w3, v, w4 => .cons w1 k w2 w3 v w4 .nil
  | .cons a kk b c x d tl, w1, k, w2, w3, v, w4 =>
    .cons a kk b c x d (tl.snoc w1 k w2 w3 v w4)

/-! ## What a call has read -/

/-- The position `c'` is the position `c` moved forward inside the same buffer. -/
def Cursor.Reaches (c c' : Cursor) : Prop :=
  ∃ t, c.rest = t ++ c'.rest ∧ c'.pos = c.pos + t.length

/-- A call started at `c` ended: it returned `a` having read the bytes `t` with `P a t`, or
it threw at a position reached from `c`. -/
def Res.Consumes {α : Type} (r : Res Cursor α) (c : Cursor) (P : α → Bytes → Prop) : Prop :=
  match r with
  | .ok a c' => ∃ t, c.rest = t ++ c'.rest ∧ c'.pos = c.pos + t.length ∧ P a t
  | .throw _ c' => c.Reaches c'
  | .fuel => False

/-- The text of an element: a value between optional whitespace. -/
def IsElement (e : Bytes) : Prop :=
  ∃ t : JsonText, t.Shaped ∧ t.render = e

/-- The text read by the frame of an array that awaits an element. -/
def ArrayOpen (x : Bytes) : Prop :=
  ∃ ws0, IsWhitespace ws0 ∧
    ((∃ ws1, IsWhitespace ws1 ∧ x = ws0 ++ 0x5B :: ws1) ∨
      ∃ w1 v w2 more, IsWhitespace w1 ∧ JsonValue.Shaped v ∧ IsWhitespace w2 ∧
        JsonElements.Shaped more ∧
        x = ws0 ++ 0x5B :: (w1 ++ (v.render ++ (w2 ++ (more.render ++ [0x2C])))))

/-- The text read by the frame of an array after one of its elements. -/
def ArrayMid (x : Bytes) : Prop :=
  ∃ ws0 w1 v w2 more, IsWhitespace ws0 ∧ IsWhitespace w1 ∧ JsonValue.Shaped v ∧
    IsWhitespace w2 ∧ JsonElements.Shaped more ∧
    x = ws0 ++ 0x5B :: (w1 ++ (v.render ++ (w2 ++ more.render)))

/-- The text read by the frame of an object that awaits the value of a member. -/
def ObjectOpen (x : Bytes) : Prop :=
  ∃ ws0 k1 key k2, IsWhitespace ws0 ∧ IsWhitespace k1 ∧ IsStringShape key ∧
    IsWhitespace k2 ∧
    ((x = ws0 ++ 0x7B :: key_text k1 key k2) ∨
      ∃ w1 key1 w2 w3 v w4 more, IsWhitespace w1 ∧ IsStringShape key1 ∧ IsWhitespace w2 ∧
        IsWhitespace w3 ∧ JsonValue.Shaped v ∧ IsWhitespace w4 ∧ JsonMembers.Shaped more ∧
        x = ws0 ++ 0x7B :: (key_text w1 key1 w2 ++ (w3 ++ (v.render ++ (w4 ++
          (more.render ++ 0x2C :: key_text k1 key k2))))))

/-- The text read by the frame of an object after one of its members. -/
def ObjectMid (x : Bytes) : Prop :=
  ∃ ws0 w1 key1 w2 w3 v w4 more, IsWhitespace ws0 ∧ IsWhitespace w1 ∧ IsStringShape key1 ∧
    IsWhitespace w2 ∧ IsWhitespace w3 ∧ JsonValue.Shaped v ∧ IsWhitespace w4 ∧
    JsonMembers.Shaped more ∧
    x = ws0 ++ 0x7B :: (key_text w1 key1 w2 ++ (w3 ++ (v.render ++ (w4 ++ more.render))))

/-- The frames of the stack all await an element, and `pre` is the text read so far. -/
def Awaiting : List State → Bytes → Prop
  | [], pre => pre = []
  | f :: below, pre =>
    ∃ pre0 x, pre = pre0 ++ x ∧ Awaiting below pre0 ∧
      (((∃ s, f = array_frame s) ∧ ArrayOpen x) ∨ ((∃ s, f = object_frame s) ∧ ObjectOpen x))

/-- An element has just ended: with an empty stack `pre` is a whole text, otherwise the top
frame is that of the collection that holds the element. -/
def AfterElement : List State → Bytes → Prop
  | [], pre => IsElement pre
  | f :: below, pre =>
    ∃ pre0 x, pre = pre0 ++ x ∧ Awaiting below pre0 ∧
      (((∃ s, f = array_frame s) ∧ ArrayMid x) ∨ ((∃ s, f = object_frame s) ∧ ObjectMid x))

/-- The stack and the text read so far, between two passes of the loop of `parse_json`:
a fresh frame on frames that await its element, or the state after an element. -/
def BetweenPasses (stack : List State) (pre : Bytes) : Prop :=
  (∃ below, stack = {} :: below ∧ Awaiting below pre) ∨ AfterElement stack pre

/-- A call started at `c` on the parser state ended: it returned `a` having read the bytes
`t` and left the parser `p'` with `P a p' t`, or it threw at a position reached from `c`. -/
def Res.Steps {α : Type} (r : Res ParseState α) (c : Cursor)
    (P : α → JsonParserImpl → Bytes → Prop) : Prop :=
  match r with
  | .ok a s => ∃ t, c.rest = t ++ s.2.rest ∧ s.2.pos = c.pos + t.length ∧ P a s.1 t
  | .throw _ s => c.Reaches s.2
  | .fuel => False

/-! ## Example texts -/

/-- The text ` [1]` with a space before it. -/
def example_text : JsonText :=
  ⟨[0x20], .array [] (.primitive .Number [0x31]) [] .nil, []⟩

/-- The text `[1]`. -/
def array_of_one : JsonText :=
  ⟨[], .array [] (.primitive .Number [0x31]) [] .nil, []⟩

end flumps


namespace flumps

/-! ## json_value_path.h

The dispatcher uses a path through `segments()` only. -/

/-- The struct `JsonValuePath::PathSegment`: a key, empty for an array segment. -/
structure PathSegment where
  key : Bytes
  deriving DecidableEq, Repr

def PathSegment.is_array (s : PathSegment) : Bool := s.key.isEmpty

def PathSegment.is_object (s : PathSegment) : Bool := !s.key.isEmpty

/-- The class `JsonValuePath`: its member `path_`, which `segments()` returns. -/
structure JsonValuePath where
  path_ : List PathSegment
  deriving DecidableEq, Repr

def JsonValuePath.segments (p : JsonValuePath) : List PathSegment := p.path_

/-! ## detail/json_callback_visitor_impl.h

A callback is known by the number given to it at its registration, and a call of it is
recorded with its arguments.  The tree of nodes is not changed by a parse, so the pointer
`pos_` is held as the node it points to followed by the chain of `parent` nodes up to the
root; a null pointer is the empty chain.  An `assert` that fails, a null pointer that is
followed and a `resize` to a wrapped-around size give no next state. -/

/-- The enum `Node::Type`. -/
inductive NodeType
  | Object
  | Array
  | Key
  deriving DecidableEq, Repr

/-- The struct `Node` without `parent`. -/
inductive Node where
  | mk (type : NodeType) (callbacks : List Nat) (children : List Node) (key : Bytes)

def Node.type : Node → NodeType
  | .mk t _ _ _ => t

def Node.callbacks : Node → List Nat
  | .mk _ cbs _ _ => cbs

def Node.children : Node → List Node
  | .mk _ _ cs _ => cs

def Node.key : Node → Bytes
  | .mk _ _ _ k => k

def Node.root_node : Node := .mk .Key [] [] []

def Node.key_node (key : Bytes) : Node := .mk .Key [] [] key

def Node.object_node : Node := .mk .Object [] [] []

def Node.array_node : Node := .mk .Array [] [] []

/-- The enum `OverFlowType`, the characters of `overflow_`. -/
inductive OverFlowType
  | Object
  | Array
  | Key
  deriving DecidableEq, Repr

structure JsonCollectionTraits where
  node_type : NodeType
  overflow_type : OverFlowType
  value_type : JsonValueType
  node_repr : Bytes

def json_object_traits : JsonCollectionTraits := ⟨.Object, .Object, .Object, [0x2E]⟩

def json_array_traits : JsonCollectionTraits := ⟨.Array, .Array, .Array, [0x5B, 0x5D]⟩

/-- A call `callback(type, path, data, length)` of a registered callback; `data` is an
offset from the start of the input. -/
structure Invocation where
  callback : Nat
  type : JsonValueType
  path : Bytes
  data : Nat
  length : Nat
  deriving DecidableEq, Repr

/-- The dispatcher: `overflow_` with `overflow_.back()` at the head of the list, and the
calls of callbacks made so far. -/
structure JsonCallbackVisitorImpl where
  root_ : Node
  pos_ : List Node
  overflow_ : List OverFlowType
  path_ : Bytes
  invoked : List Invocation

/-- A dispatcher as constructed: `pos_` points to the root. -/
def JsonCallbackVisitor : JsonCallbackVisitorImpl :=
  ⟨Node.root_node, [Node.root_node], [], [], []⟩

/-- In the children of a node: `std::find_if` with `pred`, a `push_back` of `fresh` when
nothing matches, and the change `f` made through the pointer `match->get()`. -/
def update_match (pred : Node → Bool) (fresh : Node) (f : Node → Node) : List Node → List Node
  | [] => [f fresh]
  | c :: rest => if pred c then f c :: rest else c :: update_match pred fresh f rest

/-- The loop of `register_callback` from `insert_pos` on, and the `emplace_back` of the
callback that follows it: the node `insert_pos` as it is left. -/
def register_segments : List PathSegment → Nat → Node → Node
  | [], callback, .mk t cbs cs k => .mk t (cbs ++ [callback]) cs k
  | segment :: rest, callback, .mk t cbs cs k =>
    if segment.is_object then
      .mk t cbs (update_match (fun c => c.type = .Object) Node.object_node
        (fun o => .mk o.type o.callbacks
          (update_match (fun c => c.type = .Key ∧ c.key = segment.key)
            (Node.key_node segment.key) (register_segments rest callback) o.children) o.key)
        cs) k
    else
      .mk t cbs (update_match (fun c => c.type = .Array) Node.array_node
        (register_segments rest callback) cs) k

/-- The member `register_callback`, called while `pos_` points to the root, as it does
before and after every parse. -/
def JsonCallbackVisitorImpl.register_callback (v : JsonCallbackVisitorImpl)
    (path : JsonValuePath) (callback : Nat) : JsonCallbackVisitorImpl :=
  let root := register_segments path.segments callback v.root_
  { v with root_ := root, pos_ := [root] }

/-- The call `s.resize(s.size() - k)`: with `k > s.size()` the unsigned difference wraps
around and `resize` throws. -/
def shrink (s : Bytes) (k : Nat) : Option Bytes :=
  if k ≤ s.length then some (s.take (s.length - k)) else none

def JsonCallbackVisitorImpl.exec_callbacks (v : JsonCallbackVisitorImpl)
    (type : JsonValueType) (data length : Nat) : Option JsonCallbackVisitorImpl :=
  match v.pos_ with
  | [] => none
  | n :: _ =>
    some { v with invoked := v.invoked ++ n.callbacks.map fun callback =>
      ⟨callback, type, if v.path_.isEmpty then [0x2E] else v.path_, data, length⟩ }

/-- The statement `if (pos_->parent != nullptr && pos_->parent->type == Node::Type::Object)`
with its body, which follows every call of `exec_callbacks`. -/
def JsonCallbackVisitorImpl.step_back_up (v : JsonCallbackVisitorImpl) :
    Option JsonCallbackVisitorImpl :=
  match v.pos_ with
  | [] => none
  | [_] => some v
  | n :: p :: above =>
    if p.type = .Object then
      (shrink v.path_ n.key.length).map fun path => { v with path_ := path, pos_ := p :: above }
    else some v

/-- The member `do_collection_start`; its `assert` requires a node that is not an object
node, or a last overflow character that is not the one of an object. -/
def JsonCallbackVisitorImpl.do_collection_start (v : JsonCallbackVisitorImpl)
    (traits : JsonCollectionTraits) : Option JsonCallbackVisitorImpl :=
  match v.overflow_, v.pos_ with
  | [], [] => none
  | [], n :: above =>
    if n.type = .Object then none
    else
      match n.children.find? (fun c => c.type = traits.node_type) with
      | some c =>
        let path := if v.path_.isEmpty ∧ traits.node_type = .Array then v.path_ ++ [0x2E]
          else v.path_
        some { v with pos_ := c :: n :: above, path_ := path ++ traits.node_repr }
      | none => some { v with overflow_ := traits.overflow_type :: v.overflow_ }
  | back :: _, _ =>
    if back = .Object then none
    else some { v with overflow_ := traits.overflow_type :: v.overflow_ }

/-- The member `do_collection_end`; its `assert` requires a node of the type of the
collection that has a parent, or the overflow character of the collection. -/
def JsonCallbackVisitorImpl.do_collection_end (v : JsonCallbackVisitorImpl)
    (traits : JsonCollectionTraits) (start length : Nat) : Option JsonCallbackVisitorImpl :=
  match v.overflow_, v.pos_ with
  | [], [] => none
  | [], [_] => none
  | [], n :: p :: above =>
    if n.type ≠ traits.node_type then none
    else
      (shrink v.path_ traits.node_repr.length).bind fun path1 =>
        let path2 := if traits.node_type = .Array ∧ path1.length = 1 then [] else path1
        ({ v with path_ := path2, pos_ := p :: above }.exec_callbacks traits.value_type start
          length).bind fun v1 => v1.step_back_up
  | back :: below, _ =>
    if back ≠ traits.overflow_type then none
    else
      let v1 := { v with overflow_ := below }
      match below with
      | [] => (v1.exec_callbacks traits.value_type start length).bind fun v2 => v2.step_back_up
      | back1 :: below1 =>
        if back1 = .Key then some { v1 with overflow_ := below1 } else some v1

def JsonCallbackVisitorImpl.on_object_start (v : JsonCallbackVisitorImpl) (_start : Nat) :
    Option JsonCallbackVisitorImpl :=
  v.do_collection_start json_object_traits

/-- The member `on_object_key`; `key` holds the `length` bytes at `start`.  Its `assert`
requires an object node, or the overflow character of an object. -/
def JsonCallbackVisitorImpl.on_object_key (v : JsonCallbackVisitorImpl) (key : Bytes) :
    Option JsonCallbackVisitorImpl :=
  match v.overflow_, v.pos_ with
  | [], [] => none
  | [], n :: above =>
    if n.type ≠ .Object then none
    else
      match n.children.find? (fun c => c.type = .Key ∧ c.key = key) with
      | some c => some { v with pos_ := c :: n :: above, path_ := v.path_ ++ c.key }
      | none => some { v with overflow_ := .Key :: v.overflow_ }
  | back :: _, _ =>
    if back ≠ .Object then none
    else some { v with overflow_ := .Key :: v.overflow_ }

def JsonCallbackVisitorImpl.on_object_end (v : JsonCallbackVisitorImpl) (start length : Nat) :
    Option JsonCallbackVisitorImpl :=
  v.do_collection_end json_object_traits start length

def JsonCallbackVisitorImpl.on_array_start (v : JsonCallbackVisitorImpl) (_start : Nat) :
    Option JsonCallbackVisitorImpl :=
  v.do_collection_start json_array_traits

def JsonCallbackVisitorImpl.on_array_end (v : JsonCallbackVisitorImpl) (start length : Nat) :
    Option JsonCallbackVisitorImpl :=
  v.do_collection_end json_array_traits start length

/-- The member `on_primitive_value`; its `assert` is that of `do_collection_start`. -/
def JsonCallbackVisitorImpl.on_primitive_value (v : JsonCallbackVisitorImpl)
    (type : JsonValueType) (start length : Nat) : Option JsonCallbackVisitorImpl :=
  match v.overflow_, v.pos_ with
  | [], [] => none
  | [], n :: _ =>
    if n.type = .Object then none
    else (v.exec_callbacks type start length).bind fun v1 => v1.step_back_up
  | back :: below, _ =>
    if back = .Object then none
    else if back = .Key then some { v with overflow_ := below } else some v

/-- A call of a visitor method made by the parser, on the dispatcher; the bytes of a key
are read in the input. -/
def JsonCallbackVisitorImpl.visit (input : Bytes) (v : JsonCallbackVisitorImpl) :
    Event → Option JsonCallbackVisitorImpl
  | .on_array_start start => v.on_array_start start
  | .on_array_end start length => v.on_array_end start length
  | .on_object_start start => v.on_object_start start
  | .on_object_key start length => v.on_object_key ((input.drop start).take length)
  | .on_object_end start length => v.on_object_end start length
  | .on_primitive_value type start length => v.on_primitive_value type start length

/-- The calls of visitor methods made by a parse, in their order, on the dispatcher. -/
def JsonCallbackVisitorImpl.feed (input : Bytes) :
    List Event → JsonCallbackVisitorImpl → Option JsonCallbackVisitorImpl
  | [], v => some v
  | e :: rest, v => (v.visit input e).bind (JsonCallbackVisitorImpl.feed input rest)

/-! ## The invocations expected of the dispatcher (reference) -/

/-- A step of the location of a value: into the value of a member, by its raw key, or into
an element of an array. -/
inductive LocationStep
  | member (key : Bytes)
  | element
  deriving DecidableEq, Repr

/-- A segment of a path stands for a step of a location. -/
def PathSegment.matches (segment : PathSegment) : LocationStep → Bool
  | .member key => segment.is_object && decide (segment.key = key)
  | .element => segment.is_array

/-- The segment sequence of a path equals a location. -/
def path_matches : List PathSegment → List LocationStep → Bool
  | [], [] => true
  | segment :: segments, step :: steps => segment.matches step && path_matches segments steps
  | _, _ => false

/-- The callbacks registered for the paths that equal a location, in registration order. -/
def callbacks_for (regs : List (JsonValuePath × Nat)) (loc : List LocationStep) : List Nat :=
  (regs.filter fun r => path_matches r.1.segments loc).map fun r => r.2

/-- The text of a location as a path: `.key` for a member step and `[]` for an element
step, after a `.` when the first step is an element step; `.` for the root. -/
def location_text : List LocationStep → Bytes
  | [] => []
  | .member key :: rest => 0x2E :: (key ++ location_text rest)
  | .element :: rest => 0x5B :: 0x5D :: location_text rest

def location_path : List LocationStep → Bytes
  | [] => [0x2E]
  | .member key :: rest => location_text (.member key :: rest)
  | .element :: rest => 0x2E :: location_text (.element :: rest)

/-- The invocations for one value: the callbacks registered for its location, each once,
with the type and the span of the value. -/
def invocations_at (regs : List (JsonValuePath × Nat)) (loc : List LocationStep)
    (type : JsonValueType) (data length : Nat) : List Invocation :=
  (callbacks_for regs loc).map fun callback => ⟨callback, type, location_path loc, data, length⟩

mutual
/-- The invocations for the values of a value at location `loc` whose text starts at offset
`s`, in post-order: the values nested in it in document order, then the value itself.  The
span of a string is that of its content, as in the event of the parser. -/
def JsonValue.invocations (regs : List (JsonValuePath × Nat)) :
    List LocationStep → Nat → JsonValue → List Invocation
  | loc, s, .primitive type text =>
    invocations_at regs loc type (if type = .String then s + 1 else s) text.length
  | loc, s, .empty_array ws => invocations_at regs loc .Array s (ws.length + 2)
  | loc, s, .array ws1 v ws2 more =>
    v.invocations regs (loc ++ [.element]) (s + 1 + ws1.length) ++
      (more.invocations regs (loc ++ [.element])
          (s + 1 + ws1.length + v.render.length + ws2.length) ++
        invocations_at regs loc .Array s (JsonValue.array ws1 v ws2 more).render.length)
  | loc, s, .empty_object ws => invocations_at regs loc .Object s (ws.length + 2)
  | loc, s, .object ws1 key ws2 ws3 v ws4 more =>
    v.invocations regs (loc ++ [.member key])
        (s + 1 + (key_text ws1 key ws2).length + ws3.length) ++
      (more.invocations regs loc
          (s + 1 + (key_text ws1 key ws2).length + ws3.length + v.render.length + ws4.length) ++
        invocations_at regs loc .Object s
          (JsonValue.object ws1 key ws2 ws3 v ws4 more).render.length)
/-- The invocations for the further elements of an array; `loc` is the location of an
element and `s` the offset of the first comma. -/
def JsonElements.invocations (regs : List (JsonValuePath × Nat)) :
    List LocationStep → Nat → JsonElements → List Invocation
  | _, _, .nil => []
  | loc, s, .cons ws1 v ws2 tl =>
    v.invocations regs loc (s + 1 + ws1.length) ++
      tl.invocations regs loc (s + 1 + ws1.length + v.render.length + ws2.length)
/-- The invocations for the further members of an object; `loc` is the location of the
object and `s` the offset of the first comma. -/
def JsonMembers.invocations (regs : List (JsonValuePath × Nat)) :
    List LocationStep → Nat → JsonMembers → List Invocation
  | _, _, .nil => []
  | loc, s, .cons ws1 key ws2 ws3 v ws4 tl =>
    v.invocations regs (loc ++ [.member key])
        (s + 1 + (key_text ws1 key ws2).length + ws3.length) ++
      tl.invocations regs loc
        (s + 1 + (key_text ws1 key ws2).length + ws3.length + v.render.length + ws4.length)
end

/-! ## The tree of nodes read by locations -/

/-- The node for the location one step further than that of the node `n`: the array node
of `n` for an element step; the key node, in the object node of `n`, for a member step. -/
def Node.enter (n : Node) : LocationStep → Option Node
  | .element => n.children.find? (fun c => c.type = .Array)
  | .member key =>
    (n.children.find? (fun c => c.type = .Object)).bind fun o =>
      o.children.find? (fun c => c.type = .Key ∧ c.key = key)

/-- The node for a location, from the node `n` on. -/
def Node.walk : List LocationStep → Node → Option Node
  | [], n => some n
  | step :: rest, n => (n.enter step).bind (Node.walk rest)

/-- The callbacks held by the node for a location, none when there is no such node. -/
def Node.callbacks_at (n : Node) (loc : List LocationStep) : List Nat :=
  match n.walk loc with
  | some m => m.callbacks
  | none => []

/-- No node is reached by a member step with an empty key. -/
def Node.KeysNonEmpty (n : Node) : Prop :=
  ∀ rel key, (n.walk (rel ++ [.member key])).isSome → key ≠ []

/-- The node that `register_callback` creates for a step. -/
def fresh_node : LocationStep → Node
  | .element => Node.array_node
  | .member key => Node.key_node key

/-- The value of `path_` while the dispatcher stands at the node for a location. -/
def dispatcher_path : List LocationStep → Bytes
  | [] => []
  | .member key :: rest => location_text (.member key :: rest)
  | .element :: rest => 0x2E :: location_text (.element :: rest)

/-- The node `n` stands for the location `loc`: the nodes reached from it hold the callbacks
registered for the locations reached from `loc`. -/
def Covers (regs : List (JsonValuePath × Nat)) (loc : List LocationStep) (n : Node) : Prop :=
  ∀ rel, n.callbacks_at rel = callbacks_for regs (loc ++ rel)

/-- The bytes `text` stand in `input` at offset `s`. -/
def Aligned (input : Bytes) (s : Nat) (text : Bytes) : Prop :=
  ∃ pre post, input = pre ++ (text ++ post) ∧ pre.length = s

/-- The events of the value `v`, fed to a dispatcher that stands at the node for the
location of `v` with an empty overflow, make the invocations expected for `v` and leave
the dispatcher as `step_back_up` does after the callbacks for `v` itself. -/
def JsonValue.Dispatched (regs : List (JsonValuePath × Nat)) (input : Bytes) (v : JsonValue) :
    Prop :=
  ∀ (s : Nat) (root n : Node) (anc : List Node) (loc : List LocationStep)
    (inv : List Invocation),
    n.type ≠ .Object → Covers regs loc n → n.KeysNonEmpty →
    (dispatcher_path loc = [] ∨ 2 ≤ (dispatcher_path loc).length) → Aligned input s v.render →
    JsonCallbackVisitorImpl.feed input (v.events s)
        ⟨root, n :: anc, [], dispatcher_path loc, inv⟩ =
      JsonCallbackVisitorImpl.step_back_up
        ⟨root, n :: anc, [], dispatcher_path loc, inv ++ v.invocations regs loc s⟩

/-- The dispatcher after the registrations `regs`, made in their order on a fresh one. -/
def registered (regs : List (JsonValuePath × Nat)) : JsonCallbackVisitorImpl :=
  regs.foldl (fun v r => v.register_callback r.1 r.2) JsonCallbackVisitor

/-! ## An example: registrations and a text with a repeated key -/

/-- The paths `.`, `.abc`, `.abc.efg`, `.abc[]`, `.[]`, `.[].abc` and `.[][]`, registered in
this order with the callbacks 1 to 7. -/
def fanout_registrations : List (JsonValuePath × Nat) :=
  [(⟨[]⟩, 1), (⟨[⟨[0x61, 0x62, 0x63]⟩]⟩, 2),
    (⟨[⟨[0x61, 0x62, 0x63]⟩, ⟨[0x65, 0x66, 0x67]⟩]⟩, 3),
    (⟨[⟨[0x61, 0x62, 0x63]⟩, ⟨[]⟩]⟩, 4), (⟨[⟨[]⟩]⟩, 5),
    (⟨[⟨[]⟩, ⟨[0x61, 0x62, 0x63]⟩]⟩, 6), (⟨[⟨[]⟩, ⟨[]⟩]⟩, 7)]

/-- The text `{"abc":1,"abc":{"efg":2},"abc":[3,{}]}`. -/
def fanout_text : JsonText :=
  ⟨[], .object [] [0x61, 0x62, 0x63] [] [] (.primitive .Number [0x31]) []
    (.cons [] [0x61, 0x62, 0x63] [] []
      (.object [] [0x65, 0x66, 0x67] [] [] (.primitive .Number [0x32]) [] .nil) []
      (.cons [] [0x61, 0x62, 0x63] [] []
        (.array [] (.primitive .Number [0x33]) [] (.cons [] (.empty_object []) [] .nil)) []
        .nil)), []⟩

end flumps


namespace flumps

/-! ## The UTF-8 decoder as the specification words it (reference) -/

/-- A string of bytes: every element is below 256. -/
def IsByteString (s : Bytes) : Prop := ∀ b ∈ s, b < 256

/-! ## The content of a JSON string as the decoder reads it (reference) -/

/-- One step of the content of a string: a byte other than the backslash, a backslash and
one character, or `\u` and four characters. -/
inductive ContentToken
  | raw (b : Nat)
  | short (e : Nat)
  | hex (d1 d2 d3 d4 : Nat)
  deriving DecidableEq, Repr

def ContentToken.render : ContentToken → Bytes
  | .raw b => [b]
  | .short e => [0x5C, e]
  | .hex d1 d2 d3 d4 => [0x5C, 0x75, d1, d2, d3, d4]

def render_tokens : List ContentToken → Bytes
  | [] => []
  | t :: rest => t.render ++ render_tokens rest

/-- A raw byte is not the backslash, a short escape is one of the eight, and the four
characters after `\u` are hexadecimal digits of either case. -/
def ContentToken.WellFormed : ContentToken → Prop
  | .raw b => b ≠ 0x5C
  | .short e => e = 0x22 ∨ e = 0x5C ∨ e = 0x2F ∨ e = 0x62 ∨ e = 0x66 ∨ e = 0x6E ∨ e = 0x72 ∨
      e = 0x74
  | .hex d1 d2 d3 d4 =>
    is_hex d1 = true ∧ is_hex d2 = true ∧ is_hex d3 = true ∧ is_hex d4 = true

instance ContentToken.decidableWellFormed (t : ContentToken) : Decidable t.WellFormed := by
  cases t <;> unfold ContentToken.WellFormed <;> infer_instance

/-- The token is a `\u` escape of a high surrogate. -/
def ContentToken.is_high : ContentToken → Bool
  | .hex d1 d2 d3 d4 => 0xD800 ≤ hex4_value d1 d2 d3 d4 && hex4_value d1 d2 d3 d4 ≤ 0xDBFF
  | _ => false

/-- The token is a `\u` escape of a low surrogate. -/
def ContentToken.is_low : ContentToken → Bool
  | .hex d1 d2 d3 d4 => 0xDC00 ≤ hex4_value d1 d2 d3 d4 && hex4_value d1 d2 d3 d4 ≤ 0xDFFF
  | _ => false

/-- The byte that a short escape stands for. -/
def unescape (e : Nat) : Nat :=
  if e = 0x62 then 0x08
  else if e = 0x66 then 0x0C
  else if e = 0x6E then 0x0A
  else if e = 0x72 then 0x0D
  else if e = 0x74 then 0x09
  else e

/-- The bytes that a token stands for, when it is not the escape of a surrogate. -/
def ContentToken.decode : ContentToken → Bytes
  | .raw b => [b]
  | .short e => [unescape e]
  | .hex d1 d2 d3 d4 => utf8_encode (hex4_value d1 d2 d3 d4)

def decode_tokens : List ContentToken → Bytes
  | [] => []
  | t :: rest => t.decode ++ decode_tokens rest

/-- The tokens end with the escape of a high surrogate. -/
def ends_high (tokens : List ContentToken) : Bool :=
  match tokens.getLast? with
  | some t => t.is_high
  | none => false

/-- The bytes start with the `\u` escape of a low surrogate. -/
def StartsWithLow (rest : Bytes) : Prop :=
  ∃ d1 d2 d3 d4 tail, rest = 0x5C :: 0x75 :: d1 :: d2 :: d3 :: d4 :: tail ∧
    (ContentToken.hex d1 d2 d3 d4).WellFormed ∧ (ContentToken.hex d1 d2 d3 d4).is_low = true

/-- What follows a backslash starts no escape: nothing, a byte that is neither one of the eight
short escapes nor `u`, or `u` without four hexadecimal digits after it. -/
def StartsNoEscape (tail : Bytes) : Prop :=
  tail = [] ∨ (∃ x r, tail = x :: r ∧ ¬ (ContentToken.short x).WellFormed ∧ x ≠ 0x75) ∨
    ∃ r, tail = 0x75 :: r ∧
      ¬ ∃ d1 d2 d3 d4 rest, r = d1 :: d2 :: d3 :: d4 :: rest ∧
        (ContentToken.hex d1 d2 d3 d4).WellFormed

/-! ## The content of a string that `parse_string` accepts -/

/-- Content made of characters that `chomp_utf8_char` decodes whatever follows them and that
start with a byte from 0x20 on other than the quote and the backslash, of short escapes and
of `\u` escapes of code points that are not surrogates. -/
inductive Lexed : Bytes → Prop
  | nil : Lexed []
  | char (b : Nat) (t rest : Bytes) (cp : Nat) : 0x20 ≤ b → b ≠ 0x22 → b ≠ 0x5C →
      (∀ p tail, chomp_utf8_char ⟨p, b :: (t ++ tail)⟩ = .ok cp ⟨p + (t.length + 1), tail⟩) →
      Lexed rest → Lexed (b :: (t ++ rest))
  | escape (e : Nat) (rest : Bytes) : (ContentToken.short e).WellFormed → Lexed rest →
      Lexed (0x5C :: e :: rest)
  | hex (d1 d2 d3 d4 : Nat) (rest : Bytes) : (ContentToken.hex d1 d2 d3 d4).WellFormed →
      ¬ (0xD800 ≤ hex4_value d1 d2 d3 d4 ∧ hex4_value d1 d2 d3 d4 ≤ 0xDFFF) → Lexed rest →
      Lexed (0x5C :: 0x75 :: d1 :: d2 :: d3 :: d4 :: rest)

end flumps


namespace flumps

/-! ## string_helpers.cpp: the tracker as an object -/

/-- The member `check_code_point` as a run on the object: the members are assigned where the
source assigns them, and a throw leaves the object as it is at that point. -/
def utf8_surrogate_checker.check_code_point_run (t : utf8_surrogate_checker)
    (code_point : Nat) : Res utf8_surrogate_checker Bool :=
  match code_point_type code_point with
  | .error e => .throw e t
  | .ok cp_type =>
    if cp_type = .low_surrogate then
      if !t.surrogate_low_needed then
        .throw ⟨.UnicodeCodePointError,
          "Invalid: low surrogate code point not preceded by high"⟩ t
      else
        match surrogate_pair_to_code_point t.last_code_point code_point with
        | .error e => .throw e t
        | .ok cp =>
          let t1 := { t with last_code_point := cp }
          let t2 := { t1 with surrogate_low_needed := false }
          .ok (!t2.surrogate_low_needed) t2
    else if cp_type = .high_surrogate then
      if t.surrogate_low_needed then
        .throw ⟨.UnicodeCodePointError,
          "Invalid: high surrogate code point preceded by high"⟩ t
      else
        let t1 := { t with last_code_point := code_point }
        let t2 := { t1 with surrogate_low_needed := true }
        .ok (!t2.surrogate_low_needed) t2
    else
      if t.surrogate_low_needed then
        .throw ⟨.UnicodeCodePointError,
          "Invalid: high surrogate code point not followed by low"⟩ t
      else
        let t1 := { t with last_code_point := code_point }
        .ok (!t1.surrogate_low_needed) t1

/-- The trackers that calls of `check_code_point` make of a fresh tracker, whether they
return or throw. -/
inductive utf8_surrogate_checker.Reachable : utf8_surrogate_checker → Prop
  | fresh : utf8_surrogate_checker.Reachable {}
  | call (t : utf8_surrogate_checker) (code_point : Nat) (complete : Bool)
      (t1 : utf8_surrogate_checker) : utf8_surrogate_checker.Reachable t →
      t.check_code_point_run code_point = .ok complete t1 →
      utf8_surrogate_checker.Reachable t1
  | thrown (t : utf8_surrogate_checker) (code_point : Nat) (e : DecodeError)
      (t1 : utf8_surrogate_checker) : utf8_surrogate_checker.Reachable t →
      t.check_code_point_run code_point = .throw e t1 →
      utf8_surrogate_checker.Reachable t1

/-- A low surrogate. -/
def is_low_surrogate (cp : Nat) : Bool := 0xDC00 ≤ cp && cp ≤ 0xDFFF

/-! ## The value of hexadecimal digits (reference) -/

/-- One of the characters 0-9, a-f, A-F. -/
def IsHexDigit (c : Nat) : Prop :=
  (0x30 ≤ c ∧ c ≤ 0x39) ∨ (0x61 ≤ c ∧ c ≤ 0x66) ∨ (0x41 ≤ c ∧ c ≤ 0x46)

instance IsHexDigit.decidable (c : Nat) : Decidable (IsHexDigit c) := by
  unfold IsHexDigit
  infer_instance

/-- The value of a hexadecimal digit of either case. -/
def hex_digit_value (c : Nat) : Nat :=
  if 0x30 ≤ c ∧ c ≤ 0x39 then c - 0x30
  else if 0x61 ≤ c ∧ c ≤ 0x66 then c - 0x61 + 10
  else if 0x41 ≤ c ∧ c ≤ 0x46 then c - 0x41 + 10
  else 0

/-! ## json_value_path.cpp -/

structure JsonValuePathError where
  what : String
  deriving DecidableEq, Repr

def allowed_key_byte (ch : Nat) : Bool :=
  decide (ch > 0x20) && decide (ch ≤ 0x7E) && decide (ch ≠ 0x5C) && decide (ch ≠ 0x22) &&
    decide (ch ≠ 0x5B) && decide (ch ≠ 0x2E)

/-- The local enum `State` of the constructor of `JsonValuePath`. -/
inductive PathState
  | empty_root
  | dot_root
  | partial_array
  | complete_array
  | start_key
  | within_key
  deriving DecidableEq, Repr

/-- The loop `for (auto pos = path.begin(); true; ++pos)` of the constructor: the state,
`key`, `path_` and the bytes of `[pos, path.end())`; the result is `path_` at the `return`. -/
def JsonValuePath.scan :
    PathState → Bytes → List PathSegment → Bytes → Except JsonValuePathError (List PathSegment)
  | .empty_root, _, path_, [] => .ok path_
  | .empty_root, key, path_, ch :: rest =>
    if ch ≠ 0x2E then .error ⟨"First char must be '.'"⟩
    else JsonValuePath.scan .dot_root key path_ rest
  | .dot_root, _, path_, [] => .ok path_
  | .dot_root, key, path_, ch :: rest =>
    if ch = 0x5B then JsonValuePath.scan .partial_array key path_ rest
    else if allowed_key_byte ch then JsonValuePath.scan .within_key (key ++ [ch]) path_ rest
    else .error ⟨"'Start of array or key expected"⟩
  | .partial_array, _, _, [] => .error ⟨"End of array expected"⟩
  | .partial_array, key, path_, ch :: rest =>
    if ch = 0x5D then JsonValuePath.scan .complete_array key (path_ ++ [⟨[]⟩]) rest
    else .error ⟨"End of array expected"⟩
  | .complete_array, _, path_, [] => .ok path_
  | .complete_array, key, path_, ch :: rest =>
    if ch = 0x2E then JsonValuePath.scan .start_key key path_ rest
    else if ch = 0x5B then JsonValuePath.scan .partial_array key path_ rest
    else .error ⟨"Start of array or key expected"⟩
  | .start_key, _, _, [] => .error ⟨"Key character expected"⟩
  | .start_key, key, path_, ch :: rest =>
    if allowed_key_byte ch then JsonValuePath.scan .within_key (key ++ [ch]) path_ rest
    else .error ⟨"Key character expected"⟩
  | .within_key, key, path_, [] => .ok (path_ ++ [⟨key⟩])
  | .within_key, key, path_, ch :: rest =>
    if ch = 0x2E then JsonValuePath.scan .start_key [] (path_ ++ [⟨key⟩]) rest
    else if ch = 0x5B then JsonValuePath.scan .partial_array [] (path_ ++ [⟨key⟩]) rest
    else if allowed_key_byte ch then JsonValuePath.scan .within_key (key ++ [ch]) path_ rest
    else .error ⟨"Invalid key character"⟩

/-- The constructor `JsonValuePath(const std::string& path)`; the member `path_repr_`, a
copy of the argument that `operator==` ignores, is not kept. -/
def JsonValuePath.of_string (path : Bytes) : Except JsonValuePathError JsonValuePath :=
  match JsonValuePath.scan .empty_root [] [] path with
  | .error e => .error e
  | .ok path_ => .ok ⟨path_⟩

/-- The default constructor `JsonValuePath()`. -/
def JsonValuePath.root : JsonValuePath := ⟨[]⟩

/-! ## The grammar of a value path (reference) -/

/-- A member name: one or more bytes in 0x21-0x7E other than the backslash, the quote, `[`
and `.`. -/
def IsKey (key : Bytes) : Prop :=
  key ≠ [] ∧ ∀ b ∈ key, 0x21 ≤ b ∧ b ≤ 0x7E ∧ b ≠ 0x5C ∧ b ≠ 0x22 ∧ b ≠ 0x5B ∧ b ≠ 0x2E

/-- A step of a path as written: `[]`, or a member name. -/
def LocationStep.Written : LocationStep → Prop
  | .member key => IsKey key
  | .element => True

/-- The segment that stands for a step. -/
def LocationStep.segment : LocationStep → PathSegment
  | .member key => ⟨key⟩
  | .element => ⟨[]⟩

/-! ## main.cpp: the filter action -/

def RET_json_path_error : Nat := 10

/-- The number under which the callback `FilterResultPrinter::print_value` is recorded. -/
def print_value : Nat := 0

/-- The loop `while (true)` of the filter action on the bytes of `[pos, end)`, with `path`
the bytes of `[path_start, pos)`: the dispatcher after the registrations, or the return code
of the `catch` of `JsonValuePathError`. -/
def filter_register :
    JsonCallbackVisitorImpl → Bytes → Bytes → Except Nat JsonCallbackVisitorImpl
  | v, path, [] =>
    match JsonValuePath.of_string path with
    | .error _ => .error RET_json_path_error
    | .ok p => .ok (v.register_callback p print_value)
  | v, path, ch :: rest =>
    if ch = 0x7C then
      match JsonValuePath.of_string path with
      | .error _ => .error RET_json_path_error
      | .ok p => filter_register (v.register_callback p print_value) [] rest
    else filter_register v (path ++ [ch]) rest

/-- The filter action up to the parse, on the string `filter_str`. -/
def filter_action (filter_str : Bytes) : Except Nat JsonCallbackVisitorImpl :=
  filter_register JsonCallbackVisitor [] filter_str

/-- The substrings of a string between its `|` bytes, in order (reference). -/
def split_pipe : Bytes → List Bytes
  | [] => [[]]
  | ch :: rest =>
    if ch = 0x7C then [] :: split_pipe rest
    else
      match split_pipe rest with
      | [] => [[ch]]
      | first :: more => (ch :: first) :: more

/-- The registration of paths given as strings, one after the other, up to the first that
is not a value path (reference). -/
def register_paths :
    JsonCallbackVisitorImpl → List Bytes → Except Nat JsonCallbackVisitorImpl
  | v, [] => .ok v
  | v, text :: more =>
    match JsonValuePath.of_string text with
    | .error _ => .error RET_json_path_error
    | .ok p => register_paths (v.register_callback p print_value) more

/-! ## The values of a text with their locations (reference) -/

/-- A value as it is reported: its location, its type and its span. -/
structure Located where
  loc : List LocationStep
  type : JsonValueType
  data : Nat
  length : Nat
  deriving DecidableEq, Repr

def JsonValue.type : JsonValue → JsonValueType
  | .primitive type _ => type
  | .empty_array _ => .Array
  | .array _ _ _ _ => .Array
  | .empty_object _ => .Object
  | .object _ _ _ _ _ _ _ => .Object

/-- The span reported for a value whose text starts at offset `s`: its text, and for a
string the bytes between the quotes. -/
def JsonValue.span (v : JsonValue) (s : Nat) : Nat × Nat :=
  match v with
  | .primitive type text => (if type = .String then s + 1 else s, text.length)
  | _ => (s, v.render.length)

mutual
/-- The values of a value at location `loc` whose text starts at offset `s`, in post-order. -/
def JsonValue.located : List LocationStep → Nat → JsonValue → List Located
  | loc, s, .primitive type text =>
    [⟨loc, type, if type = .String then s + 1 else s, text.length⟩]
  | loc, s, .empty_array ws => [⟨loc, .Array, s, ws.length + 2⟩]
  | loc, s, .array ws1 v ws2 more =>
    v.located (loc ++ [.element]) (s + 1 + ws1.length) ++
      (more.located (loc ++ [.element]) (s + 1 + ws1.length + v.render.length + ws2.length) ++
        [⟨loc, .Array, s, (JsonValue.array ws1 v ws2 more).render.length⟩])
  | loc, s, .empty_object ws => [⟨loc, .Object, s, ws.length + 2⟩]
  | loc, s, .object ws1 key ws2 ws3 v ws4 more =>
    v.located (loc ++ [.member key]) (s + 1 + (key_text ws1 key ws2).length + ws3.length) ++
      (more.located loc
          (s + 1 + (key_text ws1 key ws2).length + ws3.length + v.render.length + ws4.length) ++
        [⟨loc, .Object, s, (JsonValue.object ws1 key ws2 ws3 v ws4 more).render.length⟩])
def JsonElements.located : List LocationStep → Nat → JsonElements → List Located
  | _, _, .nil => []
  | loc, s, .cons ws1 v ws2 tl =>
    v.located loc (s + 1 + ws1.length) ++
      tl.located loc (s + 1 + ws1.length + v.render.length + ws2.length)
def JsonMembers.located : List LocationStep → Nat → JsonMembers → List Located
  | _, _, .nil => []
  | loc, s, .cons ws1 key ws2 ws3 v ws4 tl =>
    v.located (loc ++ [.member key]) (s + 1 + (key_text ws1 key ws2).length + ws3.length) ++
      tl.located loc
        (s + 1 + (key_text ws1 key ws2).length + ws3.length + v.render.length + ws4.length)
end

end flumps


namespace flumps

/-! ## The texts that the parser reads to their end (reference) -/

/-- Content between quotes that `parse_string` reads up to its closing quote, wherever the
string stands. -/
def StringAccepted (content : Bytes) : Prop :=
  ∀ (p : Nat) (t : Bytes),
    parse_string ⟨p, 0x22 :: (content ++ 0x22 :: t)⟩ = .ok () ⟨p + (content.length + 2), t⟩

mutual
/-- Every string and every key of a value is content that `parse_string` reads. -/
def JsonValue.Accepted : JsonValue → Prop
  | .primitive type text => type = .String → StringAccepted text
  | .empty_array _ => True
  | .array _ v _ more => v.Accepted ∧ more.Accepted
  | .empty_object _ => True
  | .object _ key _ _ v _ more => StringAccepted key ∧ v.Accepted ∧ more.Accepted
def JsonElements.Accepted : JsonElements → Prop
  | .nil => True
  | .cons _ v _ tl => v.Accepted ∧ tl.Accepted
def JsonMembers.Accepted : JsonMembers → Prop
  | .nil => True
  | .cons _ key _ _ v _ tl => StringAccepted key ∧ v.Accepted ∧ tl.Accepted
end

/-! ## Events and the text of their spans -/

/-- An event with its span moved forward by `k` bytes. -/
def Event.shift (k : Nat) : Event → Event
  | .on_array_start s => .on_array_start (s + k)
  | .on_array_end s l => .on_array_end (s + k) l
  | .on_object_start s => .on_object_start (s + k)
  | .on_object_key s l => .on_object_key (s + k) l
  | .on_object_end s l => .on_object_end (s + k) l
  | .on_primitive_value type s l => .on_primitive_value type (s + k) l

/-- The bytes of the span of `length` bytes at offset `start` of the input. -/
def span_text (input : Bytes) (start length : Nat) : Bytes := (input.drop start).take length

/-- The span lies between two quotes of the input and holds the bytes of a string body. -/
def QuotedSpan (input : Bytes) (start length : Nat) : Prop :=
  1 ≤ start ∧ start + length + 1 ≤ input.length ∧ IsStringShape (span_text input start length) ∧
    span_text input (start - 1) (length + 2) = 0x22 :: (span_text input start length ++ [0x22])

/-- The span of an event is the source text of what it reports and lies inside the input:
a start event stands on the opening bracket; an end event spans a whole array or object,
from its opening bracket to its closing bracket; a key and a string span the bytes between
their quotes; a number or a literal spans its token. -/
def Event.Exact (input : Bytes) : Event → Prop
  | .on_array_start s => span_text input s 1 = [0x5B]
  | .on_array_end s l =>
    s + l ≤ input.length ∧ (∃ mid, span_text input s l = 0x5B :: (mid ++ [0x5D])) ∧
      ∃ v : JsonValue, v.Shaped ∧ v.type = .Array ∧ span_text input s l = v.render
  | .on_object_start s => span_text input s 1 = [0x7B]
  | .on_object_key s l => QuotedSpan input s l
  | .on_object_end s l =>
    s + l ≤ input.length ∧ (∃ mid, span_text input s l = 0x7B :: (mid ++ [0x7D])) ∧
      ∃ v : JsonValue, v.Shaped ∧ v.type = .Object ∧ span_text input s l = v.render
  | .on_primitive_value type s l =>
    if type = .String then QuotedSpan input s l
    else s + l ≤ input.length ∧ IsPrimitiveShape type (span_text input s l)

/-- The end events of a sequence of events match its start events: read in order with the
list `open_starts` of the collections that are open (`true` for an array, with the offset of
its start event), each end event closes the collection opened last, is of its kind and
carries its offset, and no collection is left open. -/
def ends_match : List (Bool × Nat) → List Event → Bool
  | open_starts, [] => open_starts.isEmpty
  | open_starts, .on_array_start s :: rest => ends_match ((true, s) :: open_starts) rest
  | open_starts, .on_object_start s :: rest => ends_match ((false, s) :: open_starts) rest
  | open_starts, .on_array_end s _ :: rest =>
    match open_starts with
    | (true, s0) :: below => decide (s = s0) && ends_match below rest
    | _ => false
  | open_starts, .on_object_end s _ :: rest =>
    match open_starts with
    | (false, s0) :: below => decide (s = s0) && ends_match below rest
    | _ => false
  | open_starts, .on_object_key _ _ :: rest => ends_match open_starts rest
  | open_starts, .on_primitive_value _ _ _ :: rest => ends_match open_starts rest

end flumps


namespace flumps

/-! ## json_value_type.h and json_value_type.cpp -/

/-- The value of an enumerator of `JsonValueType`, as `json_value_type.h` gives it. -/
def JsonValueType.value : JsonValueType → Int
  | .Array => 1 <<< 0
  | .Object => 1 <<< 1
  | .True => 1 <<< 2
  | .False => 1 <<< 3
  | .Null => 1 <<< 4
  | .String => 1 <<< 5
  | .Number => 1 <<< 6

/-- What is seen of a `std::ostream`: the characters written and the fail bit. -/
structure OStream where
  written : String
  failbit : Bool
  deriving DecidableEq, Repr

/-- The function `operator<<(std::ostream&, JsonValueType)`, on the value of the enumeration:
a `switch` with one `case` for each of the seven enumerators and a `default`. -/
def operator_shl (os : OStream) (t : Int) : OStream :=
  if t = JsonValueType.Array.value then { os with written := os.written ++ "array" }
  else if t = JsonValueType.Object.value then { os with written := os.written ++ "object" }
  else if t = JsonValueType.True.value then { os with written := os.written ++ "true" }
  else if t = JsonValueType.False.value then { os with written := os.written ++ "array" }
  else if t = JsonValueType.Null.value then { os with written := os.written ++ "null" }
  else if t = JsonValueType.String.value then { os with written := os.written ++ "string" }
  else if t = JsonValueType.Number.value then { os with written := os.written ++ "number" }
  else { os with failbit := true }

/-! ## Decoding a whole string with `chomp_utf8_char` (reference) -/

/-- The code points that `chomp_utf8_char` gives when it is called until the end of the
data, as the loop of `is_utf8` calls it. -/
def chomp_utf8_chars : Nat → Cursor → Res Cursor (List Nat)
  | 0, _ => .fuel
  | fuel + 1, c =>
    if c.rest = [] then .ok [] c
    else (chomp_utf8_char c).bind fun code_point c1 =>
      (chomp_utf8_chars fuel c1).bind fun more c2 => .ok (code_point :: more) c2

end flumps


namespace flumps

/-! ## The order of the calls of a visitor (reference)

The calls that a visitor expects are read with a stack of the collections that are open and
of the keys whose value is awaited, as the dispatcher would hold it in `overflow_` if no node
matched anything. -/

/-- A value ended: a key that awaited it is taken away. -/
def close_value : List OverFlowType → List OverFlowType
  | .Key :: below => below
  | stack => stack

/-- A call of a visitor method that is expected with the stack `stack`, and the stack after
it: a key is expected in an object only, a value everywhere else, and the end of a
collection when the collection is the innermost one that is open. -/
def protocol_step (stack : List OverFlowType) : Event → Option (List OverFlowType)
  | .on_array_start _ =>
    if stack.head? = some .Object then none else some (.Array :: stack)
  | .on_object_start _ =>
    if stack.head? = some .Object then none else some (.Object :: stack)
  | .on_object_key _ _ =>
    if stack.head? = some .Object then some (.Key :: stack) else none
  | .on_array_end _ _ =>
    match stack with
    | .Array :: below => some (close_value below)
    | _ => none
  | .on_object_end _ _ =>
    match stack with
    | .Object :: below => some (close_value below)
    | _ => none
  | .on_primitive_value _ _ _ =>
    if stack.head? = some .Object then none else some (close_value stack)

/-- A sequence of calls that are expected one after the other, and the stack after them. -/
def protocol_run : List OverFlowType → List Event → Option (List OverFlowType)
  | stack, [] => some stack
  | stack, e :: es => (protocol_step stack e).bind fun stack1 => protocol_run stack1 es

/-- The key that awaits its value when a frame lies on the frames `below`: one when the
frame below is that of an object. -/
def awaited_key : List State → List OverFlowType
  | g :: _ => if g.parse_value = .parse_object then [.Key] else []
  | [] => []

/-- The collection that a frame has opened. -/
def opened_collection (f : State) : List OverFlowType :=
  match f.parse_value with
  | .initial => []
  | .parse_array => [.Array]
  | .parse_object => [.Object]

/-- What the frames of the parser stand for between two passes: an array or an object that
is open for each frame of a collection, and a key that awaits its value for each frame that
lies on the frame of an object. -/
def frame_marks : List State → List OverFlowType
  | [] => []
  | f :: below => opened_collection f ++ (awaited_key below ++ frame_marks below)

/-- The frames between two passes: a fresh frame or the frame of a collection on top, and
frames of collections below it. -/
def FramesBetween : List State → Prop
  | [] => True
  | f :: below =>
    (f = {} ∨ (∃ s, f = array_frame s) ∨ ∃ s, f = object_frame s) ∧
      ∀ g ∈ below, (∃ s, g = array_frame s) ∨ ∃ s, g = object_frame s

/-- A call on a parser whose visitor had received the calls `vis` ended, by a return or by
an exception: the calls of visitor methods made in it follow `vis`, they are expected one
after the other from the stack `stack` on, and when the call returned `a` and left the
parser `p1` with the stack `stack1` after these calls, `P a p1 stack1` holds. -/
def Res.Emits {α : Type} (r : Res ParseState α) (vis : List Event)
    (stack : List OverFlowType) (P : α → JsonParserImpl → List OverFlowType → Prop) : Prop :=
  match r with
  | .ok a s =>
    ∃ es stack1, s.1.visitor_ = vis ++ es ∧ protocol_run stack es = some stack1 ∧
      P a s.1 stack1
  | .throw _ s =>
    ∃ es stack1, s.1.visitor_ = vis ++ es ∧ protocol_run stack es = some stack1
  | .fuel => False

/-! ## The assertions of the dispatcher -/

/-- The condition of the `assert` at the head of the handler of an event, on the dispatcher
as the event finds it.  A null `pos_` gives `false`. -/
def JsonCallbackVisitorImpl.asserted (v : JsonCallbackVisitorImpl) : Event → Bool
  | .on_object_key _ _ =>
    match v.overflow_, v.pos_ with
    | [], n :: _ => decide (n.type = .Object)
    | [], [] => false
    | back :: _, _ => decide (back = .Object)
  | .on_array_end _ _ =>
    match v.overflow_, v.pos_ with
    | [], n :: _ :: _ => decide (n.type = json_array_traits.node_type)
    | [], _ => false
    | back :: _, _ => decide (back = json_array_traits.overflow_type)
  | .on_object_end _ _ =>
    match v.overflow_, v.pos_ with
    | [], n :: _ :: _ => decide (n.type = json_object_traits.node_type)
    | [], _ => false
    | back :: _, _ => decide (back = json_object_traits.overflow_type)
  | _ =>
    match v.overflow_, v.pos_ with
    | [], n :: _ => decide (n.type ≠ .Object)
    | [], [] => false
    | back :: _, _ => decide (back ≠ .Object)

/-- The events are handled one after the other, and each of them finds the dispatcher in a
state in which the `assert` of its handler holds. -/
def JsonCallbackVisitorImpl.asserts_hold (input : Bytes) :
    List Event → JsonCallbackVisitorImpl → Prop
  | [], _ => True
  | e :: rest, v =>
    v.asserted e = true ∧
      ∃ v1, v.visit input e = some v1 ∧ JsonCallbackVisitorImpl.asserts_hold input rest v1

/-! ## The dispatcher against the calls expected (reference) -/

/-- The dispatcher awaits a value with an empty overflow: the nodes from `pos_` up to the
root stand for the location `loc`, and `marks` are the collections that are open and the
keys whose value is awaited on the way. -/
inductive AtValue (regs : List (JsonValuePath × Nat)) :
    List Node → List LocationStep → List OverFlowType → Prop
  | root (n : Node) : n.type = .Key → n.KeysNonEmpty → Covers regs [] n →
      AtValue regs [n] [] []
  | element (a n : Node) (anc : List Node) (loc : List LocationStep)
      (marks : List OverFlowType) : AtValue regs (n :: anc) loc marks →
      n.enter .element = some a →
      AtValue regs (a :: n :: anc) (loc ++ [.element]) (.Array :: marks)
  | member (c o n : Node) (anc : List Node) (loc : List LocationStep)
      (marks : List OverFlowType) (key : Bytes) : AtValue regs (n :: anc) loc marks →
      n.children.find? (fun c => decide (c.type = .Object)) = some o →
      o.children.find? (fun c => decide (c.type = .Key ∧ c.key = key)) = some c →
      AtValue regs (c :: o :: n :: anc) (loc ++ [.member key]) (.Key :: .Object :: marks)

/-- The dispatcher `v` stands where the calls read with the stack `stack` lead: at a node
that awaits a value or at the object node of such a node, with the overflow on top. -/
def Tracks (regs : List (JsonValuePath × Nat)) (v : JsonCallbackVisitorImpl)
    (stack : List OverFlowType) : Prop :=
  (∃ loc marks, AtValue regs v.pos_ loc marks ∧ v.path_ = dispatcher_path loc ∧
      stack = v.overflow_ ++ marks) ∨
    ∃ o n anc loc marks, v.pos_ = o :: n :: anc ∧ o.type = .Object ∧
      n.children.find? (fun c => decide (c.type = .Object)) = some o ∧
      AtValue regs (n :: anc) loc marks ∧ v.path_ = dispatcher_path loc ++ [0x2E] ∧
      stack = v.overflow_ ++ .Object :: marks

/-- A pass of the loop of `parse_json` that starts with the parser and the position `q`:
the stack of frames is not empty when the pass starts, the call of `parse_element` ends, and
when it returns it has read one byte at least and has left a frame on the stack. -/
def PassAdvances (q : ParseState) : Prop :=
  q.1.state_ ≠ [] ∧
    match parse_element q.1 q.2 with
    | .ok _ s => s.2.rest.length < q.2.rest.length ∧ s.1.state_ ≠ []
    | .throw _ _ => True
    | .fuel => False

/-! ## The overflow against the events received -/

def Event.is_start : Event → Bool
  | .on_array_start _ => true
  | .on_object_start _ => true
  | _ => false

def Event.is_end : Event → Bool
  | .on_array_end _ _ => true
  | .on_object_end _ _ => true
  | _ => false

/-- The number of object start and array start events in a sequence of events. -/
def count_starts (es : List Event) : Nat := es.countP Event.is_start

/-- The number of object end and array end events in a sequence of events. -/
def count_ends (es : List Event) : Nat := es.countP Event.is_end

/-- The number of characters of `overflow_` that stand for an object or an array. -/
def collection_markers (overflow : List OverFlowType) : Nat :=
  overflow.countP fun m => decide (m ≠ .Key)

/-- The number of characters of `overflow_` that stand for a key. -/
def key_markers (overflow : List OverFlowType) : Nat :=
  overflow.countP fun m => decide (m = .Key)

/-- The dispatcher handles the events one after the other and the overflow is in use after
each of them: the events lie in a subtree in which nothing matched. -/
def JsonCallbackVisitorImpl.InOverflow (input : Bytes) :
    List Event → JsonCallbackVisitorImpl → Prop
  | [], _ => True
  | e :: rest, v =>
    ∃ v1, v.visit input e = some v1 ∧ v1.overflow_ ≠ [] ∧
      JsonCallbackVisitorImpl.InOverflow input rest v1

/-! ## The passes of the loop of `parse_json` -/

/-- The parser and the position at the start of each pass of the loop of `parse_json`, in
the order of the passes; the counter bounds the number of passes as in `parse_json_loop`. -/
def parse_json_passes : Nat → JsonParserImpl → Cursor → List ParseState
  | 0, _, _ => []
  | fuel + 1, p, c =>
    (p, c) ::
      match parse_element p c with
      | .ok call_again s1 =>
        let p2 := if !call_again then dec_depth s1.1 else s1.1
        if p2.state_ = [] ∧ s1.2.rest ≠ [] then []
        else if s1.2.rest ≠ [] then parse_json_passes fuel p2 s1.2
        else []
      | _ => []

end flumps


namespace flumps

/-! ## The tree of nodes after registrations (reference) -/

/-- The type and the key of a node. -/
def Node.label (n : Node) : NodeType × Bytes := (n.type, n.key)

/-- The children of a node of type `t`, each given by its type and its key: at most one is
an object node and at most one is an array node; a key node occurs only when `t` is the type
of an object node, and its key is not empty; the keys of the key nodes are pairwise
distinct; an object node has key nodes only. -/
def ChildrenOk (t : NodeType) (labels : List (NodeType × Bytes)) : Prop :=
  labels.countP (fun l => decide (l.1 = .Object)) ≤ 1 ∧
  labels.countP (fun l => decide (l.1 = .Array)) ≤ 1 ∧
  (∀ l ∈ labels, l.1 = .Key → t = .Object ∧ l.2 ≠ []) ∧
  ((labels.filter fun l => decide (l.1 = .Key)).map fun l => l.2).Nodup ∧
  (t = .Object → ∀ l ∈ labels, l.1 = .Key)

mutual
/-- Every node of the tree has children as `ChildrenOk` requires. -/
def Node.WellFormed : Node → Prop
  | .mk t _ cs _ => ChildrenOk t (cs.map Node.label) ∧ Nodes.WellFormed cs
def Nodes.WellFormed : List Node → Prop
  | [] => True
  | c :: rest => c.WellFormed ∧ Nodes.WellFormed rest
end

mutual
/-- The number of callbacks stored in the nodes of the tree. -/
def Node.count_callbacks : Node → Nat
  | .mk _ cbs cs _ => cbs.length + Nodes.count_callbacks cs
def Nodes.count_callbacks : List Node → Nat
  | [] => 0
  | c :: rest => c.count_callbacks + Nodes.count_callbacks rest
end

mutual
/-- The number of nodes of the tree. -/
def Node.count_nodes : Node → Nat
  | .mk _ _ cs _ => 1 + Nodes.count_nodes cs
def Nodes.count_nodes : List Node → Nat
  | [] => 0
  | c :: rest => c.count_nodes + Nodes.count_nodes rest
end

/-- The nodes that `register_callback` looks for along the segments of a path exist from the
node `n` on. -/
def Node.HasPath : List PathSegment → Node → Prop
  | [], _ => True
  | segment :: rest, n =>
    if segment.is_object then
      ∃ o c, n.children.find? (fun c => decide (c.type = .Object)) = some o ∧
        o.children.find? (fun c => decide (c.type = .Key ∧ c.key = segment.key)) = some c ∧
        Node.HasPath rest c
    else
      ∃ a, n.children.find? (fun c => decide (c.type = .Array)) = some a ∧ Node.HasPath rest a

/-! ## The tree of nodes with the pointers `parent`

A node does not move once it is made and children are only added at the end of `children`,
so a pointer to a node is held as the position of the node: the indices of the children
taken from the root to reach it.  The null pointer is `none`. -/

/-- The struct `Node`. -/
inductive PNode where
  | mk (type : NodeType) (callbacks : List Nat) (parent : Option (List Nat))
      (children : List PNode) (key : Bytes)

def PNode.type : PNode → NodeType
  | .mk t _ _ _ _ => t

def PNode.callbacks : PNode → List Nat
  | .mk _ cbs _ _ _ => cbs

def PNode.parent : PNode → Option (List Nat)
  | .mk _ _ par _ _ => par

def PNode.children : PNode → List PNode
  | .mk _ _ _ cs _ => cs

def PNode.key : PNode → Bytes
  | .mk _ _ _ _ k => k

def PNode.root_node : PNode := .mk .Key [] none [] []

def PNode.key_node (key : Bytes) (parent : List Nat) : PNode := .mk .Key [] (some parent) [] key

def PNode.object_node (parent : List Nat) : PNode := .mk .Object [] (some parent) [] []

def PNode.array_node (parent : List Nat) : PNode := .mk .Array [] (some parent) [] []

/-- In the children of a node, from the index `i` on: `std::find_if` with `pred`, a
`push_back` of `fresh` when nothing matches, and the change `f` made through the pointer
`match->get()`, which is given the index of the child. -/
def PNode.update_match (pred : PNode → Bool) (fresh : PNode) (f : Nat → PNode → PNode) :
    Nat → List PNode → List PNode
  | i, [] => [f i fresh]
  | i, c :: rest =>
    if pred c then f i c :: rest else c :: PNode.update_match pred fresh f (i + 1) rest

/-- The loop of `register_callback` from `insert_pos` on, and the `emplace_back` of the
callback that follows it; `pos` is the pointer `insert_pos`, which a node made in the loop is
given as its `parent`. -/
def PNode.register_segments : List PathSegment → Nat → List Nat → PNode → PNode
  | [], callback, _, .mk t cbs par cs k => .mk t (cbs ++ [callback]) par cs k
  | segment :: rest, callback, pos, .mk t cbs par cs k =>
    if segment.is_object then
      .mk t cbs par (PNode.update_match (fun c => c.type = .Object) (PNode.object_node pos)
        (fun i o => .mk o.type o.callbacks o.parent
          (PNode.update_match (fun c => c.type = .Key ∧ c.key = segment.key)
            (PNode.key_node segment.key (pos ++ [i]))
            (fun j c => PNode.register_segments rest callback (pos ++ [i, j]) c)
            0 o.children) o.key)
        0 cs) k
    else
      .mk t cbs par (PNode.update_match (fun c => c.type = .Array) (PNode.array_node pos)
        (fun i a => PNode.register_segments rest callback (pos ++ [i]) a) 0 cs) k

/-- The tree of nodes of the dispatcher after the registrations `regs`, made in their order
on a fresh one. -/
def registered_nodes (regs : List (JsonValuePath × Nat)) : PNode :=
  regs.foldl (fun root r => PNode.register_segments r.1.segments r.2 [] root) PNode.root_node

mutual
/-- The tree without the pointers `parent`. -/
def PNode.erase : PNode → Node
  | .mk t cbs _ cs k => .mk t cbs (PNodes.erase cs) k
def PNodes.erase : List PNode → List Node
  | [] => []
  | c :: rest => c.erase :: PNodes.erase rest
end

mutual
/-- In the tree below the node at position `pos`, the pointer `parent` of every child is the
position of the node that holds it in `children`. -/
def PNode.ParentsOk : List Nat → PNode → Prop
  | pos, .mk _ _ _ cs _ => PNodes.ParentsOk pos 0 cs
/-- The same for the children from the index `i` on of the node at position `pos`. -/
def PNodes.ParentsOk : List Nat → Nat → List PNode → Prop
  | _, _, [] => True
  | pos, i, c :: rest =>
    c.parent = some pos ∧ c.ParentsOk (pos ++ [i]) ∧ PNodes.ParentsOk pos (i + 1) rest
end

end flumps


namespace flumps

/-! ## detail/json_echo_visitor_impl.h

The characters written through `out_` are held in their order.  The member `pp_` is `true`
in every visitor, since the only constructor sets it so.  `stack` is held with `stack.back()`
at the head of the list; on an empty `stack`, where `stack.back()` and `stack.pop_back()` have
no defined behaviour, `is_back` gives `false` and `set_back` and `pop_back` change nothing. -/

/-- The enum `state`. -/
inductive EchoState
  | root
  | start_array
  | in_array
  | start_object
  | first_key_seen
  | in_object
  | subsequent_key
  deriving DecidableEq, Repr

structure JsonEchoVisitorImpl where
  indent_ : Bytes
  out_ : Bytes
  stack : List EchoState
  deriving DecidableEq, Repr

/-- An echo visitor as constructed: nothing written, `stack` holding `root`. -/
def JsonEchoVisitor (indent : Bytes) : JsonEchoVisitorImpl := ⟨indent, [], [.root]⟩

def JsonEchoVisitorImpl.is_back (v : JsonEchoVisitorImpl) (s : EchoState) : Bool :=
  v.stack.head? = some s

def JsonEchoVisitorImpl.set_back (v : JsonEchoVisitorImpl) (s : EchoState) :
    JsonEchoVisitorImpl :=
  match v.stack with
  | [] => v
  | _ :: below => { v with stack := s :: below }

def JsonEchoVisitorImpl.stack_push (v : JsonEchoVisitorImpl) (s : EchoState) :
    JsonEchoVisitorImpl :=
  { v with stack := s :: v.stack }

def JsonEchoVisitorImpl.output_char (v : JsonEchoVisitorImpl) (ch : Nat) :
    JsonEchoVisitorImpl :=
  { v with out_ := v.out_ ++ [ch] }

def JsonEchoVisitorImpl.output_string (v : JsonEchoVisitorImpl) (text : Bytes) :
    JsonEchoVisitorImpl :=
  { v with out_ := v.out_ ++ text }

/-- The loop `for (auto i = stack.size(); i > 1u; --i)` of `output_new_line`, with `i` the
value of the counter. -/
def JsonEchoVisitorImpl.output_indents : Nat → JsonEchoVisitorImpl → JsonEchoVisitorImpl
  | 0, v => v
  | i + 1, v =>
    if i + 1 > 1 then JsonEchoVisitorImpl.output_indents i (v.output_string v.indent_) else v

def JsonEchoVisitorImpl.output_new_line (v : JsonEchoVisitorImpl) : JsonEchoVisitorImpl :=
  JsonEchoVisitorImpl.output_indents v.stack.length (v.output_char 0x0A)

/-- The three statements `if (is_back(...)) set_back(...)` that end the handlers of the
events that end a value. -/
def JsonEchoVisitorImpl.value_done (v : JsonEchoVisitorImpl) : JsonEchoVisitorImpl :=
  let v1 := if v.is_back .start_array then v.set_back .in_array else v
  let v2 := if v1.is_back .first_key_seen then v1.set_back .in_object else v1
  if v2.is_back .subsequent_key then v2.set_back .in_object else v2

/-- The statement that starts `on_object_start` and `on_array_start`. -/
def JsonEchoVisitorImpl.before_collection (v : JsonEchoVisitorImpl) : JsonEchoVisitorImpl :=
  if v.is_back .in_array then (v.output_char 0x2C).output_new_line
  else if v.is_back .in_object then (v.output_char 0x2C).output_new_line
  else v

def JsonEchoVisitorImpl.on_object_start (v : JsonEchoVisitorImpl) (_start : Nat) :
    JsonEchoVisitorImpl :=
  ((v.before_collection.stack_push .start_object).output_char 0x7B).output_new_line

/-- The member `on_object_key`; `key` holds the `length` bytes at `start`. -/
def JsonEchoVisitorImpl.on_object_key (v : JsonEchoVisitorImpl) (key : Bytes) :
    JsonEchoVisitorImpl :=
  let v1 :=
    if v.is_back .in_object then ((v.set_back .subsequent_key).output_char 0x2C).output_new_line
    else v.set_back .first_key_seen
  ((((v1.output_char 0x22).output_string key).output_char 0x22).output_char 0x3A).output_char 0x20

def JsonEchoVisitorImpl.on_object_end (v : JsonEchoVisitorImpl) (_start _length : Nat) :
    JsonEchoVisitorImpl :=
  (({ v with stack := v.stack.tail }.output_new_line).output_char 0x7D).value_done

def JsonEchoVisitorImpl.on_array_start (v : JsonEchoVisitorImpl) (_start : Nat) :
    JsonEchoVisitorImpl :=
  ((v.before_collection.stack_push .start_array).output_char 0x5B).output_new_line

def JsonEchoVisitorImpl.on_array_end (v : JsonEchoVisitorImpl) (_start _length : Nat) :
    JsonEchoVisitorImpl :=
  (({ v with stack := v.stack.tail }.output_new_line).output_char 0x5D).value_done

/-- The member `on_primitive_value`; `text` holds the `length` bytes at `start`. -/
def JsonEchoVisitorImpl.on_primitive_value (v : JsonEchoVisitorImpl) (type : JsonValueType)
    (text : Bytes) : JsonEchoVisitorImpl :=
  let v1 := if v.is_back .in_array then (v.output_char 0x2C).output_new_line else v
  let v2 := if type = .String then v1.output_char 0x22 else v1
  let v3 := v2.output_string text
  let v4 := if type = .String then v3.output_char 0x22 else v3
  v4.value_done

/-- A call of a visitor method made by the parser, on the echo visitor; the bytes of a key
and of a primitive value are read in the input. -/
def JsonEchoVisitorImpl.visit (input : Bytes) (v : JsonEchoVisitorImpl) :
    Event → JsonEchoVisitorImpl
  | .on_array_start start => v.on_array_start start
  | .on_array_end start length => v.on_array_end start length
  | .on_object_start start => v.on_object_start start
  | .on_object_key start length => v.on_object_key (span_text input start length)
  | .on_object_end start length => v.on_object_end start length
  | .on_primitive_value type start length =>
    v.on_primitive_value type (span_text input start length)

/-- The calls of visitor methods made by a parse, in their order, on the echo visitor. -/
def JsonEchoVisitorImpl.feed (input : Bytes) :
    List Event → JsonEchoVisitorImpl → JsonEchoVisitorImpl
  | [], v => v
  | e :: rest, v => JsonEchoVisitorImpl.feed input rest (v.visit input e)

/-! ## The text that the echo visitor writes (reference) -/

/-- A line feed and `depth` times the indent. -/
def echo_new_line (indent : Bytes) (depth : Nat) : Bytes :=
  0x0A :: (List.replicate depth indent).flatten

/-- What is written before a value when the state `s` is on top of the stack over the states
`below`: a comma and a new line for a further element of an array. -/
def echo_lead (indent : Bytes) (s : EchoState) (below : List EchoState) : Bytes :=
  if s = .in_array then 0x2C :: echo_new_line indent below.length else []

/-- The state that replaces `s` when a value ends. -/
def EchoState.after_value : EchoState → EchoState
  | .start_array => .in_array
  | .first_key_seen => .in_object
  | .subsequent_key => .in_object
  | s => s

/-- The states in which the echo visitor receives a value from a parse. -/
def EchoState.awaits_value : EchoState → Bool
  | .root => true
  | .start_array => true
  | .in_array => true
  | .first_key_seen => true
  | .subsequent_key => true
  | _ => false

/-- The whitespace written after the last element of an array, or the last member of an
object, that stands at depth `d`: a new line before the closing bracket. -/
def JsonElements.closing (indent : Bytes) (d : Nat) : JsonElements → Bytes
  | .nil => echo_new_line indent d
  | .cons _ _ _ _ => []

def JsonMembers.closing (indent : Bytes) (d : Nat) : JsonMembers → Bytes
  | .nil => echo_new_line indent d
  | .cons _ _ _ _ _ _ _ => []

mutual
/-- The value as the echo visitor writes it at depth `d`: the tokens and the keys as they
are, each element and each member on a line of its own, indented by one more indent than
its collection, and one space after a colon. -/
def JsonValue.echo (indent : Bytes) : Nat → JsonValue → JsonValue
  | _, .primitive type text => .primitive type text
  | d, .empty_array _ => .empty_array (echo_new_line indent (d + 1) ++ echo_new_line indent d)
  | d, .array _ v _ more =>
    .array (echo_new_line indent (d + 1)) (v.echo indent (d + 1)) (more.closing indent d)
      (more.echo indent d)
  | d, .empty_object _ =>
    .empty_object (echo_new_line indent (d + 1) ++ echo_new_line indent d)
  | d, .object _ key _ _ v _ more =>
    .object (echo_new_line indent (d + 1)) key [] [0x20] (v.echo indent (d + 1))
      (more.closing indent d) (more.echo indent d)
/-- The further elements of an array that stands at depth `d`. -/
def JsonElements.echo (indent : Bytes) : Nat → JsonElements → JsonElements
  | _, .nil => .nil
  | d, .cons _ v _ tl =>
    .cons (echo_new_line indent (d + 1)) (v.echo indent (d + 1)) (tl.closing indent d)
      (tl.echo indent d)
/-- The further members of an object that stands at depth `d`. -/
def JsonMembers.echo (indent : Bytes) : Nat → JsonMembers → JsonMembers
  | _, .nil => .nil
  | d, .cons _ key _ _ v _ tl =>
    .cons (echo_new_line indent (d + 1)) key [] [0x20] (v.echo indent (d + 1))
      (tl.closing indent d) (tl.echo indent d)
end

/-- What the echo visitor writes for the further elements of an array, each at depth `e`. -/
def JsonElements.echo_text (indent : Bytes) (e : Nat) : JsonElements → Bytes
  | .nil => []
  | .cons _ v _ tl =>
    0x2C :: (echo_new_line indent e ++
      ((v.echo indent e).render ++ JsonElements.echo_text indent e tl))

/-- What the echo visitor writes for the further members of an object, each at depth `e`. -/
def JsonMembers.echo_text (indent : Bytes) (e : Nat) : JsonMembers → Bytes
  | .nil => []
  | .cons _ key _ _ v _ tl =>
    0x2C :: (echo_new_line indent e ++
      (0x22 :: (key ++ [0x22, 0x3A, 0x20]) ++
        ((v.echo indent e).render ++ JsonMembers.echo_text indent e tl)))

/-- What an event reports: its kind, and the bytes of a key or of a primitive value. -/
inductive EventContent
  | array_start
  | array_end
  | object_start
  | object_key (key : Bytes)
  | object_end
  | primitive_value (type : JsonValueType) (text : Bytes)
  deriving DecidableEq, Repr

/-- What an event reports of the input in which its span lies. -/
def Event.content (input : Bytes) : Event → EventContent
  | .on_array_start _ => .array_start
  | .on_array_end _ _ => .array_end
  | .on_object_start _ => .object_start
  | .on_object_key start length => .object_key (span_text input start length)
  | .on_object_end _ _ => .object_end
  | .on_primitive_value type start length =>
    .primitive_value type (span_text input start length)

mutual
/-- What the events of a value report, in document order. -/
def JsonValue.contents : JsonValue → List EventContent
  | .primitive type text => [.primitive_value type text]
  | .empty_array _ => [.array_start, .array_end]
  | .array _ v _ more => .array_start :: (v.contents ++ (more.contents ++ [.array_end]))
  | .empty_object _ => [.object_start, .object_end]
  | .object _ key _ _ v _ more =>
    .object_start :: .object_key key :: (v.contents ++ (more.contents ++ [.object_end]))
def JsonElements.contents : JsonElements → List EventContent
  | .nil => []
  | .cons _ v _ tl => v.contents ++ tl.contents
def JsonMembers.contents : JsonMembers → List EventContent
  | .nil => []
  | .cons _ key _ _ v _ tl => .object_key key :: (v.contents ++ tl.contents)
end

end flumps


namespace flumps

/-! ## The values that a sequence of events reports (reference)

The location of a value is read off the events alone, whether or not they are the events of
a whole text: a stack holds the arrays and the objects that are open and the keys whose
value is awaited, with the bytes of each key. -/

/-- An array or an object that is open, or a key whose value is awaited. -/
inductive OpenStep
  | array
  | object
  | key (k : Bytes)
  deriving DecidableEq, Repr

/-- The location of the value that is awaited with the stack `stack` (innermost step
first): an element step for each open array and a member step for each key. -/
def open_location : List OpenStep → List LocationStep
  | [] => []
  | .array :: below => open_location below ++ [.element]
  | .object :: below => open_location below
  | .key k :: below => open_location below ++ [.member k]

/-- A value ended: the key that awaited it is taken away. -/
def close_open : List OpenStep → List OpenStep
  | .key _ :: below => below
  | stack => stack

/-- The stack after an event; the bytes of a key are read in the input. -/
def open_step (input : Bytes) (stack : List OpenStep) : Event → List OpenStep
  | .on_array_start _ => .array :: stack
  | .on_object_start _ => .object :: stack
  | .on_object_key s l => .key ((input.drop s).take l) :: stack
  | .on_primitive_value _ _ _ => close_open stack
  | .on_array_end _ _ => close_open stack.tail
  | .on_object_end _ _ => close_open stack.tail

/-- The value that an event reports, if it reports one: a primitive value, or the array or
the object that ends, at the location read off the stack, with the type and the span of
the event. -/
def reported (stack : List OpenStep) : Event → List Located
  | .on_primitive_value type s l => [⟨open_location stack, type, s, l⟩]
  | .on_array_end s l => [⟨open_location stack.tail, .Array, s, l⟩]
  | .on_object_end s l => [⟨open_location stack.tail, .Object, s, l⟩]
  | _ => []

/-- The values that a sequence of events reports, in the order of the events. -/
def events_located (input : Bytes) : List OpenStep → List Event → List Located
  | _, [] => []
  | stack, e :: es => reported stack e ++ events_located input (open_step input stack e) es

end flumps


namespace flumps

/-! ## The nesting of the calls of the parsing engine

A second embedding of `parse_json` and of every routine of the repository that it reaches
(the members of `JsonParserImpl`, the routines of `string_helpers.cpp` and the
constructors of `exception.cpp`), in which every call of a routine is marked.  Each
definition returns what the routine computes together with the greatest number of
activations that were nested one in the other while it ran, the routine itself included.
A loop of the source is a recursion of the embedding on its counter and is no call.  A call
of a method of the visitor is one activation; calls into the standard library
(`std::to_string`, `std::strncmp`, the members of `std::string` and of `std::vector`, the
constructor of `std::runtime_error`) are not counted. -/

/-- What a computation gives, and the greatest number of activations of routines nested
in it. -/
structure Traced (ρ : Type) where
  result : ρ
  depth : Nat

/-- A computation that calls nothing. -/
def Traced.ret {ρ : Type} (r : ρ) : Traced ρ := ⟨r, 0⟩

/-- The call of a routine whose body is `body`: one activation around those of the body. -/
def Traced.call {ρ : Type} (body : Traced ρ) : Traced ρ := ⟨body.result, body.depth + 1⟩

/-- One computation after the other; the second uses what the first gives. -/
def Traced.andThen {ρ τ : Type} (t : Traced ρ) (k : ρ → Traced τ) : Traced τ :=
  ⟨(k t.result).result, max t.depth (k t.result).depth⟩

/-- The statement `throw E(msg)` for one of the three classes of exception.h: the
constructor of the class calls the constructor of `DecodeError` (exception.cpp). -/
def Traced.raise {σ α : Type} (e : DecodeError) (s : σ) : Traced (Res σ α) := ⟨.throw e s, 2⟩

/-- The statement `throw E(msg)` in a routine embedded with `Except`. -/
def Traced.fail {α : Type} (e : DecodeError) : Traced (Except DecodeError α) := ⟨.error e, 2⟩

/-- Sequencing as `Res.bind`: an exception leaves the routine without a further call. -/
def Traced.bind {σ α β : Type} (t : Traced (Res σ α)) (k : α → σ → Traced (Res σ β)) :
    Traced (Res σ β) :=
  t.andThen fun r =>
    match r with
    | .ok a s => k a s
    | .throw e s => .ret (.throw e s)
    | .fuel => .ret .fuel

/-- As `Res.lift`. -/
def Traced.lift {σ τ α : Type} (put : τ → σ) (t : Traced (Res τ α)) : Traced (Res σ α) :=
  ⟨t.result.lift put, t.depth⟩

/-! ### string_helpers.cpp -/

def is_hex_traced (ch : Nat) : Traced Bool := .call (.ret (is_hex ch))

def hex_to_dec_traced (ch : Nat) : Traced Nat := .call (.ret (hex_to_dec ch))

def code_point_type_traced (cp : Nat) : Traced (Except DecodeError CodePointType) :=
  .call (
    if cp > 0x10FFFF then .fail (too_large cp)
    else if cp < 0xD800 ∨ cp > 0xDFFF then .ret (.ok .non_surrogate)
    else if cp ≤ 0xDBFF then .ret (.ok .high_surrogate)
    else .ret (.ok .low_surrogate))

def surrogate_pair_to_code_point_traced (high low : Nat) : Traced (Except DecodeError Nat) :=
  .call (
    (code_point_type_traced high).andThen fun r =>
      match r with
      | .error e => .ret (.error e)
      | .ok th =>
        if th ≠ .high_surrogate then
          .fail ⟨.JsonParseError, "surrogate_pair_to_code_point - invalid high"⟩
        else
          (code_point_type_traced low).andThen fun r2 =>
            match r2 with
            | .error e => .ret (.error e)
            | .ok tl =>
              if tl ≠ .low_surrogate then
                .fail ⟨.JsonParseError, "surrogate_pair_to_code_point - invalid low"⟩
              else .ret (.ok (0x10000 + ((high &&& 0x03FF) <<< 10) + (low &&& 0x03FF))))

def check_code_point_traced (t : utf8_surrogate_checker) (code_point : Nat) :
    Traced (Except DecodeError (Bool × utf8_surrogate_checker)) :=
  .call (
    (code_point_type_traced code_point).andThen fun r =>
      match r with
      | .error e => .ret (.error e)
      | .ok .low_surrogate =>
        if !t.surrogate_low_needed then
          .fail ⟨.UnicodeCodePointError,
            "Invalid: low surrogate code point not preceded by high"⟩
        else
          (surrogate_pair_to_code_point_traced t.last_code_point code_point).andThen fun r2 =>
            match r2 with
            | .error e => .ret (.error e)
            | .ok cp => .ret (.ok (true, ⟨cp, false⟩))
      | .ok .high_surrogate =>
        if t.surrogate_low_needed then
          .fail ⟨.UnicodeCodePointError, "Invalid: high surrogate code point preceded by high"⟩
        else .ret (.ok (false, ⟨code_point, true⟩))
      | .ok .non_surrogate =>
        if t.surrogate_low_needed then
          .fail ⟨.UnicodeCodePointError,
            "Invalid: high surrogate code point not followed by low"⟩
        else .ret (.ok (true, ⟨code_point, false⟩)))

/-- The loop over the continuation bytes in `chomp_utf8_char`. -/
def chomp_utf8_continuation_traced : Nat → Nat → Cursor → Traced (Res Cursor Nat)
  | 0, code_point, c => .ret (.ok code_point c)
  | k + 1, code_point, c =>
    if c.peek &&& 0xC0 ≠ 0x80 then
      .raise ⟨.Utf8DecodeError, "Invalid: multi-byte utf-8 byte invalid"⟩ c
    else
      chomp_utf8_continuation_traced k ((code_point <<< 6) ||| (c.peek &&& 0x3F)) c.next

def chomp_utf8_char_traced (c : Cursor) : Traced (Res Cursor Nat) :=
  .call (
    let decoded : Traced (Res Cursor Nat) :=
      match c.rest with
      | [] => .ret (.ok 0 c)
      | b :: _ =>
        match utf8_lead b with
        | none => .raise ⟨.Utf8DecodeError, "Invalid: leading utf-8 byte invalid"⟩ c
        | some (code_point, additional_bytes) =>
          if c.next.rest.length < additional_bytes then
            .raise ⟨.Utf8DecodeError, "End of data: partial utf-8 codepoint"⟩ c.next
          else chomp_utf8_continuation_traced additional_bytes code_point c.next
    decoded.bind fun code_point c1 =>
      (code_point_type_traced code_point).andThen fun r =>
        match r with
        | .error e => .ret (.throw e c1)
        | .ok t =>
          if t ≠ .non_surrogate then
            .raise ⟨.Utf8DecodeError, "Invalid: surrogate code point present"⟩ c1
          else .ret (.ok code_point c1))

/-- The loop `while (*pos != cp_end)` of `json_hex_seq_to_code_point`. -/
def json_hex_seq_loop_traced : Nat → Nat → Nat → Cursor → Traced (Res Cursor Nat)
  | 0, _, cp, c => .ret (.ok cp c)
  | k + 1, column, cp, c =>
    (is_hex_traced c.peek).andThen fun h =>
      if !h then
        .raise ⟨.JsonParseError, "Invalid: hex character expected"⟩ c
      else
        (hex_to_dec_traced c.peek).andThen fun d =>
          json_hex_seq_loop_traced k (column - 1) (cp + (d <<< (column * 4))) c.next

def json_hex_seq_to_code_point_traced (c : Cursor) : Traced (Res Cursor Nat) :=
  .call (
    if c.rest.length < 4 then
      .raise ⟨.JsonParseError, "End of data: partial unicode escape sequence"⟩ c
    else json_hex_seq_loop_traced 4 3 0 c)

/-! ### json_parser_impl.h -/

/-- A call of a method of the visitor. -/
def visit_traced (p : JsonParserImpl) (e : Event) : Traced JsonParserImpl :=
  .call (.ret (p.visit e))

def inc_depth_traced (p : JsonParserImpl) (c : Cursor) : Traced (Res ParseState Unit) :=
  .call (
    let p1 : JsonParserImpl := { p with state_ := {} :: p.state_ }
    if p1.depth_limit_ > 0 ∧ p1.state_.length > p1.depth_limit_ then
      .raise (json_parse_error
        ("Maximum JSON nesting depth (" ++ toString p1.depth_limit_ ++ ") reached")) (p1, c)
    else .ret (.ok () (p1, c)))

def dec_depth_traced (p : JsonParserImpl) : Traced JsonParserImpl := .call (.ret (dec_depth p))

def is_whitespace_traced (ch : Nat) : Traced Bool := .call (.ret (is_whitespace ch))

def is_dec_traced (ch : Nat) : Traced Bool := .call (.ret (is_dec ch))

/-- The loop of `chomp_whitespace` from offset `pos`. -/
def chomp_whitespace_loop_traced (pos : Nat) : Bytes → Traced Cursor
  | [] => .ret ⟨pos, []⟩
  | b :: r =>
    (is_whitespace_traced b).andThen fun w =>
      if w then chomp_whitespace_loop_traced (pos + 1) r else .ret ⟨pos, b :: r⟩

def chomp_whitespace_traced (c : Cursor) : Traced Cursor :=
  .call (chomp_whitespace_loop_traced c.pos c.rest)

/-- The loop `while (*pos != end && is_dec(**pos)) ++*pos` of `parse_number`. -/
def chomp_digits_traced (pos : Nat) : Bytes → Traced Cursor
  | [] => .ret ⟨pos, []⟩
  | b :: r =>
    (is_dec_traced b).andThen fun d =>
      if d then chomp_digits_traced (pos + 1) r else .ret ⟨pos, b :: r⟩

/-- The part of `parse_number` under `// Decode exponent`. -/
def parse_number_exponent_traced (c : Cursor) : Traced (Res Cursor Unit) :=
  if c.peek = 0x65 ∨ c.peek = 0x45 then
    let c1 := c.next
    if c1.rest = [] then
      .raise (json_parse_error "End of data: no exponent following 'e'") c1
    else
      let c2 := if c1.peek = 0x2D ∨ c1.peek = 0x2B then c1.next else c1
      if c2.rest = [] then
        .raise (json_parse_error "End of data: no exponent digit following 'e(+|-|)'") c2
      else
        (is_dec_traced c2.peek).andThen fun d =>
          if !d then
            .raise (json_parse_error "Invalid: digit expected following 'e(+|-|)'") c2
          else
            (chomp_digits_traced c2.next.pos c2.next.rest).andThen fun c3 => .ret (.ok () c3)
  else .ret (.ok () c)

/-- The part of `parse_number` from the earlier `if (*pos == end) return` on. -/
def parse_number_fraction_traced (c : Cursor) : Traced (Res Cursor Unit) :=
  if c.rest = [] then .ret (.ok () c)
  else
    let after_fraction : Traced (Res Cursor Unit) :=
      if c.peek = 0x2E then
        let c1 := c.next
        if c1.rest = [] then
          .raise (json_parse_error "End of data: no digits following decimal point") c1
        else
          (is_dec_traced c1.peek).andThen fun d =>
            if !d then
              .raise (json_parse_error "Invalid: digit expected following decimal point") c1
            else
              (chomp_digits_traced c1.next.pos c1.next.rest).andThen fun c2 =>
                .ret (.ok () c2)
      else .ret (.ok () c)
    after_fraction.bind fun _ c2 =>
      if c2.rest = [] then .ret (.ok () c2) else parse_number_exponent_traced c2

def parse_number_traced (c : Cursor) : Traced (Res Cursor Unit) :=
  .call (
    let after_sign : Traced (Res Cursor Unit) :=
      if c.peek = 0x2D then
        if c.next.rest = [] then
          .raise (json_parse_error "End of data: no integer part following leading '-'")
            c.next
        else .ret (.ok () c.next)
      else .ret (.ok () c)
    after_sign.bind fun _ c1 =>
      (is_dec_traced c1.peek).andThen fun d =>
        if !d then
          .raise (json_parse_error "Invalid: non-decimal in integer part") c1
        else
          (if c1.peek = 0x30 then .ret c1.next
            else chomp_digits_traced c1.next.pos c1.next.rest).andThen fun c2 =>
            parse_number_fraction_traced c2)

/-- One pass of the body of the `while` loop of `parse_string` up to the test of
`last_cp_was_hex_seq`. -/
def parse_string_body_traced (sur : utf8_surrogate_checker) (last_cp_was_hex_seq : Bool)
    (c : Cursor) : Traced (Res Cursor (utf8_surrogate_checker × Bool)) :=
  if c.peek ≠ 0x5C then
    if c.peek ≤ 0x1F then
      .raise (json_parse_error "Invalid: control characters must be escaped as \\uxxxx") c
    else (chomp_utf8_char_traced c).bind fun _ c1 => .ret (.ok (sur, last_cp_was_hex_seq) c1)
  else
    let c1 := c.next
    if c1.rest = [] then
      .raise (json_parse_error "End of data: partial escape sequence") c1
    else if c1.peek ∉ escape_char then
      .raise (json_parse_error "Invalid: invalid escape sequence") c1
    else if c1.peek ≠ 0x75 then .ret (.ok (sur, last_cp_was_hex_seq) c1.next)
    else
      (json_hex_seq_to_code_point_traced c1.next).bind fun code_point c2 =>
        (check_code_point_traced sur code_point).andThen fun r =>
          match r with
          | .error err => .ret (.throw err c2)
          | .ok (_, sur1) => .ret (.ok (sur1, true) c2)

/-- The loop `while (*pos != end && **pos != '"')` of `parse_string`. -/
def parse_string_loop_traced :
    Nat → utf8_surrogate_checker → Bool → Cursor → Traced (Res Cursor utf8_surrogate_checker)
  | 0, _, _, _ => .ret .fuel
  | fuel + 1, sur, last_cp_was_hex_seq, c =>
    if c.rest = [] ∨ c.peek = 0x22 then .ret (.ok sur c)
    else
      (parse_string_body_traced sur last_cp_was_hex_seq c).bind fun (sur1, last1) c1 =>
        if !last1 then
          (check_code_point_traced sur1 0).andThen fun r =>
            match r with
            | .error err => .ret (.throw err c1)
            | .ok (_, sur2) => parse_string_loop_traced fuel sur2 last1 c1
        else parse_string_loop_traced fuel sur1 last1 c1

def parse_string_traced (c : Cursor) : Traced (Res Cursor Unit) :=
  .call (
    (parse_string_loop_traced (c.next.rest.length + 1) {} false c.next).bind fun sur c1 =>
      (check_code_point_traced sur 0).andThen fun r =>
        match r with
        | .error err => .ret (.throw err c1)
        | .ok _ =>
          if c1.rest = [] then
            .raise (json_parse_error "End of data: no string '\"' terminator reached") c1
          else .ret (.ok () c1.next))

def parse_member_key_traced (p : JsonParserImpl) (c : Cursor) :
    Traced (Res ParseState Unit) :=
  .call (
    (chomp_whitespace_traced c).andThen fun c1 =>
      if c1.rest = [] then
        .raise (json_parse_error "End of data: object key expected") (p, c1)
      else if c1.peek ≠ 0x22 then
        .raise (json_parse_error "Invalid: object key string expected") (p, c1)
      else
        ((parse_string_traced c1).lift fun c2 => (p, c2)).bind fun _ s2 =>
          (visit_traced s2.1 (.on_object_key (c1.pos + 1) ((s2.2.pos - c1.pos) - 2))).andThen
            fun p1 =>
              (chomp_whitespace_traced s2.2).andThen fun c3 =>
                if c3.rest = [] ∨ c3.peek ≠ 0x3A then
                  .raise (json_parse_error "Invalid: object member colon expected") (p1, c3)
                else .ret (.ok () (p1, c3.next)))

/-- The `do … while (*pos != end)` loop of `parse_object`. -/
def parse_object_loop_traced : Nat → JsonParserImpl → Cursor → Traced (Res ParseState Bool)
  | 0, _, _ => .ret .fuel
  | fuel + 1, p, c =>
    match p.back.parse_object with
    | .initial =>
      let p1 := p.set_back fun s => { s with start := c.pos }
      (visit_traced p1 (.on_object_start p1.back.start)).andThen fun p2 =>
        (chomp_whitespace_traced c.next).andThen fun c1 =>
          if c1.rest = [] ∨ c1.peek ≠ 0x7D then
            (parse_member_key_traced p2 c1).bind fun _ s2 =>
              (inc_depth_traced (s2.1.set_back fun s => { s with parse_object := .member_read })
                s2.2).bind fun _ s3 => .ret (.ok true s3)
          else
            let p3 := p2.set_back fun s => { s with parse_object := .object_read }
            if c1.rest ≠ [] then parse_object_loop_traced fuel p3 c1
            else .ret (.ok false (p3, c1))
    | .member_read =>
      if c.rest ≠ [] then
        if c.peek = 0x7D then
          let p1 := p.set_back fun s => { s with parse_object := .object_read }
          if c.rest ≠ [] then parse_object_loop_traced fuel p1 c else .ret (.ok false (p1, c))
        else if c.peek = 0x2C then
          (parse_member_key_traced p c.next).bind fun _ s2 =>
            (inc_depth_traced s2.1 s2.2).bind fun _ s3 => .ret (.ok true s3)
        else .raise (json_parse_error "Invalid: end of object or comma expected") (p, c)
      else .raise (json_parse_error "End of data: end of object or comma expected") (p, c)
    | .object_read =>
      let c1 := c.next
      (visit_traced p (.on_object_end p.back.start (c1.pos - p.back.start))).andThen fun p1 =>
        .ret (.ok false (p1, c1))

def parse_object_traced (fuel : Nat) (p : JsonParserImpl) (c : Cursor) :
    Traced (Res ParseState Bool) :=
  .call (parse_object_loop_traced fuel p c)

/-- The `do … while (*pos != end)` loop of `parse_array`. -/
def parse_array_loop_traced : Nat → JsonParserImpl → Cursor → Traced (Res ParseState Bool)
  | 0, _, _ => .ret .fuel
  | fuel + 1, p, c =>
    match p.back.parse_array with
    | .initial =>
      let p1 := p.set_back fun s => { s with start := c.pos }
      (visit_traced p1 (.on_array_start p1.back.start)).andThen fun p2 =>
        (chomp_whitespace_traced c.next).andThen fun c1 =>
          if c1.rest = [] ∨ c1.peek ≠ 0x5D then
            (inc_depth_traced (p2.set_back fun s => { s with parse_array := .element_read })
              c1).bind fun _ s3 => .ret (.ok true s3)
          else
            let p3 := p2.set_back fun s => { s with parse_array := .end_array }
            if c1.rest ≠ [] then parse_array_loop_traced fuel p3 c1
            else .ret (.ok false (p3, c1))
    | .element_read =>
      if c.rest ≠ [] then
        if c.peek = 0x5D then
          let p1 := p.set_back fun s => { s with parse_array := .end_array }
          if c.rest ≠ [] then parse_array_loop_traced fuel p1 c else .ret (.ok false (p1, c))
        else if c.peek = 0x2C then
          (inc_depth_traced p c.next).bind fun _ s3 => .ret (.ok true s3)
        else .raise (json_parse_error "Invalid: end of array or comma expected") (p, c)
      else .raise (json_parse_error "End of data: end of array or comma expected") (p, c)
    | .end_array =>
      let c1 := c.next
      (visit_traced p (.on_array_end p.back.start (c1.pos - p.back.start))).andThen fun p1 =>
        .ret (.ok false (p1, c1))

def parse_array_traced (fuel : Nat) (p : JsonParserImpl) (c : Cursor) :
    Traced (Res ParseState Bool) :=
  .call (parse_array_loop_traced fuel p c)

/-- The case `ParseValue::initial` of `parse_value` for a value that is neither an object
nor an array; `is_dec` is called when the byte is not `'-'`. -/
def parse_primitive_traced (p : JsonParserImpl) (c : Cursor) : Traced (Res ParseState Bool) :=
  if c.peek = 0x22 then
    ((parse_string_traced c).lift fun c1 => (p, c1)).bind fun _ s1 =>
      (visit_traced s1.1
        (.on_primitive_value .String (c.pos + 1) ((s1.2.pos - c.pos) - 2))).andThen fun p1 =>
        .ret (.ok false (p1, s1.2))
  else
    (if c.peek = 0x2D then .ret true else is_dec_traced c.peek).andThen fun number =>
      if number then
        ((parse_number_traced c).lift fun c1 => (p, c1)).bind fun _ s1 =>
          (visit_traced s1.1 (.on_primitive_value .Number c.pos (s1.2.pos - c.pos))).andThen
            fun p1 => .ret (.ok false (p1, s1.2))
      else if c.rest.length ≥ 4 ∧ c.rest.take 4 = [0x74, 0x72, 0x75, 0x65] then
        (visit_traced p (.on_primitive_value .True c.pos 4)).andThen fun p1 =>
          .ret (.ok false (p1, c.advance 4))
      else if c.rest.length ≥ 4 ∧ c.rest.take 4 = [0x6E, 0x75, 0x6C, 0x6C] then
        (visit_traced p (.on_primitive_value .Null c.pos 4)).andThen fun p1 =>
          .ret (.ok false (p1, c.advance 4))
      else if c.rest.length ≥ 5 ∧ c.rest.take 5 = [0x66, 0x61, 0x6C, 0x73, 0x65] then
        (visit_traced p (.on_primitive_value .False c.pos 5)).andThen fun p1 =>
          .ret (.ok false (p1, c.advance 5))
      else .raise (json_parse_error "Invalid: value expected") (p, c)

/-- The `do … while (*pos != end)` loop of `parse_value`. -/
def parse_value_loop_traced : Nat → JsonParserImpl → Cursor → Traced (Res ParseState Bool)
  | 0, _, _ => .ret .fuel
  | fuel + 1, p, c =>
    match p.back.parse_value with
    | .initial =>
      if c.rest = [] then .raise (json_parse_error "End of data: value expected") (p, c)
      else if c.peek = 0x7B then
        let p1 := p.set_back fun s => { s with parse_value := .parse_object }
        if c.rest ≠ [] then parse_value_loop_traced fuel p1 c else .ret (.ok false (p1, c))
      else if c.peek = 0x5B then
        let p1 := p.set_back fun s => { s with parse_value := .parse_array }
        if c.rest ≠ [] then parse_value_loop_traced fuel p1 c else .ret (.ok false (p1, c))
      else parse_primitive_traced p c
    | .parse_object => parse_object_traced 2 p c
    | .parse_array => parse_array_traced 2 p c

def parse_value_traced (fuel : Nat) (p : JsonParserImpl) (c : Cursor) :
    Traced (Res ParseState Bool) :=
  .call (parse_value_loop_traced fuel p c)

def parse_element_traced (p : JsonParserImpl) (c : Cursor) : Traced (Res ParseState Bool) :=
  .call (
    let s0 : Traced ParseState :=
      match p.back.parse_element with
      | .initial =>
        (chomp_whitespace_traced c).andThen fun c1 =>
          .ret (p.set_back fun s => { s with parse_element := .parse_value }, c1)
      | .parse_value => .ret (p, c)
    s0.andThen fun s0 =>
      (parse_value_traced 2 s0.1 s0.2).bind fun call_again s1 =>
        if call_again then .ret (.ok call_again s1)
        else (chomp_whitespace_traced s1.2).andThen fun c2 => .ret (.ok false (s1.1, c2)))

/-- The `do … while (pos != end)` loop of `parse_json`. -/
def parse_json_loop_traced : Nat → JsonParserImpl → Cursor → Traced (Res ParseState Unit)
  | 0, _, _ => .ret .fuel
  | fuel + 1, p, c =>
    (parse_element_traced p c).bind fun call_again s1 =>
      (if !call_again then dec_depth_traced s1.1 else .ret s1.1).andThen fun p2 =>
        if p2.state_ = [] ∧ s1.2.rest ≠ [] then
          .raise (json_parse_error "Invalid: extra data present after JSON") (p2, s1.2)
        else if s1.2.rest ≠ [] then parse_json_loop_traced fuel p2 s1.2
        else .ret (.ok () (p2, s1.2))

/-- The member `parse_json(begin, end)` with the nesting of the calls made in it; the
handler of `DecodeError` constructs the `JsonParseError` that it throws. -/
def parse_json_traced (p : JsonParserImpl) (input : Bytes) : Traced (Res ParseState Bool) :=
  .call (
    (inc_depth_traced { p with state_ := [] } ⟨0, input⟩).bind fun _ s0 =>
      let tried : Traced (Res ParseState Unit) :=
        (parse_json_loop_traced (input.length + 1) s0.1 s0.2).bind fun _ s1 =>
          if s1.1.state_ ≠ [] then .raise (json_parse_error "Invalid: JSON truncated") s1
          else .ret (.ok () s1)
      tried.andThen fun r =>
        match r with
        | .ok _ s2 => .ret (.ok (decide (s2.2.rest = [])) s2)
        | .throw e s2 =>
          .raise (json_parse_error (e.what ++ " (offset=" ++ toString s2.2.pos ++ ")")) s2
        | .fuel => .ret .fuel)

end flumps


namespace flumps

/-! ## Basic facts on results and cursors -/

@[simp] theorem Res.bind_ok {σ α β : Type} (a : α) (s : σ) (f : α → σ → Res σ β) :
    (Res.ok a s).bind f = f a s := rfl

@[simp] theorem Res.bind_throw {σ α β : Type} (e : DecodeError) (s : σ) (f : α → σ → Res σ β) :
    (Res.throw e s : Res σ α).bind f = Res.throw e s := rfl

@[simp] theorem Res.bind_fuel {σ α β : Type} (f : α → σ → Res σ β) :
    (Res.fuel : Res σ α).bind f = Res.fuel := rfl

@[simp] theorem Res.lift_ok {σ τ α : Type} (put : τ → σ) (a : α) (t : τ) :
    (Res.ok a t).lift put = Res.ok a (put t) := rfl

@[simp] theorem Res.lift_throw {σ τ α : Type} (put : τ → σ) (e : DecodeError) (t : τ) :
    (Res.throw e t : Res τ α).lift put = Res.throw e (put t) := rfl

@[simp] theorem Res.lift_fuel {σ τ α : Type} (put : τ → σ) :
    (Res.fuel : Res τ α).lift put = Res.fuel := rfl

@[simp] theorem Cursor.peek_cons (p b : Nat) (r : Bytes) : (Cursor.mk p (b :: r)).peek = b := rfl

@[simp] theorem Cursor.next_cons (p b : Nat) (r : Bytes) :
    (Cursor.mk p (b :: r)).next = ⟨p + 1, r⟩ := rfl

@[simp] theorem Cursor.next_pos (c : Cursor) : c.next.pos = c.pos + 1 := rfl

@[simp] theorem Cursor.next_rest (c : Cursor) : c.next.rest = c.rest.tail := rfl

/-! ## Decoding the standard UTF-8 encoding -/

theorem shl6_or (x b : Nat) (hb : b < 64) : (x <<< 6) ||| b = x * 64 + b := by
  rw [Nat.shiftLeft_eq, Nat.mul_comm x, show (2 : Nat) ^ 6 = 64 from rfl,
    ← Nat.mul_add_lt_is_or (i := 6) (by simpa using hb) x]

theorem continuation_bits : ∀ b : Fin 64,
    (0x80 + b.val) &&& 0xC0 = 0x80 ∧ (0x80 + b.val) &&& 0x3F = b.val := by decide

theorem lead1_bits : ∀ b : Fin 128, b.val &&& 0x80 = 0 := by decide

theorem lead2_bits : ∀ a : Fin 32,
    (0xC0 + a.val) &&& 0x80 ≠ 0 ∧ (0xC0 + a.val) &&& 0xE0 = 0xC0 ∧
      (0xC0 + a.val) &&& 0x1F = a.val := by decide

theorem lead3_bits : ∀ a : Fin 16,
    (0xE0 + a.val) &&& 0x80 ≠ 0 ∧ (0xE0 + a.val) &&& 0xE0 ≠ 0xC0 ∧
      (0xE0 + a.val) &&& 0xF0 = 0xE0 ∧ (0xE0 + a.val) &&& 0x0F = a.val := by decide

theorem lead4_bits : ∀ a : Fin 8,
    (0xF0 + a.val) &&& 0x80 ≠ 0 ∧ (0xF0 + a.val) &&& 0xE0 ≠ 0xC0 ∧
      (0xF0 + a.val) &&& 0xF0 ≠ 0xE0 ∧ (0xF0 + a.val) &&& 0xF8 = 0xF0 ∧
      (0xF0 + a.val) &&& 0x07 = a.val := by decide

theorem code_point_type_scalar (cp : Nat) (h : IsScalar cp) :
    code_point_type cp = .ok .non_surrogate := by
  obtain ⟨h1, h2⟩ := h
  unfold code_point_type
  rw [if_neg (by omega), if_pos (by omega)]

theorem utf8_lead_1 (cp : Nat) (h : cp < 0x80) : utf8_lead cp = some (cp, 0) := by
  have := lead1_bits ⟨cp, h⟩
  simp only at this
  simp [utf8_lead, this]

theorem utf8_lead_2 (a : Nat) (h : a < 32) : utf8_lead (0xC0 + a) = some (a, 1) := by
  obtain ⟨h1, h2, h3⟩ := lead2_bits ⟨a, h⟩
  simp only at h1 h2 h3
  simp [utf8_lead, h1, h2, h3]

theorem utf8_lead_3 (a : Nat) (h : a < 16) : utf8_lead (0xE0 + a) = some (a, 2) := by
  obtain ⟨h1, h2, h3, h4⟩ := lead3_bits ⟨a, h⟩
  simp only at h1 h2 h3 h4
  simp [utf8_lead, h1, h2, h3, h4]

theorem utf8_lead_4 (a : Nat) (h : a < 8) : utf8_lead (0xF0 + a) = some (a, 3) := by
  obtain ⟨h1, h2, h3, h4, h5⟩ := lead4_bits ⟨a, h⟩
  simp only at h1 h2 h3 h4 h5
  simp [utf8_lead, h1, h2, h3, h4, h5]

theorem chomp_utf8_continuation_step (k cp b p : Nat) (r : Bytes) (hb : b < 64) :
    chomp_utf8_continuation (k + 1) cp ⟨p, (0x80 + b) :: r⟩ =
      chomp_utf8_continuation k (cp * 64 + b) ⟨p + 1, r⟩ := by
  obtain ⟨h1, h2⟩ := continuation_bits ⟨b, hb⟩
  simp only at h1 h2
  simp [chomp_utf8_continuation, h1, h2, shl6_or _ _ hb]

theorem chomp_utf8_continuation_zero (cp : Nat) (c : Cursor) :
    chomp_utf8_continuation 0 cp c = .ok cp c := rfl

/-- The decoder on the standard encoding of a scalar value, whatever follows it. -/
theorem chomp_utf8_char_utf8_encode (cp : Nat) (h : IsScalar cp) (pos : Nat) (suffix : Bytes) :
    chomp_utf8_char ⟨pos, utf8_encode cp ++ suffix⟩ =
      .ok cp ⟨pos + (utf8_encode cp).length, suffix⟩ := by
  have hty := code_point_type_scalar cp h
  obtain ⟨hmax, -⟩ := h
  unfold utf8_encode
  split_ifs with h1 h2 h3
  · simp only [chomp_utf8_char, List.cons_append, List.nil_append, utf8_lead_1 cp h1,
      Cursor.next_cons, chomp_utf8_continuation_zero, Res.bind_ok, hty]
    simp [hty, Nat.add_assoc]
  · have ha : cp / 64 < 32 := by omega
    have hb : cp % 64 < 64 := by omega
    have e : cp / 64 * 64 + cp % 64 = cp := by omega
    simp only [chomp_utf8_char, List.cons_append, List.nil_append, utf8_lead_2 _ ha,
      Cursor.next_cons, chomp_utf8_continuation_step _ _ _ _ _ hb,
      chomp_utf8_continuation_zero, e, Res.bind_ok, hty]
    simp [hty, Nat.add_assoc]
  · have ha : cp / 4096 < 16 := by omega
    have hb : cp / 64 % 64 < 64 := by omega
    have hc : cp % 64 < 64 := by omega
    have e : (cp / 4096 * 64 + cp / 64 % 64) * 64 + cp % 64 = cp := by omega
    simp only [chomp_utf8_char, List.cons_append, List.nil_append, utf8_lead_3 _ ha,
      Cursor.next_cons, chomp_utf8_continuation_step _ _ _ _ _ hb,
      chomp_utf8_continuation_step _ _ _ _ _ hc,
      chomp_utf8_continuation_zero, e, Res.bind_ok, hty]
    simp [hty, Nat.add_assoc]
  · have ha : cp / 262144 < 8 := by omega
    have hb : cp / 4096 % 64 < 64 := by omega
    have hc : cp / 64 % 64 < 64 := by omega
    have hd : cp % 64 < 64 := by omega
    have e : ((cp / 262144 * 64 + cp / 4096 % 64) * 64 + cp / 64 % 64) * 64 + cp % 64 = cp := by
      omega
    simp only [chomp_utf8_char, List.cons_append, List.nil_append, utf8_lead_4 _ ha,
      Cursor.next_cons, chomp_utf8_continuation_step _ _ _ _ _ hb,
      chomp_utf8_continuation_step _ _ _ _ _ hc, chomp_utf8_continuation_step _ _ _ _ _ hd,
      chomp_utf8_continuation_zero, e, Res.bind_ok, hty]
    simp [hty, Nat.add_assoc]

theorem utf8_encode_length (cp : Nat) :
    1 ≤ (utf8_encode cp).length ∧ (utf8_encode cp).length ≤ 4 := by
  unfold utf8_encode
  split_ifs <;> simp

end flumps


namespace flumps

/-! ## The lexers on the tokens of the grammar -/

theorem HeadIs.nil (P : Nat → Prop) : HeadIs P [] := by
  intro b r h; cases h

theorem HeadIs.cons {P : Nat → Prop} {b : Nat} (r : Bytes) (h : P b) : HeadIs P (b :: r) := by
  intro b' r' e; cases e; exact h

theorem HeadIs.mono {P Q : Nat → Prop} {t : Bytes} (h : HeadIs P t) (hpq : ∀ b, P b → Q b) :
    HeadIs Q t := fun b r e => hpq b (h b r e)

theorem HeadIs.append {P : Nat → Prop} {ws t : Bytes} (hws : ∀ b ∈ ws, P b) (ht : HeadIs P t) :
    HeadIs P (ws ++ t) := by
  cases ws with
  | nil => simpa using ht
  | cons w ws => exact HeadIs.cons _ (hws w (by simp))

theorem chomp_whitespace_from_append (ws t : Bytes) (hws : IsWhitespace ws)
    (ht : HeadIs (fun b => is_whitespace b = false) t) (p : Nat) :
    chomp_whitespace_from p (ws ++ t) = ⟨p + ws.length, t⟩ := by
  induction ws generalizing p with
  | nil =>
    cases t with
    | nil => rfl
    | cons b r => simp [chomp_whitespace_from, ht b r rfl]
  | cons w ws ih =>
    have hw : is_whitespace w = true := hws w (by simp)
    have := ih (fun b hb => hws b (by simp [hb])) (p + 1)
    simp [chomp_whitespace_from, hw, this]
    omega

theorem chomp_whitespace_append (ws t : Bytes) (hws : IsWhitespace ws)
    (ht : HeadIs (fun b => is_whitespace b = false) t) (p : Nat) :
    chomp_whitespace ⟨p, ws ++ t⟩ = ⟨p + ws.length, t⟩ :=
  chomp_whitespace_from_append ws t hws ht p

theorem chomp_whitespace_none (t : Bytes)
    (ht : HeadIs (fun b => is_whitespace b = false) t) (p : Nat) :
    chomp_whitespace ⟨p, t⟩ = ⟨p, t⟩ := by
  simpa using chomp_whitespace_append [] t (by intro b hb; cases hb) ht p

theorem chomp_digits_from_append (ds t : Bytes) (hds : IsDigits ds)
    (ht : HeadIs (fun b => is_dec b = false) t) (p : Nat) :
    chomp_digits_from p (ds ++ t) = ⟨p + ds.length, t⟩ := by
  induction ds generalizing p with
  | nil =>
    cases t with
    | nil => rfl
    | cons b r => simp [chomp_digits_from, ht b r rfl]
  | cons w ws ih =>
    have hw : is_dec w = true := hds w (by simp)
    have := ih (fun b hb => hds b (by simp [hb])) (p + 1)
    simp [chomp_digits_from, hw, this]
    omega

theorem chomp_digits_append (ds t : Bytes) (hds : IsDigits ds)
    (ht : HeadIs (fun b => is_dec b = false) t) (p : Nat) :
    chomp_digits ⟨p, ds ++ t⟩ = ⟨p + ds.length, t⟩ :=
  chomp_digits_from_append ds t hds ht p

theorem parse_number_exponent_append (e t : Bytes) (he : IsExp e) (ht : HeadIs StopsNumber t)
    (p : Nat) : parse_number_exponent ⟨p, e ++ t⟩ = .ok () ⟨p + e.length, t⟩ := by
  rcases he with rfl | ⟨x, sign, d, ds, rfl, hx, hsign, hd, hds⟩
  · cases t with
    | nil => simp [parse_number_exponent, Cursor.peek]
    | cons b r =>
      obtain ⟨-, -, h2, h3⟩ := ht b r rfl
      simp [parse_number_exponent, h2, h3]
  · have hstop : HeadIs (fun b => is_dec b = false) t := ht.mono fun b hb => hb.1
    have hdne : d ≠ 0x2D ∧ d ≠ 0x2B := by
      simp only [is_dec, Bool.and_eq_true, decide_eq_true_eq] at hd
      omega
    have hc := chomp_digits_append ds t hds hstop
    rcases hsign with rfl | rfl | rfl <;> rcases hx with rfl | rfl <;>
      simp [parse_number_exponent, hd, hdne.1, hdne.2, hc] <;> omega

theorem parse_number_fraction_append (f e t : Bytes) (hf : IsFrac f) (he : IsExp e)
    (ht : HeadIs StopsNumber t) (p : Nat) :
    parse_number_fraction ⟨p, f ++ (e ++ t)⟩ = .ok () ⟨p + (f.length + e.length), t⟩ := by
  have hstop : HeadIs (fun b => is_dec b = false) t := ht.mono fun b hb => hb.1
  have hexp := parse_number_exponent_append e t he ht
  have het : HeadIs (fun b => is_dec b = false ∧ b ≠ 0x2E) (e ++ t) := by
    rcases he with rfl | ⟨x, sign, d, ds, rfl, hx, -⟩
    · simpa using ht.mono fun b hb => ⟨hb.1, hb.2.1⟩
    · refine HeadIs.cons _ ?_
      rcases hx with rfl | rfl <;> simp [is_dec]
  rcases hf with rfl | ⟨d, ds, rfl, hd, hds⟩
  · cases h : e ++ t with
    | nil =>
      have h1 : e = [] := by cases e <;> simp_all
      have h2 : t = [] := by cases t <;> simp_all
      subst h1 h2
      simp [parse_number_fraction]
    | cons b r =>
      have hb := (het b r h).2
      rw [h] at hexp
      simp [parse_number_fraction, hb, hexp]
  · have hc := chomp_digits_append ds (e ++ t) hds (het.mono fun b hb => hb.1) (p + 1 + 1)
    simp only [List.cons_append, parse_number_fraction, Cursor.peek_cons, Cursor.next_cons]
    simp only [hd, hc]
    cases h : e ++ t with
    | nil =>
      have h1 : e = [] := by cases e <;> simp_all
      have h2 : t = [] := by cases t <;> simp_all
      subst h1 h2
      simp
      omega
    | cons b r =>
      rw [h] at hexp
      simp [hexp]
      omega

theorem parse_number_append (s t : Bytes) (hs : IsNumber s) (ht : HeadIs StopsNumber t)
    (p : Nat) : parse_number ⟨p, s ++ t⟩ = .ok () ⟨p + s.length, t⟩ := by
  obtain ⟨sign, i, f, e, rfl, hsign, hi, hf, he⟩ := hs
  have hfrac := parse_number_fraction_append f e t hf he ht
  have hfet : HeadIs (fun b => is_dec b = false) (f ++ (e ++ t)) := by
    rcases hf with rfl | ⟨d, ds, rfl, -⟩
    · rcases he with rfl | ⟨x, sg, d, ds, rfl, hx, -⟩
      · simpa using ht.mono fun b hb => hb.1
      · refine HeadIs.cons _ ?_
        rcases hx with rfl | rfl <;> simp [is_dec]
    · exact HeadIs.cons _ (by simp [is_dec])
  rcases hi with rfl | ⟨d, ds, rfl, hd1, hd2, hds⟩
  · rcases hsign with rfl | rfl
    · simp [parse_number, is_dec, hfrac]
      omega
    · simp [parse_number, is_dec, hfrac]
      omega
  · have hc := chomp_digits_append ds (f ++ (e ++ t)) hds hfet
    have h30 : d ≠ 0x30 := by omega
    have h2d : d ≠ 0x2D := by omega
    have hdd : is_dec d = true := by simp [is_dec]; omega
    rcases hsign with rfl | rfl
    · simp [parse_number, hdd, hfrac, h30, h2d, hc]
      omega
    · simp [parse_number, hdd, hfrac, h30, hc]
      omega

end flumps


namespace flumps

/-! ## `parse_string` on the strings of the grammar -/

theorem hex_to_dec_le (d : Nat) (h : is_hex d = true) : hex_to_dec d ≤ 15 := by
  simp only [is_hex, Bool.or_eq_true, Bool.and_eq_true, decide_eq_true_eq] at h
  unfold hex_to_dec
  split_ifs <;> omega

theorem hex4_value_le (d1 d2 d3 d4 : Nat) (h1 : is_hex d1 = true) (h2 : is_hex d2 = true)
    (h3 : is_hex d3 = true) (h4 : is_hex d4 = true) : hex4_value d1 d2 d3 d4 ≤ 0xFFFF := by
  have := hex_to_dec_le d1 h1
  have := hex_to_dec_le d2 h2
  have := hex_to_dec_le d3 h3
  have := hex_to_dec_le d4 h4
  unfold hex4_value
  omega

theorem json_hex_seq_to_code_point_hex4 (d1 d2 d3 d4 : Nat) (r : Bytes) (p : Nat)
    (h1 : is_hex d1 = true) (h2 : is_hex d2 = true) (h3 : is_hex d3 = true)
    (h4 : is_hex d4 = true) :
    json_hex_seq_to_code_point ⟨p, d1 :: d2 :: d3 :: d4 :: r⟩ =
      .ok (hex4_value d1 d2 d3 d4) ⟨p + 4, r⟩ := by
  simp [json_hex_seq_to_code_point, json_hex_seq_loop, h1, h2, h3, h4, hex4_value,
    Nat.shiftLeft_eq, Nat.add_assoc]

theorem check_code_point_non_surrogate (t : utf8_surrogate_checker) (cp : Nat)
    (ht : t.surrogate_low_needed = false) (hcp : IsScalar cp) :
    t.check_code_point cp = .ok (true, ⟨cp, false⟩) := by
  simp [utf8_surrogate_checker.check_code_point, code_point_type_scalar cp hcp, ht]

theorem check_code_point_tick (t : utf8_surrogate_checker)
    (ht : t.surrogate_low_needed = false) :
    t.check_code_point 0 = .ok (true, ⟨0, false⟩) :=
  check_code_point_non_surrogate t 0 ht ⟨by omega, by omega⟩

theorem check_code_point_high (t : utf8_surrogate_checker) (cp : Nat)
    (ht : t.surrogate_low_needed = false) (h1 : 0xD800 ≤ cp) (h2 : cp ≤ 0xDBFF) :
    t.check_code_point cp = .ok (false, ⟨cp, true⟩) := by
  have : code_point_type cp = .ok .high_surrogate := by
    unfold code_point_type
    rw [if_neg (by omega), if_neg (by omega), if_pos (by omega)]
  simp [utf8_surrogate_checker.check_code_point, this, ht]

theorem check_code_point_low (h cp : Nat) (h1 : 0xD800 ≤ h) (h2 : h ≤ 0xDBFF)
    (h3 : 0xDC00 ≤ cp) (h4 : cp ≤ 0xDFFF) :
    (utf8_surrogate_checker.mk h true).check_code_point cp =
      .ok (true, ⟨0x10000 + ((h &&& 0x03FF) <<< 10) + (cp &&& 0x03FF), false⟩) := by
  have e1 : code_point_type h = .ok .high_surrogate := by
    unfold code_point_type
    rw [if_neg (by omega), if_neg (by omega), if_pos (by omega)]
  have e2 : code_point_type cp = .ok .low_surrogate := by
    unfold code_point_type
    rw [if_neg (by omega), if_neg (by omega), if_neg (by omega)]
  simp [utf8_surrogate_checker.check_code_point, surrogate_pair_to_code_point, e1, e2]

theorem parse_string_loop_succ (fuel : Nat) (sur : utf8_surrogate_checker) (last : Bool)
    (c : Cursor) :
    parse_string_loop (fuel + 1) sur last c =
      if c.rest = [] ∨ c.peek = 0x22 then .ok sur c
      else
        (parse_string_body sur last c).bind fun (sur1, last1) c1 =>
          if !last1 then
            match sur1.check_code_point 0 with
            | .error err => .throw err c1
            | .ok (_, sur2) => parse_string_loop fuel sur2 last1 c1
          else parse_string_loop fuel sur1 last1 c1 := rfl

/-- The first byte of the encoding of a character that may stand unescaped. -/
theorem utf8_encode_head (cp : Nat) (h : 0x20 ≤ cp ∧ cp ≠ 0x22 ∧ cp ≠ 0x5C) :
    ∃ b r, utf8_encode cp = b :: r ∧ 0x20 ≤ b ∧ b ≠ 0x22 ∧ b ≠ 0x5C := by
  unfold utf8_encode
  split_ifs
  · exact ⟨_, _, rfl, h⟩
  · exact ⟨_, _, rfl, by omega, by omega, by omega⟩
  · exact ⟨_, _, rfl, by omega, by omega, by omega⟩
  · exact ⟨_, _, rfl, by omega, by omega, by omega⟩

/-- One valid item: the passes of the loop it takes leave a tracker that awaits nothing. -/
theorem parse_string_loop_item (i : StringItem) (hi : i.Valid)
    (sur : utf8_surrogate_checker) (hsur : sur.surrogate_low_needed = false) (last : Bool)
    (p : Nat) (t : Bytes) :
    ∃ sur1 last1, sur1.surrogate_low_needed = false ∧ ∃ k, k ≤ i.render.length ∧ ∀ fuel,
      parse_string_loop (fuel + 1 + k) sur last ⟨p, i.render ++ t⟩ =
        parse_string_loop (fuel + 1) sur1 last1 ⟨p + i.render.length, t⟩ := by
  cases i with
  | char cp =>
    obtain ⟨hsc, hrest⟩ := hi
    obtain ⟨b, r, hb, hb1, hb2, hb3⟩ := utf8_encode_head cp hrest
    have hdec := chomp_utf8_char_utf8_encode cp hsc p t
    have hlen : (utf8_encode cp).length = r.length + 1 := by rw [hb]; rfl
    simp only [StringItem.render]
    rw [hb] at hdec
    refine ⟨if last then sur else ⟨0, false⟩, last, ?_, 1, by omega, ?_⟩
    · cases last <;> simp [hsur]
    · intro fuel
      rw [parse_string_loop_succ]
      simp only [hb, List.cons_append, Cursor.peek_cons, reduceCtorEq, hb2, or_self, if_false,
        parse_string_body, ne_eq, hb3, not_false_eq_true, if_true]
      rw [if_neg (by omega)]
      simp only [List.cons_append] at hdec
      rw [hdec]
      cases last
      · simp [check_code_point_tick sur hsur, hlen]
      · simp [hlen]
  | escape e =>
    simp only [StringItem.Valid, List.mem_cons, List.mem_singleton, List.not_mem_nil,
      or_false] at hi
    refine ⟨if last then sur else ⟨0, false⟩, last, ?_, 1, by simp [StringItem.render], ?_⟩
    · cases last <;> simp [hsur]
    · intro fuel
      rw [parse_string_loop_succ]
      cases last <;> rcases hi with rfl | rfl | rfl | rfl | rfl | rfl | rfl | rfl <;>
        simp [parse_string_body, StringItem.render, escape_char, check_code_point_tick sur hsur]
  | hex d1 d2 d3 d4 =>
    obtain ⟨h1, h2, h3, h4, hns⟩ := hi
    have hle := hex4_value_le d1 d2 d3 d4 h1 h2 h3 h4
    have hsc : IsScalar (hex4_value d1 d2 d3 d4) := ⟨by omega, hns⟩
    refine ⟨⟨hex4_value d1 d2 d3 d4, false⟩, true, rfl, 1, by simp [StringItem.render], ?_⟩
    intro fuel
    rw [parse_string_loop_succ]
    simp [parse_string_body, StringItem.render, escape_char,
      json_hex_seq_to_code_point_hex4 _ _ _ _ _ _ h1 h2 h3 h4,
      check_code_point_non_surrogate sur _ hsur hsc, Nat.add_assoc]
  | pair a1 a2 a3 a4 l1 l2 l3 l4 =>
    obtain ⟨h1, h2, h3, h4, g1, g2, g3, g4, ⟨hh1, hh2⟩, ⟨hl1, hl2⟩⟩ := hi
    refine ⟨⟨0x10000 + ((hex4_value a1 a2 a3 a4 &&& 0x03FF) <<< 10) +
      (hex4_value l1 l2 l3 l4 &&& 0x03FF), false⟩, true, rfl, 2, by simp [StringItem.render], ?_⟩
    intro fuel
    rw [show fuel + 1 + 2 = (fuel + 1 + 1) + 1 from rfl, parse_string_loop_succ]
    simp only [StringItem.render, List.cons_append, List.nil_append, Cursor.peek_cons,
      reduceCtorEq, Nat.reduceEqDiff, or_self, if_false, parse_string_body, ne_eq,
      not_true_eq_false, Cursor.next_cons, escape_char, List.mem_cons, List.mem_singleton,
      List.not_mem_nil, or_false, or_true, not_false_eq_true,
      json_hex_seq_to_code_point_hex4 _ _ _ _ _ _ h1 h2 h3 h4, Res.bind_ok,
      check_code_point_high sur _ hsur hh1 hh2, Bool.not_true, Bool.false_eq_true]
    rw [parse_string_loop_succ]
    simp [parse_string_body, escape_char,
      json_hex_seq_to_code_point_hex4 _ _ _ _ _ _ g1 g2 g3 g4,
      check_code_point_low _ _ hh1 hh2 hl1 hl2, Nat.add_assoc]

theorem parse_string_loop_items (items : List StringItem) (hi : ∀ i ∈ items, i.Valid)
    (fuel : Nat) (hfuel : (render_string items).length < fuel)
    (sur : utf8_surrogate_checker) (hsur : sur.surrogate_low_needed = false) (last : Bool)
    (p : Nat) (t : Bytes) :
    ∃ sur1, sur1.surrogate_low_needed = false ∧
      parse_string_loop fuel sur last ⟨p, render_string items ++ 0x22 :: t⟩ =
        .ok sur1 ⟨p + (render_string items).length, 0x22 :: t⟩ := by
  induction items generalizing fuel sur last p with
  | nil =>
    obtain ⟨f, rfl⟩ : ∃ f, fuel = f + 1 := ⟨fuel - 1, by omega⟩
    exact ⟨sur, hsur, by simp [parse_string_loop_succ, render_string]⟩
  | cons i rest ih =>
    simp only [render_string, List.length_append] at hfuel ⊢
    obtain ⟨sur1, last1, hsur1, k, hk, hstep⟩ :=
      parse_string_loop_item i (hi i (by simp)) sur hsur last p
        (render_string rest ++ 0x22 :: t)
    have hf : fuel - 1 - k + 1 + k = fuel := by omega
    replace hstep := hstep (fuel - 1 - k)
    rw [hf] at hstep
    obtain ⟨sur2, hsur2, hrest⟩ := ih (fun j hj => hi j (by simp [hj])) (fuel - 1 - k + 1)
      (by omega) sur1 hsur1 last1 (p + i.render.length)
    refine ⟨sur2, hsur2, ?_⟩
    rw [List.append_assoc, hstep, hrest, Nat.add_assoc]

theorem parse_string_content (content : Bytes) (h : IsStringContent content) (p : Nat)
    (t : Bytes) :
    parse_string ⟨p, 0x22 :: (content ++ 0x22 :: t)⟩ = .ok () ⟨p + (content.length + 2), t⟩ := by
  obtain ⟨items, hi, rfl⟩ := h
  obtain ⟨sur1, hsur1, hloop⟩ := parse_string_loop_items items hi
    ((render_string items ++ 0x22 :: t).length + 1) (by simp; omega) {} rfl false (p + 1) t
  simp only [parse_string, Cursor.next_cons, hloop, Res.bind_ok,
    check_code_point_tick sur1 hsur1]
  simp
  omega

end flumps


namespace flumps

/-! ## One pass of the loop of `parse_json` -/

theorem parse_json_loop_succ (fuel : Nat) (p : JsonParserImpl) (c : Cursor) :
    parse_json_loop (fuel + 1) p c =
      (parse_element p c).bind fun call_again s1 =>
        loop_tail fuel (if !call_again then dec_depth s1.1 else s1.1) s1.2 := rfl

theorem loop_tail_continue (fuel : Nat) (p : JsonParserImpl) (c : Cursor)
    (hp : p.state_ ≠ []) (hc : c.rest ≠ []) : loop_tail fuel p c = parse_json_loop fuel p c := by
  simp [loop_tail, hp, hc]

theorem ValueStart.not_whitespace {b : Nat} (h : ValueStart b) : is_whitespace b = false := by
  unfold ValueStart at h
  simp only [is_dec, Bool.and_eq_true, decide_eq_true_eq] at h
  simp only [is_whitespace, Bool.or_eq_false_iff, decide_eq_false_iff_not]
  omega

theorem ValueStart.not_close {b : Nat} (h : ValueStart b) : b ≠ 0x5D ∧ b ≠ 0x7D := by
  unfold ValueStart at h
  simp only [is_dec, Bool.and_eq_true, decide_eq_true_eq] at h
  omega

theorem Delimiter.delimiter_not_whitespace {b : Nat} (h : Delimiter b) : is_whitespace b = false := by
  unfold Delimiter at h
  simp only [is_whitespace, Bool.or_eq_false_iff, decide_eq_false_iff_not]
  omega

theorem Delimiter.stops_number {b : Nat} (h : Delimiter b) : StopsNumber b := by
  unfold Delimiter at h
  simp only [StopsNumber, is_dec, Bool.and_eq_false_iff, decide_eq_false_iff_not]
  omega

theorem whitespace_stops_number {b : Nat} (h : is_whitespace b = true) : StopsNumber b := by
  simp only [is_whitespace, Bool.or_eq_true, decide_eq_true_eq] at h
  simp only [StopsNumber, is_dec, Bool.and_eq_false_iff, decide_eq_false_iff_not]
  omega

/-- What follows a value inside a text of the grammar cannot continue a number. -/
theorem after_value_stops_number (ws tail : Bytes) (hws : IsWhitespace ws)
    (ht : HeadIs Delimiter tail) : HeadIs StopsNumber (ws ++ tail) := by
  cases ws with
  | nil => simpa using ht.mono fun b hb => hb.stops_number
  | cons w ws => exact HeadIs.cons _ (whitespace_stops_number (hws w (by simp)))

theorem IsNumber.head {s : Bytes} (h : IsNumber s) :
    ∃ b r, s = b :: r ∧ (b = 0x2D ∨ is_dec b = true) := by
  obtain ⟨sign, i, f, e, rfl, hsign, hi, -, -⟩ := h
  rcases hsign with rfl | rfl
  · rcases hi with rfl | ⟨d, ds, rfl, h1, h2, -⟩
    · exact ⟨_, _, rfl, Or.inr (by simp [is_dec])⟩
    · exact ⟨_, _, rfl, Or.inr (by simp [is_dec]; omega)⟩
  · exact ⟨_, _, rfl, Or.inl rfl⟩

/-- The first byte of a token of the grammar. -/
theorem primitive_text_head (type : JsonValueType) (text : Bytes) (h : IsPrimitive type text) :
    ∃ b r, primitive_text type text = b :: r ∧ ValueStart b ∧ b ≠ 0x7B ∧ b ≠ 0x5B := by
  cases type with
  | Array => exact absurd h (by simp [IsPrimitive])
  | Object => exact absurd h (by simp [IsPrimitive])
  | True =>
    simp only [IsPrimitive] at h
    subst h
    exact ⟨_, _, rfl, by simp [ValueStart], by omega, by omega⟩
  | False =>
    simp only [IsPrimitive] at h
    subst h
    exact ⟨_, _, rfl, by simp [ValueStart], by omega, by omega⟩
  | Null =>
    simp only [IsPrimitive] at h
    subst h
    exact ⟨_, _, rfl, by simp [ValueStart], by omega, by omega⟩
  | String => exact ⟨_, _, rfl, by simp [ValueStart], by omega, by omega⟩
  | Number =>
    obtain ⟨b, r, rfl, hb⟩ := IsNumber.head h
    refine ⟨b, r, rfl, ?_, ?_, ?_⟩
    · rcases hb with rfl | hb
      · simp [ValueStart]
      · simp [ValueStart, hb]
    · rcases hb with rfl | hb
      · omega
      · simp only [is_dec, Bool.and_eq_true, decide_eq_true_eq] at hb; omega
    · rcases hb with rfl | hb
      · omega
      · simp only [is_dec, Bool.and_eq_true, decide_eq_true_eq] at hb; omega

/-- The first byte of a value of the grammar. -/
theorem JsonValue.render_head (v : JsonValue) (h : v.Valid) :
    ∃ b r, v.render = b :: r ∧ ValueStart b := by
  cases v with
  | primitive type text =>
    obtain ⟨b, r, e, hb, -⟩ := primitive_text_head type text h
    exact ⟨b, r, by simpa [JsonValue.render] using e, hb⟩
  | empty_array ws => exact ⟨0x5B, _, by rw [JsonValue.render], by simp [ValueStart]⟩
  | array ws1 v ws2 more => exact ⟨0x5B, _, by rw [JsonValue.render], by simp [ValueStart]⟩
  | empty_object ws => exact ⟨0x7B, _, by rw [JsonValue.render], by simp [ValueStart]⟩
  | object ws1 key ws2 ws3 v ws4 more =>
    exact ⟨0x7B, _, by rw [JsonValue.render], by simp [ValueStart]⟩

/-- The case of a token in `parse_value`. -/
theorem parse_primitive_token (type : JsonValueType) (text : Bytes)
    (h : IsPrimitive type text) (t : Bytes) (ht : HeadIs StopsNumber t)
    (p : JsonParserImpl) (q : Nat) :
    parse_primitive p ⟨q, primitive_text type text ++ t⟩ =
      .ok false (p.visit (.on_primitive_value type (if type = .String then q + 1 else q)
        text.length), ⟨q + (primitive_text type text).length, t⟩) := by
  cases type with
  | Array => exact absurd h (by simp [IsPrimitive])
  | Object => exact absurd h (by simp [IsPrimitive])
  | True =>
    simp only [IsPrimitive] at h
    subst h
    simp [parse_primitive, primitive_text, is_dec, Cursor.advance]
  | False =>
    simp only [IsPrimitive] at h
    subst h
    simp [parse_primitive, primitive_text, is_dec, Cursor.advance]
  | Null =>
    simp only [IsPrimitive] at h
    subst h
    simp [parse_primitive, primitive_text, is_dec, Cursor.advance]
  | String =>
    have := parse_string_content text h q t
    simp only [primitive_text, if_true, List.cons_append, List.append_assoc,
      List.singleton_append, List.nil_append, parse_primitive, Cursor.peek_cons, if_true]
    rw [this]
    simp
  | Number =>
    have hnum := parse_number_append text t h ht q
    obtain ⟨b, r, rfl, hb⟩ := IsNumber.head h
    have hb22 : b ≠ 0x22 := by
      rcases hb with rfl | hb
      · omega
      · simp only [is_dec, Bool.and_eq_true, decide_eq_true_eq] at hb; omega
    have hb' : b = 0x2D ∨ is_dec b = true := hb
    simp only [primitive_text, reduceCtorEq, if_false, List.cons_append] at hnum ⊢
    simp only [parse_primitive, Cursor.peek_cons, hb22, if_false, hb', if_true, hnum,
      Res.lift_ok, Res.bind_ok]
    simp

/-- The frame pushed by `inc_depth` when the limit allows one more frame. -/
theorem inc_depth_ok (stack : List State) (vis : List Event) (lim : Nat) (c : Cursor)
    (h : lim = 0 ∨ stack.length + 1 ≤ lim) :
    inc_depth ⟨stack, vis, lim⟩ c = .ok () (⟨{} :: stack, vis, lim⟩, c) := by
  unfold inc_depth
  rw [if_neg]
  simp only [List.length_cons, gt_iff_lt, not_and, not_lt]
  omega

/-- A pass on a fresh frame skips the whitespace before its value. -/
theorem parse_element_fresh (below : List State) (vis : List Event) (lim pos : Nat)
    (ws1 t : Bytes) (hws : IsWhitespace ws1) (ht : HeadIs (fun b => is_whitespace b = false) t) :
    parse_element ⟨{} :: below, vis, lim⟩ ⟨pos, ws1 ++ t⟩ =
      (parse_value 2 ⟨value_frame :: below, vis, lim⟩ ⟨pos + ws1.length, t⟩).bind
        fun call_again s1 =>
          if call_again then .ok call_again s1 else .ok false (s1.1, chomp_whitespace s1.2) := by
  simp [parse_element, JsonParserImpl.back, JsonParserImpl.set_back,
    chomp_whitespace_append ws1 t hws ht, value_frame]

theorem parse_value_token (type : JsonValueType) (text : Bytes) (h : IsPrimitive type text)
    (t : Bytes) (ht : HeadIs StopsNumber t) (below : List State) (vis : List Event)
    (lim q : Nat) :
    parse_value 2 ⟨value_frame :: below, vis, lim⟩ ⟨q, primitive_text type text ++ t⟩ =
      .ok false (⟨value_frame :: below,
        vis ++ [.on_primitive_value type (if type = .String then q + 1 else q) text.length], lim⟩,
        ⟨q + (primitive_text type text).length, t⟩) := by
  have hp := parse_primitive_token type text h t ht ⟨value_frame :: below, vis, lim⟩ q
  obtain ⟨b, r, hb, -, h1, h2⟩ := primitive_text_head type text h
  rw [hb] at hp ⊢
  simp only [parse_value, JsonParserImpl.back, List.headD_cons, value_frame, List.cons_append,
    reduceCtorEq, if_false, Cursor.peek_cons, h1, h2]
  exact hp

/-- The pass of the loop that reads a token. -/
theorem parse_json_loop_token (type : JsonValueType) (text : Bytes) (h : IsPrimitive type text)
    (below : List State) (vis : List Event) (lim pos : Nat) (ws1 ws2 tail : Bytes)
    (h1 : IsWhitespace ws1) (h2 : IsWhitespace ws2) (ht : HeadIs Delimiter tail) (fuel : Nat) :
    parse_json_loop (fuel + 1) ⟨{} :: below, vis, lim⟩
        ⟨pos, ws1 ++ (primitive_text type text ++ (ws2 ++ tail))⟩ =
      loop_tail fuel ⟨below,
        vis ++ [.on_primitive_value type
          (if type = .String then pos + ws1.length + 1 else pos + ws1.length) text.length], lim⟩
        ⟨pos + (ws1.length + (primitive_text type text).length + ws2.length), tail⟩ := by
  obtain ⟨b, r, hb, hstart, -⟩ := primitive_text_head type text h
  have hnw : HeadIs (fun b => is_whitespace b = false)
      (primitive_text type text ++ (ws2 ++ tail)) := by
    rw [hb]; exact HeadIs.cons _ hstart.not_whitespace
  rw [parse_json_loop_succ, parse_element_fresh _ _ _ _ _ _ h1 hnw,
    parse_value_token type text h _ (after_value_stops_number ws2 tail h2 ht)]
  simp only [Res.bind_ok, Bool.false_eq_true, if_false,
    chomp_whitespace_append ws2 tail h2 (ht.mono fun b hb => hb.delimiter_not_whitespace), Bool.not_false,
    if_true, dec_depth, List.tail_cons]
  congr 2
  omega

/-- The pass of the loop that reads an empty array. -/
theorem parse_json_loop_empty_array (ws : Bytes) (hws : IsWhitespace ws)
    (below : List State) (vis : List Event) (lim pos : Nat) (ws1 ws2 tail : Bytes)
    (h1 : IsWhitespace ws1) (h2 : IsWhitespace ws2) (ht : HeadIs Delimiter tail) (fuel : Nat) :
    parse_json_loop (fuel + 1) ⟨{} :: below, vis, lim⟩
        ⟨pos, ws1 ++ (0x5B :: (ws ++ [0x5D]) ++ (ws2 ++ tail))⟩ =
      loop_tail fuel ⟨below,
        vis ++ [.on_array_start (pos + ws1.length),
          .on_array_end (pos + ws1.length) (ws.length + 2)], lim⟩
        ⟨pos + (ws1.length + (ws.length + 2) + ws2.length), tail⟩ := by
  have hnw : HeadIs (fun b => is_whitespace b = false)
      (0x5B :: (ws ++ [0x5D]) ++ (ws2 ++ tail)) := HeadIs.cons _ (by simp [is_whitespace])
  have hc := chomp_whitespace_append ws (0x5D :: (ws2 ++ tail)) hws
    (HeadIs.cons _ (by simp [is_whitespace])) (pos + ws1.length + 1)
  rw [parse_json_loop_succ, parse_element_fresh _ _ _ _ _ _ h1 hnw]
  simp only [parse_value, parse_array, JsonParserImpl.back, JsonParserImpl.set_back,
    JsonParserImpl.visit, List.headD_cons, value_frame, List.cons_append, List.append_assoc,
    List.singleton_append, List.nil_append, reduceCtorEq, if_false, if_true, Cursor.peek_cons,
    Cursor.next_cons,
    Nat.reduceEqDiff, ne_eq, not_false_eq_true, hc, not_true_eq_false, or_self, Res.bind_ok,
    Bool.false_eq_true, Bool.not_false, dec_depth, List.tail_cons,
    chomp_whitespace_append ws2 tail h2 (ht.mono fun b hb => hb.delimiter_not_whitespace)]
  congr 2
  all_goals first | omega | (simp; omega)

/-- The pass of the loop that reads an empty object. -/
theorem parse_json_loop_empty_object (ws : Bytes) (hws : IsWhitespace ws)
    (below : List State) (vis : List Event) (lim pos : Nat) (ws1 ws2 tail : Bytes)
    (h1 : IsWhitespace ws1) (h2 : IsWhitespace ws2) (ht : HeadIs Delimiter tail) (fuel : Nat) :
    parse_json_loop (fuel + 1) ⟨{} :: below, vis, lim⟩
        ⟨pos, ws1 ++ (0x7B :: (ws ++ [0x7D]) ++ (ws2 ++ tail))⟩ =
      loop_tail fuel ⟨below,
        vis ++ [.on_object_start (pos + ws1.length),
          .on_object_end (pos + ws1.length) (ws.length + 2)], lim⟩
        ⟨pos + (ws1.length + (ws.length + 2) + ws2.length), tail⟩ := by
  have hnw : HeadIs (fun b => is_whitespace b = false)
      (0x7B :: (ws ++ [0x7D]) ++ (ws2 ++ tail)) := HeadIs.cons _ (by simp [is_whitespace])
  have hc := chomp_whitespace_append ws (0x7D :: (ws2 ++ tail)) hws
    (HeadIs.cons _ (by simp [is_whitespace])) (pos + ws1.length + 1)
  rw [parse_json_loop_succ, parse_element_fresh _ _ _ _ _ _ h1 hnw]
  simp only [parse_value, parse_object, JsonParserImpl.back, JsonParserImpl.set_back,
    JsonParserImpl.visit, List.headD_cons, value_frame, List.cons_append, List.append_assoc,
    List.singleton_append, List.nil_append, reduceCtorEq, if_false, if_true, Cursor.peek_cons,
    Cursor.next_cons,
    Nat.reduceEqDiff, ne_eq, not_false_eq_true, hc, not_true_eq_false, or_self, Res.bind_ok,
    Bool.false_eq_true, Bool.not_false, dec_depth, List.tail_cons,
    chomp_whitespace_append ws2 tail h2 (ht.mono fun b hb => hb.delimiter_not_whitespace)]
  congr 2
  all_goals first | omega | (simp; omega)

/-- The pass of the loop that opens an array with at least one element. -/
theorem parse_json_loop_open_array (below : List State) (vis : List Event) (lim pos : Nat)
    (ws0 ws1 t : Bytes) (h0 : IsWhitespace ws0) (h1 : IsWhitespace ws1)
    (ht : ∃ b r, t = b :: r ∧ ValueStart b) (hd : lim = 0 ∨ below.length + 2 ≤ lim)
    (fuel : Nat) :
    parse_json_loop (fuel + 1) ⟨{} :: below, vis, lim⟩ ⟨pos, ws0 ++ 0x5B :: (ws1 ++ t)⟩ =
      parse_json_loop fuel
        ⟨{} :: array_frame (pos + ws0.length) :: below,
          vis ++ [.on_array_start (pos + ws0.length)], lim⟩
        ⟨pos + ws0.length + 1 + ws1.length, t⟩ := by
  obtain ⟨b, r, rfl, hb⟩ := ht
  have hnw : HeadIs (fun b => is_whitespace b = false) (0x5B :: (ws1 ++ b :: r)) :=
    HeadIs.cons _ (by simp [is_whitespace])
  have hc := chomp_whitespace_append ws1 (b :: r) h1 (HeadIs.cons _ hb.not_whitespace)
    (pos + ws0.length + 1)
  have hinc := inc_depth_ok (array_frame (pos + ws0.length) :: below)
    (vis ++ [.on_array_start (pos + ws0.length)]) lim
    ⟨pos + ws0.length + 1 + ws1.length, b :: r⟩ (by simpa using hd)
  rw [parse_json_loop_succ, parse_element_fresh _ _ _ _ _ _ h0 hnw]
  simp only [parse_value, parse_array, JsonParserImpl.back, JsonParserImpl.set_back,
    JsonParserImpl.visit, List.headD_cons, value_frame, reduceCtorEq, if_false, if_true,
    Cursor.peek_cons, Cursor.next_cons, Nat.reduceEqDiff, ne_eq, not_false_eq_true, hc,
    not_true_eq_false, hb.not_close.1, or_true, array_frame] at hinc ⊢
  rw [hinc]
  simp [loop_tail]

/-- The pass of the loop on the comma that follows an element. -/
theorem parse_json_loop_array_comma (below : List State) (vis : List Event) (lim pos s : Nat)
    (t : Bytes) (ht : t ≠ []) (hd : lim = 0 ∨ below.length + 2 ≤ lim) (fuel : Nat) :
    parse_json_loop (fuel + 1) ⟨array_frame s :: below, vis, lim⟩ ⟨pos, 0x2C :: t⟩ =
      parse_json_loop fuel ⟨{} :: array_frame s :: below, vis, lim⟩ ⟨pos + 1, t⟩ := by
  have hinc := inc_depth_ok (array_frame s :: below) vis lim ⟨pos + 1, t⟩ (by simpa using hd)
  rw [parse_json_loop_succ]
  simp only [parse_element, parse_value, parse_array, JsonParserImpl.back, List.headD_cons,
    array_frame, reduceCtorEq, ne_eq, not_false_eq_true, if_true, Cursor.peek_cons,
    Nat.reduceEqDiff, if_false, Cursor.next_cons] at hinc ⊢
  rw [hinc]
  simp [loop_tail, ht]

/-- The pass of the loop on the bracket that closes an array. -/
theorem parse_json_loop_close_array (below : List State) (vis : List Event) (lim pos s : Nat)
    (ws tail : Bytes) (hws : IsWhitespace ws) (ht : HeadIs Delimiter tail) (fuel : Nat) :
    parse_json_loop (fuel + 1) ⟨array_frame s :: below, vis, lim⟩ ⟨pos, 0x5D :: (ws ++ tail)⟩ =
      loop_tail fuel ⟨below, vis ++ [.on_array_end s (pos + 1 - s)], lim⟩
        ⟨pos + 1 + ws.length, tail⟩ := by
  rw [parse_json_loop_succ]
  simp [parse_element, parse_value, parse_array, JsonParserImpl.back, JsonParserImpl.set_back,
    JsonParserImpl.visit, array_frame, dec_depth,
    chomp_whitespace_append ws tail hws (ht.mono fun b hb => hb.delimiter_not_whitespace)]

theorem key_text_length (ws1 key ws2 : Bytes) :
    (key_text ws1 key ws2).length = ws1.length + key.length + ws2.length + 3 := by
  simp [key_text]
  omega

/-- The key of a member and the colon after it. -/
theorem parse_member_key_key_text (ws1 key ws2 t : Bytes) (h1 : IsWhitespace ws1)
    (hk : IsStringContent key) (h2 : IsWhitespace ws2) (p : JsonParserImpl) (pos : Nat) :
    parse_member_key p ⟨pos, key_text ws1 key ws2 ++ t⟩ =
      .ok () (p.visit (.on_object_key (pos + ws1.length + 1) key.length),
        ⟨pos + (key_text ws1 key ws2).length, t⟩) := by
  have hc1 := chomp_whitespace_append ws1 (0x22 :: (key ++ 0x22 :: (ws2 ++ 0x3A :: t))) h1
    (HeadIs.cons _ (by simp [is_whitespace])) pos
  have hs := parse_string_content key hk (pos + ws1.length) (ws2 ++ 0x3A :: t)
  have hc2 := chomp_whitespace_append ws2 (0x3A :: t) h2
    (HeadIs.cons _ (by simp [is_whitespace])) (pos + ws1.length + (key.length + 2))
  have e : key_text ws1 key ws2 ++ t = ws1 ++ 0x22 :: (key ++ 0x22 :: (ws2 ++ 0x3A :: t)) := by
    simp [key_text]
  rw [e]
  simp only [parse_member_key, hc1, reduceCtorEq, if_false, Cursor.peek_cons, ne_eq,
    not_true_eq_false, hs, Res.lift_ok, Res.bind_ok, hc2, Nat.reduceEqDiff, or_self,
    Cursor.next_cons, key_text_length]
  congr 3
  · congr 1
    omega
  · omega

/-- The pass of the loop that opens an object with at least one member. -/
theorem parse_json_loop_open_object (below : List State) (vis : List Event) (lim pos : Nat)
    (ws0 ws1 key ws2 t : Bytes) (h0 : IsWhitespace ws0) (h1 : IsWhitespace ws1)
    (hk : IsStringContent key) (h2 : IsWhitespace ws2) (ht : t ≠ [])
    (hd : lim = 0 ∨ below.length + 2 ≤ lim) (fuel : Nat) :
    parse_json_loop (fuel + 1) ⟨{} :: below, vis, lim⟩
        ⟨pos, ws0 ++ 0x7B :: (key_text ws1 key ws2 ++ t)⟩ =
      parse_json_loop fuel
        ⟨{} :: object_frame (pos + ws0.length) :: below,
          vis ++ [.on_object_start (pos + ws0.length),
            .on_object_key (pos + ws0.length + 1 + ws1.length + 1) key.length], lim⟩
        ⟨pos + ws0.length + 1 + (key_text ws1 key ws2).length, t⟩ := by
  have hnw : HeadIs (fun b => is_whitespace b = false)
      (0x7B :: (key_text ws1 key ws2 ++ t)) := HeadIs.cons _ (by simp [is_whitespace])
  have e : key_text ws1 key ws2 ++ t = ws1 ++ (key_text [] key ws2 ++ t) := by
    simp [key_text]
  have hc := chomp_whitespace_append ws1 (key_text [] key ws2 ++ t) h1
    (HeadIs.cons _ (by simp [is_whitespace])) (pos + ws0.length + 1)
  have hkey : parse_member_key
      ⟨State.mk .parse_value .parse_object .initial .initial (pos + ws0.length) :: below,
        vis ++ [.on_object_start (pos + ws0.length)], lim⟩
      ⟨pos + ws0.length + 1 + ws1.length, key_text [] key ws2 ++ t⟩ =
      .ok () (⟨State.mk .parse_value .parse_object .initial .initial (pos + ws0.length) :: below,
        vis ++ [.on_object_start (pos + ws0.length),
          .on_object_key (pos + ws0.length + 1 + ws1.length + 1) key.length], lim⟩,
        ⟨pos + ws0.length + 1 + (key_text ws1 key ws2).length, t⟩) := by
    rw [parse_member_key_key_text [] key ws2 t (by intro b hb; cases hb) hk h2]
    simp only [JsonParserImpl.visit, key_text_length, List.length_nil, List.append_assoc,
      List.singleton_append, Nat.add_zero]
    congr 3
    omega
  have hinc := inc_depth_ok (object_frame (pos + ws0.length) :: below)
    (vis ++ [.on_object_start (pos + ws0.length),
      .on_object_key (pos + ws0.length + 1 + ws1.length + 1) key.length]) lim
    ⟨pos + ws0.length + 1 + (key_text ws1 key ws2).length, t⟩ (by simpa using hd)
  have hne : key_text [] key ws2 ++ t ≠ [] := by simp [key_text]
  have hpk : (Cursor.mk (pos + ws0.length + 1 + ws1.length) (key_text [] key ws2 ++ t)).peek =
      0x22 := by simp [key_text]
  rw [parse_json_loop_succ, parse_element_fresh _ _ _ _ _ _ h0 hnw]
  simp only [parse_value, JsonParserImpl.back, JsonParserImpl.set_back,
    List.headD_cons, value_frame, reduceCtorEq, if_false, if_true,
    Cursor.peek_cons, Nat.reduceEqDiff, ne_eq, not_false_eq_true, not_true_eq_false]
  rw [parse_object]
  simp only [JsonParserImpl.back, JsonParserImpl.set_back,
    JsonParserImpl.visit, List.headD_cons, Cursor.next_cons, e, hc, hne, hpk,
    Nat.reduceEqDiff, ne_eq, not_false_eq_true, or_true, if_true]
  rw [hkey]
  simp only [Res.bind_ok, JsonParserImpl.set_back, object_frame] at hinc ⊢
  rw [hinc]
  simp [loop_tail, ht]

/-- The pass of the loop on the comma that follows a member, and on the key after it. -/
theorem parse_json_loop_object_comma (below : List State) (vis : List Event) (lim pos s : Nat)
    (ws1 key ws2 t : Bytes) (h1 : IsWhitespace ws1) (hk : IsStringContent key)
    (h2 : IsWhitespace ws2) (ht : t ≠ []) (hd : lim = 0 ∨ below.length + 2 ≤ lim)
    (fuel : Nat) :
    parse_json_loop (fuel + 1) ⟨object_frame s :: below, vis, lim⟩
        ⟨pos, 0x2C :: (key_text ws1 key ws2 ++ t)⟩ =
      parse_json_loop fuel
        ⟨{} :: object_frame s :: below,
          vis ++ [.on_object_key (pos + 1 + ws1.length + 1) key.length], lim⟩
        ⟨pos + 1 + (key_text ws1 key ws2).length, t⟩ := by
  have hkey := parse_member_key_key_text ws1 key ws2 t h1 hk h2
    ⟨object_frame s :: below, vis, lim⟩ (pos + 1)
  have hinc := inc_depth_ok (object_frame s :: below)
    (vis ++ [.on_object_key (pos + 1 + ws1.length + 1) key.length]) lim
    ⟨pos + 1 + (key_text ws1 key ws2).length, t⟩ (by simpa using hd)
  rw [parse_json_loop_succ]
  simp only [parse_element, parse_value, JsonParserImpl.back, List.headD_cons,
    object_frame] at hkey hinc ⊢
  rw [parse_object]
  simp only [JsonParserImpl.back, List.headD_cons, reduceCtorEq, ne_eq, not_false_eq_true,
    if_true, Cursor.peek_cons, Nat.reduceEqDiff, if_false, Cursor.next_cons, hkey, Res.bind_ok,
    JsonParserImpl.visit, hinc]
  simp [loop_tail, ht]

/-- The pass of the loop on the brace that closes an object. -/
theorem parse_json_loop_close_object (below : List State) (vis : List Event) (lim pos s : Nat)
    (ws tail : Bytes) (hws : IsWhitespace ws) (ht : HeadIs Delimiter tail) (fuel : Nat) :
    parse_json_loop (fuel + 1) ⟨object_frame s :: below, vis, lim⟩ ⟨pos, 0x7D :: (ws ++ tail)⟩ =
      loop_tail fuel ⟨below, vis ++ [.on_object_end s (pos + 1 - s)], lim⟩
        ⟨pos + 1 + ws.length, tail⟩ := by
  rw [parse_json_loop_succ]
  simp [parse_element, parse_value, parse_object, JsonParserImpl.back, JsonParserImpl.set_back,
    JsonParserImpl.visit, object_frame, dec_depth,
    chomp_whitespace_append ws tail hws (ht.mono fun b hb => hb.delimiter_not_whitespace)]

end flumps


namespace flumps

/-! ## The passes of the loop over a value of the grammar -/

theorem elements_render_delimiter (es : JsonElements) (x : Bytes) :
    HeadIs Delimiter (es.render ++ 0x5D :: x) ∧ es.render ++ 0x5D :: x ≠ [] := by
  cases es with
  | nil => exact ⟨HeadIs.cons _ (by simp [Delimiter]), by simp [JsonElements.render]⟩
  | cons ws1 v ws2 tl =>
    exact ⟨by rw [JsonElements.render]; exact HeadIs.cons _ (by simp [Delimiter]),
      by simp [JsonElements.render]⟩

theorem members_render_delimiter (ms : JsonMembers) (x : Bytes) :
    HeadIs Delimiter (ms.render ++ 0x7D :: x) ∧ ms.render ++ 0x7D :: x ≠ [] := by
  cases ms with
  | nil => exact ⟨HeadIs.cons _ (by simp [Delimiter]), by simp [JsonMembers.render]⟩
  | cons ws1 key ws2 ws3 v ws4 tl =>
    exact ⟨by rw [JsonMembers.render]; exact HeadIs.cons _ (by simp [Delimiter]),
      by simp [JsonMembers.render]⟩

theorem isWhitespace_nil : IsWhitespace [] := by intro b hb; cases hb

mutual
/-- The passes of the loop over an element: the frame of the value is popped, the events
of the value are delivered and the read position is left after the element. -/
theorem value_run : ∀ (v : JsonValue), v.Valid →
    ∀ (below : List State) (vis : List Event) (lim pos : Nat) (ws1 ws2 tail : Bytes),
      IsWhitespace ws1 → IsWhitespace ws2 → HeadIs Delimiter tail →
      (lim = 0 ∨ below.length + 1 + v.height ≤ lim) → ∀ fuel : Nat,
      parse_json_loop (fuel + v.steps) ⟨{} :: below, vis, lim⟩
          ⟨pos, ws1 ++ (v.render ++ (ws2 ++ tail))⟩ =
        loop_tail fuel ⟨below, vis ++ v.events (pos + ws1.length), lim⟩
          ⟨pos + ws1.length + v.render.length + ws2.length, tail⟩
  | .primitive type text, hv => by
    intro below vis lim pos ws1 ws2 tail h1 h2 ht _ fuel
    have := parse_json_loop_token type text hv below vis lim pos ws1 ws2 tail h1 h2 ht fuel
    simp only [JsonValue.steps, JsonValue.render, JsonValue.events]
    rw [this]
    congr 2
    all_goals omega
  | .empty_array ws, hv => by
    intro below vis lim pos ws1 ws2 tail h1 h2 ht _ fuel
    have := parse_json_loop_empty_array ws hv below vis lim pos ws1 ws2 tail h1 h2 ht fuel
    simp only [JsonValue.steps, JsonValue.render, JsonValue.events]
    rw [this]
    congr 2
    simp only [List.length_cons, List.length_append, List.length_nil]
    omega
  | .empty_object ws, hv => by
    intro below vis lim pos ws1 ws2 tail h1 h2 ht _ fuel
    have := parse_json_loop_empty_object ws hv below vis lim pos ws1 ws2 tail h1 h2 ht fuel
    simp only [JsonValue.steps, JsonValue.render, JsonValue.events]
    rw [this]
    congr 2
    simp only [List.length_cons, List.length_append, List.length_nil]
    omega
  | .array w1 first w2 more, hv => by
    intro below vis lim pos ws1 ws2 tail h1 h2 ht hd fuel
    simp only [JsonValue.Valid] at hv
    obtain ⟨hw1, hfirst, hw2, hmore⟩ := hv
    simp only [JsonValue.height] at hd
    obtain ⟨hdel, hne⟩ := elements_render_delimiter more (ws2 ++ tail)
    have ih1 := value_run first hfirst (array_frame (pos + ws1.length) :: below)
      (vis ++ [.on_array_start (pos + ws1.length)]) lim (pos + ws1.length + 1 + w1.length)
      [] w2 (more.render ++ 0x5D :: (ws2 ++ tail)) isWhitespace_nil hw2 hdel
      (by simp only [List.length_cons]; omega) (fuel + more.steps)
    have ih2 := elements_run more hmore below
      (vis ++ [.on_array_start (pos + ws1.length)] ++
        first.events (pos + ws1.length + 1 + w1.length))
      lim (pos + ws1.length + 1 + w1.length + first.render.length + w2.length)
      (pos + ws1.length) ws2 tail (by omega) h2 ht (by omega) fuel
    have e : ws1 ++ ((JsonValue.array w1 first w2 more).render ++ (ws2 ++ tail)) =
        ws1 ++ 0x5B :: (w1 ++ (first.render ++ (w2 ++ (more.render ++ 0x5D :: (ws2 ++ tail))))) := by
      simp [JsonValue.render]
    rw [e, show fuel + (JsonValue.array w1 first w2 more).steps =
      (fuel + more.steps + first.steps) + 1 by simp only [JsonValue.steps]; omega,
      parse_json_loop_open_array below vis lim pos ws1 w1 _ h1 hw1
        (by
          obtain ⟨b, r, hb, hs⟩ := first.render_head hfirst
          exact ⟨b, _, by rw [hb]; rfl, hs⟩)
        (by omega)]
    simp only [List.nil_append, List.length_nil, Nat.add_zero, Nat.zero_add] at ih1
    rw [ih1, loop_tail_continue _ _ _ (by simp) hne, ih2]
    simp only [JsonValue.events, JsonValue.render, List.length_cons, List.length_append,
      List.append_assoc, List.singleton_append, List.cons_append, List.nil_append,
      List.length_nil]
    congr 2
    · congr 10
      omega
    · omega
  | .object w1 key w2 w3 first w4 more, hv => by
    intro below vis lim pos ws1 ws2 tail h1 h2 ht hd fuel
    simp only [JsonValue.Valid] at hv
    obtain ⟨hw1, hkey, hw2, hw3, hfirst, hw4, hmore⟩ := hv
    simp only [JsonValue.height] at hd
    obtain ⟨hdel, hne⟩ := members_render_delimiter more (ws2 ++ tail)
    have ih1 := value_run first hfirst (object_frame (pos + ws1.length) :: below)
      (vis ++ [.on_object_start (pos + ws1.length),
        .on_object_key (pos + ws1.length + 1 + w1.length + 1) key.length]) lim
      (pos + ws1.length + 1 + (key_text w1 key w2).length)
      w3 w4 (more.render ++ 0x7D :: (ws2 ++ tail)) hw3 hw4 hdel
      (by simp only [List.length_cons]; omega) (fuel + more.steps)
    have ih2 := members_run more hmore below
      (vis ++ [.on_object_start (pos + ws1.length),
        .on_object_key (pos + ws1.length + 1 + w1.length + 1) key.length] ++
        first.events (pos + ws1.length + 1 + (key_text w1 key w2).length + w3.length))
      lim (pos + ws1.length + 1 + (key_text w1 key w2).length +
        w3.length + first.render.length + w4.length)
      (pos + ws1.length) ws2 tail (by omega) h2 ht (by omega) fuel
    have e : ws1 ++ ((JsonValue.object w1 key w2 w3 first w4 more).render ++ (ws2 ++ tail)) =
        ws1 ++ 0x7B :: (key_text w1 key w2 ++
          (w3 ++ (first.render ++ (w4 ++ (more.render ++ 0x7D :: (ws2 ++ tail)))))) := by
      simp [JsonValue.render]
    rw [e, show fuel + (JsonValue.object w1 key w2 w3 first w4 more).steps =
      (fuel + more.steps + first.steps) + 1 by simp only [JsonValue.steps]; omega,
      parse_json_loop_open_object below vis lim pos ws1 w1 key w2 _ h1 hw1 hkey hw2
        (by
          obtain ⟨b, r, hb, -⟩ := first.render_head hfirst
          rw [hb]; simp)
        (by omega),
      ih1, loop_tail_continue _ _ _ (by simp) hne, ih2]
    simp only [JsonValue.events, JsonValue.render, List.length_cons, List.length_append,
      List.append_assoc, List.singleton_append, List.cons_append, List.nil_append,
      List.length_nil]
    congr 2
    · congr 10
      omega
    · omega
/-- The passes of the loop over the further elements of an array and its closing bracket. -/
theorem elements_run : ∀ (es : JsonElements), es.Valid →
    ∀ (below : List State) (vis : List Event) (lim pos s : Nat) (ws tail : Bytes),
      s ≤ pos → IsWhitespace ws → HeadIs Delimiter tail →
      (lim = 0 ∨ below.length + 2 + es.height ≤ lim) → ∀ fuel : Nat,
      parse_json_loop (fuel + es.steps) ⟨array_frame s :: below, vis, lim⟩
          ⟨pos, es.render ++ 0x5D :: (ws ++ tail)⟩ =
        loop_tail fuel
          ⟨below, vis ++ (es.events pos ++ [.on_array_end s (pos + es.render.length + 1 - s)]),
            lim⟩
          ⟨pos + es.render.length + 1 + ws.length, tail⟩
  | .nil, _ => by
    intro below vis lim pos s ws tail _ hws ht _ fuel
    simp only [JsonElements.steps, JsonElements.render, JsonElements.events, List.nil_append,
      List.length_nil, Nat.add_zero]
    exact parse_json_loop_close_array below vis lim pos s ws tail hws ht fuel
  | .cons w1 v w2 tl, hv => by
    intro below vis lim pos s ws tail hs hws ht hd fuel
    simp only [JsonElements.Valid] at hv
    obtain ⟨hw1, hval, hw2, htl⟩ := hv
    simp only [JsonElements.height] at hd
    obtain ⟨hdel, hne⟩ := elements_render_delimiter tl (ws ++ tail)
    have ih1 := value_run v hval (array_frame s :: below) vis lim (pos + 1)
      w1 w2 (tl.render ++ 0x5D :: (ws ++ tail)) hw1 hw2 hdel
      (by simp only [List.length_cons]; omega) (fuel + tl.steps)
    have ih2 := elements_run tl htl below (vis ++ v.events (pos + 1 + w1.length)) lim
      (pos + 1 + w1.length + v.render.length + w2.length) s ws tail (by omega) hws ht
      (by omega) fuel
    have e : (JsonElements.cons w1 v w2 tl).render ++ 0x5D :: (ws ++ tail) =
        0x2C :: (w1 ++ (v.render ++ (w2 ++ (tl.render ++ 0x5D :: (ws ++ tail))))) := by
      simp [JsonElements.render]
    rw [e, show fuel + (JsonElements.cons w1 v w2 tl).steps =
      (fuel + tl.steps + v.steps) + 1 by simp only [JsonElements.steps]; omega,
      parse_json_loop_array_comma below vis lim pos s _ (by simp) (by omega),
      ih1, loop_tail_continue _ _ _ (by simp) hne, ih2]
    simp only [JsonElements.events, JsonElements.render, List.length_cons, List.length_append,
      List.append_assoc]
    congr 2
    · congr 6
      omega
    · omega
/-- The passes of the loop over the further members of an object and its closing brace. -/
theorem members_run : ∀ (ms : JsonMembers), ms.Valid →
    ∀ (below : List State) (vis : List Event) (lim pos s : Nat) (ws tail : Bytes),
      s ≤ pos → IsWhitespace ws → HeadIs Delimiter tail →
      (lim = 0 ∨ below.length + 2 + ms.height ≤ lim) → ∀ fuel : Nat,
      parse_json_loop (fuel + ms.steps) ⟨object_frame s :: below, vis, lim⟩
          ⟨pos, ms.render ++ 0x7D :: (ws ++ tail)⟩ =
        loop_tail fuel
          ⟨below, vis ++ (ms.events pos ++ [.on_object_end s (pos + ms.render.length + 1 - s)]),
            lim⟩
          ⟨pos + ms.render.length + 1 + ws.length, tail⟩
  | .nil, _ => by
    intro below vis lim pos s ws tail _ hws ht _ fuel
    simp only [JsonMembers.steps, JsonMembers.render, JsonMembers.events, List.nil_append,
      List.length_nil, Nat.add_zero]
    exact parse_json_loop_close_object below vis lim pos s ws tail hws ht fuel
  | .cons w1 key w2 w3 v w4 tl, hv => by
    intro below vis lim pos s ws tail hs hws ht hd fuel
    simp only [JsonMembers.Valid] at hv
    obtain ⟨hw1, hkey, hw2, hw3, hval, hw4, htl⟩ := hv
    simp only [JsonMembers.height] at hd
    obtain ⟨hdel, hne⟩ := members_render_delimiter tl (ws ++ tail)
    have ih1 := value_run v hval (object_frame s :: below)
      (vis ++ [.on_object_key (pos + 1 + w1.length + 1) key.length]) lim
      (pos + 1 + (key_text w1 key w2).length)
      w3 w4 (tl.render ++ 0x7D :: (ws ++ tail)) hw3 hw4 hdel
      (by simp only [List.length_cons]; omega) (fuel + tl.steps)
    have ih2 := members_run tl htl below
      (vis ++ [.on_object_key (pos + 1 + w1.length + 1) key.length] ++
        v.events (pos + 1 + (key_text w1 key w2).length + w3.length)) lim
      (pos + 1 + (key_text w1 key w2).length + w3.length + v.render.length + w4.length)
      s ws tail (by omega) hws ht (by omega) fuel
    have e : (JsonMembers.cons w1 key w2 w3 v w4 tl).render ++ 0x7D :: (ws ++ tail) =
        0x2C :: (key_text w1 key w2 ++
          (w3 ++ (v.render ++ (w4 ++ (tl.render ++ 0x7D :: (ws ++ tail)))))) := by
      simp [JsonMembers.render]
    rw [e, show fuel + (JsonMembers.cons w1 key w2 w3 v w4 tl).steps =
      (fuel + tl.steps + v.steps) + 1 by simp only [JsonMembers.steps]; omega,
      parse_json_loop_object_comma below vis lim pos s w1 key w2 _ hw1 hkey hw2
        (by
          obtain ⟨b, r, hb, -⟩ := v.render_head hval
          rw [hb]; simp)
        (by omega),
      ih1, loop_tail_continue _ _ _ (by simp) hne, ih2]
    simp only [JsonMembers.events, JsonMembers.render, List.length_cons, List.length_append,
      List.append_assoc, List.singleton_append, List.cons_append, List.nil_append]
    congr 2
    · congr 7
      omega
    · omega
end

end flumps


namespace flumps

/-! ## `parse_json` on a text of the grammar -/

mutual
theorem value_steps_le : ∀ (v : JsonValue), v.Valid → v.steps ≤ v.render.length
  | .primitive type text, hv => by
    obtain ⟨b, r, hb, -⟩ := primitive_text_head type text hv
    simp [JsonValue.steps, JsonValue.render, hb]
  | .empty_array ws, _ => by simp [JsonValue.steps, JsonValue.render]
  | .empty_object ws, _ => by simp [JsonValue.steps, JsonValue.render]
  | .array w1 first w2 more, hv => by
    simp only [JsonValue.Valid] at hv
    have h1 := value_steps_le first hv.2.1
    have h2 := elements_steps_le more hv.2.2.2
    simp only [JsonValue.steps, JsonValue.render, List.length_cons, List.length_append,
      List.length_nil]
    omega
  | .object w1 key w2 w3 first w4 more, hv => by
    simp only [JsonValue.Valid] at hv
    have h1 := value_steps_le first hv.2.2.2.2.1
    have h2 := members_steps_le more hv.2.2.2.2.2.2
    simp only [JsonValue.steps, JsonValue.render, List.length_cons, List.length_append,
      List.length_nil]
    omega
theorem elements_steps_le : ∀ (es : JsonElements), es.Valid →
    es.steps ≤ es.render.length + 1
  | .nil, _ => by simp [JsonElements.steps]
  | .cons w1 v w2 tl, hv => by
    simp only [JsonElements.Valid] at hv
    have h1 := value_steps_le v hv.2.1
    have h2 := elements_steps_le tl hv.2.2.2
    simp only [JsonElements.steps, JsonElements.render, List.length_cons, List.length_append]
    omega
theorem members_steps_le : ∀ (ms : JsonMembers), ms.Valid →
    ms.steps ≤ ms.render.length + 1
  | .nil, _ => by simp [JsonMembers.steps]
  | .cons w1 key w2 w3 v w4 tl, hv => by
    simp only [JsonMembers.Valid] at hv
    have h1 := value_steps_le v hv.2.2.2.2.1
    have h2 := members_steps_le tl hv.2.2.2.2.2.2
    simp only [JsonMembers.steps, JsonMembers.render, List.length_cons, List.length_append]
    omega
end

/-- A text of the grammar whose values fit under the depth limit is parsed to its end: the
call returns `true`, the events of the value are delivered and the stack is empty. -/
theorem parse_json_valid (t : JsonText) (ht : t.Valid) (p : JsonParserImpl)
    (hd : p.depth_limit_ = 0 ∨ 1 + t.value.height ≤ p.depth_limit_) :
    parse_json p t.render =
      .ok true (⟨[], p.visitor_ ++ t.value.events t.ws1.length, p.depth_limit_⟩,
        ⟨t.render.length, []⟩) := by
  obtain ⟨ws1, v, ws2⟩ := t
  obtain ⟨h1, hv, h2⟩ := ht
  obtain ⟨st, vis, lim⟩ := p
  simp only [JsonText.render] at *
  have hsteps := value_steps_le v hv
  have hrun := value_run v hv [] vis lim 0 ws1 ws2 [] h1 h2 (HeadIs.nil _)
    (by simpa using hd) ((ws1 ++ (v.render ++ ws2)).length + 1 - v.steps)
  have hfuel : (ws1 ++ (v.render ++ ws2)).length + 1 - v.steps + v.steps =
      (ws1 ++ (v.render ++ ws2)).length + 1 := by
    simp only [List.length_append]
    omega
  rw [hfuel] at hrun
  simp only [List.append_nil] at hrun
  have hinc := inc_depth_ok [] vis lim ⟨0, ws1 ++ (v.render ++ ws2)⟩ (by
    rcases hd with h | h
    · exact Or.inl h
    · right; simp only [List.length_nil]; omega)
  simp only [parse_json, hinc, Res.bind_ok, hrun, loop_tail]
  simp [List.length_append, Nat.add_assoc]

theorem inc_depth_throw (stack : List State) (vis : List Event) (lim : Nat) (c : Cursor)
    (h0 : 0 < lim) (h : lim < stack.length + 1) :
    inc_depth ⟨stack, vis, lim⟩ c =
      .throw (json_parse_error ("Maximum JSON nesting depth (" ++ toString lim ++ ") reached"))
        (⟨{} :: stack, vis, lim⟩, c) := by
  unfold inc_depth
  rw [if_pos]
  simp only [List.length_cons, gt_iff_lt]
  omega

/-- The pass of the loop that opens an array whose elements do not fit under the limit. -/
theorem parse_json_loop_open_array_throw (below : List State) (vis : List Event)
    (lim pos : Nat) (ws0 ws1 t : Bytes) (h0 : IsWhitespace ws0) (h1 : IsWhitespace ws1)
    (ht : ∃ b r, t = b :: r ∧ ValueStart b) (hl : 0 < lim) (hd : lim < below.length + 2)
    (fuel : Nat) :
    ∃ s, parse_json_loop (fuel + 1) ⟨{} :: below, vis, lim⟩ ⟨pos, ws0 ++ 0x5B :: (ws1 ++ t)⟩ =
      .throw (json_parse_error ("Maximum JSON nesting depth (" ++ toString lim ++ ") reached"))
        s := by
  obtain ⟨b, r, rfl, hb⟩ := ht
  have hnw : HeadIs (fun b => is_whitespace b = false) (0x5B :: (ws1 ++ b :: r)) :=
    HeadIs.cons _ (by simp [is_whitespace])
  have hc := chomp_whitespace_append ws1 (b :: r) h1 (HeadIs.cons _ hb.not_whitespace)
    (pos + ws0.length + 1)
  have hinc := inc_depth_throw (array_frame (pos + ws0.length) :: below)
    (vis ++ [.on_array_start (pos + ws0.length)]) lim
    ⟨pos + ws0.length + 1 + ws1.length, b :: r⟩ hl (by simpa using hd)
  rw [parse_json_loop_succ, parse_element_fresh _ _ _ _ _ _ h0 hnw]
  simp only [parse_value, parse_array, JsonParserImpl.back, JsonParserImpl.set_back,
    JsonParserImpl.visit, List.headD_cons, value_frame, reduceCtorEq, if_false, if_true,
    Cursor.peek_cons, Cursor.next_cons, Nat.reduceEqDiff, ne_eq, not_false_eq_true, hc,
    not_true_eq_false, hb.not_close.1, or_true, array_frame] at hinc ⊢
  rw [hinc]
  exact ⟨_, rfl⟩

/-- The pass of the loop that opens an object whose members do not fit under the limit. -/
theorem parse_json_loop_open_object_throw (below : List State) (vis : List Event)
    (lim pos : Nat) (ws0 ws1 key ws2 t : Bytes) (h0 : IsWhitespace ws0)
    (h1 : IsWhitespace ws1) (hk : IsStringContent key) (h2 : IsWhitespace ws2)
    (hl : 0 < lim) (hd : lim < below.length + 2) (fuel : Nat) :
    ∃ s, parse_json_loop (fuel + 1) ⟨{} :: below, vis, lim⟩
        ⟨pos, ws0 ++ 0x7B :: (key_text ws1 key ws2 ++ t)⟩ =
      .throw (json_parse_error ("Maximum JSON nesting depth (" ++ toString lim ++ ") reached"))
        s := by
  have hnw : HeadIs (fun b => is_whitespace b = false)
      (0x7B :: (key_text ws1 key ws2 ++ t)) := HeadIs.cons _ (by simp [is_whitespace])
  have e : key_text ws1 key ws2 ++ t = ws1 ++ (key_text [] key ws2 ++ t) := by
    simp [key_text]
  have hc := chomp_whitespace_append ws1 (key_text [] key ws2 ++ t) h1
    (HeadIs.cons _ (by simp [is_whitespace])) (pos + ws0.length + 1)
  have hkey := parse_member_key_key_text [] key ws2 t isWhitespace_nil hk h2
    ⟨State.mk .parse_value .parse_object .initial .initial (pos + ws0.length) :: below,
      vis ++ [.on_object_start (pos + ws0.length)], lim⟩
    (pos + ws0.length + 1 + ws1.length)
  have hne : key_text [] key ws2 ++ t ≠ [] := by simp [key_text]
  have hpk : (Cursor.mk (pos + ws0.length + 1 + ws1.length) (key_text [] key ws2 ++ t)).peek =
      0x22 := by simp [key_text]
  rw [parse_json_loop_succ, parse_element_fresh _ _ _ _ _ _ h0 hnw]
  simp only [parse_value, JsonParserImpl.back, JsonParserImpl.set_back,
    List.headD_cons, value_frame, reduceCtorEq, if_false, if_true,
    Cursor.peek_cons, Nat.reduceEqDiff, ne_eq, not_false_eq_true, not_true_eq_false]
  rw [parse_object]
  simp only [JsonParserImpl.back, JsonParserImpl.set_back,
    JsonParserImpl.visit, List.headD_cons, Cursor.next_cons, e, hc, hne, hpk,
    Nat.reduceEqDiff, ne_eq, not_false_eq_true, or_true, if_true] at hkey ⊢
  rw [hkey]
  simp only [Res.bind_ok, JsonParserImpl.set_back]
  rw [inc_depth_throw _ _ _ _ hl (by simpa using hd)]
  exact ⟨_, rfl⟩

mutual
/-- The passes of the loop over an element that holds a value deeper than the limit
allows: the call stops with the exception of `inc_depth`. -/
theorem value_run_throw : ∀ (v : JsonValue), v.Valid →
    ∀ (below : List State) (vis : List Event) (lim pos : Nat) (ws1 ws2 tail : Bytes),
      IsWhitespace ws1 → IsWhitespace ws2 → HeadIs Delimiter tail →
      0 < lim → below.length + 1 ≤ lim → lim < below.length + 1 + v.height → ∀ fuel : Nat,
      ∃ s, parse_json_loop (fuel + v.steps) ⟨{} :: below, vis, lim⟩
          ⟨pos, ws1 ++ (v.render ++ (ws2 ++ tail))⟩ =
        .throw (json_parse_error
          ("Maximum JSON nesting depth (" ++ toString lim ++ ") reached")) s
  | .primitive type text, _ => by
    intro below vis lim pos ws1 ws2 tail _ _ _ _ h h' fuel
    simp only [JsonValue.height] at h'
    omega
  | .empty_array ws, _ => by
    intro below vis lim pos ws1 ws2 tail _ _ _ _ h h' fuel
    simp only [JsonValue.height] at h'
    omega
  | .empty_object ws, _ => by
    intro below vis lim pos ws1 ws2 tail _ _ _ _ h h' fuel
    simp only [JsonValue.height] at h'
    omega
  | .array w1 first w2 more, hv => by
    intro below vis lim pos ws1 ws2 tail h1 h2 ht hl hfit hdeep fuel
    simp only [JsonValue.Valid] at hv
    obtain ⟨hw1, hfirst, hw2, hmore⟩ := hv
    simp only [JsonValue.height] at hdeep
    obtain ⟨hdel, hne⟩ := elements_render_delimiter more (ws2 ++ tail)
    have hstart : ∃ b r, first.render ++ (w2 ++ (more.render ++ 0x5D :: (ws2 ++ tail))) =
        b :: r ∧ ValueStart b := by
      obtain ⟨b, r, hb, hs⟩ := first.render_head hfirst
      exact ⟨b, _, by rw [hb]; rfl, hs⟩
    have e : ws1 ++ ((JsonValue.array w1 first w2 more).render ++ (ws2 ++ tail)) =
        ws1 ++ 0x5B :: (w1 ++ (first.render ++ (w2 ++ (more.render ++ 0x5D :: (ws2 ++ tail))))) := by
      simp [JsonValue.render]
    rw [e, show fuel + (JsonValue.array w1 first w2 more).steps =
      (fuel + more.steps + first.steps) + 1 by simp only [JsonValue.steps]; omega]
    by_cases hchild : lim < below.length + 2
    · exact parse_json_loop_open_array_throw below vis lim pos ws1 w1 _ h1 hw1 hstart hl hchild _
    · rw [parse_json_loop_open_array below vis lim pos ws1 w1 _ h1 hw1 hstart (by omega)]
      by_cases hf : lim < below.length + 2 + first.height
      · have ih1 := value_run_throw first hfirst (array_frame (pos + ws1.length) :: below)
          (vis ++ [.on_array_start (pos + ws1.length)]) lim (pos + ws1.length + 1 + w1.length)
          [] w2 (more.render ++ 0x5D :: (ws2 ++ tail)) isWhitespace_nil hw2 hdel hl
          (by simp only [List.length_cons]; omega) (by simp only [List.length_cons]; omega)
          (fuel + more.steps)
        simpa using ih1
      · have ih1 := value_run first hfirst (array_frame (pos + ws1.length) :: below)
          (vis ++ [.on_array_start (pos + ws1.length)]) lim (pos + ws1.length + 1 + w1.length)
          [] w2 (more.render ++ 0x5D :: (ws2 ++ tail)) isWhitespace_nil hw2 hdel
          (by simp only [List.length_cons]; omega) (fuel + more.steps)
        simp only [List.nil_append, List.length_nil, Nat.add_zero, Nat.zero_add] at ih1
        rw [ih1, loop_tail_continue _ _ _ (by simp) hne]
        exact elements_run_throw more hmore below _ lim _ (pos + ws1.length) ws2 tail
          (by omega) h2 ht hl (by omega) (by omega) fuel
  | .object w1 key w2 w3 first w4 more, hv => by
    intro below vis lim pos ws1 ws2 tail h1 h2 ht hl hfit hdeep fuel
    simp only [JsonValue.Valid] at hv
    obtain ⟨hw1, hkey, hw2, hw3, hfirst, hw4, hmore⟩ := hv
    simp only [JsonValue.height] at hdeep
    obtain ⟨hdel, hne⟩ := members_render_delimiter more (ws2 ++ tail)
    have hstart : w3 ++ (first.render ++ (w4 ++ (more.render ++ 0x7D :: (ws2 ++ tail)))) ≠
        [] := by
      obtain ⟨b, r, hb, -⟩ := first.render_head hfirst
      rw [hb]; simp
    have e : ws1 ++ ((JsonValue.object w1 key w2 w3 first w4 more).render ++ (ws2 ++ tail)) =
        ws1 ++ 0x7B :: (key_text w1 key w2 ++
          (w3 ++ (first.render ++ (w4 ++ (more.render ++ 0x7D :: (ws2 ++ tail)))))) := by
      simp [JsonValue.render]
    rw [e, show fuel + (JsonValue.object w1 key w2 w3 first w4 more).steps =
      (fuel + more.steps + first.steps) + 1 by simp only [JsonValue.steps]; omega]
    by_cases hchild : lim < below.length + 2
    · exact parse_json_loop_open_object_throw below vis lim pos ws1 w1 key w2 _ h1 hw1 hkey hw2
        hl hchild _
    · rw [parse_json_loop_open_object below vis lim pos ws1 w1 key w2 _ h1 hw1 hkey hw2 hstart
        (by omega)]
      by_cases hf : lim < below.length + 2 + first.height
      · exact value_run_throw first hfirst (object_frame (pos + ws1.length) :: below)
          _ lim _ w3 w4 (more.render ++ 0x7D :: (ws2 ++ tail)) hw3 hw4 hdel hl
          (by simp only [List.length_cons]; omega) (by simp only [List.length_cons]; omega)
          (fuel + more.steps)
      · rw [value_run first hfirst (object_frame (pos + ws1.length) :: below)
          _ lim _ w3 w4 (more.render ++ 0x7D :: (ws2 ++ tail)) hw3 hw4 hdel
          (by simp only [List.length_cons]; omega) (fuel + more.steps),
          loop_tail_continue _ _ _ (by simp) hne]
        exact members_run_throw more hmore below _ lim _ (pos + ws1.length) ws2 tail
          (by omega) h2 ht hl (by omega) (by omega) fuel
theorem elements_run_throw : ∀ (es : JsonElements), es.Valid →
    ∀ (below : List State) (vis : List Event) (lim pos s : Nat) (ws tail : Bytes),
      s ≤ pos → IsWhitespace ws → HeadIs Delimiter tail →
      0 < lim → below.length + 2 ≤ lim → lim < below.length + 2 + es.height → ∀ fuel : Nat,
      ∃ st, parse_json_loop (fuel + es.steps) ⟨array_frame s :: below, vis, lim⟩
          ⟨pos, es.render ++ 0x5D :: (ws ++ tail)⟩ =
        .throw (json_parse_error
          ("Maximum JSON nesting depth (" ++ toString lim ++ ") reached")) st
  | .nil, _ => by
    intro below vis lim pos s ws tail _ _ _ _ h h' fuel
    simp only [JsonElements.height] at h'
    omega
  | .cons w1 v w2 tl, hv => by
    intro below vis lim pos s ws tail hs hws ht hl hfit hdeep fuel
    simp only [JsonElements.Valid] at hv
    obtain ⟨hw1, hval, hw2, htl⟩ := hv
    simp only [JsonElements.height] at hdeep
    obtain ⟨hdel, hne⟩ := elements_render_delimiter tl (ws ++ tail)
    have e : (JsonElements.cons w1 v w2 tl).render ++ 0x5D :: (ws ++ tail) =
        0x2C :: (w1 ++ (v.render ++ (w2 ++ (tl.render ++ 0x5D :: (ws ++ tail))))) := by
      simp [JsonElements.render]
    rw [e, show fuel + (JsonElements.cons w1 v w2 tl).steps =
      (fuel + tl.steps + v.steps) + 1 by simp only [JsonElements.steps]; omega,
      parse_json_loop_array_comma below vis lim pos s _ (by simp) (by omega)]
    by_cases hf : lim < below.length + 2 + v.height
    · exact value_run_throw v hval (array_frame s :: below) vis lim (pos + 1)
        w1 w2 (tl.render ++ 0x5D :: (ws ++ tail)) hw1 hw2 hdel hl
        (by simp only [List.length_cons]; omega) (by simp only [List.length_cons]; omega)
        (fuel + tl.steps)
    · rw [value_run v hval (array_frame s :: below) vis lim (pos + 1)
        w1 w2 (tl.render ++ 0x5D :: (ws ++ tail)) hw1 hw2 hdel
        (by simp only [List.length_cons]; omega) (fuel + tl.steps),
        loop_tail_continue _ _ _ (by simp) hne]
      exact elements_run_throw tl htl below _ lim _ s ws tail (by omega) hws ht hl
        (by omega) (by omega) fuel
theorem members_run_throw : ∀ (ms : JsonMembers), ms.Valid →
    ∀ (below : List State) (vis : List Event) (lim pos s : Nat) (ws tail : Bytes),
      s ≤ pos → IsWhitespace ws → HeadIs Delimiter tail →
      0 < lim → below.length + 2 ≤ lim → lim < below.length + 2 + ms.height → ∀ fuel : Nat,
      ∃ st, parse_json_loop (fuel + ms.steps) ⟨object_frame s :: below, vis, lim⟩
          ⟨pos, ms.render ++ 0x7D :: (ws ++ tail)⟩ =
        .throw (json_parse_error
          ("Maximum JSON nesting depth (" ++ toString lim ++ ") reached")) st
  | .nil, _ => by
    intro below vis lim pos s ws tail _ _ _ _ h h' fuel
    simp only [JsonMembers.height] at h'
    omega
  | .cons w1 key w2 w3 v w4 tl, hv => by
    intro below vis lim pos s ws tail hs hws ht hl hfit hdeep fuel
    simp only [JsonMembers.Valid] at hv
    obtain ⟨hw1, hkey, hw2, hw3, hval, hw4, htl⟩ := hv
    simp only [JsonMembers.height] at hdeep
    obtain ⟨hdel, hne⟩ := members_render_delimiter tl (ws ++ tail)
    have hstart : w3 ++ (v.render ++ (w4 ++ (tl.render ++ 0x7D :: (ws ++ tail)))) ≠ [] := by
      obtain ⟨b, r, hb, -⟩ := v.render_head hval
      rw [hb]; simp
    have e : (JsonMembers.cons w1 key w2 w3 v w4 tl).render ++ 0x7D :: (ws ++ tail) =
        0x2C :: (key_text w1 key w2 ++
          (w3 ++ (v.render ++ (w4 ++ (tl.render ++ 0x7D :: (ws ++ tail)))))) := by
      simp [JsonMembers.render]
    rw [e, show fuel + (JsonMembers.cons w1 key w2 w3 v w4 tl).steps =
      (fuel + tl.steps + v.steps) + 1 by simp only [JsonMembers.steps]; omega,
      parse_json_loop_object_comma below vis lim pos s w1 key w2 _ hw1 hkey hw2 hstart
        (by omega)]
    by_cases hf : lim < below.length + 2 + v.height
    · exact value_run_throw v hval (object_frame s :: below) _ lim _
        w3 w4 (tl.render ++ 0x7D :: (ws ++ tail)) hw3 hw4 hdel hl
        (by simp only [List.length_cons]; omega) (by simp only [List.length_cons]; omega)
        (fuel + tl.steps)
    · rw [value_run v hval (object_frame s :: below) _ lim _
        w3 w4 (tl.render ++ 0x7D :: (ws ++ tail)) hw3 hw4 hdel
        (by simp only [List.length_cons]; omega) (fuel + tl.steps),
        loop_tail_continue _ _ _ (by simp) hne]
      exact members_run_throw tl htl below _ lim _ s ws tail (by omega) hws ht hl
        (by omega) (by omega) fuel
end

/-- A text of the grammar that holds a value deeper than the limit allows is refused with
the exception of `inc_depth`, decorated with the offset of the read position. -/
theorem parse_json_too_deep (t : JsonText) (ht : t.Valid) (p : JsonParserImpl)
    (hl : 0 < p.depth_limit_) (hd : p.depth_limit_ < 1 + t.value.height) :
    ∃ s, parse_json p t.render =
      .throw (json_parse_error
        ("Maximum JSON nesting depth (" ++ toString p.depth_limit_ ++ ") reached" ++
          " (offset=" ++ toString s.2.pos ++ ")")) s := by
  obtain ⟨ws1, v, ws2⟩ := t
  obtain ⟨h1, hv, h2⟩ := ht
  obtain ⟨st, vis, lim⟩ := p
  simp only [JsonText.render] at *
  have hsteps := value_steps_le v hv
  obtain ⟨s, hrun⟩ := value_run_throw v hv [] vis lim 0 ws1 ws2 [] h1 h2 (HeadIs.nil _) hl
    (by simp only [List.length_nil]; omega) (by simpa using hd)
    ((ws1 ++ (v.render ++ ws2)).length + 1 - v.steps)
  have hfuel : (ws1 ++ (v.render ++ ws2)).length + 1 - v.steps + v.steps =
      (ws1 ++ (v.render ++ ws2)).length + 1 := by
    simp only [List.length_append]
    omega
  rw [hfuel] at hrun
  simp only [List.append_nil] at hrun
  have hinc := inc_depth_ok [] vis lim ⟨0, ws1 ++ (v.render ++ ws2)⟩ (by
    right; simp only [List.length_nil]; omega)
  refine ⟨s, ?_⟩
  simp only [parse_json, hinc, Res.bind_ok, hrun, Res.bind_throw]
  simp [json_parse_error, String.append_assoc]

end flumps


namespace flumps

/-! ## Depth of the values of a text -/

mutual
theorem value_depths_le : ∀ (v : JsonValue) (d k : Nat), k ∈ v.depths d → k ≤ d + v.height
  | .primitive _ _, d, k, h => by simp [JsonValue.depths] at h; omega
  | .empty_array _, d, k, h => by simp [JsonValue.depths] at h; omega
  | .empty_object _, d, k, h => by simp [JsonValue.depths] at h; omega
  | .array _ v _ more, d, k, h => by
    simp only [JsonValue.depths, List.mem_cons, List.mem_append] at h
    simp only [JsonValue.height]
    rcases h with h | h | h
    · omega
    · have := value_depths_le v (d + 1) k h; omega
    · have := elements_depths_le more (d + 1) k h; omega
  | .object _ _ _ _ v _ more, d, k, h => by
    simp only [JsonValue.depths, List.mem_cons, List.mem_append] at h
    simp only [JsonValue.height]
    rcases h with h | h | h
    · omega
    · have := value_depths_le v (d + 1) k h; omega
    · have := members_depths_le more (d + 1) k h; omega
theorem elements_depths_le : ∀ (es : JsonElements) (d k : Nat),
    k ∈ es.depths d → k ≤ d + es.height
  | .nil, d, k, h => by simp [JsonElements.depths] at h
  | .cons _ v _ tl, d, k, h => by
    simp only [JsonElements.depths, List.mem_append] at h
    simp only [JsonElements.height]
    rcases h with h | h
    · have := value_depths_le v d k h; omega
    · have := elements_depths_le tl d k h; omega
theorem members_depths_le : ∀ (ms : JsonMembers) (d k : Nat),
    k ∈ ms.depths d → k ≤ d + ms.height
  | .nil, d, k, h => by simp [JsonMembers.depths] at h
  | .cons _ _ _ _ v _ tl, d, k, h => by
    simp only [JsonMembers.depths, List.mem_append] at h
    simp only [JsonMembers.height]
    rcases h with h | h
    · have := value_depths_le v d k h; omega
    · have := members_depths_le tl d k h; omega
end

mutual
theorem value_height_mem_depths : ∀ (v : JsonValue) (d : Nat), d + v.height ∈ v.depths d
  | .primitive _ _, d => by simp [JsonValue.depths, JsonValue.height]
  | .empty_array _, d => by simp [JsonValue.depths, JsonValue.height]
  | .empty_object _, d => by simp [JsonValue.depths, JsonValue.height]
  | .array _ v _ more, d => by
    simp only [JsonValue.depths, JsonValue.height, List.mem_cons, List.mem_append]
    have h1 := value_height_mem_depths v (d + 1)
    rcases elements_height_mem_depths more (d + 1) with h2 | h2
    · rw [h2.1]
      exact Or.inr (Or.inl (by rw [show d + (1 + max v.height 0) = d + 1 + v.height by simp; omega]; exact h1))
    · rcases Nat.le_total v.height more.height with h | h
      · rw [show d + (1 + max v.height more.height) = d + 1 + more.height by
          rw [Nat.max_eq_right h]; omega]
        exact Or.inr (Or.inr h2)
      · rw [show d + (1 + max v.height more.height) = d + 1 + v.height by
          rw [Nat.max_eq_left h]; omega]
        exact Or.inr (Or.inl h1)
  | .object _ _ _ _ v _ more, d => by
    simp only [JsonValue.depths, JsonValue.height, List.mem_cons, List.mem_append]
    have h1 := value_height_mem_depths v (d + 1)
    rcases members_height_mem_depths more (d + 1) with h2 | h2
    · rw [h2.1]
      exact Or.inr (Or.inl (by rw [show d + (1 + max v.height 0) = d + 1 + v.height by simp; omega]; exact h1))
    · rcases Nat.le_total v.height more.height with h | h
      · rw [show d + (1 + max v.height more.height) = d + 1 + more.height by
          rw [Nat.max_eq_right h]; omega]
        exact Or.inr (Or.inr h2)
      · rw [show d + (1 + max v.height more.height) = d + 1 + v.height by
          rw [Nat.max_eq_left h]; omega]
        exact Or.inr (Or.inl h1)
theorem elements_height_mem_depths : ∀ (es : JsonElements) (d : Nat),
    (es.height = 0 ∧ es.depths d = [] ) ∨ d + es.height ∈ es.depths d
  | .nil, d => by simp [JsonElements.depths, JsonElements.height]
  | .cons _ v _ tl, d => by
    right
    simp only [JsonElements.depths, JsonElements.height, List.mem_append]
    have h1 := value_height_mem_depths v d
    rcases elements_height_mem_depths tl d with h2 | h2
    · rw [h2.1]
      exact Or.inl (by simpa using h1)
    · rcases Nat.le_total v.height tl.height with h | h
      · rw [Nat.max_eq_right h]; exact Or.inr h2
      · rw [Nat.max_eq_left h]; exact Or.inl h1
theorem members_height_mem_depths : ∀ (ms : JsonMembers) (d : Nat),
    (ms.height = 0 ∧ ms.depths d = []) ∨ d + ms.height ∈ ms.depths d
  | .nil, d => by simp [JsonMembers.depths, JsonMembers.height]
  | .cons _ _ _ _ v _ tl, d => by
    right
    simp only [JsonMembers.depths, JsonMembers.height, List.mem_append]
    have h1 := value_height_mem_depths v d
    rcases members_height_mem_depths tl d with h2 | h2
    · rw [h2.1]
      exact Or.inl (by simpa using h1)
    · rcases Nat.le_total v.height tl.height with h | h
      · rw [Nat.max_eq_right h]; exact Or.inr h2
      · rw [Nat.max_eq_left h]; exact Or.inl h1
end

/-- A text holds a value at depth `L` or deeper exactly when its deepest value does. -/
theorem JsonValue.exists_depth_iff (v : JsonValue) (L : Nat) :
    (∃ k ∈ v.depths 0, L ≤ k) ↔ L ≤ v.height := by
  constructor
  · rintro ⟨k, hk, hL⟩
    have := value_depths_le v 0 k hk
    omega
  · intro h
    exact ⟨0 + v.height, value_height_mem_depths v 0, by omega⟩

mutual
theorem value_open_values_eq : ∀ (v : JsonValue), v.open_values = 1 + v.height
  | .primitive _ _ => rfl
  | .empty_array _ => rfl
  | .empty_object _ => rfl
  | .array _ v _ more => by
    have h1 := value_open_values_eq v
    have h2 := elements_open_values_eq more
    simp only [JsonValue.open_values, JsonValue.height]
    omega
  | .object _ _ _ _ v _ more => by
    have h1 := value_open_values_eq v
    have h2 := members_open_values_eq more
    simp only [JsonValue.open_values, JsonValue.height]
    omega
theorem elements_open_values_eq : ∀ (es : JsonElements),
    max 1 es.open_values = 1 + es.height
  | .nil => rfl
  | .cons _ v _ tl => by
    have h1 := value_open_values_eq v
    have h2 := elements_open_values_eq tl
    simp only [JsonElements.open_values, JsonElements.height]
    omega
theorem members_open_values_eq : ∀ (ms : JsonMembers),
    max 1 ms.open_values = 1 + ms.height
  | .nil => rfl
  | .cons _ _ _ _ v _ tl => by
    have h1 := value_open_values_eq v
    have h2 := members_open_values_eq tl
    simp only [JsonMembers.open_values, JsonMembers.height]
    omega
end

end flumps


namespace flumps

/-! ## What the lexers read on an arbitrary input -/

theorem Cursor.Reaches.refl (c : Cursor) : c.Reaches c := ⟨[], by simp, by simp⟩

theorem Cursor.Reaches.trans {a b c : Cursor} (h1 : a.Reaches b) (h2 : b.Reaches c) :
    a.Reaches c := by
  obtain ⟨t1, e1, p1⟩ := h1
  obtain ⟨t2, e2, p2⟩ := h2
  exact ⟨t1 ++ t2, by rw [e1, e2, List.append_assoc], by rw [p2, p1, List.length_append]; omega⟩

theorem Cursor.Reaches.of_next (p b : Nat) (r : Bytes) :
    (Cursor.mk p (b :: r)).Reaches ⟨p + 1, r⟩ := ⟨[b], rfl, rfl⟩

theorem Cursor.Reaches.of_append (p : Nat) (t r : Bytes) :
    (Cursor.mk p (t ++ r)).Reaches ⟨p + t.length, r⟩ := ⟨t, rfl, rfl⟩

/-- A call that reads nothing and returns. -/
theorem Res.Consumes.consumes_ok_nil {α : Type} {P : α → Bytes → Prop} (a : α) (c : Cursor)
    (h : P a []) : (Res.ok a c).Consumes c P := ⟨[], by simp, by simp, h⟩

theorem Res.Consumes.consumes_mono {α : Type} {P Q : α → Bytes → Prop} {r : Res Cursor α} {c : Cursor}
    (h : r.Consumes c P) (hpq : ∀ a t, P a t → Q a t) : r.Consumes c Q := by
  cases r with
  | ok a c' =>
    obtain ⟨t, h1, h2, h3⟩ := h
    exact ⟨t, h1, h2, hpq a t h3⟩
  | throw e c' => exact h
  | fuel => exact h

/-- Sequencing of two calls: the bytes read are those of the first followed by those of
the second. -/
theorem Res.Consumes.consumes_bind {α β : Type} {P : α → Bytes → Prop} {Q : β → Bytes → Prop}
    {r : Res Cursor α} {c : Cursor} {f : α → Cursor → Res Cursor β} (h : r.Consumes c P)
    (hf : ∀ a c1 t, P a t → (f a c1).Consumes c1 fun b t' => Q b (t ++ t')) :
    (r.bind f).Consumes c Q := by
  cases r with
  | ok a c1 =>
    obtain ⟨t, h1, h2, h3⟩ := h
    have := hf a c1 t h3
    simp only [Res.bind_ok]
    cases hr : f a c1 with
    | ok b c2 =>
      rw [hr] at this
      obtain ⟨t', g1, g2, g3⟩ := this
      exact ⟨t ++ t', by rw [h1, g1, List.append_assoc],
        by rw [g2, h2, List.length_append]; omega, g3⟩
    | throw e c2 =>
      rw [hr] at this
      exact Cursor.Reaches.trans ⟨t, h1, h2⟩ this
    | fuel => rw [hr] at this; exact this
  | throw e c1 => exact h
  | fuel => exact h

/-- A call made after the bytes `t` were read from `c`. -/
theorem Res.Consumes.consumes_after {α : Type} {Q : α → Bytes → Prop} {r : Res Cursor α}
    {c : Cursor} (c1 : Cursor) (t : Bytes) (h1 : c.rest = t ++ c1.rest) (h2 : c1.pos = c.pos + t.length)
    (h : r.Consumes c1 fun a t' => Q a (t ++ t')) : r.Consumes c Q := by
  cases r with
  | ok b c2 =>
    obtain ⟨t', g1, g2, g3⟩ := h
    exact ⟨t ++ t', by rw [h1, g1, List.append_assoc],
      by rw [g2, h2, List.length_append]; omega, g3⟩
  | throw e c2 => exact Cursor.Reaches.trans ⟨t, h1, h2⟩ h
  | fuel => exact h

/-- A throw at a position reached from `c`. -/
theorem Res.Consumes.consumes_throw_at {α : Type} {P : α → Bytes → Prop} (e : DecodeError)
    {c c' : Cursor} (h : c.Reaches c') : (Res.throw e c' : Res Cursor α).Consumes c P := h

theorem chomp_whitespace_from_spec (rest : Bytes) (p : Nat) :
    ∃ ws, IsWhitespace ws ∧ rest = ws ++ (chomp_whitespace_from p rest).rest ∧
      (chomp_whitespace_from p rest).pos = p + ws.length ∧
      HeadIs (fun b => is_whitespace b = false) (chomp_whitespace_from p rest).rest := by
  induction rest generalizing p with
  | nil => exact ⟨[], isWhitespace_nil, rfl, rfl, HeadIs.nil _⟩
  | cons b r ih =>
    by_cases hb : is_whitespace b = true
    · obtain ⟨ws, h1, h2, h3, h4⟩ := ih (p + 1)
      refine ⟨b :: ws, ?_, ?_, ?_, ?_⟩
      · intro x hx
        rcases List.mem_cons.1 hx with rfl | hx
        · exact hb
        · exact h1 x hx
      · simp only [chomp_whitespace_from, hb, if_true, List.cons_append]
        rw [← h2]
      · simp only [chomp_whitespace_from, hb, if_true, h3, List.length_cons]
        omega
      · simpa only [chomp_whitespace_from, hb, if_true] using h4
    · refine ⟨[], isWhitespace_nil, ?_, ?_, ?_⟩
      · simp [chomp_whitespace_from, hb]
      · simp [chomp_whitespace_from, hb]
      · simp only [chomp_whitespace_from, hb]
        exact HeadIs.cons _ (by simpa using hb)

/-- `chomp_whitespace` reads whitespace and stops before a byte that is not whitespace. -/
theorem chomp_whitespace_spec (c : Cursor) :
    ∃ ws, IsWhitespace ws ∧ c.rest = ws ++ (chomp_whitespace c).rest ∧
      (chomp_whitespace c).pos = c.pos + ws.length ∧
      HeadIs (fun b => is_whitespace b = false) (chomp_whitespace c).rest :=
  chomp_whitespace_from_spec c.rest c.pos

theorem isDigits_nil : IsDigits [] := by
  intro d hd
  cases hd

theorem chomp_digits_from_spec (rest : Bytes) (p : Nat) :
    ∃ ds, IsDigits ds ∧ rest = ds ++ (chomp_digits_from p rest).rest ∧
      (chomp_digits_from p rest).pos = p + ds.length := by
  induction rest generalizing p with
  | nil => exact ⟨[], isDigits_nil, rfl, rfl⟩
  | cons b r ih =>
    by_cases hb : is_dec b = true
    · obtain ⟨ws, h1, h2, h3⟩ := ih (p + 1)
      refine ⟨b :: ws, ?_, ?_, ?_⟩
      · intro x hx
        rcases List.mem_cons.1 hx with rfl | hx
        · exact hb
        · exact h1 x hx
      · simp only [chomp_digits_from, hb, if_true, List.cons_append]
        rw [← h2]
      · simp only [chomp_digits_from, hb, if_true, h3, List.length_cons]
        omega
    · exact ⟨[], isDigits_nil, by simp [chomp_digits_from, hb],
        by simp [chomp_digits_from, hb]⟩

theorem chomp_digits_spec (c : Cursor) :
    ∃ ds, IsDigits ds ∧ c.rest = ds ++ (chomp_digits c).rest ∧
      (chomp_digits c).pos = c.pos + ds.length :=
  chomp_digits_from_spec c.rest c.pos

/-- The digits read by `chomp_digits` after one digit `d`. -/
theorem chomp_digits_after (p d : Nat) (r : Bytes) :
    ∃ ds, IsDigits ds ∧ d :: r = (d :: ds) ++ (chomp_digits ⟨p + 1, r⟩).rest ∧
      (chomp_digits ⟨p + 1, r⟩).pos = p + (d :: ds).length := by
  obtain ⟨ds, h1, h2, h3⟩ := chomp_digits_spec ⟨p + 1, r⟩
  refine ⟨ds, h1, ?_, ?_⟩
  · simp only [List.cons_append]
    rw [← h2]
  · rw [h3]
    simp only [List.length_cons]
    omega

theorem parse_number_exponent_consumes (c : Cursor) :
    (parse_number_exponent c).Consumes c fun _ t => IsExp t := by
  obtain ⟨p, rest⟩ := c
  cases rest with
  | nil =>
    have e : parse_number_exponent ⟨p, []⟩ = .ok () ⟨p, []⟩ := by
      simp [parse_number_exponent, Cursor.peek]
    rw [e]
    exact Res.Consumes.consumes_ok_nil _ _ (Or.inl rfl)
  | cons b r =>
    by_cases hb : b = 0x65 ∨ b = 0x45
    swap
    · have e : parse_number_exponent ⟨p, b :: r⟩ = .ok () ⟨p, b :: r⟩ := by
        simp [parse_number_exponent, hb]
      rw [e]
      exact Res.Consumes.consumes_ok_nil _ _ (Or.inl rfl)
    cases r with
    | nil =>
      have e : parse_number_exponent ⟨p, [b]⟩ =
          .throw (json_parse_error "End of data: no exponent following 'e'") ⟨p + 1, []⟩ := by
        simp [parse_number_exponent, hb]
      rw [e]
      exact Cursor.Reaches.of_next p b []
    | cons s r2 =>
      by_cases hs : s = 0x2D ∨ s = 0x2B
      · cases r2 with
        | nil =>
          have e : parse_number_exponent ⟨p, [b, s]⟩ =
              .throw (json_parse_error "End of data: no exponent digit following 'e(+|-|)'")
                ⟨p + 1 + 1, []⟩ := by
            simp [parse_number_exponent, hb, hs]
          rw [e]
          exact ⟨[b, s], rfl, rfl⟩
        | cons d r3 =>
          by_cases hd : is_dec d = true
          · have e : parse_number_exponent ⟨p, b :: s :: d :: r3⟩ =
                .ok () (chomp_digits ⟨p + 1 + 1 + 1, r3⟩) := by
              simp [parse_number_exponent, hb, hs, hd]
            rw [e]
            obtain ⟨ds, g1, g2, g3⟩ := chomp_digits_after (p + 1 + 1) d r3
            refine ⟨b :: s :: d :: ds, ?_, ?_, ?_⟩
            · simp only [List.cons_append] at g2 ⊢
              rw [← g2]
            · rw [g3]; simp only [List.length_cons]; omega
            · refine Or.inr ⟨b, [s], d, ds, rfl, hb, ?_, hd, g1⟩
              rcases hs with rfl | rfl
              · exact Or.inr (Or.inl rfl)
              · exact Or.inr (Or.inr rfl)
          · have e : parse_number_exponent ⟨p, b :: s :: d :: r3⟩ =
                .throw (json_parse_error "Invalid: digit expected following 'e(+|-|)'")
                  ⟨p + 1 + 1, d :: r3⟩ := by
              simp [parse_number_exponent, hb, hs, hd]
            rw [e]
            exact ⟨[b, s], rfl, rfl⟩
      · by_cases hd : is_dec s = true
        · have e : parse_number_exponent ⟨p, b :: s :: r2⟩ =
              .ok () (chomp_digits ⟨p + 1 + 1, r2⟩) := by
            simp [parse_number_exponent, hb, hs, hd]
          rw [e]
          obtain ⟨ds, g1, g2, g3⟩ := chomp_digits_after (p + 1) s r2
          refine ⟨b :: s :: ds, ?_, ?_, ?_⟩
          · simp only [List.cons_append] at g2 ⊢
            rw [← g2]
          · rw [g3]; simp only [List.length_cons]; omega
          · exact Or.inr ⟨b, [], s, ds, rfl, hb, Or.inl rfl, hd, g1⟩
        · have e : parse_number_exponent ⟨p, b :: s :: r2⟩ =
              .throw (json_parse_error "Invalid: digit expected following 'e(+|-|)'")
                ⟨p + 1, s :: r2⟩ := by
            simp [parse_number_exponent, hb, hs, hd]
          rw [e]
          exact ⟨[b], rfl, rfl⟩

theorem parse_number_fraction_consumes (c : Cursor) :
    (parse_number_fraction c).Consumes c fun _ t => ∃ f e, t = f ++ e ∧ IsFrac f ∧ IsExp e := by
  obtain ⟨p, rest⟩ := c
  have hexp : ∀ c1 : Cursor, (if c1.rest = [] then Res.ok () c1
      else parse_number_exponent c1).Consumes c1 fun _ t => IsExp t := by
    intro c1
    split_ifs
    · exact Res.Consumes.consumes_ok_nil _ _ (Or.inl rfl)
    · exact parse_number_exponent_consumes c1
  cases rest with
  | nil =>
    have e : parse_number_fraction ⟨p, []⟩ = .ok () ⟨p, []⟩ := by simp [parse_number_fraction]
    rw [e]
    exact Res.Consumes.consumes_ok_nil _ _ ⟨[], [], rfl, Or.inl rfl, Or.inl rfl⟩
  | cons b r =>
    by_cases hb : b = 0x2E
    swap
    · have e : parse_number_fraction ⟨p, b :: r⟩ = parse_number_exponent ⟨p, b :: r⟩ := by
        simp [parse_number_fraction, hb]
      rw [e]
      exact (parse_number_exponent_consumes _).consumes_mono fun _ t ht => ⟨[], t, rfl, Or.inl rfl, ht⟩
    subst hb
    cases r with
    | nil =>
      have e : parse_number_fraction ⟨p, [0x2E]⟩ =
          .throw (json_parse_error "End of data: no digits following decimal point")
            ⟨p + 1, []⟩ := by
        simp [parse_number_fraction]
      rw [e]
      exact Cursor.Reaches.of_next p _ []
    | cons d r2 =>
      by_cases hd : is_dec d = true
      · have e : parse_number_fraction ⟨p, 0x2E :: d :: r2⟩ =
            (if (chomp_digits ⟨p + 1 + 1, r2⟩).rest = [] then
              Res.ok () (chomp_digits ⟨p + 1 + 1, r2⟩)
            else parse_number_exponent (chomp_digits ⟨p + 1 + 1, r2⟩)) := by
          simp [parse_number_fraction, hd]
        rw [e]
        obtain ⟨ds, g1, g2, g3⟩ := chomp_digits_after (p + 1) d r2
        refine Res.Consumes.consumes_after _ (0x2E :: d :: ds) (by
          simp only [List.cons_append] at g2 ⊢
          rw [← g2]) (by rw [g3]; simp only [List.length_cons]; omega) ?_
        exact (hexp _).consumes_mono fun _ t ht =>
          ⟨0x2E :: d :: ds, t, rfl, Or.inr ⟨d, ds, rfl, hd, g1⟩, ht⟩
      · have e : parse_number_fraction ⟨p, 0x2E :: d :: r2⟩ =
            .throw (json_parse_error "Invalid: digit expected following decimal point")
              ⟨p + 1, d :: r2⟩ := by
          simp [parse_number_fraction, hd]
        rw [e]
        exact Cursor.Reaches.of_next p _ _

/-- `parse_number` returns only after reading a number of the grammar. -/
theorem parse_number_consumes (c : Cursor) :
    (parse_number c).Consumes c fun _ t => IsNumber t := by
  obtain ⟨p, rest⟩ := c
  -- the part after the sign
  have hint : ∀ (q : Nat) (r : Bytes),
      (if (!is_dec (Cursor.mk q r).peek) = true then
          (Res.throw (json_parse_error "Invalid: non-decimal in integer part") ⟨q, r⟩ :
            Res Cursor Unit)
        else parse_number_fraction
          (if (Cursor.mk q r).peek = 0x30 then (Cursor.mk q r).next
           else chomp_digits (Cursor.mk q r).next)).Consumes ⟨q, r⟩
        fun _ t => ∃ i f e, t = i ++ (f ++ e) ∧ IsInt i ∧ IsFrac f ∧ IsExp e := by
    intro q r
    cases r with
    | nil => simpa [Cursor.peek, is_dec] using Cursor.Reaches.refl ⟨q, []⟩
    | cons d r2 =>
      by_cases hd : is_dec d = true
      swap
      · simpa [hd] using Cursor.Reaches.refl ⟨q, d :: r2⟩
      simp only [Cursor.peek_cons, hd, Bool.not_true, Bool.false_eq_true, if_false,
        Cursor.next_cons]
      by_cases h0 : d = 0x30
      · subst h0
        simp only [if_true]
        refine Res.Consumes.consumes_after ⟨q + 1, r2⟩ [0x30] rfl rfl ?_
        exact (parse_number_fraction_consumes _).consumes_mono fun _ t ⟨f, e, ht, hf, he⟩ =>
          ⟨[0x30], f, e, by rw [ht], Or.inl rfl, hf, he⟩
      · simp only [h0, if_false]
        obtain ⟨ds, g1, g2, g3⟩ := chomp_digits_after q d r2
        refine Res.Consumes.consumes_after _ (d :: ds) g2 g3 ?_
        refine (parse_number_fraction_consumes _).consumes_mono fun _ t ⟨f, e, ht, hf, he⟩ =>
          ⟨d :: ds, f, e, by rw [ht], Or.inr ⟨d, ds, rfl, ?_, ?_, g1⟩, hf, he⟩
        · simp only [is_dec, Bool.and_eq_true, decide_eq_true_eq] at hd; omega
        · simp only [is_dec, Bool.and_eq_true, decide_eq_true_eq] at hd; omega
  cases rest with
  | nil => simpa [parse_number, Cursor.peek, is_dec] using Cursor.Reaches.refl ⟨p, []⟩
  | cons b r =>
    by_cases hb : b = 0x2D
    · subst hb
      cases r with
      | nil =>
        simpa [parse_number] using Cursor.Reaches.of_next p 0x2D []
      | cons d r2 =>
        have e : parse_number ⟨p, 0x2D :: d :: r2⟩ =
            (if (!is_dec (Cursor.mk (p + 1) (d :: r2)).peek) = true then
              (Res.throw (json_parse_error "Invalid: non-decimal in integer part")
                ⟨p + 1, d :: r2⟩ : Res Cursor Unit)
            else parse_number_fraction
              (if (Cursor.mk (p + 1) (d :: r2)).peek = 0x30 then (Cursor.mk (p + 1) (d :: r2)).next
               else chomp_digits (Cursor.mk (p + 1) (d :: r2)).next)) := by
          simp [parse_number]
        rw [e]
        refine Res.Consumes.consumes_after ⟨p + 1, d :: r2⟩ [0x2D] rfl rfl ?_
        exact (hint (p + 1) (d :: r2)).consumes_mono fun _ t ⟨i, f, e, ht, hi, hf, he⟩ =>
          ⟨[0x2D], i, f, e, by rw [ht], Or.inr rfl, hi, hf, he⟩
    · have e : parse_number ⟨p, b :: r⟩ =
          (if (!is_dec (Cursor.mk p (b :: r)).peek) = true then
            (Res.throw (json_parse_error "Invalid: non-decimal in integer part")
              ⟨p, b :: r⟩ : Res Cursor Unit)
          else parse_number_fraction
            (if (Cursor.mk p (b :: r)).peek = 0x30 then (Cursor.mk p (b :: r)).next
             else chomp_digits (Cursor.mk p (b :: r)).next)) := by
        simp [parse_number, hb]
      rw [e]
      exact (hint p (b :: r)).consumes_mono fun _ t ⟨i, f, e, ht, hi, hf, he⟩ =>
        ⟨[], i, f, e, by rw [ht]; rfl, Or.inl rfl, hi, hf, he⟩

end flumps


namespace flumps

/-! ## What `parse_string` reads on an arbitrary input -/

/-- Sequencing of two calls, the second knowing where the first has stopped. -/
theorem Res.Consumes.consumes_bind_at {α β : Type} {P : α → Bytes → Prop} {Q : β → Bytes → Prop}
    {r : Res Cursor α} {c : Cursor} {f : α → Cursor → Res Cursor β} (h : r.Consumes c P)
    (hf : ∀ a c1 t, c.rest = t ++ c1.rest → c1.pos = c.pos + t.length → P a t →
      (f a c1).Consumes c1 fun b t' => Q b (t ++ t')) :
    (r.bind f).Consumes c Q := by
  cases r with
  | ok a c1 =>
    obtain ⟨t, h1, h2, h3⟩ := h
    exact Res.Consumes.consumes_after c1 t h1 h2 (by simpa only [Res.bind_ok] using hf a c1 t h1 h2 h3)
  | throw e c1 => exact h
  | fuel => exact h

theorem continuation_byte_ge (b : Nat) (h : ¬ (b &&& 0xC0 ≠ 0x80)) : 0x80 ≤ b := by
  have h1 : b &&& 0xC0 = 0x80 := not_not.1 h
  have h2 : b &&& 0xC0 ≤ b := Nat.and_le_left
  omega

theorem chomp_utf8_continuation_consumes (k : Nat) : ∀ (cp : Nat) (c : Cursor),
    (chomp_utf8_continuation k cp c).Consumes c fun _ t => ∀ x ∈ t, 0x80 ≤ x := by
  induction k with
  | zero =>
    intro cp c
    exact Res.Consumes.consumes_ok_nil _ _ (by intro x hx; cases hx)
  | succ k ih =>
    intro cp c
    obtain ⟨p, rest⟩ := c
    cases rest with
    | nil =>
      have e : chomp_utf8_continuation (k + 1) cp ⟨p, []⟩ =
          .throw ⟨.Utf8DecodeError, "Invalid: multi-byte utf-8 byte invalid"⟩ ⟨p, []⟩ := by
        simp [chomp_utf8_continuation, Cursor.peek]
      rw [e]
      exact Cursor.Reaches.refl _
    | cons b r =>
      by_cases hb : b &&& 0xC0 ≠ 0x80
      · have e : chomp_utf8_continuation (k + 1) cp ⟨p, b :: r⟩ =
            .throw ⟨.Utf8DecodeError, "Invalid: multi-byte utf-8 byte invalid"⟩ ⟨p, b :: r⟩ := by
          simp only [chomp_utf8_continuation, Cursor.peek_cons]
          rw [if_pos hb]
        rw [e]
        exact Cursor.Reaches.refl _
      · have e : chomp_utf8_continuation (k + 1) cp ⟨p, b :: r⟩ =
            chomp_utf8_continuation k ((cp <<< 6) ||| (b &&& 0x3F)) ⟨p + 1, r⟩ := by
          simp only [chomp_utf8_continuation, Cursor.peek_cons]
          rw [if_neg hb, Cursor.next_cons]
        rw [e]
        refine Res.Consumes.consumes_after ⟨p + 1, r⟩ [b] rfl rfl ?_
        refine (ih _ _).consumes_mono fun _ t ht x hx => ?_
        rcases List.mem_cons.1 hx with rfl | hx
        · exact continuation_byte_ge _ hb
        · exact ht x hx

/-- On a present byte `chomp_utf8_char` reads that byte and continuation bytes. -/
theorem chomp_utf8_char_consumes (p b : Nat) (r : Bytes) :
    (chomp_utf8_char ⟨p, b :: r⟩).Consumes ⟨p, b :: r⟩
      fun _ t => ∃ t', t = b :: t' ∧ ∀ x ∈ t', 0x80 ≤ x := by
  unfold chomp_utf8_char
  refine Res.Consumes.consumes_bind (P := fun _ t => ∃ t', t = b :: t' ∧ ∀ x ∈ t', 0x80 ≤ x) ?_ ?_
  · simp only []
    cases hl : utf8_lead b with
    | none => exact Cursor.Reaches.refl _
    | some ck =>
      obtain ⟨code_point, k⟩ := ck
      simp only [Cursor.next_cons]
      split_ifs with hlen
      · exact Cursor.Reaches.of_next p b r
      · refine Res.Consumes.consumes_after ⟨p + 1, r⟩ [b] rfl rfl ?_
        exact (chomp_utf8_continuation_consumes k code_point _).consumes_mono fun _ t ht => ⟨t, rfl, ht⟩
  · intro a c1 t ht
    cases code_point_type a with
    | error e => exact Cursor.Reaches.refl _
    | ok ty =>
      simp only []
      split_ifs
      · exact Cursor.Reaches.refl _
      · exact Res.Consumes.consumes_ok_nil _ _ (by simpa using ht)

theorem json_hex_seq_to_code_point_consumes (c : Cursor) :
    (json_hex_seq_to_code_point c).Consumes c fun _ t => ∃ d1 d2 d3 d4, t = [d1, d2, d3, d4] ∧
      is_hex d1 = true ∧ is_hex d2 = true ∧ is_hex d3 = true ∧ is_hex d4 = true := by
  obtain ⟨p, rest⟩ := c
  unfold json_hex_seq_to_code_point
  split_ifs with hlen
  · exact Cursor.Reaches.refl _
  · rcases rest with _ | ⟨d1, _ | ⟨d2, _ | ⟨d3, _ | ⟨d4, r⟩⟩⟩⟩
    · simp at hlen
    · simp at hlen
    · simp at hlen
    · simp at hlen
    · by_cases h1 : is_hex d1 = true
      swap
      · simpa [json_hex_seq_loop, h1] using Cursor.Reaches.refl ⟨p, d1 :: d2 :: d3 :: d4 :: r⟩
      by_cases h2 : is_hex d2 = true
      swap
      · simpa [json_hex_seq_loop, h1, h2] using
          Cursor.Reaches.of_append p [d1] (d2 :: d3 :: d4 :: r)
      by_cases h3 : is_hex d3 = true
      swap
      · simpa [json_hex_seq_loop, h1, h2, h3] using
          Cursor.Reaches.of_append p [d1, d2] (d3 :: d4 :: r)
      by_cases h4 : is_hex d4 = true
      swap
      · simpa [json_hex_seq_loop, h1, h2, h3, h4] using
          Cursor.Reaches.of_append p [d1, d2, d3] (d4 :: r)
      have e : json_hex_seq_loop 4 3 0 ⟨p, d1 :: d2 :: d3 :: d4 :: r⟩ =
          .ok (0 + (hex_to_dec d1 <<< (3 * 4)) + (hex_to_dec d2 <<< ((3 - 1) * 4)) +
            (hex_to_dec d3 <<< ((3 - 1 - 1) * 4)) + (hex_to_dec d4 <<< ((3 - 1 - 1 - 1) * 4)))
            ⟨p + 1 + 1 + 1 + 1, r⟩ := by
        simp [json_hex_seq_loop, h1, h2, h3, h4]
      rw [e]
      exact ⟨[d1, d2, d3, d4], rfl, rfl, d1, d2, d3, d4, rfl, h1, h2, h3, h4⟩

theorem IsStringShape.high_append (t rest : Bytes) (ht : ∀ x ∈ t, 0x80 ≤ x)
    (h : IsStringShape rest) : IsStringShape (t ++ rest) := by
  induction t with
  | nil => exact h
  | cons b t ih =>
    have hb := ht b (List.mem_cons_self _ _)
    exact IsStringShape.raw b _ (by omega) (by omega) (by omega)
      (ih fun x hx => ht x (List.mem_cons_of_mem _ hx))

theorem IsStringShape.shape_append {s t : Bytes} (hs : IsStringShape s) (ht : IsStringShape t) :
    IsStringShape (s ++ t) := by
  induction hs with
  | nil => exact ht
  | raw b rest h1 h2 h3 _ ih => exact IsStringShape.raw b _ h1 h2 h3 ih
  | escape e rest h1 _ ih => exact IsStringShape.escape e _ h1 ih
  | hex d1 d2 d3 d4 rest h1 h2 h3 h4 _ ih => exact IsStringShape.hex d1 d2 d3 d4 _ h1 h2 h3 h4 ih

/-- One pass of the loop of `parse_string` reads one character of a string body. -/
theorem parse_string_body_consumes (sur : utf8_surrogate_checker) (last : Bool) (p b : Nat)
    (r : Bytes) (hq : b ≠ 0x22) :
    (parse_string_body sur last ⟨p, b :: r⟩).Consumes ⟨p, b :: r⟩
      fun _ t => t ≠ [] ∧ IsStringShape t := by
  unfold parse_string_body
  simp only [Cursor.peek_cons, Cursor.next_cons]
  by_cases hb : b = 0x5C
  · subst hb
    simp only [ne_eq, not_true_eq_false, if_false]
    cases r with
    | nil => simpa using Cursor.Reaches.of_next p 0x5C []
    | cons e r2 =>
      simp only [Cursor.peek_cons, Cursor.next_cons, reduceCtorEq, if_false]
      by_cases h1 : e ∉ escape_char
      · rw [if_pos h1]
        exact Cursor.Reaches.of_next p 0x5C _
      rw [if_neg h1]
      by_cases h2 : e = 0x75
      · subst h2
        simp only [ne_eq, not_true_eq_false, if_false]
        refine Res.Consumes.consumes_after ⟨p + 1 + 1, r2⟩ [0x5C, 0x75] rfl rfl ?_
        refine Res.Consumes.consumes_bind (json_hex_seq_to_code_point_consumes _) ?_
        rintro a c1 t ⟨d1, d2, d3, d4, rfl, g1, g2, g3, g4⟩
        cases sur.check_code_point a with
        | error err => exact Cursor.Reaches.refl _
        | ok v =>
          exact Res.Consumes.consumes_ok_nil _ _
            ⟨by simp, IsStringShape.hex d1 d2 d3 d4 [] g1 g2 g3 g4 IsStringShape.nil⟩
      · rw [if_pos h2]
        refine ⟨[0x5C, e], rfl, rfl, by simp, IsStringShape.escape e [] ?_ IsStringShape.nil⟩
        simp only [escape_char, List.mem_cons, List.mem_singleton, not_or, not_and,
          not_not, List.not_mem_nil, or_false] at h1 ⊢
        tauto
  · simp only [ne_eq, hb, not_false_eq_true, if_true]
    split_ifs with h1
    · exact Cursor.Reaches.refl _
    · refine Res.Consumes.consumes_bind (chomp_utf8_char_consumes p b r) ?_
      rintro a c1 t ⟨t', rfl, ht'⟩
      refine Res.Consumes.consumes_ok_nil _ _ ⟨by simp, ?_⟩
      rw [List.append_nil]
      have := IsStringShape.high_append t' [] ht' IsStringShape.nil
      rw [List.append_nil] at this
      exact IsStringShape.raw b _ (by omega) hq hb this

/-- The loop of `parse_string` ends, having read the body of a string. -/
theorem parse_string_loop_consumes (fuel : Nat) : ∀ (sur : utf8_surrogate_checker)
    (last : Bool) (c : Cursor), c.rest.length < fuel →
    (parse_string_loop fuel sur last c).Consumes c fun _ t => IsStringShape t := by
  induction fuel with
  | zero => intro sur last c h; omega
  | succ fuel ih =>
    intro sur last c hlen
    obtain ⟨p, rest⟩ := c
    cases rest with
    | nil =>
      simpa [parse_string_loop] using
        Res.Consumes.consumes_ok_nil (P := fun _ t => IsStringShape t) sur ⟨p, []⟩ IsStringShape.nil
    | cons b r =>
      by_cases hq : b = 0x22
      · simpa [parse_string_loop, hq] using
          Res.Consumes.consumes_ok_nil (P := fun _ t => IsStringShape t) sur ⟨p, 0x22 :: r⟩
            IsStringShape.nil
      · rw [parse_string_loop]
        rw [if_neg (by simp [hq])]
        refine Res.Consumes.consumes_bind_at (parse_string_body_consumes sur last p b r hq) ?_
        rintro ⟨sur1, last1⟩ c1 t h1 h2 ⟨hne, hs⟩
        have hl : c1.rest.length < fuel := by
          have := congrArg List.length h1
          simp only [List.length_cons, List.length_append] at this hlen
          have : 0 < t.length := List.length_pos.2 hne
          omega
        simp only []
        split_ifs
        · cases sur1.check_code_point 0 with
          | error err => exact Cursor.Reaches.refl _
          | ok v => exact (ih _ _ _ hl).consumes_mono fun _ t' ht' => hs.shape_append ht'
        · exact (ih _ _ _ hl).consumes_mono fun _ t' ht' => hs.shape_append ht'

/-- Where the loop of `parse_string` stops: at the end of the data or before a quote. -/
theorem parse_string_loop_stops (fuel : Nat) : ∀ (sur : utf8_surrogate_checker)
    (last : Bool) (c : Cursor) (s : utf8_surrogate_checker) (c' : Cursor),
    parse_string_loop fuel sur last c = .ok s c' → c'.rest = [] ∨ c'.peek = 0x22 := by
  induction fuel with
  | zero => intro sur last c s c' h; simp [parse_string_loop] at h
  | succ fuel ih =>
    intro sur last c s c' h
    rw [parse_string_loop] at h
    split_ifs at h with h0
    · cases h; exact h0
    · cases hb : parse_string_body sur last c with
      | ok a c1 =>
        obtain ⟨sur1, last1⟩ := a
        rw [hb] at h
        simp only [Res.bind_ok] at h
        split_ifs at h
        · cases hc : sur1.check_code_point 0 with
          | error err => rw [hc] at h; cases h
          | ok v => rw [hc] at h; exact ih _ _ _ _ _ h
        · exact ih _ _ _ _ _ h
      | throw err c1 => rw [hb] at h; cases h
      | fuel => rw [hb] at h; cases h

/-- Entered on a quote, `parse_string` returns only after a string of the grammar. -/
theorem parse_string_consumes (p : Nat) (r : Bytes) :
    (parse_string ⟨p, 0x22 :: r⟩).Consumes ⟨p, 0x22 :: r⟩
      fun _ t => ∃ content, t = 0x22 :: (content ++ [0x22]) ∧ IsStringShape content := by
  unfold parse_string
  simp only [Cursor.next_cons]
  have hc := parse_string_loop_consumes (r.length + 1) {} false ⟨p + 1, r⟩ (Nat.lt_succ_self _)
  cases hl : parse_string_loop (r.length + 1) {} false ⟨p + 1, r⟩ with
  | ok sur c1 =>
    rw [hl] at hc
    obtain ⟨t, h1, h2, h3⟩ := hc
    have hr : (Cursor.mk p (0x22 :: r)).Reaches c1 :=
      ⟨0x22 :: t, by simp only [List.cons_append]; rw [← h1],
        by rw [h2]; simp only [List.length_cons]; omega⟩
    simp only [Res.bind_ok]
    cases sur.check_code_point 0 with
    | error err => exact hr
    | ok v =>
      simp only []
      split_ifs with hnil
      · exact hr
      · obtain ⟨q, rest1⟩ := c1
        rcases parse_string_loop_stops _ _ _ _ _ _ hl with h | h
        · exact absurd h hnil
        · cases rest1 with
          | nil => exact absurd rfl hnil
          | cons b r1 =>
            simp only [Cursor.peek_cons] at h
            subst h
            simp only at h1 h2
            refine ⟨0x22 :: (t ++ [0x22]), ?_, ?_, t, rfl, h3⟩
            · simp only [Cursor.next_cons, List.cons_append, List.append_assoc,
                List.nil_append]
              rw [h1]
            · simp only [Cursor.next_cons, List.length_cons, List.length_append,
                List.length_nil, h2]
              omega
  | throw err c1 =>
    rw [hl] at hc
    exact Cursor.Reaches.trans (Cursor.Reaches.of_next p 0x22 r) hc
  | fuel => rw [hl] at hc; exact hc.elim

end flumps


namespace flumps

/-! ## One pass of the loop of `parse_json` on an arbitrary input -/

theorem Res.Steps.steps_mono {α : Type} {P Q : α → JsonParserImpl → Bytes → Prop}
    {r : Res ParseState α} {c : Cursor} (h : r.Steps c P)
    (hpq : ∀ a p t, P a p t → Q a p t) : r.Steps c Q := by
  cases r with
  | ok a s =>
    obtain ⟨t, h1, h2, h3⟩ := h
    exact ⟨t, h1, h2, hpq a _ t h3⟩
  | throw e s => exact h
  | fuel => exact h

theorem Res.Steps.steps_ok_nil {α : Type} {P : α → JsonParserImpl → Bytes → Prop} (a : α)
    (p : JsonParserImpl) (c : Cursor) (h : P a p []) : (Res.ok a (p, c)).Steps c P :=
  ⟨[], by simp, by simp, h⟩

/-- A lexer called by the parser leaves the parser as it is. -/
theorem Res.Steps.of_consumes {α : Type} {P : α → Bytes → Prop} {r : Res Cursor α}
    {c : Cursor} (p : JsonParserImpl) (h : r.Consumes c P) :
    (r.lift fun c2 => (p, c2)).Steps c fun a p' t => p' = p ∧ P a t := by
  cases r with
  | ok a c1 =>
    obtain ⟨t, h1, h2, h3⟩ := h
    exact ⟨t, h1, h2, rfl, h3⟩
  | throw e c1 => exact h
  | fuel => exact h

theorem Res.Steps.steps_after {α : Type} {Q : α → JsonParserImpl → Bytes → Prop}
    {r : Res ParseState α} {c : Cursor} (c1 : Cursor) (t : Bytes)
    (h1 : c.rest = t ++ c1.rest) (h2 : c1.pos = c.pos + t.length)
    (h : r.Steps c1 fun a p t' => Q a p (t ++ t')) : r.Steps c Q := by
  cases r with
  | ok b s =>
    obtain ⟨t', g1, g2, g3⟩ := h
    exact ⟨t ++ t', by rw [h1, g1, List.append_assoc],
      by rw [g2, h2, List.length_append]; omega, g3⟩
  | throw e s => exact Cursor.Reaches.trans ⟨t, h1, h2⟩ h
  | fuel => exact h

theorem Res.Steps.steps_bind_at {α β : Type} {P : α → JsonParserImpl → Bytes → Prop}
    {Q : β → JsonParserImpl → Bytes → Prop} {r : Res ParseState α} {c : Cursor}
    {f : α → ParseState → Res ParseState β} (h : r.Steps c P)
    (hf : ∀ a s t, c.rest = t ++ s.2.rest → s.2.pos = c.pos + t.length → P a s.1 t →
      (f a s).Steps s.2 fun b p t' => Q b p (t ++ t')) :
    (r.bind f).Steps c Q := by
  cases r with
  | ok a s =>
    obtain ⟨t, h1, h2, h3⟩ := h
    exact Res.Steps.steps_after s.2 t h1 h2 (by simpa only [Res.bind_ok] using hf a s t h1 h2 h3)
  | throw e s => exact h
  | fuel => exact h

/-- `inc_depth` pushes a fresh frame, or throws where it stands. -/
theorem inc_depth_steps (p : JsonParserImpl) (c : Cursor) :
    (inc_depth p c).Steps c fun _ p' t => t = [] ∧ p'.state_ = {} :: p.state_ := by
  unfold inc_depth
  simp only []
  split_ifs
  · exact Cursor.Reaches.refl c
  · exact Res.Steps.steps_ok_nil _ _ _ ⟨rfl, rfl⟩

/-- `parse_member_key` returns only after a key and its colon. -/
theorem parse_member_key_steps (p : JsonParserImpl) (c : Cursor) :
    (parse_member_key p c).Steps c fun _ p' t => p'.state_ = p.state_ ∧
      ∃ k1 key k2, IsWhitespace k1 ∧ IsStringShape key ∧ IsWhitespace k2 ∧
        t = key_text k1 key k2 := by
  unfold parse_member_key
  obtain ⟨k1, hk1, e1, e2, -⟩ := chomp_whitespace_spec c
  generalize chomp_whitespace c = c1 at e1 e2
  simp only []
  obtain ⟨q, rest1⟩ := c1
  cases rest1 with
  | nil =>
    rw [if_pos rfl]
    exact ⟨k1, e1, e2⟩
  | cons b r1 =>
    simp only [reduceCtorEq, if_false, Cursor.peek_cons]
    by_cases hb : b = 0x22
    swap
    · rw [if_pos hb]
      exact ⟨k1, e1, e2⟩
    subst hb
    simp only [ne_eq, not_true_eq_false, if_false]
    refine Res.Steps.steps_after ⟨q, 0x22 :: r1⟩ k1 e1 e2 ?_
    refine Res.Steps.steps_bind_at (Res.Steps.of_consumes p (parse_string_consumes q r1)) ?_
    rintro a s t g1 g2 ⟨hp, key, rfl, hkey⟩
    obtain ⟨k2, hk2, f1, f2, -⟩ := chomp_whitespace_spec s.2
    generalize chomp_whitespace s.2 = c3 at f1 f2
    obtain ⟨q3, rest3⟩ := c3
    by_cases hc : rest3 = [] ∨ (Cursor.mk q3 rest3).peek ≠ 0x3A
    · rw [if_pos hc]
      exact ⟨k2, f1, f2⟩
    · rw [if_neg hc]
      cases rest3 with
      | nil => exact absurd (Or.inl rfl) hc
      | cons d r3 =>
        have hd : d = 0x3A := by
          by_contra hne
          exact hc (Or.inr (by simpa using hne))
        subst hd
        refine ⟨k2 ++ [0x3A], ?_, ?_, ?_, k1, key, k2, hk1, hkey, hk2, ?_⟩
        · simp only [Cursor.next_cons, List.append_assoc, List.singleton_append]
          exact f1
        · simp only [Cursor.next_cons, List.length_append, List.length_singleton]
          simp only at f2
          omega
        · simp only [JsonParserImpl.visit, hp]
        · simp [key_text]

theorem isWhitespace_append {a b : Bytes} (ha : IsWhitespace a) (hb : IsWhitespace b) :
    IsWhitespace (a ++ b) := by
  intro x hx
  rcases List.mem_append.1 hx with h | h
  · exact ha x h
  · exact hb x h

/-- On a present byte `parse_primitive` returns only after a token of the grammar. -/
theorem parse_primitive_steps (p : JsonParserImpl) (pos b : Nat) (r : Bytes) :
    (parse_primitive p ⟨pos, b :: r⟩).Steps ⟨pos, b :: r⟩ fun ca p' t =>
      ca = false ∧ p'.state_ = p.state_ ∧ ∃ v : JsonValue, v.Shaped ∧ v.render = t := by
  unfold parse_primitive
  simp only [Cursor.peek_cons]
  by_cases h1 : b = 0x22
  · subst h1
    rw [if_pos rfl]
    refine Res.Steps.steps_bind_at (Res.Steps.of_consumes p (parse_string_consumes pos r)) ?_
    rintro a s t g1 g2 ⟨hp, content, rfl, hc⟩
    exact Res.Steps.steps_ok_nil _ _ _ ⟨rfl, by simp [JsonParserImpl.visit, hp],
      .primitive .String content, hc, by simp [JsonValue.render, primitive_text]⟩
  rw [if_neg h1]
  by_cases h2 : b = 0x2D ∨ is_dec b = true
  · rw [if_pos h2]
    refine Res.Steps.steps_bind_at (Res.Steps.of_consumes p (parse_number_consumes _)) ?_
    rintro a s t g1 g2 ⟨hp, hn⟩
    exact Res.Steps.steps_ok_nil _ _ _ ⟨rfl, by simp [JsonParserImpl.visit, hp],
      .primitive .Number t, hn, by simp [JsonValue.render, primitive_text]⟩
  rw [if_neg h2]
  have htake : ∀ (k : Nat) (tok : Bytes), tok.length = k → (b :: r).take k = tok →
      (Cursor.mk pos (b :: r)).rest = tok ++ ((Cursor.mk pos (b :: r)).advance k).rest ∧
        ((Cursor.mk pos (b :: r)).advance k).pos = (Cursor.mk pos (b :: r)).pos + tok.length := by
    intro k tok hk ht
    refine ⟨?_, by simp [Cursor.advance, hk]⟩
    simp only [Cursor.advance]
    rw [← ht]
    exact (List.take_append_drop k _).symm
  split_ifs with h3 h4 h5
  · obtain ⟨g1, g2⟩ := htake 4 [0x74, 0x72, 0x75, 0x65] rfl h3.2
    exact ⟨[0x74, 0x72, 0x75, 0x65], g1, g2, rfl, rfl, .primitive .True [0x74, 0x72, 0x75, 0x65],
      by simp [JsonValue.Shaped, IsPrimitiveShape], by simp [JsonValue.render, primitive_text]⟩
  · obtain ⟨g1, g2⟩ := htake 4 [0x6E, 0x75, 0x6C, 0x6C] rfl h4.2
    exact ⟨[0x6E, 0x75, 0x6C, 0x6C], g1, g2, rfl, rfl, .primitive .Null [0x6E, 0x75, 0x6C, 0x6C],
      by simp [JsonValue.Shaped, IsPrimitiveShape], by simp [JsonValue.render, primitive_text]⟩
  · obtain ⟨g1, g2⟩ := htake 5 [0x66, 0x61, 0x6C, 0x73, 0x65] rfl h5.2
    exact ⟨[0x66, 0x61, 0x6C, 0x73, 0x65], g1, g2, rfl, rfl, .primitive .False [0x66, 0x61, 0x6C, 0x73, 0x65],
      by simp [JsonValue.Shaped, IsPrimitiveShape], by simp [JsonValue.render, primitive_text]⟩
  · exact Cursor.Reaches.refl _

/-- The first call of `parse_array` for an array: it opens the array and asks for an
element, or reads an empty array. -/
theorem parse_array_open_steps (below : List State) (vis : List Event) (lim pos : Nat)
    (r : Bytes) :
    (parse_array 2 ⟨State.mk .parse_value .parse_array .initial .initial 0 :: below, vis, lim⟩
        ⟨pos, 0x5B :: r⟩).Steps ⟨pos, 0x5B :: r⟩ fun ca p' t =>
      (ca = true ∧ p'.state_ = {} :: array_frame pos :: below ∧
        ∃ ws1, IsWhitespace ws1 ∧ t = 0x5B :: ws1) ∨
      (ca = false ∧ p'.state_.tail = below ∧
        ∃ ws, IsWhitespace ws ∧ t = 0x5B :: (ws ++ [0x5D])) := by
  rw [parse_array]
  simp only [JsonParserImpl.back, JsonParserImpl.set_back, JsonParserImpl.visit,
    List.headD_cons, Cursor.next_cons]
  obtain ⟨ws1, hws1, e1, e2, -⟩ := chomp_whitespace_spec ⟨pos + 1, r⟩
  generalize chomp_whitespace ⟨pos + 1, r⟩ = c1 at e1 e2
  obtain ⟨q, rest1⟩ := c1
  simp only at e1 e2
  by_cases hc : rest1 = [] ∨ (Cursor.mk q rest1).peek ≠ 0x5D
  · rw [if_pos hc]
    refine Res.Steps.steps_after ⟨q, rest1⟩ (0x5B :: ws1) (by simp [e1])
      (by simp only [e2, List.length_cons]; omega) ?_
    refine Res.Steps.steps_bind_at (inc_depth_steps _ _) ?_
    rintro a s t g1 g2 ⟨rfl, hs⟩
    exact Res.Steps.steps_ok_nil _ _ _ (Or.inl ⟨rfl, by rw [hs]; rfl, ws1, hws1, by simp⟩)
  · rw [if_neg hc]
    cases rest1 with
    | nil => exact absurd (Or.inl rfl) hc
    | cons d r1 =>
      have hd : d = 0x5D := by
        by_contra hne
        exact hc (Or.inr (by simpa using hne))
      subst hd
      simp only [ne_eq, reduceCtorEq, not_false_eq_true, if_true, parse_array,
        JsonParserImpl.back, JsonParserImpl.visit, List.headD_cons, Cursor.next_cons]
      refine ⟨0x5B :: (ws1 ++ [0x5D]), by simp [e1],
        by simp only [List.length_cons, List.length_append, List.length_nil]; omega,
        Or.inr ⟨rfl, rfl, ws1, hws1, rfl⟩⟩

/-- A call of `parse_array` after an element: a comma asks for a further element, a closing
bracket ends the array. -/
theorem parse_array_mid_steps (below : List State) (vis : List Event) (lim s : Nat)
    (c : Cursor) :
    (parse_array 2 ⟨array_frame s :: below, vis, lim⟩ c).Steps c fun ca p' t =>
      (ca = true ∧ p'.state_ = {} :: array_frame s :: below ∧ t = [0x2C]) ∨
      (ca = false ∧ p'.state_.tail = below ∧ t = [0x5D]) := by
  rw [parse_array]
  simp only [JsonParserImpl.back, array_frame, List.headD_cons]
  obtain ⟨pos, rest⟩ := c
  cases rest with
  | nil => simpa using Cursor.Reaches.refl ⟨pos, []⟩
  | cons b r =>
    simp only [ne_eq, reduceCtorEq, not_false_eq_true, if_true, Cursor.peek_cons,
      Cursor.next_cons]
    by_cases h1 : b = 0x5D
    · subst h1
      simp only [if_true, parse_array, JsonParserImpl.back, JsonParserImpl.set_back,
        JsonParserImpl.visit, List.headD_cons, Cursor.next_cons]
      exact ⟨[0x5D], rfl, rfl, Or.inr ⟨rfl, rfl, rfl⟩⟩
    rw [if_neg h1]
    by_cases h2 : b = 0x2C
    · subst h2
      rw [if_pos rfl]
      refine Res.Steps.steps_after ⟨pos + 1, r⟩ [0x2C] rfl rfl ?_
      refine Res.Steps.steps_bind_at (inc_depth_steps _ _) ?_
      rintro a s1 t g1 g2 ⟨rfl, hs⟩
      exact Res.Steps.steps_ok_nil _ _ _ (Or.inl ⟨rfl, by rw [hs], rfl⟩)
    · rw [if_neg h2]
      exact Cursor.Reaches.refl _

/-- The first call of `parse_object` for an object: it opens the object, reads a key and
asks for its value, or reads an empty object. -/
theorem parse_object_open_steps (below : List State) (vis : List Event) (lim pos : Nat)
    (r : Bytes) :
    (parse_object 2 ⟨State.mk .parse_value .parse_object .initial .initial 0 :: below, vis, lim⟩
        ⟨pos, 0x7B :: r⟩).Steps ⟨pos, 0x7B :: r⟩ fun ca p' t =>
      (ca = true ∧ p'.state_ = {} :: object_frame pos :: below ∧
        ∃ k1 key k2, IsWhitespace k1 ∧ IsStringShape key ∧ IsWhitespace k2 ∧
          t = 0x7B :: key_text k1 key k2) ∨
      (ca = false ∧ p'.state_.tail = below ∧
        ∃ ws, IsWhitespace ws ∧ t = 0x7B :: (ws ++ [0x7D])) := by
  rw [parse_object]
  simp only [JsonParserImpl.back, JsonParserImpl.set_back, JsonParserImpl.visit,
    List.headD_cons, Cursor.next_cons]
  obtain ⟨ws1, hws1, e1, e2, -⟩ := chomp_whitespace_spec ⟨pos + 1, r⟩
  generalize chomp_whitespace ⟨pos + 1, r⟩ = c1 at e1 e2
  obtain ⟨q, rest1⟩ := c1
  simp only at e1 e2
  by_cases hc : rest1 = [] ∨ (Cursor.mk q rest1).peek ≠ 0x7D
  · rw [if_pos hc]
    refine Res.Steps.steps_after ⟨q, rest1⟩ (0x7B :: ws1) (by simp [e1])
      (by simp only [e2, List.length_cons]; omega) ?_
    refine Res.Steps.steps_bind_at (parse_member_key_steps _ _) ?_
    rintro a s t g1 g2 ⟨hst, k1, key, k2, hk1, hkey, hk2, rfl⟩
    refine Res.Steps.steps_bind_at (inc_depth_steps _ _) ?_
    rintro a1 s1 t1 f1 f2 ⟨rfl, hs⟩
    refine Res.Steps.steps_ok_nil _ _ _ (Or.inl ⟨rfl, ?_, ws1 ++ k1, key, k2,
      isWhitespace_append hws1 hk1, hkey, hk2, by simp [key_text]⟩)
    rw [hs]
    obtain ⟨⟨st, vis1, lim1⟩, c2⟩ := s
    simp only at hst
    subst hst
    rfl
  · rw [if_neg hc]
    cases rest1 with
    | nil => exact absurd (Or.inl rfl) hc
    | cons d r1 =>
      have hd : d = 0x7D := by
        by_contra hne
        exact hc (Or.inr (by simpa using hne))
      subst hd
      simp only [ne_eq, reduceCtorEq, not_false_eq_true, if_true, parse_object,
        JsonParserImpl.back, JsonParserImpl.visit, List.headD_cons, Cursor.next_cons]
      refine ⟨0x7B :: (ws1 ++ [0x7D]), by simp [e1],
        by simp only [List.length_cons, List.length_append, List.length_nil]; omega,
        Or.inr ⟨rfl, rfl, ws1, hws1, rfl⟩⟩

/-- A call of `parse_object` after a member: a comma and a key ask for a further value, a
closing brace ends the object. -/
theorem parse_object_mid_steps (below : List State) (vis : List Event) (lim s : Nat)
    (c : Cursor) :
    (parse_object 2 ⟨object_frame s :: below, vis, lim⟩ c).Steps c fun ca p' t =>
      (ca = true ∧ p'.state_ = {} :: object_frame s :: below ∧
        ∃ k1 key k2, IsWhitespace k1 ∧ IsStringShape key ∧ IsWhitespace k2 ∧
          t = 0x2C :: key_text k1 key k2) ∨
      (ca = false ∧ p'.state_.tail = below ∧ t = [0x7D]) := by
  rw [parse_object]
  simp only [JsonParserImpl.back, object_frame, List.headD_cons]
  obtain ⟨pos, rest⟩ := c
  cases rest with
  | nil => simpa using Cursor.Reaches.refl ⟨pos, []⟩
  | cons b r =>
    simp only [ne_eq, reduceCtorEq, not_false_eq_true, if_true, Cursor.peek_cons,
      Cursor.next_cons]
    by_cases h1 : b = 0x7D
    · subst h1
      simp only [if_true, parse_object, JsonParserImpl.back, JsonParserImpl.set_back,
        JsonParserImpl.visit, List.headD_cons, Cursor.next_cons]
      exact ⟨[0x7D], rfl, rfl, Or.inr ⟨rfl, rfl, rfl⟩⟩
    rw [if_neg h1]
    by_cases h2 : b = 0x2C
    · subst h2
      rw [if_pos rfl]
      refine Res.Steps.steps_after ⟨pos + 1, r⟩ [0x2C] rfl rfl ?_
      refine Res.Steps.steps_bind_at (parse_member_key_steps _ _) ?_
      rintro a s0 t g1 g2 ⟨hst, k1, key, k2, hk1, hkey, hk2, rfl⟩
      refine Res.Steps.steps_bind_at (inc_depth_steps _ _) ?_
      rintro a1 s1 t1 f1 f2 ⟨rfl, hs⟩
      exact Res.Steps.steps_ok_nil _ _ _ (Or.inl ⟨rfl, by rw [hs, hst],
        k1, key, k2, hk1, hkey, hk2, by simp⟩)
    · rw [if_neg h2]
      exact Cursor.Reaches.refl _

end flumps


namespace flumps

/-! ## The text read between two passes -/

theorem JsonElements.elements_render_snoc : ∀ (more : JsonElements) (w1 : Bytes) (v : JsonValue)
    (w2 : Bytes),
    (more.snoc w1 v w2).render = more.render ++ 0x2C :: (w1 ++ (v.render ++ w2))
  | .nil, w1, v, w2 => by simp [JsonElements.snoc, JsonElements.render]
  | .cons a x b tl, w1, v, w2 => by
    simp [JsonElements.snoc, JsonElements.render, JsonElements.elements_render_snoc tl w1 v w2]

theorem JsonElements.elements_shaped_snoc : ∀ (more : JsonElements) (w1 : Bytes) (v : JsonValue)
    (w2 : Bytes), more.Shaped → IsWhitespace w1 → v.Shaped → IsWhitespace w2 →
    (more.snoc w1 v w2).Shaped
  | .nil, w1, v, w2, _, h1, hv, h2 => by
    simp [JsonElements.snoc, JsonElements.Shaped, h1, hv, h2]
  | .cons a x b tl, w1, v, w2, hm, h1, hv, h2 => by
    simp only [JsonElements.Shaped] at hm
    simp only [JsonElements.snoc, JsonElements.Shaped]
    exact ⟨hm.1, hm.2.1, hm.2.2.1, JsonElements.elements_shaped_snoc tl w1 v w2 hm.2.2.2 h1 hv h2⟩

theorem JsonMembers.members_render_snoc : ∀ (more : JsonMembers) (w1 k w2 w3 : Bytes) (v : JsonValue)
    (w4 : Bytes),
    (more.snoc w1 k w2 w3 v w4).render =
      more.render ++ 0x2C :: (key_text w1 k w2 ++ (w3 ++ (v.render ++ w4)))
  | .nil, w1, k, w2, w3, v, w4 => by simp [JsonMembers.snoc, JsonMembers.render]
  | .cons a kk b c x d tl, w1, k, w2, w3, v, w4 => by
    simp [JsonMembers.snoc, JsonMembers.render, JsonMembers.members_render_snoc tl w1 k w2 w3 v w4]

theorem JsonMembers.members_shaped_snoc : ∀ (more : JsonMembers) (w1 k w2 w3 : Bytes) (v : JsonValue)
    (w4 : Bytes), more.Shaped → IsWhitespace w1 → IsStringShape k → IsWhitespace w2 →
    IsWhitespace w3 → v.Shaped → IsWhitespace w4 → (more.snoc w1 k w2 w3 v w4).Shaped
  | .nil, w1, k, w2, w3, v, w4, _, h1, hk, h2, h3, hv, h4 => by
    simp [JsonMembers.snoc, JsonMembers.Shaped, h1, hk, h2, h3, hv, h4]
  | .cons a kk b c x d tl, w1, k, w2, w3, v, w4, hm, h1, hk, h2, h3, hv, h4 => by
    simp only [JsonMembers.Shaped] at hm
    simp only [JsonMembers.snoc, JsonMembers.Shaped]
    exact ⟨hm.1, hm.2.1, hm.2.2.1, hm.2.2.2.1, hm.2.2.2.2.1, hm.2.2.2.2.2.1,
      JsonMembers.members_shaped_snoc tl w1 k w2 w3 v w4 hm.2.2.2.2.2.2 h1 hk h2 h3 hv h4⟩

/-- An element read by an array that awaited one. -/
theorem ArrayOpen.array_element {y e : Bytes} (hy : ArrayOpen y) (he : IsElement e) :
    ArrayMid (y ++ e) := by
  obtain ⟨t, ⟨ht1, htv, ht2⟩, rfl⟩ := he
  obtain ⟨ws0, h0, ⟨ws1, h1, rfl⟩ | ⟨w1, v, w2, more, g1, gv, g2, gm, rfl⟩⟩ := hy
  · exact ⟨ws0, ws1 ++ t.ws1, t.value, t.ws2, .nil, h0, isWhitespace_append h1 ht1, htv, ht2,
      by simp [JsonElements.Shaped], by simp [JsonText.render, JsonElements.render]⟩
  · exact ⟨ws0, w1, v, w2, more.snoc t.ws1 t.value t.ws2, h0, g1, gv, g2,
      JsonElements.elements_shaped_snoc more _ _ _ gm ht1 htv ht2,
      by simp [JsonText.render, JsonElements.elements_render_snoc]⟩

/-- A comma read by an array after an element. -/
theorem ArrayMid.comma_array {x : Bytes} (hx : ArrayMid x) : ArrayOpen (x ++ [0x2C]) := by
  obtain ⟨ws0, w1, v, w2, more, h0, h1, hv, h2, hm, rfl⟩ := hx
  exact ⟨ws0, h0, Or.inr ⟨w1, v, w2, more, h1, hv, h2, hm, by simp⟩⟩

/-- The closing bracket and the whitespace after it end an element. -/
theorem ArrayMid.close_array {x w : Bytes} (hx : ArrayMid x) (hw : IsWhitespace w) :
    IsElement (x ++ 0x5D :: w) := by
  obtain ⟨ws0, w1, v, w2, more, h0, h1, hv, h2, hm, rfl⟩ := hx
  exact ⟨⟨ws0, .array w1 v w2 more, w⟩, ⟨h0, by simp [JsonValue.Shaped, h1, hv, h2, hm], hw⟩,
    by simp [JsonText.render, JsonValue.render]⟩

/-- The value of a member read by an object that awaited one. -/
theorem ObjectOpen.object_element {y e : Bytes} (hy : ObjectOpen y) (he : IsElement e) :
    ObjectMid (y ++ e) := by
  obtain ⟨t, ⟨ht1, htv, ht2⟩, rfl⟩ := he
  obtain ⟨ws0, k1, key, k2, h0, hk1, hkey, hk2,
    rfl | ⟨w1, key1, w2, w3, v, w4, more, g1, gk, g2, g3, gv, g4, gm, rfl⟩⟩ := hy
  · exact ⟨ws0, k1, key, k2, t.ws1, t.value, t.ws2, .nil, h0, hk1, hkey, hk2, ht1, htv, ht2,
      by simp [JsonMembers.Shaped], by simp [JsonText.render, JsonMembers.render]⟩
  · exact ⟨ws0, w1, key1, w2, w3, v, w4, more.snoc k1 key k2 t.ws1 t.value t.ws2, h0, g1, gk,
      g2, g3, gv, g4, JsonMembers.members_shaped_snoc more _ _ _ _ _ _ gm hk1 hkey hk2 ht1 htv ht2,
      by simp [JsonText.render, JsonMembers.members_render_snoc]⟩

/-- A comma and a key read by an object after a member. -/
theorem ObjectMid.comma_object {x k1 key k2 : Bytes} (hx : ObjectMid x) (hk1 : IsWhitespace k1)
    (hkey : IsStringShape key) (hk2 : IsWhitespace k2) :
    ObjectOpen (x ++ 0x2C :: key_text k1 key k2) := by
  obtain ⟨ws0, w1, key1, w2, w3, v, w4, more, h0, h1, hk, h2, h3, hv, h4, hm, rfl⟩ := hx
  exact ⟨ws0, k1, key, k2, h0, hk1, hkey, hk2,
    Or.inr ⟨w1, key1, w2, w3, v, w4, more, h1, hk, h2, h3, hv, h4, hm, by simp⟩⟩

/-- The closing brace and the whitespace after it end an element. -/
theorem ObjectMid.close_object {x w : Bytes} (hx : ObjectMid x) (hw : IsWhitespace w) :
    IsElement (x ++ 0x7D :: w) := by
  obtain ⟨ws0, w1, key1, w2, w3, v, w4, more, h0, h1, hk, h2, h3, hv, h4, hm, rfl⟩ := hx
  exact ⟨⟨ws0, .object w1 key1 w2 w3 v w4 more, w⟩,
    ⟨h0, by simp [JsonValue.Shaped, h1, hk, h2, h3, hv, h4, hm], hw⟩,
    by simp [JsonText.render, JsonValue.render]⟩

/-- An element read while the frames below awaited one. -/
theorem Awaiting.awaiting_element {below : List State} {pre e : Bytes} (h : Awaiting below pre)
    (he : IsElement e) : AfterElement below (pre ++ e) := by
  cases below with
  | nil =>
    simp only [Awaiting] at h
    subst h
    simpa [AfterElement] using he
  | cons g below1 =>
    obtain ⟨pre0, y, rfl, haw, hy⟩ := h
    refine ⟨pre0, y ++ e, by simp, haw, ?_⟩
    rcases hy with ⟨hf, hy⟩ | ⟨hf, hy⟩
    · exact Or.inl ⟨hf, hy.array_element he⟩
    · exact Or.inr ⟨hf, hy.object_element he⟩

theorem JsonValue.Shaped.render_ne_nil {v : JsonValue} (h : v.Shaped) : v.render ≠ [] := by
  cases v with
  | primitive type text =>
    simp only [JsonValue.Shaped] at h
    cases type with
    | Array => exact absurd h (by simp [IsPrimitiveShape])
    | Object => exact absurd h (by simp [IsPrimitiveShape])
    | True => simp only [IsPrimitiveShape] at h; subst h; simp [JsonValue.render, primitive_text]
    | False => simp only [IsPrimitiveShape] at h; subst h; simp [JsonValue.render, primitive_text]
    | Null => simp only [IsPrimitiveShape] at h; subst h; simp [JsonValue.render, primitive_text]
    | String => simp [JsonValue.render, primitive_text]
    | Number =>
      obtain ⟨b, r, e, -⟩ := IsNumber.head h
      simp [JsonValue.render, primitive_text, e]
  | empty_array ws => simp [JsonValue.render]
  | array ws1 v ws2 more => simp [JsonValue.render]
  | empty_object ws => simp [JsonValue.render]
  | object ws1 key ws2 ws3 v ws4 more => simp [JsonValue.render]

/-- What `parse_value` reads on a frame that has not reached its value. -/
theorem parse_value_fresh_steps (below : List State) (vis : List Event) (lim : Nat)
    (c : Cursor) :
    (parse_value 2 ⟨value_frame :: below, vis, lim⟩ c).Steps c fun ca p' t => t ≠ [] ∧
      ((ca = false ∧ p'.state_.tail = below ∧ ∃ v : JsonValue, v.Shaped ∧ v.render = t) ∨
       (ca = true ∧ p'.state_ = {} :: array_frame c.pos :: below ∧
          ∃ ws1, IsWhitespace ws1 ∧ t = 0x5B :: ws1) ∨
       (ca = true ∧ p'.state_ = {} :: object_frame c.pos :: below ∧
          ∃ k1 key k2, IsWhitespace k1 ∧ IsStringShape key ∧ IsWhitespace k2 ∧
            t = 0x7B :: key_text k1 key k2)) := by
  obtain ⟨pos, rest⟩ := c
  rw [parse_value]
  simp only [JsonParserImpl.back, value_frame, List.headD_cons]
  cases rest with
  | nil =>
    rw [if_pos rfl]
    exact Cursor.Reaches.refl _
  | cons b r =>
    simp only [reduceCtorEq, if_false, Cursor.peek_cons, ne_eq, not_false_eq_true, if_true]
    by_cases h1 : b = 0x7B
    · subst h1
      simp only [if_true, parse_value, JsonParserImpl.back, JsonParserImpl.set_back,
        List.headD_cons]
      refine (parse_object_open_steps below vis lim pos r).steps_mono ?_
      rintro ca p' t (⟨rfl, hs, hk⟩ | ⟨rfl, hs, ws, hws, rfl⟩)
      · obtain ⟨k1, key, k2, g1, g2, g3, rfl⟩ := hk
        exact ⟨by simp, Or.inr (Or.inr ⟨rfl, hs, k1, key, k2, g1, g2, g3, rfl⟩)⟩
      · exact ⟨by simp, Or.inl ⟨rfl, hs, .empty_object ws,
          by simpa [JsonValue.Shaped] using hws, by simp [JsonValue.render]⟩⟩
    rw [if_neg h1]
    by_cases h2 : b = 0x5B
    · subst h2
      simp only [if_true, parse_value, JsonParserImpl.back, JsonParserImpl.set_back,
        List.headD_cons]
      refine (parse_array_open_steps below vis lim pos r).steps_mono ?_
      rintro ca p' t (⟨rfl, hs, ws1, hws1, rfl⟩ | ⟨rfl, hs, ws, hws, rfl⟩)
      · exact ⟨by simp, Or.inr (Or.inl ⟨rfl, hs, ws1, hws1, rfl⟩)⟩
      · exact ⟨by simp, Or.inl ⟨rfl, hs, .empty_array ws,
          by simpa [JsonValue.Shaped] using hws, by simp [JsonValue.render]⟩⟩
    rw [if_neg h2]
    refine (parse_primitive_steps _ pos b r).steps_mono ?_
    rintro ca p' t ⟨rfl, hs, v, hv, rfl⟩
    exact ⟨hv.render_ne_nil, Or.inl ⟨rfl, by rw [hs]; rfl, v, hv, rfl⟩⟩

/-- A pass on a fresh frame: it reads an element, or opens a collection and asks for the
first element or member value. -/
theorem parse_element_fresh_steps (below : List State) (vis : List Event) (lim : Nat)
    (c : Cursor) :
    (parse_element ⟨{} :: below, vis, lim⟩ c).Steps c fun ca p' t => t ≠ [] ∧
      ((ca = false ∧ p'.state_.tail = below ∧ IsElement t) ∨
       (ca = true ∧ ∃ s, p'.state_ = {} :: array_frame s :: below ∧ ArrayOpen t) ∨
       (ca = true ∧ ∃ s, p'.state_ = {} :: object_frame s :: below ∧ ObjectOpen t)) := by
  obtain ⟨ws, hws, e1, e2, hh⟩ := chomp_whitespace_spec c
  obtain ⟨pos, rest⟩ := c
  simp only at e1 e2
  generalize chomp_whitespace ⟨pos, rest⟩ = c1 at e1 e2 hh
  obtain ⟨q, rest1⟩ := c1
  simp only at e1 e2 hh
  subst e1 e2
  rw [parse_element_fresh below vis lim pos ws rest1 hws hh]
  refine Res.Steps.steps_after ⟨pos + ws.length, rest1⟩ ws rfl rfl ?_
  refine Res.Steps.steps_bind_at (parse_value_fresh_steps below vis lim _) ?_
  rintro ca s t g1 g2 ⟨hne, ⟨rfl, hs, v, hv, rfl⟩ | ⟨rfl, hs, ws1, hws1, rfl⟩ |
    ⟨rfl, hs, k1, key, k2, hk1, hkey, hk2, rfl⟩⟩
  · obtain ⟨w2, hw2, f1, f2, -⟩ := chomp_whitespace_spec s.2
    simp only [Bool.false_eq_true, if_false]
    refine ⟨w2, f1, f2, fun h => hne (by simp at h; exact h.2.1), Or.inl ⟨rfl, hs, ?_⟩⟩
    exact ⟨⟨ws, v, w2⟩, ⟨hws, hv, hw2⟩, by simp [JsonText.render]⟩
  · simp only [if_true]
    refine Res.Steps.steps_ok_nil _ _ _ ⟨by simp, Or.inr (Or.inl ⟨rfl, _, hs, ?_⟩)⟩
    exact ⟨ws, hws, Or.inl ⟨ws1, hws1, by simp⟩⟩
  · simp only [if_true]
    refine Res.Steps.steps_ok_nil _ _ _ ⟨by simp, Or.inr (Or.inr ⟨rfl, _, hs, ?_⟩)⟩
    exact ⟨ws, k1, key, k2, hws, hk1, hkey, hk2, Or.inl (by simp)⟩

/-- A pass on the frame of an array after one of its elements. -/
theorem parse_element_array_steps (below : List State) (vis : List Event) (lim s : Nat)
    (c : Cursor) :
    (parse_element ⟨array_frame s :: below, vis, lim⟩ c).Steps c fun ca p' t =>
      (ca = true ∧ p'.state_ = {} :: array_frame s :: below ∧ t = [0x2C]) ∨
      (ca = false ∧ p'.state_.tail = below ∧ ∃ w, IsWhitespace w ∧ t = 0x5D :: w) := by
  have e : parse_element ⟨array_frame s :: below, vis, lim⟩ c =
      (parse_array 2 ⟨array_frame s :: below, vis, lim⟩ c).bind fun call_again s1 =>
        if call_again then .ok call_again s1 else .ok false (s1.1, chomp_whitespace s1.2) := by
    simp [parse_element, parse_value, JsonParserImpl.back, array_frame]
  rw [e]
  refine Res.Steps.steps_bind_at (parse_array_mid_steps below vis lim s c) ?_
  rintro ca s1 t g1 g2 (⟨rfl, hs, rfl⟩ | ⟨rfl, hs, rfl⟩)
  · simp only [if_true]
    exact Res.Steps.steps_ok_nil _ _ _ (Or.inl ⟨rfl, hs, rfl⟩)
  · obtain ⟨w2, hw2, f1, f2, -⟩ := chomp_whitespace_spec s1.2
    simp only [Bool.false_eq_true, if_false]
    exact ⟨w2, f1, f2, Or.inr ⟨rfl, hs, w2, hw2, rfl⟩⟩

/-- A pass on the frame of an object after one of its members. -/
theorem parse_element_object_steps (below : List State) (vis : List Event) (lim s : Nat)
    (c : Cursor) :
    (parse_element ⟨object_frame s :: below, vis, lim⟩ c).Steps c fun ca p' t =>
      (ca = true ∧ p'.state_ = {} :: object_frame s :: below ∧
        ∃ k1 key k2, IsWhitespace k1 ∧ IsStringShape key ∧ IsWhitespace k2 ∧
          t = 0x2C :: key_text k1 key k2) ∨
      (ca = false ∧ p'.state_.tail = below ∧ ∃ w, IsWhitespace w ∧ t = 0x7D :: w) := by
  have e : parse_element ⟨object_frame s :: below, vis, lim⟩ c =
      (parse_object 2 ⟨object_frame s :: below, vis, lim⟩ c).bind fun call_again s1 =>
        if call_again then .ok call_again s1 else .ok false (s1.1, chomp_whitespace s1.2) := by
    simp [parse_element, parse_value, JsonParserImpl.back, object_frame]
  rw [e]
  refine Res.Steps.steps_bind_at (parse_object_mid_steps below vis lim s c) ?_
  rintro ca s1 t g1 g2 (⟨rfl, hs, hk⟩ | ⟨rfl, hs, rfl⟩)
  · simp only [if_true]
    obtain ⟨k1, key, k2, hk1, hkey, hk2, rfl⟩ := hk
    exact Res.Steps.steps_ok_nil _ _ _ (Or.inl ⟨rfl, hs, k1, key, k2, hk1, hkey, hk2, by simp⟩)
  · obtain ⟨w2, hw2, f1, f2, -⟩ := chomp_whitespace_spec s1.2
    simp only [Bool.false_eq_true, if_false]
    exact ⟨w2, f1, f2, Or.inr ⟨rfl, hs, w2, hw2, rfl⟩⟩

/-- One pass of the loop of `parse_json`: it ends, it reads at least one byte when it
returns, and the stack and the text read are again as between two passes. -/
theorem Awaiting.push_array {below : List State} {pre x : Bytes} (s : Nat)
    (h : Awaiting below pre) (hx : ArrayOpen x) : Awaiting (array_frame s :: below) (pre ++ x) :=
  ⟨pre, x, rfl, h, Or.inl ⟨⟨s, rfl⟩, hx⟩⟩

theorem Awaiting.push_object {below : List State} {pre x : Bytes} (s : Nat)
    (h : Awaiting below pre) (hx : ObjectOpen x) :
    Awaiting (object_frame s :: below) (pre ++ x) :=
  ⟨pre, x, rfl, h, Or.inr ⟨⟨s, rfl⟩, hx⟩⟩

theorem parse_element_pass (p : JsonParserImpl) (c : Cursor) (pre : Bytes)
    (h : BetweenPasses p.state_ pre) (hne : p.state_ ≠ []) :
    (parse_element p c).Steps c fun ca p' t => t ≠ [] ∧
      BetweenPasses (if !ca then dec_depth p' else p').state_ (pre ++ t) := by
  obtain ⟨st, vis, lim⟩ := p
  simp only at h hne
  rcases h with ⟨below, rfl, haw⟩ | h
  · refine (parse_element_fresh_steps below vis lim c).steps_mono ?_
    rintro ca p' t ⟨hnil, ⟨rfl, hs, he⟩ | ⟨rfl, s, hs, ho⟩ | ⟨rfl, s, hs, ho⟩⟩
    · refine ⟨hnil, Or.inr ?_⟩
      simp only [Bool.not_false, if_true, dec_depth, hs]
      exact haw.awaiting_element he
    · exact ⟨hnil, Or.inl ⟨_, by simpa using hs, haw.push_array s ho⟩⟩
    · exact ⟨hnil, Or.inl ⟨_, by simpa using hs, haw.push_object s ho⟩⟩
  · cases st with
    | nil => exact absurd rfl hne
    | cons f below =>
      obtain ⟨pre0, x, rfl, haw, ⟨⟨s, rfl⟩, hx⟩ | ⟨⟨s, rfl⟩, hx⟩⟩ := h
      · refine (parse_element_array_steps below vis lim s c).steps_mono ?_
        rintro ca p' t (⟨rfl, hs, rfl⟩ | ⟨rfl, hs, w, hw, rfl⟩)
        · refine ⟨by simp, Or.inl ⟨_, by simpa using hs, ?_⟩⟩
          rw [List.append_assoc]
          exact haw.push_array s hx.comma_array
        · refine ⟨by simp, Or.inr ?_⟩
          simp only [Bool.not_false, if_true, dec_depth, hs, List.append_assoc]
          exact haw.awaiting_element (hx.close_array hw)
      · refine (parse_element_object_steps below vis lim s c).steps_mono ?_
        rintro ca p' t (⟨rfl, hs, k1, key, k2, hk1, hkey, hk2, rfl⟩ | ⟨rfl, hs, w, hw, rfl⟩)
        · refine ⟨by simp, Or.inl ⟨_, by simpa using hs, ?_⟩⟩
          rw [List.append_assoc]
          exact haw.push_object s (hx.comma_object hk1 hkey hk2)
        · refine ⟨by simp, Or.inr ?_⟩
          simp only [Bool.not_false, if_true, dec_depth, hs, List.append_assoc]
          exact haw.awaiting_element (hx.close_object hw)

end flumps


namespace flumps

/-! ## The loop of `parse_json` on an arbitrary input -/

theorem parse_json_loop_ok_rest (fuel : Nat) (p : JsonParserImpl) (c : Cursor)
    (s : ParseState) (h : parse_json_loop fuel p c = .ok () s) : s.2.rest = [] := by
  induction fuel generalizing p c with
  | zero => simp [parse_json_loop] at h
  | succ fuel ih =>
    rw [parse_json_loop_succ] at h
    cases hpe : parse_element p c with
    | fuel => simp [hpe] at h
    | throw e s1 => simp [hpe] at h
    | ok ca s1 =>
      simp only [hpe, Res.bind_ok] at h
      generalize (if (!ca) = true then dec_depth s1.1 else s1.1) = p2 at h
      unfold loop_tail at h
      split_ifs at h with h1 h2
      · exact ih _ _ h
      · simp only [Res.ok.injEq, true_and] at h
        rw [← h]
        simpa using h2

/-- Whenever `parse_json` returns, it returns `true` and has read the whole input. -/
theorem parse_json_ok_true (p : JsonParserImpl) (input : Bytes) (b : Bool) (s : ParseState)
    (h : parse_json p input = .ok b s) : b = true ∧ s.2.rest = [] ∧ s.1.state_ = [] := by
  unfold parse_json at h
  cases hinc : inc_depth { p with state_ := [] } ⟨0, input⟩ with
  | fuel => simp [hinc] at h
  | throw e s0 => simp [hinc] at h
  | ok u s0 =>
    simp only [hinc, Res.bind_ok] at h
    cases hloop : parse_json_loop (input.length + 1) s0.1 s0.2 with
    | fuel => simp [hloop] at h
    | throw e s1 => simp [hloop] at h
    | ok u1 s1 =>
      have hrest := parse_json_loop_ok_rest _ _ _ _ hloop
      simp only [hloop, Res.bind_ok] at h
      split_ifs at h with h1
      simp only [Res.ok.injEq] at h
      obtain ⟨hb, hs⟩ := h
      subst hs
      exact ⟨by rw [← hb]; simpa using hrest, hrest, by simpa using h1⟩

/-- The loop ends within the passes it is given, one byte at least being read by each pass;
the stack and the text read are then as between two passes. -/
theorem parse_json_loop_steps (fuel : Nat) : ∀ (p : JsonParserImpl) (c : Cursor)
    (pre : Bytes), c.rest.length < fuel → BetweenPasses p.state_ pre → p.state_ ≠ [] →
    (parse_json_loop fuel p c).Steps c fun _ p' t => BetweenPasses p'.state_ (pre ++ t) := by
  induction fuel with
  | zero => intro p c pre h; omega
  | succ fuel ih =>
    intro p c pre hlen hbp hne
    rw [parse_json_loop_succ]
    refine Res.Steps.steps_bind_at (parse_element_pass p c pre hbp hne) ?_
    rintro ca s t g1 g2 ⟨hnil, hq⟩
    generalize (if (!ca) = true then dec_depth s.1 else s.1) = q at hq
    unfold loop_tail
    split_ifs with h1 h2
    · exact Cursor.Reaches.refl _
    · have hl : s.2.rest.length < fuel := by
        have := congrArg List.length g1
        have : 0 < t.length := List.length_pos.2 hnil
        simp only [List.length_append] at *
        omega
      have hq1 : q.state_ ≠ [] := fun h => h1 ⟨h, h2⟩
      refine (ih q s.2 (pre ++ t) hl hq hq1).steps_mono ?_
      intro a p1 t1 h
      rwa [List.append_assoc] at h
    · exact Res.Steps.steps_ok_nil _ _ _ (by simpa using hq)

/-- The first frame is always allowed by the depth limit. -/
theorem inc_depth_first (p : JsonParserImpl) (c : Cursor) :
    inc_depth { p with state_ := [] } c = .ok () (⟨[{}], p.visitor_, p.depth_limit_⟩, c) := by
  unfold inc_depth
  rw [if_neg]
  simp only [List.length_cons, List.length_nil, gt_iff_lt, not_and, not_lt]
  omega

/-- The body of the `try` block of `parse_json`: the loop and the test for truncation. -/
theorem parse_json_tried_steps (p : JsonParserImpl) (input : Bytes) :
    ((parse_json_loop (input.length + 1) ⟨[{}], p.visitor_, p.depth_limit_⟩ ⟨0, input⟩).bind
      fun _ s1 =>
        if s1.1.state_ ≠ [] then
          (.throw (json_parse_error "Invalid: JSON truncated") s1 : Res ParseState Unit)
        else .ok () s1).Steps ⟨0, input⟩ fun _ _ t => IsElement t := by
  have h0 : BetweenPasses [({} : State)] [] := Or.inl ⟨[], rfl, rfl⟩
  refine Res.Steps.steps_bind_at (parse_json_loop_steps (input.length + 1)
    ⟨[{}], p.visitor_, p.depth_limit_⟩ ⟨0, input⟩ [] (Nat.lt_succ_self _) h0 (by simp)) ?_
  rintro a s t g1 g2 hbp
  split_ifs with h
  · exact Cursor.Reaches.refl _
  · refine Res.Steps.steps_ok_nil _ _ _ ?_
    have hs : s.1.state_ = [] := not_not.1 h
    rw [hs] at hbp
    rcases hbp with ⟨below, hb, -⟩ | hbp
    · cases hb
    · simpa [AfterElement] using hbp

/-- The outcome of `parse_json` on any input: it returns `true` on an input that is one
value of the grammar between optional whitespace, or it throws a `JsonParseError` whose
message ends with the offset of the position reached, which lies within the input. -/
theorem parse_json_outcome (p : JsonParserImpl) (input : Bytes) :
    (∃ s, parse_json p input = .ok true s ∧ IsElement input) ∨
    (∃ inner s, parse_json p input =
        .throw (json_parse_error (inner ++ " (offset=" ++ toString s.2.pos ++ ")")) s ∧
      (Cursor.mk 0 input).Reaches s.2) := by
  have ht := parse_json_tried_steps p input
  have hp : parse_json p input =
      match ((parse_json_loop (input.length + 1) ⟨[{}], p.visitor_, p.depth_limit_⟩
          ⟨0, input⟩).bind fun _ s1 =>
          if s1.1.state_ ≠ [] then
            (.throw (json_parse_error "Invalid: JSON truncated") s1 : Res ParseState Unit)
          else .ok () s1) with
      | .ok _ s2 => .ok (decide (s2.2.rest = [])) s2
      | .throw e s2 =>
        .throw (json_parse_error (e.what ++ " (offset=" ++ toString s2.2.pos ++ ")")) s2
      | .fuel => .fuel := by
    unfold parse_json
    rw [inc_depth_first]
    rfl
  generalize ((parse_json_loop (input.length + 1) ⟨[{}], p.visitor_, p.depth_limit_⟩
      ⟨0, input⟩).bind fun _ s1 =>
      if s1.1.state_ ≠ [] then
        (.throw (json_parse_error "Invalid: JSON truncated") s1 : Res ParseState Unit)
      else .ok () s1) = tried at ht hp
  cases tried with
  | ok u s2 =>
    obtain ⟨t, g1, g2, he⟩ := ht
    simp only at hp
    obtain ⟨hb, hr, -⟩ := parse_json_ok_true p input _ s2 hp
    simp only at g1
    rw [hr, List.append_nil] at g1
    subst g1
    rw [hb] at hp
    exact Or.inl ⟨s2, hp, he⟩
  | throw e s2 => exact Or.inr ⟨e.what, s2, hp, ht⟩
  | fuel => exact ht.elim

end flumps


namespace flumps

/-! ## The tree of nodes built by `register_callback` -/

theorem find_update_match_same (p : Node → Bool) (fresh : Node) (f : Node → Node)
    (hf : ∀ c, p (f c) = p c) (hfresh : p fresh = true) (cs : List Node) :
    (update_match p fresh f cs).find? p = some (f ((cs.find? p).getD fresh)) := by
  induction cs with
  | nil => simp [update_match, hf, hfresh]
  | cons c rest ih =>
    by_cases hc : p c = true
    · simp [update_match, hc, hf]
    · simp [update_match, hc, ih]

theorem find_update_match_other (p q : Node → Bool) (fresh : Node) (f : Node → Node)
    (hf : ∀ c, q (f c) = q c) (hfresh : q fresh = false) (hpq : ∀ c, p c = true → q c = false)
    (cs : List Node) :
    (update_match p fresh f cs).find? q = cs.find? q := by
  induction cs with
  | nil => simp [update_match, hf, hfresh]
  | cons c rest ih =>
    by_cases hc : p c = true
    · simp [update_match, hc, hf, hpq c hc]
    · by_cases hq : q c = true
      · simp [update_match, hc, hq]
      · simp [update_match, hc, hq, ih]

theorem register_segments_type (segs : List PathSegment) (cb : Nat) (n : Node) :
    (register_segments segs cb n).type = n.type := by
  cases n with
  | mk t cbs cs k =>
    cases segs with
    | nil => rfl
    | cons seg rest =>
      simp only [register_segments]
      split_ifs <;> rfl

theorem register_segments_key (segs : List PathSegment) (cb : Nat) (n : Node) :
    (register_segments segs cb n).key = n.key := by
  cases n with
  | mk t cbs cs k =>
    cases segs with
    | nil => rfl
    | cons seg rest =>
      simp only [register_segments]
      split_ifs <;> rfl

theorem is_array_of_not_is_object (seg : PathSegment) (h : ¬ seg.is_object = true) :
    seg.is_array = true := by
  simpa [PathSegment.is_object, PathSegment.is_array] using h

theorem not_is_array_of_is_object (seg : PathSegment) (h : seg.is_object = true) :
    seg.is_array = false := by
  simpa [PathSegment.is_object, PathSegment.is_array] using h

/-- After a registration with no segment left the steps from the node are as before. -/
theorem register_segments_nil_enter (cb : Nat) (n : Node) (step : LocationStep) :
    (register_segments [] cb n).enter step = n.enter step := by
  cases n with
  | mk t cbs cs k => cases step <;> rfl

@[simp] theorem Node.children_mk (t : NodeType) (cbs : List Nat) (cs : List Node) (k : Bytes) :
    (Node.mk t cbs cs k).children = cs := rfl

@[simp] theorem Node.type_mk (t : NodeType) (cbs : List Nat) (cs : List Node) (k : Bytes) :
    (Node.mk t cbs cs k).type = t := rfl

@[simp] theorem Node.key_mk (t : NodeType) (cbs : List Nat) (cs : List Node) (k : Bytes) :
    (Node.mk t cbs cs k).key = k := rfl

@[simp] theorem Node.callbacks_mk (t : NodeType) (cbs : List Nat) (cs : List Node) (k : Bytes) :
    (Node.mk t cbs cs k).callbacks = cbs := rfl

/-- The children of a node after a registration whose first segment is a key. -/
theorem register_segments_object_children (seg : PathSegment) (rest : List PathSegment)
    (cb : Nat) (n : Node) (h : seg.is_object = true) :
    (register_segments (seg :: rest) cb n).children =
      update_match (fun c => c.type = .Object) Node.object_node
        (fun o => .mk o.type o.callbacks
          (update_match (fun c => c.type = .Key ∧ c.key = seg.key)
            (Node.key_node seg.key) (register_segments rest cb) o.children) o.key)
        n.children := by
  cases n with
  | mk t cbs cs k => simp only [register_segments, h, if_true, Node.children_mk]

/-- The children of a node after a registration whose first segment is an array segment. -/
theorem register_segments_array_children (seg : PathSegment) (rest : List PathSegment)
    (cb : Nat) (n : Node) (h : ¬ seg.is_object = true) :
    (register_segments (seg :: rest) cb n).children =
      update_match (fun c => c.type = .Array) Node.array_node
        (register_segments rest cb) n.children := by
  cases n with
  | mk t cbs cs k => simp [register_segments, h]

/-- After a registration the step that its first segment stands for leads to the node
registered with the further segments; every other step leads where it led. -/
theorem register_segments_cons_enter (seg : PathSegment) (rest : List PathSegment) (cb : Nat)
    (n : Node) (step : LocationStep) :
    (register_segments (seg :: rest) cb n).enter step =
      if seg.matches step then
        some (register_segments rest cb ((n.enter step).getD (fresh_node step)))
      else n.enter step := by
  by_cases hobj : seg.is_object = true
  · have hnarr := not_is_array_of_is_object seg hobj
    have hchildren := register_segments_object_children seg rest cb n hobj
    cases step with
    | element =>
      simp only [Node.enter, PathSegment.matches, hnarr, Bool.false_eq_true, if_false]
      rw [hchildren]
      exact find_update_match_other (fun c => c.type = .Object) (fun c => c.type = .Array)
        Node.object_node
        (fun o => .mk o.type o.callbacks
          (update_match (fun c => c.type = .Key ∧ c.key = seg.key)
            (Node.key_node seg.key) (register_segments rest cb) o.children) o.key)
        (fun c => rfl) (by simp [Node.object_node])
        (fun c hc => by
          simp only [decide_eq_true_eq] at hc
          simp [hc]) n.children
    | member key =>
      simp only [Node.enter, PathSegment.matches, hobj, Bool.true_and]
      rw [hchildren, find_update_match_same (fun c => c.type = .Object) Node.object_node
        (fun o => .mk o.type o.callbacks
          (update_match (fun c => c.type = .Key ∧ c.key = seg.key)
            (Node.key_node seg.key) (register_segments rest cb) o.children) o.key)
        (fun c => rfl) (by simp [Node.object_node])]
      simp only [Option.some_bind, Node.children_mk]
      by_cases hk : seg.key = key
      · subst hk
        simp only [decide_True, if_true]
        rw [find_update_match_same (fun c => c.type = .Key ∧ c.key = seg.key)
          (Node.key_node seg.key) (register_segments rest cb)
          (fun c => by simp [register_segments_type, register_segments_key])
          (by simp [Node.key_node])]
        cases ho : n.children.find? (fun c => decide (c.type = .Object)) with
        | none => simp [Node.object_node, fresh_node]
        | some o => simp [fresh_node]
      · simp only [hk, decide_False, Bool.false_eq_true, if_false]
        rw [find_update_match_other (fun c => c.type = .Key ∧ c.key = seg.key)
          (fun c => c.type = .Key ∧ c.key = key)
          (Node.key_node seg.key) (register_segments rest cb)
          (fun c => by simp [register_segments_type, register_segments_key])
          (by simp [Node.key_node, hk])
          (fun c hc => by
            simp only [Bool.decide_and, Bool.and_eq_true, decide_eq_true_eq] at hc
            simp [hc.2, hk])]
        cases ho : n.children.find? (fun c => decide (c.type = .Object)) with
        | none => simp [Node.object_node]
        | some o => simp
  · have harr := is_array_of_not_is_object seg hobj
    have hchildren := register_segments_array_children seg rest cb n hobj
    cases step with
    | element =>
      simp only [Node.enter, PathSegment.matches, harr, if_true]
      rw [hchildren, find_update_match_same (fun c => c.type = .Array) Node.array_node
        (register_segments rest cb) (fun c => by simp [register_segments_type])
        (by simp [Node.array_node])]
      rfl
    | member key =>
      simp only [Node.enter, PathSegment.matches, hobj, Bool.false_and,
        Bool.false_eq_true, if_false]
      rw [hchildren, find_update_match_other (fun c => c.type = .Array)
        (fun c => c.type = .Object) Node.array_node
        (register_segments rest cb) (fun c => by simp [register_segments_type])
        (by simp [Node.array_node])
        (fun c hc => by
          simp only [decide_eq_true_eq] at hc
          simp [hc])]

theorem fresh_node_walk (step : LocationStep) (s : LocationStep) (rel : List LocationStep) :
    (fresh_node step).walk (s :: rel) = none := by
  cases step <;> cases s <;> rfl

theorem fresh_node_callbacks (step : LocationStep) : (fresh_node step).callbacks = [] := by
  cases step <;> rfl

theorem register_segments_nil_callbacks (cb : Nat) (n : Node) :
    (register_segments [] cb n).callbacks = n.callbacks ++ [cb] := by
  cases n with
  | mk t cbs cs k => rfl

theorem register_segments_cons_callbacks (seg : PathSegment) (rest : List PathSegment)
    (cb : Nat) (n : Node) : (register_segments (seg :: rest) cb n).callbacks = n.callbacks := by
  cases n with
  | mk t cbs cs k =>
    simp only [register_segments]
    split_ifs <;> rfl

theorem Node.callbacks_at_nil (n : Node) : n.callbacks_at [] = n.callbacks := rfl

theorem Node.callbacks_at_cons (n : Node) (s : LocationStep) (r : List LocationStep) :
    n.callbacks_at (s :: r) =
      match n.enter s with
      | some c => c.callbacks_at r
      | none => [] := by
  simp only [Node.callbacks_at, Node.walk]
  cases n.enter s <;> rfl

theorem fresh_node_callbacks_at (step : LocationStep) (rel : List LocationStep) :
    (fresh_node step).callbacks_at rel = [] := by
  cases rel with
  | nil => exact fresh_node_callbacks step
  | cons s r => simp [Node.callbacks_at, fresh_node_walk]

/-- A registration adds its callback at the location that its path stands for, after the
callbacks held there, and nowhere else. -/
theorem register_segments_callbacks_at (segs : List PathSegment) (cb : Nat) :
    ∀ (n : Node) (rel : List LocationStep),
      (register_segments segs cb n).callbacks_at rel =
        n.callbacks_at rel ++ (if path_matches segs rel then [cb] else []) := by
  induction segs with
  | nil =>
    intro n rel
    cases rel with
    | nil => simp [Node.callbacks_at_nil, register_segments_nil_callbacks, path_matches]
    | cons s r =>
      simp [Node.callbacks_at_cons, register_segments_nil_enter, path_matches]
  | cons seg rest ih =>
    intro n rel
    cases rel with
    | nil => simp [Node.callbacks_at_nil, register_segments_cons_callbacks, path_matches]
    | cons s r =>
      rw [Node.callbacks_at_cons, Node.callbacks_at_cons, register_segments_cons_enter]
      by_cases hm : seg.matches s = true
      · simp only [hm, if_true, path_matches, Bool.true_and]
        rw [ih]
        cases n.enter s with
        | none => simp [fresh_node_callbacks_at]
        | some c => simp
      · simp only [hm, Bool.false_eq_true, if_false, path_matches, Bool.false_and]
        simp

theorem Node.KeysNonEmpty.keys_of_enter {n c : Node} (h : n.KeysNonEmpty) (s : LocationStep)
    (hc : n.enter s = some c) : c.KeysNonEmpty := by
  intro rel key hw
  refine h (s :: rel) key ?_
  simpa [Node.walk, hc] using hw

theorem fresh_node_keys_non_empty (step : LocationStep) : (fresh_node step).KeysNonEmpty := by
  intro rel key hw
  cases rel with
  | nil => simp [fresh_node_walk] at hw
  | cons s r => simp [fresh_node_walk] at hw

theorem PathSegment.matches_member {seg : PathSegment} {key : Bytes}
    (h : seg.matches (.member key) = true) : key ≠ [] := by
  simp only [PathSegment.matches, PathSegment.is_object, Bool.and_eq_true, Bool.not_eq_true',
    decide_eq_true_eq] at h
  obtain ⟨h1, h2⟩ := h
  subst h2
  intro h0
  simp [h0] at h1

/-- No registration makes a node that a member step with an empty key reaches. -/
theorem register_segments_keys_non_empty (segs : List PathSegment) (cb : Nat) :
    ∀ n : Node, n.KeysNonEmpty → (register_segments segs cb n).KeysNonEmpty := by
  induction segs with
  | nil =>
    intro n hn rel key hw
    refine hn rel key ?_
    cases rel with
    | nil => simpa [Node.walk, register_segments_nil_enter] using hw
    | cons s r => simpa [Node.walk, register_segments_nil_enter] using hw
  | cons seg rest ih =>
    intro n hn rel key hw
    cases rel with
    | nil =>
      simp only [List.nil_append, Node.walk, register_segments_cons_enter] at hw
      by_cases hm : seg.matches (.member key) = true
      · exact PathSegment.matches_member hm
      · simp only [hm, Bool.false_eq_true, if_false] at hw
        exact hn [] key (by simpa [Node.walk] using hw)
    | cons s r =>
      simp only [List.cons_append, Node.walk, register_segments_cons_enter] at hw
      by_cases hm : seg.matches s = true
      · simp only [hm, if_true, Option.some_bind] at hw
        refine ih _ ?_ r key hw
        cases hc : n.enter s with
        | none => simpa using fresh_node_keys_non_empty s
        | some c => simpa using hn.keys_of_enter s hc
      · simp only [hm, Bool.false_eq_true, if_false] at hw
        exact hn (s :: r) key (by simpa [Node.walk] using hw)

theorem root_node_keys_non_empty : Node.root_node.KeysNonEmpty := by
  intro rel key hw
  cases rel with
  | nil => simp [Node.walk, Node.enter, Node.root_node] at hw
  | cons s r => cases s <;> simp [Node.walk, Node.enter, Node.root_node] at hw

theorem root_node_callbacks_at (rel : List LocationStep) :
    Node.root_node.callbacks_at rel = [] := by
  cases rel with
  | nil => rfl
  | cons s r => cases s <;> simp [Node.callbacks_at, Node.walk, Node.enter, Node.root_node]

theorem callbacks_for_cons (r : JsonValuePath × Nat) (regs : List (JsonValuePath × Nat))
    (loc : List LocationStep) :
    callbacks_for (r :: regs) loc =
      (if path_matches r.1.segments loc then [r.2] else []) ++ callbacks_for regs loc := by
  simp only [callbacks_for, List.filter_cons]
  split_ifs <;> simp

/-- Registrations made one after the other on a dispatcher that stands at its root. -/
theorem register_all (regs : List (JsonValuePath × Nat)) : ∀ (v : JsonCallbackVisitorImpl),
    v.pos_ = [v.root_] → v.overflow_ = [] → v.path_ = [] → v.invoked = [] →
    v.root_.type = .Key → v.root_.KeysNonEmpty →
    ∃ root : Node, regs.foldl (fun v r => v.register_callback r.1 r.2) v = ⟨root, [root], [], [], []⟩ ∧
      root.type = .Key ∧ root.KeysNonEmpty ∧
      ∀ rel, root.callbacks_at rel = v.root_.callbacks_at rel ++ callbacks_for regs rel := by
  induction regs with
  | nil =>
    intro v h1 h2 h3 h4 h5 h6
    refine ⟨v.root_, ?_, h5, h6, fun rel => by simp [callbacks_for]⟩
    obtain ⟨root, pos, ov, path, inv⟩ := v
    simp only at h1 h2 h3 h4
    subst h1 h2 h3 h4
    rfl
  | cons r regs ih =>
    intro v h1 h2 h3 h4 h5 h6
    obtain ⟨root, hf, ht, hk, hc⟩ := ih (v.register_callback r.1 r.2) rfl h2 h3 h4
      (by simpa [JsonCallbackVisitorImpl.register_callback, register_segments_type] using h5)
      (register_segments_keys_non_empty _ _ _ h6)
    refine ⟨root, hf, ht, hk, fun rel => ?_⟩
    rw [hc rel, callbacks_for_cons]
    simp only [JsonCallbackVisitorImpl.register_callback, register_segments_callbacks_at,
      List.append_assoc]

/-- The dispatcher after registrations stands at the root of its tree, and the node for a
location holds the callbacks registered for the location, in registration order. -/
theorem registered_spec (regs : List (JsonValuePath × Nat)) :
    ∃ root : Node, registered regs = ⟨root, [root], [], [], []⟩ ∧
      root.type = .Key ∧ root.KeysNonEmpty ∧
      ∀ rel, root.callbacks_at rel = callbacks_for regs rel := by
  obtain ⟨root, hf, ht, hk, hc⟩ := register_all regs JsonCallbackVisitor rfl rfl rfl rfl rfl
    root_node_keys_non_empty
  refine ⟨root, hf, ht, hk, fun rel => ?_⟩
  rw [hc rel]
  simp [JsonCallbackVisitor, root_node_callbacks_at]

end flumps


namespace flumps

/-! ## The dispatcher fed with the events of a value -/

open JsonCallbackVisitorImpl

theorem feed_nil (input : Bytes) (v : JsonCallbackVisitorImpl) : feed input [] v = some v := rfl

theorem feed_cons (input : Bytes) (e : Event) (es : List Event) (v : JsonCallbackVisitorImpl) :
    feed input (e :: es) v = (v.visit input e).bind (feed input es) := rfl

theorem feed_append (input : Bytes) (es1 es2 : List Event) :
    ∀ v : JsonCallbackVisitorImpl,
      feed input (es1 ++ es2) v = (feed input es1 v).bind (feed input es2) := by
  induction es1 with
  | nil => intro v; rfl
  | cons e es ih =>
    intro v
    simp only [List.cons_append, feed_cons]
    cases v.visit input e with
    | none => rfl
    | some v1 => simpa using ih v1

/-! ### While the overflow is in use -/

theorem on_primitive_value_overflow (root : Node) (pos : List Node) (m : OverFlowType)
    (ov : List OverFlowType) (path : Bytes) (inv : List Invocation) (hm : m ≠ .Object)
    (type : JsonValueType) (start length : Nat) :
    on_primitive_value ⟨root, pos, m :: ov, path, inv⟩ type start length =
      some ⟨root, pos, if m = .Key then ov else m :: ov, path, inv⟩ := by
  simp only [on_primitive_value, hm, if_false]
  split_ifs <;> rfl

theorem do_collection_start_overflow (root : Node) (pos : List Node) (m : OverFlowType)
    (ov : List OverFlowType) (path : Bytes) (inv : List Invocation) (hm : m ≠ .Object)
    (traits : JsonCollectionTraits) :
    do_collection_start ⟨root, pos, m :: ov, path, inv⟩ traits =
      some ⟨root, pos, traits.overflow_type :: m :: ov, path, inv⟩ := by
  simp only [do_collection_start, hm, if_false]

theorem do_collection_end_overflow (root : Node) (pos : List Node) (m : OverFlowType)
    (ov : List OverFlowType) (path : Bytes) (inv : List Invocation)
    (traits : JsonCollectionTraits) (start length : Nat) :
    do_collection_end ⟨root, pos, traits.overflow_type :: m :: ov, path, inv⟩ traits start
        length =
      some ⟨root, pos, if m = .Key then ov else m :: ov, path, inv⟩ := by
  simp only [do_collection_end, ne_eq, not_true_eq_false, if_false]
  split_ifs <;> rfl

theorem on_object_key_overflow (root : Node) (pos : List Node)
    (ov : List OverFlowType) (path : Bytes) (inv : List Invocation) (key : Bytes) :
    on_object_key ⟨root, pos, .Object :: ov, path, inv⟩ key =
      some ⟨root, pos, .Key :: .Object :: ov, path, inv⟩ := by
  simp [on_object_key]

mutual
/-- A value met while the overflow is in use changes nothing but the overflow: it takes
away the character of the key whose value it is. -/
theorem value_feed_overflow (input : Bytes) : ∀ (v : JsonValue) (s : Nat) (root : Node)
    (pos : List Node) (m : OverFlowType) (ov : List OverFlowType) (path : Bytes)
    (inv : List Invocation), m ≠ .Object →
    feed input (v.events s) ⟨root, pos, m :: ov, path, inv⟩ =
      some ⟨root, pos, if m = .Key then ov else m :: ov, path, inv⟩
  | .primitive type text, s, root, pos, m, ov, path, inv, hm => by
    simp only [JsonValue.events, feed_cons, feed_nil, visit]
    rw [on_primitive_value_overflow _ _ _ _ _ _ hm]
    rfl
  | .empty_array ws, s, root, pos, m, ov, path, inv, hm => by
    simp only [JsonValue.events, feed_cons, feed_nil, visit, on_array_start, on_array_end]
    rw [do_collection_start_overflow _ _ _ _ _ _ hm]
    simp only [Option.some_bind]
    rw [show json_array_traits.overflow_type = OverFlowType.Array from rfl,
      show OverFlowType.Array = json_array_traits.overflow_type from rfl,
      do_collection_end_overflow]
    rfl
  | .array ws1 v ws2 more, s, root, pos, m, ov, path, inv, hm => by
    simp only [JsonValue.events, feed_cons, feed_append, feed_nil, visit, on_array_start,
      on_array_end]
    rw [do_collection_start_overflow _ _ _ _ _ _ hm]
    simp only [Option.some_bind]
    rw [show json_array_traits.overflow_type = OverFlowType.Array from rfl,
      value_feed_overflow input v _ root pos .Array (m :: ov) path inv (by decide)]
    simp only [Option.some_bind, reduceCtorEq, if_false]
    rw [elements_feed_overflow input more _ root pos (m :: ov) path inv]
    simp only [Option.some_bind]
    rw [show OverFlowType.Array = json_array_traits.overflow_type from rfl,
      do_collection_end_overflow]
    rfl
  | .empty_object ws, s, root, pos, m, ov, path, inv, hm => by
    simp only [JsonValue.events, feed_cons, feed_nil, visit, on_object_start, on_object_end]
    rw [do_collection_start_overflow _ _ _ _ _ _ hm]
    simp only [Option.some_bind]
    rw [do_collection_end_overflow]
    rfl
  | .object ws1 key ws2 ws3 v ws4 more, s, root, pos, m, ov, path, inv, hm => by
    simp only [JsonValue.events, feed_cons, feed_append, feed_nil, visit, on_object_start,
      on_object_end]
    rw [do_collection_start_overflow _ _ _ _ _ _ hm]
    simp only [Option.some_bind]
    rw [show json_object_traits.overflow_type = OverFlowType.Object from rfl,
      on_object_key_overflow]
    simp only [Option.some_bind]
    rw [value_feed_overflow input v _ root pos .Key (.Object :: m :: ov) path inv (by decide)]
    simp only [Option.some_bind, if_true]
    rw [members_feed_overflow input more _ root pos (m :: ov) path inv]
    simp only [Option.some_bind]
    rw [show OverFlowType.Object = json_object_traits.overflow_type from rfl,
      do_collection_end_overflow]
    rfl
/-- The further elements of an array met while the overflow is in use change nothing. -/
theorem elements_feed_overflow (input : Bytes) : ∀ (more : JsonElements) (s : Nat)
    (root : Node) (pos : List Node) (ov : List OverFlowType) (path : Bytes)
    (inv : List Invocation),
    feed input (more.events s) ⟨root, pos, .Array :: ov, path, inv⟩ =
      some ⟨root, pos, .Array :: ov, path, inv⟩
  | .nil, s, root, pos, ov, path, inv => rfl
  | .cons ws1 v ws2 tl, s, root, pos, ov, path, inv => by
    simp only [JsonElements.events, feed_append]
    rw [value_feed_overflow input v _ root pos .Array ov path inv (by decide)]
    simp only [Option.some_bind, reduceCtorEq, if_false]
    exact elements_feed_overflow input tl _ root pos ov path inv
/-- The further members of an object met while the overflow is in use change nothing. -/
theorem members_feed_overflow (input : Bytes) : ∀ (more : JsonMembers) (s : Nat)
    (root : Node) (pos : List Node) (ov : List OverFlowType) (path : Bytes)
    (inv : List Invocation),
    feed input (more.events s) ⟨root, pos, .Object :: ov, path, inv⟩ =
      some ⟨root, pos, .Object :: ov, path, inv⟩
  | .nil, s, root, pos, ov, path, inv => rfl
  | .cons ws1 key ws2 ws3 v ws4 tl, s, root, pos, ov, path, inv => by
    simp only [JsonMembers.events, feed_cons, feed_append, visit]
    rw [on_object_key_overflow]
    simp only [Option.some_bind]
    rw [value_feed_overflow input v _ root pos .Key (.Object :: ov) path inv (by decide)]
    simp only [Option.some_bind, if_true]
    exact members_feed_overflow input tl _ root pos ov path inv
end

/-! ### The text of `path_` -/

theorem location_text_append (l1 l2 : List LocationStep) :
    location_text (l1 ++ l2) = location_text l1 ++ location_text l2 := by
  induction l1 with
  | nil => rfl
  | cons step rest ih => cases step <;> simp [location_text, ih]

theorem dispatcher_path_eq_nil {loc : List LocationStep} (h : dispatcher_path loc = []) :
    loc = [] := by
  cases loc with
  | nil => rfl
  | cons step rest => cases step <;> simp [dispatcher_path, location_text] at h

theorem dispatcher_path_element (loc : List LocationStep) :
    dispatcher_path (loc ++ [.element]) =
      (if (dispatcher_path loc).isEmpty then dispatcher_path loc ++ [0x2E]
        else dispatcher_path loc) ++ [0x5B, 0x5D] := by
  cases loc with
  | nil => simp [dispatcher_path, location_text]
  | cons step rest =>
    cases step <;> simp [dispatcher_path, location_text, location_text_append]

theorem dispatcher_path_member (loc : List LocationStep) (key : Bytes) :
    dispatcher_path (loc ++ [.member key]) = dispatcher_path loc ++ [0x2E] ++ key := by
  cases loc with
  | nil => simp [dispatcher_path, location_text]
  | cons step rest =>
    cases step <;> simp [dispatcher_path, location_text, location_text_append]

theorem location_path_eq (loc : List LocationStep) :
    (if (dispatcher_path loc).isEmpty then [0x2E] else dispatcher_path loc) =
      location_path loc := by
  cases loc with
  | nil => rfl
  | cons step rest => cases step <;> simp [dispatcher_path, location_path, location_text]

theorem dispatcher_path_element_length (loc : List LocationStep) :
    dispatcher_path (loc ++ [.element]) = [] ∨ 2 ≤ (dispatcher_path (loc ++ [.element])).length := by
  right
  rw [dispatcher_path_element]
  simp

theorem dispatcher_path_member_length (loc : List LocationStep) (key : Bytes) (h : key ≠ []) :
    dispatcher_path (loc ++ [.member key]) = [] ∨
      2 ≤ (dispatcher_path (loc ++ [.member key])).length := by
  right
  rw [dispatcher_path_member]
  have := List.length_pos.2 h
  simp only [List.length_append, List.length_singleton]
  omega

/-! ### Where nothing is registered -/

theorem invocations_at_nil (regs : List (JsonValuePath × Nat)) (loc : List LocationStep)
    (h : ∀ rel, callbacks_for regs (loc ++ rel) = []) (type : JsonValueType)
    (data length : Nat) : invocations_at regs loc type data length = [] := by
  have := h []
  rw [List.append_nil] at this
  simp [invocations_at, this]

theorem callbacks_for_nil_step (regs : List (JsonValuePath × Nat)) (loc : List LocationStep)
    (h : ∀ rel, callbacks_for regs (loc ++ rel) = []) (step : LocationStep) :
    ∀ rel, callbacks_for regs ((loc ++ [step]) ++ rel) = [] := by
  intro rel
  rw [List.append_assoc]
  exact h _

mutual
theorem value_invocations_nil (regs : List (JsonValuePath × Nat)) : ∀ (v : JsonValue)
    (loc : List LocationStep) (s : Nat), (∀ rel, callbacks_for regs (loc ++ rel) = []) →
    v.invocations regs loc s = []
  | .primitive type text, loc, s, h => by
    simp only [JsonValue.invocations]
    exact invocations_at_nil regs loc h _ _ _
  | .empty_array ws, loc, s, h => by
    simp only [JsonValue.invocations]
    exact invocations_at_nil regs loc h _ _ _
  | .array ws1 v ws2 more, loc, s, h => by
    simp only [JsonValue.invocations]
    rw [value_invocations_nil regs v _ _ (callbacks_for_nil_step regs loc h _),
      elements_invocations_nil regs more _ _ (callbacks_for_nil_step regs loc h _),
      invocations_at_nil regs loc h]
    rfl
  | .empty_object ws, loc, s, h => by
    simp only [JsonValue.invocations]
    exact invocations_at_nil regs loc h _ _ _
  | .object ws1 key ws2 ws3 v ws4 more, loc, s, h => by
    simp only [JsonValue.invocations]
    rw [value_invocations_nil regs v _ _ (callbacks_for_nil_step regs loc h _),
      members_invocations_nil regs more _ _ (fun key => callbacks_for_nil_step regs loc h _),
      invocations_at_nil regs loc h]
    rfl
theorem elements_invocations_nil (regs : List (JsonValuePath × Nat)) : ∀ (more : JsonElements)
    (loc : List LocationStep) (s : Nat), (∀ rel, callbacks_for regs (loc ++ rel) = []) →
    more.invocations regs loc s = []
  | .nil, loc, s, h => rfl
  | .cons ws1 v ws2 tl, loc, s, h => by
    simp only [JsonElements.invocations]
    rw [value_invocations_nil regs v _ _ h, elements_invocations_nil regs tl _ _ h]
    rfl
theorem members_invocations_nil (regs : List (JsonValuePath × Nat)) : ∀ (more : JsonMembers)
    (loc : List LocationStep) (s : Nat),
    (∀ key rel, callbacks_for regs ((loc ++ [.member key]) ++ rel) = []) →
    more.invocations regs loc s = []
  | .nil, loc, s, h => rfl
  | .cons ws1 key ws2 ws3 v ws4 tl, loc, s, h => by
    simp only [JsonMembers.invocations]
    rw [value_invocations_nil regs v _ _ (h key), members_invocations_nil regs tl _ _ h]
    rfl
end

theorem Covers.covers_of_enter {regs : List (JsonValuePath × Nat)} {loc : List LocationStep}
    {n c : Node} (h : Covers regs loc n) (step : LocationStep) (hc : n.enter step = some c) :
    Covers regs (loc ++ [step]) c := by
  intro rel
  have := h (step :: rel)
  rw [Node.callbacks_at_cons, hc] at this
  simpa using this

theorem Covers.of_enter_none {regs : List (JsonValuePath × Nat)} {loc : List LocationStep}
    {n : Node} (h : Covers regs loc n) (step : LocationStep) (hc : n.enter step = none) :
    ∀ rel, callbacks_for regs ((loc ++ [step]) ++ rel) = [] := by
  intro rel
  have := h (step :: rel)
  rw [Node.callbacks_at_cons, hc] at this
  simpa using this.symm

/-- Without an object node nothing is registered below the members of an object. -/
theorem Covers.of_no_object {regs : List (JsonValuePath × Nat)} {loc : List LocationStep}
    {n : Node} (h : Covers regs loc n)
    (hc : n.children.find? (fun c => decide (c.type = .Object)) = none) (key : Bytes) :
    ∀ rel, callbacks_for regs ((loc ++ [.member key]) ++ rel) = [] :=
  h.of_enter_none (.member key) (by simp [Node.enter, hc])

/-! ### The bytes of the input -/

theorem Aligned.sub {input : Bytes} {s : Nat} {text : Bytes} (h : Aligned input s text)
    (a b c : Bytes) (htext : text = a ++ (b ++ c)) (s1 : Nat) (hs : s1 = s + a.length) :
    Aligned input s1 b := by
  obtain ⟨pre, post, rfl, rfl⟩ := h
  subst htext hs
  exact ⟨pre ++ a, c ++ post, by simp, by simp⟩

theorem Aligned.read {input : Bytes} {s : Nat} {key : Bytes} (h : Aligned input s key) :
    (input.drop s).take key.length = key := by
  obtain ⟨pre, post, rfl, rfl⟩ := h
  simp

end flumps


namespace flumps

open JsonCallbackVisitorImpl

/-! ### While the dispatcher stands at the node for a location -/

theorem exec_callbacks_covers (regs : List (JsonValuePath × Nat)) (root n : Node)
    (anc : List Node) (ov : List OverFlowType) (loc : List LocationStep)
    (inv : List Invocation) (hc : Covers regs loc n) (type : JsonValueType)
    (data length : Nat) :
    exec_callbacks ⟨root, n :: anc, ov, dispatcher_path loc, inv⟩ type data length =
      some ⟨root, n :: anc, ov, dispatcher_path loc,
        inv ++ invocations_at regs loc type data length⟩ := by
  have h := hc []
  rw [List.append_nil, Node.callbacks_at_nil] at h
  simp only [exec_callbacks, invocations_at, h, location_path_eq]

theorem step_back_up_stay (root a p : Node) (anc : List Node) (ov : List OverFlowType)
    (path : Bytes) (inv : List Invocation) (hp : p.type ≠ .Object) :
    step_back_up ⟨root, a :: p :: anc, ov, path, inv⟩ =
      some ⟨root, a :: p :: anc, ov, path, inv⟩ := by
  simp [step_back_up, hp]

theorem shrink_append (a b : Bytes) : shrink (a ++ b) b.length = some a := by
  simp [shrink]

theorem step_back_up_key (root c o : Node) (anc : List Node) (ov : List OverFlowType)
    (path : Bytes) (inv : List Invocation) (ho : o.type = .Object) :
    step_back_up ⟨root, c :: o :: anc, ov, path ++ c.key, inv⟩ =
      some ⟨root, o :: anc, ov, path, inv⟩ := by
  simp [step_back_up, ho, shrink_append]

theorem on_primitive_value_covers (regs : List (JsonValuePath × Nat)) (root n : Node)
    (anc : List Node) (loc : List LocationStep) (inv : List Invocation)
    (hn : n.type ≠ .Object) (hc : Covers regs loc n) (type : JsonValueType)
    (start length : Nat) :
    on_primitive_value ⟨root, n :: anc, [], dispatcher_path loc, inv⟩ type start length =
      step_back_up ⟨root, n :: anc, [], dispatcher_path loc,
        inv ++ invocations_at regs loc type start length⟩ := by
  simp only [on_primitive_value, hn, if_false]
  rw [exec_callbacks_covers regs root n anc [] loc inv hc]
  rfl

theorem on_array_start_covers (root n : Node) (anc : List Node) (loc : List LocationStep)
    (inv : List Invocation) (hn : n.type ≠ .Object) (start : Nat) :
    on_array_start ⟨root, n :: anc, [], dispatcher_path loc, inv⟩ start =
      match n.enter .element with
      | some a => some ⟨root, a :: n :: anc, [], dispatcher_path (loc ++ [.element]), inv⟩
      | none => some ⟨root, n :: anc, [.Array], dispatcher_path loc, inv⟩ := by
  simp only [on_array_start, do_collection_start, hn, if_false, Node.enter]
  rw [show json_array_traits.node_type = NodeType.Array from rfl]
  cases n.children.find? (fun c => decide (c.type = .Array)) with
  | none => rfl
  | some a => simp [dispatcher_path_element, json_array_traits]

theorem on_object_start_covers (root n : Node) (anc : List Node) (loc : List LocationStep)
    (inv : List Invocation) (hn : n.type ≠ .Object) (start : Nat) :
    on_object_start ⟨root, n :: anc, [], dispatcher_path loc, inv⟩ start =
      match n.children.find? (fun c => decide (c.type = .Object)) with
      | some o => some ⟨root, o :: n :: anc, [], dispatcher_path loc ++ [0x2E], inv⟩
      | none => some ⟨root, n :: anc, [.Object], dispatcher_path loc, inv⟩ := by
  simp only [on_object_start, do_collection_start, hn, if_false]
  rw [show json_object_traits.node_type = NodeType.Object from rfl]
  cases n.children.find? (fun c => decide (c.type = .Object)) with
  | none => rfl
  | some o =>
    simp only [reduceCtorEq, and_false, if_false]
    rfl

theorem on_array_end_covers (regs : List (JsonValuePath × Nat)) (root a n : Node)
    (anc : List Node) (loc : List LocationStep) (inv : List Invocation)
    (ha : a.type = .Array) (hc : Covers regs loc n)
    (hp : dispatcher_path loc = [] ∨ 2 ≤ (dispatcher_path loc).length) (start length : Nat) :
    on_array_end ⟨root, a :: n :: anc, [], dispatcher_path (loc ++ [.element]), inv⟩ start
        length =
      step_back_up ⟨root, n :: anc, [], dispatcher_path loc,
        inv ++ invocations_at regs loc .Array start length⟩ := by
  have hpath : (if (if (dispatcher_path loc).isEmpty then dispatcher_path loc ++ [0x2E]
        else dispatcher_path loc).length = 1 then []
      else (if (dispatcher_path loc).isEmpty then dispatcher_path loc ++ [0x2E]
        else dispatcher_path loc)) = dispatcher_path loc := by
    rcases hp with h | h
    · simp [h]
    · have hne : (dispatcher_path loc).isEmpty = false := by
        cases hd : dispatcher_path loc with
        | nil => simp [hd] at h
        | cons x xs => rfl
      simp only [hne, Bool.false_eq_true, if_false]
      rw [if_neg (by omega)]
  have hs : shrink ((if (dispatcher_path loc).isEmpty then dispatcher_path loc ++ [0x2E]
      else dispatcher_path loc) ++ [0x5B, 0x5D]) 2 = some (if (dispatcher_path loc).isEmpty then
        dispatcher_path loc ++ [0x2E] else dispatcher_path loc) :=
    shrink_append _ [0x5B, 0x5D]
  simp only [on_array_end, do_collection_end, ha, json_array_traits, ne_eq, not_true_eq_false,
    if_false, dispatcher_path_element, List.length_cons, List.length_nil, Nat.zero_add,
    Nat.reduceAdd, hs, Option.some_bind, true_and, hpath]
  rw [exec_callbacks_covers regs root n anc [] loc inv hc]
  rfl

theorem on_array_end_overflow (regs : List (JsonValuePath × Nat)) (root n : Node)
    (anc : List Node) (loc : List LocationStep) (inv : List Invocation)
    (hc : Covers regs loc n) (start length : Nat) :
    on_array_end ⟨root, n :: anc, [.Array], dispatcher_path loc, inv⟩ start length =
      step_back_up ⟨root, n :: anc, [], dispatcher_path loc,
        inv ++ invocations_at regs loc .Array start length⟩ := by
  simp only [on_array_end, do_collection_end]
  rw [show json_array_traits.overflow_type = OverFlowType.Array from rfl]
  simp only [ne_eq, not_true_eq_false, if_false]
  rw [exec_callbacks_covers regs root n anc [] loc inv hc]
  rfl

theorem on_object_end_covers (regs : List (JsonValuePath × Nat)) (root o n : Node)
    (anc : List Node) (loc : List LocationStep) (inv : List Invocation)
    (ho : o.type = .Object) (hc : Covers regs loc n) (start length : Nat) :
    on_object_end ⟨root, o :: n :: anc, [], dispatcher_path loc ++ [0x2E], inv⟩ start length =
      step_back_up ⟨root, n :: anc, [], dispatcher_path loc,
        inv ++ invocations_at regs loc .Object start length⟩ := by
  simp only [on_object_end, do_collection_end, ho]
  rw [show json_object_traits.node_type = NodeType.Object from rfl,
    show json_object_traits.node_repr = [0x2E] from rfl]
  simp only [ne_eq, not_true_eq_false, if_false]
  rw [shrink_append]
  simp only [Option.some_bind, reduceCtorEq, false_and, if_false]
  rw [exec_callbacks_covers regs root n anc [] loc inv hc]
  rfl

theorem on_object_end_overflow (regs : List (JsonValuePath × Nat)) (root n : Node)
    (anc : List Node) (loc : List LocationStep) (inv : List Invocation)
    (hc : Covers regs loc n) (start length : Nat) :
    on_object_end ⟨root, n :: anc, [.Object], dispatcher_path loc, inv⟩ start length =
      step_back_up ⟨root, n :: anc, [], dispatcher_path loc,
        inv ++ invocations_at regs loc .Object start length⟩ := by
  simp only [on_object_end, do_collection_end]
  rw [show json_object_traits.overflow_type = OverFlowType.Object from rfl]
  simp only [ne_eq, not_true_eq_false, if_false]
  rw [exec_callbacks_covers regs root n anc [] loc inv hc]
  rfl

theorem on_object_key_covers (root o n : Node) (anc : List Node) (loc : List LocationStep)
    (inv : List Invocation) (ho : o.type = .Object)
    (hno : n.children.find? (fun c => decide (c.type = .Object)) = some o) (key : Bytes) :
    on_object_key ⟨root, o :: n :: anc, [], dispatcher_path loc ++ [0x2E], inv⟩ key =
      match n.enter (.member key) with
      | some c =>
        some ⟨root, c :: o :: n :: anc, [], dispatcher_path (loc ++ [.member key]), inv⟩
      | none => some ⟨root, o :: n :: anc, [.Key], dispatcher_path loc ++ [0x2E], inv⟩ := by
  simp only [on_object_key, ho, ne_eq, not_true_eq_false, if_false, Node.enter, hno,
    Option.some_bind]
  cases hf : o.children.find? (fun c => decide (c.type = .Key ∧ c.key = key)) with
  | none => rfl
  | some c =>
    have := List.find?_some hf
    simp only [decide_eq_true_eq] at this
    simp only [dispatcher_path_member, this.2]

/-- A key and its value, met at the object node of a covered node: the invocations for
the value are made, and the dispatcher is back at the object node. -/
theorem member_feed (regs : List (JsonValuePath × Nat)) (input : Bytes) (v : JsonValue)
    (hv : v.Dispatched regs input) (root o n : Node) (anc : List Node)
    (loc : List LocationStep) (inv : List Invocation) (key : Bytes) (ks sv : Nat)
    (ho : o.type = .Object)
    (hno : n.children.find? (fun c => decide (c.type = .Object)) = some o)
    (hc : Covers regs loc n) (hk : n.KeysNonEmpty) (hkey : Aligned input ks key)
    (hval : Aligned input sv v.render) :
    feed input (.on_object_key ks key.length :: v.events sv)
        ⟨root, o :: n :: anc, [], dispatcher_path loc ++ [0x2E], inv⟩ =
      some ⟨root, o :: n :: anc, [], dispatcher_path loc ++ [0x2E],
        inv ++ v.invocations regs (loc ++ [.member key]) sv⟩ := by
  rw [feed_cons]
  simp only [visit, hkey.read]
  rw [on_object_key_covers root o n anc loc inv ho hno key]
  cases he : n.enter (.member key) with
  | none =>
    simp only [Option.some_bind]
    rw [value_feed_overflow input v sv root (o :: n :: anc) .Key [] _ inv (by decide),
      value_invocations_nil regs v _ _ (hc.of_enter_none _ he)]
    simp
  | some c =>
    have hfind : o.children.find? (fun c => decide (c.type = .Key ∧ c.key = key)) = some c := by
      simpa [Node.enter, hno] using he
    have hck := List.find?_some hfind
    simp only [decide_eq_true_eq] at hck
    have hne : key ≠ [] := hk [] key (by simp [Node.walk, he])
    simp only [Option.some_bind]
    rw [hv sv root c (o :: n :: anc) (loc ++ [.member key]) inv (by rw [hck.1]; decide)
      (hc.covers_of_enter _ he) (hk.keys_of_enter _ he) (dispatcher_path_member_length loc key hne) hval,
      dispatcher_path_member]
    have := step_back_up_key root c o (n :: anc) [] (dispatcher_path loc ++ [0x2E])
      (inv ++ v.invocations regs (loc ++ [.member key]) sv) ho
    rw [hck.2] at this
    exact this

/-- The same, with the events that follow. -/
theorem member_feed_then (regs : List (JsonValuePath × Nat)) (input : Bytes) (v : JsonValue)
    (hv : v.Dispatched regs input) (root o n : Node) (anc : List Node)
    (loc : List LocationStep) (inv : List Invocation) (key : Bytes) (ks sv : Nat)
    (ho : o.type = .Object)
    (hno : n.children.find? (fun c => decide (c.type = .Object)) = some o)
    (hc : Covers regs loc n) (hk : n.KeysNonEmpty) (hkey : Aligned input ks key)
    (hval : Aligned input sv v.render) (rest : List Event) :
    feed input (.on_object_key ks key.length :: (v.events sv ++ rest))
        ⟨root, o :: n :: anc, [], dispatcher_path loc ++ [0x2E], inv⟩ =
      feed input rest ⟨root, o :: n :: anc, [], dispatcher_path loc ++ [0x2E],
        inv ++ v.invocations regs (loc ++ [.member key]) sv⟩ := by
  rw [← List.cons_append, feed_append,
    member_feed regs input v hv root o n anc loc inv key ks sv ho hno hc hk hkey hval]
  rfl

mutual
/-- Every value is dispatched as expected. -/
theorem value_dispatched (regs : List (JsonValuePath × Nat)) (input : Bytes) :
    ∀ v : JsonValue, v.Dispatched regs input
  | .primitive type text => by
    intro s root n anc loc inv hn hc hk hp hal
    simp only [JsonValue.events, JsonValue.invocations, feed_cons, feed_nil, visit]
    rw [on_primitive_value_covers regs root n anc loc inv hn hc]
    cases step_back_up _ <;> rfl
  | .empty_array ws => by
    intro s root n anc loc inv hn hc hk hp hal
    simp only [JsonValue.events, JsonValue.invocations, feed_cons, feed_nil, visit]
    rw [on_array_start_covers root n anc loc inv hn]
    cases he : n.enter .element with
    | none =>
      simp only [Option.some_bind]
      rw [on_array_end_overflow regs root n anc loc inv hc]
      cases step_back_up _ <;> rfl
    | some a =>
      have ha : a.type = .Array := by
        have := List.find?_some (show n.children.find? _ = some a from he)
        simpa using this
      simp only [Option.some_bind]
      rw [on_array_end_covers regs root a n anc loc inv ha hc hp]
      cases step_back_up _ <;> rfl
  | .array ws1 v ws2 more => by
    intro s root n anc loc inv hn hc hk hp hal
    have hv := value_dispatched regs input v
    have halv : Aligned input (s + 1 + ws1.length) v.render :=
      hal.sub (0x5B :: ws1) v.render (ws2 ++ (more.render ++ [0x5D]))
        (by simp [JsonValue.render]) _ (by simp only [List.length_cons, List.length_append, List.length_nil]; omega)
    have halm : Aligned input (s + 1 + ws1.length + v.render.length + ws2.length) more.render :=
      hal.sub (0x5B :: (ws1 ++ (v.render ++ ws2))) more.render [0x5D]
        (by simp [JsonValue.render]) _ (by simp only [List.length_cons, List.length_append, List.length_nil]; omega)
    simp only [JsonValue.events, JsonValue.invocations, feed_cons, feed_append, feed_nil,
      visit]
    rw [on_array_start_covers root n anc loc inv hn]
    cases he : n.enter .element with
    | none =>
      simp only [Option.some_bind]
      rw [value_feed_overflow input v _ root (n :: anc) .Array [] _ inv (by decide)]
      simp only [Option.some_bind, reduceCtorEq, if_false]
      rw [elements_feed_overflow input more _ root (n :: anc) [] _ inv]
      simp only [Option.some_bind]
      rw [on_array_end_overflow regs root n anc loc inv hc,
        value_invocations_nil regs v _ _ (hc.of_enter_none _ he),
        elements_invocations_nil regs more _ _ (hc.of_enter_none _ he)]
      simp only [List.nil_append]
      cases step_back_up _ <;> rfl
    | some a =>
      have ha : a.type = .Array := by
        have := List.find?_some (show n.children.find? _ = some a from he)
        simpa using this
      simp only [Option.some_bind]
      rw [hv _ root a (n :: anc) (loc ++ [LocationStep.element]) inv (by rw [ha]; decide)
        (hc.covers_of_enter _ he) (hk.keys_of_enter _ he) (dispatcher_path_element_length loc) halv,
        step_back_up_stay root a n anc [] _ _ hn]
      simp only [Option.some_bind]
      rw [elements_dispatched regs input more _ root a n anc loc _ ha hn (hc.covers_of_enter _ he)
        (hk.keys_of_enter _ he) halm]
      simp only [Option.some_bind]
      rw [on_array_end_covers regs root a n anc loc _ ha hc hp]
      simp only [List.append_assoc]
      cases step_back_up _ <;> rfl
  | .empty_object ws => by
    intro s root n anc loc inv hn hc hk hp hal
    simp only [JsonValue.events, JsonValue.invocations, feed_cons, feed_nil, visit]
    rw [on_object_start_covers root n anc loc inv hn]
    cases he : n.children.find? (fun c => decide (c.type = .Object)) with
    | none =>
      simp only [Option.some_bind]
      rw [on_object_end_overflow regs root n anc loc inv hc]
      cases step_back_up _ <;> rfl
    | some o =>
      have ho : o.type = .Object := by
        have := List.find?_some he
        simpa using this
      simp only [Option.some_bind]
      rw [on_object_end_covers regs root o n anc loc inv ho hc]
      cases step_back_up _ <;> rfl
  | .object ws1 key ws2 ws3 v ws4 more => by
    intro s root n anc loc inv hn hc hk hp hal
    have hv := value_dispatched regs input v
    have halk : Aligned input (s + 1 + ws1.length + 1) key :=
      hal.sub (0x7B :: (ws1 ++ [0x22])) key
        (0x22 :: (ws2 ++ [0x3A]) ++ (ws3 ++ (v.render ++ (ws4 ++ (more.render ++ [0x7D])))))
        (by simp [JsonValue.render, key_text]) _
        (by simp only [List.length_cons, List.length_append, List.length_nil]; omega)
    have halv : Aligned input (s + 1 + (key_text ws1 key ws2).length + ws3.length) v.render :=
      hal.sub (0x7B :: (key_text ws1 key ws2 ++ ws3)) v.render (ws4 ++ (more.render ++ [0x7D]))
        (by simp [JsonValue.render]) _ (by simp only [List.length_cons, List.length_append, List.length_nil]; omega)
    have halm : Aligned input
        (s + 1 + (key_text ws1 key ws2).length + ws3.length + v.render.length + ws4.length)
        more.render :=
      hal.sub (0x7B :: (key_text ws1 key ws2 ++ (ws3 ++ (v.render ++ ws4)))) more.render [0x7D]
        (by simp [JsonValue.render]) _ (by simp only [List.length_cons, List.length_append, List.length_nil]; omega)
    simp only [JsonValue.events, JsonValue.invocations]
    rw [feed_cons]
    simp only [visit]
    rw [on_object_start_covers root n anc loc inv hn]
    cases he : n.children.find? (fun c => decide (c.type = .Object)) with
    | none =>
      simp only [Option.some_bind, feed_append, feed_cons, feed_nil, visit]
      rw [on_object_key_overflow]
      simp only [Option.some_bind]
      rw [value_feed_overflow input v _ root (n :: anc) .Key [.Object] _ inv (by decide)]
      simp only [Option.some_bind, if_true]
      rw [members_feed_overflow input more _ root (n :: anc) [] _ inv]
      simp only [Option.some_bind]
      rw [on_object_end_overflow regs root n anc loc inv hc,
        value_invocations_nil regs v _ _ (hc.of_no_object he key),
        members_invocations_nil regs more loc _ (fun k => hc.of_no_object he k)]
      simp only [List.nil_append]
      cases step_back_up _ <;> rfl
    | some o =>
      have ho : o.type = .Object := by
        have := List.find?_some he
        simpa using this
      simp only [Option.some_bind]
      rw [member_feed_then regs input v hv root o n anc loc inv key _ _ ho he hc hk halk halv,
        feed_append, members_dispatched regs input more _ root o n anc loc _ ho he hc hk halm]
      simp only [Option.some_bind, feed_cons, feed_nil, visit]
      rw [on_object_end_covers regs root o n anc loc _ ho hc]
      simp only [List.append_assoc]
      cases step_back_up _ <;> rfl
/-- The further elements of an array, met at its array node. -/
theorem elements_dispatched (regs : List (JsonValuePath × Nat)) (input : Bytes) :
    ∀ (more : JsonElements) (s : Nat) (root a n : Node) (anc : List Node)
      (loc : List LocationStep) (inv : List Invocation),
      a.type = .Array → n.type ≠ .Object → Covers regs (loc ++ [.element]) a →
      a.KeysNonEmpty → Aligned input s more.render →
      feed input (more.events s)
          ⟨root, a :: n :: anc, [], dispatcher_path (loc ++ [.element]), inv⟩ =
        some ⟨root, a :: n :: anc, [], dispatcher_path (loc ++ [.element]),
          inv ++ more.invocations regs (loc ++ [.element]) s⟩
  | .nil, s, root, a, n, anc, loc, inv, ha, hn, hc, hk, hal => by
    simp [JsonElements.events, JsonElements.invocations, feed_nil]
  | .cons ws1 v ws2 tl, s, root, a, n, anc, loc, inv, ha, hn, hc, hk, hal => by
    have hv := value_dispatched regs input v
    have halv : Aligned input (s + 1 + ws1.length) v.render :=
      hal.sub (0x2C :: ws1) v.render (ws2 ++ tl.render)
        (by simp [JsonElements.render]) _ (by simp only [List.length_cons, List.length_append, List.length_nil]; omega)
    have halm : Aligned input (s + 1 + ws1.length + v.render.length + ws2.length) tl.render :=
      hal.sub (0x2C :: (ws1 ++ (v.render ++ ws2))) tl.render []
        (by simp [JsonElements.render]) _ (by simp only [List.length_cons, List.length_append, List.length_nil]; omega)
    simp only [JsonElements.events, JsonElements.invocations, feed_append]
    rw [hv _ root a (n :: anc) (loc ++ [LocationStep.element]) inv (by rw [ha]; decide) hc hk
      (dispatcher_path_element_length loc) halv, step_back_up_stay root a n anc [] _ _ hn]
    simp only [Option.some_bind]
    rw [elements_dispatched regs input tl _ root a n anc loc _ ha hn hc hk halm]
    simp only [List.append_assoc]
/-- The further members of an object, met at its object node. -/
theorem members_dispatched (regs : List (JsonValuePath × Nat)) (input : Bytes) :
    ∀ (more : JsonMembers) (s : Nat) (root o n : Node) (anc : List Node)
      (loc : List LocationStep) (inv : List Invocation),
      o.type = .Object → n.children.find? (fun c => decide (c.type = .Object)) = some o →
      Covers regs loc n → n.KeysNonEmpty → Aligned input s more.render →
      feed input (more.events s)
          ⟨root, o :: n :: anc, [], dispatcher_path loc ++ [0x2E], inv⟩ =
        some ⟨root, o :: n :: anc, [], dispatcher_path loc ++ [0x2E],
          inv ++ more.invocations regs loc s⟩
  | .nil, s, root, o, n, anc, loc, inv, ho, hno, hc, hk, hal => by
    simp [JsonMembers.events, JsonMembers.invocations, feed_nil]
  | .cons ws1 key ws2 ws3 v ws4 tl, s, root, o, n, anc, loc, inv, ho, hno, hc, hk, hal => by
    have hv := value_dispatched regs input v
    have halk : Aligned input (s + 1 + ws1.length + 1) key :=
      hal.sub (0x2C :: (ws1 ++ [0x22])) key
        (0x22 :: (ws2 ++ [0x3A]) ++ (ws3 ++ (v.render ++ (ws4 ++ tl.render))))
        (by simp [JsonMembers.render, key_text]) _
        (by simp only [List.length_cons, List.length_append, List.length_nil]; omega)
    have halv : Aligned input (s + 1 + (key_text ws1 key ws2).length + ws3.length) v.render :=
      hal.sub (0x2C :: (key_text ws1 key ws2 ++ ws3)) v.render (ws4 ++ tl.render)
        (by simp [JsonMembers.render]) _ (by simp only [List.length_cons, List.length_append, List.length_nil]; omega)
    have halm : Aligned input
        (s + 1 + (key_text ws1 key ws2).length + ws3.length + v.render.length + ws4.length)
        tl.render :=
      hal.sub (0x2C :: (key_text ws1 key ws2 ++ (ws3 ++ (v.render ++ ws4)))) tl.render []
        (by simp [JsonMembers.render]) _ (by simp only [List.length_cons, List.length_append, List.length_nil]; omega)
    simp only [JsonMembers.events, JsonMembers.invocations]
    rw [member_feed_then regs input v hv root o n anc loc inv key _ _ ho hno hc hk halk halv,
      members_dispatched regs input tl _ root o n anc loc _ ho hno hc hk halm]
    simp only [List.append_assoc]
end

end flumps


namespace flumps

/-! ## `chomp_utf8_char` against the reference decoder -/

theorem chomp_utf8_continuation_local (k : Nat) : ∀ (acc q : Nat) (r : Bytes) (v : Nat)
    (c1 : Cursor), chomp_utf8_continuation k acc ⟨q, r⟩ = .ok v c1 →
      ∃ t, t.length = k ∧ r = t ++ c1.rest ∧ c1.pos = q + k ∧
        ∀ q1 tail, chomp_utf8_continuation k acc ⟨q1, t ++ tail⟩ = .ok v ⟨q1 + k, tail⟩ := by
  induction k with
  | zero =>
    intro acc q r v c1 h
    simp only [chomp_utf8_continuation, Res.ok.injEq] at h
    obtain ⟨rfl, rfl⟩ := h
    exact ⟨[], rfl, rfl, rfl, fun q1 tail => rfl⟩
  | succ k ih =>
    intro acc q r v c1 h
    cases r with
    | nil => simp [chomp_utf8_continuation, Cursor.peek] at h
    | cons x r =>
      by_cases hc : x &&& 0xC0 ≠ 0x80
      · simp only [chomp_utf8_continuation, Cursor.peek_cons] at h
        rw [if_pos hc] at h
        cases h
      · simp only [chomp_utf8_continuation, Cursor.peek_cons] at h
        rw [if_neg hc, Cursor.next_cons] at h
        obtain ⟨t, h1, h2, h3, h4⟩ := ih _ _ _ _ _ h
        refine ⟨x :: t, by simp [h1], by simp [← h2], by omega, fun q1 tail => ?_⟩
        simp only [chomp_utf8_continuation, List.cons_append, Cursor.peek_cons]
        rw [if_neg hc, Cursor.next_cons, h4]
        simp [Nat.add_assoc, Nat.add_comm 1 k]

theorem chomp_utf8_char_local (p b : Nat) (r : Bytes) (cp : Nat) (c1 : Cursor)
    (h : chomp_utf8_char ⟨p, b :: r⟩ = .ok cp c1) :
    ∃ t, r = t ++ c1.rest ∧ c1.pos = p + (t.length + 1) ∧
      ∀ p1 tail, chomp_utf8_char ⟨p1, b :: (t ++ tail)⟩ = .ok cp ⟨p1 + (t.length + 1), tail⟩ := by
  cases hl : utf8_lead b with
  | none => simp [chomp_utf8_char, hl] at h
  | some ak =>
    obtain ⟨a, k⟩ := ak
    by_cases hlen : r.length < k
    · simp only [chomp_utf8_char, hl, Cursor.next_cons] at h
      rw [if_pos hlen] at h
      cases h
    · simp only [chomp_utf8_char, hl, Cursor.next_cons] at h
      rw [if_neg hlen] at h
      cases hc : chomp_utf8_continuation k a ⟨p + 1, r⟩ with
      | fuel => rw [hc] at h; cases h
      | throw e c2 => rw [hc] at h; cases h
      | ok v c2 =>
        rw [hc] at h
        simp only [Res.bind_ok] at h
        obtain ⟨t, h1, h2, h3, h4⟩ := chomp_utf8_continuation_local k a (p + 1) r v c2 hc
        cases hty : code_point_type v with
        | error err => rw [hty] at h; cases h
        | ok ty =>
          rw [hty] at h
          simp only [] at h
          by_cases hns : ty ≠ .non_surrogate
          · rw [if_pos hns] at h
            cases h
          · rw [if_neg hns] at h
            simp only [Res.ok.injEq] at h
            obtain ⟨rfl, rfl⟩ := h
            refine ⟨t, h2, by omega, fun p1 tail => ?_⟩
            simp only [chomp_utf8_char, hl, Cursor.next_cons]
            rw [if_neg (by simp [h1]), h4]
            simp only [Res.bind_ok, hty]
            rw [if_neg hns]
            simp [h1, Nat.add_assoc, Nat.add_comm 1 k]

/-! ## The failures of `chomp_utf8_char` -/

theorem chomp_utf8_continuation_not_fuel (k : Nat) : ∀ (acc : Nat) (c : Cursor),
    (∃ v c1, chomp_utf8_continuation k acc c = .ok v c1) ∨
      ∃ what c1, chomp_utf8_continuation k acc c = .throw ⟨.Utf8DecodeError, what⟩ c1 := by
  induction k with
  | zero => intro acc c; exact Or.inl ⟨_, _, rfl⟩
  | succ k ih =>
    intro acc c
    by_cases hc : c.peek &&& 0xC0 ≠ 0x80
    · refine Or.inr ⟨"Invalid: multi-byte utf-8 byte invalid", c, ?_⟩
      simp only [chomp_utf8_continuation]
      rw [if_pos hc]
    · simp only [chomp_utf8_continuation]
      rw [if_neg hc]
      exact ih _ _

/-- A call of `chomp_utf8_char` returns or throws one of its two kinds of error. -/
theorem chomp_utf8_char_total (c : Cursor) :
    (∃ v c1, chomp_utf8_char c = .ok v c1) ∨
      ∃ e c1, chomp_utf8_char c = .throw e c1 ∧
        (e.kind = .Utf8DecodeError ∨ e.kind = .UnicodeCodePointError) := by
  have tail : ∀ (v : Nat) (c1 : Cursor),
      (∃ v1 c2, (match code_point_type v with
        | .error e => (Res.throw e c1 : Res Cursor Nat)
        | .ok t =>
          if t ≠ .non_surrogate then
            .throw ⟨.Utf8DecodeError, "Invalid: surrogate code point present"⟩ c1
          else .ok v c1) = .ok v1 c2) ∨
      ∃ e c2, (match code_point_type v with
        | .error e => (Res.throw e c1 : Res Cursor Nat)
        | .ok t =>
          if t ≠ .non_surrogate then
            .throw ⟨.Utf8DecodeError, "Invalid: surrogate code point present"⟩ c1
          else .ok v c1) = .throw e c2 ∧
        (e.kind = .Utf8DecodeError ∨ e.kind = .UnicodeCodePointError) := by
    intro v c1
    unfold code_point_type
    by_cases h1 : v > 0x10FFFF
    · rw [if_pos h1]
      exact Or.inr ⟨_, _, rfl, Or.inr rfl⟩
    · rw [if_neg h1]
      by_cases h2 : v < 0xD800 ∨ v > 0xDFFF
      · rw [if_pos h2]
        exact Or.inl ⟨_, _, rfl⟩
      · rw [if_neg h2]
        by_cases h3 : v ≤ 0xDBFF
        · rw [if_pos h3]
          exact Or.inr ⟨_, _, rfl, Or.inl rfl⟩
        · rw [if_neg h3]
          exact Or.inr ⟨_, _, rfl, Or.inl rfl⟩
  obtain ⟨p, rest⟩ := c
  cases rest with
  | nil =>
    simp only [chomp_utf8_char, Res.bind_ok]
    exact tail 0 _
  | cons b r =>
    cases hl : utf8_lead b with
    | none =>
      simp only [chomp_utf8_char, hl]
      exact Or.inr ⟨_, _, rfl, Or.inl rfl⟩
    | some ak =>
      obtain ⟨a, k⟩ := ak
      simp only [chomp_utf8_char, hl, Cursor.next_cons]
      by_cases hlen : r.length < k
      · rw [if_pos hlen]
        exact Or.inr ⟨_, _, rfl, Or.inl rfl⟩
      · rw [if_neg hlen]
        rcases chomp_utf8_continuation_not_fuel k a ⟨p + 1, r⟩ with ⟨v, c1, h⟩ | ⟨what, c1, h⟩
        · rw [h]
          exact tail v c1
        · rw [h]
          exact Or.inr ⟨_, _, rfl, Or.inl rfl⟩

end flumps


namespace flumps

/-! ## The escapes that `utf8_to_json_string_content` writes -/

theorem to_hex_and_four (v : Nat) : is_hex (to_hex (v &&& 4)) = true := by
  have h : v &&& 4 ≤ 4 := Nat.and_le_right
  unfold to_hex
  rw [if_pos (by omega)]
  simp only [is_hex, Bool.or_eq_true, Bool.and_eq_true, decide_eq_true_eq]
  omega

theorem set_append_at (output l : Bytes) (i v : Nat) :
    (output ++ l).set (output.length + i) v = output ++ l.set i v := by
  rw [List.set_append_right _ _ (by omega)]
  simp

/-- The loop that writes the hexadecimal digits of a byte over the last two characters of
`\u0000`. -/
theorem hex_insert_loop_byte (b : Nat) (hb : b < 256) (output : Bytes) :
    ∃ x y, is_hex x = true ∧ is_hex y = true ∧
      hex_insert_loop (b + 1) b (output.length + 5)
          (output ++ [0x5C, 0x75, 0x30, 0x30, 0x30, 0x30]) =
        some (output ++ [0x5C, 0x75, 0x30, 0x30, x, y]) := by
  rcases Nat.eq_zero_or_pos b with rfl | hpos
  · exact ⟨0x30, 0x30, by decide, by decide, by simp [hex_insert_loop]⟩
  · obtain ⟨n, rfl⟩ : ∃ n, b = n + 1 := ⟨b - 1, by omega⟩
    have e1 : hex_insert_loop (n + 1 + 1) (n + 1) (output.length + 5)
        (output ++ [0x5C, 0x75, 0x30, 0x30, 0x30, 0x30]) =
        hex_insert_loop (n + 1) ((n + 1) >>> 4) (output.length + 4)
          (output ++ [0x5C, 0x75, 0x30, 0x30, 0x30, to_hex ((n + 1) &&& 4)]) := by
      rw [hex_insert_loop, if_pos (by omega), set_append_at]
      rfl
    rw [e1]
    by_cases h2 : (n + 1) >>> 4 > 0
    · have hn : 16 ≤ n + 1 := by
        rw [Nat.shiftRight_eq_div_pow] at h2
        omega
      obtain ⟨m, rfl⟩ : ∃ m, n = m + 1 := ⟨n - 1, by omega⟩
      have e2 : hex_insert_loop (m + 1 + 1) ((m + 1 + 1) >>> 4) (output.length + 4)
          (output ++ [0x5C, 0x75, 0x30, 0x30, 0x30, to_hex ((m + 1 + 1) &&& 4)]) =
          hex_insert_loop (m + 1) (((m + 1 + 1) >>> 4) >>> 4) (output.length + 3)
            (output ++ [0x5C, 0x75, 0x30, 0x30, to_hex (((m + 1 + 1) >>> 4) &&& 4),
              to_hex ((m + 1 + 1) &&& 4)]) := by
        rw [hex_insert_loop, if_pos h2, set_append_at]
        rfl
      have h3 : ¬ (((m + 1 + 1) >>> 4) >>> 4 > 0) := by
        rw [Nat.shiftRight_eq_div_pow, Nat.shiftRight_eq_div_pow]
        omega
      rw [e2, hex_insert_loop, if_neg h3]
      exact ⟨_, _, to_hex_and_four _, to_hex_and_four _, rfl⟩
    · rw [hex_insert_loop, if_neg h2]
      exact ⟨0x30, _, by decide, to_hex_and_four _, rfl⟩

theorem code_point_to_json_escape_byte (b : Nat) (hb : b < 256) (output : Bytes) :
    ∃ x y, is_hex x = true ∧ is_hex y = true ∧
      code_point_to_json_escape 2 b output =
        .ok (output ++ [0x5C, 0x75, 0x30, 0x30, x, y]) () := by
  obtain ⟨x, y, hx, hy, h⟩ := hex_insert_loop_byte b hb output
  refine ⟨x, y, hx, hy, ?_⟩
  have hlen : (output ++ [0x5C, 0x75, 0x30, 0x30, 0x30, 0x30]).length - 1 =
      output.length + 5 := by
    simp
  simp only [code_point_to_json_escape]
  rw [if_neg (by omega), if_neg (by omega)]
  simp only [hlen, h]

theorem hex4_value_byte (x y : Nat) (hx : is_hex x = true) (hy : is_hex y = true) :
    hex4_value 0x30 0x30 x y ≤ 0xFF := by
  have := hex_to_dec_le x hx
  have := hex_to_dec_le y hy
  have e0 : hex_to_dec 0x30 = 0 := by decide
  unfold hex4_value
  rw [e0]
  omega

/-- An escaped byte gives a chunk that the lexer reads. -/
theorem escape_char_to_json_lexed (b : Nat) (hb : b < 256) (output : Bytes) :
    ∃ chunk, escape_char_to_json b output = .ok (output ++ chunk) () ∧
      ∀ rest, Lexed rest → Lexed (chunk ++ rest) := by
  unfold escape_char_to_json
  by_cases h1 : b = 0x5C ∨ b = 0x22 ∨ b = 0x2F
  · rw [if_pos h1]
    refine ⟨[0x5C, b], rfl, fun rest hrest => Lexed.escape b rest ?_ hrest⟩
    simp only [ContentToken.WellFormed]
    omega
  rw [if_neg h1]
  by_cases h2 : b = 0x08
  · rw [if_pos h2]
    exact ⟨_, rfl, fun rest hrest => Lexed.escape _ rest (by simp [ContentToken.WellFormed]) hrest⟩
  rw [if_neg h2]
  by_cases h3 : b = 0x0C
  · rw [if_pos h3]
    exact ⟨_, rfl, fun rest hrest => Lexed.escape _ rest (by simp [ContentToken.WellFormed]) hrest⟩
  rw [if_neg h3]
  by_cases h4 : b = 0x0A
  · rw [if_pos h4]
    exact ⟨_, rfl, fun rest hrest => Lexed.escape _ rest (by simp [ContentToken.WellFormed]) hrest⟩
  rw [if_neg h4]
  by_cases h5 : b = 0x0D
  · rw [if_pos h5]
    exact ⟨_, rfl, fun rest hrest => Lexed.escape _ rest (by simp [ContentToken.WellFormed]) hrest⟩
  rw [if_neg h5]
  by_cases h6 : b = 0x09
  · rw [if_pos h6]
    exact ⟨_, rfl, fun rest hrest => Lexed.escape _ rest (by simp [ContentToken.WellFormed]) hrest⟩
  rw [if_neg h6]
  obtain ⟨x, y, hx, hy, h⟩ := code_point_to_json_escape_byte b hb output
  refine ⟨_, h, fun rest hrest => Lexed.hex 0x30 0x30 x y rest ⟨by decide, by decide, hx, hy⟩ ?_
    hrest⟩
  have := hex4_value_byte x y hx hy
  omega

/-! ## `utf8_to_json_string_content` and `is_utf8` walk the same characters -/

theorem chomp_utf8_char_ascii (p b : Nat) (r : Bytes) (hb : b < 0x80) :
    chomp_utf8_char ⟨p, b :: r⟩ = .ok b ⟨p + 1, r⟩ := by
  have h := chomp_utf8_char_utf8_encode b ⟨by omega, by omega⟩ p r
  have e : utf8_encode b = [b] := by
    unfold utf8_encode
    rw [if_pos hb]
  rw [e] at h
  exact h

theorem take_consumed (b : Nat) (t rest : Bytes) (p q : Nat) (hq : q = p + (t.length + 1)) :
    (b :: (t ++ rest)).take (q - p) = b :: t := by
  have e : q - p = t.length + 1 := by omega
  rw [e, List.take_succ_cons, List.take_left']
  rfl

/-- The two loops on the same range: both reach the end, the encoder having appended
content that the lexer reads, or both throw the same error of `chomp_utf8_char`. -/
theorem utf8_loops (fuel : Nat) : ∀ (output : Bytes) (c : Cursor), c.rest.length < fuel →
    (∃ chunk c1 c2, utf8_to_json_string_content_loop fuel output c = .ok (output ++ chunk) c1 ∧
        is_utf8_loop fuel c = .ok () c2 ∧ Lexed chunk) ∨
      ∃ e c1 c2, utf8_to_json_string_content_loop fuel output c = .throw e c1 ∧
        is_utf8_loop fuel c = .throw e c2 ∧
        (e.kind = .Utf8DecodeError ∨ e.kind = .UnicodeCodePointError) := by
  induction fuel with
  | zero => intro output c h; omega
  | succ fuel ih =>
    intro output c hlen
    obtain ⟨p, rest⟩ := c
    cases rest with
    | nil =>
      exact Or.inl ⟨[], ⟨p, []⟩, ⟨p, []⟩, by simp [utf8_to_json_string_content_loop],
        by simp [is_utf8_loop], Lexed.nil⟩
    | cons b r =>
      have hr : r.length < fuel := by simpa using hlen
      by_cases hesc : b = 0x22 ∨ b = 0x5C ∨ b = 0x2F ∨ b < 0x20 ∨ b = 0x7F
      · have hb : b < 0x80 := by omega
        obtain ⟨chunk, hchunk, hlex⟩ := escape_char_to_json_lexed b (by omega) output
        have e1 : utf8_to_json_string_content_loop (fuel + 1) output ⟨p, b :: r⟩ =
            utf8_to_json_string_content_loop fuel (output ++ chunk) ⟨p + 1, r⟩ := by
          simp only [utf8_to_json_string_content_loop, Cursor.peek_cons]
          rw [if_neg (List.cons_ne_nil _ _), if_pos hesc, hchunk]
          rfl
        have e2 : is_utf8_loop (fuel + 1) ⟨p, b :: r⟩ = is_utf8_loop fuel ⟨p + 1, r⟩ := by
          simp only [is_utf8_loop]
          rw [if_neg (List.cons_ne_nil _ _), chomp_utf8_char_ascii p b r hb]
          rfl
        rw [e1, e2]
        rcases ih (output ++ chunk) ⟨p + 1, r⟩ hr with
          ⟨chunk2, c1, c2, h1, h2, h3⟩ | ⟨e, c1, c2, h1, h2, h3⟩
        · exact Or.inl ⟨chunk ++ chunk2, c1, c2, by rw [h1, List.append_assoc], h2,
            hlex _ h3⟩
        · exact Or.inr ⟨e, c1, c2, h1, h2, h3⟩
      · rcases chomp_utf8_char_total ⟨p, b :: r⟩ with ⟨v, c1, hv⟩ | ⟨e, c1, he, hk⟩
        · obtain ⟨t, ht1, ht2, ht3⟩ := chomp_utf8_char_local p b r v c1 hv
          have e1 : utf8_to_json_string_content_loop (fuel + 1) output ⟨p, b :: r⟩ =
              utf8_to_json_string_content_loop fuel (output ++ b :: t) c1 := by
            simp only [utf8_to_json_string_content_loop, Cursor.peek_cons]
            rw [if_neg (List.cons_ne_nil _ _), if_neg hesc, hv]
            simp only [Res.bind_ok]
            rw [ht1, take_consumed b t c1.rest p c1.pos ht2]
          have e2 : is_utf8_loop (fuel + 1) ⟨p, b :: r⟩ = is_utf8_loop fuel c1 := by
            simp only [is_utf8_loop]
            rw [if_neg (List.cons_ne_nil _ _), hv]
            rfl
          have hc1 : c1.rest.length < fuel := by
            have := congrArg List.length ht1
            simp only [List.length_append] at this
            omega
          rw [e1, e2]
          rcases ih (output ++ b :: t) c1 hc1 with
            ⟨chunk2, c3, c4, h1, h2, h3⟩ | ⟨e, c3, c4, h1, h2, h3⟩
          · refine Or.inl ⟨b :: (t ++ chunk2), c3, c4, ?_, h2,
              Lexed.char b t chunk2 v (by omega) (by omega) (by omega) ht3 h3⟩
            rw [h1]
            simp
          · exact Or.inr ⟨e, c3, c4, h1, h2, h3⟩
        · refine Or.inr ⟨e, c1, c1, ?_, ?_, hk⟩
          · simp only [utf8_to_json_string_content_loop, Cursor.peek_cons]
            rw [if_neg (List.cons_ne_nil _ _), if_neg hesc, he]
            rfl
          · simp only [is_utf8_loop]
            rw [if_neg (List.cons_ne_nil _ _), he]
            rfl

/-- The encoder returns content that the lexer reads when `is_utf8` holds and throws when it
does not; no other outcome exists. -/
theorem utf8_to_json_string_content_total (s : Bytes) :
    (is_utf8 s = .ok true () ∧
        ∃ out, utf8_to_json_string_content s = .ok out () ∧ Lexed out) ∨
      (is_utf8 s = .ok false () ∧
        ∃ e, utf8_to_json_string_content s = .throw e () ∧
          (e.kind = .Utf8DecodeError ∨ e.kind = .UnicodeCodePointError)) := by
  rcases utf8_loops (s.length + 1) [] ⟨0, s⟩ (Nat.lt_succ_self _) with
    ⟨chunk, c1, c2, h1, h2, h3⟩ | ⟨e, c1, c2, h1, h2, h3⟩
  · refine Or.inl ⟨?_, chunk, ?_, h3⟩
    · simp only [is_utf8, h2]
    · simp only [utf8_to_json_string_content, h1, Res.lift_ok, List.nil_append]
  · refine Or.inr ⟨?_, e, ?_, h3⟩
    · simp only [is_utf8, h2]
      rw [if_pos h3]
    · simp only [utf8_to_json_string_content, h1, Res.lift_throw]

/-! ## `force_to_utf8` gives valid UTF-8 -/

set_option maxRecDepth 100000 in
theorem force_byte : ∀ u : Fin 256, 0x80 ≤ u.val →
    [0xC0 ||| (u.val >>> 6), 0x80 ||| (u.val &&& 0x3F)] = utf8_encode u.val := by
  decide

theorem is_utf8_loop_force (s : Bytes) : IsByteString s → ∀ (fuel p : Nat),
    (force_to_utf8 s).length < fuel →
      is_utf8_loop fuel ⟨p, force_to_utf8 s⟩ = .ok () ⟨p + (force_to_utf8 s).length, []⟩ := by
  induction s with
  | nil =>
    intro _ fuel p hlen
    obtain ⟨f, rfl⟩ : ∃ f, fuel = f + 1 := ⟨fuel - 1, by simp [force_to_utf8] at hlen; omega⟩
    simp [force_to_utf8, is_utf8_loop]
  | cons u s ih =>
    intro hs fuel p hlen
    have hu : u < 256 := hs u (List.mem_cons_self _ _)
    have hs1 : IsByteString s := fun y hy => hs y (List.mem_cons_of_mem _ hy)
    obtain ⟨f, rfl⟩ : ∃ f, fuel = f + 1 := ⟨fuel - 1, by omega⟩
    by_cases h : u < 0x80
    · have e : force_to_utf8 (u :: s) = u :: force_to_utf8 s := by
        simp only [force_to_utf8]
        rw [if_pos h]
      rw [e] at hlen ⊢
      simp only [is_utf8_loop]
      rw [if_neg (List.cons_ne_nil _ _), chomp_utf8_char_ascii p u _ h]
      simp only [Res.bind_ok]
      rw [ih hs1 f (p + 1) (by simpa using hlen)]
      simp [Nat.add_assoc, Nat.add_comm 1]
    · have hf := force_byte ⟨u, hu⟩ (by simpa using Nat.le_of_not_lt h)
      simp only at hf
      have e : force_to_utf8 (u :: s) =
          [0xC0 ||| (u >>> 6), 0x80 ||| (u &&& 0x3F)] ++ force_to_utf8 s := by
        simp only [force_to_utf8]
        rw [if_neg h]
        rfl
      rw [e] at hlen ⊢
      rw [hf] at hlen ⊢
      have hdec := chomp_utf8_char_utf8_encode u ⟨by omega, by omega⟩ p (force_to_utf8 s)
      have hlen2 : (utf8_encode u).length = 2 := by
        rw [← hf]
        rfl
      have hne : utf8_encode u ++ force_to_utf8 s ≠ [] := by
        intro h0
        have := congrArg List.length h0
        simp only [List.length_append, hlen2, List.length_nil] at this
        omega
      simp only [is_utf8_loop]
      rw [if_neg hne, hdec]
      simp only [Res.bind_ok]
      simp only [List.length_append, hlen2] at hlen ⊢
      rw [ih hs1 f (p + 2) (by omega)]
      simp [Nat.add_assoc, Nat.add_comm 2]

theorem is_utf8_force_to_utf8 (s : Bytes) (hs : IsByteString s) :
    is_utf8 (force_to_utf8 s) = .ok true () := by
  simp only [is_utf8, is_utf8_loop_force s hs _ 0 (Nat.lt_succ_self _)]

/-! ## The lexer on content made of decodable characters and escapes -/

theorem parse_string_loop_lexed (content : Bytes) (h : Lexed content) :
    ∀ (fuel : Nat), content.length < fuel → ∀ (sur : utf8_surrogate_checker),
      sur.surrogate_low_needed = false → ∀ (last : Bool) (p : Nat) (t : Bytes),
        ∃ sur1, sur1.surrogate_low_needed = false ∧
          parse_string_loop fuel sur last ⟨p, content ++ 0x22 :: t⟩ =
            .ok sur1 ⟨p + content.length, 0x22 :: t⟩ := by
  induction h with
  | nil =>
    intro fuel hfuel sur hsur last p t
    obtain ⟨f, rfl⟩ : ∃ f, fuel = f + 1 := ⟨fuel - 1, by omega⟩
    exact ⟨sur, hsur, by simp [parse_string_loop_succ]⟩
  | char b t1 rest cp hb1 hb2 hb3 hdec _ ih =>
    intro fuel hfuel sur hsur last p t
    obtain ⟨f, rfl⟩ : ∃ f, fuel = f + 1 := ⟨fuel - 1, by omega⟩
    simp only [List.length_cons, List.length_append] at hfuel
    have hd := hdec p (rest ++ 0x22 :: t)
    have hbody : parse_string_body sur last ⟨p, b :: (t1 ++ (rest ++ 0x22 :: t))⟩ =
        .ok (sur, last) ⟨p + (t1.length + 1), rest ++ 0x22 :: t⟩ := by
      simp only [parse_string_body, Cursor.peek_cons]
      rw [if_pos hb3, if_neg (by omega), hd]
      rfl
    rw [parse_string_loop_succ]
    simp only [List.cons_append, List.append_assoc, Cursor.peek_cons]
    rw [if_neg (by simp [hb2]), hbody]
    simp only [Res.bind_ok]
    cases last with
    | false =>
      simp only [Bool.not_false, if_true, check_code_point_tick sur hsur]
      obtain ⟨sur1, h1, h2⟩ := ih f (by omega) ⟨0, false⟩ rfl false (p + (t1.length + 1)) t
      refine ⟨sur1, h1, ?_⟩
      rw [h2]
      simp only [List.length_cons, List.length_append]
      congr 2
      omega
    | true =>
      simp only [Bool.not_true, Bool.false_eq_true, if_false]
      obtain ⟨sur1, h1, h2⟩ := ih f (by omega) sur hsur true (p + (t1.length + 1)) t
      refine ⟨sur1, h1, ?_⟩
      rw [h2]
      simp only [List.length_cons, List.length_append]
      congr 2
      omega
  | escape e rest he _ ih =>
    intro fuel hfuel sur hsur last p t
    obtain ⟨f, rfl⟩ : ∃ f, fuel = f + 1 := ⟨fuel - 1, by omega⟩
    simp only [List.length_cons] at hfuel
    have hbody : parse_string_body sur last ⟨p, 0x5C :: e :: (rest ++ 0x22 :: t)⟩ =
        .ok (sur, last) ⟨p + 2, rest ++ 0x22 :: t⟩ := by
      simp only [ContentToken.WellFormed] at he
      rcases he with rfl | rfl | rfl | rfl | rfl | rfl | rfl | rfl <;>
        simp [parse_string_body, escape_char]
    rw [parse_string_loop_succ]
    simp only [List.cons_append, Cursor.peek_cons]
    rw [if_neg (by simp), hbody]
    simp only [Res.bind_ok]
    cases last with
    | false =>
      simp only [Bool.not_false, if_true, check_code_point_tick sur hsur]
      obtain ⟨sur1, h1, h2⟩ := ih f (by omega) ⟨0, false⟩ rfl false (p + 2) t
      refine ⟨sur1, h1, ?_⟩
      rw [h2]
      simp only [List.length_cons]
      congr 2
      omega
    | true =>
      simp only [Bool.not_true, Bool.false_eq_true, if_false]
      obtain ⟨sur1, h1, h2⟩ := ih f (by omega) sur hsur true (p + 2) t
      refine ⟨sur1, h1, ?_⟩
      rw [h2]
      simp only [List.length_cons]
      congr 2
      omega
  | hex d1 d2 d3 d4 rest hd hns _ ih =>
    intro fuel hfuel sur hsur last p t
    obtain ⟨f, rfl⟩ : ∃ f, fuel = f + 1 := ⟨fuel - 1, by omega⟩
    simp only [List.length_cons] at hfuel
    obtain ⟨g1, g2, g3, g4⟩ := hd
    have hle := hex4_value_le d1 d2 d3 d4 g1 g2 g3 g4
    have hsc : IsScalar (hex4_value d1 d2 d3 d4) := ⟨by omega, hns⟩
    have hbody : parse_string_body sur last
        ⟨p, 0x5C :: 0x75 :: d1 :: d2 :: d3 :: d4 :: (rest ++ 0x22 :: t)⟩ =
        .ok (⟨hex4_value d1 d2 d3 d4, false⟩, true) ⟨p + 6, rest ++ 0x22 :: t⟩ := by
      simp [parse_string_body, escape_char,
        json_hex_seq_to_code_point_hex4 _ _ _ _ _ _ g1 g2 g3 g4,
        check_code_point_non_surrogate sur _ hsur hsc, Nat.add_assoc]
    rw [parse_string_loop_succ]
    simp only [List.cons_append, Cursor.peek_cons]
    rw [if_neg (by simp), hbody]
    simp only [Res.bind_ok, Bool.not_true, Bool.false_eq_true, if_false]
    obtain ⟨sur1, h1, h2⟩ := ih f (by omega) ⟨hex4_value d1 d2 d3 d4, false⟩ rfl true (p + 6) t
    refine ⟨sur1, h1, ?_⟩
    rw [h2]
    simp only [List.length_cons]
    congr 2
    omega

theorem parse_string_lexed (content : Bytes) (h : Lexed content) (p : Nat) (t : Bytes) :
    parse_string ⟨p, 0x22 :: (content ++ 0x22 :: t)⟩ = .ok () ⟨p + (content.length + 2), t⟩ := by
  obtain ⟨sur1, hsur1, hloop⟩ := parse_string_loop_lexed content h
    ((content ++ 0x22 :: t).length + 1) (by simp; omega) {} rfl false (p + 1) t
  simp only [parse_string, Cursor.next_cons, hloop, Res.bind_ok,
    check_code_point_tick sur1 hsur1]
  simp
  omega

/-- A text that is one string whose content the lexer reads: one `String` primitive whose
span is the content. -/
theorem parse_json_string_text (content : Bytes) (h : Lexed content) (lim : Nat) :
    parse_json (JsonParser lim) (0x22 :: (content ++ [0x22])) =
      .ok true (⟨[], [.on_primitive_value .String 1 content.length], lim⟩,
        ⟨content.length + 2, []⟩) := by
  have hs := parse_string_lexed content h 0 []
  have hinc := inc_depth_ok [] [] lim ⟨0, 0x22 :: (content ++ [0x22])⟩ (by
    rcases Nat.eq_zero_or_pos lim with h0 | h0
    · exact Or.inl h0
    · right; simp only [List.length_nil]; omega)
  have hel := parse_element_fresh [] [] lim 0 [] (0x22 :: (content ++ [0x22]))
    isWhitespace_nil (fun b r hbr => by
      simp only [List.cons.injEq] at hbr
      rw [← hbr.1]
      decide)
  simp only [List.nil_append, List.length_nil, Nat.add_zero] at hel
  have hval : parse_value 2 ⟨[value_frame], [], lim⟩ ⟨0, 0x22 :: (content ++ [0x22])⟩ =
      .ok false (⟨[value_frame], [.on_primitive_value .String 1 content.length], lim⟩,
        ⟨content.length + 2, []⟩) := by
    simp only [parse_value, JsonParserImpl.back, List.headD_cons, value_frame,
      Cursor.peek_cons, parse_primitive]
    rw [if_neg (List.cons_ne_nil _ _), if_neg (by decide), if_neg (by decide), if_pos trivial, hs]
    simp [JsonParserImpl.visit]
  simp only [parse_json, JsonParser, hinc, Res.bind_ok]
  rw [parse_json_loop_succ, hel, hval]
  simp [loop_tail, dec_depth, chomp_whitespace, chomp_whitespace_from]

end flumps


namespace flumps

/-! ## `code_point_to_utf8` writes the standard encoding -/

theorem and_3F (x : Nat) : x &&& 0x3F = x % 64 := Nat.and_pow_two_sub_one_eq_mod x 6

theorem and_3FF (x : Nat) : x &&& 0x03FF = x % 1024 := Nat.and_pow_two_sub_one_eq_mod x 10

theorem or_80 : ∀ x : Fin 64, 0x80 ||| x.val = 0x80 + x.val := by decide

theorem or_C0 : ∀ x : Fin 32, 0xC0 ||| x.val = 0xC0 + x.val := by decide

theorem or_E0 : ∀ x : Fin 16, 0xE0 ||| x.val = 0xE0 + x.val := by decide

theorem or_F0 : ∀ x : Fin 8, 0xF0 ||| x.val = 0xF0 + x.val := by decide

theorem continuation_or (x : Nat) : 0x80 ||| (x &&& 0x3F) = 0x80 + x % 64 := by
  rw [and_3F]
  exact or_80 ⟨x % 64, Nat.mod_lt _ (by decide)⟩

theorem code_point_to_utf8_encode (cp : Nat) (ret : Bytes) (h : cp < 0x10FFFF) :
    code_point_to_utf8 cp ret = .ok (ret ++ utf8_encode cp) := by
  unfold code_point_to_utf8 utf8_encode
  by_cases h1 : cp < 0x80
  · rw [if_pos h1, if_pos h1]
  rw [if_neg h1, if_neg h1]
  by_cases h2 : cp < 0x800
  · rw [if_pos h2, if_pos h2, continuation_or, Nat.shiftRight_eq_div_pow]
    have := or_C0 ⟨cp / 2 ^ 6, by omega⟩
    simp only at this
    rw [this]
    norm_num
  rw [if_neg h2, if_neg h2]
  by_cases h3 : cp < 0x10000
  · rw [if_pos h3, if_pos h3, continuation_or, continuation_or, Nat.shiftRight_eq_div_pow,
      Nat.shiftRight_eq_div_pow]
    have := or_E0 ⟨cp / 2 ^ 12, by omega⟩
    simp only at this
    rw [this]
    norm_num
  rw [if_neg h3, if_neg h3, if_pos h, continuation_or, continuation_or, continuation_or,
    Nat.shiftRight_eq_div_pow, Nat.shiftRight_eq_div_pow, Nat.shiftRight_eq_div_pow]
  have := or_F0 ⟨cp / 2 ^ 18, by omega⟩
  simp only at this
  rw [this]
  norm_num

/-- The scalar value of a pair of surrogates, as `surrogate_pair_to_code_point` computes
it. -/
theorem surrogate_pair_value (h l : Nat) (h1 : 0xD800 ≤ h) (h2 : h ≤ 0xDBFF) (h3 : 0xDC00 ≤ l)
    (h4 : l ≤ 0xDFFF) :
    0x10000 + ((h &&& 0x03FF) <<< 10) + (l &&& 0x03FF) =
      0x10000 + (h - 0xD800) * 0x400 + (l - 0xDC00) := by
  rw [and_3FF, and_3FF, Nat.shiftLeft_eq]
  omega

/-! ## The tracker on any code point -/

theorem check_code_point_tick_needed (t : utf8_surrogate_checker)
    (h : t.surrogate_low_needed = true) :
    t.check_code_point 0 =
      .error ⟨.UnicodeCodePointError,
        "Invalid: high surrogate code point not followed by low"⟩ := by
  simp [utf8_surrogate_checker.check_code_point, code_point_type, h]

/-- A call of `check_code_point` that returns: the tracker awaits a low surrogate exactly
after a high one, and a low one was read only while it was awaited. -/
theorem check_code_point_cases (t : utf8_surrogate_checker) (cp : Nat) :
    (∃ e, t.check_code_point cp = .error e) ∨
      ∃ complete t1, t.check_code_point cp = .ok (complete, t1) ∧
        t1.surrogate_low_needed = (decide (0xD800 ≤ cp) && decide (cp ≤ 0xDBFF)) ∧
        complete = !t1.surrogate_low_needed ∧
        ((decide (0xDC00 ≤ cp) && decide (cp ≤ 0xDFFF)) = true →
          t.surrogate_low_needed = true) ∧
        ((decide (0xDC00 ≤ cp) && decide (cp ≤ 0xDFFF)) = false →
          t.surrogate_low_needed = false) := by
  obtain ⟨last, need⟩ := t
  by_cases h1 : cp > 0x10FFFF
  · have hty : code_point_type cp = .error (too_large cp) := by
      unfold code_point_type
      rw [if_pos h1]
    exact Or.inl ⟨_, by simp only [utf8_surrogate_checker.check_code_point, hty]; rfl⟩
  by_cases h2 : cp < 0xD800 ∨ cp > 0xDFFF
  · have hty : code_point_type cp = .ok .non_surrogate := by
      unfold code_point_type
      rw [if_neg h1, if_pos h2]
    cases need with
    | true => exact Or.inl ⟨_, by simp [utf8_surrogate_checker.check_code_point, hty]; rfl⟩
    | false =>
      refine Or.inr ⟨true, ⟨cp, false⟩,
        by simp [utf8_surrogate_checker.check_code_point, hty], ?_, rfl, ?_, fun _ => rfl⟩
      · simp only [Bool.false_eq, Bool.and_eq_false_imp, decide_eq_true_eq, decide_eq_false_iff_not]
        omega
      · simp only [Bool.and_eq_true, decide_eq_true_eq]
        omega
  by_cases h3 : cp ≤ 0xDBFF
  · have hty : code_point_type cp = .ok .high_surrogate := by
      unfold code_point_type
      rw [if_neg h1, if_neg h2, if_pos h3]
    cases need with
    | true => exact Or.inl ⟨_, by simp [utf8_surrogate_checker.check_code_point, hty]; rfl⟩
    | false =>
      refine Or.inr ⟨false, ⟨cp, true⟩,
        by simp [utf8_surrogate_checker.check_code_point, hty], ?_, rfl, ?_, fun _ => rfl⟩
      · simp only [Bool.true_eq, Bool.and_eq_true, decide_eq_true_eq]
        omega
      · simp only [Bool.and_eq_true, decide_eq_true_eq]
        omega
  · have hty : code_point_type cp = .ok .low_surrogate := by
      unfold code_point_type
      rw [if_neg h1, if_neg h2, if_neg h3]
    cases need with
    | false => exact Or.inl ⟨_, by simp [utf8_surrogate_checker.check_code_point, hty]; rfl⟩
    | true =>
      cases hp : surrogate_pair_to_code_point last cp with
      | error e =>
        exact Or.inl ⟨e, by simp [utf8_surrogate_checker.check_code_point, hty, hp]⟩
      | ok v =>
        refine Or.inr ⟨true, ⟨v, false⟩,
          by simp [utf8_surrogate_checker.check_code_point, hty, hp], ?_, rfl, fun _ => rfl, ?_⟩
        · simp only [Bool.false_eq, Bool.and_eq_false_imp, decide_eq_true_eq,
            decide_eq_false_iff_not]
          omega
        · simp only [Bool.and_eq_false_imp, decide_eq_true_eq, decide_eq_false_iff_not]
          omega

/-! ## One pass of `json_string_content_to_utf8` -/

theorem json_string_content_loop_succ (fuel : Nat) (ret : Bytes) (sur : utf8_surrogate_checker)
    (c : Cursor) :
    json_string_content_loop (fuel + 1) ret sur c =
      if c.rest = [] then .ok (ret, sur) c
      else
        (json_string_content_body ret sur c).bind fun (ret1, sur1, last_cp_was_hex_seq) c1 =>
          if !last_cp_was_hex_seq then
            match sur1.check_code_point 0 with
            | .error err => .throw err c1
            | .ok (_, sur2) => json_string_content_loop fuel ret1 sur2 c1
          else json_string_content_loop fuel ret1 sur1 c1 := rfl

theorem json_string_content_body_raw (ret : Bytes) (sur : utf8_surrogate_checker) (p b : Nat)
    (tail : Bytes) (hb : b ≠ 0x5C) :
    json_string_content_body ret sur ⟨p, b :: tail⟩ =
      .ok (ret ++ [b], sur, false) ⟨p + 1, tail⟩ := by
  simp only [json_string_content_body, Cursor.peek_cons]
  rw [if_neg hb]
  rfl

theorem short_escape_unescape (e : Nat) (he : (ContentToken.short e).WellFormed) :
    short_escape e = some (unescape e) := by
  simp only [ContentToken.WellFormed] at he
  rcases he with rfl | rfl | rfl | rfl | rfl | rfl | rfl | rfl <;> decide

theorem json_string_content_body_short (ret : Bytes) (sur : utf8_surrogate_checker) (p e : Nat)
    (tail : Bytes) (he : (ContentToken.short e).WellFormed) :
    json_string_content_body ret sur ⟨p, 0x5C :: e :: tail⟩ =
      .ok (ret ++ [unescape e], sur, false) ⟨p + 2, tail⟩ := by
  simp [json_string_content_body, short_escape_unescape e he]

theorem short_escape_u : short_escape 0x75 = none := by decide

theorem json_string_content_body_hex_error (ret : Bytes) (sur : utf8_surrogate_checker)
    (p d1 d2 d3 d4 : Nat) (tail : Bytes) (hd : (ContentToken.hex d1 d2 d3 d4).WellFormed)
    (err : DecodeError) (h : sur.check_code_point (hex4_value d1 d2 d3 d4) = .error err) :
    json_string_content_body ret sur ⟨p, 0x5C :: 0x75 :: d1 :: d2 :: d3 :: d4 :: tail⟩ =
      .throw err ⟨p + 6, tail⟩ := by
  obtain ⟨g1, g2, g3, g4⟩ := hd
  simp [json_string_content_body, short_escape_u,
    json_hex_seq_to_code_point_hex4 _ _ _ _ _ _ g1 g2 g3 g4, h, Nat.add_assoc]

theorem json_string_content_body_hex_half (ret : Bytes) (sur : utf8_surrogate_checker)
    (p d1 d2 d3 d4 : Nat) (tail : Bytes) (hd : (ContentToken.hex d1 d2 d3 d4).WellFormed)
    (sur1 : utf8_surrogate_checker)
    (h : sur.check_code_point (hex4_value d1 d2 d3 d4) = .ok (false, sur1)) :
    json_string_content_body ret sur ⟨p, 0x5C :: 0x75 :: d1 :: d2 :: d3 :: d4 :: tail⟩ =
      .ok (ret, sur1, true) ⟨p + 6, tail⟩ := by
  obtain ⟨g1, g2, g3, g4⟩ := hd
  simp [json_string_content_body, short_escape_u,
    json_hex_seq_to_code_point_hex4 _ _ _ _ _ _ g1 g2 g3 g4, h, Nat.add_assoc]

theorem json_string_content_body_hex_complete (ret : Bytes) (sur : utf8_surrogate_checker)
    (p d1 d2 d3 d4 : Nat) (tail : Bytes) (hd : (ContentToken.hex d1 d2 d3 d4).WellFormed)
    (sur1 : utf8_surrogate_checker) (ret1 : Bytes)
    (h : sur.check_code_point (hex4_value d1 d2 d3 d4) = .ok (true, sur1))
    (h2 : code_point_to_utf8 sur1.last_code_point ret = .ok ret1) :
    json_string_content_body ret sur ⟨p, 0x5C :: 0x75 :: d1 :: d2 :: d3 :: d4 :: tail⟩ =
      .ok (ret1, sur1, true) ⟨p + 6, tail⟩ := by
  obtain ⟨g1, g2, g3, g4⟩ := hd
  simp [json_string_content_body, short_escape_u,
    json_hex_seq_to_code_point_hex4 _ _ _ _ _ _ g1 g2 g3 g4, h, h2, Nat.add_assoc]

theorem json_string_content_body_hex_large (ret : Bytes) (sur : utf8_surrogate_checker)
    (p d1 d2 d3 d4 : Nat) (tail : Bytes) (hd : (ContentToken.hex d1 d2 d3 d4).WellFormed)
    (sur1 : utf8_surrogate_checker) (err : DecodeError)
    (h : sur.check_code_point (hex4_value d1 d2 d3 d4) = .ok (true, sur1))
    (h2 : code_point_to_utf8 sur1.last_code_point ret = .error err) :
    json_string_content_body ret sur ⟨p, 0x5C :: 0x75 :: d1 :: d2 :: d3 :: d4 :: tail⟩ =
      .throw err ⟨p + 6, tail⟩ := by
  obtain ⟨g1, g2, g3, g4⟩ := hd
  simp [json_string_content_body, short_escape_u,
    json_hex_seq_to_code_point_hex4 _ _ _ _ _ _ g1 g2 g3 g4, h, h2, Nat.add_assoc]

/-- One pass on a well-formed token: a throw, or the next pass with a tracker that awaits a
low surrogate exactly when the token is the escape of a high one. -/
theorem json_string_content_loop_token (tok : ContentToken) (htok : tok.WellFormed) (F : Nat)
    (ret : Bytes) (sur : utf8_surrogate_checker) (p : Nat) (tail : Bytes) :
    (∃ e c1, json_string_content_loop (F + 1) ret sur ⟨p, tok.render ++ tail⟩ = .throw e c1) ∨
      ∃ ret1 sur1, json_string_content_loop (F + 1) ret sur ⟨p, tok.render ++ tail⟩ =
          json_string_content_loop F ret1 sur1 ⟨p + tok.render.length, tail⟩ ∧
        sur1.surrogate_low_needed = tok.is_high ∧
        (tok.is_low = true → sur.surrogate_low_needed = true) := by
  rw [json_string_content_loop_succ]
  cases tok with
  | raw b =>
    simp only [ContentToken.render, List.cons_append, List.nil_append]
    rw [if_neg (List.cons_ne_nil _ _), json_string_content_body_raw ret sur p b tail htok]
    simp only [Res.bind_ok, Bool.not_false, if_true]
    cases hn : sur.surrogate_low_needed with
    | true => exact Or.inl ⟨_, _, by rw [check_code_point_tick_needed sur hn]⟩
    | false =>
      exact Or.inr ⟨_, _, by rw [check_code_point_tick sur hn]; rfl, rfl,
        fun h => by simp [ContentToken.is_low] at h⟩
  | short e =>
    simp only [ContentToken.render, List.cons_append, List.nil_append]
    rw [if_neg (List.cons_ne_nil _ _), json_string_content_body_short ret sur p e tail htok]
    simp only [Res.bind_ok, Bool.not_false, if_true]
    cases hn : sur.surrogate_low_needed with
    | true => exact Or.inl ⟨_, _, by rw [check_code_point_tick_needed sur hn]⟩
    | false =>
      exact Or.inr ⟨_, _, by rw [check_code_point_tick sur hn]; rfl, rfl,
        fun h => by simp [ContentToken.is_low] at h⟩
  | hex d1 d2 d3 d4 =>
    simp only [ContentToken.render, List.cons_append, List.nil_append]
    rw [if_neg (List.cons_ne_nil _ _)]
    rcases check_code_point_cases sur (hex4_value d1 d2 d3 d4) with
      ⟨e, he⟩ | ⟨complete, sur1, hc, h1, h2, h3, -⟩
    · rw [json_string_content_body_hex_error ret sur p d1 d2 d3 d4 tail htok e he]
      exact Or.inl ⟨_, _, rfl⟩
    · cases complete with
      | false =>
        rw [json_string_content_body_hex_half ret sur p d1 d2 d3 d4 tail htok sur1 hc]
        exact Or.inr ⟨ret, sur1, rfl, h1, h3⟩
      | true =>
        cases hu : code_point_to_utf8 sur1.last_code_point ret with
        | error err =>
          rw [json_string_content_body_hex_large ret sur p d1 d2 d3 d4 tail htok sur1 err hc hu]
          exact Or.inl ⟨_, _, rfl⟩
        | ok ret1 =>
          rw [json_string_content_body_hex_complete ret sur p d1 d2 d3 d4 tail htok sur1 ret1 hc
            hu]
          exact Or.inr ⟨ret1, sur1, rfl, h1, h3⟩

/-- One pass on a well-formed token that is not the escape of a surrogate, entered with a
tracker that awaits nothing: the bytes of the token are appended. -/
theorem json_string_content_loop_plain (tok : ContentToken) (htok : tok.WellFormed)
    (hh : tok.is_high = false) (hl : tok.is_low = false) (sur : utf8_surrogate_checker)
    (hsur : sur.surrogate_low_needed = false) :
    ∃ sur1, sur1.surrogate_low_needed = false ∧ ∀ (F : Nat) (ret : Bytes) (p : Nat)
      (tail : Bytes), json_string_content_loop (F + 1) ret sur ⟨p, tok.render ++ tail⟩ =
        json_string_content_loop F (ret ++ tok.decode) sur1 ⟨p + tok.render.length, tail⟩ := by
  cases tok with
  | raw b =>
    refine ⟨⟨0, false⟩, rfl, fun F ret p tail => ?_⟩
    rw [json_string_content_loop_succ]
    simp only [ContentToken.render, List.cons_append, List.nil_append]
    rw [if_neg (List.cons_ne_nil _ _), json_string_content_body_raw ret sur p b tail htok]
    simp only [Res.bind_ok, Bool.not_false, if_true]
    rw [check_code_point_tick sur hsur]
    rfl
  | short e =>
    refine ⟨⟨0, false⟩, rfl, fun F ret p tail => ?_⟩
    rw [json_string_content_loop_succ]
    simp only [ContentToken.render, List.cons_append, List.nil_append]
    rw [if_neg (List.cons_ne_nil _ _), json_string_content_body_short ret sur p e tail htok]
    simp only [Res.bind_ok, Bool.not_false, if_true]
    rw [check_code_point_tick sur hsur]
    rfl
  | hex d1 d2 d3 d4 =>
    have hle := hex4_value_le d1 d2 d3 d4 htok.1 htok.2.1 htok.2.2.1 htok.2.2.2
    simp only [ContentToken.is_high, ContentToken.is_low, Bool.and_eq_false_imp,
      decide_eq_true_eq, decide_eq_false_iff_not] at hh hl
    have hsc : IsScalar (hex4_value d1 d2 d3 d4) := ⟨by omega, by omega⟩
    refine ⟨⟨hex4_value d1 d2 d3 d4, false⟩, rfl, fun F ret p tail => ?_⟩
    rw [json_string_content_loop_succ]
    simp only [ContentToken.render, List.cons_append, List.nil_append]
    rw [if_neg (List.cons_ne_nil _ _),
      json_string_content_body_hex_complete ret sur p d1 d2 d3 d4 tail htok
        ⟨hex4_value d1 d2 d3 d4, false⟩ (ret ++ utf8_encode (hex4_value d1 d2 d3 d4))
        (check_code_point_non_surrogate sur _ hsur hsc)
        (code_point_to_utf8_encode _ ret (by simp only []; omega))]
    rfl

end flumps


namespace flumps

/-! ## The decoder on a sequence of tokens -/

theorem render_tokens_append (a b : List ContentToken) :
    render_tokens (a ++ b) = render_tokens a ++ render_tokens b := by
  induction a with
  | nil => rfl
  | cons t a ih => simp [render_tokens, ih]

theorem render_length_pos (tok : ContentToken) : 1 ≤ tok.render.length := by
  cases tok <;> simp [ContentToken.render]

theorem tokens_length_le (tokens : List ContentToken) :
    tokens.length ≤ (render_tokens tokens).length := by
  induction tokens with
  | nil => simp
  | cons t rest ih =>
    have := render_length_pos t
    simp only [render_tokens, List.length_cons, List.length_append]
    omega

theorem ends_high_cons (t : ContentToken) (rest : List ContentToken) :
    ends_high (t :: rest) = if rest = [] then t.is_high else ends_high rest := by
  cases rest with
  | nil => simp [ends_high]
  | cons u rest => simp [ends_high, List.getLast?_cons_cons]

theorem ends_high_concat (tokens : List ContentToken) (t : ContentToken) :
    ends_high (tokens ++ [t]) = t.is_high := by
  simp [ends_high]

/-- The passes on well-formed tokens: a throw, or the pass after them with a tracker that
awaits a low surrogate exactly when the last token is the escape of a high one. -/
theorem json_string_content_loop_tokens (tokens : List ContentToken)
    (h : ∀ t ∈ tokens, t.WellFormed) : ∀ (F : Nat) (ret : Bytes) (sur : utf8_surrogate_checker)
      (p : Nat) (tail : Bytes),
      (∃ e c1, json_string_content_loop (F + tokens.length) ret sur
          ⟨p, render_tokens tokens ++ tail⟩ = .throw e c1) ∨
        ∃ ret1 sur1, json_string_content_loop (F + tokens.length) ret sur
            ⟨p, render_tokens tokens ++ tail⟩ =
            json_string_content_loop F ret1 sur1 ⟨p + (render_tokens tokens).length, tail⟩ ∧
          sur1.surrogate_low_needed =
            if tokens = [] then sur.surrogate_low_needed else ends_high tokens := by
  induction tokens with
  | nil =>
    intro F ret sur p tail
    exact Or.inr ⟨ret, sur, rfl, rfl⟩
  | cons tok rest ih =>
    intro F ret sur p tail
    have htok := h tok (List.mem_cons_self _ _)
    have hrest : ∀ t ∈ rest, t.WellFormed := fun t ht => h t (List.mem_cons_of_mem _ ht)
    simp only [render_tokens, List.length_cons, List.append_assoc, List.length_append]
    rw [show F + (rest.length + 1) = (F + rest.length) + 1 from rfl]
    rcases json_string_content_loop_token tok htok (F + rest.length) ret sur p
        (render_tokens rest ++ tail) with ⟨e, c1, h1⟩ | ⟨ret1, sur1, h1, h2, -⟩
    · exact Or.inl ⟨e, c1, h1⟩
    · rw [h1]
      rcases ih hrest F ret1 sur1 (p + tok.render.length) tail with
        ⟨e, c1, h3⟩ | ⟨ret2, sur2, h3, h4⟩
      · exact Or.inl ⟨e, c1, h3⟩
      · refine Or.inr ⟨ret2, sur2, ?_, ?_⟩
        · rw [h3, Nat.add_assoc]
        · rw [h4, if_neg (List.cons_ne_nil _ _), ends_high_cons, h2]

/-- The passes on well-formed tokens none of which is the escape of a surrogate. -/
theorem json_string_content_loop_plain_tokens (tokens : List ContentToken)
    (h : ∀ t ∈ tokens, t.WellFormed ∧ t.is_high = false ∧ t.is_low = false) :
    ∀ (sur : utf8_surrogate_checker), sur.surrogate_low_needed = false →
      ∃ sur1, sur1.surrogate_low_needed = false ∧ ∀ (F : Nat) (ret : Bytes) (p : Nat)
        (tail : Bytes), json_string_content_loop (F + tokens.length) ret sur
            ⟨p, render_tokens tokens ++ tail⟩ =
          json_string_content_loop F (ret ++ decode_tokens tokens) sur1
            ⟨p + (render_tokens tokens).length, tail⟩ := by
  induction tokens with
  | nil =>
    intro sur hsur
    exact ⟨sur, hsur, fun F ret p tail => by simp [render_tokens, decode_tokens]⟩
  | cons tok rest ih =>
    intro sur hsur
    obtain ⟨h1, h2, h3⟩ := h tok (List.mem_cons_self _ _)
    obtain ⟨sur1, hsur1, hstep⟩ := json_string_content_loop_plain tok h1 h2 h3 sur hsur
    obtain ⟨sur2, hsur2, hloop⟩ := ih (fun t ht => h t (List.mem_cons_of_mem _ ht)) sur1 hsur1
    refine ⟨sur2, hsur2, fun F ret p tail => ?_⟩
    simp only [render_tokens, decode_tokens, List.length_cons, List.append_assoc,
      List.length_append]
    rw [show F + (rest.length + 1) = (F + rest.length) + 1 from rfl, hstep, hloop,
      List.append_assoc, Nat.add_assoc]

theorem json_string_content_to_utf8_of_throw (input : Bytes) (e : DecodeError) (c1 : Cursor)
    (h : json_string_content_loop (input.length + 1) [] {} ⟨0, input⟩ = .throw e c1) :
    json_string_content_to_utf8 input = .throw e () := by
  simp only [json_string_content_to_utf8, h]

/-- The decoder on well-formed tokens none of which is the escape of a surrogate returns
the bytes they stand for. -/
theorem json_string_content_to_utf8_tokens (tokens : List ContentToken)
    (h : ∀ t ∈ tokens, t.WellFormed ∧ t.is_high = false ∧ t.is_low = false) :
    json_string_content_to_utf8 (render_tokens tokens) = .ok (decode_tokens tokens) () := by
  obtain ⟨sur1, hsur1, hloop⟩ := json_string_content_loop_plain_tokens tokens h {} rfl
  have hn := tokens_length_le tokens
  have hF : (render_tokens tokens).length + 1 =
      ((render_tokens tokens).length - tokens.length) + 1 + tokens.length := by omega
  have h1 := hloop (((render_tokens tokens).length - tokens.length) + 1) [] 0 []
  simp only [List.append_nil, List.nil_append, Nat.zero_add] at h1
  unfold json_string_content_to_utf8
  rw [hF, h1, json_string_content_loop_succ, if_pos rfl]
  simp only [check_code_point_tick sur1 hsur1]

end flumps


namespace flumps

/-! ## The failures of the decoder -/

theorem short_escape_none (x : Nat) (h : ¬ (ContentToken.short x).WellFormed) :
    short_escape x = none := by
  simp only [ContentToken.WellFormed, not_or] at h
  obtain ⟨h1, h2, h3, h4, h5, h6, h7, h8⟩ := h
  unfold short_escape
  rw [if_neg (by omega), if_neg h4, if_neg h5, if_neg h6, if_neg h7, if_neg h8]

/-- A backslash at the end of the input, or followed by a byte that is neither one of the
eight short escapes nor `u`. -/
theorem json_string_content_body_bad_escape (ret : Bytes) (sur : utf8_surrogate_checker)
    (p : Nat) (tail : Bytes)
    (h : tail = [] ∨ ∃ x r, tail = x :: r ∧ ¬ (ContentToken.short x).WellFormed ∧ x ≠ 0x75) :
    ∃ what c1, json_string_content_body ret sur ⟨p, 0x5C :: tail⟩ =
      .throw ⟨.JsonParseError, what⟩ c1 := by
  rcases h with rfl | ⟨x, r, rfl, hx, hu⟩
  · exact ⟨"End of data: partial escape sequence", ⟨p + 1, []⟩,
      by simp [json_string_content_body]⟩
  · exact ⟨"Invalid: invalid escape sequence", ⟨p + 1, x :: r⟩,
      by simp [json_string_content_body, short_escape_none x hx, hu]⟩

theorem json_hex_seq_to_code_point_cases (p : Nat) (r : Bytes) :
    (∃ d1 d2 d3 d4 tail, r = d1 :: d2 :: d3 :: d4 :: tail ∧
        (ContentToken.hex d1 d2 d3 d4).WellFormed ∧
        json_hex_seq_to_code_point ⟨p, r⟩ = .ok (hex4_value d1 d2 d3 d4) ⟨p + 4, tail⟩) ∨
      ∃ what c1, json_hex_seq_to_code_point ⟨p, r⟩ = .throw ⟨.JsonParseError, what⟩ c1 := by
  rcases r with _ | ⟨d1, _ | ⟨d2, _ | ⟨d3, _ | ⟨d4, tail⟩⟩⟩⟩
  · exact Or.inr ⟨"End of data: partial unicode escape sequence", ⟨p, []⟩,
      by simp [json_hex_seq_to_code_point]⟩
  · exact Or.inr ⟨"End of data: partial unicode escape sequence", ⟨p, [d1]⟩,
      by simp [json_hex_seq_to_code_point]⟩
  · exact Or.inr ⟨"End of data: partial unicode escape sequence", ⟨p, [d1, d2]⟩,
      by simp [json_hex_seq_to_code_point]⟩
  · exact Or.inr ⟨"End of data: partial unicode escape sequence", ⟨p, [d1, d2, d3]⟩,
      by simp [json_hex_seq_to_code_point]⟩
  · cases g1 : is_hex d1 with
    | false =>
      exact Or.inr ⟨"Invalid: hex character expected", ⟨p, d1 :: d2 :: d3 :: d4 :: tail⟩,
        by simp [json_hex_seq_to_code_point, json_hex_seq_loop, g1]⟩
    | true =>
      cases g2 : is_hex d2 with
      | false =>
        exact Or.inr ⟨"Invalid: hex character expected", ⟨p + 1, d2 :: d3 :: d4 :: tail⟩,
          by simp [json_hex_seq_to_code_point, json_hex_seq_loop, g1, g2]⟩
      | true =>
        cases g3 : is_hex d3 with
        | false =>
          exact Or.inr ⟨"Invalid: hex character expected", ⟨p + 1 + 1, d3 :: d4 :: tail⟩,
            by simp [json_hex_seq_to_code_point, json_hex_seq_loop, g1, g2, g3]⟩
        | true =>
          cases g4 : is_hex d4 with
          | false =>
            exact Or.inr ⟨"Invalid: hex character expected", ⟨p + 1 + 1 + 1, d4 :: tail⟩,
              by simp [json_hex_seq_to_code_point, json_hex_seq_loop, g1, g2, g3, g4]⟩
          | true =>
            exact Or.inl ⟨d1, d2, d3, d4, tail, rfl, ⟨g1, g2, g3, g4⟩,
              json_hex_seq_to_code_point_hex4 d1 d2 d3 d4 tail p g1 g2 g3 g4⟩

/-- A `\u` that is not followed by four hexadecimal digits. -/
theorem json_string_content_body_bad_hex (ret : Bytes) (sur : utf8_surrogate_checker)
    (p : Nat) (r : Bytes)
    (h : ¬ ∃ d1 d2 d3 d4 tail, r = d1 :: d2 :: d3 :: d4 :: tail ∧
      (ContentToken.hex d1 d2 d3 d4).WellFormed) :
    ∃ what c1, json_string_content_body ret sur ⟨p, 0x5C :: 0x75 :: r⟩ =
      .throw ⟨.JsonParseError, what⟩ c1 := by
  rcases json_hex_seq_to_code_point_cases (p + 1 + 1) r with
    ⟨d1, d2, d3, d4, tail, h1, h2, -⟩ | ⟨what, c1, h1⟩
  · exact absurd ⟨d1, d2, d3, d4, tail, h1, h2⟩ h
  · exact ⟨what, c1, by simp [json_string_content_body, short_escape_u, h1]⟩

/-- The pass entered with a tracker that awaits a low surrogate, on bytes that do not start
with the escape of one. -/
theorem json_string_content_loop_awaiting (F : Nat) (ret : Bytes) (sur : utf8_surrogate_checker)
    (p : Nat) (rest : Bytes) (hsur : sur.surrogate_low_needed = true) (hne : rest ≠ [])
    (hlow : ¬ StartsWithLow rest) :
    ∃ e c1, json_string_content_loop (F + 1) ret sur ⟨p, rest⟩ = .throw e c1 := by
  rw [json_string_content_loop_succ, if_neg hne]
  cases rest with
  | nil => exact absurd rfl hne
  | cons b r =>
    by_cases hb : b = 0x5C
    · subst hb
      cases r with
      | nil =>
        exact ⟨⟨.JsonParseError, "End of data: partial escape sequence"⟩, ⟨p + 1, []⟩,
          by simp [json_string_content_body]⟩
      | cons e r1 =>
        cases hse : short_escape e with
        | some x =>
          have hbody : json_string_content_body ret sur ⟨p, 0x5C :: e :: r1⟩ =
              .ok (ret ++ [x], sur, false) ⟨p + 2, r1⟩ := by
            simp [json_string_content_body, hse]
          rw [hbody]
          simp only [Res.bind_ok, Bool.not_false, if_true, check_code_point_tick_needed sur hsur]
          exact ⟨_, _, rfl⟩
        | none =>
          by_cases he : e = 0x75
          · subst he
            rcases json_hex_seq_to_code_point_cases (p + 1 + 1) r1 with
              ⟨d1, d2, d3, d4, tail, rfl, hwf, -⟩ | ⟨what, c1, h1⟩
            · rcases check_code_point_cases sur (hex4_value d1 d2 d3 d4) with
                ⟨err, herr⟩ | ⟨complete, sur1, -, -, -, -, h4⟩
              · rw [json_string_content_body_hex_error ret sur p d1 d2 d3 d4 tail hwf err herr]
                exact ⟨_, _, rfl⟩
              · cases hl : (ContentToken.hex d1 d2 d3 d4).is_low with
                | true => exact absurd ⟨d1, d2, d3, d4, tail, rfl, hwf, hl⟩ hlow
                | false =>
                  have := h4 hl
                  rw [hsur] at this
                  cases this
            · have hbody : json_string_content_body ret sur ⟨p, 0x5C :: 0x75 :: r1⟩ =
                  .throw ⟨.JsonParseError, what⟩ c1 := by
                simp [json_string_content_body, short_escape_u, h1]
              rw [hbody]
              exact ⟨_, _, rfl⟩
          · have hbody : json_string_content_body ret sur ⟨p, 0x5C :: e :: r1⟩ =
                .throw ⟨.JsonParseError, "Invalid: invalid escape sequence"⟩ ⟨p + 1, e :: r1⟩ := by
              simp [json_string_content_body, hse, he]
            rw [hbody]
            exact ⟨_, _, rfl⟩
    · rw [json_string_content_body_raw ret sur p b r hb]
      simp only [Res.bind_ok, Bool.not_false, if_true, check_code_point_tick_needed sur hsur]
      exact ⟨_, _, rfl⟩

/-- The decoder throws when the escape of a high surrogate is followed by anything other
than the escape of a low one. -/
theorem json_string_content_to_utf8_after_high (tokens : List ContentToken)
    (h : ∀ t ∈ tokens, t.WellFormed) (high : ContentToken) (hw : high.WellFormed)
    (hh : high.is_high = true) (rest : Bytes) (hrest : ¬ StartsWithLow rest) :
    ∃ e, json_string_content_to_utf8 (render_tokens tokens ++ (high.render ++ rest)) =
      .throw e () := by
  have hall : ∀ t ∈ tokens ++ [high], t.WellFormed := by
    intro t ht
    rcases List.mem_append.1 ht with ht | ht
    · exact h t ht
    · rw [List.mem_singleton.1 ht]; exact hw
  have hinput : render_tokens tokens ++ (high.render ++ rest) =
      render_tokens (tokens ++ [high]) ++ rest := by
    simp [render_tokens_append, render_tokens]
  rw [hinput]
  have hn := tokens_length_le (tokens ++ [high])
  obtain ⟨F, hF⟩ : ∃ F, (render_tokens (tokens ++ [high]) ++ rest).length + 1 =
      (F + 1) + (tokens ++ [high]).length :=
    ⟨(render_tokens (tokens ++ [high]) ++ rest).length - (tokens ++ [high]).length, by
      simp only [List.length_append] at hn ⊢
      omega⟩
  rcases json_string_content_loop_tokens (tokens ++ [high]) hall (F + 1) [] {} 0 rest with
    ⟨e, c1, h1⟩ | ⟨ret1, sur1, h1, h2⟩
  · exact ⟨e, json_string_content_to_utf8_of_throw _ e c1 (by rw [hF]; exact h1)⟩
  · rw [if_neg (by simp), ends_high_concat, hh] at h2
    by_cases hne : rest = []
    · subst hne
      refine ⟨⟨.UnicodeCodePointError,
        "Invalid: high surrogate code point not followed by low"⟩, ?_⟩
      unfold json_string_content_to_utf8
      rw [hF, h1, json_string_content_loop_succ, if_pos rfl]
      simp only [check_code_point_tick_needed sur1 h2]
    · obtain ⟨e, c1, h3⟩ := json_string_content_loop_awaiting F ret1 sur1 _ rest h2 hne hrest
      exact ⟨e, json_string_content_to_utf8_of_throw _ e c1 (by rw [hF, h1]; exact h3)⟩

/-- The decoder throws on the escape of a low surrogate that does not follow the escape of a
high one. -/
theorem json_string_content_to_utf8_lone_low (tokens : List ContentToken)
    (h : ∀ t ∈ tokens, t.WellFormed) (hends : ends_high tokens = false) (low : ContentToken)
    (hw : low.WellFormed) (hl : low.is_low = true) (rest : Bytes) :
    ∃ e, json_string_content_to_utf8 (render_tokens tokens ++ (low.render ++ rest)) =
      .throw e () := by
  have hn := tokens_length_le tokens
  have hpos := render_length_pos low
  obtain ⟨F, hF⟩ : ∃ F, (render_tokens tokens ++ (low.render ++ rest)).length + 1 =
      (F + 1) + tokens.length :=
    ⟨(render_tokens tokens ++ (low.render ++ rest)).length - tokens.length, by
      simp only [List.length_append] at hn ⊢
      omega⟩
  rcases json_string_content_loop_tokens tokens h (F + 1) [] {} 0 (low.render ++ rest) with
    ⟨e, c1, h1⟩ | ⟨ret1, sur1, h1, h2⟩
  · exact ⟨e, json_string_content_to_utf8_of_throw _ e c1 (by rw [hF]; exact h1)⟩
  · have hs : sur1.surrogate_low_needed = false := by
      rw [h2]
      by_cases ht : tokens = []
      · rw [if_pos ht]
      · rw [if_neg ht, hends]
    rcases json_string_content_loop_token low hw F ret1 sur1 _ rest with
      ⟨e, c1, h3⟩ | ⟨ret2, sur2, -, -, h4⟩
    · exact ⟨e, json_string_content_to_utf8_of_throw _ e c1 (by rw [hF, h1]; exact h3)⟩
    · have := h4 hl
      rw [hs] at this
      cases this

/-- The decoder throws `JsonParseError` on a backslash that starts no escape. -/
theorem json_string_content_to_utf8_no_escape (tokens : List ContentToken)
    (h : ∀ t ∈ tokens, t.WellFormed ∧ t.is_high = false ∧ t.is_low = false) (tail : Bytes)
    (hbody : ∀ (ret : Bytes) (sur : utf8_surrogate_checker) (p : Nat),
      ∃ what c1, json_string_content_body ret sur ⟨p, 0x5C :: tail⟩ =
        .throw ⟨.JsonParseError, what⟩ c1) :
    ∃ what, json_string_content_to_utf8 (render_tokens tokens ++ 0x5C :: tail) =
      .throw ⟨.JsonParseError, what⟩ () := by
  obtain ⟨sur1, -, hloop⟩ := json_string_content_loop_plain_tokens tokens h {} rfl
  have hn := tokens_length_le tokens
  obtain ⟨F, hF⟩ : ∃ F, (render_tokens tokens ++ 0x5C :: tail).length + 1 =
      (F + 1) + tokens.length :=
    ⟨(render_tokens tokens ++ 0x5C :: tail).length - tokens.length, by
      simp only [List.length_append, List.length_cons] at hn ⊢
      omega⟩
  obtain ⟨what, c1, hb⟩ := hbody ([] ++ decode_tokens tokens) sur1
    (0 + (render_tokens tokens).length)
  refine ⟨what, json_string_content_to_utf8_of_throw _ _ c1 ?_⟩
  rw [hF, hloop, json_string_content_loop_succ, if_neg (List.cons_ne_nil _ _), hb]
  rfl

/-- The passes of the decoder on the escapes of a high and a low surrogate. -/
theorem json_string_content_loop_pair (a1 a2 a3 a4 l1 l2 l3 l4 : Nat)
    (ha : (ContentToken.hex a1 a2 a3 a4).WellFormed)
    (hl : (ContentToken.hex l1 l2 l3 l4).WellFormed)
    (hh1 : 0xD800 ≤ hex4_value a1 a2 a3 a4) (hh2 : hex4_value a1 a2 a3 a4 ≤ 0xDBFF)
    (hl1 : 0xDC00 ≤ hex4_value l1 l2 l3 l4) (hl2 : hex4_value l1 l2 l3 l4 ≤ 0xDFFF)
    (F : Nat) (cp : Nat)
    (hcp : cp = 0x10000 + (hex4_value a1 a2 a3 a4 - 0xD800) * 0x400 +
      (hex4_value l1 l2 l3 l4 - 0xDC00)) :
    json_string_content_loop (F + 1 + 1 + 1) [] {}
        ⟨0, [0x5C, 0x75, a1, a2, a3, a4, 0x5C, 0x75, l1, l2, l3, l4]⟩ =
      if cp < 0x10FFFF then .ok (utf8_encode cp, ⟨cp, false⟩) ⟨0 + 6 + 6, []⟩
      else .throw (too_large cp) ⟨0 + 6 + 6, []⟩ := by
  have hc1 := check_code_point_high {} (hex4_value a1 a2 a3 a4) rfl hh1 hh2
  have hc2 := check_code_point_low (hex4_value a1 a2 a3 a4) (hex4_value l1 l2 l3 l4) hh1 hh2
    hl1 hl2
  rw [surrogate_pair_value _ _ hh1 hh2 hl1 hl2, ← hcp] at hc2
  have hb1 := json_string_content_body_hex_half [] {} 0 a1 a2 a3 a4
    [0x5C, 0x75, l1, l2, l3, l4] ha _ hc1
  rw [json_string_content_loop_succ, if_neg (List.cons_ne_nil _ _), hb1]
  simp only [Res.bind_ok, Bool.not_true, Bool.false_eq_true, if_false]
  rw [json_string_content_loop_succ, if_neg (List.cons_ne_nil _ _)]
  by_cases hlt : cp < 0x10FFFF
  · rw [if_pos hlt]
    have hb2 := json_string_content_body_hex_complete []
      ⟨hex4_value a1 a2 a3 a4, true⟩ (0 + 6) l1 l2 l3 l4 [] hl ⟨cp, false⟩
      ([] ++ utf8_encode cp) hc2 (code_point_to_utf8_encode cp [] hlt)
    rw [hb2]
    simp only [Res.bind_ok, Bool.not_true, Bool.false_eq_true, if_false]
    rw [json_string_content_loop_succ, if_pos rfl, List.nil_append]
  · rw [if_neg hlt]
    have hu : code_point_to_utf8 cp [] = .error (too_large cp) := by
      unfold code_point_to_utf8
      rw [if_neg (by omega), if_neg (by omega), if_neg (by omega), if_neg hlt]
    have hb2 := json_string_content_body_hex_large []
      ⟨hex4_value a1 a2 a3 a4, true⟩ (0 + 6) l1 l2 l3 l4 [] hl ⟨cp, false⟩
      (too_large cp) hc2 hu
    rw [hb2]
    rfl

/-- The decoder on the escapes of a high and a low surrogate: the encoding of the scalar
value of the pair, unless that value is U+10FFFF. -/
theorem json_string_content_to_utf8_pair (a1 a2 a3 a4 l1 l2 l3 l4 : Nat)
    (ha : (ContentToken.hex a1 a2 a3 a4).WellFormed)
    (hl : (ContentToken.hex l1 l2 l3 l4).WellFormed)
    (hh1 : 0xD800 ≤ hex4_value a1 a2 a3 a4) (hh2 : hex4_value a1 a2 a3 a4 ≤ 0xDBFF)
    (hl1 : 0xDC00 ≤ hex4_value l1 l2 l3 l4) (hl2 : hex4_value l1 l2 l3 l4 ≤ 0xDFFF) :
    json_string_content_to_utf8
        [0x5C, 0x75, a1, a2, a3, a4, 0x5C, 0x75, l1, l2, l3, l4] =
      if 0x10000 + (hex4_value a1 a2 a3 a4 - 0xD800) * 0x400 +
          (hex4_value l1 l2 l3 l4 - 0xDC00) < 0x10FFFF then
        .ok (utf8_encode (0x10000 + (hex4_value a1 a2 a3 a4 - 0xD800) * 0x400 +
          (hex4_value l1 l2 l3 l4 - 0xDC00))) ()
      else
        .throw (too_large (0x10000 + (hex4_value a1 a2 a3 a4 - 0xD800) * 0x400 +
          (hex4_value l1 l2 l3 l4 - 0xDC00))) () := by
  obtain ⟨cp, hcp⟩ : ∃ cp, cp = 0x10000 + (hex4_value a1 a2 a3 a4 - 0xD800) * 0x400 +
      (hex4_value l1 l2 l3 l4 - 0xDC00) := ⟨_, rfl⟩
  have hloop := json_string_content_loop_pair a1 a2 a3 a4 l1 l2 l3 l4 ha hl hh1 hh2 hl1 hl2 10
    cp hcp
  rw [← hcp]
  unfold json_string_content_to_utf8
  rw [show ([0x5C, 0x75, a1, a2, a3, a4, 0x5C, 0x75, l1, l2, l3, l4] : Bytes).length + 1 =
    10 + 1 + 1 + 1 from rfl, hloop]
  by_cases hlt : cp < 0x10FFFF
  · rw [if_pos hlt, if_pos hlt]
    simp only [check_code_point_tick ⟨cp, false⟩ rfl]
  · rw [if_neg hlt, if_neg hlt]

theorem json_string_content_body_no_escape (tail : Bytes) (h : StartsNoEscape tail)
    (ret : Bytes) (sur : utf8_surrogate_checker) (p : Nat) :
    ∃ what c1, json_string_content_body ret sur ⟨p, 0x5C :: tail⟩ =
      .throw ⟨.JsonParseError, what⟩ c1 := by
  rcases h with h | h | ⟨r, rfl, h⟩
  · exact json_string_content_body_bad_escape ret sur p tail (Or.inl h)
  · exact json_string_content_body_bad_escape ret sur p tail (Or.inr h)
  · exact json_string_content_body_bad_hex ret sur p r h

/-- Every byte string is a sequence of well-formed tokens, or such a sequence followed by a
backslash that starts no escape. -/
theorem content_tokenizes_bounded (n : Nat) : ∀ (s : Bytes), s.length ≤ n →
    ∃ tokens : List ContentToken, (∀ t ∈ tokens, t.WellFormed) ∧
      (s = render_tokens tokens ∨
        ∃ tail, s = render_tokens tokens ++ 0x5C :: tail ∧ StartsNoEscape tail) := by
  induction n with
  | zero =>
    intro s hs
    have : s = [] := List.length_eq_zero.1 (Nat.le_zero.1 hs)
    subst this
    exact ⟨[], by simp, Or.inl rfl⟩
  | succ n ih =>
    intro s hs
    cases s with
    | nil => exact ⟨[], by simp, Or.inl rfl⟩
    | cons b r =>
      have hr : r.length ≤ n := by simpa using hs
      have extend : ∀ (tok : ContentToken) (rest : Bytes), tok.WellFormed → rest.length ≤ n →
          b :: r = tok.render ++ rest →
          ∃ tokens : List ContentToken, (∀ t ∈ tokens, t.WellFormed) ∧
            (b :: r = render_tokens tokens ∨
              ∃ tail, b :: r = render_tokens tokens ++ 0x5C :: tail ∧ StartsNoEscape tail) := by
        intro tok rest htok hrest heq
        obtain ⟨tokens, hw, hform⟩ := ih rest hrest
        refine ⟨tok :: tokens, ?_, ?_⟩
        · intro t ht
          rcases List.mem_cons.1 ht with rfl | ht
          · exact htok
          · exact hw t ht
        · rcases hform with h1 | ⟨tail, h1, h2⟩
          · exact Or.inl (by rw [heq, h1]; rfl)
          · exact Or.inr ⟨tail, by rw [heq, h1]; simp [render_tokens], h2⟩
      by_cases hb : b = 0x5C
      · subst hb
        cases r with
        | nil => exact ⟨[], by simp, Or.inr ⟨[], rfl, Or.inl rfl⟩⟩
        | cons x r1 =>
          have hr1 : r1.length ≤ n := by
            simp only [List.length_cons] at hr
            omega
          by_cases hx : (ContentToken.short x).WellFormed
          · exact extend (.short x) r1 hx hr1 rfl
          · by_cases hu : x = 0x75
            · subst hu
              by_cases h4 : ∃ d1 d2 d3 d4 rest, r1 = d1 :: d2 :: d3 :: d4 :: rest ∧
                  (ContentToken.hex d1 d2 d3 d4).WellFormed
              · obtain ⟨d1, d2, d3, d4, rest, rfl, hwf⟩ := h4
                exact extend (.hex d1 d2 d3 d4) rest hwf (by
                  simp only [List.length_cons] at hr1
                  omega) rfl
              · exact ⟨[], by simp, Or.inr ⟨0x75 :: r1, rfl, Or.inr (Or.inr ⟨r1, rfl, h4⟩)⟩⟩
            · exact ⟨[], by simp,
                Or.inr ⟨x :: r1, rfl, Or.inr (Or.inl ⟨x, r1, rfl, hx, hu⟩)⟩⟩
      · exact extend (.raw b) r hb hr rfl

theorem content_tokenizes (s : Bytes) :
    ∃ tokens : List ContentToken, (∀ t ∈ tokens, t.WellFormed) ∧
      (s = render_tokens tokens ∨
        ∃ tail, s = render_tokens tokens ++ 0x5C :: tail ∧ StartsNoEscape tail) :=
  content_tokenizes_bounded s.length s (Nat.le_refl _)

end flumps


namespace flumps

/-! ## The tracker as an object -/

/-- The run on the object and the function used by the lexers give the same outcome. -/
theorem check_code_point_run_agrees (t : utf8_surrogate_checker) (cp : Nat) :
    t.check_code_point cp =
      match t.check_code_point_run cp with
      | .ok complete t1 => .ok (complete, t1)
      | .throw e _ => .error e
      | .fuel => .error (too_large cp) := by
  unfold utf8_surrogate_checker.check_code_point utf8_surrogate_checker.check_code_point_run
  cases hty : code_point_type cp with
  | error e => rfl
  | ok ty =>
    cases ty with
    | high_surrogate =>
      cases hn : t.surrogate_low_needed <;> simp [hn]
    | low_surrogate =>
      cases hn : t.surrogate_low_needed with
      | false => simp [hn]
      | true =>
        cases hp : surrogate_pair_to_code_point t.last_code_point cp <;> simp [hn, hp]
    | non_surrogate =>
      cases hn : t.surrogate_low_needed <;> simp [hn]

/-- A call of `check_code_point` that throws leaves the object as it was. -/
theorem check_code_point_run_thrown (t : utf8_surrogate_checker) (cp : Nat) (e : DecodeError)
    (t1 : utf8_surrogate_checker) (h : t.check_code_point_run cp = .throw e t1) : t1 = t := by
  unfold utf8_surrogate_checker.check_code_point_run at h
  cases hty : code_point_type cp with
  | error err =>
    rw [hty] at h
    simp only [Res.throw.injEq] at h
    exact h.2.symm
  | ok ty =>
    rw [hty] at h
    simp only at h
    split_ifs at h with h1 h2 h3 h4 h5
    · simp only [Res.throw.injEq] at h
      exact h.2.symm
    · cases hp : surrogate_pair_to_code_point t.last_code_point cp with
      | error err =>
        rw [hp] at h
        simp only [Res.throw.injEq] at h
        exact h.2.symm
      | ok v => rw [hp] at h; cases h
    · simp only [Res.throw.injEq] at h
      exact h.2.symm
    · simp only [Res.throw.injEq] at h
      exact h.2.symm

/-- A tracker that awaits a low surrogate holds a high surrogate. -/
theorem reachable_holds_high (t : utf8_surrogate_checker) (h : t.Reachable) :
    t.surrogate_low_needed = true → 0xD800 ≤ t.last_code_point ∧ t.last_code_point ≤ 0xDBFF := by
  induction h with
  | fresh => intro h; cases h
  | thrown t cp e t1 _ hcall ih =>
    rw [check_code_point_run_thrown t cp e t1 hcall]
    exact ih
  | call t cp complete t1 _ hcall _ =>
    intro hneed
    unfold utf8_surrogate_checker.check_code_point_run at hcall
    unfold code_point_type at hcall
    by_cases h1 : cp > 0x10FFFF
    · rw [if_pos h1] at hcall
      cases hcall
    rw [if_neg h1] at hcall
    by_cases h2 : cp < 0xD800 ∨ cp > 0xDFFF
    · rw [if_pos h2] at hcall
      simp only [reduceCtorEq, if_false] at hcall
      cases hn : t.surrogate_low_needed with
      | true =>
        rw [hn] at hcall
        simp at hcall
      | false =>
        rw [hn] at hcall
        simp only [Bool.false_eq_true, if_false, Res.ok.injEq] at hcall
        rw [← hcall.2] at hneed
        simp [hn] at hneed
    rw [if_neg h2] at hcall
    by_cases h3 : cp ≤ 0xDBFF
    · rw [if_pos h3] at hcall
      simp only [reduceCtorEq, if_false, if_true] at hcall
      cases hn : t.surrogate_low_needed with
      | true =>
        rw [hn] at hcall
        simp at hcall
      | false =>
        rw [hn] at hcall
        simp only [Bool.false_eq_true, if_false, Res.ok.injEq] at hcall
        rw [← hcall.2]
        simp only
        omega
    · rw [if_neg h3] at hcall
      simp only [if_true] at hcall
      cases hn : t.surrogate_low_needed with
      | false =>
        rw [hn] at hcall
        simp at hcall
      | true =>
        rw [hn] at hcall
        simp only [Bool.not_true, Bool.false_eq_true, if_false] at hcall
        cases hp : surrogate_pair_to_code_point t.last_code_point cp with
        | error e =>
          rw [hp] at hcall
          cases hcall
        | ok v =>
          rw [hp] at hcall
          simp only [Res.ok.injEq] at hcall
          rw [← hcall.2] at hneed
          simp at hneed

/-- The outcome of a call of `check_code_point` on a tracker that, when it awaits a low
surrogate, holds a high one. -/
theorem check_code_point_run_outcome (t : utf8_surrogate_checker)
    (hinv : t.surrogate_low_needed = true →
      0xD800 ≤ t.last_code_point ∧ t.last_code_point ≤ 0xDBFF) (cp : Nat) :
    (cp > 0x10FFFF ∧ t.check_code_point_run cp = .throw (too_large cp) t) ∨
    (cp ≤ 0x10FFFF ∧ is_low_surrogate cp = true ∧ t.surrogate_low_needed = false ∧
      t.check_code_point_run cp = .throw ⟨.UnicodeCodePointError,
        "Invalid: low surrogate code point not preceded by high"⟩ t) ∨
    (cp ≤ 0x10FFFF ∧ is_low_surrogate cp = false ∧ t.surrogate_low_needed = true ∧
      ∃ what, t.check_code_point_run cp = .throw ⟨.UnicodeCodePointError, what⟩ t) ∨
    (cp ≤ 0x10FFFF ∧ is_low_surrogate cp = t.surrogate_low_needed ∧
      ∃ complete t1, t.check_code_point_run cp = .ok complete t1) := by
  unfold utf8_surrogate_checker.check_code_point_run
  unfold code_point_type
  by_cases h1 : cp > 0x10FFFF
  · rw [if_pos h1]
    exact Or.inl ⟨h1, rfl⟩
  rw [if_neg h1]
  have hle : cp ≤ 0x10FFFF := Nat.le_of_not_lt h1
  by_cases h2 : cp < 0xD800 ∨ cp > 0xDFFF
  · rw [if_pos h2]
    have hlow : is_low_surrogate cp = false := by
      simp only [is_low_surrogate, Bool.and_eq_false_imp, decide_eq_true_eq,
        decide_eq_false_iff_not]
      omega
    simp only [reduceCtorEq, if_false]
    cases hn : t.surrogate_low_needed with
    | true =>
      exact Or.inr (Or.inr (Or.inl ⟨hle, hlow, rfl,
        "Invalid: high surrogate code point not followed by low", by simp⟩))
    | false => exact Or.inr (Or.inr (Or.inr ⟨hle, hlow, true, ⟨cp, false⟩, by simp [hn]⟩))
  rw [if_neg h2]
  by_cases h3 : cp ≤ 0xDBFF
  · rw [if_pos h3]
    have hlow : is_low_surrogate cp = false := by
      simp only [is_low_surrogate, Bool.and_eq_false_imp, decide_eq_true_eq,
        decide_eq_false_iff_not]
      omega
    simp only [reduceCtorEq, if_false, if_true]
    cases hn : t.surrogate_low_needed with
    | true =>
      exact Or.inr (Or.inr (Or.inl ⟨hle, hlow, rfl,
        "Invalid: high surrogate code point preceded by high", by simp⟩))
    | false => exact Or.inr (Or.inr (Or.inr ⟨hle, hlow, false, ⟨cp, true⟩, by simp⟩))
  · rw [if_neg h3]
    have hlow : is_low_surrogate cp = true := by
      simp only [is_low_surrogate, Bool.and_eq_true, decide_eq_true_eq]
      omega
    simp only [if_true]
    cases hn : t.surrogate_low_needed with
    | false => exact Or.inr (Or.inl ⟨hle, hlow, rfl, by simp⟩)
    | true =>
      obtain ⟨g1, g2⟩ := hinv hn
      have hp : surrogate_pair_to_code_point t.last_code_point cp =
          .ok (0x10000 + ((t.last_code_point &&& 0x03FF) <<< 10) + (cp &&& 0x03FF)) := by
        have e1 : code_point_type t.last_code_point = .ok .high_surrogate := by
          unfold code_point_type
          rw [if_neg (by omega), if_neg (by omega), if_pos (by omega)]
        have e2 : code_point_type cp = .ok .low_surrogate := by
          unfold code_point_type
          rw [if_neg (by omega), if_neg (by omega), if_neg (by omega)]
        simp [surrogate_pair_to_code_point, e1, e2]
      exact Or.inr (Or.inr (Or.inr ⟨hle, hlow, true,
        ⟨0x10000 + ((t.last_code_point &&& 0x03FF) <<< 10) + (cp &&& 0x03FF), false⟩,
        by simp [hp]⟩))

/-! ## The value of four hexadecimal digits -/

theorem is_hex_iff (c : Nat) : is_hex c = true ↔ IsHexDigit c := by
  simp only [is_hex, IsHexDigit, Bool.or_eq_true, Bool.and_eq_true, decide_eq_true_eq]
  tauto

theorem hex_to_dec_value (c : Nat) (h : IsHexDigit c) : hex_to_dec c = hex_digit_value c := by
  unfold IsHexDigit at h
  unfold hex_to_dec hex_digit_value
  split_ifs <;> omega

/-! ## The constructor of `JsonValuePath` -/

theorem allowed_key_byte_iff (b : Nat) :
    allowed_key_byte b = true ↔
      0x21 ≤ b ∧ b ≤ 0x7E ∧ b ≠ 0x5C ∧ b ≠ 0x22 ∧ b ≠ 0x5B ∧ b ≠ 0x2E := by
  simp only [allowed_key_byte, Bool.and_eq_true, decide_eq_true_eq]
  constructor
  · rintro ⟨⟨⟨⟨⟨h1, h2⟩, h3⟩, h4⟩, h5⟩, h6⟩
    exact ⟨h1, h2, h3, h4, h5, h6⟩
  · rintro ⟨h1, h2, h3, h4, h5, h6⟩
    exact ⟨⟨⟨⟨⟨h1, h2⟩, h3⟩, h4⟩, h5⟩, h6⟩

theorem scan_within_key_byte (b : Nat) (hb : allowed_key_byte b = true) (key : Bytes)
    (path : List PathSegment) (rest : Bytes) :
    JsonValuePath.scan .within_key key path (b :: rest) =
      JsonValuePath.scan .within_key (key ++ [b]) path rest := by
  obtain ⟨-, -, -, -, h5, h6⟩ := (allowed_key_byte_iff b).1 hb
  rw [JsonValuePath.scan, if_neg h6, if_neg h5, if_pos hb]

theorem scan_within_key_bytes (k : Bytes) : (∀ b ∈ k, allowed_key_byte b = true) →
    ∀ (key : Bytes) (path : List PathSegment) (rest : Bytes),
      JsonValuePath.scan .within_key key path (k ++ rest) =
        JsonValuePath.scan .within_key (key ++ k) path rest := by
  induction k with
  | nil => intro _ key path rest; simp
  | cons b k ih =>
    intro hk key path rest
    rw [List.cons_append, scan_within_key_byte b (hk b (List.mem_cons_self _ _)),
      ih (fun x hx => hk x (List.mem_cons_of_mem _ hx))]
    simp

theorem scan_start_key (k : Bytes) (hk : IsKey k) (path : List PathSegment) (rest : Bytes) :
    JsonValuePath.scan .start_key [] path (k ++ rest) =
      JsonValuePath.scan .within_key k path rest := by
  obtain ⟨hne, hall⟩ := hk
  cases k with
  | nil => exact absurd rfl hne
  | cons b k =>
    have hb : allowed_key_byte b = true :=
      (allowed_key_byte_iff b).2 (hall b (List.mem_cons_self _ _))
    rw [List.cons_append, JsonValuePath.scan, if_pos hb,
      scan_within_key_bytes k (fun x hx =>
        (allowed_key_byte_iff x).2 (hall x (List.mem_cons_of_mem _ hx)))]
    rfl

/-- The scan of the text of steps, after an array step and inside a key. -/
theorem scan_location_text (steps : List LocationStep) : (∀ s ∈ steps, s.Written) →
    ∀ path : List PathSegment,
      JsonValuePath.scan .complete_array [] path (location_text steps) =
          .ok (path ++ steps.map LocationStep.segment) ∧
        ∀ key, JsonValuePath.scan .within_key key path (location_text steps) =
          .ok (path ++ ⟨key⟩ :: steps.map LocationStep.segment) := by
  induction steps with
  | nil =>
    intro _ path
    exact ⟨by simp [location_text, JsonValuePath.scan], fun key => by
      simp [location_text, JsonValuePath.scan]⟩
  | cons s steps ih =>
    intro hs path
    have hrest : ∀ x ∈ steps, x.Written := fun x hx => hs x (List.mem_cons_of_mem _ hx)
    have hfirst := hs s (List.mem_cons_self _ _)
    cases s with
    | member k =>
      have hk : IsKey k := hfirst
      have e : ∀ p : List PathSegment,
          JsonValuePath.scan .start_key [] p (k ++ location_text steps) =
            .ok (p ++ ⟨k⟩ :: steps.map LocationStep.segment) := fun p => by
        rw [scan_start_key k hk, (ih hrest p).2 k]
      refine ⟨?_, fun key => ?_⟩
      · rw [location_text, JsonValuePath.scan, if_pos rfl, e]
        rfl
      · rw [location_text, JsonValuePath.scan, if_pos rfl, e]
        simp [LocationStep.segment]
    | element =>
      have e : ∀ p : List PathSegment,
          JsonValuePath.scan .partial_array [] p (0x5D :: location_text steps) =
            .ok (p ++ ⟨[]⟩ :: steps.map LocationStep.segment) := fun p => by
        rw [JsonValuePath.scan, if_pos rfl, (ih hrest _).1]
        simp
      refine ⟨?_, fun key => ?_⟩
      · rw [location_text, JsonValuePath.scan, if_neg (by decide), if_pos rfl, e]
        rfl
      · rw [location_text, JsonValuePath.scan, if_neg (by decide), if_pos rfl, e]
        simp [LocationStep.segment]

/-- The constructor on the text of written steps. -/
theorem of_string_location_path (steps : List LocationStep) (hs : ∀ s ∈ steps, s.Written) :
    JsonValuePath.of_string (location_path steps) = .ok ⟨steps.map LocationStep.segment⟩ := by
  cases steps with
  | nil => simp [location_path, JsonValuePath.of_string, JsonValuePath.scan]
  | cons s steps =>
    have hrest : ∀ x ∈ steps, x.Written := fun x hx => hs x (List.mem_cons_of_mem _ hx)
    have hfirst := hs s (List.mem_cons_self _ _)
    cases s with
    | member k =>
      have hk : IsKey k := hfirst
      obtain ⟨hne, hall⟩ := hk
      cases k with
      | nil => exact absurd rfl hne
      | cons b k =>
        obtain ⟨-, -, -, -, h5, -⟩ := hall b (List.mem_cons_self _ _)
        have hb : allowed_key_byte b = true :=
          (allowed_key_byte_iff b).2 (hall b (List.mem_cons_self _ _))
        simp only [location_path, location_text, JsonValuePath.of_string, List.cons_append]
        rw [JsonValuePath.scan, if_neg (by decide), JsonValuePath.scan, if_neg h5, if_pos hb,
          scan_within_key_bytes k (fun x hx =>
            (allowed_key_byte_iff x).2 (hall x (List.mem_cons_of_mem _ hx))),
          (scan_location_text steps hrest []).2]
        simp [LocationStep.segment]
    | element =>
      simp only [location_path, location_text, JsonValuePath.of_string]
      rw [JsonValuePath.scan, if_neg (by decide), JsonValuePath.scan, if_pos rfl,
        JsonValuePath.scan, if_pos rfl, (scan_location_text steps hrest _).1]
      simp [LocationStep.segment]

/-- What the scan has read when it returns, by the state it is in. -/
theorem scan_ok (rest : Bytes) :
    (∀ key path result, JsonValuePath.scan .within_key key path rest = .ok result →
      ∃ k steps, (∀ b ∈ k, allowed_key_byte b = true) ∧ (∀ s ∈ steps, s.Written) ∧
        rest = k ++ location_text steps ∧
        result = path ++ ⟨key ++ k⟩ :: steps.map LocationStep.segment) ∧
    (∀ path result, JsonValuePath.scan .start_key [] path rest = .ok result →
      ∃ k steps, IsKey k ∧ (∀ s ∈ steps, s.Written) ∧ rest = k ++ location_text steps ∧
        result = path ++ ⟨k⟩ :: steps.map LocationStep.segment) ∧
    (∀ path result, JsonValuePath.scan .complete_array [] path rest = .ok result →
      ∃ steps, (∀ s ∈ steps, s.Written) ∧ rest = location_text steps ∧
        result = path ++ steps.map LocationStep.segment) ∧
    (∀ path result, JsonValuePath.scan .partial_array [] path rest = .ok result →
      ∃ steps, (∀ s ∈ steps, s.Written) ∧ rest = 0x5D :: location_text steps ∧
        result = path ++ ⟨[]⟩ :: steps.map LocationStep.segment) := by
  induction rest with
  | nil =>
    refine ⟨fun key path result h => ?_, fun path result h => ?_, fun path result h => ?_,
      fun path result h => ?_⟩
    · simp only [JsonValuePath.scan, Except.ok.injEq] at h
      exact ⟨[], [], by simp, by simp, rfl, by simp [← h]⟩
    · simp [JsonValuePath.scan] at h
    · simp only [JsonValuePath.scan, Except.ok.injEq] at h
      exact ⟨[], by simp, rfl, by simp [← h]⟩
    · simp [JsonValuePath.scan] at h
  | cons ch rest ih =>
    obtain ⟨ih1, ih2, ih3, ih4⟩ := ih
    have key_case : ∀ key path result, allowed_key_byte ch = true →
        JsonValuePath.scan .within_key (key ++ [ch]) path rest = .ok result →
        ∃ k steps, (∀ b ∈ k, allowed_key_byte b = true) ∧ (∀ s ∈ steps, s.Written) ∧
          ch :: rest = k ++ location_text steps ∧
          result = path ++ ⟨key ++ k⟩ :: steps.map LocationStep.segment := by
      intro key path result hch h
      obtain ⟨k, steps, hk, hs, hr, hres⟩ := ih1 _ _ _ h
      refine ⟨ch :: k, steps, ?_, hs, by rw [hr]; rfl, by rw [hres]; simp⟩
      intro b hb
      rcases List.mem_cons.1 hb with rfl | hb
      · exact hch
      · exact hk b hb
    have dot_case : ∀ path result,
        JsonValuePath.scan .start_key [] path rest = .ok result →
        ∃ steps, (∀ s ∈ steps, s.Written) ∧ 0x2E :: rest = location_text steps ∧
          result = path ++ steps.map LocationStep.segment := by
      intro path result h
      obtain ⟨k, steps, hk, hs, hr, hres⟩ := ih2 _ _ h
      refine ⟨.member k :: steps, ?_, by rw [hr]; rfl, by rw [hres]; rfl⟩
      intro s hs1
      rcases List.mem_cons.1 hs1 with rfl | hs1
      · exact hk
      · exact hs s hs1
    have bracket_case : ∀ path result,
        JsonValuePath.scan .partial_array [] path rest = .ok result →
        ∃ steps, (∀ s ∈ steps, s.Written) ∧ 0x5B :: rest = location_text steps ∧
          result = path ++ steps.map LocationStep.segment := by
      intro path result h
      obtain ⟨steps, hs, hr, hres⟩ := ih4 _ _ h
      refine ⟨.element :: steps, ?_, by rw [hr]; rfl, by rw [hres]; rfl⟩
      intro s hs1
      rcases List.mem_cons.1 hs1 with rfl | hs1
      · trivial
      · exact hs s hs1
    refine ⟨fun key path result h => ?_, fun path result h => ?_, fun path result h => ?_,
      fun path result h => ?_⟩
    · rw [JsonValuePath.scan] at h
      by_cases h1 : ch = 0x2E
      · subst h1
        rw [if_pos rfl] at h
        obtain ⟨steps, hs, hr, hres⟩ := dot_case _ _ h
        exact ⟨[], steps, by simp, hs, by rw [hr]; rfl, by rw [hres]; simp⟩
      rw [if_neg h1] at h
      by_cases h2 : ch = 0x5B
      · subst h2
        rw [if_pos rfl] at h
        obtain ⟨steps, hs, hr, hres⟩ := bracket_case _ _ h
        exact ⟨[], steps, by simp, hs, by rw [hr]; rfl, by rw [hres]; simp⟩
      rw [if_neg h2] at h
      by_cases h3 : allowed_key_byte ch = true
      · rw [if_pos h3] at h
        exact key_case key path result h3 h
      · rw [if_neg h3] at h
        cases h
    · rw [JsonValuePath.scan] at h
      by_cases h3 : allowed_key_byte ch = true
      · rw [if_pos h3] at h
        obtain ⟨k, steps, hk, hs, hr, hres⟩ := key_case [] path result h3 h
        refine ⟨k, steps, ⟨?_, ?_⟩, hs, hr, by rw [hres]; rfl⟩
        · intro h0
          rw [h0] at hr
          cases steps with
          | nil => cases hr
          | cons s steps =>
            obtain ⟨-, -, -, -, g5, g6⟩ := (allowed_key_byte_iff ch).1 h3
            cases s with
            | member k2 =>
              simp only [location_text, List.nil_append, List.cons.injEq] at hr
              exact g6 hr.1
            | element =>
              simp only [location_text, List.nil_append, List.cons.injEq] at hr
              exact g5 hr.1
        · intro b hb
          exact (allowed_key_byte_iff b).1 (hk b hb)
      · rw [if_neg h3] at h
        cases h
    · rw [JsonValuePath.scan] at h
      by_cases h1 : ch = 0x2E
      · subst h1
        rw [if_pos rfl] at h
        exact dot_case _ _ h
      rw [if_neg h1] at h
      by_cases h2 : ch = 0x5B
      · subst h2
        rw [if_pos rfl] at h
        exact bracket_case _ _ h
      · rw [if_neg h2] at h
        cases h
    · rw [JsonValuePath.scan] at h
      by_cases h1 : ch = 0x5D
      · subst h1
        rw [if_pos rfl] at h
        obtain ⟨steps, hs, hr, hres⟩ := ih3 _ _ h
        exact ⟨steps, hs, by rw [hr], by rw [hres]; simp⟩
      · rw [if_neg h1] at h
        cases h

/-- A text that the constructor accepts is empty or the text of written steps. -/
theorem of_string_ok (text : Bytes) (p : JsonValuePath)
    (h : JsonValuePath.of_string text = .ok p) :
    (text = [] ∧ p = ⟨[]⟩) ∨
      ∃ steps, (∀ s ∈ steps, s.Written) ∧ text = location_path steps ∧
        p = ⟨steps.map LocationStep.segment⟩ := by
  unfold JsonValuePath.of_string at h
  cases hscan : JsonValuePath.scan .empty_root [] [] text with
  | error e => rw [hscan] at h; cases h
  | ok result =>
    rw [hscan] at h
    simp only [Except.ok.injEq] at h
    subst h
    cases text with
    | nil =>
      simp only [JsonValuePath.scan, Except.ok.injEq] at hscan
      exact Or.inl ⟨rfl, by rw [← hscan]⟩
    | cons c rest =>
      right
      rw [JsonValuePath.scan] at hscan
      by_cases hc : c = 0x2E
      · subst hc
        rw [if_neg (by simp)] at hscan
        cases rest with
        | nil =>
          simp only [JsonValuePath.scan, Except.ok.injEq] at hscan
          exact ⟨[], by simp, rfl, by rw [← hscan]; rfl⟩
        | cons ch rest =>
          rw [JsonValuePath.scan] at hscan
          by_cases h2 : ch = 0x5B
          · subst h2
            rw [if_pos rfl] at hscan
            obtain ⟨steps, hs, hr, hres⟩ := (scan_ok rest).2.2.2 _ _ hscan
            refine ⟨.element :: steps, ?_, by rw [hr]; rfl, by rw [hres]; rfl⟩
            intro s hs1
            rcases List.mem_cons.1 hs1 with rfl | hs1
            · trivial
            · exact hs s hs1
          rw [if_neg h2] at hscan
          by_cases h3 : allowed_key_byte ch = true
          · rw [if_pos h3] at hscan
            obtain ⟨k, steps, hk, hs, hr, hres⟩ := (scan_ok rest).1 _ _ _ hscan
            refine ⟨.member (ch :: k) :: steps, ?_, by rw [hr]; rfl, by rw [hres]; rfl⟩
            intro s hs1
            rcases List.mem_cons.1 hs1 with rfl | hs1
            · refine ⟨List.cons_ne_nil _ _, fun b hb => ?_⟩
              rcases List.mem_cons.1 hb with rfl | hb
              · exact (allowed_key_byte_iff _).1 h3
              · exact (allowed_key_byte_iff b).1 (hk b hb)
            · exact hs s hs1
          · rw [if_neg h3] at hscan
            cases hscan
      · rw [if_pos hc] at hscan
        cases hscan

/-! ## The filter action -/

theorem split_pipe_ne_nil (s : Bytes) : split_pipe s ≠ [] := by
  cases s with
  | nil => simp [split_pipe]
  | cons ch rest =>
    rw [split_pipe]
    by_cases h : ch = 0x7C
    · rw [if_pos h]
      exact List.cons_ne_nil _ _
    · rw [if_neg h]
      cases split_pipe rest <;> simp

theorem split_pipe_cons_other (ch : Nat) (rest : Bytes) (h : ch ≠ 0x7C) :
    ∃ first more, split_pipe rest = first :: more ∧
      split_pipe (ch :: rest) = (ch :: first) :: more := by
  cases hs : split_pipe rest with
  | nil => exact absurd hs (split_pipe_ne_nil rest)
  | cons first more =>
    refine ⟨first, more, rfl, ?_⟩
    rw [split_pipe, if_neg h, hs]

/-- The loop registers the substrings between the `|` bytes, the first of them after the
bytes already read. -/
theorem filter_register_split (s : Bytes) : ∀ (v : JsonCallbackVisitorImpl) (path : Bytes),
    ∃ first more, split_pipe s = first :: more ∧
      filter_register v path s = register_paths v ((path ++ first) :: more) := by
  induction s with
  | nil =>
    intro v path
    refine ⟨[], [], rfl, ?_⟩
    simp only [filter_register, register_paths, List.append_nil]
  | cons ch rest ih =>
    intro v path
    by_cases h : ch = 0x7C
    · subst h
      refine ⟨[], split_pipe rest, by rw [split_pipe, if_pos rfl], ?_⟩
      rw [filter_register, if_pos rfl, register_paths, List.append_nil]
      cases hp : JsonValuePath.of_string path with
      | error e => rfl
      | ok p =>
        obtain ⟨first, more, h1, h2⟩ := ih (v.register_callback p print_value) []
        simp only []
        rw [h2, h1, List.nil_append]
    · obtain ⟨first, more, h1, h2⟩ := split_pipe_cons_other ch rest h
      obtain ⟨first1, more1, h3, h4⟩ := ih v (path ++ [ch])
      rw [h1] at h3
      simp only [List.cons.injEq] at h3
      obtain ⟨rfl, rfl⟩ := h3
      refine ⟨ch :: first, more, h2, ?_⟩
      rw [filter_register, if_neg h, h4]
      simp

theorem filter_action_split (s : Bytes) :
    filter_action s = register_paths JsonCallbackVisitor (split_pipe s) := by
  obtain ⟨first, more, h1, h2⟩ := filter_register_split s JsonCallbackVisitor []
  rw [filter_action, h2, h1, List.nil_append]

theorem split_pipe_length (s : Bytes) : (split_pipe s).length = s.count 0x7C + 1 := by
  induction s with
  | nil => rfl
  | cons ch rest ih =>
    by_cases h : ch = 0x7C
    · subst h
      rw [split_pipe, if_pos rfl, List.length_cons, ih, List.count_cons_self]
    · obtain ⟨first, more, h1, h2⟩ := split_pipe_cons_other ch rest h
      rw [h2, List.length_cons, ← List.length_cons first more, ← h1, ih,
        List.count_cons_of_ne (Ne.symm h)]

theorem split_pipe_no_pipe (s : Bytes) : ∀ piece ∈ split_pipe s, 0x7C ∉ piece := by
  induction s with
  | nil => simp [split_pipe]
  | cons ch rest ih =>
    by_cases h : ch = 0x7C
    · subst h
      rw [split_pipe, if_pos rfl]
      intro piece hp
      rcases List.mem_cons.1 hp with rfl | hp
      · simp
      · exact ih piece hp
    · obtain ⟨first, more, h1, h2⟩ := split_pipe_cons_other ch rest h
      rw [h2]
      rw [h1] at ih
      intro piece hp
      rcases List.mem_cons.1 hp with rfl | hp
      · intro hmem
        rcases List.mem_cons.1 hmem with h0 | h0
        · exact h h0.symm
        · exact ih first (List.mem_cons_self _ _) h0
      · exact ih piece (List.mem_cons_of_mem _ hp)

theorem intercalate_cons_two (sep a b : Bytes) (l : List Bytes) :
    sep.intercalate (a :: b :: l) = a ++ (sep ++ sep.intercalate (b :: l)) := by
  simp [List.intercalate, List.intersperse]

theorem split_pipe_join (s : Bytes) : [0x7C].intercalate (split_pipe s) = s := by
  induction s with
  | nil => rfl
  | cons ch rest ih =>
    by_cases h : ch = 0x7C
    · subst h
      rw [split_pipe, if_pos rfl]
      cases hs : split_pipe rest with
      | nil => exact absurd hs (split_pipe_ne_nil rest)
      | cons first more =>
        rw [hs] at ih
        rw [intercalate_cons_two, ih]
        rfl
    · obtain ⟨first, more, h1, h2⟩ := split_pipe_cons_other ch rest h
      rw [h2]
      rw [h1] at ih
      cases more with
      | nil =>
        have e : ∀ x : Bytes, [0x7C].intercalate [x] = x := fun x => by
          simp [List.intercalate, List.intersperse]
        rw [e] at ih ⊢
        rw [ih]
      | cons second more =>
        rw [intercalate_cons_two] at ih ⊢
        rw [List.cons_append, ih]

/-- The registrations of substrings that are all value paths. -/
theorem register_paths_ok (texts : List Bytes) : ∀ (ps : List JsonValuePath)
    (v : JsonCallbackVisitorImpl),
    List.Forall₂ (fun text p => JsonValuePath.of_string text = .ok p) texts ps →
      register_paths v texts =
        .ok (ps.foldl (fun w p => w.register_callback p print_value) v) := by
  induction texts with
  | nil =>
    intro ps v h
    cases h
    rfl
  | cons text texts ih =>
    intro ps v h
    cases h with
    | cons h1 h2 =>
      rw [register_paths, h1]
      exact ih _ _ h2

/-- The registrations stop with the return code at a substring that is not a value path. -/
theorem register_paths_error (texts : List Bytes) : ∀ (v : JsonCallbackVisitorImpl),
    (∃ text ∈ texts, ∃ e, JsonValuePath.of_string text = .error e) →
      register_paths v texts = .error RET_json_path_error := by
  induction texts with
  | nil =>
    rintro v ⟨text, ht, -⟩
    cases ht
  | cons t texts ih =>
    rintro v ⟨text, ht, e, he⟩
    rw [register_paths]
    cases hp : JsonValuePath.of_string t with
    | error e1 => rfl
    | ok p =>
      rcases List.mem_cons.1 ht with rfl | ht
      · rw [hp] at he
        cases he
      · exact ih _ ⟨text, ht, e, he⟩

end flumps


namespace flumps

/-! ## A text that starts as a number -/

/-- An input without whitespace that starts with `-` or a digit and on which `parse_json`
returns is a number of the grammar. -/
theorem number_of_parse (p : JsonParserImpl) (s : Bytes) (b : Nat) (r : Bytes) (hs : s = b :: r)
    (hb : b = 0x2D ∨ is_dec b = true) (hnw : ∀ x ∈ s, is_whitespace x = false)
    (st : ParseState) (hok : parse_json p s = .ok true st) : IsNumber s := by
  rcases parse_json_outcome p s with ⟨st1, -, ⟨t, hsh, hr⟩⟩ | ⟨inner, st1, h1, -⟩
  · obtain ⟨ws1, v, ws2⟩ := t
    obtain ⟨h1, hv, h2⟩ := hsh
    simp only [JsonText.render] at hr h1 h2
    have e1 : ws1 = [] := by
      cases ws1 with
      | nil => rfl
      | cons x ws1 =>
        have hx := h1 x (List.mem_cons_self _ _)
        have := hnw x (by rw [← hr]; simp)
        rw [hx] at this
        cases this
    have e2 : ws2 = [] := by
      cases ws2 with
      | nil => rfl
      | cons x ws2 =>
        have hx := h2 x (List.mem_cons_self _ _)
        have := hnw x (by rw [← hr]; simp)
        rw [hx] at this
        cases this
    subst e1 e2
    simp only [List.nil_append, List.append_nil] at hr
    have hdec : ∀ c : Nat, is_dec c = true → 0x30 ≤ c ∧ c ≤ 0x39 := fun c hc => by
      simpa [is_dec] using hc
    have hb2 : b ≠ 0x22 ∧ b ≠ 0x74 ∧ b ≠ 0x66 ∧ b ≠ 0x6E ∧ b ≠ 0x5B ∧ b ≠ 0x7B := by
      rcases hb with rfl | hb
      · decide
      · have := hdec b hb
        omega
    cases v with
    | primitive type text =>
      simp only [JsonValue.Shaped] at hv
      simp only [JsonValue.render, primitive_text] at hr
      cases type with
      | Array => exact absurd hv (by simp [IsPrimitiveShape])
      | Object => exact absurd hv (by simp [IsPrimitiveShape])
      | True =>
        simp only [IsPrimitiveShape] at hv
        subst hv
        rw [hs] at hr
        simp only [reduceCtorEq, if_false, List.cons.injEq] at hr
        exact absurd hr.1.symm hb2.2.1
      | False =>
        simp only [IsPrimitiveShape] at hv
        subst hv
        rw [hs] at hr
        simp only [reduceCtorEq, if_false, List.cons.injEq] at hr
        exact absurd hr.1.symm hb2.2.2.1
      | Null =>
        simp only [IsPrimitiveShape] at hv
        subst hv
        rw [hs] at hr
        simp only [reduceCtorEq, if_false, List.cons.injEq] at hr
        exact absurd hr.1.symm hb2.2.2.2.1
      | String =>
        rw [hs] at hr
        simp only [if_true, List.cons.injEq] at hr
        exact absurd hr.1.symm hb2.1
      | Number =>
        simp only [reduceCtorEq, if_false] at hr
        rw [← hr]
        exact hv
    | empty_array ws =>
      rw [hs, JsonValue.render] at hr
      simp only [List.cons.injEq] at hr
      exact absurd hr.1.symm hb2.2.2.2.2.1
    | array ws1 v ws2 more =>
      rw [hs, JsonValue.render] at hr
      simp only [List.cons.injEq] at hr
      exact absurd hr.1.symm hb2.2.2.2.2.1
    | empty_object ws =>
      rw [hs, JsonValue.render] at hr
      simp only [List.cons.injEq] at hr
      exact absurd hr.1.symm hb2.2.2.2.2.2
    | object ws1 key ws2 ws3 v ws4 more =>
      rw [hs, JsonValue.render] at hr
      simp only [List.cons.injEq] at hr
      exact absurd hr.1.symm hb2.2.2.2.2.2
  · rw [hok] at h1
    cases h1

/-- A number of the grammar is parsed as one `Number` primitive whose span is the input. -/
theorem parse_json_number (s : Bytes) (h : IsNumber s) (lim : Nat) :
    parse_json (JsonParser lim) s =
      .ok true (⟨[], [.on_primitive_value .Number 0 s.length], lim⟩, ⟨s.length, []⟩) := by
  have hv : (JsonText.mk [] (.primitive .Number s) []).Valid :=
    ⟨isWhitespace_nil, h, isWhitespace_nil⟩
  have := parse_json_valid ⟨[], .primitive .Number s, []⟩ hv (JsonParser lim) (by
    rcases Nat.eq_zero_or_pos lim with h0 | h0
    · exact Or.inl h0
    · right
      simp only [JsonValue.height, JsonParser]
      omega)
  simpa [JsonText.render, JsonValue.render, primitive_text, JsonValue.events, JsonParser]
    using this

/-! ## The invocations and the values they report -/

mutual
/-- Every invocation of the reference reports a value of the text at its location. -/
theorem value_invocations_located (regs : List (JsonValuePath × Nat)) :
    ∀ (v : JsonValue) (loc : List LocationStep) (s : Nat),
      ∀ inv ∈ v.invocations regs loc s, ∃ x ∈ v.located loc s,
        inv ∈ invocations_at regs x.loc x.type x.data x.length
  | .primitive type text, loc, s => by
    intro inv hinv
    simp only [JsonValue.invocations] at hinv
    simp only [JsonValue.located, List.mem_singleton, exists_eq_left]
    exact hinv
  | .empty_array ws, loc, s => by
    intro inv hinv
    simp only [JsonValue.invocations] at hinv
    simp only [JsonValue.located, List.mem_singleton, exists_eq_left]
    exact hinv
  | .empty_object ws, loc, s => by
    intro inv hinv
    simp only [JsonValue.invocations] at hinv
    simp only [JsonValue.located, List.mem_singleton, exists_eq_left]
    exact hinv
  | .array ws1 v ws2 more, loc, s => by
    intro inv hinv
    simp only [JsonValue.invocations, List.mem_append] at hinv
    simp only [JsonValue.located, List.mem_append, List.mem_singleton]
    rcases hinv with h | h | h
    · obtain ⟨x, hx, hi⟩ := value_invocations_located regs v _ _ inv h
      exact ⟨x, Or.inl hx, hi⟩
    · obtain ⟨x, hx, hi⟩ := elements_invocations_located regs more _ _ inv h
      exact ⟨x, Or.inr (Or.inl hx), hi⟩
    · exact ⟨_, Or.inr (Or.inr rfl), h⟩
  | .object ws1 key ws2 ws3 v ws4 more, loc, s => by
    intro inv hinv
    simp only [JsonValue.invocations, List.mem_append] at hinv
    simp only [JsonValue.located, List.mem_append, List.mem_singleton]
    rcases hinv with h | h | h
    · obtain ⟨x, hx, hi⟩ := value_invocations_located regs v _ _ inv h
      exact ⟨x, Or.inl hx, hi⟩
    · obtain ⟨x, hx, hi⟩ := members_invocations_located regs more _ _ inv h
      exact ⟨x, Or.inr (Or.inl hx), hi⟩
    · exact ⟨_, Or.inr (Or.inr rfl), h⟩
theorem elements_invocations_located (regs : List (JsonValuePath × Nat)) :
    ∀ (es : JsonElements) (loc : List LocationStep) (s : Nat),
      ∀ inv ∈ es.invocations regs loc s, ∃ x ∈ es.located loc s,
        inv ∈ invocations_at regs x.loc x.type x.data x.length
  | .nil, loc, s => by
    intro inv hinv
    simp [JsonElements.invocations] at hinv
  | .cons ws1 v ws2 tl, loc, s => by
    intro inv hinv
    simp only [JsonElements.invocations, List.mem_append] at hinv
    simp only [JsonElements.located, List.mem_append]
    rcases hinv with h | h
    · obtain ⟨x, hx, hi⟩ := value_invocations_located regs v _ _ inv h
      exact ⟨x, Or.inl hx, hi⟩
    · obtain ⟨x, hx, hi⟩ := elements_invocations_located regs tl _ _ inv h
      exact ⟨x, Or.inr hx, hi⟩
theorem members_invocations_located (regs : List (JsonValuePath × Nat)) :
    ∀ (ms : JsonMembers) (loc : List LocationStep) (s : Nat),
      ∀ inv ∈ ms.invocations regs loc s, ∃ x ∈ ms.located loc s,
        inv ∈ invocations_at regs x.loc x.type x.data x.length
  | .nil, loc, s => by
    intro inv hinv
    simp [JsonMembers.invocations] at hinv
  | .cons ws1 key ws2 ws3 v ws4 tl, loc, s => by
    intro inv hinv
    simp only [JsonMembers.invocations, List.mem_append] at hinv
    simp only [JsonMembers.located, List.mem_append]
    rcases hinv with h | h
    · obtain ⟨x, hx, hi⟩ := value_invocations_located regs v _ _ inv h
      exact ⟨x, Or.inl hx, hi⟩
    · obtain ⟨x, hx, hi⟩ := members_invocations_located regs tl _ _ inv h
      exact ⟨x, Or.inr hx, hi⟩
end

mutual
/-- The values of a value lie at its location or below it. -/
theorem value_located_below :
    ∀ (v : JsonValue) (loc : List LocationStep) (s : Nat),
      ∀ x ∈ v.located loc s, ∃ rel, x.loc = loc ++ rel
  | .primitive type text, loc, s => by
    intro x hx
    simp only [JsonValue.located, List.mem_singleton] at hx
    exact ⟨[], by rw [hx]; simp⟩
  | .empty_array ws, loc, s => by
    intro x hx
    simp only [JsonValue.located, List.mem_singleton] at hx
    exact ⟨[], by rw [hx]; simp⟩
  | .empty_object ws, loc, s => by
    intro x hx
    simp only [JsonValue.located, List.mem_singleton] at hx
    exact ⟨[], by rw [hx]; simp⟩
  | .array ws1 v ws2 more, loc, s => by
    intro x hx
    simp only [JsonValue.located, List.mem_append, List.mem_singleton] at hx
    rcases hx with h | h | h
    · obtain ⟨rel, hr⟩ := value_located_below v _ _ x h
      exact ⟨.element :: rel, by rw [hr]; simp⟩
    · obtain ⟨rel, hr, -⟩ := elements_located_below more _ _ x h
      exact ⟨.element :: rel, by rw [hr]; simp⟩
    · exact ⟨[], by rw [h]; simp⟩
  | .object ws1 key ws2 ws3 v ws4 more, loc, s => by
    intro x hx
    simp only [JsonValue.located, List.mem_append, List.mem_singleton] at hx
    rcases hx with h | h | h
    · obtain ⟨rel, hr⟩ := value_located_below v _ _ x h
      exact ⟨.member key :: rel, by rw [hr]; simp⟩
    · obtain ⟨rel, hr, -⟩ := members_located_below more _ _ x h
      exact ⟨rel, hr⟩
    · exact ⟨[], by rw [h]; simp⟩
theorem elements_located_below :
    ∀ (es : JsonElements) (loc : List LocationStep) (s : Nat),
      ∀ x ∈ es.located loc s, ∃ rel, x.loc = loc ++ rel ∧ True
  | .nil, loc, s => by
    intro x hx
    simp [JsonElements.located] at hx
  | .cons ws1 v ws2 tl, loc, s => by
    intro x hx
    simp only [JsonElements.located, List.mem_append] at hx
    rcases hx with h | h
    · obtain ⟨rel, hr⟩ := value_located_below v _ _ x h
      exact ⟨rel, hr, trivial⟩
    · exact elements_located_below tl _ _ x h
theorem members_located_below :
    ∀ (ms : JsonMembers) (loc : List LocationStep) (s : Nat),
      ∀ x ∈ ms.located loc s, ∃ rel, x.loc = loc ++ rel ∧ rel ≠ []
  | .nil, loc, s => by
    intro x hx
    simp [JsonMembers.located] at hx
  | .cons ws1 key ws2 ws3 v ws4 tl, loc, s => by
    intro x hx
    simp only [JsonMembers.located, List.mem_append] at hx
    rcases hx with h | h
    · obtain ⟨rel, hr⟩ := value_located_below v _ _ x h
      exact ⟨.member key :: rel, by rw [hr]; simp, List.cons_ne_nil _ _⟩
    · exact members_located_below tl _ _ x h
end

/-- The invocations of a value end with those for the value itself; those before them are
for values below it. -/
theorem value_invocations_split (regs : List (JsonValuePath × Nat)) (v : JsonValue)
    (loc : List LocationStep) (s : Nat) :
    ∃ inner, v.invocations regs loc s =
        inner ++ invocations_at regs loc v.type (v.span s).1 (v.span s).2 ∧
      ∀ inv ∈ inner, ∃ rel, rel ≠ [] ∧ inv.callback ∈ callbacks_for regs (loc ++ rel) := by
  have of_located : ∀ (inv : Invocation) (x : Located) (rel : List LocationStep),
      x.loc = loc ++ rel → rel ≠ [] → inv ∈ invocations_at regs x.loc x.type x.data x.length →
      ∃ rel, rel ≠ [] ∧ inv.callback ∈ callbacks_for regs (loc ++ rel) := by
    intro inv x rel hx hne hinv
    simp only [invocations_at, List.mem_map] at hinv
    obtain ⟨c, hc, rfl⟩ := hinv
    exact ⟨rel, hne, by rw [← hx]; exact hc⟩
  cases v with
  | primitive type text =>
    exact ⟨[], by simp [JsonValue.invocations, JsonValue.type, JsonValue.span], by simp⟩
  | empty_array ws =>
    exact ⟨[], by simp [JsonValue.invocations, JsonValue.type, JsonValue.span,
      JsonValue.render], by simp⟩
  | empty_object ws =>
    exact ⟨[], by simp [JsonValue.invocations, JsonValue.type, JsonValue.span,
      JsonValue.render], by simp⟩
  | array ws1 v ws2 more =>
    refine ⟨v.invocations regs (loc ++ [.element]) (s + 1 + ws1.length) ++
      more.invocations regs (loc ++ [.element])
        (s + 1 + ws1.length + v.render.length + ws2.length), ?_, ?_⟩
    · simp [JsonValue.invocations, JsonValue.type, JsonValue.span]
    · intro inv hinv
      rcases List.mem_append.1 hinv with h | h
      · obtain ⟨x, hx, hi⟩ := value_invocations_located regs v _ _ inv h
        obtain ⟨rel, hr⟩ := value_located_below v _ _ x hx
        exact of_located inv x (.element :: rel) (by rw [hr]; simp) (List.cons_ne_nil _ _) hi
      · obtain ⟨x, hx, hi⟩ := elements_invocations_located regs more _ _ inv h
        obtain ⟨rel, hr, -⟩ := elements_located_below more _ _ x hx
        exact of_located inv x (.element :: rel) (by rw [hr]; simp) (List.cons_ne_nil _ _) hi
  | object ws1 key ws2 ws3 v ws4 more =>
    refine ⟨v.invocations regs (loc ++ [.member key])
        (s + 1 + (key_text ws1 key ws2).length + ws3.length) ++
      more.invocations regs loc
        (s + 1 + (key_text ws1 key ws2).length + ws3.length + v.render.length + ws4.length),
      ?_, ?_⟩
    · simp [JsonValue.invocations, JsonValue.type, JsonValue.span]
    · intro inv hinv
      rcases List.mem_append.1 hinv with h | h
      · obtain ⟨x, hx, hi⟩ := value_invocations_located regs v _ _ inv h
        obtain ⟨rel, hr⟩ := value_located_below v _ _ x hx
        exact of_located inv x (.member key :: rel) (by rw [hr]; simp) (List.cons_ne_nil _ _) hi
      · obtain ⟨x, hx, hi⟩ := members_invocations_located regs more _ _ inv h
        obtain ⟨rel, hr, hne⟩ := members_located_below more _ _ x hx
        exact of_located inv x rel hr hne hi

/-! ## The path of an invocation and the registered path -/

/-- The number of registrations of a callback for the root among the callbacks for the
root. -/
theorem callbacks_for_root_count (regs : List (JsonValuePath × Nat)) (cb : Nat)
    (h : regs.filter (fun r => r.2 = cb) = [(JsonValuePath.root, cb)]) :
    (callbacks_for regs []).count cb = 1 := by
  have e : ∀ l : List (JsonValuePath × Nat),
      ((l.filter fun r => path_matches r.1.segments []).map fun r => r.2).count cb =
        ((l.filter fun r => r.2 = cb).filter fun r => path_matches r.1.segments []).length := by
    intro l
    induction l with
    | nil => rfl
    | cons r l ih =>
      by_cases h1 : path_matches r.1.segments [] = true <;> by_cases h2 : r.2 = cb <;>
        simp [List.filter_cons, h1, h2, ih, List.count_cons]
  rw [callbacks_for, e, h]
  rfl

end flumps


namespace flumps

/-! ## `parse_string` reads the same content in the same way wherever it stands -/

theorem parse_string_body_raw (sur : utf8_surrogate_checker) (last : Bool) (p b : Nat)
    (r : Bytes) (hb : b ≠ 0x5C) (h20 : ¬ b ≤ 0x1F) :
    parse_string_body sur last ⟨p, b :: r⟩ =
      (chomp_utf8_char ⟨p, b :: r⟩).bind fun _ c1 => .ok (sur, last) c1 := by
  simp only [parse_string_body, Cursor.peek_cons]
  rw [if_pos hb, if_neg h20]

theorem parse_string_body_short (sur : utf8_surrogate_checker) (last : Bool) (p e : Nat)
    (r : Bytes) (h1 : e ∈ escape_char) (h2 : e ≠ 0x75) :
    parse_string_body sur last ⟨p, 0x5C :: e :: r⟩ = .ok (sur, last) ⟨p + 1 + 1, r⟩ := by
  simp only [parse_string_body, Cursor.peek_cons, Cursor.next_cons]
  rw [if_neg (by simp), if_neg (by simp), if_neg (by simpa using h1), if_pos h2]

theorem parse_string_body_u (sur : utf8_surrogate_checker) (last : Bool) (p : Nat)
    (r : Bytes) :
    parse_string_body sur last ⟨p, 0x5C :: 0x75 :: r⟩ =
      (json_hex_seq_to_code_point ⟨p + 1 + 1, r⟩).bind fun code_point c2 =>
        match sur.check_code_point code_point with
        | .error err => .throw err c2
        | .ok (_, sur1) => .ok (sur1, true) c2 := by
  simp only [parse_string_body, Cursor.peek_cons, Cursor.next_cons]
  rw [if_neg (by simp), if_neg (by simp), if_neg (by simp [escape_char])]
  exact if_neg (by simp)

/-- A pass of the loop of `parse_string` that returns has read one character of a string
body, and reads it with the same result whatever follows it. -/
theorem parse_string_body_local (sur : utf8_surrogate_checker) (last : Bool) (p b : Nat)
    (r : Bytes) (hq : b ≠ 0x22) (res : utf8_surrogate_checker × Bool) (c1 : Cursor)
    (h : parse_string_body sur last ⟨p, b :: r⟩ = .ok res c1) :
    ∃ t1, r = t1 ++ c1.rest ∧ c1.pos = p + (t1.length + 1) ∧ IsStringShape (b :: t1) ∧
      ∀ p1 tail, parse_string_body sur last ⟨p1, b :: (t1 ++ tail)⟩ =
        .ok res ⟨p1 + (t1.length + 1), tail⟩ := by
  by_cases hb : b = 0x5C
  · subst hb
    cases r with
    | nil => simp [parse_string_body, Cursor.next, Cursor.peek] at h
    | cons e r2 =>
      by_cases h1 : e ∈ escape_char
      · by_cases h2 : e = 0x75
        · subst h2
          rw [parse_string_body_u] at h
          cases hj : json_hex_seq_to_code_point ⟨p + 1 + 1, r2⟩ with
          | fuel => rw [hj] at h; cases h
          | throw e c2 => rw [hj] at h; cases h
          | ok cp c2 =>
            have hcons := json_hex_seq_to_code_point_consumes ⟨p + 1 + 1, r2⟩
            rw [hj] at hcons
            obtain ⟨t, g1, g2, d1, d2, d3, d4, rfl, k1, k2, k3, k4⟩ := hcons
            obtain ⟨q2, rest2⟩ := c2
            simp only [List.cons_append, List.nil_append] at g1 g2
            subst g1
            have hv := json_hex_seq_to_code_point_hex4 d1 d2 d3 d4 rest2 (p + 1 + 1) k1 k2 k3 k4
            rw [hv] at hj
            simp only [Res.ok.injEq, Cursor.mk.injEq, and_true] at hj
            obtain ⟨hcp, hq2⟩ := hj
            rw [hv] at h
            simp only [Res.bind_ok] at h
            cases hc : sur.check_code_point (hex4_value d1 d2 d3 d4) with
            | error err => rw [hc] at h; cases h
            | ok v =>
              obtain ⟨x, sur1⟩ := v
              rw [hc] at h
              simp only [Res.ok.injEq] at h
              obtain ⟨hres, hc1⟩ := h
              subst hres hc1
              refine ⟨[0x75, d1, d2, d3, d4], rfl, by simp, ?_, ?_⟩
              · exact IsStringShape.hex d1 d2 d3 d4 [] k1 k2 k3 k4 IsStringShape.nil
              · intro p1 tail
                simp only [List.cons_append, List.nil_append]
                rw [parse_string_body_u, json_hex_seq_to_code_point_hex4 d1 d2 d3 d4 tail
                  (p1 + 1 + 1) k1 k2 k3 k4]
                simp only [Res.bind_ok, hc]
                simp [Nat.add_assoc]
        · rw [parse_string_body_short sur last p e r2 h1 h2] at h
          simp only [Res.ok.injEq] at h
          obtain ⟨hres, hc1⟩ := h
          subst hres hc1
          refine ⟨[e], rfl, by simp, ?_, ?_⟩
          · refine IsStringShape.escape e [] ?_ IsStringShape.nil
            simp only [escape_char, List.mem_cons, List.mem_singleton, List.not_mem_nil,
              or_false] at h1 ⊢
            tauto
          · intro p1 tail
            simp only [List.cons_append, List.nil_append]
            rw [parse_string_body_short sur last p1 e tail h1 h2]
            simp [Nat.add_assoc]
      · simp only [parse_string_body, Cursor.peek_cons, Cursor.next_cons] at h
        rw [if_neg (by simp), if_neg (by simp), if_pos h1] at h
        cases h
  · by_cases h20 : b ≤ 0x1F
    · simp only [parse_string_body, Cursor.peek_cons] at h
      rw [if_pos hb, if_pos h20] at h
      cases h
    · rw [parse_string_body_raw sur last p b r hb h20] at h
      cases hch : chomp_utf8_char ⟨p, b :: r⟩ with
      | fuel => rw [hch] at h; cases h
      | throw e c2 => rw [hch] at h; cases h
      | ok cp c2 =>
        rw [hch] at h
        simp only [Res.bind_ok, Res.ok.injEq] at h
        obtain ⟨hres, hc1⟩ := h
        subst hres hc1
        obtain ⟨t, g1, g2, g3⟩ := chomp_utf8_char_local p b r cp c2 hch
        have hcons := chomp_utf8_char_consumes p b r
        rw [hch] at hcons
        obtain ⟨t0, k1, k2, t', rfl, k3⟩ := hcons
        simp only [List.cons_append, List.cons.injEq, true_and] at k1
        have ht : t' = t := by
          rw [g1] at k1
          exact (List.append_cancel_right k1).symm
        subst ht
        refine ⟨t', g1, g2, ?_, ?_⟩
        · have := IsStringShape.high_append t' [] k3 IsStringShape.nil
          rw [List.append_nil] at this
          exact IsStringShape.raw b _ (by omega) hq hb this
        · intro p1 tail
          rw [parse_string_body_raw sur last p1 b _ hb h20, g3 p1 tail]
          rfl

/-- When the loop of `parse_string` returns, it has read the body of a string, and it reads
that body with the same result wherever it stands before a quote. -/
theorem parse_string_loop_local (fuel : Nat) : ∀ (sur : utf8_surrogate_checker)
    (last : Bool) (c : Cursor) (s : utf8_surrogate_checker) (c' : Cursor),
    parse_string_loop fuel sur last c = .ok s c' →
    ∃ content, c.rest = content ++ c'.rest ∧ c'.pos = c.pos + content.length ∧
      IsStringShape content ∧
      ∀ (fuel1 p1 : Nat) (tail : Bytes), content.length < fuel1 →
        parse_string_loop fuel1 sur last ⟨p1, content ++ 0x22 :: tail⟩ =
          .ok s ⟨p1 + content.length, 0x22 :: tail⟩ := by
  induction fuel with
  | zero => intro sur last c s c' h; simp [parse_string_loop] at h
  | succ fuel ih =>
    intro sur last c s c' h
    rw [parse_string_loop_succ] at h
    by_cases h0 : c.rest = [] ∨ c.peek = 0x22
    · rw [if_pos h0] at h
      simp only [Res.ok.injEq] at h
      obtain ⟨rfl, rfl⟩ := h
      refine ⟨[], rfl, rfl, IsStringShape.nil, ?_⟩
      intro fuel1 p1 tail hf
      obtain ⟨f, rfl⟩ : ∃ f, fuel1 = f + 1 := ⟨fuel1 - 1, by simp at hf; omega⟩
      rw [parse_string_loop_succ]
      simp
    · rw [if_neg h0] at h
      obtain ⟨p, rest⟩ := c
      cases rest with
      | nil => exact absurd (Or.inl rfl) h0
      | cons b r =>
        have hq : b ≠ 0x22 := fun e => h0 (Or.inr (by simp [e]))
        cases hbody : parse_string_body sur last ⟨p, b :: r⟩ with
        | fuel => rw [hbody] at h; cases h
        | throw e c2 => rw [hbody] at h; cases h
        | ok res c1 =>
          obtain ⟨sur1, last1⟩ := res
          obtain ⟨t1, g1, g2, g3, g4⟩ :=
            parse_string_body_local sur last p b r hq (sur1, last1) c1 hbody
          rw [hbody] at h
          simp only [Res.bind_ok] at h
          have step : ∀ (sur2 : utf8_surrogate_checker),
              parse_string_loop fuel sur2 last1 c1 = .ok s c' →
              (∀ (f p1 : Nat) (tail : Bytes) (content2 : Bytes),
                parse_string_loop (f + 1) sur last
                    ⟨p1, b :: (t1 ++ (content2 ++ 0x22 :: tail))⟩ =
                  parse_string_loop f sur2 last1
                    ⟨p1 + (t1.length + 1), content2 ++ 0x22 :: tail⟩) →
              ∃ content, (Cursor.mk p (b :: r)).rest = content ++ c'.rest ∧
                c'.pos = (Cursor.mk p (b :: r)).pos + content.length ∧ IsStringShape content ∧
                ∀ (fuel1 p1 : Nat) (tail : Bytes), content.length < fuel1 →
                  parse_string_loop fuel1 sur last ⟨p1, content ++ 0x22 :: tail⟩ =
                    .ok s ⟨p1 + content.length, 0x22 :: tail⟩ := by
            intro sur2 hl hb2
            obtain ⟨content2, k1, k2, k3, k4⟩ := ih sur2 last1 c1 s c' hl
            refine ⟨b :: (t1 ++ content2), ?_, ?_, ?_, ?_⟩
            · simp only [List.cons_append, List.append_assoc, List.cons.injEq, true_and]
              rw [g1, k1]
            · simp only [List.length_cons, List.length_append]
              rw [k2, g2]
              omega
            · have := g3.shape_append k3
              simpa using this
            · intro fuel1 p1 tail hf
              simp only [List.length_cons, List.length_append] at hf
              obtain ⟨f, rfl⟩ : ∃ f, fuel1 = f + 1 := ⟨fuel1 - 1, by omega⟩
              simp only [List.cons_append, List.append_assoc]
              rw [hb2 f p1 tail content2, k4 f _ tail (by omega)]
              simp only [List.length_cons, List.length_append]
              congr 2
              omega
          by_cases hlast : (!last1) = true
          · rw [if_pos hlast] at h
            cases hc : sur1.check_code_point 0 with
            | error err => rw [hc] at h; cases h
            | ok v =>
              obtain ⟨x, sur2⟩ := v
              rw [hc] at h
              refine step sur2 h ?_
              intro f p1 tail content2
              rw [parse_string_loop_succ]
              simp only [Cursor.peek_cons]
              rw [if_neg (by simp [hq]), g4 p1 (content2 ++ 0x22 :: tail)]
              simp only [Res.bind_ok]
              rw [if_pos hlast, hc]
          · rw [if_neg hlast] at h
            refine step sur1 h ?_
            intro f p1 tail content2
            rw [parse_string_loop_succ]
            simp only [Cursor.peek_cons]
            rw [if_neg (by simp [hq]), g4 p1 (content2 ++ 0x22 :: tail)]
            simp only [Res.bind_ok]
            rw [if_neg hlast]

/-- When `parse_string` returns, it has read content that it reads wherever it stands. -/
theorem parse_string_ok_accepted (p : Nat) (r : Bytes) (c' : Cursor)
    (h : parse_string ⟨p, 0x22 :: r⟩ = .ok () c') :
    ∃ content, r = content ++ 0x22 :: c'.rest ∧ c'.pos = p + (content.length + 2) ∧
      IsStringShape content ∧ StringAccepted content := by
  unfold parse_string at h
  simp only [Cursor.next_cons] at h
  cases hl : parse_string_loop (r.length + 1) {} false ⟨p + 1, r⟩ with
  | fuel => rw [hl] at h; cases h
  | throw e c2 => rw [hl] at h; cases h
  | ok sur c1 =>
    rw [hl] at h
    simp only [Res.bind_ok] at h
    cases hc : sur.check_code_point 0 with
    | error err => rw [hc] at h; cases h
    | ok v =>
      rw [hc] at h
      simp only at h
      by_cases hrest : c1.rest = []
      · rw [if_pos hrest] at h; cases h
      · rw [if_neg hrest] at h
        simp only [Res.ok.injEq, true_and] at h
        obtain ⟨content, k1, k2, k3, k4⟩ := parse_string_loop_local _ _ _ _ _ _ hl
        have hstop := parse_string_loop_stops _ _ _ _ _ _ hl
        obtain ⟨q1, rest1⟩ := c1
        cases rest1 with
        | nil => exact absurd rfl hrest
        | cons x rest2 =>
          have hx : x = 0x22 := by
            rcases hstop with h1 | h1
            · cases h1
            · simpa using h1
          subst hx
          simp only [Cursor.next_cons] at h
          subst h
          simp only at k1 k2
          refine ⟨content, k1, by simp only; omega, k3, ?_⟩
          intro p1 t
          unfold parse_string
          simp only [Cursor.next_cons]
          rw [k4 _ (p1 + 1) t (by simp; omega), Res.bind_ok, hc]
          simp only [reduceCtorEq, if_false, Cursor.next_cons]
          congr 2
          omega

/-- The body of a string before a quote is determined by the text that starts with it. -/
theorem IsStringShape.split_unique {a : Bytes} (ha : IsStringShape a) :
    ∀ {b : Bytes}, IsStringShape b → ∀ (x y : Bytes), a ++ 0x22 :: x = b ++ 0x22 :: y →
      a = b := by
  have hesc : ∀ e : Nat, e ∈ [0x22, 0x5C, 0x2F, 0x62, 0x66, 0x6E, 0x72, 0x74] → e ≠ 0x75 := by
    intro e he
    simp only [List.mem_cons, List.mem_singleton, List.not_mem_nil, or_false] at he
    omega
  induction ha with
  | nil =>
    intro b hb x y h
    cases hb with
    | nil => rfl
    | raw c rest h1 h2 h3 _ =>
      simp only [List.nil_append, List.cons_append, List.cons.injEq] at h
      exact absurd h.1.symm h2
    | escape e rest h1 _ =>
      simp only [List.nil_append, List.cons_append, List.cons.injEq] at h
      omega
    | hex d1 d2 d3 d4 rest h1 h2 h3 h4 _ =>
      simp only [List.nil_append, List.cons_append, List.cons.injEq] at h
      omega
  | raw c rest h1 h2 h3 _ ih =>
    intro b hb x y h
    cases hb with
    | nil =>
      simp only [List.nil_append, List.cons_append, List.cons.injEq] at h
      exact absurd h.1 h2
    | raw c2 rest2 g1 g2 g3 g4 =>
      simp only [List.cons_append, List.cons.injEq] at h
      rw [h.1, ih g4 x y h.2]
    | escape e rest2 g1 g4 =>
      simp only [List.cons_append, List.cons.injEq] at h
      exact absurd h.1 h3
    | hex d1 d2 d3 d4 rest2 g1 g2 g3 g4 g5 =>
      simp only [List.cons_append, List.cons.injEq] at h
      exact absurd h.1 h3
  | escape e rest h1 _ ih =>
    intro b hb x y h
    cases hb with
    | nil =>
      simp only [List.nil_append, List.cons_append, List.cons.injEq] at h
      omega
    | raw c2 rest2 g1 g2 g3 g4 =>
      simp only [List.cons_append, List.cons.injEq] at h
      exact absurd h.1.symm g3
    | escape e2 rest2 g1 g4 =>
      simp only [List.cons_append, List.cons.injEq, true_and] at h
      rw [h.1, ih g4 x y h.2]
    | hex d1 d2 d3 d4 rest2 g1 g2 g3 g4 g5 =>
      simp only [List.cons_append, List.cons.injEq, true_and] at h
      exact absurd h.1 (hesc e h1)
  | hex d1 d2 d3 d4 rest h1 h2 h3 h4 _ ih =>
    intro b hb x y h
    cases hb with
    | nil =>
      simp only [List.nil_append, List.cons_append, List.cons.injEq] at h
      omega
    | raw c2 rest2 g1 g2 g3 g4 =>
      simp only [List.cons_append, List.cons.injEq] at h
      exact absurd h.1.symm g3
    | escape e2 rest2 g1 g4 =>
      simp only [List.cons_append, List.cons.injEq, true_and] at h
      exact absurd h.1.symm (hesc e2 g1)
    | hex e1 e2 e3 e4 rest2 g1 g2 g3 g4 g5 =>
      simp only [List.cons_append, List.cons.injEq, true_and] at h
      obtain ⟨k1, k2, k3, k4, k5⟩ := h
      rw [k1, k2, k3, k4, ih g5 x y k5]

/-- On the body of a string between quotes, `parse_string` either reads the string
wherever it stands, or it throws. -/
theorem parse_string_shaped (content : Bytes) (h : IsStringShape content) (p : Nat)
    (t : Bytes) :
    StringAccepted content ∨
      (¬ StringAccepted content ∧
        ∃ e c', parse_string ⟨p, 0x22 :: (content ++ 0x22 :: t)⟩ = .throw e c') := by
  by_cases ha : StringAccepted content
  · exact Or.inl ha
  · refine Or.inr ⟨ha, ?_⟩
    cases hp : parse_string ⟨p, 0x22 :: (content ++ 0x22 :: t)⟩ with
    | fuel =>
      have := parse_string_consumes p (content ++ 0x22 :: t)
      rw [hp] at this
      exact this.elim
    | throw e c' => exact ⟨e, c', rfl⟩
    | ok u c' =>
      obtain ⟨content2, k1, k2, k3, k4⟩ := parse_string_ok_accepted p _ c' hp
      have := h.split_unique k3 _ _ k1
      rw [this] at ha
      exact absurd k4 ha

/-- Content of the standard grammar is read wherever it stands. -/
theorem StringAccepted.of_content {content : Bytes} (h : IsStringContent content) :
    StringAccepted content := fun p t => parse_string_content content h p t

end flumps


namespace flumps

/-! ## The passes of the loop on strings that `parse_string` reads, and on those it refuses -/

/-- The pass of the loop that reads a string. -/
theorem parse_json_loop_string (text : Bytes) (ha : StringAccepted text)
    (below : List State) (vis : List Event) (lim pos : Nat) (ws1 ws2 tail : Bytes)
    (h1 : IsWhitespace ws1) (h2 : IsWhitespace ws2) (ht : HeadIs Delimiter tail) (fuel : Nat) :
    parse_json_loop (fuel + 1) ⟨{} :: below, vis, lim⟩
        ⟨pos, ws1 ++ (primitive_text .String text ++ (ws2 ++ tail))⟩ =
      loop_tail fuel ⟨below,
        vis ++ [.on_primitive_value .String (pos + ws1.length + 1) text.length], lim⟩
        ⟨pos + (ws1.length + (primitive_text .String text).length + ws2.length), tail⟩ := by
  have hnw : HeadIs (fun b => is_whitespace b = false)
      (primitive_text .String text ++ (ws2 ++ tail)) := by
    simp only [primitive_text, if_true, List.cons_append]
    exact HeadIs.cons _ (by simp [is_whitespace])
  have hs := ha (pos + ws1.length) (ws2 ++ tail)
  rw [parse_json_loop_succ, parse_element_fresh _ _ _ _ _ _ h1 hnw]
  simp only [primitive_text, if_true, List.cons_append, List.append_assoc,
    List.singleton_append, List.nil_append, parse_value, JsonParserImpl.back, List.headD_cons, value_frame,
    reduceCtorEq, if_false, Cursor.peek_cons, parse_primitive, hs, Res.lift_ok, Res.bind_ok,
    Bool.false_eq_true, Nat.reduceEqDiff,
    chomp_whitespace_append ws2 tail h2 (ht.mono fun b hb => hb.delimiter_not_whitespace),
    Bool.not_false, dec_depth, List.tail_cons, JsonParserImpl.visit]
  simp only [List.nil_append, if_true, List.length_cons, List.length_append, List.length_nil]
  congr 2
  · congr 3
    omega
  · omega

/-- The pass of the loop on a string that `parse_string` refuses. -/
theorem parse_json_loop_string_throw (text : Bytes) (below : List State) (vis : List Event)
    (lim pos : Nat) (ws1 t : Bytes) (h1 : IsWhitespace ws1) (e : DecodeError) (c' : Cursor)
    (hs : parse_string ⟨pos + ws1.length, 0x22 :: (text ++ 0x22 :: t)⟩ = .throw e c')
    (fuel : Nat) :
    ∃ e1 s, parse_json_loop (fuel + 1) ⟨{} :: below, vis, lim⟩
        ⟨pos, ws1 ++ (primitive_text .String text ++ t)⟩ = .throw e1 s := by
  have hnw : HeadIs (fun b => is_whitespace b = false) (primitive_text .String text ++ t) := by
    simp only [primitive_text, if_true, List.cons_append]
    exact HeadIs.cons _ (by simp [is_whitespace])
  rw [parse_json_loop_succ, parse_element_fresh _ _ _ _ _ _ h1 hnw]
  simp only [primitive_text, if_true, List.cons_append, List.append_assoc,
    List.singleton_append, List.nil_append, parse_value, JsonParserImpl.back, List.headD_cons, value_frame,
    reduceCtorEq, if_false, Cursor.peek_cons, parse_primitive, hs, Res.lift_throw,
    Res.bind_throw, Nat.reduceEqDiff]
  exact ⟨_, _, rfl⟩

/-- The key of a member that `parse_string` reads, and the colon after it. -/
theorem parse_member_key_accepted (ws1 key ws2 t : Bytes) (h1 : IsWhitespace ws1)
    (hk : StringAccepted key) (h2 : IsWhitespace ws2) (p : JsonParserImpl) (pos : Nat) :
    parse_member_key p ⟨pos, key_text ws1 key ws2 ++ t⟩ =
      .ok () (p.visit (.on_object_key (pos + ws1.length + 1) key.length),
        ⟨pos + (key_text ws1 key ws2).length, t⟩) := by
  have hc1 := chomp_whitespace_append ws1 (0x22 :: (key ++ 0x22 :: (ws2 ++ 0x3A :: t))) h1
    (HeadIs.cons _ (by simp [is_whitespace])) pos
  have hs := hk (pos + ws1.length) (ws2 ++ 0x3A :: t)
  have hc2 := chomp_whitespace_append ws2 (0x3A :: t) h2
    (HeadIs.cons _ (by simp [is_whitespace])) (pos + ws1.length + (key.length + 2))
  have e : key_text ws1 key ws2 ++ t = ws1 ++ 0x22 :: (key ++ 0x22 :: (ws2 ++ 0x3A :: t)) := by
    simp [key_text]
  rw [e]
  simp only [parse_member_key, hc1, reduceCtorEq, if_false, Cursor.peek_cons, ne_eq,
    not_true_eq_false, hs, Res.lift_ok, Res.bind_ok, hc2, Nat.reduceEqDiff, or_self,
    Cursor.next_cons, key_text_length]
  congr 3
  · congr 1
    omega
  · omega

/-- The key of a member that `parse_string` refuses. -/
theorem parse_member_key_refused (ws1 key t : Bytes) (h1 : IsWhitespace ws1)
    (p : JsonParserImpl) (pos : Nat) (e : DecodeError) (c' : Cursor)
    (hs : parse_string ⟨pos + ws1.length, 0x22 :: (key ++ 0x22 :: t)⟩ = .throw e c') :
    parse_member_key p ⟨pos, ws1 ++ 0x22 :: (key ++ 0x22 :: t)⟩ = .throw e (p, c') := by
  have hc1 := chomp_whitespace_append ws1 (0x22 :: (key ++ 0x22 :: t)) h1
    (HeadIs.cons _ (by simp [is_whitespace])) pos
  simp only [parse_member_key, hc1, reduceCtorEq, if_false, Cursor.peek_cons, ne_eq,
    not_true_eq_false, hs, Res.lift_throw, Res.bind_throw]

/-- The pass of the loop that opens an object with at least one member. -/
theorem parse_json_loop_open_object_accepted (below : List State) (vis : List Event)
    (lim pos : Nat) (ws0 ws1 key ws2 t : Bytes) (h0 : IsWhitespace ws0)
    (h1 : IsWhitespace ws1) (hk : StringAccepted key) (h2 : IsWhitespace ws2) (ht : t ≠ [])
    (hd : lim = 0 ∨ below.length + 2 ≤ lim) (fuel : Nat) :
    parse_json_loop (fuel + 1) ⟨{} :: below, vis, lim⟩
        ⟨pos, ws0 ++ 0x7B :: (key_text ws1 key ws2 ++ t)⟩ =
      parse_json_loop fuel
        ⟨{} :: object_frame (pos + ws0.length) :: below,
          vis ++ [.on_object_start (pos + ws0.length),
            .on_object_key (pos + ws0.length + 1 + ws1.length + 1) key.length], lim⟩
        ⟨pos + ws0.length + 1 + (key_text ws1 key ws2).length, t⟩ := by
  have hnw : HeadIs (fun b => is_whitespace b = false)
      (0x7B :: (key_text ws1 key ws2 ++ t)) := HeadIs.cons _ (by simp [is_whitespace])
  have e : key_text ws1 key ws2 ++ t = ws1 ++ (key_text [] key ws2 ++ t) := by
    simp [key_text]
  have hc := chomp_whitespace_append ws1 (key_text [] key ws2 ++ t) h1
    (HeadIs.cons _ (by simp [is_whitespace])) (pos + ws0.length + 1)
  have hkey : parse_member_key
      ⟨State.mk .parse_value .parse_object .initial .initial (pos + ws0.length) :: below,
        vis ++ [.on_object_start (pos + ws0.length)], lim⟩
      ⟨pos + ws0.length + 1 + ws1.length, key_text [] key ws2 ++ t⟩ =
      .ok () (⟨State.mk .parse_value .parse_object .initial .initial (pos + ws0.length) :: below,
        vis ++ [.on_object_start (pos + ws0.length),
          .on_object_key (pos + ws0.length + 1 + ws1.length + 1) key.length], lim⟩,
        ⟨pos + ws0.length + 1 + (key_text ws1 key ws2).length, t⟩) := by
    rw [parse_member_key_accepted [] key ws2 t (by intro b hb; cases hb) hk h2]
    simp only [JsonParserImpl.visit, key_text_length, List.length_nil, List.append_assoc,
      List.singleton_append, Nat.add_zero]
    congr 3
    omega
  have hinc := inc_depth_ok (object_frame (pos + ws0.length) :: below)
    (vis ++ [.on_object_start (pos + ws0.length),
      .on_object_key (pos + ws0.length + 1 + ws1.length + 1) key.length]) lim
    ⟨pos + ws0.length + 1 + (key_text ws1 key ws2).length, t⟩ (by simpa using hd)
  have hne : key_text [] key ws2 ++ t ≠ [] := by simp [key_text]
  have hpk : (Cursor.mk (pos + ws0.length + 1 + ws1.length) (key_text [] key ws2 ++ t)).peek =
      0x22 := by simp [key_text]
  rw [parse_json_loop_succ, parse_element_fresh _ _ _ _ _ _ h0 hnw]
  simp only [parse_value, JsonParserImpl.back, JsonParserImpl.set_back,
    List.headD_cons, value_frame, reduceCtorEq, if_false, if_true,
    Cursor.peek_cons, Nat.reduceEqDiff, ne_eq, not_false_eq_true, not_true_eq_false]
  rw [parse_object]
  simp only [JsonParserImpl.back, JsonParserImpl.set_back,
    JsonParserImpl.visit, List.headD_cons, Cursor.next_cons, e, hc, hne, hpk,
    Nat.reduceEqDiff, ne_eq, not_false_eq_true, or_true, if_true]
  rw [hkey]
  simp only [Res.bind_ok, JsonParserImpl.set_back, object_frame] at hinc ⊢
  rw [hinc]
  simp [loop_tail, ht]

/-- The pass of the loop that opens an object whose first key `parse_string` refuses. -/
theorem parse_json_loop_open_object_refused (below : List State) (vis : List Event)
    (lim pos : Nat) (ws0 ws1 key t : Bytes) (h0 : IsWhitespace ws0) (h1 : IsWhitespace ws1)
    (e : DecodeError) (c' : Cursor)
    (hs : parse_string ⟨pos + ws0.length + 1 + ws1.length, 0x22 :: (key ++ 0x22 :: t)⟩ =
      .throw e c') (fuel : Nat) :
    ∃ e1 s, parse_json_loop (fuel + 1) ⟨{} :: below, vis, lim⟩
        ⟨pos, ws0 ++ 0x7B :: (ws1 ++ 0x22 :: (key ++ 0x22 :: t))⟩ = .throw e1 s := by
  have hnw : HeadIs (fun b => is_whitespace b = false)
      (0x7B :: (ws1 ++ 0x22 :: (key ++ 0x22 :: t))) := HeadIs.cons _ (by simp [is_whitespace])
  have hc := chomp_whitespace_append ws1 (0x22 :: (key ++ 0x22 :: t)) h1
    (HeadIs.cons _ (by simp [is_whitespace])) (pos + ws0.length + 1)
  have hkey := parse_member_key_refused [] key t isWhitespace_nil
    ⟨State.mk .parse_value .parse_object .initial .initial (pos + ws0.length) :: below,
      vis ++ [.on_object_start (pos + ws0.length)], lim⟩
    (pos + ws0.length + 1 + ws1.length) e c' (by simpa using hs)
  rw [parse_json_loop_succ, parse_element_fresh _ _ _ _ _ _ h0 hnw]
  simp only [parse_value, JsonParserImpl.back, JsonParserImpl.set_back,
    List.headD_cons, value_frame, reduceCtorEq, if_false, if_true,
    Cursor.peek_cons, Nat.reduceEqDiff, ne_eq, not_false_eq_true, not_true_eq_false]
  rw [parse_object]
  simp only [JsonParserImpl.back, JsonParserImpl.set_back,
    JsonParserImpl.visit, List.headD_cons, Cursor.next_cons, hc, Cursor.peek_cons,
    Nat.reduceEqDiff, ne_eq, not_false_eq_true, or_true, if_true, reduceCtorEq, if_false,
    List.nil_append] at hkey ⊢
  rw [hkey]
  exact ⟨_, _, rfl⟩

/-- The pass of the loop that opens an object whose members do not fit under the limit. -/
theorem parse_json_loop_open_object_deep (below : List State) (vis : List Event)
    (lim pos : Nat) (ws0 ws1 key ws2 t : Bytes) (h0 : IsWhitespace ws0)
    (h1 : IsWhitespace ws1) (hk : StringAccepted key) (h2 : IsWhitespace ws2)
    (hl : 0 < lim) (hd : lim < below.length + 2) (fuel : Nat) :
    ∃ e1 s, parse_json_loop (fuel + 1) ⟨{} :: below, vis, lim⟩
        ⟨pos, ws0 ++ 0x7B :: (key_text ws1 key ws2 ++ t)⟩ = .throw e1 s := by
  have hnw : HeadIs (fun b => is_whitespace b = false)
      (0x7B :: (key_text ws1 key ws2 ++ t)) := HeadIs.cons _ (by simp [is_whitespace])
  have e : key_text ws1 key ws2 ++ t = ws1 ++ (key_text [] key ws2 ++ t) := by
    simp [key_text]
  have hc := chomp_whitespace_append ws1 (key_text [] key ws2 ++ t) h1
    (HeadIs.cons _ (by simp [is_whitespace])) (pos + ws0.length + 1)
  have hkey := parse_member_key_accepted [] key ws2 t isWhitespace_nil hk h2
    ⟨State.mk .parse_value .parse_object .initial .initial (pos + ws0.length) :: below,
      vis ++ [.on_object_start (pos + ws0.length)], lim⟩
    (pos + ws0.length + 1 + ws1.length)
  have hne : key_text [] key ws2 ++ t ≠ [] := by simp [key_text]
  have hpk : (Cursor.mk (pos + ws0.length + 1 + ws1.length) (key_text [] key ws2 ++ t)).peek =
      0x22 := by simp [key_text]
  rw [parse_json_loop_succ, parse_element_fresh _ _ _ _ _ _ h0 hnw]
  simp only [parse_value, JsonParserImpl.back, JsonParserImpl.set_back,
    List.headD_cons, value_frame, reduceCtorEq, if_false, if_true,
    Cursor.peek_cons, Nat.reduceEqDiff, ne_eq, not_false_eq_true, not_true_eq_false]
  rw [parse_object]
  simp only [JsonParserImpl.back, JsonParserImpl.set_back,
    JsonParserImpl.visit, List.headD_cons, Cursor.next_cons, e, hc, hne, hpk,
    Nat.reduceEqDiff, ne_eq, not_false_eq_true, or_true, if_true] at hkey ⊢
  rw [hkey]
  simp only [Res.bind_ok, JsonParserImpl.set_back]
  rw [inc_depth_throw _ _ _ _ hl (by simpa using hd)]
  exact ⟨_, _, rfl⟩

/-- The pass of the loop on the comma that follows a member, and on the key after it. -/
theorem parse_json_loop_object_comma_accepted (below : List State) (vis : List Event)
    (lim pos s : Nat) (ws1 key ws2 t : Bytes) (h1 : IsWhitespace ws1)
    (hk : StringAccepted key) (h2 : IsWhitespace ws2) (ht : t ≠ [])
    (hd : lim = 0 ∨ below.length + 2 ≤ lim) (fuel : Nat) :
    parse_json_loop (fuel + 1) ⟨object_frame s :: below, vis, lim⟩
        ⟨pos, 0x2C :: (key_text ws1 key ws2 ++ t)⟩ =
      parse_json_loop fuel
        ⟨{} :: object_frame s :: below,
          vis ++ [.on_object_key (pos + 1 + ws1.length + 1) key.length], lim⟩
        ⟨pos + 1 + (key_text ws1 key ws2).length, t⟩ := by
  have hkey := parse_member_key_accepted ws1 key ws2 t h1 hk h2
    ⟨object_frame s :: below, vis, lim⟩ (pos + 1)
  have hinc := inc_depth_ok (object_frame s :: below)
    (vis ++ [.on_object_key (pos + 1 + ws1.length + 1) key.length]) lim
    ⟨pos + 1 + (key_text ws1 key ws2).length, t⟩ (by simpa using hd)
  rw [parse_json_loop_succ]
  simp only [parse_element, parse_value, JsonParserImpl.back, List.headD_cons,
    object_frame] at hkey hinc ⊢
  rw [parse_object]
  simp only [JsonParserImpl.back, List.headD_cons, reduceCtorEq, ne_eq, not_false_eq_true,
    if_true, Cursor.peek_cons, Nat.reduceEqDiff, if_false, Cursor.next_cons, hkey, Res.bind_ok,
    JsonParserImpl.visit, hinc]
  simp [loop_tail, ht]

/-- The pass of the loop on the comma that follows a member, when `parse_string` refuses
the key after it. -/
theorem parse_json_loop_object_comma_refused (below : List State) (vis : List Event)
    (lim pos s : Nat) (ws1 key t : Bytes) (h1 : IsWhitespace ws1)
    (e : DecodeError) (c' : Cursor)
    (hs : parse_string ⟨pos + 1 + ws1.length, 0x22 :: (key ++ 0x22 :: t)⟩ = .throw e c')
    (fuel : Nat) :
    ∃ e1 st, parse_json_loop (fuel + 1) ⟨object_frame s :: below, vis, lim⟩
        ⟨pos, 0x2C :: (ws1 ++ 0x22 :: (key ++ 0x22 :: t))⟩ = .throw e1 st := by
  have hkey := parse_member_key_refused ws1 key t h1
    ⟨object_frame s :: below, vis, lim⟩ (pos + 1) e c' hs
  rw [parse_json_loop_succ]
  simp only [parse_element, parse_value, JsonParserImpl.back, List.headD_cons,
    object_frame] at hkey ⊢
  rw [parse_object]
  simp only [JsonParserImpl.back, List.headD_cons, reduceCtorEq, ne_eq, not_false_eq_true,
    if_true, Cursor.peek_cons, Nat.reduceEqDiff, if_false, Cursor.next_cons, hkey,
    Res.bind_throw]
  exact ⟨_, _, rfl⟩

/-- A token other than a string that has the shape of the grammar is one of the grammar. -/
theorem IsPrimitiveShape.not_string {type : JsonValueType} {text : Bytes}
    (h : IsPrimitiveShape type text) (hs : type ≠ .String) : IsPrimitive type text := by
  cases type <;> first | exact absurd rfl hs | exact h

/-- The first byte of a value of the grammar read on bytes. -/
theorem JsonValue.Shaped.shaped_render_head {v : JsonValue} (h : v.Shaped) :
    ∃ b r, v.render = b :: r ∧ ValueStart b := by
  cases v with
  | primitive type text =>
    by_cases hs : type = .String
    · subst hs
      exact ⟨0x22, text ++ [0x22], by simp [JsonValue.render, primitive_text],
        by simp [ValueStart]⟩
    · obtain ⟨b, r, e, hb, -⟩ := primitive_text_head type text
        (IsPrimitiveShape.not_string (by simpa [JsonValue.Shaped] using h) hs)
      exact ⟨b, r, by simpa [JsonValue.render] using e, hb⟩
  | empty_array ws => exact ⟨0x5B, _, by rw [JsonValue.render], by simp [ValueStart]⟩
  | array ws1 v ws2 more => exact ⟨0x5B, _, by rw [JsonValue.render], by simp [ValueStart]⟩
  | empty_object ws => exact ⟨0x7B, _, by rw [JsonValue.render], by simp [ValueStart]⟩
  | object ws1 key ws2 ws3 v ws4 more =>
    exact ⟨0x7B, _, by rw [JsonValue.render], by simp [ValueStart]⟩

end flumps


namespace flumps

/-! ## The passes of the loop over a value whose strings `parse_string` reads -/

mutual
/-- The passes of the loop over an element whose strings are read and whose values fit
under the depth limit: the frame of the value is popped, the events of the value are
delivered and the read position is left after the element. -/
theorem value_run_read : ∀ (v : JsonValue), v.Shaped → v.Accepted →
    ∀ (below : List State) (vis : List Event) (lim pos : Nat) (ws1 ws2 tail : Bytes),
      IsWhitespace ws1 → IsWhitespace ws2 → HeadIs Delimiter tail →
      (lim = 0 ∨ below.length + 1 + v.height ≤ lim) → ∀ fuel : Nat,
      parse_json_loop (fuel + v.steps) ⟨{} :: below, vis, lim⟩
          ⟨pos, ws1 ++ (v.render ++ (ws2 ++ tail))⟩ =
        loop_tail fuel ⟨below, vis ++ v.events (pos + ws1.length), lim⟩
          ⟨pos + ws1.length + v.render.length + ws2.length, tail⟩
  | .primitive type text, hv, ha => by
    intro below vis lim pos ws1 ws2 tail h1 h2 ht _ fuel
    by_cases hs : type = .String
    · subst hs
      have := parse_json_loop_string text (ha rfl) below vis lim pos ws1 ws2 tail h1 h2 ht fuel
      simp only [JsonValue.steps, JsonValue.render, JsonValue.events, if_true]
      rw [this]
      congr 2
      omega
    · have := parse_json_loop_token type text (IsPrimitiveShape.not_string hv hs) below vis lim
        pos ws1 ws2 tail h1 h2 ht fuel
      simp only [JsonValue.steps, JsonValue.render, JsonValue.events]
      rw [this]
      congr 2
      all_goals omega
  | .empty_array ws, hv, _ => by
    intro below vis lim pos ws1 ws2 tail h1 h2 ht _ fuel
    have := parse_json_loop_empty_array ws hv below vis lim pos ws1 ws2 tail h1 h2 ht fuel
    simp only [JsonValue.steps, JsonValue.render, JsonValue.events]
    rw [this]
    congr 2
    simp only [List.length_cons, List.length_append, List.length_nil]
    omega
  | .empty_object ws, hv, _ => by
    intro below vis lim pos ws1 ws2 tail h1 h2 ht _ fuel
    have := parse_json_loop_empty_object ws hv below vis lim pos ws1 ws2 tail h1 h2 ht fuel
    simp only [JsonValue.steps, JsonValue.render, JsonValue.events]
    rw [this]
    congr 2
    simp only [List.length_cons, List.length_append, List.length_nil]
    omega
  | .array w1 first w2 more, hv, ha => by
    intro below vis lim pos ws1 ws2 tail h1 h2 ht hd fuel
    simp only [JsonValue.Shaped] at hv
    obtain ⟨hw1, hfirst, hw2, hmore⟩ := hv
    simp only [JsonValue.Accepted] at ha
    obtain ⟨afirst, amore⟩ := ha
    simp only [JsonValue.height] at hd
    obtain ⟨hdel, hne⟩ := elements_render_delimiter more (ws2 ++ tail)
    have ih1 := value_run_read first hfirst afirst (array_frame (pos + ws1.length) :: below)
      (vis ++ [.on_array_start (pos + ws1.length)]) lim (pos + ws1.length + 1 + w1.length)
      [] w2 (more.render ++ 0x5D :: (ws2 ++ tail)) isWhitespace_nil hw2 hdel
      (by simp only [List.length_cons]; omega) (fuel + more.steps)
    have ih2 := elements_run_read more hmore amore below
      (vis ++ [.on_array_start (pos + ws1.length)] ++
        first.events (pos + ws1.length + 1 + w1.length))
      lim (pos + ws1.length + 1 + w1.length + first.render.length + w2.length)
      (pos + ws1.length) ws2 tail (by omega) h2 ht (by omega) fuel
    have e : ws1 ++ ((JsonValue.array w1 first w2 more).render ++ (ws2 ++ tail)) =
        ws1 ++ 0x5B :: (w1 ++ (first.render ++ (w2 ++ (more.render ++ 0x5D :: (ws2 ++ tail))))) := by
      simp [JsonValue.render]
    rw [e, show fuel + (JsonValue.array w1 first w2 more).steps =
      (fuel + more.steps + first.steps) + 1 by simp only [JsonValue.steps]; omega,
      parse_json_loop_open_array below vis lim pos ws1 w1 _ h1 hw1
        (by
          obtain ⟨b, r, hb, hs⟩ := hfirst.shaped_render_head
          exact ⟨b, _, by rw [hb]; rfl, hs⟩)
        (by omega)]
    simp only [List.nil_append, List.length_nil, Nat.add_zero, Nat.zero_add] at ih1
    rw [ih1, loop_tail_continue _ _ _ (by simp) hne, ih2]
    simp only [JsonValue.events, JsonValue.render, List.length_cons, List.length_append,
      List.append_assoc, List.singleton_append, List.cons_append, List.nil_append,
      List.length_nil]
    congr 2
    · congr 10
      omega
    · omega
  | .object w1 key w2 w3 first w4 more, hv, ha => by
    intro below vis lim pos ws1 ws2 tail h1 h2 ht hd fuel
    simp only [JsonValue.Shaped] at hv
    obtain ⟨hw1, -, hw2, hw3, hfirst, hw4, hmore⟩ := hv
    simp only [JsonValue.Accepted] at ha
    obtain ⟨hkey, afirst, amore⟩ := ha
    simp only [JsonValue.height] at hd
    obtain ⟨hdel, hne⟩ := members_render_delimiter more (ws2 ++ tail)
    have ih1 := value_run_read first hfirst afirst (object_frame (pos + ws1.length) :: below)
      (vis ++ [.on_object_start (pos + ws1.length),
        .on_object_key (pos + ws1.length + 1 + w1.length + 1) key.length]) lim
      (pos + ws1.length + 1 + (key_text w1 key w2).length)
      w3 w4 (more.render ++ 0x7D :: (ws2 ++ tail)) hw3 hw4 hdel
      (by simp only [List.length_cons]; omega) (fuel + more.steps)
    have ih2 := members_run_read more hmore amore below
      (vis ++ [.on_object_start (pos + ws1.length),
        .on_object_key (pos + ws1.length + 1 + w1.length + 1) key.length] ++
        first.events (pos + ws1.length + 1 + (key_text w1 key w2).length + w3.length))
      lim (pos + ws1.length + 1 + (key_text w1 key w2).length +
        w3.length + first.render.length + w4.length)
      (pos + ws1.length) ws2 tail (by omega) h2 ht (by omega) fuel
    have e : ws1 ++ ((JsonValue.object w1 key w2 w3 first w4 more).render ++ (ws2 ++ tail)) =
        ws1 ++ 0x7B :: (key_text w1 key w2 ++
          (w3 ++ (first.render ++ (w4 ++ (more.render ++ 0x7D :: (ws2 ++ tail)))))) := by
      simp [JsonValue.render]
    rw [e, show fuel + (JsonValue.object w1 key w2 w3 first w4 more).steps =
      (fuel + more.steps + first.steps) + 1 by simp only [JsonValue.steps]; omega,
      parse_json_loop_open_object_accepted below vis lim pos ws1 w1 key w2 _ h1 hw1 hkey hw2
        (by
          obtain ⟨b, r, hb, -⟩ := hfirst.shaped_render_head
          rw [hb]; simp)
        (by omega),
      ih1, loop_tail_continue _ _ _ (by simp) hne, ih2]
    simp only [JsonValue.events, JsonValue.render, List.length_cons, List.length_append,
      List.append_assoc, List.singleton_append, List.cons_append, List.nil_append,
      List.length_nil]
    congr 2
    · congr 10
      omega
    · omega
/-- The passes of the loop over the further elements of an array and its closing bracket. -/
theorem elements_run_read : ∀ (es : JsonElements), es.Shaped → es.Accepted →
    ∀ (below : List State) (vis : List Event) (lim pos s : Nat) (ws tail : Bytes),
      s ≤ pos → IsWhitespace ws → HeadIs Delimiter tail →
      (lim = 0 ∨ below.length + 2 + es.height ≤ lim) → ∀ fuel : Nat,
      parse_json_loop (fuel + es.steps) ⟨array_frame s :: below, vis, lim⟩
          ⟨pos, es.render ++ 0x5D :: (ws ++ tail)⟩ =
        loop_tail fuel
          ⟨below, vis ++ (es.events pos ++ [.on_array_end s (pos + es.render.length + 1 - s)]),
            lim⟩
          ⟨pos + es.render.length + 1 + ws.length, tail⟩
  | .nil, _, _ => by
    intro below vis lim pos s ws tail _ hws ht _ fuel
    simp only [JsonElements.steps, JsonElements.render, JsonElements.events, List.nil_append,
      List.length_nil, Nat.add_zero]
    exact parse_json_loop_close_array below vis lim pos s ws tail hws ht fuel
  | .cons w1 v w2 tl, hv, ha => by
    intro below vis lim pos s ws tail hs hws ht hd fuel
    simp only [JsonElements.Shaped] at hv
    obtain ⟨hw1, hval, hw2, htl⟩ := hv
    simp only [JsonElements.Accepted] at ha
    obtain ⟨aval, atl⟩ := ha
    simp only [JsonElements.height] at hd
    obtain ⟨hdel, hne⟩ := elements_render_delimiter tl (ws ++ tail)
    have ih1 := value_run_read v hval aval (array_frame s :: below) vis lim (pos + 1)
      w1 w2 (tl.render ++ 0x5D :: (ws ++ tail)) hw1 hw2 hdel
      (by simp only [List.length_cons]; omega) (fuel + tl.steps)
    have ih2 := elements_run_read tl htl atl below (vis ++ v.events (pos + 1 + w1.length)) lim
      (pos + 1 + w1.length + v.render.length + w2.length) s ws tail (by omega) hws ht
      (by omega) fuel
    have e : (JsonElements.cons w1 v w2 tl).render ++ 0x5D :: (ws ++ tail) =
        0x2C :: (w1 ++ (v.render ++ (w2 ++ (tl.render ++ 0x5D :: (ws ++ tail))))) := by
      simp [JsonElements.render]
    rw [e, show fuel + (JsonElements.cons w1 v w2 tl).steps =
      (fuel + tl.steps + v.steps) + 1 by simp only [JsonElements.steps]; omega,
      parse_json_loop_array_comma below vis lim pos s _ (by simp) (by omega),
      ih1, loop_tail_continue _ _ _ (by simp) hne, ih2]
    simp only [JsonElements.events, JsonElements.render, List.length_cons, List.length_append,
      List.append_assoc]
    congr 2
    · congr 6
      omega
    · omega
/-- The passes of the loop over the further members of an object and its closing brace. -/
theorem members_run_read : ∀ (ms : JsonMembers), ms.Shaped → ms.Accepted →
    ∀ (below : List State) (vis : List Event) (lim pos s : Nat) (ws tail : Bytes),
      s ≤ pos → IsWhitespace ws → HeadIs Delimiter tail →
      (lim = 0 ∨ below.length + 2 + ms.height ≤ lim) → ∀ fuel : Nat,
      parse_json_loop (fuel + ms.steps) ⟨object_frame s :: below, vis, lim⟩
          ⟨pos, ms.render ++ 0x7D :: (ws ++ tail)⟩ =
        loop_tail fuel
          ⟨below, vis ++ (ms.events pos ++ [.on_object_end s (pos + ms.render.length + 1 - s)]),
            lim⟩
          ⟨pos + ms.render.length + 1 + ws.length, tail⟩
  | .nil, _, _ => by
    intro below vis lim pos s ws tail _ hws ht _ fuel
    simp only [JsonMembers.steps, JsonMembers.render, JsonMembers.events, List.nil_append,
      List.length_nil, Nat.add_zero]
    exact parse_json_loop_close_object below vis lim pos s ws tail hws ht fuel
  | .cons w1 key w2 w3 v w4 tl, hv, ha => by
    intro below vis lim pos s ws tail hs hws ht hd fuel
    simp only [JsonMembers.Shaped] at hv
    obtain ⟨hw1, -, hw2, hw3, hval, hw4, htl⟩ := hv
    simp only [JsonMembers.Accepted] at ha
    obtain ⟨hkey, aval, atl⟩ := ha
    simp only [JsonMembers.height] at hd
    obtain ⟨hdel, hne⟩ := members_render_delimiter tl (ws ++ tail)
    have ih1 := value_run_read v hval aval (object_frame s :: below)
      (vis ++ [.on_object_key (pos + 1 + w1.length + 1) key.length]) lim
      (pos + 1 + (key_text w1 key w2).length)
      w3 w4 (tl.render ++ 0x7D :: (ws ++ tail)) hw3 hw4 hdel
      (by simp only [List.length_cons]; omega) (fuel + tl.steps)
    have ih2 := members_run_read tl htl atl below
      (vis ++ [.on_object_key (pos + 1 + w1.length + 1) key.length] ++
        v.events (pos + 1 + (key_text w1 key w2).length + w3.length)) lim
      (pos + 1 + (key_text w1 key w2).length + w3.length + v.render.length + w4.length)
      s ws tail (by omega) hws ht (by omega) fuel
    have e : (JsonMembers.cons w1 key w2 w3 v w4 tl).render ++ 0x7D :: (ws ++ tail) =
        0x2C :: (key_text w1 key w2 ++
          (w3 ++ (v.render ++ (w4 ++ (tl.render ++ 0x7D :: (ws ++ tail)))))) := by
      simp [JsonMembers.render]
    rw [e, show fuel + (JsonMembers.cons w1 key w2 w3 v w4 tl).steps =
      (fuel + tl.steps + v.steps) + 1 by simp only [JsonMembers.steps]; omega,
      parse_json_loop_object_comma_accepted below vis lim pos s w1 key w2 _ hw1 hkey hw2
        (by
          obtain ⟨b, r, hb, -⟩ := hval.shaped_render_head
          rw [hb]; simp)
        (by omega),
      ih1, loop_tail_continue _ _ _ (by simp) hne, ih2]
    simp only [JsonMembers.events, JsonMembers.render, List.length_cons, List.length_append,
      List.append_assoc, List.singleton_append, List.cons_append, List.nil_append]
    congr 2
    · congr 7
      omega
    · omega
end

end flumps


namespace flumps

/-! ## The passes of the loop over a value that is not read to its end -/

mutual
/-- The passes of the loop over an element that holds a string that `parse_string` refuses
or a value deeper than the limit allows: the call stops with an exception. -/
theorem value_run_refused : ∀ (v : JsonValue), v.Shaped →
    ∀ (below : List State) (vis : List Event) (lim pos : Nat) (ws1 ws2 tail : Bytes),
      IsWhitespace ws1 → IsWhitespace ws2 → HeadIs Delimiter tail →
      (lim = 0 ∨ below.length + 1 ≤ lim) →
      ¬ (v.Accepted ∧ (lim = 0 ∨ below.length + 1 + v.height ≤ lim)) → ∀ fuel : Nat,
      ∃ e s, parse_json_loop (fuel + v.steps) ⟨{} :: below, vis, lim⟩
          ⟨pos, ws1 ++ (v.render ++ (ws2 ++ tail))⟩ = .throw e s
  | .primitive type text, hv => by
    intro below vis lim pos ws1 ws2 tail h1 _ _ hfit hnot fuel
    have hs : type = .String ∧ ¬ StringAccepted text := by
      by_contra hc
      refine hnot ⟨?_, by simpa [JsonValue.height] using hfit⟩
      intro ht
      by_contra hn
      exact hc ⟨ht, hn⟩
    obtain ⟨rfl, hn⟩ := hs
    rcases parse_string_shaped text hv (pos + ws1.length) (ws2 ++ tail) with ha | ⟨-, e, c', hthrow⟩
    · exact absurd ha hn
    · exact parse_json_loop_string_throw text below vis lim pos ws1 (ws2 ++ tail) h1 e c'
        hthrow fuel
  | .empty_array ws, _ => by
    intro below vis lim pos ws1 ws2 tail _ _ _ hfit hnot fuel
    exact absurd ⟨trivial, by simpa [JsonValue.height] using hfit⟩ hnot
  | .empty_object ws, _ => by
    intro below vis lim pos ws1 ws2 tail _ _ _ hfit hnot fuel
    exact absurd ⟨trivial, by simpa [JsonValue.height] using hfit⟩ hnot
  | .array w1 first w2 more, hv => by
    intro below vis lim pos ws1 ws2 tail h1 h2 ht hfit hnot fuel
    simp only [JsonValue.Shaped] at hv
    obtain ⟨hw1, hfirst, hw2, hmore⟩ := hv
    simp only [JsonValue.Accepted, JsonValue.height] at hnot
    obtain ⟨hdel, hne⟩ := elements_render_delimiter more (ws2 ++ tail)
    have hstart : ∃ b r, first.render ++ (w2 ++ (more.render ++ 0x5D :: (ws2 ++ tail))) =
        b :: r ∧ ValueStart b := by
      obtain ⟨b, r, hb, hs⟩ := hfirst.shaped_render_head
      exact ⟨b, _, by rw [hb]; rfl, hs⟩
    have e : ws1 ++ ((JsonValue.array w1 first w2 more).render ++ (ws2 ++ tail)) =
        ws1 ++ 0x5B :: (w1 ++ (first.render ++ (w2 ++ (more.render ++ 0x5D :: (ws2 ++ tail))))) := by
      simp [JsonValue.render]
    rw [e, show fuel + (JsonValue.array w1 first w2 more).steps =
      (fuel + more.steps + first.steps) + 1 by simp only [JsonValue.steps]; omega]
    by_cases hchild : lim = 0 ∨ below.length + 2 ≤ lim
    · rw [parse_json_loop_open_array below vis lim pos ws1 w1 _ h1 hw1 hstart hchild]
      by_cases hf : first.Accepted ∧ (lim = 0 ∨ below.length + 2 + first.height ≤ lim)
      · have ih1 := value_run_read first hfirst hf.1 (array_frame (pos + ws1.length) :: below)
          (vis ++ [.on_array_start (pos + ws1.length)]) lim (pos + ws1.length + 1 + w1.length)
          [] w2 (more.render ++ 0x5D :: (ws2 ++ tail)) isWhitespace_nil hw2 hdel
          (by simp only [List.length_cons]; omega) (fuel + more.steps)
        simp only [List.nil_append, List.length_nil, Nat.add_zero, Nat.zero_add] at ih1
        rw [ih1, loop_tail_continue _ _ _ (by simp) hne]
        refine elements_run_refused more hmore below _ lim _ (pos + ws1.length) ws2 tail
          (by omega) h2 ht hchild ?_ fuel
        rintro ⟨am, hm⟩
        exact hnot ⟨⟨hf.1, am⟩, by have := hf.2; omega⟩
      · have ih1 := value_run_refused first hfirst (array_frame (pos + ws1.length) :: below)
          (vis ++ [.on_array_start (pos + ws1.length)]) lim (pos + ws1.length + 1 + w1.length)
          [] w2 (more.render ++ 0x5D :: (ws2 ++ tail)) isWhitespace_nil hw2 hdel
          (by simp only [List.length_cons]; omega)
          (by simp only [List.length_cons]; rintro ⟨a, b⟩; exact hf ⟨a, by omega⟩)
          (fuel + more.steps)
        simpa using ih1
    · obtain ⟨s, hs⟩ := parse_json_loop_open_array_throw below vis lim pos ws1 w1 _ h1 hw1 hstart
        (by omega) (by omega) (fuel + more.steps + first.steps)
      exact ⟨_, s, hs⟩
  | .object w1 key w2 w3 first w4 more, hv => by
    intro below vis lim pos ws1 ws2 tail h1 h2 ht hfit hnot fuel
    simp only [JsonValue.Shaped] at hv
    obtain ⟨hw1, hkshape, hw2, hw3, hfirst, hw4, hmore⟩ := hv
    simp only [JsonValue.Accepted, JsonValue.height] at hnot
    obtain ⟨hdel, hne⟩ := members_render_delimiter more (ws2 ++ tail)
    have hstart : w3 ++ (first.render ++ (w4 ++ (more.render ++ 0x7D :: (ws2 ++ tail)))) ≠
        [] := by
      obtain ⟨b, r, hb, -⟩ := hfirst.shaped_render_head
      rw [hb]; simp
    have e : ws1 ++ ((JsonValue.object w1 key w2 w3 first w4 more).render ++ (ws2 ++ tail)) =
        ws1 ++ 0x7B :: (key_text w1 key w2 ++
          (w3 ++ (first.render ++ (w4 ++ (more.render ++ 0x7D :: (ws2 ++ tail)))))) := by
      simp [JsonValue.render]
    rw [e, show fuel + (JsonValue.object w1 key w2 w3 first w4 more).steps =
      (fuel + more.steps + first.steps) + 1 by simp only [JsonValue.steps]; omega]
    rcases parse_string_shaped key hkshape (pos + ws1.length + 1 + w1.length)
        (w2 ++ 0x3A :: (w3 ++ (first.render ++ (w4 ++ (more.render ++ 0x7D :: (ws2 ++ tail))))))
      with hkey | ⟨-, e1, c', hthrow⟩
    · by_cases hchild : lim = 0 ∨ below.length + 2 ≤ lim
      · rw [parse_json_loop_open_object_accepted below vis lim pos ws1 w1 key w2 _ h1 hw1 hkey
          hw2 hstart hchild]
        by_cases hf : first.Accepted ∧ (lim = 0 ∨ below.length + 2 + first.height ≤ lim)
        · rw [value_run_read first hfirst hf.1 (object_frame (pos + ws1.length) :: below)
            _ lim _ w3 w4 (more.render ++ 0x7D :: (ws2 ++ tail)) hw3 hw4 hdel
            (by simp only [List.length_cons]; omega) (fuel + more.steps),
            loop_tail_continue _ _ _ (by simp) hne]
          refine members_run_refused more hmore below _ lim _ (pos + ws1.length) ws2 tail
            (by omega) h2 ht hchild ?_ fuel
          rintro ⟨am, hm⟩
          exact hnot ⟨⟨hkey, hf.1, am⟩, by have := hf.2; omega⟩
        · exact value_run_refused first hfirst (object_frame (pos + ws1.length) :: below)
            _ lim _ w3 w4 (more.render ++ 0x7D :: (ws2 ++ tail)) hw3 hw4 hdel
            (by simp only [List.length_cons]; omega)
            (by simp only [List.length_cons]; rintro ⟨a, b⟩; exact hf ⟨a, by omega⟩)
            (fuel + more.steps)
      · exact parse_json_loop_open_object_deep below vis lim pos ws1 w1 key w2 _ h1 hw1 hkey hw2
          (by omega) (by omega) _
    · have e2 : key_text w1 key w2 ++
          (w3 ++ (first.render ++ (w4 ++ (more.render ++ 0x7D :: (ws2 ++ tail))))) =
          w1 ++ 0x22 :: (key ++ 0x22 :: (w2 ++ 0x3A ::
            (w3 ++ (first.render ++ (w4 ++ (more.render ++ 0x7D :: (ws2 ++ tail))))))) := by
        simp [key_text]
      rw [e2]
      exact parse_json_loop_open_object_refused below vis lim pos ws1 w1 key _ h1 hw1 e1 c'
        hthrow _
/-- The passes of the loop over further elements that are not read to their end. -/
theorem elements_run_refused : ∀ (es : JsonElements), es.Shaped →
    ∀ (below : List State) (vis : List Event) (lim pos s : Nat) (ws tail : Bytes),
      s ≤ pos → IsWhitespace ws → HeadIs Delimiter tail →
      (lim = 0 ∨ below.length + 2 ≤ lim) →
      ¬ (es.Accepted ∧ (lim = 0 ∨ below.length + 2 + es.height ≤ lim)) → ∀ fuel : Nat,
      ∃ e st, parse_json_loop (fuel + es.steps) ⟨array_frame s :: below, vis, lim⟩
          ⟨pos, es.render ++ 0x5D :: (ws ++ tail)⟩ = .throw e st
  | .nil, _ => by
    intro below vis lim pos s ws tail _ _ _ hfit hnot fuel
    exact absurd ⟨trivial, by simpa [JsonElements.height] using hfit⟩ hnot
  | .cons w1 v w2 tl, hv => by
    intro below vis lim pos s ws tail hs hws ht hfit hnot fuel
    simp only [JsonElements.Shaped] at hv
    obtain ⟨hw1, hval, hw2, htl⟩ := hv
    simp only [JsonElements.Accepted, JsonElements.height] at hnot
    obtain ⟨hdel, hne⟩ := elements_render_delimiter tl (ws ++ tail)
    have e : (JsonElements.cons w1 v w2 tl).render ++ 0x5D :: (ws ++ tail) =
        0x2C :: (w1 ++ (v.render ++ (w2 ++ (tl.render ++ 0x5D :: (ws ++ tail))))) := by
      simp [JsonElements.render]
    rw [e, show fuel + (JsonElements.cons w1 v w2 tl).steps =
      (fuel + tl.steps + v.steps) + 1 by simp only [JsonElements.steps]; omega,
      parse_json_loop_array_comma below vis lim pos s _ (by simp) hfit]
    by_cases hf : v.Accepted ∧ (lim = 0 ∨ below.length + 2 + v.height ≤ lim)
    · rw [value_run_read v hval hf.1 (array_frame s :: below) vis lim (pos + 1)
        w1 w2 (tl.render ++ 0x5D :: (ws ++ tail)) hw1 hw2 hdel
        (by simp only [List.length_cons]; omega) (fuel + tl.steps),
        loop_tail_continue _ _ _ (by simp) hne]
      refine elements_run_refused tl htl below _ lim _ s ws tail (by omega) hws ht hfit ?_ fuel
      rintro ⟨am, hm⟩
      exact hnot ⟨⟨hf.1, am⟩, by have := hf.2; omega⟩
    · exact value_run_refused v hval (array_frame s :: below) vis lim (pos + 1)
        w1 w2 (tl.render ++ 0x5D :: (ws ++ tail)) hw1 hw2 hdel
        (by simp only [List.length_cons]; omega)
        (by simp only [List.length_cons]; rintro ⟨a, b⟩; exact hf ⟨a, by omega⟩)
        (fuel + tl.steps)
/-- The passes of the loop over further members that are not read to their end. -/
theorem members_run_refused : ∀ (ms : JsonMembers), ms.Shaped →
    ∀ (below : List State) (vis : List Event) (lim pos s : Nat) (ws tail : Bytes),
      s ≤ pos → IsWhitespace ws → HeadIs Delimiter tail →
      (lim = 0 ∨ below.length + 2 ≤ lim) →
      ¬ (ms.Accepted ∧ (lim = 0 ∨ below.length + 2 + ms.height ≤ lim)) → ∀ fuel : Nat,
      ∃ e st, parse_json_loop (fuel + ms.steps) ⟨object_frame s :: below, vis, lim⟩
          ⟨pos, ms.render ++ 0x7D :: (ws ++ tail)⟩ = .throw e st
  | .nil, _ => by
    intro below vis lim pos s ws tail _ _ _ hfit hnot fuel
    exact absurd ⟨trivial, by simpa [JsonMembers.height] using hfit⟩ hnot
  | .cons w1 key w2 w3 v w4 tl, hv => by
    intro below vis lim pos s ws tail hs hws ht hfit hnot fuel
    simp only [JsonMembers.Shaped] at hv
    obtain ⟨hw1, hkshape, hw2, hw3, hval, hw4, htl⟩ := hv
    simp only [JsonMembers.Accepted, JsonMembers.height] at hnot
    obtain ⟨hdel, hne⟩ := members_render_delimiter tl (ws ++ tail)
    have hstart : w3 ++ (v.render ++ (w4 ++ (tl.render ++ 0x7D :: (ws ++ tail)))) ≠ [] := by
      obtain ⟨b, r, hb, -⟩ := hval.shaped_render_head
      rw [hb]; simp
    have e : (JsonMembers.cons w1 key w2 w3 v w4 tl).render ++ 0x7D :: (ws ++ tail) =
        0x2C :: (key_text w1 key w2 ++
          (w3 ++ (v.render ++ (w4 ++ (tl.render ++ 0x7D :: (ws ++ tail)))))) := by
      simp [JsonMembers.render]
    rw [e, show fuel + (JsonMembers.cons w1 key w2 w3 v w4 tl).steps =
      (fuel + tl.steps + v.steps) + 1 by simp only [JsonMembers.steps]; omega]
    rcases parse_string_shaped key hkshape (pos + 1 + w1.length)
        (w2 ++ 0x3A :: (w3 ++ (v.render ++ (w4 ++ (tl.render ++ 0x7D :: (ws ++ tail))))))
      with hkey | ⟨-, e1, c', hthrow⟩
    · rw [parse_json_loop_object_comma_accepted below vis lim pos s w1 key w2 _ hw1 hkey hw2
        hstart hfit]
      by_cases hf : v.Accepted ∧ (lim = 0 ∨ below.length + 2 + v.height ≤ lim)
      · rw [value_run_read v hval hf.1 (object_frame s :: below) _ lim _
          w3 w4 (tl.render ++ 0x7D :: (ws ++ tail)) hw3 hw4 hdel
          (by simp only [List.length_cons]; omega) (fuel + tl.steps),
          loop_tail_continue _ _ _ (by simp) hne]
        refine members_run_refused tl htl below _ lim _ s ws tail (by omega) hws ht hfit ?_ fuel
        rintro ⟨am, hm⟩
        exact hnot ⟨⟨hkey, hf.1, am⟩, by have := hf.2; omega⟩
      · exact value_run_refused v hval (object_frame s :: below) _ lim _
          w3 w4 (tl.render ++ 0x7D :: (ws ++ tail)) hw3 hw4 hdel
          (by simp only [List.length_cons]; omega)
          (by simp only [List.length_cons]; rintro ⟨a, b⟩; exact hf ⟨a, by omega⟩)
          (fuel + tl.steps)
    · have e2 : key_text w1 key w2 ++
          (w3 ++ (v.render ++ (w4 ++ (tl.render ++ 0x7D :: (ws ++ tail))))) =
          w1 ++ 0x22 :: (key ++ 0x22 :: (w2 ++ 0x3A ::
            (w3 ++ (v.render ++ (w4 ++ (tl.render ++ 0x7D :: (ws ++ tail))))))) := by
        simp [key_text]
      rw [e2]
      exact parse_json_loop_object_comma_refused below vis lim pos s w1 key _ hw1 e1 c'
        hthrow _
end

end flumps


namespace flumps

/-! ## The inputs on which `parse_json` returns -/

mutual
theorem value_steps_le_shaped : ∀ (v : JsonValue), v.Shaped → v.steps ≤ v.render.length
  | .primitive type text, hv => by
    have hne := JsonValue.Shaped.render_ne_nil hv
    have := List.length_pos.2 hne
    simp only [JsonValue.steps]
    omega
  | .empty_array ws, _ => by simp [JsonValue.steps, JsonValue.render]
  | .empty_object ws, _ => by simp [JsonValue.steps, JsonValue.render]
  | .array w1 first w2 more, hv => by
    simp only [JsonValue.Shaped] at hv
    have h1 := value_steps_le_shaped first hv.2.1
    have h2 := elements_steps_le_shaped more hv.2.2.2
    simp only [JsonValue.steps, JsonValue.render, List.length_cons, List.length_append,
      List.length_nil]
    omega
  | .object w1 key w2 w3 first w4 more, hv => by
    simp only [JsonValue.Shaped] at hv
    have h1 := value_steps_le_shaped first hv.2.2.2.2.1
    have h2 := members_steps_le_shaped more hv.2.2.2.2.2.2
    simp only [JsonValue.steps, JsonValue.render, List.length_cons, List.length_append,
      List.length_nil]
    omega
theorem elements_steps_le_shaped : ∀ (es : JsonElements), es.Shaped →
    es.steps ≤ es.render.length + 1
  | .nil, _ => by simp [JsonElements.steps]
  | .cons w1 v w2 tl, hv => by
    simp only [JsonElements.Shaped] at hv
    have h1 := value_steps_le_shaped v hv.2.1
    have h2 := elements_steps_le_shaped tl hv.2.2.2
    simp only [JsonElements.steps, JsonElements.render, List.length_cons, List.length_append]
    omega
theorem members_steps_le_shaped : ∀ (ms : JsonMembers), ms.Shaped →
    ms.steps ≤ ms.render.length + 1
  | .nil, _ => by simp [JsonMembers.steps]
  | .cons w1 key w2 w3 v w4 tl, hv => by
    simp only [JsonMembers.Shaped] at hv
    have h1 := value_steps_le_shaped v hv.2.2.2.2.1
    have h2 := members_steps_le_shaped tl hv.2.2.2.2.2.2
    simp only [JsonMembers.steps, JsonMembers.render, List.length_cons, List.length_append]
    omega
end

/-- A text of the grammar read on bytes whose strings `parse_string` reads and whose values
fit under the depth limit is parsed to its end: the call returns `true`, the events of the
value are delivered and the stack is empty. -/
theorem parse_json_read (t : JsonText) (ht : t.Shaped) (ha : t.value.Accepted)
    (p : JsonParserImpl) (hd : p.depth_limit_ = 0 ∨ 1 + t.value.height ≤ p.depth_limit_) :
    parse_json p t.render =
      .ok true (⟨[], p.visitor_ ++ t.value.events t.ws1.length, p.depth_limit_⟩,
        ⟨t.render.length, []⟩) := by
  obtain ⟨ws1, v, ws2⟩ := t
  obtain ⟨h1, hv, h2⟩ := ht
  obtain ⟨st, vis, lim⟩ := p
  simp only [JsonText.render] at *
  have hsteps := value_steps_le_shaped v hv
  have hrun := value_run_read v hv ha [] vis lim 0 ws1 ws2 [] h1 h2 (HeadIs.nil _)
    (by simpa using hd) ((ws1 ++ (v.render ++ ws2)).length + 1 - v.steps)
  have hfuel : (ws1 ++ (v.render ++ ws2)).length + 1 - v.steps + v.steps =
      (ws1 ++ (v.render ++ ws2)).length + 1 := by
    simp only [List.length_append]
    omega
  rw [hfuel] at hrun
  simp only [List.append_nil] at hrun
  have hinc := inc_depth_ok [] vis lim ⟨0, ws1 ++ (v.render ++ ws2)⟩ (by
    rcases hd with h | h
    · exact Or.inl h
    · right; simp only [List.length_nil]; omega)
  simp only [parse_json, hinc, Res.bind_ok, hrun, loop_tail]
  simp [List.length_append, Nat.add_assoc]

/-- A text of the grammar read on bytes that holds a string that `parse_string` refuses or
a value deeper than the limit allows is refused with an exception. -/
theorem parse_json_refused (t : JsonText) (ht : t.Shaped) (p : JsonParserImpl)
    (h : ¬ (t.value.Accepted ∧ (p.depth_limit_ = 0 ∨ 1 + t.value.height ≤ p.depth_limit_))) :
    ∃ e s, parse_json p t.render = .throw e s := by
  obtain ⟨ws1, v, ws2⟩ := t
  obtain ⟨h1, hv, h2⟩ := ht
  obtain ⟨st, vis, lim⟩ := p
  simp only [JsonText.render] at *
  have hsteps := value_steps_le_shaped v hv
  obtain ⟨e, s, hrun⟩ := value_run_refused v hv [] vis lim 0 ws1 ws2 [] h1 h2 (HeadIs.nil _)
    (by simp only [List.length_nil]; omega) (by simpa using h)
    ((ws1 ++ (v.render ++ ws2)).length + 1 - v.steps)
  have hfuel : (ws1 ++ (v.render ++ ws2)).length + 1 - v.steps + v.steps =
      (ws1 ++ (v.render ++ ws2)).length + 1 := by
    simp only [List.length_append]
    omega
  rw [hfuel] at hrun
  simp only [List.append_nil] at hrun
  have hinc := inc_depth_first ⟨st, vis, lim⟩ ⟨0, ws1 ++ (v.render ++ ws2)⟩
  simp only [parse_json, hinc, Res.bind_ok, hrun, Res.bind_throw]
  exact ⟨_, _, rfl⟩

/-- Whenever `parse_json` returns, its input is a text of the grammar read on bytes whose
strings `parse_string` reads and whose values fit under the depth limit, and the events
delivered are those of its value. -/
theorem parse_json_ok_read (p : JsonParserImpl) (input : Bytes) (b : Bool) (s : ParseState)
    (h : parse_json p input = .ok b s) :
    ∃ t : JsonText, t.Shaped ∧ t.value.Accepted ∧
      (p.depth_limit_ = 0 ∨ 1 + t.value.height ≤ p.depth_limit_) ∧ t.render = input ∧
      b = true ∧
      s = (⟨[], p.visitor_ ++ t.value.events t.ws1.length, p.depth_limit_⟩,
        ⟨input.length, []⟩) := by
  rcases parse_json_outcome p input with ⟨s1, -, ⟨t, hsh, hr⟩⟩ | ⟨inner, s1, h1, -⟩
  · by_cases hgood : t.value.Accepted ∧
        (p.depth_limit_ = 0 ∨ 1 + t.value.height ≤ p.depth_limit_)
    · have := parse_json_read t hsh hgood.1 p hgood.2
      rw [hr, h] at this
      simp only [Res.ok.injEq] at this
      exact ⟨t, hsh, hgood.1, hgood.2, hr, this.1, this.2⟩
    · obtain ⟨e, s2, hthrow⟩ := parse_json_refused t hsh p hgood
      rw [hr, h] at hthrow
      cases hthrow
  · rw [h] at h1
    cases h1

end flumps


namespace flumps

/-! ## Whitespace around a text -/

mutual
theorem value_events_shift : ∀ (v : JsonValue) (s k : Nat),
    v.events (s + k) = (v.events s).map (Event.shift k)
  | .primitive type text, s, k => by
    by_cases h : type = .String
    · simp [JsonValue.events, Event.shift, h]
      omega
    · simp [JsonValue.events, Event.shift, h]
  | .empty_array ws, s, k => by simp [JsonValue.events, Event.shift]
  | .empty_object ws, s, k => by simp [JsonValue.events, Event.shift]
  | .array w1 first w2 more, s, k => by
    have h1 := value_events_shift first (s + 1 + w1.length) k
    have h2 := elements_events_shift more
      (s + 1 + w1.length + first.render.length + w2.length) k
    simp only [JsonValue.events]
    rw [show s + k + 1 + w1.length + first.render.length + w2.length =
        s + 1 + w1.length + first.render.length + w2.length + k by omega,
      show s + k + 1 + w1.length = s + 1 + w1.length + k by omega, h1, h2]
    simp [Event.shift]
  | .object w1 key w2 w3 first w4 more, s, k => by
    have h1 := value_events_shift first (s + 1 + (key_text w1 key w2).length + w3.length) k
    have h2 := members_events_shift more
      (s + 1 + (key_text w1 key w2).length + w3.length + first.render.length + w4.length) k
    simp only [JsonValue.events]
    rw [show s + k + 1 + (key_text w1 key w2).length + w3.length + first.render.length +
          w4.length =
        s + 1 + (key_text w1 key w2).length + w3.length + first.render.length + w4.length + k
        by omega,
      show s + k + 1 + (key_text w1 key w2).length + w3.length =
        s + 1 + (key_text w1 key w2).length + w3.length + k by omega,
      show s + k + 1 + w1.length + 1 = s + 1 + w1.length + 1 + k by omega, h1, h2]
    simp [Event.shift]
theorem elements_events_shift : ∀ (es : JsonElements) (s k : Nat),
    es.events (s + k) = (es.events s).map (Event.shift k)
  | .nil, s, k => by simp [JsonElements.events]
  | .cons w1 v w2 tl, s, k => by
    have h1 := value_events_shift v (s + 1 + w1.length) k
    have h2 := elements_events_shift tl (s + 1 + w1.length + v.render.length + w2.length) k
    simp only [JsonElements.events]
    rw [show s + k + 1 + w1.length + v.render.length + w2.length =
        s + 1 + w1.length + v.render.length + w2.length + k by omega,
      show s + k + 1 + w1.length = s + 1 + w1.length + k by omega, h1, h2]
    simp
theorem members_events_shift : ∀ (ms : JsonMembers) (s k : Nat),
    ms.events (s + k) = (ms.events s).map (Event.shift k)
  | .nil, s, k => by simp [JsonMembers.events]
  | .cons w1 key w2 w3 v w4 tl, s, k => by
    have h1 := value_events_shift v (s + 1 + (key_text w1 key w2).length + w3.length) k
    have h2 := members_events_shift tl
      (s + 1 + (key_text w1 key w2).length + w3.length + v.render.length + w4.length) k
    simp only [JsonMembers.events]
    rw [show s + k + 1 + (key_text w1 key w2).length + w3.length + v.render.length +
          w4.length =
        s + 1 + (key_text w1 key w2).length + w3.length + v.render.length + w4.length + k
        by omega,
      show s + k + 1 + (key_text w1 key w2).length + w3.length =
        s + 1 + (key_text w1 key w2).length + w3.length + k by omega,
      show s + k + 1 + w1.length + 1 = s + 1 + w1.length + 1 + k by omega, h1, h2]
    simp [Event.shift]
end

theorem digits_last (d : Nat) (ds : Bytes) (hd : is_dec d = true) (hds : IsDigits ds) :
    ∃ r b, d :: ds = r ++ [b] ∧ is_dec b = true := by
  induction ds generalizing d with
  | nil => exact ⟨[], d, rfl, hd⟩
  | cons x xs ih =>
    obtain ⟨r, b, hr, hb⟩ := ih x (hds x (List.mem_cons_self _ _))
      (fun y hy => hds y (List.mem_cons_of_mem _ hy))
    exact ⟨d :: r, b, by rw [hr]; rfl, hb⟩

/-- A number of the grammar ends with a digit. -/
theorem IsNumber.last {s : Bytes} (h : IsNumber s) :
    ∃ r b, s = r ++ [b] ∧ is_dec b = true := by
  obtain ⟨sign, i, f, e, rfl, -, hi, hf, he⟩ := h
  rcases he with rfl | ⟨x, sg, d, ds, rfl, -, -, hd, hds⟩
  · rcases hf with rfl | ⟨d, ds, rfl, hd, hds⟩
    · rcases hi with rfl | ⟨d, ds, rfl, h1, h2, hds⟩
      · exact ⟨sign, 0x30, by simp, by decide⟩
      · obtain ⟨r, b, hr, hb⟩ := digits_last d ds (by simp [is_dec]; omega) hds
        exact ⟨sign ++ r, b, by rw [hr]; simp, hb⟩
    · obtain ⟨r, b, hr, hb⟩ := digits_last d ds hd hds
      exact ⟨sign ++ (i ++ 0x2E :: r), b, by rw [hr]; simp, hb⟩
  · obtain ⟨r, b, hr, hb⟩ := digits_last d ds hd hds
    exact ⟨sign ++ (i ++ (f ++ x :: (sg ++ r))), b, by rw [hr]; simp, hb⟩

/-- A value of the grammar read on bytes ends with a byte that is not whitespace. -/
theorem JsonValue.Shaped.render_last {v : JsonValue} (h : v.Shaped) :
    ∃ r b, v.render = r ++ [b] ∧ is_whitespace b = false := by
  cases v with
  | primitive type text =>
    simp only [JsonValue.Shaped] at h
    cases type with
    | Array => exact absurd h (by simp [IsPrimitiveShape])
    | Object => exact absurd h (by simp [IsPrimitiveShape])
    | True =>
      simp only [IsPrimitiveShape] at h
      subst h
      exact ⟨[0x74, 0x72, 0x75], 0x65, rfl, by decide⟩
    | False =>
      simp only [IsPrimitiveShape] at h
      subst h
      exact ⟨[0x66, 0x61, 0x6C, 0x73], 0x65, rfl, by decide⟩
    | Null =>
      simp only [IsPrimitiveShape] at h
      subst h
      exact ⟨[0x6E, 0x75, 0x6C], 0x6C, rfl, by decide⟩
    | String =>
      exact ⟨0x22 :: text, 0x22, by simp [JsonValue.render, primitive_text], by decide⟩
    | Number =>
      obtain ⟨r, b, hr, hb⟩ := IsNumber.last h
      refine ⟨r, b, by simpa [JsonValue.render, primitive_text] using hr, ?_⟩
      simp only [is_dec, Bool.and_eq_true, decide_eq_true_eq] at hb
      simp only [is_whitespace, Bool.or_eq_false_iff, decide_eq_false_iff_not]
      omega
  | empty_array ws => exact ⟨0x5B :: ws, 0x5D, by simp [JsonValue.render], by decide⟩
  | array ws1 v ws2 more =>
    exact ⟨0x5B :: (ws1 ++ (v.render ++ (ws2 ++ more.render))), 0x5D,
      by simp [JsonValue.render], by decide⟩
  | empty_object ws => exact ⟨0x7B :: ws, 0x7D, by simp [JsonValue.render], by decide⟩
  | object ws1 key ws2 ws3 v ws4 more =>
    exact ⟨0x7B :: (key_text ws1 key ws2 ++ (ws3 ++ (v.render ++ (ws4 ++ more.render)))), 0x7D,
      by simp [JsonValue.render], by decide⟩

/-- Whitespace at the start of a text that begins with whitespace and a byte that is not
whitespace is part of the whitespace of the text. -/
theorem whitespace_before (w1 : Bytes) (h1 : IsWhitespace w1) :
    ∀ (a : Bytes) (b : Nat) (r y : Bytes), is_whitespace b = false →
      a ++ b :: r = w1 ++ y → ∃ a1, a = w1 ++ a1 ∧ y = a1 ++ b :: r := by
  induction w1 with
  | nil => intro a b r y _ h; exact ⟨a, rfl, by simpa using h.symm⟩
  | cons c w ih =>
    intro a b r y hb h
    cases a with
    | nil =>
      simp only [List.nil_append, List.cons_append, List.cons.injEq] at h
      have := h1 c (List.mem_cons_self _ _)
      rw [← h.1, hb] at this
      cases this
    | cons d a =>
      simp only [List.cons_append, List.cons.injEq] at h
      obtain ⟨a1, k1, k2⟩ := ih (fun x hx => h1 x (List.mem_cons_of_mem _ hx)) a b r y hb h.2
      exact ⟨a1, by rw [h.1, k1]; rfl, k2⟩

/-- Whitespace at the end of a text that ends with a byte that is not whitespace and
whitespace is part of the whitespace of the text. -/
theorem whitespace_after (w2 : Bytes) (h2 : IsWhitespace w2) (r : Bytes) (b : Nat)
    (a y : Bytes) (hb : is_whitespace b = false) (h : r ++ b :: a = y ++ w2) :
    ∃ a1, a = a1 ++ w2 ∧ y = r ++ b :: a1 := by
  have hr : a.reverse ++ b :: r.reverse = w2.reverse ++ y.reverse := by
    have := congrArg List.reverse h
    simpa using this
  obtain ⟨a1, k1, k2⟩ := whitespace_before w2.reverse
    (fun x hx => h2 x (List.mem_reverse.1 hx)) a.reverse b r.reverse y.reverse hb hr
  refine ⟨a1.reverse, ?_, ?_⟩
  · have := congrArg List.reverse k1
    simpa using this
  · have := congrArg List.reverse k2
    simpa using this

theorem isWhitespace_of_append_left {a b : Bytes} (h : IsWhitespace (a ++ b)) :
    IsWhitespace a := fun x hx => h x (List.mem_append_left _ hx)

theorem isWhitespace_of_append_right {a b : Bytes} (h : IsWhitespace (a ++ b)) :
    IsWhitespace b := fun x hx => h x (List.mem_append_right _ hx)

/-- Whitespace added before and after a text that `parse_json` reads: the text is read as
well, with the events moved forward by the length of the whitespace before it. -/
theorem parse_json_add_whitespace (p : JsonParserImpl) (x w1 w2 : Bytes)
    (h1 : IsWhitespace w1) (h2 : IsWhitespace w2) (b : Bool) (s : ParseState)
    (h : parse_json p x = .ok b s) :
    ∃ events, s.1.visitor_ = p.visitor_ ++ events ∧
      parse_json p (w1 ++ (x ++ w2)) =
        .ok true (⟨[], p.visitor_ ++ events.map (Event.shift w1.length), p.depth_limit_⟩,
          ⟨(w1 ++ (x ++ w2)).length, []⟩) := by
  obtain ⟨t, hsh, hacc, hfit, hr, -, hs⟩ := parse_json_ok_read p x b s h
  obtain ⟨a, v, c⟩ := t
  obtain ⟨g1, gv, g2⟩ := hsh
  simp only [JsonText.render] at hr g1 g2 hacc hfit hs
  refine ⟨v.events a.length, by rw [hs], ?_⟩
  have := parse_json_read ⟨w1 ++ a, v, c ++ w2⟩
    ⟨isWhitespace_append h1 g1, gv, isWhitespace_append g2 h2⟩ hacc p hfit
  simp only [JsonText.render, List.append_assoc, List.length_append] at this
  rw [← hr]
  simp only [List.append_assoc, List.length_append]
  rw [this, ← value_events_shift, Nat.add_comm a.length w1.length]

/-- Whitespace removed before and after a text that `parse_json` reads: what is left is
read as well. -/
theorem parse_json_remove_whitespace (p : JsonParserImpl) (x w1 w2 : Bytes)
    (h1 : IsWhitespace w1) (h2 : IsWhitespace w2) (b : Bool) (s : ParseState)
    (h : parse_json p (w1 ++ (x ++ w2)) = .ok b s) :
    ∃ s1, parse_json p x = .ok true s1 := by
  obtain ⟨t, hsh, hacc, hfit, hr, -, -⟩ := parse_json_ok_read p _ b s h
  obtain ⟨a, v, c⟩ := t
  obtain ⟨g1, gv, g2⟩ := hsh
  simp only [JsonText.render] at hr g1 g2 hacc hfit
  obtain ⟨hb, hrest, hh, hstart⟩ := gv.shaped_render_head
  obtain ⟨r, l, hl, hlw⟩ := gv.render_last
  rw [hh] at hr
  obtain ⟨a1, k1, k2⟩ := whitespace_before w1 h1 a hb (hrest ++ c) (x ++ w2)
    hstart.not_whitespace (by simpa using hr)
  have k3 : (a1 ++ r) ++ l :: c = x ++ w2 := by
    rw [k2, ← List.cons_append, ← hh, hl]
    simp
  obtain ⟨c1, k4, k5⟩ := whitespace_after w2 h2 (a1 ++ r) l c x hlw k3
  have hx : x = a1 ++ (v.render ++ c1) := by
    rw [k5, hl]
    simp
  subst k1 k4
  have := parse_json_read ⟨a1, v, c1⟩
    ⟨isWhitespace_of_append_right g1, gv, isWhitespace_of_append_left g2⟩ hacc p hfit
  simp only [JsonText.render] at this
  rw [hx]
  exact ⟨_, this⟩

/-- A byte that is neither whitespace nor the first byte of a value makes `parse_json`
throw when it stands first. -/
theorem parse_json_first_byte (p : JsonParserImpl) (b : Nat) (r : Bytes)
    (hw : is_whitespace b = false) (hv : ¬ ValueStart b) :
    ∃ e s, parse_json p (b :: r) = .throw e s := by
  cases h : parse_json p (b :: r) with
  | fuel =>
    rcases parse_json_outcome p (b :: r) with ⟨s1, h1, -⟩ | ⟨inner, s1, h1, -⟩
    · rw [h] at h1; cases h1
    · rw [h] at h1; cases h1
  | throw e s => exact ⟨e, s, rfl⟩
  | ok x s =>
    obtain ⟨t, hsh, -, -, hr, -, -⟩ := parse_json_ok_read p _ x s h
    obtain ⟨a, v, c⟩ := t
    obtain ⟨g1, gv, g2⟩ := hsh
    simp only [JsonText.render] at hr g1
    obtain ⟨hb, hrest, hh, hstart⟩ := gv.shaped_render_head
    cases a with
    | nil =>
      rw [hh] at hr
      simp only [List.nil_append, List.cons_append, List.cons.injEq] at hr
      rw [hr.1] at hstart
      exact absurd hstart hv
    | cons d a =>
      simp only [List.cons_append, List.cons.injEq] at hr
      have := g1 d (List.mem_cons_self _ _)
      rw [hr.1, hw] at this
      cases this

end flumps


namespace flumps

/-! ## The spans of the events of a text -/

theorem span_text_mid (pre x post : Bytes) :
    span_text (pre ++ (x ++ post)) pre.length x.length = x := by
  simp [span_text]

theorem span_text_at (input pre x post : Bytes) (s l : Nat) (hin : input = pre ++ (x ++ post))
    (hs : s = pre.length) (hl : l = x.length) : span_text input s l = x := by
  subst hin hs hl
  exact span_text_mid pre x post

/-- The span of the content of a string that stands in the input. -/
theorem quoted_span (input pre key post : Bytes) (s : Nat) (hk : IsStringShape key)
    (hin : input = pre ++ (0x22 :: (key ++ 0x22 :: post))) (hs : s = pre.length + 1) :
    QuotedSpan input s key.length := by
  have e1 : span_text input s key.length = key :=
    span_text_at input (pre ++ [0x22]) key (0x22 :: post) s key.length
      (by rw [hin]; simp) (by rw [hs]; simp) rfl
  have e2 : span_text input (s - 1) (key.length + 2) = 0x22 :: (key ++ [0x22]) :=
    span_text_at input pre (0x22 :: (key ++ [0x22])) post (s - 1) (key.length + 2)
      (by rw [hin]; simp) (by rw [hs]; simp) (by simp)
  refine ⟨by omega, ?_, by rw [e1]; exact hk, by rw [e1, e2]⟩
  rw [hin, hs]
  simp only [List.length_append, List.length_cons]
  omega

mutual
/-- The start and end events of a value match. -/
theorem value_ends_match : ∀ (v : JsonValue) (s : Nat) (open_starts : List (Bool × Nat))
    (rest : List Event),
    ends_match open_starts (v.events s ++ rest) = ends_match open_starts rest
  | .primitive type text, s, open_starts, rest => by
    simp [JsonValue.events, ends_match]
  | .empty_array ws, s, open_starts, rest => by
    simp [JsonValue.events, ends_match]
  | .empty_object ws, s, open_starts, rest => by
    simp [JsonValue.events, ends_match]
  | .array w1 first w2 more, s, open_starts, rest => by
    simp only [JsonValue.events, List.cons_append, List.append_assoc]
    rw [ends_match, value_ends_match first, elements_ends_match more]
    simp [ends_match]
  | .object w1 key w2 w3 first w4 more, s, open_starts, rest => by
    simp only [JsonValue.events, List.cons_append, List.append_assoc]
    rw [ends_match, ends_match, value_ends_match first, members_ends_match more]
    simp [ends_match]
theorem elements_ends_match : ∀ (es : JsonElements) (s : Nat)
    (open_starts : List (Bool × Nat)) (rest : List Event),
    ends_match open_starts (es.events s ++ rest) = ends_match open_starts rest
  | .nil, s, open_starts, rest => by simp [JsonElements.events]
  | .cons w1 v w2 tl, s, open_starts, rest => by
    simp only [JsonElements.events, List.append_assoc]
    rw [value_ends_match v, elements_ends_match tl]
theorem members_ends_match : ∀ (ms : JsonMembers) (s : Nat)
    (open_starts : List (Bool × Nat)) (rest : List Event),
    ends_match open_starts (ms.events s ++ rest) = ends_match open_starts rest
  | .nil, s, open_starts, rest => by simp [JsonMembers.events]
  | .cons w1 key w2 w3 v w4 tl, s, open_starts, rest => by
    simp only [JsonMembers.events, List.cons_append, List.append_assoc]
    rw [ends_match, value_ends_match v, members_ends_match tl]
end

mutual
/-- The span of every event of a value that stands in the input is the text that the event
reports. -/
theorem value_events_exact : ∀ (v : JsonValue), v.Shaped →
    ∀ (input pre post : Bytes) (s : Nat), input = pre ++ (v.render ++ post) → s = pre.length →
      ∀ e ∈ v.events s, e.Exact input
  | .primitive type text, hv => by
    intro input pre post s hin hs e he
    simp only [JsonValue.events, List.mem_singleton] at he
    subst he
    simp only [JsonValue.render] at hin
    by_cases ht : type = .String
    · subst ht
      simp only [Event.Exact, if_true]
      exact quoted_span input pre text post _ hv
        (by rw [hin]; simp [primitive_text]) (by rw [hs])
    · simp only [Event.Exact, if_neg ht]
      simp only [primitive_text, if_neg ht] at hin
      have e1 := span_text_at input pre text post s text.length hin hs rfl
      refine ⟨?_, by rw [e1]; exact hv⟩
      rw [hin, hs]
      simp only [List.length_append]
      omega
  | .empty_array ws, hv => by
    intro input pre post s hin hs e he
    simp only [JsonValue.events, List.mem_cons, List.mem_singleton, List.not_mem_nil,
      or_false] at he
    simp only [JsonValue.render] at hin
    rcases he with rfl | rfl
    · exact span_text_at input pre [0x5B] (ws ++ [0x5D] ++ post) s 1 (by rw [hin]; simp) hs rfl
    · have e1 := span_text_at input pre (0x5B :: (ws ++ [0x5D])) post s (ws.length + 2) hin hs
        (by simp)
      refine ⟨?_, ⟨ws, e1⟩, .empty_array ws, hv, rfl, e1⟩
      rw [hin, hs]
      simp only [List.length_append, List.length_cons, List.length_nil]
      omega
  | .empty_object ws, hv => by
    intro input pre post s hin hs e he
    simp only [JsonValue.events, List.mem_cons, List.mem_singleton, List.not_mem_nil,
      or_false] at he
    simp only [JsonValue.render] at hin
    rcases he with rfl | rfl
    · exact span_text_at input pre [0x7B] (ws ++ [0x7D] ++ post) s 1 (by rw [hin]; simp) hs rfl
    · have e1 := span_text_at input pre (0x7B :: (ws ++ [0x7D])) post s (ws.length + 2) hin hs
        (by simp)
      refine ⟨?_, ⟨ws, e1⟩, .empty_object ws, hv, rfl, e1⟩
      rw [hin, hs]
      simp only [List.length_append, List.length_cons, List.length_nil]
      omega
  | .array w1 first w2 more, hv => by
    intro input pre post s hin hs e he
    have hv0 := hv
    simp only [JsonValue.Shaped] at hv
    obtain ⟨hw1, hfirst, hw2, hmore⟩ := hv
    simp only [JsonValue.events, List.mem_cons, List.mem_append, List.mem_singleton,
      List.not_mem_nil, or_false] at he
    rcases he with rfl | he | he | rfl
    · exact span_text_at input pre [0x5B]
        (w1 ++ (first.render ++ (w2 ++ (more.render ++ [0x5D]))) ++ post) s 1
        (by rw [hin]; simp [JsonValue.render]) hs rfl
    · exact value_events_exact first hfirst input (pre ++ 0x5B :: w1)
        (w2 ++ (more.render ++ [0x5D]) ++ post) _ (by rw [hin]; simp [JsonValue.render])
        (by rw [hs]; simp; omega) e he
    · exact elements_events_exact more hmore input (pre ++ 0x5B :: (w1 ++ (first.render ++ w2)))
        (0x5D :: post) _ (by rw [hin]; simp [JsonValue.render])
        (by rw [hs]; simp; omega) e he
    · have e1 := span_text_at input pre (JsonValue.array w1 first w2 more).render post s _
        hin hs rfl
      refine ⟨?_, ⟨w1 ++ (first.render ++ (w2 ++ more.render)), ?_⟩,
        .array w1 first w2 more, hv0, rfl, e1⟩
      · rw [hin, hs]
        simp only [List.length_append]
        omega
      · rw [e1]
        simp [JsonValue.render]
  | .object w1 key w2 w3 first w4 more, hv => by
    intro input pre post s hin hs e he
    have hv0 := hv
    simp only [JsonValue.Shaped] at hv
    obtain ⟨hw1, hkey, hw2, hw3, hfirst, hw4, hmore⟩ := hv
    simp only [JsonValue.events, List.mem_cons, List.mem_append, List.mem_singleton,
      List.not_mem_nil, or_false] at he
    rcases he with rfl | rfl | he | he | rfl
    · exact span_text_at input pre [0x7B]
        (key_text w1 key w2 ++ (w3 ++ (first.render ++ (w4 ++ (more.render ++ [0x7D])))) ++ post)
        s 1 (by rw [hin]; simp [JsonValue.render]) hs rfl
    · exact quoted_span input (pre ++ 0x7B :: w1) key
        (w2 ++ 0x3A :: (w3 ++ (first.render ++ (w4 ++ (more.render ++ [0x7D])))) ++ post) _ hkey
        (by rw [hin]; simp [JsonValue.render, key_text]) (by rw [hs]; simp; omega)
    · exact value_events_exact first hfirst input (pre ++ 0x7B :: (key_text w1 key w2 ++ w3))
        (w4 ++ (more.render ++ [0x7D]) ++ post) _ (by rw [hin]; simp [JsonValue.render])
        (by rw [hs]; simp; omega) e he
    · exact members_events_exact more hmore input
        (pre ++ 0x7B :: (key_text w1 key w2 ++ (w3 ++ (first.render ++ w4))))
        (0x7D :: post) _ (by rw [hin]; simp [JsonValue.render])
        (by rw [hs]; simp; omega) e he
    · have e1 := span_text_at input pre (JsonValue.object w1 key w2 w3 first w4 more).render
        post s _ hin hs rfl
      refine ⟨?_, ⟨key_text w1 key w2 ++ (w3 ++ (first.render ++ (w4 ++ more.render))), ?_⟩,
        .object w1 key w2 w3 first w4 more, hv0, rfl, e1⟩
      · rw [hin, hs]
        simp only [List.length_append]
        omega
      · rw [e1]
        simp [JsonValue.render]
theorem elements_events_exact : ∀ (es : JsonElements), es.Shaped →
    ∀ (input pre post : Bytes) (s : Nat), input = pre ++ (es.render ++ post) →
      s = pre.length → ∀ e ∈ es.events s, e.Exact input
  | .nil, _ => by
    intro input pre post s _ _ e he
    simp [JsonElements.events] at he
  | .cons w1 v w2 tl, hv => by
    intro input pre post s hin hs e he
    simp only [JsonElements.Shaped] at hv
    obtain ⟨hw1, hval, hw2, htl⟩ := hv
    simp only [JsonElements.events, List.mem_append] at he
    rcases he with he | he
    · exact value_events_exact v hval input (pre ++ 0x2C :: w1) (w2 ++ tl.render ++ post) _
        (by rw [hin]; simp [JsonElements.render]) (by rw [hs]; simp; omega) e he
    · exact elements_events_exact tl htl input (pre ++ 0x2C :: (w1 ++ (v.render ++ w2))) post _
        (by rw [hin]; simp [JsonElements.render]) (by rw [hs]; simp; omega) e he
theorem members_events_exact : ∀ (ms : JsonMembers), ms.Shaped →
    ∀ (input pre post : Bytes) (s : Nat), input = pre ++ (ms.render ++ post) →
      s = pre.length → ∀ e ∈ ms.events s, e.Exact input
  | .nil, _ => by
    intro input pre post s _ _ e he
    simp [JsonMembers.events] at he
  | .cons w1 key w2 w3 v w4 tl, hv => by
    intro input pre post s hin hs e he
    simp only [JsonMembers.Shaped] at hv
    obtain ⟨hw1, hkey, hw2, hw3, hval, hw4, htl⟩ := hv
    simp only [JsonMembers.events, List.mem_cons, List.mem_append] at he
    rcases he with rfl | he | he
    · exact quoted_span input (pre ++ 0x2C :: w1) key
        (w2 ++ 0x3A :: (w3 ++ (v.render ++ (w4 ++ tl.render))) ++ post) _ hkey
        (by rw [hin]; simp [JsonMembers.render, key_text]) (by rw [hs]; simp; omega)
    · exact value_events_exact v hval input (pre ++ 0x2C :: (key_text w1 key w2 ++ w3))
        (w4 ++ tl.render ++ post) _ (by rw [hin]; simp [JsonMembers.render])
        (by rw [hs]; simp; omega) e he
    · exact members_events_exact tl htl input
        (pre ++ 0x2C :: (key_text w1 key w2 ++ (w3 ++ (v.render ++ w4)))) post _
        (by rw [hin]; simp [JsonMembers.render]) (by rw [hs]; simp; omega) e he
end

end flumps


namespace flumps

/-! ## The claims -/

theorem example_text_valid : example_text.Valid := by
  refine ⟨by simp [example_text, IsWhitespace, is_whitespace], ?_,
    by simp [example_text, IsWhitespace]⟩
  simp only [example_text, JsonValue.Valid, JsonElements.Valid, IsPrimitive, and_true]
  refine ⟨isWhitespace_nil, ⟨[], [0x31], [], [], rfl, Or.inl rfl,
    Or.inr ⟨0x31, [], rfl, by omega, by omega, by intro d hd; cases hd⟩, Or.inl rfl, Or.inl rfl⟩,
    isWhitespace_nil⟩

/-- C1: on every valid JSON text (one value of the grammar between optional whitespace,
strings in valid UTF-8, surrogate escapes only as a high one immediately followed by a low
one), `parse_json` with depth limit 0 returns `true`, has read the whole input, and has
delivered the events of the value. -/
theorem parse_json_accepts_valid_text (t : JsonText) (ht : t.Valid) (p : JsonParserImpl)
    (hp : p.depth_limit_ = 0) :
    parse_json p t.render =
      .ok true (⟨[], p.visitor_ ++ t.value.events t.ws1.length, 0⟩, ⟨t.render.length, []⟩) := by
  have := parse_json_valid t ht p (Or.inl hp)
  rw [hp] at this
  exact this

theorem parse_json_accepts_valid_text_witness :
    example_text.Valid ∧
      parse_json (JsonParser 0) example_text.render =
        .ok true (⟨[], (JsonParser 0).visitor_ ++ example_text.value.events example_text.ws1.length,
          0⟩, ⟨example_text.render.length, []⟩) :=
  ⟨example_text_valid, parse_json_accepts_valid_text example_text example_text_valid
    (JsonParser 0) rfl⟩

/-- C4 (the code at the failing input): the byte 0x01 validates as UTF-8, is encoded as
the six characters `\u0000`, and these decode to the byte 0x00. -/
theorem roundtrip_control_byte :
    is_utf8 [0x01] = .ok true () ∧
      utf8_to_json_string_content [0x01] = .ok [0x5C, 0x75, 0x30, 0x30, 0x30, 0x30] () ∧
      json_string_content_to_utf8 [0x5C, 0x75, 0x30, 0x30, 0x30, 0x30] = .ok [0x00] () := by
  decide

/-- C7 (the code at the failing input): the literal `"\uD800a\uDC00"`, in which an
ordinary character stands between the escape of a high surrogate and the escape of a
low surrogate, is accepted as a String. -/
theorem parse_json_accepts_split_surrogates :
    parse_json (JsonParser 0)
        [0x22, 0x5C, 0x75, 0x44, 0x38, 0x30, 0x30, 0x61, 0x5C, 0x75, 0x44, 0x43, 0x30, 0x30,
          0x22] =
      .ok true (⟨[], [.on_primitive_value .String 1 13], 0⟩, ⟨15, []⟩) := by
  decide

/-- C8: for a valid JSON text and a depth limit `L > 0`, `parse_json` fails with the
`JsonParseError` "Maximum JSON nesting depth (L) reached" exactly when the text holds a
value at depth `L` or deeper (the root value at depth 0, each element or member value one
deeper than its array or object); when every value is less deep than `L`, and also with
limit 0, the parse succeeds and delivers the same events. -/
theorem depth_limit_iff_value_at_depth (t : JsonText) (ht : t.Valid) (p : JsonParserImpl)
    (hL : 0 < p.depth_limit_) :
    ((∃ s, parse_json p t.render =
        .throw (json_parse_error
          ("Maximum JSON nesting depth (" ++ toString p.depth_limit_ ++ ") reached" ++
            " (offset=" ++ toString s.2.pos ++ ")")) s) ↔
      ∃ k ∈ t.value.depths 0, p.depth_limit_ ≤ k) ∧
    ((∀ k ∈ t.value.depths 0, k < p.depth_limit_) →
      parse_json p t.render =
        .ok true (⟨[], p.visitor_ ++ t.value.events t.ws1.length, p.depth_limit_⟩,
          ⟨t.render.length, []⟩)) ∧
    parse_json { p with depth_limit_ := 0 } t.render =
      .ok true (⟨[], p.visitor_ ++ t.value.events t.ws1.length, 0⟩, ⟨t.render.length, []⟩) := by
  have hshallow : (∀ k ∈ t.value.depths 0, k < p.depth_limit_) →
      parse_json p t.render =
        .ok true (⟨[], p.visitor_ ++ t.value.events t.ws1.length, p.depth_limit_⟩,
          ⟨t.render.length, []⟩) := by
    intro h
    have := h _ (value_height_mem_depths t.value 0)
    exact parse_json_valid t ht p (Or.inr (by omega))
  refine ⟨⟨?_, ?_⟩, hshallow, parse_json_valid t ht { p with depth_limit_ := 0 } (Or.inl rfl)⟩
  · rintro ⟨s, hs⟩
    by_contra hno
    have hall : ∀ k ∈ t.value.depths 0, k < p.depth_limit_ := by
      intro k hk
      by_contra hk'
      exact hno ⟨k, hk, by omega⟩
    rw [hshallow hall] at hs
    cases hs
  · intro h
    have := (JsonValue.exists_depth_iff t.value p.depth_limit_).1 h
    exact parse_json_too_deep t ht p hL (by omega)

theorem depth_limit_iff_value_at_depth_witness :
    example_text.Valid ∧ 0 < (JsonParser 1).depth_limit_ ∧
    (((∃ s, parse_json (JsonParser 1) example_text.render =
        .throw (json_parse_error
          ("Maximum JSON nesting depth (" ++ toString (JsonParser 1).depth_limit_ ++
            ") reached" ++ " (offset=" ++ toString s.2.pos ++ ")")) s) ↔
      ∃ k ∈ example_text.value.depths 0, (JsonParser 1).depth_limit_ ≤ k) ∧
    ((∀ k ∈ example_text.value.depths 0, k < (JsonParser 1).depth_limit_) →
      parse_json (JsonParser 1) example_text.render =
        .ok true (⟨[], (JsonParser 1).visitor_ ++
          example_text.value.events example_text.ws1.length, (JsonParser 1).depth_limit_⟩,
          ⟨example_text.render.length, []⟩)) ∧
    parse_json { JsonParser 1 with depth_limit_ := 0 } example_text.render =
      .ok true (⟨[], (JsonParser 1).visitor_ ++
        example_text.value.events example_text.ws1.length, 0⟩,
        ⟨example_text.render.length, []⟩)) :=
  ⟨example_text_valid, by decide,
    depth_limit_iff_value_at_depth example_text example_text_valid (JsonParser 1) (by decide)⟩

theorem array_of_one_valid : array_of_one.Valid := by
  refine ⟨isWhitespace_nil, ?_, isWhitespace_nil⟩
  simp only [array_of_one, JsonValue.Valid, JsonElements.Valid, IsPrimitive, and_true]
  exact ⟨isWhitespace_nil, ⟨[], [0x31], [], [], rfl, Or.inl rfl,
    Or.inr ⟨0x31, [], rfl, by omega, by omega, by intro d hd; cases hd⟩, Or.inl rfl, Or.inl rfl⟩,
    isWhitespace_nil⟩

/-- C9 (counterexample): in the valid text `[1]` at most one array is open at any place,
yet with depth limit 1 the parse fails with the maximum-nesting-depth error. -/
theorem one_open_array_exceeds_limit_one :
    array_of_one.Valid ∧ array_of_one.render = [0x5B, 0x31, 0x5D] ∧
      array_of_one.value.open_collections = 1 ∧
      parse_json (JsonParser 1) [0x5B, 0x31, 0x5D] =
        .throw ⟨.JsonParseError, "Maximum JSON nesting depth (1) reached (offset=1)"⟩
          (⟨[{}, array_frame 0], [.on_array_start 0], 1⟩, ⟨1, [0x31, 0x5D]⟩) :=
  ⟨array_of_one_valid, by decide, by decide, by decide⟩

/-- C9 (amended): for a valid JSON text and a depth limit `L > 0`, `parse_json` succeeds
whenever the greatest number of values open at the same place (the root value counting as
1, an element or member value being open together with the arrays and objects around it)
is at most `L`, and it raises the maximum-nesting-depth error only when that number
exceeds `L`. -/
theorem depth_limit_counts_open_values (t : JsonText) (ht : t.Valid) (p : JsonParserImpl) :
    (t.value.open_values ≤ p.depth_limit_ →
      parse_json p t.render =
        .ok true (⟨[], p.visitor_ ++ t.value.events t.ws1.length, p.depth_limit_⟩,
          ⟨t.render.length, []⟩)) ∧
    ((∃ s, parse_json p t.render =
        .throw (json_parse_error
          ("Maximum JSON nesting depth (" ++ toString p.depth_limit_ ++ ") reached" ++
            " (offset=" ++ toString s.2.pos ++ ")")) s) →
      p.depth_limit_ < t.value.open_values) := by
  have hov := value_open_values_eq t.value
  have hfit : t.value.open_values ≤ p.depth_limit_ →
      parse_json p t.render =
        .ok true (⟨[], p.visitor_ ++ t.value.events t.ws1.length, p.depth_limit_⟩,
          ⟨t.render.length, []⟩) :=
    fun h => parse_json_valid t ht p (Or.inr (by omega))
  refine ⟨hfit, ?_⟩
  rintro ⟨s, hs⟩
  by_contra hle
  rw [hfit (by omega)] at hs
  cases hs

theorem depth_limit_counts_open_values_witness :
    array_of_one.Valid ∧
    ((array_of_one.value.open_values ≤ (JsonParser 2).depth_limit_ →
      parse_json (JsonParser 2) array_of_one.render =
        .ok true (⟨[], (JsonParser 2).visitor_ ++
          array_of_one.value.events array_of_one.ws1.length, (JsonParser 2).depth_limit_⟩,
          ⟨array_of_one.render.length, []⟩)) ∧
    ((∃ s, parse_json (JsonParser 2) array_of_one.render =
        .throw (json_parse_error
          ("Maximum JSON nesting depth (" ++ toString (JsonParser 2).depth_limit_ ++
            ") reached" ++ " (offset=" ++ toString s.2.pos ++ ")")) s) →
      (JsonParser 2).depth_limit_ < array_of_one.value.open_values)) :=
  ⟨array_of_one_valid,
    depth_limit_counts_open_values array_of_one array_of_one_valid (JsonParser 2)⟩

/-- The encodings of the four code points of the repository's decoder tests. -/
theorem utf8_encode_examples :
    utf8_encode 0x7F = [0x7F] ∧ utf8_encode 0x3CF = [0xCF, 0x8F] ∧
      utf8_encode 0xF3CF = [0xEF, 0x8F, 0x8F] ∧
      utf8_encode 0x10FFFF = [0xF4, 0x8F, 0xBF, 0xBF] := by
  decide

/-- C10: for every Unicode scalar value `cp` and every byte suffix, `chomp_utf8_char` on
the standard UTF-8 encoding of `cp` followed by the suffix returns `cp` and advances the
position by the length of the encoding, which is 1 to 4 bytes. -/
theorem chomp_utf8_char_decodes_scalar (cp : Nat) (h : IsScalar cp) (pos : Nat)
    (suffix : Bytes) :
    chomp_utf8_char ⟨pos, utf8_encode cp ++ suffix⟩ =
        .ok cp ⟨pos + (utf8_encode cp).length, suffix⟩ ∧
      1 ≤ (utf8_encode cp).length ∧ (utf8_encode cp).length ≤ 4 :=
  ⟨chomp_utf8_char_utf8_encode cp h pos suffix, utf8_encode_length cp⟩

theorem chomp_utf8_char_decodes_scalar_witness :
    IsScalar 0x10FFFF ∧
      (chomp_utf8_char ⟨0, utf8_encode 0x10FFFF ++ [0x5F]⟩ =
          .ok 0x10FFFF ⟨0 + (utf8_encode 0x10FFFF).length, [0x5F]⟩ ∧
        1 ≤ (utf8_encode 0x10FFFF).length ∧ (utf8_encode 0x10FFFF).length ≤ 4) :=
  ⟨⟨by omega, by omega⟩,
    chomp_utf8_char_decodes_scalar 0x10FFFF ⟨by omega, by omega⟩ 0 [0x5F]⟩

/-- C2: `parse_json` returns only on an input that is exactly one value of the JSON grammar
between optional whitespace; every other input makes it throw a `JsonParseError`: so do a
trailing comma in an array or in an object, a raw control byte in a string, a mismatched
and an unclosed bracket, a missing comma, a missing colon, and a byte that is not
whitespace after the root value. -/
theorem parse_json_true_only_for_json_text :
    (∀ (p : JsonParserImpl) (input : Bytes) (b : Bool) (s : ParseState),
      parse_json p input = .ok b s →
        b = true ∧ ∃ t : JsonText, t.Shaped ∧ t.render = input) ∧
    (∀ (p : JsonParserImpl) (input : Bytes),
      (¬ ∃ t : JsonText, t.Shaped ∧ t.render = input) →
        ∃ what s, parse_json p input = .throw ⟨.JsonParseError, what⟩ s) ∧
    (∃ s, parse_json (JsonParser 0) [0x5B, 0x31, 0x2C, 0x5D] =
      .throw ⟨.JsonParseError, "Invalid: value expected (offset=3)"⟩ s) ∧
    (∃ s, parse_json (JsonParser 0) [0x7B, 0x22, 0x61, 0x22, 0x3A, 0x31, 0x2C, 0x7D] =
      .throw ⟨.JsonParseError, "Invalid: object key string expected (offset=7)"⟩ s) ∧
    (∃ s, parse_json (JsonParser 0) [0x22, 0x01, 0x22] =
      .throw ⟨.JsonParseError,
        "Invalid: control characters must be escaped as \\uxxxx (offset=1)"⟩ s) ∧
    (∃ s, parse_json (JsonParser 0) [0x5B, 0x31, 0x7D] =
      .throw ⟨.JsonParseError, "Invalid: end of array or comma expected (offset=2)"⟩ s) ∧
    (∃ s, parse_json (JsonParser 0) [0x5B, 0x31, 0x20, 0x32, 0x5D] =
      .throw ⟨.JsonParseError, "Invalid: end of array or comma expected (offset=3)"⟩ s) ∧
    (∃ s, parse_json (JsonParser 0) [0x7B, 0x22, 0x61, 0x22, 0x20, 0x31, 0x7D] =
      .throw ⟨.JsonParseError, "Invalid: object member colon expected (offset=5)"⟩ s) ∧
    (∃ s, parse_json (JsonParser 0) [0x31, 0x20, 0x78] =
      .throw ⟨.JsonParseError, "Invalid: extra data present after JSON (offset=2)"⟩ s) := by
  refine ⟨?_, ?_, ?_, ?_, ?_, ?_, ?_, ?_, ?_⟩
  · intro p input b s h
    rcases parse_json_outcome p input with ⟨s1, h1, he⟩ | ⟨inner, s1, h1, -⟩
    · exact ⟨(parse_json_ok_true p input b s h).1, he⟩
    · rw [h1] at h
      cases h
  · intro p input hn
    rcases parse_json_outcome p input with ⟨s1, h1, he⟩ | ⟨inner, s1, h1, -⟩
    · exact absurd he hn
    · exact ⟨_, s1, h1⟩
  · exact ⟨(⟨[value_frame, array_frame 0],
      [.on_array_start 0, .on_primitive_value .Number 1 1], 0⟩, ⟨3, [0x5D]⟩), by decide⟩
  · exact ⟨(⟨[object_frame 0],
      [.on_object_start 0, .on_object_key 2 1, .on_primitive_value .Number 5 1], 0⟩,
      ⟨7, [0x7D]⟩), by decide⟩
  · exact ⟨(⟨[value_frame], [], 0⟩, ⟨1, [0x01, 0x22]⟩), by decide⟩
  · exact ⟨(⟨[array_frame 0], [.on_array_start 0, .on_primitive_value .Number 1 1], 0⟩,
      ⟨2, [0x7D]⟩), by decide⟩
  · exact ⟨(⟨[array_frame 0], [.on_array_start 0, .on_primitive_value .Number 1 1], 0⟩,
      ⟨3, [0x32, 0x5D]⟩), by decide⟩
  · exact ⟨(⟨[State.mk .parse_value .parse_object .initial .initial 0],
      [.on_object_start 0, .on_object_key 2 1], 0⟩, ⟨5, [0x31, 0x7D]⟩), by decide⟩
  · exact ⟨(⟨[], [.on_primitive_value .Number 0 1], 0⟩, ⟨2, [0x78]⟩), by decide⟩

/-- C5: for every input and every depth limit a call of `parse_json` ends; when it does
not return it throws a `JsonParseError` and no other kind of error, and the message ends
with the offset of the position reached at the throw, which lies within the input.  The
errors `Utf8DecodeError` and `UnicodeCodePointError` of the lexers leave as
`JsonParseError`, as for a byte 0xFF in a string and for the lone escape `\uDC00`. -/
theorem parse_json_fails_with_offset :
    (∀ (p : JsonParserImpl) (input : Bytes),
      (∃ s, parse_json p input = .ok true s) ∨
      ∃ inner s, parse_json p input =
          .throw ⟨.JsonParseError, inner ++ " (offset=" ++ toString s.2.pos ++ ")"⟩ s ∧
        s.2.pos ≤ input.length ∧ ∃ pre, input = pre ++ s.2.rest ∧ pre.length = s.2.pos) ∧
    (∃ s, parse_json (JsonParser 3) [0x5B, 0x22, 0xFF, 0x22, 0x5D] =
      .throw ⟨.JsonParseError, "Invalid: leading utf-8 byte invalid (offset=2)"⟩ s) ∧
    (∃ s, parse_json (JsonParser 0) [0x22, 0x5C, 0x75, 0x44, 0x43, 0x30, 0x30, 0x22] =
      .throw ⟨.JsonParseError,
        "Invalid: low surrogate code point not preceded by high (offset=7)"⟩ s) := by
  refine ⟨?_, ?_, ?_⟩
  · intro p input
    rcases parse_json_outcome p input with ⟨s1, h1, -⟩ | ⟨inner, s1, h1, t, g1, g2⟩
    · exact Or.inl ⟨s1, h1⟩
    · simp only [Nat.zero_add] at g1 g2
      refine Or.inr ⟨inner, s1, h1, ?_, t, g1, g2.symm⟩
      rw [g1, g2, List.length_append]
      omega
  · exact ⟨(⟨[value_frame, array_frame 0], [.on_array_start 0], 3⟩,
      ⟨2, [0xFF, 0x22, 0x5D]⟩), by decide⟩
  · exact ⟨(⟨[value_frame], [], 0⟩, ⟨7, [0x22]⟩), by decide⟩

theorem step_back_up_root (root n : Node) (ov : List OverFlowType) (path : Bytes)
    (inv : List Invocation) :
    JsonCallbackVisitorImpl.step_back_up ⟨root, [n], ov, path, inv⟩ =
      some ⟨root, [n], ov, path, inv⟩ := rfl

/-- The events of a text, fed to the dispatcher after registrations, make the invocations
expected for the text and leave the dispatcher as it was. -/
theorem feed_events_registered (t : JsonText) (regs : List (JsonValuePath × Nat)) :
    (registered regs).feed t.render (t.value.events t.ws1.length) =
      some { registered regs with invoked := t.value.invocations regs [] t.ws1.length } := by
  obtain ⟨root, hr, ht, hk, hc⟩ := registered_spec regs
  have hd := value_dispatched regs t.render t.value t.ws1.length root root [] [] []
    (by rw [ht]; decide) (fun rel => by simpa using hc rel) hk (Or.inl rfl)
    ⟨t.ws1, t.ws2, rfl, rfl⟩
  rw [hr]
  simp only [dispatcher_path, List.nil_append, step_back_up_root] at hd
  exact hd

theorem fanout_text_valid : fanout_text.Valid := by
  have habc : IsStringContent [0x61, 0x62, 0x63] :=
    ⟨[.char 0x61, .char 0x62, .char 0x63], by simp [StringItem.Valid, IsScalar], by decide⟩
  have hefg : IsStringContent [0x65, 0x66, 0x67] :=
    ⟨[.char 0x65, .char 0x66, .char 0x67], by simp [StringItem.Valid, IsScalar], by decide⟩
  have hnum : ∀ d, 0x31 ≤ d → d ≤ 0x39 → IsNumber [d] := fun d h1 h2 =>
    ⟨[], [d], [], [], rfl, Or.inl rfl, Or.inr ⟨d, [], rfl, h1, h2, by intro x hx; cases hx⟩,
      Or.inl rfl, Or.inl rfl⟩
  refine ⟨isWhitespace_nil, ?_, isWhitespace_nil⟩
  simp only [fanout_text, JsonValue.Valid, JsonMembers.Valid, JsonElements.Valid, IsPrimitive,
    and_true]
  exact ⟨isWhitespace_nil, habc, isWhitespace_nil, isWhitespace_nil, hnum _ (by omega) (by omega),
    isWhitespace_nil, isWhitespace_nil, habc, isWhitespace_nil, isWhitespace_nil,
    ⟨isWhitespace_nil, hefg, isWhitespace_nil, isWhitespace_nil, hnum _ (by omega) (by omega),
      isWhitespace_nil⟩,
    isWhitespace_nil, isWhitespace_nil, habc, isWhitespace_nil, isWhitespace_nil,
    ⟨isWhitespace_nil, hnum _ (by omega) (by omega), isWhitespace_nil, isWhitespace_nil,
      isWhitespace_nil, isWhitespace_nil⟩,
    isWhitespace_nil⟩

/-- The invocations expected for the example: innermost first, each occurrence of the
repeated key on its own, nothing for a location that is not registered. -/
theorem fanout_invocations :
    fanout_text.value.invocations fanout_registrations [] 0 =
      [⟨2, .Number, [0x2E, 0x61, 0x62, 0x63], 7, 1⟩,
        ⟨3, .Number, [0x2E, 0x61, 0x62, 0x63, 0x2E, 0x65, 0x66, 0x67], 22, 1⟩,
        ⟨2, .Object, [0x2E, 0x61, 0x62, 0x63], 15, 9⟩,
        ⟨4, .Number, [0x2E, 0x61, 0x62, 0x63, 0x5B, 0x5D], 32, 1⟩,
        ⟨4, .Object, [0x2E, 0x61, 0x62, 0x63, 0x5B, 0x5D], 34, 2⟩,
        ⟨2, .Array, [0x2E, 0x61, 0x62, 0x63], 31, 6⟩,
        ⟨1, .Object, [0x2E], 0, 38⟩] := by
  decide

/-- C3: for every valid JSON text and every list of registrations made on a fresh
dispatcher, the parse succeeds and the events it delivers, taken by the dispatcher in
their order, make exactly the invocations of the reference: the values in post-order, and
for each value the callbacks registered for the paths whose segment sequence equals its
location, once each in registration order, with the type and the byte span of the value
(and the text of the location as path); the dispatcher is then back at its root. -/
theorem dispatcher_invocations_eq_reference (t : JsonText) (ht : t.Valid)
    (regs : List (JsonValuePath × Nat)) :
    ∃ s, parse_json (JsonParser 0) t.render = .ok true s ∧
      (registered regs).feed t.render s.1.visitor_ =
        some { registered regs with invoked := t.value.invocations regs [] t.ws1.length } := by
  refine ⟨_, parse_json_valid t ht (JsonParser 0) (Or.inl rfl), ?_⟩
  simp only [JsonParser, List.nil_append]
  exact feed_events_registered t regs

theorem dispatcher_invocations_eq_reference_witness :
    fanout_text.Valid ∧
      ∃ s, parse_json (JsonParser 0) fanout_text.render = .ok true s ∧
        (registered fanout_registrations).feed fanout_text.render s.1.visitor_ =
          some { registered fanout_registrations with
            invoked := fanout_text.value.invocations fanout_registrations []
              fanout_text.ws1.length } :=
  ⟨fanout_text_valid,
    dispatcher_invocations_eq_reference fanout_text fanout_text_valid fanout_registrations⟩

end flumps


namespace flumps

/-! ## The claims on the string helpers -/

/-- C12 (the code at the failing inputs): the overlong forms C0 80, E0 80 80 and
F0 80 80 80 are decoded to the code point 0, whose standard encoding is the single byte 00,
and `is_utf8` accepts C0 80. -/
theorem chomp_utf8_char_accepts_overlong :
    chomp_utf8_char ⟨0, [0xC0, 0x80]⟩ = .ok 0 ⟨2, []⟩ ∧
      chomp_utf8_char ⟨0, [0xE0, 0x80, 0x80]⟩ = .ok 0 ⟨3, []⟩ ∧
      chomp_utf8_char ⟨0, [0xF0, 0x80, 0x80, 0x80]⟩ = .ok 0 ⟨4, []⟩ ∧
      is_utf8 [0xC0, 0x80] = .ok true () ∧
      utf8_encode 0 = [0x00] := by
  decide

/-- C13: on content made of bytes other than the backslash, of the eight short escapes and
of `\u` escapes with four hexadecimal digits of code points that are not surrogates,
`json_string_content_to_utf8` returns the bytes copied unchanged, 22 5C 2F 08 0C 0A 0D 09
for the short escapes, and the UTF-8 encoding of each escaped code point; when such content
is followed by a backslash that starts no escape, it throws `JsonParseError`. -/
theorem json_string_content_to_utf8_reference (tokens : List ContentToken)
    (h : ∀ t ∈ tokens, t.WellFormed ∧ t.is_high = false ∧ t.is_low = false) :
    json_string_content_to_utf8 (render_tokens tokens) = .ok (decode_tokens tokens) () ∧
      ∀ tail, StartsNoEscape tail →
        ∃ what, json_string_content_to_utf8 (render_tokens tokens ++ 0x5C :: tail) =
          .throw ⟨.JsonParseError, what⟩ () :=
  ⟨json_string_content_to_utf8_tokens tokens h, fun tail htail =>
    json_string_content_to_utf8_no_escape tokens h tail
      (json_string_content_body_no_escape tail htail)⟩

theorem json_string_content_to_utf8_reference_witness :
    (∀ t ∈ [ContentToken.raw 0x01, .short 0x6E, .hex 0x30 0x30 0x34 0x31,
        .hex 0x30 0x30 0x45 0x39, .hex 0x30 0x30 0x65 0x39],
      t.WellFormed ∧ t.is_high = false ∧ t.is_low = false) ∧
    json_string_content_to_utf8
        [0x01, 0x5C, 0x6E, 0x5C, 0x75, 0x30, 0x30, 0x34, 0x31, 0x5C, 0x75, 0x30, 0x30, 0x45,
          0x39, 0x5C, 0x75, 0x30, 0x30, 0x65, 0x39] =
      .ok [0x01, 0x0A, 0x41, 0xC3, 0xA9, 0xC3, 0xA9] () ∧
    ∀ tail, StartsNoEscape tail →
      ∃ what, json_string_content_to_utf8
          ([0x01, 0x5C, 0x6E, 0x5C, 0x75, 0x30, 0x30, 0x34, 0x31, 0x5C, 0x75, 0x30, 0x30,
            0x45, 0x39, 0x5C, 0x75, 0x30, 0x30, 0x65, 0x39] ++ 0x5C :: tail) =
        .throw ⟨.JsonParseError, what⟩ () :=
  ⟨by decide,
    json_string_content_to_utf8_reference
      [.raw 0x01, .short 0x6E, .hex 0x30 0x30 0x34 0x31, .hex 0x30 0x30 0x45 0x39,
        .hex 0x30 0x30 0x65 0x39] (by decide)⟩

/-- C14 (the code at the failing input): the escapes of a high and a low surrogate decode to
the four-byte encoding of the scalar value of the pair, as the escapes of D800 and DC00 to
U+10000, unless that value is U+10FFFF: on the escapes of DBFF and DFFF the decoder throws
`UnicodeCodePointError`. -/
theorem json_string_content_to_utf8_last_scalar_throws :
    (∀ (a1 a2 a3 a4 l1 l2 l3 l4 : Nat), (ContentToken.hex a1 a2 a3 a4).WellFormed →
      (ContentToken.hex l1 l2 l3 l4).WellFormed →
      0xD800 ≤ hex4_value a1 a2 a3 a4 → hex4_value a1 a2 a3 a4 ≤ 0xDBFF →
      0xDC00 ≤ hex4_value l1 l2 l3 l4 → hex4_value l1 l2 l3 l4 ≤ 0xDFFF →
      json_string_content_to_utf8
          [0x5C, 0x75, a1, a2, a3, a4, 0x5C, 0x75, l1, l2, l3, l4] =
        if 0x10000 + (hex4_value a1 a2 a3 a4 - 0xD800) * 0x400 +
            (hex4_value l1 l2 l3 l4 - 0xDC00) < 0x10FFFF then
          .ok (utf8_encode (0x10000 + (hex4_value a1 a2 a3 a4 - 0xD800) * 0x400 +
            (hex4_value l1 l2 l3 l4 - 0xDC00))) ()
        else
          .throw (too_large (0x10000 + (hex4_value a1 a2 a3 a4 - 0xD800) * 0x400 +
            (hex4_value l1 l2 l3 l4 - 0xDC00))) ()) ∧
    json_string_content_to_utf8
        [0x5C, 0x75, 0x44, 0x38, 0x30, 0x30, 0x5C, 0x75, 0x44, 0x43, 0x30, 0x30] =
      .ok [0xF0, 0x90, 0x80, 0x80] () ∧
    json_string_content_to_utf8
        [0x5C, 0x75, 0x44, 0x42, 0x46, 0x46, 0x5C, 0x75, 0x44, 0x46, 0x46, 0x46] =
      .throw ⟨.UnicodeCodePointError, "Invalid Unicode code point - too large (1114111)"⟩ () ∧
    utf8_encode 0x10FFFF = [0xF4, 0x8F, 0xBF, 0xBF] :=
  ⟨fun a1 a2 a3 a4 l1 l2 l3 l4 ha hl hh1 hh2 hl1 hl2 =>
    json_string_content_to_utf8_pair a1 a2 a3 a4 l1 l2 l3 l4 ha hl hh1 hh2 hl1 hl2,
    by decide, by decide, by decide⟩

/-- C15: `json_string_content_to_utf8` throws on the escape of D800 alone; after well-formed
tokens it throws when the escape of a high surrogate is followed by anything that does not
start with the escape of a low surrogate (a raw byte, a short escape, another escape, the
end), and when the escape of a low surrogate comes first or follows a token that is not the
escape of a high surrogate. -/
theorem json_string_content_to_utf8_rejects_unpaired (tokens : List ContentToken)
    (h : ∀ t ∈ tokens, t.WellFormed) :
    (∃ e, json_string_content_to_utf8 [0x5C, 0x75, 0x44, 0x38, 0x30, 0x30] = .throw e ()) ∧
    (∀ (high : ContentToken) (rest : Bytes), high.WellFormed → high.is_high = true →
      ¬ StartsWithLow rest →
        ∃ e, json_string_content_to_utf8 (render_tokens tokens ++ (high.render ++ rest)) =
          .throw e ()) ∧
    ∀ (low : ContentToken) (rest : Bytes), low.WellFormed → low.is_low = true →
      ends_high tokens = false →
        ∃ e, json_string_content_to_utf8 (render_tokens tokens ++ (low.render ++ rest)) =
          .throw e () :=
  ⟨⟨⟨.UnicodeCodePointError, "Invalid: high surrogate code point not followed by low"⟩,
      by decide⟩,
    fun high rest hw hh hrest =>
      json_string_content_to_utf8_after_high tokens h high hw hh rest hrest,
    fun low rest hw hl hends =>
      json_string_content_to_utf8_lone_low tokens h hends low hw hl rest⟩

theorem json_string_content_to_utf8_rejects_unpaired_witness :
    (∀ t ∈ [ContentToken.raw 0x61, .hex 0x44 0x38 0x30 0x30, .hex 0x44 0x43 0x30 0x30],
      t.WellFormed) ∧
    (∃ e, json_string_content_to_utf8 [0x5C, 0x75, 0x44, 0x38, 0x30, 0x30] = .throw e ()) ∧
    (∀ (high : ContentToken) (rest : Bytes), high.WellFormed → high.is_high = true →
      ¬ StartsWithLow rest →
        ∃ e, json_string_content_to_utf8
            (render_tokens [.raw 0x61, .hex 0x44 0x38 0x30 0x30, .hex 0x44 0x43 0x30 0x30] ++
              (high.render ++ rest)) =
          .throw e ()) ∧
    ∀ (low : ContentToken) (rest : Bytes), low.WellFormed → low.is_low = true →
      ends_high [.raw 0x61, .hex 0x44 0x38 0x30 0x30, .hex 0x44 0x43 0x30 0x30] = false →
        ∃ e, json_string_content_to_utf8
            (render_tokens [.raw 0x61, .hex 0x44 0x38 0x30 0x30, .hex 0x44 0x43 0x30 0x30] ++
              (low.render ++ rest)) =
          .throw e () :=
  ⟨by decide,
    json_string_content_to_utf8_rejects_unpaired
      [.raw 0x61, .hex 0x44 0x38 0x30 0x30, .hex 0x44 0x43 0x30 0x30] (by decide)⟩

/-- C16 (the code at the failing inputs): `parse_json` accepts the text made of a quote, the
escapes of DBFF and DFFF and a quote as one String, and `json_string_content_to_utf8` throws
on its content; the same holds for the escape of D800, the letter `a` and the escape of
DC00. -/
theorem validated_content_decode_throws :
    parse_json (JsonParser 0)
        [0x22, 0x5C, 0x75, 0x44, 0x42, 0x46, 0x46, 0x5C, 0x75, 0x44, 0x46, 0x46, 0x46, 0x22] =
      .ok true (⟨[], [.on_primitive_value .String 1 12], 0⟩, ⟨14, []⟩) ∧
    json_string_content_to_utf8
        [0x5C, 0x75, 0x44, 0x42, 0x46, 0x46, 0x5C, 0x75, 0x44, 0x46, 0x46, 0x46] =
      .throw ⟨.UnicodeCodePointError, "Invalid Unicode code point - too large (1114111)"⟩ () ∧
    parse_json (JsonParser 0)
        [0x22, 0x5C, 0x75, 0x44, 0x38, 0x30, 0x30, 0x61, 0x5C, 0x75, 0x44, 0x43, 0x30, 0x30,
          0x22] =
      .ok true (⟨[], [.on_primitive_value .String 1 13], 0⟩, ⟨15, []⟩) ∧
    json_string_content_to_utf8
        [0x5C, 0x75, 0x44, 0x38, 0x30, 0x30, 0x61, 0x5C, 0x75, 0x44, 0x43, 0x30, 0x30] =
      .throw ⟨.UnicodeCodePointError,
        "Invalid: high surrogate code point not followed by low"⟩ () := by
  decide

/-- C17 (the code at the failing inputs): the bytes 7F and 1F validate as UTF-8 and are
written with the hexadecimal digits 0044 and 0004 after the backslash and `u`, where the
reference encoder writes 007F and 001F. -/
theorem utf8_to_json_string_content_wrong_digits :
    is_utf8 [0x7F] = .ok true () ∧
      utf8_to_json_string_content [0x7F] = .ok [0x5C, 0x75, 0x30, 0x30, 0x34, 0x34] () ∧
      is_utf8 [0x1F] = .ok true () ∧
      utf8_to_json_string_content [0x1F] = .ok [0x5C, 0x75, 0x30, 0x30, 0x30, 0x34] () := by
  decide

/-- C18: `utf8_to_json_string_content` throws exactly when `is_utf8` returns `false`, and
returns exactly when `is_utf8` returns `true`; `is_utf8` always returns one of the two. -/
theorem utf8_to_json_string_content_fails_iff_not_utf8 (s : Bytes) :
    ((∃ e, utf8_to_json_string_content s = .throw e ()) ↔ is_utf8 s = .ok false ()) ∧
    ((∃ out, utf8_to_json_string_content s = .ok out ()) ↔ is_utf8 s = .ok true ()) ∧
    (is_utf8 s = .ok true () ∨ is_utf8 s = .ok false ()) := by
  rcases utf8_to_json_string_content_total s with ⟨h1, out, h2, -⟩ | ⟨h1, e, h2, -⟩
  · refine ⟨?_, ?_, Or.inl h1⟩
    · rw [h1, h2]
      simp
    · rw [h1, h2]
      simp
  · refine ⟨?_, ?_, Or.inr h1⟩
    · rw [h1, h2]
      simp
    · rw [h1, h2]
      simp

/-- C19: on every string of bytes `to_json_string_content_safe` returns, and the text made
of a quote, its result and a quote is accepted by `parse_json` as one `String` primitive
whose span, from offset 1 on the length of the result, is the result. -/
theorem to_json_string_content_safe_gives_string (s : Bytes) (hs : IsByteString s) :
    ∃ out, to_json_string_content_safe s = .ok out () ∧
      parse_json (JsonParser 0) (0x22 :: (out ++ [0x22])) =
        .ok true (⟨[], [.on_primitive_value .String 1 out.length], 0⟩,
          ⟨out.length + 2, []⟩) := by
  rcases utf8_to_json_string_content_total s with ⟨h1, out, h2, h3⟩ | ⟨h1, -⟩
  · refine ⟨out, ?_, parse_json_string_text out h3 0⟩
    simp only [to_json_string_content_safe, h1, Res.bind_ok, if_true, h2]
  · have hf := is_utf8_force_to_utf8 s hs
    rcases utf8_to_json_string_content_total (force_to_utf8 s) with
      ⟨-, out, h2, h3⟩ | ⟨h4, -⟩
    · refine ⟨out, ?_, parse_json_string_text out h3 0⟩
      simp only [to_json_string_content_safe, h1, Res.bind_ok, Bool.false_eq_true, if_false, h2]
    · rw [hf] at h4
      cases h4

theorem to_json_string_content_safe_gives_string_witness :
    IsByteString [0xFF, 0x01, 0x22] ∧
    ∃ out, to_json_string_content_safe [0xFF, 0x01, 0x22] = .ok out () ∧
      parse_json (JsonParser 0) (0x22 :: (out ++ [0x22])) =
        .ok true (⟨[], [.on_primitive_value .String 1 out.length], 0⟩,
          ⟨out.length + 2, []⟩) :=
  ⟨by simp [IsByteString],
    to_json_string_content_safe_gives_string [0xFF, 0x01, 0x22] (by simp [IsByteString])⟩

/-- C20: on a tracker that awaits no low surrogate, `check_code_point` on a scalar value
returns `true` and leaves that value in `last_code_point`; on a high surrogate `h` it
returns `false` and sets `surrogate_low_needed`, after which the call on a low surrogate `l`
returns `true`, clears `surrogate_low_needed` and leaves
`0x10000 + (h - 0xD800) * 0x400 + (l - 0xDC00)` in `last_code_point`. -/
theorem check_code_point_tracks_pairs (t : utf8_surrogate_checker)
    (ht : t.surrogate_low_needed = false) :
    (∀ cp, IsScalar cp → t.check_code_point cp = .ok (true, ⟨cp, false⟩)) ∧
    ∀ h l, 0xD800 ≤ h → h ≤ 0xDBFF → 0xDC00 ≤ l → l ≤ 0xDFFF →
      ∃ t1, t.check_code_point h = .ok (false, t1) ∧ t1.surrogate_low_needed = true ∧
        t1.check_code_point l =
          .ok (true, ⟨0x10000 + (h - 0xD800) * 0x400 + (l - 0xDC00), false⟩) := by
  refine ⟨fun cp hcp => check_code_point_non_surrogate t cp ht hcp,
    fun h l h1 h2 h3 h4 => ⟨⟨h, true⟩, check_code_point_high t h ht h1 h2, rfl, ?_⟩⟩
  rw [check_code_point_low h l h1 h2 h3 h4, surrogate_pair_value h l h1 h2 h3 h4]

theorem check_code_point_tracks_pairs_witness :
    (({} : utf8_surrogate_checker).surrogate_low_needed = false) ∧
    (∀ cp, IsScalar cp →
      ({} : utf8_surrogate_checker).check_code_point cp = .ok (true, ⟨cp, false⟩)) ∧
    ∀ h l, 0xD800 ≤ h → h ≤ 0xDBFF → 0xDC00 ≤ l → l ≤ 0xDFFF →
      ∃ t1, ({} : utf8_surrogate_checker).check_code_point h = .ok (false, t1) ∧
        t1.surrogate_low_needed = true ∧
        t1.check_code_point l =
          .ok (true, ⟨0x10000 + (h - 0xD800) * 0x400 + (l - 0xDC00), false⟩) :=
  ⟨rfl, check_code_point_tracks_pairs {} rfl⟩

end flumps


namespace flumps

/-! ## The tracker, the value paths and the filter -/

/-- C21: on every tracker reached from a fresh one by calls of `check_code_point`, the call
`check_code_point(cp)` fails if and only if `cp > 0x10FFFF`, or `cp` is a low surrogate
while no low surrogate is awaited, or a low surrogate is awaited and `cp` is not a low
surrogate (the call without an argument is the call with 0, which is not a surrogate);
every failure is a `UnicodeCodePointError` and leaves `last_code_point` and
`surrogate_low_needed` as they were, and a call that does not fail returns; the outcome is
that of the function `check_code_point` that the lexers call. -/
theorem check_code_point_fails_iff (t : utf8_surrogate_checker) (ht : t.Reachable)
    (cp : Nat) :
    ((∃ e t1, t.check_code_point_run cp = .throw e t1) ↔
      (cp > 0x10FFFF ∨ (is_low_surrogate cp = true ∧ t.surrogate_low_needed = false) ∨
        (t.surrogate_low_needed = true ∧ is_low_surrogate cp = false))) ∧
    (∀ e t1, t.check_code_point_run cp = .throw e t1 →
      e.kind = .UnicodeCodePointError ∧ t1 = t) ∧
    ((∃ e t1, t.check_code_point_run cp = .throw e t1) ∨
      ∃ complete t1, t.check_code_point_run cp = .ok complete t1) ∧
    is_low_surrogate 0 = false ∧
    t.check_code_point cp =
      (match t.check_code_point_run cp with
        | .ok complete t1 => .ok (complete, t1)
        | .throw e _ => .error e
        | .fuel => .error (too_large cp)) := by
  have hinv := reachable_holds_high t ht
  refine ⟨⟨?_, ?_⟩, ?_, ?_, by decide, check_code_point_run_agrees t cp⟩
  · rintro ⟨e, t1, h⟩
    rcases check_code_point_run_outcome t hinv cp with
      ⟨h1, -⟩ | ⟨-, h1, h2, -⟩ | ⟨-, h1, h2, -⟩ | ⟨-, -, complete, t2, h3⟩
    · exact Or.inl h1
    · exact Or.inr (Or.inl ⟨h1, h2⟩)
    · exact Or.inr (Or.inr ⟨h2, h1⟩)
    · rw [h3] at h
      cases h
  · intro h
    rcases check_code_point_run_outcome t hinv cp with
      ⟨-, h1⟩ | ⟨-, -, -, h1⟩ | ⟨-, -, -, what, h1⟩ | ⟨g1, g2, -⟩
    · exact ⟨_, _, h1⟩
    · exact ⟨_, _, h1⟩
    · exact ⟨_, _, h1⟩
    · rcases h with h | ⟨h1, h2⟩ | ⟨h1, h2⟩
      · omega
      · rw [h1, h2] at g2
        cases g2
      · rw [h1, h2] at g2
        cases g2
  · intro e t1 h
    rcases check_code_point_run_outcome t hinv cp with
      ⟨-, h1⟩ | ⟨-, -, -, h1⟩ | ⟨-, -, -, what, h1⟩ | ⟨-, -, complete, t2, h1⟩
    all_goals rw [h1] at h
    · simp only [Res.throw.injEq] at h
      exact ⟨by rw [← h.1]; rfl, h.2.symm⟩
    · simp only [Res.throw.injEq] at h
      exact ⟨by rw [← h.1], h.2.symm⟩
    · simp only [Res.throw.injEq] at h
      exact ⟨by rw [← h.1], h.2.symm⟩
    · cases h
  · rcases check_code_point_run_outcome t hinv cp with
      ⟨-, h1⟩ | ⟨-, -, -, h1⟩ | ⟨-, -, -, what, h1⟩ | ⟨-, -, complete, t2, h1⟩
    · exact Or.inl ⟨_, _, h1⟩
    · exact Or.inl ⟨_, _, h1⟩
    · exact Or.inl ⟨_, _, h1⟩
    · exact Or.inr ⟨_, _, h1⟩

theorem check_code_point_fails_iff_witness :
    (utf8_surrogate_checker.mk 0xD83D true).Reachable ∧
    (((∃ e t1, (utf8_surrogate_checker.mk 0xD83D true).check_code_point_run 0x41 =
        .throw e t1) ↔
      (0x41 > 0x10FFFF ∨
        (is_low_surrogate 0x41 = true ∧
          (utf8_surrogate_checker.mk 0xD83D true).surrogate_low_needed = false) ∨
        ((utf8_surrogate_checker.mk 0xD83D true).surrogate_low_needed = true ∧
          is_low_surrogate 0x41 = false))) ∧
    (∀ e t1, (utf8_surrogate_checker.mk 0xD83D true).check_code_point_run 0x41 = .throw e t1 →
      e.kind = .UnicodeCodePointError ∧ t1 = utf8_surrogate_checker.mk 0xD83D true) ∧
    ((∃ e t1, (utf8_surrogate_checker.mk 0xD83D true).check_code_point_run 0x41 =
        .throw e t1) ∨
      ∃ complete t1, (utf8_surrogate_checker.mk 0xD83D true).check_code_point_run 0x41 =
        .ok complete t1) ∧
    is_low_surrogate 0 = false ∧
    (utf8_surrogate_checker.mk 0xD83D true).check_code_point 0x41 =
      (match (utf8_surrogate_checker.mk 0xD83D true).check_code_point_run 0x41 with
        | .ok complete t1 => .ok (complete, t1)
        | .throw e _ => .error e
        | .fuel => .error (too_large 0x41))) :=
  ⟨utf8_surrogate_checker.Reachable.call {} 0xD83D false _ utf8_surrogate_checker.Reachable.fresh
      (by decide),
    check_code_point_fails_iff _
      (utf8_surrogate_checker.Reachable.call {} 0xD83D false _
        utf8_surrogate_checker.Reachable.fresh (by decide)) 0x41⟩

/-- C22: the constructor `JsonValuePath(text)` succeeds if and only if `text` is empty or
is the text of a sequence of written steps: `.` for no step, otherwise a `.` followed by a
first step (a key or `[]`) and further steps (`.` and a key, or `[]`), a key being one or
more bytes in 0x21-0x7E other than the backslash, the quote, `[` and `.`; on success
`segments()` is the list of the steps in order, with an empty key for an array step and
the key for a member step; the empty text and `.` both give the default path; on every
other text the constructor fails with `JsonValuePathError`. -/
theorem json_value_path_of_string_iff :
    (∀ text : Bytes, (∃ p, JsonValuePath.of_string text = .ok p) ↔
      (text = [] ∨ ∃ steps : List LocationStep, (∀ s ∈ steps, s.Written) ∧
        text = location_path steps)) ∧
    (∀ steps : List LocationStep, (∀ s ∈ steps, s.Written) →
      ∃ p, JsonValuePath.of_string (location_path steps) = .ok p ∧
        p.segments = steps.map LocationStep.segment) ∧
    JsonValuePath.of_string [] = .ok JsonValuePath.root ∧
    JsonValuePath.of_string [0x2E] = .ok JsonValuePath.root ∧
    JsonValuePath.root.segments = [] ∧
    (∀ text : Bytes, (∃ p, JsonValuePath.of_string text = .ok p) ∨
      ∃ e : JsonValuePathError, JsonValuePath.of_string text = .error e) ∧
    (∀ key : Bytes, (LocationStep.member key).Written ↔
      (key ≠ [] ∧ ∀ b ∈ key, 0x21 ≤ b ∧ b ≤ 0x7E ∧ b ≠ 0x5C ∧ b ≠ 0x22 ∧ b ≠ 0x5B ∧ b ≠ 0x2E)) ∧
    JsonValuePath.of_string [0x2E, 0x61, 0x5B, 0x5D, 0x2E, 0x62] =
      .ok ⟨[⟨[0x61]⟩, ⟨[]⟩, ⟨[0x62]⟩]⟩ ∧
    JsonValuePath.of_string [0x2E, 0x2E] = .error ⟨"'Start of array or key expected"⟩ ∧
    JsonValuePath.of_string [0x61] = .error ⟨"First char must be '.'"⟩ := by
  refine ⟨?_, ?_, rfl, rfl, rfl, ?_, ?_, rfl, rfl, rfl⟩
  · intro text
    constructor
    · rintro ⟨p, h⟩
      rcases of_string_ok text p h with ⟨h1, -⟩ | ⟨steps, h1, h2, -⟩
      · exact Or.inl h1
      · exact Or.inr ⟨steps, h1, h2⟩
    · rintro (rfl | ⟨steps, h1, rfl⟩)
      · exact ⟨_, rfl⟩
      · exact ⟨_, of_string_location_path steps h1⟩
  · intro steps h
    exact ⟨_, of_string_location_path steps h, rfl⟩
  · intro text
    cases h : JsonValuePath.of_string text with
    | ok p => exact Or.inl ⟨p, rfl⟩
    | error e => exact Or.inr ⟨e, rfl⟩
  · intro key
    exact Iff.rfl

/-- C28: the filter action registers, one after the other on a fresh dispatcher, the
substrings of the filter string between its `|` bytes: a string with k such bytes has k+1
of them, none holds a `|`, and joined by `|` they give the string back; each is parsed on
its own by the constructor of `JsonValuePath`, an empty one giving the root path; when all
are value paths they are all registered in order, and when one is not the action ends with
the return code 10 of the JSON-path error. -/
theorem filter_action_registers_substrings :
    (∀ filter_str : Bytes,
      filter_action filter_str = register_paths JsonCallbackVisitor (split_pipe filter_str) ∧
      (split_pipe filter_str).length = filter_str.count 0x7C + 1 ∧
      (∀ piece ∈ split_pipe filter_str, 0x7C ∉ piece) ∧
      [0x7C].intercalate (split_pipe filter_str) = filter_str) ∧
    (∀ (texts : List Bytes) (ps : List JsonValuePath) (v : JsonCallbackVisitorImpl),
      List.Forall₂ (fun text p => JsonValuePath.of_string text = .ok p) texts ps →
        register_paths v texts =
          .ok (ps.foldl (fun w p => w.register_callback p print_value) v)) ∧
    (∀ (texts : List Bytes) (v : JsonCallbackVisitorImpl),
      (∃ text ∈ texts, ∃ e, JsonValuePath.of_string text = .error e) →
        register_paths v texts = .error RET_json_path_error) ∧
    RET_json_path_error = 10 ∧
    JsonValuePath.of_string [] = .ok JsonValuePath.root ∧
    split_pipe [] = [[]] ∧
    split_pipe [0x2E, 0x61, 0x7C, 0x7C, 0x2E, 0x62] = [[0x2E, 0x61], [], [0x2E, 0x62]] ∧
    filter_action [0x2E, 0x61, 0x7C, 0x62, 0x7C, 0x2E, 0x63] = .error 10 :=
  ⟨fun s => ⟨filter_action_split s, split_pipe_length s, split_pipe_no_pipe s,
      split_pipe_join s⟩,
    register_paths_ok, register_paths_error, rfl, rfl, rfl, by decide, rfl⟩

/-- C29: on four hexadecimal digits (0-9, a-f, A-F in any mix) followed by anything,
`json_hex_seq_to_code_point` returns `d0*4096 + d1*256 + d2*16 + d3` for their digit
values and leaves the position four bytes further; it fails with `JsonParseError` when
fewer than four bytes remain and when one of the first four bytes is not a hexadecimal
digit; on `09aF` it returns 0x09AF. -/
theorem json_hex_seq_to_code_point_value :
    (∀ (d0 d1 d2 d3 : Nat) (r : Bytes) (p : Nat),
      IsHexDigit d0 → IsHexDigit d1 → IsHexDigit d2 → IsHexDigit d3 →
        json_hex_seq_to_code_point ⟨p, d0 :: d1 :: d2 :: d3 :: r⟩ =
          .ok (hex_digit_value d0 * 4096 + hex_digit_value d1 * 256 + hex_digit_value d2 * 16 +
            hex_digit_value d3) ⟨p + 4, r⟩) ∧
    (∀ c : Cursor, c.rest.length < 4 →
      ∃ what c1, json_hex_seq_to_code_point c = .throw ⟨.JsonParseError, what⟩ c1) ∧
    (∀ (d0 d1 d2 d3 : Nat) (r : Bytes) (p : Nat),
      ¬ (IsHexDigit d0 ∧ IsHexDigit d1 ∧ IsHexDigit d2 ∧ IsHexDigit d3) →
        ∃ what c1, json_hex_seq_to_code_point ⟨p, d0 :: d1 :: d2 :: d3 :: r⟩ =
          .throw ⟨.JsonParseError, what⟩ c1) ∧
    json_hex_seq_to_code_point ⟨0, [0x30, 0x39, 0x61, 0x46]⟩ = .ok 0x09AF ⟨4, []⟩ ∧
    hex_digit_value 0x46 = 15 ∧ hex_digit_value 0x61 = 10 ∧ hex_digit_value 0x39 = 9 := by
  refine ⟨?_, ?_, ?_, by decide, by decide, by decide, by decide⟩
  · intro d0 d1 d2 d3 r p h0 h1 h2 h3
    rw [json_hex_seq_to_code_point_hex4 d0 d1 d2 d3 r p ((is_hex_iff _).2 h0)
      ((is_hex_iff _).2 h1) ((is_hex_iff _).2 h2) ((is_hex_iff _).2 h3)]
    simp only [hex4_value, hex_to_dec_value _ h0, hex_to_dec_value _ h1, hex_to_dec_value _ h2,
      hex_to_dec_value _ h3]
  · intro c hlen
    obtain ⟨p, rest⟩ := c
    rcases json_hex_seq_to_code_point_cases p rest with
      ⟨d1, d2, d3, d4, tail, h1, -, -⟩ | h
    · rw [h1] at hlen
      simp only [List.length_cons] at hlen
      omega
    · exact h
  · intro d0 d1 d2 d3 r p hn
    rcases json_hex_seq_to_code_point_cases p (d0 :: d1 :: d2 :: d3 :: r) with
      ⟨e1, e2, e3, e4, tail, h1, h2, -⟩ | h
    · simp only [List.cons.injEq] at h1
      obtain ⟨rfl, rfl, rfl, rfl, -⟩ := h1
      simp only [ContentToken.WellFormed] at h2
      exact absurd ⟨(is_hex_iff _).1 h2.1, (is_hex_iff _).1 h2.2.1, (is_hex_iff _).1 h2.2.2.1,
        (is_hex_iff _).1 h2.2.2.2⟩ hn
    · exact h

/-! ## The callbacks and the values they report -/

/-- C24 (counterexample): on the text `"abc"` with a callback registered for `.`, the
callback gets the 3 bytes at offset 1, the content between the quotes, and not the 5 bytes
of the input. -/
theorem root_string_span_is_content :
    ([0x22, 0x61, 0x62, 0x63, 0x22] : Bytes).length = 5 ∧
    ∃ s v, parse_json (JsonParser 0) [0x22, 0x61, 0x62, 0x63, 0x22] = .ok true s ∧
      (registered [(JsonValuePath.root, 1)]).feed [0x22, 0x61, 0x62, 0x63, 0x22]
        s.1.visitor_ = some v ∧
      v.invoked = [⟨1, .String, [0x2E], 1, 3⟩] :=
  ⟨rfl, (⟨[], [.on_primitive_value .String 1 3], 0⟩, ⟨5, []⟩), _, by decide,
    feed_events_registered ⟨[], .primitive .String [0x61, 0x62, 0x63], []⟩
      [(JsonValuePath.root, 1)], by decide⟩

/-- C24 (amended): with a callback registered once, for the path `.`, parsing a valid JSON
text invokes that callback exactly once, after every invocation made for a value below the
root, in the invocations made for the root value; these get the path `.`, the type of the
root value and its span, which is the input without the whitespace before and after the
value, except for a string, where it is the content between the quotes. -/
theorem root_callback_invoked_once (t : JsonText) (ht : t.Valid)
    (regs : List (JsonValuePath × Nat)) (cb : Nat)
    (hcb : regs.filter (fun r => r.2 = cb) = [(JsonValuePath.root, cb)]) :
    ∃ s v inner, parse_json (JsonParser 0) t.render = .ok true s ∧
      (registered regs).feed t.render s.1.visitor_ = some v ∧
      v.invoked = inner ++ (callbacks_for regs []).map (fun c =>
        ⟨c, t.value.type, [0x2E], (t.value.span t.ws1.length).1,
          (t.value.span t.ws1.length).2⟩) ∧
      (∀ i ∈ inner, i.callback ≠ cb) ∧
      (callbacks_for regs []).count cb = 1 ∧
      (t.value.type ≠ .String →
        t.value.span t.ws1.length = (t.ws1.length, t.value.render.length)) ∧
      (t.value.type = .String →
        t.value.span t.ws1.length = (t.ws1.length + 1, t.value.render.length - 2)) ∧
      t.render = t.ws1 ++ (t.value.render ++ t.ws2) ∧ IsWhitespace t.ws1 ∧
      IsWhitespace t.ws2 := by
  obtain ⟨inner, hsplit, hinner⟩ := value_invocations_split regs t.value [] t.ws1.length
  refine ⟨_, { registered regs with invoked := t.value.invocations regs [] t.ws1.length },
    inner, parse_json_valid t ht (JsonParser 0) (Or.inl rfl), ?_, ?_, ?_,
    callbacks_for_root_count regs cb hcb, ?_, ?_, rfl, ht.1, ht.2.2⟩
  · simp only [JsonParser, List.nil_append]
    exact feed_events_registered t regs
  · simp only
    rw [hsplit]
    rfl
  · intro i hi hcall
    obtain ⟨rel, hne, hmem⟩ := hinner i hi
    simp only [callbacks_for, List.nil_append, List.mem_map, List.mem_filter] at hmem
    obtain ⟨r, ⟨hr1, hr2⟩, hr3⟩ := hmem
    have hr : r ∈ regs.filter (fun r => r.2 = cb) := by
      simp only [List.mem_filter, decide_eq_true_eq]
      exact ⟨hr1, by rw [hr3, hcall]⟩
    rw [hcb, List.mem_singleton] at hr
    rw [hr] at hr2
    cases rel with
    | nil => exact hne rfl
    | cons x rel => simp [JsonValuePath.root, JsonValuePath.segments, path_matches] at hr2
  · intro hty
    cases hv : t.value with
    | primitive type text =>
      rw [hv] at hty
      simp [JsonValue.span, JsonValue.render, primitive_text, JsonValue.type] at hty ⊢
      simp [hty]
    | empty_array ws => rfl
    | array ws1 v ws2 more => rfl
    | empty_object ws => rfl
    | object ws1 key ws2 ws3 v ws4 more => rfl
  · intro hty
    cases hv : t.value with
    | primitive type text =>
      rw [hv] at hty
      simp only [JsonValue.type] at hty
      subst hty
      simp [JsonValue.span, JsonValue.render, primitive_text]
    | empty_array ws => rw [hv] at hty; cases hty
    | array ws1 v ws2 more => rw [hv] at hty; cases hty
    | empty_object ws => rw [hv] at hty; cases hty
    | object ws1 key ws2 ws3 v ws4 more => rw [hv] at hty; cases hty

theorem root_callback_invoked_once_witness :
    fanout_text.Valid ∧
    fanout_registrations.filter (fun r => r.2 = 1) = [(JsonValuePath.root, 1)] ∧
    ∃ s v inner, parse_json (JsonParser 0) fanout_text.render = .ok true s ∧
      (registered fanout_registrations).feed fanout_text.render s.1.visitor_ = some v ∧
      v.invoked = inner ++ (callbacks_for fanout_registrations []).map (fun c =>
        ⟨c, fanout_text.value.type, [0x2E],
          (fanout_text.value.span fanout_text.ws1.length).1,
          (fanout_text.value.span fanout_text.ws1.length).2⟩) ∧
      (∀ i ∈ inner, i.callback ≠ 1) ∧
      (callbacks_for fanout_registrations []).count 1 = 1 ∧
      (fanout_text.value.type ≠ .String →
        fanout_text.value.span fanout_text.ws1.length =
          (fanout_text.ws1.length, fanout_text.value.render.length)) ∧
      (fanout_text.value.type = .String →
        fanout_text.value.span fanout_text.ws1.length =
          (fanout_text.ws1.length + 1, fanout_text.value.render.length - 2)) ∧
      fanout_text.render = fanout_text.ws1 ++ (fanout_text.value.render ++ fanout_text.ws2) ∧
      IsWhitespace fanout_text.ws1 ∧ IsWhitespace fanout_text.ws2 :=
  ⟨fanout_text_valid, by decide,
    root_callback_invoked_once fanout_text fanout_text_valid fanout_registrations 1
      (by decide)⟩

/-! ## Numbers, whitespace and spans -/

/-- C25: for a byte string that starts with `-` or a decimal digit and holds no
whitespace, `parse_json` returns if and only if the whole string is a number of the
grammar `-?(0|[1-9][0-9]*)(\.[0-9]+)?([eE][+-]?[0-9]+)?`; it then delivers the one event
`on_primitive_value(Number)` with the span of the whole string, and otherwise it throws a
`JsonParseError`, as on `-`, `01`, `1.` and `1e`. -/
theorem parse_json_number_iff (s : Bytes) (b : Nat) (r : Bytes) (lim : Nat)
    (hs : s = b :: r) (hb : b = 0x2D ∨ (0x30 ≤ b ∧ b ≤ 0x39))
    (hnw : ∀ x ∈ s, x ≠ 0x20 ∧ x ≠ 0x09 ∧ x ≠ 0x0D ∧ x ≠ 0x0A) :
    ((∃ ok st, parse_json (JsonParser lim) s = .ok ok st) ↔ IsNumber s) ∧
    (IsNumber s → parse_json (JsonParser lim) s =
      .ok true (⟨[], [.on_primitive_value .Number 0 s.length], lim⟩, ⟨s.length, []⟩)) ∧
    (¬ IsNumber s →
      ∃ what st, parse_json (JsonParser lim) s = .throw ⟨.JsonParseError, what⟩ st) ∧
    (∃ st, parse_json (JsonParser 0) [0x2D] = .throw ⟨.JsonParseError,
      "End of data: no integer part following leading '-' (offset=1)"⟩ st) ∧
    (∃ st, parse_json (JsonParser 0) [0x30, 0x31] = .throw ⟨.JsonParseError,
      "Invalid: extra data present after JSON (offset=1)"⟩ st) ∧
    (∃ st, parse_json (JsonParser 0) [0x31, 0x2E] = .throw ⟨.JsonParseError,
      "End of data: no digits following decimal point (offset=2)"⟩ st) ∧
    (∃ st, parse_json (JsonParser 0) [0x31, 0x65] = .throw ⟨.JsonParseError,
      "End of data: no exponent following 'e' (offset=2)"⟩ st) := by
  have hb1 : b = 0x2D ∨ is_dec b = true := by
    rcases hb with h | h
    · exact Or.inl h
    · exact Or.inr (by simp [is_dec, h])
  have hnw1 : ∀ x ∈ s, is_whitespace x = false := by
    intro x hx
    have := hnw x hx
    simp only [is_whitespace, Bool.or_eq_false_iff, decide_eq_false_iff_not]
    tauto
  have hfwd : ∀ ok st, parse_json (JsonParser lim) s = .ok ok st → IsNumber s := by
    intro ok st h
    obtain ⟨hok, -, -⟩ := parse_json_ok_true _ _ _ _ h
    rw [hok] at h
    exact number_of_parse _ s b r hs hb1 hnw1 st h
  refine ⟨⟨fun ⟨ok, st, h⟩ => hfwd ok st h, fun h => ⟨_, _, parse_json_number s h lim⟩⟩,
    fun h => parse_json_number s h lim, ?_,
    ⟨(⟨[value_frame], [], 0⟩, ⟨1, []⟩), by decide⟩,
    ⟨(⟨[], [.on_primitive_value .Number 0 1], 0⟩, ⟨1, [0x31]⟩), by decide⟩,
    ⟨(⟨[value_frame], [], 0⟩, ⟨2, []⟩), by decide⟩,
    ⟨(⟨[value_frame], [], 0⟩, ⟨2, []⟩), by decide⟩⟩
  intro hn
  rcases parse_json_outcome (JsonParser lim) s with ⟨s1, h1, -⟩ | ⟨inner, s1, h1, -⟩
  · exact absurd (hfwd _ _ h1) hn
  · exact ⟨_, s1, h1⟩

theorem parse_json_number_iff_witness :
    ([0x2D, 0x31] : Bytes) = 0x2D :: [0x31] ∧ (0x2D = 0x2D ∨ (0x30 ≤ 0x2D ∧ 0x2D ≤ 0x39)) ∧
    (∀ x ∈ ([0x2D, 0x31] : Bytes), x ≠ 0x20 ∧ x ≠ 0x09 ∧ x ≠ 0x0D ∧ x ≠ 0x0A) ∧
    (((∃ ok st, parse_json (JsonParser 0) [0x2D, 0x31] = .ok ok st) ↔ IsNumber [0x2D, 0x31]) ∧
    (IsNumber [0x2D, 0x31] → parse_json (JsonParser 0) [0x2D, 0x31] =
      .ok true (⟨[], [.on_primitive_value .Number 0 ([0x2D, 0x31] : Bytes).length], 0⟩,
        ⟨([0x2D, 0x31] : Bytes).length, []⟩)) ∧
    (¬ IsNumber [0x2D, 0x31] →
      ∃ what st, parse_json (JsonParser 0) [0x2D, 0x31] =
        .throw ⟨.JsonParseError, what⟩ st) ∧
    (∃ st, parse_json (JsonParser 0) [0x2D] = .throw ⟨.JsonParseError,
      "End of data: no integer part following leading '-' (offset=1)"⟩ st) ∧
    (∃ st, parse_json (JsonParser 0) [0x30, 0x31] = .throw ⟨.JsonParseError,
      "Invalid: extra data present after JSON (offset=1)"⟩ st) ∧
    (∃ st, parse_json (JsonParser 0) [0x31, 0x2E] = .throw ⟨.JsonParseError,
      "End of data: no digits following decimal point (offset=2)"⟩ st) ∧
    (∃ st, parse_json (JsonParser 0) [0x31, 0x65] = .throw ⟨.JsonParseError,
      "End of data: no exponent following 'e' (offset=2)"⟩ st)) :=
  ⟨rfl, by decide, by decide,
    parse_json_number_iff [0x2D, 0x31] 0x2D [0x31] 0 rfl (by decide) (by decide)⟩

/-- C26: for every input and all strings `w1`, `w2` made only of space, tab, CR and LF,
`parse_json` returns on `w1 ++ x ++ w2` if and only if it returns on `x`, and the events
are then those of `x` with every span moved forward by the length of `w1`; a byte other
than these four is not skipped: `chomp_whitespace` stops at it, and the bytes 0x0B, 0x0C
and the two bytes of U+00A0, put before or after the text `1`, make the parse throw. -/
theorem parse_json_whitespace_around (lim : Nat) (x w1 w2 : Bytes)
    (h1 : ∀ c ∈ w1, c = 0x20 ∨ c = 0x09 ∨ c = 0x0D ∨ c = 0x0A)
    (h2 : ∀ c ∈ w2, c = 0x20 ∨ c = 0x09 ∨ c = 0x0D ∨ c = 0x0A) :
    ((∃ ok st, parse_json (JsonParser lim) (w1 ++ (x ++ w2)) = .ok ok st) ↔
      ∃ ok st, parse_json (JsonParser lim) x = .ok ok st) ∧
    (∀ ok st ok1 st1, parse_json (JsonParser lim) x = .ok ok st →
      parse_json (JsonParser lim) (w1 ++ (x ++ w2)) = .ok ok1 st1 →
        st1.1.visitor_ = st.1.visitor_.map (Event.shift w1.length)) ∧
    (∀ (c p : Nat) (r : Bytes), ¬ (c = 0x20 ∨ c = 0x09 ∨ c = 0x0D ∨ c = 0x0A) →
      chomp_whitespace ⟨p, c :: r⟩ = ⟨p, c :: r⟩) ∧
    (∃ st, parse_json (JsonParser 0) [0x31] = .ok true st) ∧
    (∃ e st, parse_json (JsonParser 0) [0x0B, 0x31] = .throw e st) ∧
    (∃ e st, parse_json (JsonParser 0) [0x31, 0x0B] = .throw e st) ∧
    (∃ e st, parse_json (JsonParser 0) [0x0C, 0x31] = .throw e st) ∧
    (∃ e st, parse_json (JsonParser 0) [0x31, 0x0C] = .throw e st) ∧
    (∃ e st, parse_json (JsonParser 0) [0xC2, 0xA0, 0x31] = .throw e st) ∧
    (∃ e st, parse_json (JsonParser 0) [0x31, 0xC2, 0xA0] = .throw e st) := by
  have hw : ∀ w : Bytes, (∀ c ∈ w, c = 0x20 ∨ c = 0x09 ∨ c = 0x0D ∨ c = 0x0A) →
      IsWhitespace w := by
    intro w h c hc
    have := h c hc
    simp only [is_whitespace, Bool.or_eq_true, decide_eq_true_eq]
    tauto
  have g1 := hw w1 h1
  have g2 := hw w2 h2
  refine ⟨⟨?_, ?_⟩, ?_, ?_,
    ⟨(⟨[], [.on_primitive_value .Number 0 1], 0⟩, ⟨1, []⟩), by decide⟩,
    ⟨json_parse_error "Invalid: value expected (offset=0)",
      (⟨[value_frame], [], 0⟩, ⟨0, [0x0B, 0x31]⟩), by decide⟩,
    ⟨json_parse_error "Invalid: extra data present after JSON (offset=1)",
      (⟨[], [.on_primitive_value .Number 0 1], 0⟩, ⟨1, [0x0B]⟩), by decide⟩,
    ⟨json_parse_error "Invalid: value expected (offset=0)",
      (⟨[value_frame], [], 0⟩, ⟨0, [0x0C, 0x31]⟩), by decide⟩,
    ⟨json_parse_error "Invalid: extra data present after JSON (offset=1)",
      (⟨[], [.on_primitive_value .Number 0 1], 0⟩, ⟨1, [0x0C]⟩), by decide⟩,
    ⟨json_parse_error "Invalid: value expected (offset=0)",
      (⟨[value_frame], [], 0⟩, ⟨0, [0xC2, 0xA0, 0x31]⟩), by decide⟩,
    ⟨json_parse_error "Invalid: extra data present after JSON (offset=1)",
      (⟨[], [.on_primitive_value .Number 0 1], 0⟩, ⟨1, [0xC2, 0xA0]⟩), by decide⟩⟩
  · rintro ⟨ok, st, h⟩
    obtain ⟨s1, hs1⟩ := parse_json_remove_whitespace _ x w1 w2 g1 g2 ok st h
    exact ⟨true, s1, hs1⟩
  · rintro ⟨ok, st, h⟩
    obtain ⟨events, -, hev⟩ := parse_json_add_whitespace _ x w1 w2 g1 g2 ok st h
    exact ⟨_, _, hev⟩
  · intro ok st ok1 st1 h hh
    obtain ⟨events, he, hev⟩ := parse_json_add_whitespace _ x w1 w2 g1 g2 ok st h
    rw [hh] at hev
    simp only [Res.ok.injEq] at hev
    rw [hev.2, he]
    simp [JsonParser]
  · intro c p r hc
    have : is_whitespace c = false := by
      simp only [is_whitespace, Bool.or_eq_false_iff, decide_eq_false_iff_not]
      tauto
    exact chomp_whitespace_none (c :: r) (HeadIs.cons _ this) p

theorem parse_json_whitespace_around_witness :
    (∀ c ∈ ([0x20, 0x0A] : Bytes), c = 0x20 ∨ c = 0x09 ∨ c = 0x0D ∨ c = 0x0A) ∧
    (∀ c ∈ ([0x09, 0x0D] : Bytes), c = 0x20 ∨ c = 0x09 ∨ c = 0x0D ∨ c = 0x0A) ∧
    (((∃ ok st, parse_json (JsonParser 0) ([0x20, 0x0A] ++ ([0x5B, 0x31, 0x5D] ++ [0x09, 0x0D])) =
        .ok ok st) ↔
      ∃ ok st, parse_json (JsonParser 0) [0x5B, 0x31, 0x5D] = .ok ok st) ∧
    (∀ ok st ok1 st1, parse_json (JsonParser 0) [0x5B, 0x31, 0x5D] = .ok ok st →
      parse_json (JsonParser 0) ([0x20, 0x0A] ++ ([0x5B, 0x31, 0x5D] ++ [0x09, 0x0D])) =
        .ok ok1 st1 →
        st1.1.visitor_ = st.1.visitor_.map (Event.shift ([0x20, 0x0A] : Bytes).length)) ∧
    (∀ (c p : Nat) (r : Bytes), ¬ (c = 0x20 ∨ c = 0x09 ∨ c = 0x0D ∨ c = 0x0A) →
      chomp_whitespace ⟨p, c :: r⟩ = ⟨p, c :: r⟩) ∧
    (∃ st, parse_json (JsonParser 0) [0x31] = .ok true st) ∧
    (∃ e st, parse_json (JsonParser 0) [0x0B, 0x31] = .throw e st) ∧
    (∃ e st, parse_json (JsonParser 0) [0x31, 0x0B] = .throw e st) ∧
    (∃ e st, parse_json (JsonParser 0) [0x0C, 0x31] = .throw e st) ∧
    (∃ e st, parse_json (JsonParser 0) [0x31, 0x0C] = .throw e st) ∧
    (∃ e st, parse_json (JsonParser 0) [0xC2, 0xA0, 0x31] = .throw e st) ∧
    (∃ e st, parse_json (JsonParser 0) [0x31, 0xC2, 0xA0] = .throw e st)) :=
  ⟨by decide, by decide,
    parse_json_whitespace_around 0 [0x5B, 0x31, 0x5D] [0x20, 0x0A] [0x09, 0x0D] (by decide)
      (by decide)⟩

/-- C27: on every parse that returns, the events are those of a text of the grammar whose
bytes are the input, each with the span of what it reports: a start event stands on the
opening bracket, an end event carries the offset of the start event that it closes and
spans the whole array or object from `[` to `]` or from `{` to `}`, a key and a string
span the bytes between their two quotes, a number and a literal span their token, and
every span lies inside the input. -/
theorem parse_json_events_exact (lim : Nat) (input : Bytes) (ok : Bool) (st : ParseState)
    (h : parse_json (JsonParser lim) input = .ok ok st) :
    (∃ t : JsonText, t.Shaped ∧ t.render = input ∧
      st.1.visitor_ = t.value.events t.ws1.length) ∧
    (∀ e ∈ st.1.visitor_, e.Exact input) ∧ ends_match [] st.1.visitor_ = true := by
  obtain ⟨t, hsh, -, -, hr, -, hs⟩ := parse_json_ok_read _ input ok st h
  have hvis : st.1.visitor_ = t.value.events t.ws1.length := by
    rw [hs]
    simp [JsonParser]
  refine ⟨⟨t, hsh, hr, hvis⟩, ?_, ?_⟩
  · rw [hvis]
    exact value_events_exact t.value hsh.2.1 input t.ws1 t.ws2 _ (by rw [← hr]; rfl) rfl
  · rw [hvis]
    have := value_ends_match t.value t.ws1.length [] []
    rw [List.append_nil] at this
    rw [this]
    rfl

theorem parse_json_events_exact_witness :
    parse_json (JsonParser 0) [0x5B, 0x31, 0x5D] =
      .ok true (⟨[], [.on_array_start 0, .on_primitive_value .Number 1 1, .on_array_end 0 3],
        0⟩, ⟨3, []⟩) ∧
    ((∃ t : JsonText, t.Shaped ∧ t.render = [0x5B, 0x31, 0x5D] ∧
      [Event.on_array_start 0, .on_primitive_value .Number 1 1, .on_array_end 0 3] =
        t.value.events t.ws1.length) ∧
    (∀ e ∈ [Event.on_array_start 0, .on_primitive_value .Number 1 1, .on_array_end 0 3],
      e.Exact [0x5B, 0x31, 0x5D]) ∧
    ends_match [] [.on_array_start 0, .on_primitive_value .Number 1 1, .on_array_end 0 3] =
      true) :=
  ⟨by decide, parse_json_events_exact 0 [0x5B, 0x31, 0x5D] true
    (⟨[], [.on_array_start 0, .on_primitive_value .Number 1 1, .on_array_end 0 3], 0⟩,
      ⟨3, []⟩) (by decide)⟩

end flumps


namespace flumps

open JsonCallbackVisitorImpl

/-! ## The overflow of the dispatcher -/

theorem exec_callbacks_overflow {v v1 : JsonCallbackVisitorImpl} {type : JsonValueType}
    {data length : Nat} (h : v.exec_callbacks type data length = some v1) :
    v1.overflow_ = v.overflow_ := by
  unfold exec_callbacks at h
  cases hp : v.pos_ with
  | nil => simp [hp] at h
  | cons n above =>
    simp only [hp, Option.some.injEq] at h
    subst h
    rfl

theorem step_back_up_overflow {v v1 : JsonCallbackVisitorImpl} (h : v.step_back_up = some v1) :
    v1.overflow_ = v.overflow_ := by
  unfold step_back_up at h
  split at h
  · simp at h
  · simp only [Option.some.injEq] at h
    subst h
    rfl
  · split_ifs at h
    · simp only [Option.map_eq_some'] at h
      obtain ⟨path, -, rfl⟩ := h
      rfl
    · simp only [Option.some.injEq] at h
      subst h
      rfl

theorem exec_step_overflow {v v1 : JsonCallbackVisitorImpl} {type : JsonValueType}
    {data length : Nat}
    (h : (v.exec_callbacks type data length).bind (fun v2 => v2.step_back_up) = some v1) :
    v1.overflow_ = v.overflow_ := by
  simp only [Option.bind_eq_some] at h
  obtain ⟨v2, h1, h2⟩ := h
  rw [step_back_up_overflow h2, exec_callbacks_overflow h1]

theorem collection_markers_cons (m : OverFlowType) (ov : List OverFlowType) :
    collection_markers (m :: ov) = (if m = .Key then 0 else 1) + collection_markers ov := by
  simp only [collection_markers, List.countP_cons, ne_eq, decide_not, Bool.not_eq_true',
    decide_eq_false_iff_not]
  split_ifs <;> omega

theorem collection_markers_close_value (ov : List OverFlowType) :
    collection_markers (close_value ov) = collection_markers ov := by
  cases ov with
  | nil => rfl
  | cons m ov =>
    cases m <;> simp [close_value, collection_markers_cons]

theorem markers_length (ov : List OverFlowType) :
    ov.length = collection_markers ov + key_markers ov := by
  induction ov with
  | nil => rfl
  | cons m ov ih =>
    cases m <;>
      simp [collection_markers, key_markers, List.countP_cons] at ih ⊢ <;> omega

/-- A collection that starts moves the dispatcher to a node or grows the overflow by the
character of the collection. -/
theorem do_collection_start_markers {v v1 : JsonCallbackVisitorImpl}
    {traits : JsonCollectionTraits} (ht : traits.overflow_type ≠ .Key)
    (h : v.do_collection_start traits = some v1) (h1 : v1.overflow_ ≠ []) :
    collection_markers v1.overflow_ = collection_markers v.overflow_ + 1 := by
  obtain ⟨root, pos, ov, path, inv⟩ := v
  cases ov with
  | nil =>
    cases pos with
    | nil => simp [do_collection_start] at h
    | cons n above =>
      simp only [do_collection_start] at h
      by_cases hn : n.type = .Object
      · simp [hn] at h
      · simp only [hn, if_false] at h
        cases hf : n.children.find? (fun c => decide (c.type = traits.node_type)) with
        | some c =>
          simp only [hf, Option.some.injEq] at h
          subst h
          exact absurd rfl h1
        | none =>
          simp only [hf, Option.some.injEq] at h
          subst h
          simp [collection_markers_cons, ht]
          omega
  | cons back below =>
    simp only [do_collection_start] at h
    split_ifs at h
    simp only [Option.some.injEq] at h
    subst h
    simp only [collection_markers_cons _ (back :: below), if_neg ht]
    omega

/-- A collection that ends while the overflow is in use takes its character away, and the
character of the key whose value it was. -/
theorem do_collection_end_markers {v v1 : JsonCallbackVisitorImpl}
    {traits : JsonCollectionTraits} {start length : Nat} (ht : traits.overflow_type ≠ .Key)
    (h : v.do_collection_end traits start length = some v1) (h1 : v1.overflow_ ≠ []) :
    collection_markers v1.overflow_ + 1 = collection_markers v.overflow_ := by
  obtain ⟨root, pos, ov, path, inv⟩ := v
  cases ov with
  | nil =>
    cases pos with
    | nil => simp [do_collection_end] at h
    | cons n above =>
      cases above with
      | nil => simp [do_collection_end] at h
      | cons p above1 =>
        simp only [do_collection_end] at h
        split_ifs at h
        simp only [Option.bind_eq_some] at h
        obtain ⟨path1, -, h2⟩ := h
        have := exec_step_overflow (Option.bind_eq_some.2 h2)
        exact absurd this h1
  | cons back below =>
    simp only [do_collection_end] at h
    split_ifs at h with hb
    simp only [ne_eq, Decidable.not_not] at hb
    subst hb
    cases below with
    | nil =>
      simp only at h
      have := exec_step_overflow h
      exact absurd this h1
    | cons back1 below1 =>
      simp only at h
      split_ifs at h with hk
      · simp only [Option.some.injEq] at h
        subst h
        subst hk
        simp [collection_markers_cons, ht]
        omega
      · simp only [Option.some.injEq] at h
        subst h
        simp [collection_markers_cons, ht, hk]
        omega

/-- An event after which the overflow is in use changes the number of characters of
collections in it as a start or an end does: by one more, or by one less. -/
theorem visit_markers (input : Bytes) {v v1 : JsonCallbackVisitorImpl} (e : Event)
    (h : v.visit input e = some v1) (h1 : v1.overflow_ ≠ []) :
    collection_markers v1.overflow_ + (if e.is_end then 1 else 0) =
      collection_markers v.overflow_ + (if e.is_start then 1 else 0) := by
  cases e with
  | on_array_start s =>
    simp only [visit, on_array_start] at h
    have := do_collection_start_markers (by decide) h h1
    simpa [Event.is_start, Event.is_end] using this
  | on_object_start s =>
    simp only [visit, on_object_start] at h
    have := do_collection_start_markers (by decide) h h1
    simpa [Event.is_start, Event.is_end] using this
  | on_array_end s l =>
    simp only [visit, on_array_end] at h
    have := do_collection_end_markers (by decide) h h1
    simpa [Event.is_start, Event.is_end] using this
  | on_object_end s l =>
    simp only [visit, on_object_end] at h
    have := do_collection_end_markers (by decide) h h1
    simpa [Event.is_start, Event.is_end] using this
  | on_object_key s l =>
    simp only [visit] at h
    simp only [Event.is_start, Event.is_end, Bool.false_eq_true, if_false, Nat.add_zero]
    obtain ⟨root, pos, ov, path, inv⟩ := v
    cases ov with
    | nil =>
      cases pos with
      | nil => simp [on_object_key] at h
      | cons n above =>
        simp only [on_object_key] at h
        split_ifs at h
        cases hf : n.children.find?
            (fun c => decide (c.type = .Key ∧ c.key = (input.drop s).take l)) with
        | some c =>
          simp only [hf, Option.some.injEq] at h
          subst h
          exact absurd rfl h1
        | none =>
          simp only [hf, Option.some.injEq] at h
          subst h
          simp [collection_markers_cons]
    | cons back below =>
      simp only [on_object_key] at h
      split_ifs at h
      simp only [Option.some.injEq] at h
      subst h
      simp [collection_markers_cons]
  | on_primitive_value type s l =>
    simp only [visit] at h
    simp only [Event.is_start, Event.is_end, Bool.false_eq_true, if_false, Nat.add_zero]
    obtain ⟨root, pos, ov, path, inv⟩ := v
    cases ov with
    | nil =>
      cases pos with
      | nil => simp [on_primitive_value] at h
      | cons n above =>
        simp only [on_primitive_value] at h
        split_ifs at h
        have := exec_step_overflow h
        exact absurd this h1
    | cons back below =>
      simp only [on_primitive_value] at h
      split_ifs at h with hb hk
      · simp only [Option.some.injEq] at h
        subst h
        subst hk
        simp [collection_markers_cons]
      · simp only [Option.some.injEq] at h
        subst h
        rfl

/-- While the overflow is in use the characters of collections in it are counted by the
start events less the end events. -/
theorem feed_markers (input : Bytes) : ∀ (es : List Event) (v : JsonCallbackVisitorImpl),
    v.InOverflow input es →
    ∃ v1, v.feed input es = some v1 ∧
      collection_markers v1.overflow_ + count_ends es =
        collection_markers v.overflow_ + count_starts es
  | [], v, _ => ⟨v, rfl, rfl⟩
  | e :: rest, v, h => by
    obtain ⟨v1, hv, hne, hrest⟩ := h
    obtain ⟨v2, hf, hc⟩ := feed_markers input rest v1 hrest
    refine ⟨v2, by simp [feed, hv, hf], ?_⟩
    have hstep := visit_markers input e hv hne
    simp only [count_ends, count_starts, List.countP_cons] at hc ⊢
    omega

/-! ## A dispatcher that made calls before -/

/-- The events of a text, fed to the dispatcher after registrations and calls made before,
add the invocations expected for the text and leave the dispatcher at its root. -/
theorem feed_events_registered_from (t : JsonText) (regs : List (JsonValuePath × Nat))
    (inv : List Invocation) :
    ({ registered regs with invoked := inv }).feed t.render (t.value.events t.ws1.length) =
      some { registered regs with
        invoked := inv ++ t.value.invocations regs [] t.ws1.length } := by
  obtain ⟨root, hr, ht, hk, hc⟩ := registered_spec regs
  have hd := value_dispatched regs t.render t.value t.ws1.length root root [] [] inv
    (by rw [ht]; decide) (fun rel => by simpa using hc rel) hk (Or.inl rfl)
    ⟨t.ws1, t.ws2, rfl, rfl⟩
  rw [hr]
  simp only [dispatcher_path] at hd
  exact hd

end flumps


namespace flumps

/-! ## `force_to_utf8` read back by `chomp_utf8_char` -/

theorem chomp_utf8_chars_force (s : Bytes) : IsByteString s → ∀ (fuel p : Nat),
    (force_to_utf8 s).length < fuel →
      chomp_utf8_chars fuel ⟨p, force_to_utf8 s⟩ =
        .ok s ⟨p + (force_to_utf8 s).length, []⟩ := by
  induction s with
  | nil =>
    intro _ fuel p hlen
    obtain ⟨f, rfl⟩ : ∃ f, fuel = f + 1 := ⟨fuel - 1, by simp [force_to_utf8] at hlen; omega⟩
    simp [force_to_utf8, chomp_utf8_chars]
  | cons u s ih =>
    intro hs fuel p hlen
    have hu : u < 256 := hs u (List.mem_cons_self _ _)
    have hs1 : IsByteString s := fun y hy => hs y (List.mem_cons_of_mem _ hy)
    obtain ⟨f, rfl⟩ : ∃ f, fuel = f + 1 := ⟨fuel - 1, by omega⟩
    by_cases h : u < 0x80
    · have e : force_to_utf8 (u :: s) = u :: force_to_utf8 s := by
        simp only [force_to_utf8]
        rw [if_pos h]
      rw [e] at hlen ⊢
      simp only [chomp_utf8_chars]
      rw [if_neg (List.cons_ne_nil _ _), chomp_utf8_char_ascii p u _ h]
      simp only [Res.bind_ok]
      rw [ih hs1 f (p + 1) (by simpa using hlen)]
      simp [Nat.add_assoc, Nat.add_comm 1]
    · have hf := force_byte ⟨u, hu⟩ (by simpa using Nat.le_of_not_lt h)
      simp only at hf
      have e : force_to_utf8 (u :: s) =
          [0xC0 ||| (u >>> 6), 0x80 ||| (u &&& 0x3F)] ++ force_to_utf8 s := by
        simp only [force_to_utf8]
        rw [if_neg h]
        rfl
      rw [e] at hlen ⊢
      rw [hf] at hlen ⊢
      have hdec := chomp_utf8_char_utf8_encode u ⟨by omega, by omega⟩ p (force_to_utf8 s)
      have hlen2 : (utf8_encode u).length = 2 := by
        rw [← hf]
        rfl
      have hne : utf8_encode u ++ force_to_utf8 s ≠ [] := by
        intro h0
        have := congrArg List.length h0
        simp only [List.length_append, hlen2, List.length_nil] at this
        omega
      simp only [chomp_utf8_chars]
      rw [if_neg hne, hdec]
      simp only [Res.bind_ok]
      simp only [List.length_append, hlen2] at hlen ⊢
      rw [ih hs1 f (p + 2) (by omega)]
      simp [Nat.add_assoc, Nat.add_comm 2]

theorem force_to_utf8_ascii (s : Bytes) (h : ∀ b ∈ s, b < 0x80) : force_to_utf8 s = s := by
  induction s with
  | nil => rfl
  | cons u s ih =>
    simp only [force_to_utf8]
    rw [if_pos (h u (List.mem_cons_self _ _)), ih fun b hb => h b (List.mem_cons_of_mem _ hb)]

theorem force_to_utf8_injective (s1 s2 : Bytes) (h1 : IsByteString s1) (h2 : IsByteString s2)
    (h : force_to_utf8 s1 = force_to_utf8 s2) : s1 = s2 := by
  have e1 := chomp_utf8_chars_force s1 h1 _ 0 (Nat.lt_succ_self _)
  have e2 := chomp_utf8_chars_force s2 h2 _ 0 (Nat.lt_succ_self _)
  rw [h, e2] at e1
  simp only [Res.ok.injEq] at e1
  exact e1.1.symm

/-! ## The escaped content read back by `json_string_content_to_utf8` -/

theorem chomp_utf8_continuation_bytes (k : Nat) : ∀ (acc q : Nat) (r : Bytes) (v : Nat)
    (c1 : Cursor), chomp_utf8_continuation k acc ⟨q, r⟩ = .ok v c1 →
      ∃ t, t.length = k ∧ r = t ++ c1.rest ∧ c1.pos = q + k ∧ ∀ x ∈ t, x &&& 0xC0 = 0x80 := by
  induction k with
  | zero =>
    intro acc q r v c1 h
    simp only [chomp_utf8_continuation, Res.ok.injEq] at h
    obtain ⟨rfl, rfl⟩ := h
    exact ⟨[], rfl, rfl, rfl, by simp⟩
  | succ k ih =>
    intro acc q r v c1 h
    cases r with
    | nil => simp [chomp_utf8_continuation, Cursor.peek] at h
    | cons x r =>
      by_cases hc : x &&& 0xC0 ≠ 0x80
      · simp only [chomp_utf8_continuation, Cursor.peek_cons] at h
        rw [if_pos hc] at h
        cases h
      · simp only [chomp_utf8_continuation, Cursor.peek_cons] at h
        rw [if_neg hc, Cursor.next_cons] at h
        obtain ⟨t, h1, h2, h3, h4⟩ := ih _ _ _ _ _ h
        refine ⟨x :: t, by simp [h1], by simp [← h2], by omega, ?_⟩
        intro y hy
        rcases List.mem_cons.1 hy with rfl | hy
        · simpa using hc
        · exact h4 y hy

/-- The bytes that `chomp_utf8_char` reads after the first are continuation bytes. -/
theorem chomp_utf8_char_bytes (p b : Nat) (r : Bytes) (cp : Nat) (c1 : Cursor)
    (h : chomp_utf8_char ⟨p, b :: r⟩ = .ok cp c1) :
    ∃ t, r = t ++ c1.rest ∧ c1.pos = p + (t.length + 1) ∧ ∀ x ∈ t, x &&& 0xC0 = 0x80 := by
  cases hl : utf8_lead b with
  | none => simp [chomp_utf8_char, hl] at h
  | some ak =>
    obtain ⟨a, k⟩ := ak
    by_cases hlen : r.length < k
    · simp only [chomp_utf8_char, hl, Cursor.next_cons] at h
      rw [if_pos hlen] at h
      cases h
    · simp only [chomp_utf8_char, hl, Cursor.next_cons] at h
      rw [if_neg hlen] at h
      cases hc : chomp_utf8_continuation k a ⟨p + 1, r⟩ with
      | fuel => rw [hc] at h; cases h
      | throw e c2 => rw [hc] at h; cases h
      | ok v c2 =>
        rw [hc] at h
        simp only [Res.bind_ok] at h
        obtain ⟨t, h1, h2, h3, h4⟩ := chomp_utf8_continuation_bytes k a (p + 1) r v c2 hc
        cases hty : code_point_type v with
        | error err => rw [hty] at h; cases h
        | ok ty =>
          rw [hty] at h
          simp only [] at h
          by_cases hns : ty ≠ .non_surrogate
          · rw [if_pos hns] at h
            cases h
          · rw [if_neg hns] at h
            simp only [Res.ok.injEq] at h
            obtain ⟨rfl, rfl⟩ := h
            exact ⟨t, h2, by omega, h4⟩

theorem render_tokens_raw (l : Bytes) : render_tokens (l.map ContentToken.raw) = l := by
  induction l with
  | nil => rfl
  | cons b l ih => simp [render_tokens, ContentToken.render, ih]

theorem decode_tokens_raw (l : Bytes) : decode_tokens (l.map ContentToken.raw) = l := by
  induction l with
  | nil => rfl
  | cons b l ih => simp [decode_tokens, ContentToken.decode, ih]

theorem decode_tokens_append (a b : List ContentToken) :
    decode_tokens (a ++ b) = decode_tokens a ++ decode_tokens b := by
  induction a with
  | nil => rfl
  | cons t a ih => simp [decode_tokens, ih]

/-- A character that the encoder writes with a short escape. -/
theorem escape_char_to_json_short (b : Nat) (output : Bytes)
    (hb : b = 0x22 ∨ b = 0x5C ∨ b = 0x2F ∨ b = 0x08 ∨ b = 0x09 ∨ b = 0x0A ∨ b = 0x0C ∨
      b = 0x0D) :
    ∃ e, escape_char_to_json b output = .ok (output ++ [0x5C, e]) () ∧
      (ContentToken.short e).WellFormed ∧ unescape e = b := by
  rcases hb with rfl | rfl | rfl | rfl | rfl | rfl | rfl | rfl
  · exact ⟨0x22, by simp [escape_char_to_json], by simp [ContentToken.WellFormed], by
      simp [unescape]⟩
  · exact ⟨0x5C, by simp [escape_char_to_json], by simp [ContentToken.WellFormed], by
      simp [unescape]⟩
  · exact ⟨0x2F, by simp [escape_char_to_json], by simp [ContentToken.WellFormed], by
      simp [unescape]⟩
  · exact ⟨0x62, by simp [escape_char_to_json], by simp [ContentToken.WellFormed], by
      simp [unescape]⟩
  · exact ⟨0x74, by simp [escape_char_to_json], by simp [ContentToken.WellFormed], by
      simp [unescape]⟩
  · exact ⟨0x6E, by simp [escape_char_to_json], by simp [ContentToken.WellFormed], by
      simp [unescape]⟩
  · exact ⟨0x66, by simp [escape_char_to_json], by simp [ContentToken.WellFormed], by
      simp [unescape]⟩
  · exact ⟨0x72, by simp [escape_char_to_json], by simp [ContentToken.WellFormed], by
      simp [unescape]⟩

/-- On bytes that `is_utf8` accepts and that hold no control character other than the five
with a short escape, the encoder writes tokens that stand for these bytes. -/
theorem utf8_to_json_string_content_loop_tokens (fuel : Nat) : ∀ (output : Bytes) (c : Cursor),
    c.rest.length < fuel →
    (∀ b ∈ c.rest, (b < 0x20 ∨ b = 0x7F) → b ∈ [0x08, 0x09, 0x0A, 0x0C, 0x0D]) →
    (∃ c2, is_utf8_loop fuel c = .ok () c2) →
    ∃ tokens c1, utf8_to_json_string_content_loop fuel output c =
        .ok (output ++ render_tokens tokens) c1 ∧
      (∀ t ∈ tokens, t.WellFormed ∧ t.is_high = false ∧ t.is_low = false) ∧ decode_tokens tokens = c.rest := by
  induction fuel with
  | zero => intro output c h; omega
  | succ fuel ih =>
    intro output c hlen hctl hutf
    obtain ⟨p, rest⟩ := c
    cases rest with
    | nil =>
      exact ⟨[], ⟨p, []⟩, by simp [utf8_to_json_string_content_loop, render_tokens], by simp,
        rfl⟩
    | cons b r =>
      have hr : r.length < fuel := by simpa using hlen
      have hctl1 : ∀ x ∈ r, (x < 0x20 ∨ x = 0x7F) → x ∈ [0x08, 0x09, 0x0A, 0x0C, 0x0D] :=
        fun x hx => hctl x (List.mem_cons_of_mem _ hx)
      obtain ⟨c2, hc2⟩ := hutf
      by_cases hesc : b = 0x22 ∨ b = 0x5C ∨ b = 0x2F ∨ b < 0x20 ∨ b = 0x7F
      · have hb : b < 0x80 := by omega
        have hshort : b = 0x22 ∨ b = 0x5C ∨ b = 0x2F ∨ b = 0x08 ∨ b = 0x09 ∨ b = 0x0A ∨
            b = 0x0C ∨ b = 0x0D := by
          rcases hesc with h | h | h | h | h
          · exact Or.inl h
          · exact Or.inr (Or.inl h)
          · exact Or.inr (Or.inr (Or.inl h))
          · have := hctl b (List.mem_cons_self _ _) (Or.inl h)
            simp only [List.mem_cons, List.mem_singleton, List.not_mem_nil, or_false] at this
            omega
          · have := hctl b (List.mem_cons_self _ _) (Or.inr h)
            simp only [List.mem_cons, List.mem_singleton, List.not_mem_nil, or_false] at this
            omega
        obtain ⟨e, he, hw, hun⟩ := escape_char_to_json_short b output hshort
        have e1 : utf8_to_json_string_content_loop (fuel + 1) output ⟨p, b :: r⟩ =
            utf8_to_json_string_content_loop fuel (output ++ [0x5C, e]) ⟨p + 1, r⟩ := by
          simp only [utf8_to_json_string_content_loop, Cursor.peek_cons]
          rw [if_neg (List.cons_ne_nil _ _), if_pos hesc, he]
          rfl
        have e2 : is_utf8_loop (fuel + 1) ⟨p, b :: r⟩ = is_utf8_loop fuel ⟨p + 1, r⟩ := by
          simp only [is_utf8_loop]
          rw [if_neg (List.cons_ne_nil _ _), chomp_utf8_char_ascii p b r hb]
          rfl
        rw [e2] at hc2
        obtain ⟨tokens, c1, h1, h2, h3⟩ := ih (output ++ [0x5C, e]) ⟨p + 1, r⟩ hr hctl1 ⟨c2, hc2⟩
        refine ⟨.short e :: tokens, c1, ?_, ?_, ?_⟩
        · rw [e1, h1]
          simp [render_tokens, ContentToken.render]
        · intro t ht
          rcases List.mem_cons.1 ht with rfl | ht
          · exact ⟨hw, rfl, rfl⟩
          · exact h2 t ht
        · simp only at h3
          simp [decode_tokens, ContentToken.decode, hun, h3]
      · rcases chomp_utf8_char_total ⟨p, b :: r⟩ with ⟨v, c1, hv⟩ | ⟨e, c1, he, hk⟩
        · obtain ⟨t, ht1, ht2, ht3⟩ := chomp_utf8_char_bytes p b r v c1 hv
          have e1 : utf8_to_json_string_content_loop (fuel + 1) output ⟨p, b :: r⟩ =
              utf8_to_json_string_content_loop fuel (output ++ b :: t) c1 := by
            simp only [utf8_to_json_string_content_loop, Cursor.peek_cons]
            rw [if_neg (List.cons_ne_nil _ _), if_neg hesc, hv]
            simp only [Res.bind_ok]
            rw [ht1, take_consumed b t c1.rest p c1.pos ht2]
          have e2 : is_utf8_loop (fuel + 1) ⟨p, b :: r⟩ = is_utf8_loop fuel c1 := by
            simp only [is_utf8_loop]
            rw [if_neg (List.cons_ne_nil _ _), hv]
            rfl
          have hc1 : c1.rest.length < fuel := by
            have := congrArg List.length ht1
            simp only [List.length_append] at this
            omega
          rw [e2] at hc2
          have hctl2 : ∀ x ∈ c1.rest, (x < 0x20 ∨ x = 0x7F) →
              x ∈ [0x08, 0x09, 0x0A, 0x0C, 0x0D] := by
            intro x hx
            refine hctl1 x ?_
            rw [ht1]
            exact List.mem_append_right _ hx
          obtain ⟨tokens, c3, h1, h2, h3⟩ := ih (output ++ b :: t) c1 hc1 hctl2 ⟨c2, hc2⟩
          refine ⟨(b :: t).map ContentToken.raw ++ tokens, c3, ?_, ?_, ?_⟩
          · rw [e1, h1, render_tokens_append, render_tokens_raw]
            simp
          · intro tok htok
            rcases List.mem_append.1 htok with htok | htok
            · obtain ⟨x, hx, rfl⟩ := List.mem_map.1 htok
              refine ⟨?_, rfl, rfl⟩
              simp only [ContentToken.WellFormed]
              rcases List.mem_cons.1 hx with rfl | hx
              · omega
              · intro h5c
                have := ht3 x hx
                rw [h5c] at this
                exact absurd this (by decide)
            · exact h2 tok htok
          · rw [decode_tokens_append, decode_tokens_raw, h3, ht1]
            simp
        · simp only [is_utf8_loop] at hc2
          rw [if_neg (List.cons_ne_nil _ _), he] at hc2
          cases hc2

/-- The bytes that `is_utf8` accepts and that hold no control character other than the five
with a short escape are returned by the decoder from what the encoder writes. -/
theorem utf8_to_json_round_trip (s : Bytes) (hv : is_utf8 s = .ok true ())
    (hc : ∀ b ∈ s, (b < 0x20 ∨ b = 0x7F) → b ∈ [0x08, 0x09, 0x0A, 0x0C, 0x0D]) :
    ∃ out, utf8_to_json_string_content s = .ok out () ∧
      json_string_content_to_utf8 out = .ok s () := by
  have hloop : ∃ c2, is_utf8_loop (s.length + 1) ⟨0, s⟩ = .ok () c2 := by
    unfold is_utf8 at hv
    cases h : is_utf8_loop (s.length + 1) ⟨0, s⟩ with
    | ok u c2 => exact ⟨c2, rfl⟩
    | throw e c2 =>
      rw [h] at hv
      dsimp only at hv
      split_ifs at hv
      all_goals cases hv
    | fuel =>
      rw [h] at hv
      cases hv
  obtain ⟨tokens, c1, h1, h2, h3⟩ :=
    utf8_to_json_string_content_loop_tokens (s.length + 1) [] ⟨0, s⟩ (Nat.lt_succ_self _) hc hloop
  refine ⟨render_tokens tokens, ?_, ?_⟩
  · simp only [utf8_to_json_string_content, h1, Res.lift_ok, List.nil_append]
  · rw [json_string_content_to_utf8_tokens tokens h2, h3]

end flumps


namespace flumps

/-! ## The calls of visitor methods made by one pass of the loop of `parse_json` -/

theorem protocol_run_append (a b : List Event) : ∀ stack : List OverFlowType,
    protocol_run stack (a ++ b) = (protocol_run stack a).bind fun s => protocol_run s b := by
  induction a with
  | nil => intro stack; rfl
  | cons e a ih =>
    intro stack
    simp only [List.cons_append, protocol_run]
    cases protocol_step stack e with
    | none => rfl
    | some s1 => simpa using ih s1

theorem Res.Emits.emits_mono {α : Type} {P Q : α → JsonParserImpl → List OverFlowType → Prop}
    {r : Res ParseState α} {vis : List Event} {stack : List OverFlowType}
    (h : r.Emits vis stack P) (hpq : ∀ a p st, P a p st → Q a p st) : r.Emits vis stack Q := by
  cases r with
  | ok a s =>
    obtain ⟨es, st, h1, h2, h3⟩ := h
    exact ⟨es, st, h1, h2, hpq a _ st h3⟩
  | throw e s => exact h
  | fuel => exact h

theorem Res.Emits.emits_ok {α : Type} {P : α → JsonParserImpl → List OverFlowType → Prop}
    (a : α) (p : JsonParserImpl) (c : Cursor) (stack : List OverFlowType)
    (h : P a p stack) : (Res.ok a (p, c)).Emits p.visitor_ stack P :=
  ⟨[], stack, by simp, rfl, h⟩

theorem Res.Emits.emits_throw {α : Type} {P : α → JsonParserImpl → List OverFlowType → Prop}
    (e : DecodeError) (p : JsonParserImpl) (c : Cursor) (stack : List OverFlowType) :
    (Res.throw e (p, c) : Res ParseState α).Emits p.visitor_ stack P :=
  ⟨[], stack, by simp, rfl⟩

/-- The calls made before a call follow one another with those of the call. -/
theorem Res.Emits.emits_after {α : Type} {P : α → JsonParserImpl → List OverFlowType → Prop}
    {r : Res ParseState α} {vis : List Event} {stack : List OverFlowType} (es : List Event)
    (stack1 : List OverFlowType) (hrun : protocol_run stack es = some stack1)
    (h : r.Emits (vis ++ es) stack1 P) : r.Emits vis stack P := by
  cases r with
  | ok a s =>
    obtain ⟨es2, st, h1, h2, h3⟩ := h
    exact ⟨es ++ es2, st, by rw [h1, List.append_assoc],
      by rw [protocol_run_append, hrun]; exact h2, h3⟩
  | throw e s =>
    obtain ⟨es2, st, h1, h2⟩ := h
    exact ⟨es ++ es2, st, by rw [h1, List.append_assoc],
      by rw [protocol_run_append, hrun]; exact h2⟩
  | fuel => exact h

theorem Res.Emits.emits_bind {α β : Type} {P : α → JsonParserImpl → List OverFlowType → Prop}
    {Q : β → JsonParserImpl → List OverFlowType → Prop} {r : Res ParseState α}
    {vis : List Event} {stack : List OverFlowType} {f : α → ParseState → Res ParseState β}
    (h : r.Emits vis stack P)
    (hf : ∀ a s st, P a s.1 st → (f a s).Emits s.1.visitor_ st Q) :
    (r.bind f).Emits vis stack Q := by
  cases r with
  | ok a s =>
    obtain ⟨es, st, h1, h2, h3⟩ := h
    have := hf a s st h3
    rw [h1] at this
    simpa only [Res.bind_ok] using Res.Emits.emits_after es st h2 this
  | throw e s => exact h
  | fuel => exact h

/-- A lexer called by the parser makes no call of a visitor method. -/
theorem Res.Emits.emits_of_consumes {α : Type} {P : α → Bytes → Prop} {r : Res Cursor α}
    {c : Cursor} (p : JsonParserImpl) (stack : List OverFlowType) (h : r.Consumes c P) :
    (r.lift fun c2 => (p, c2)).Emits p.visitor_ stack fun _ p' st => p' = p ∧ st = stack := by
  cases r with
  | ok a c1 => exact ⟨[], stack, by simp, rfl, rfl, rfl⟩
  | throw e c1 => exact ⟨[], stack, by simp, rfl⟩
  | fuel => exact h

theorem inc_depth_emits (p : JsonParserImpl) (c : Cursor) (stack : List OverFlowType) :
    (inc_depth p c).Emits p.visitor_ stack fun _ p' st =>
      p'.state_ = {} :: p.state_ ∧ st = stack := by
  unfold inc_depth
  simp only []
  split_ifs
  · exact ⟨[], stack, by simp, rfl⟩
  · exact ⟨[], stack, by simp, rfl, rfl, rfl⟩

/-- The key of a member is delivered in an object. -/
theorem parse_member_key_emits (p : JsonParserImpl) (c : Cursor) (stack : List OverFlowType) :
    (parse_member_key p c).Emits p.visitor_ (.Object :: stack) fun _ p' st =>
      p'.state_ = p.state_ ∧ st = .Key :: .Object :: stack := by
  unfold parse_member_key
  generalize chomp_whitespace c = c1
  simp only []
  obtain ⟨q, rest1⟩ := c1
  cases rest1 with
  | nil =>
    rw [if_pos rfl]
    exact Res.Emits.emits_throw _ _ _ _
  | cons b r1 =>
    simp only [reduceCtorEq, if_false, Cursor.peek_cons]
    by_cases hb : b = 0x22
    swap
    · rw [if_pos hb]
      exact Res.Emits.emits_throw _ _ _ _
    subst hb
    simp only [ne_eq, not_true_eq_false, if_false]
    refine Res.Emits.emits_bind (Res.Emits.emits_of_consumes p _ (parse_string_consumes q r1)) ?_
    rintro a s st ⟨hp, rfl⟩
    have hrun : ∀ x y, protocol_run (OverFlowType.Object :: stack) [Event.on_object_key x y] =
        some (.Key :: .Object :: stack) := fun x y => rfl
    split_ifs
    · exact ⟨[_], _, rfl, hrun _ _⟩
    · exact ⟨[_], _, rfl, hrun _ _, by simp [JsonParserImpl.visit, hp], rfl⟩

/-- A primitive value is delivered where a value is expected. -/
theorem parse_primitive_emits (p : JsonParserImpl) (pos b : Nat) (r : Bytes)
    (stack : List OverFlowType) (h : stack.head? ≠ some .Object) :
    (parse_primitive p ⟨pos, b :: r⟩).Emits p.visitor_ stack fun ca p' st =>
      ca = false ∧ p'.state_ = p.state_ ∧ st = close_value stack := by
  have hrun : ∀ t x y, protocol_run stack [Event.on_primitive_value t x y] =
      some (close_value stack) := by
    intro t x y
    simp [protocol_run, protocol_step, h]
  unfold parse_primitive
  simp only [Cursor.peek_cons]
  by_cases h1 : b = 0x22
  · subst h1
    rw [if_pos rfl]
    refine Res.Emits.emits_bind (Res.Emits.emits_of_consumes p _ (parse_string_consumes pos r)) ?_
    rintro a s st ⟨hp, rfl⟩
    exact ⟨[_], _, rfl, hrun _ _ _, rfl, by simp [JsonParserImpl.visit, hp], rfl⟩
  rw [if_neg h1]
  by_cases h2 : b = 0x2D ∨ is_dec b = true
  · rw [if_pos h2]
    refine Res.Emits.emits_bind (Res.Emits.emits_of_consumes p _ (parse_number_consumes _)) ?_
    rintro a s st ⟨hp, rfl⟩
    exact ⟨[_], _, rfl, hrun _ _ _, rfl, by simp [JsonParserImpl.visit, hp], rfl⟩
  rw [if_neg h2]
  split_ifs
  · exact ⟨[_], _, rfl, hrun _ _ _, rfl, rfl, rfl⟩
  · exact ⟨[_], _, rfl, hrun _ _ _, rfl, rfl, rfl⟩
  · exact ⟨[_], _, rfl, hrun _ _ _, rfl, rfl, rfl⟩
  · exact Res.Emits.emits_throw _ _ _ _

/-- The first call of `parse_array` for an array delivers its start, and its end when the
array is empty. -/
theorem parse_array_open_emits (below : List State) (vis : List Event) (lim pos : Nat)
    (r : Bytes) (stack : List OverFlowType) (h : stack.head? ≠ some .Object) :
    (parse_array 2 ⟨State.mk .parse_value .parse_array .initial .initial 0 :: below, vis, lim⟩
        ⟨pos, 0x5B :: r⟩).Emits vis stack fun ca p' st =>
      (ca = true ∧ p'.state_ = {} :: array_frame pos :: below ∧ st = .Array :: stack) ∨
      (ca = false ∧ p'.state_.tail = below ∧ p'.state_ ≠ [] ∧ st = close_value stack) := by
  have hrun : ∀ x, protocol_run stack [Event.on_array_start x] = some (.Array :: stack) := by
    intro x
    simp [protocol_run, protocol_step, h]
  rw [parse_array]
  simp only [JsonParserImpl.back, JsonParserImpl.set_back, JsonParserImpl.visit,
    List.headD_cons, Cursor.next_cons]
  generalize chomp_whitespace ⟨pos + 1, r⟩ = c1
  obtain ⟨q, rest1⟩ := c1
  refine Res.Emits.emits_after [Event.on_array_start pos] _ (hrun pos) ?_
  by_cases hc : rest1 = [] ∨ (Cursor.mk q rest1).peek ≠ 0x5D
  · rw [if_pos hc]
    refine Res.Emits.emits_bind (inc_depth_emits _ _ _) ?_
    rintro a s st ⟨hs, rfl⟩
    exact Res.Emits.emits_ok _ _ _ _ (Or.inl ⟨rfl, by rw [hs]; rfl, rfl⟩)
  · rw [if_neg hc]
    cases rest1 with
    | nil => exact absurd (Or.inl rfl) hc
    | cons d r1 =>
      simp only [ne_eq, reduceCtorEq, not_false_eq_true, if_true, parse_array,
        JsonParserImpl.back, JsonParserImpl.visit, List.headD_cons, Cursor.next_cons]
      exact ⟨[_], _, rfl, rfl, Or.inr ⟨rfl, rfl, by simp, rfl⟩⟩

/-- A call of `parse_array` after an element delivers the end of the array, or nothing. -/
theorem parse_array_mid_emits (below : List State) (vis : List Event) (lim s : Nat)
    (c : Cursor) (stack : List OverFlowType) :
    (parse_array 2 ⟨array_frame s :: below, vis, lim⟩ c).Emits vis (.Array :: stack)
      fun ca p' st =>
        (ca = true ∧ p'.state_ = {} :: array_frame s :: below ∧ st = .Array :: stack) ∨
        (ca = false ∧ p'.state_.tail = below ∧ p'.state_ ≠ [] ∧ st = close_value stack) := by
  rw [parse_array]
  simp only [JsonParserImpl.back, array_frame, List.headD_cons]
  obtain ⟨pos, rest⟩ := c
  cases rest with
  | nil => simpa using Res.Emits.emits_throw _ ⟨_, vis, lim⟩ ⟨pos, []⟩ _
  | cons b r =>
    simp only [ne_eq, reduceCtorEq, not_false_eq_true, if_true, Cursor.peek_cons,
      Cursor.next_cons]
    by_cases h1 : b = 0x5D
    · subst h1
      simp only [if_true, parse_array, JsonParserImpl.back, JsonParserImpl.set_back,
        JsonParserImpl.visit, List.headD_cons, Cursor.next_cons]
      exact ⟨[_], _, rfl, rfl, Or.inr ⟨rfl, rfl, by simp, rfl⟩⟩
    rw [if_neg h1]
    by_cases h2 : b = 0x2C
    · subst h2
      rw [if_pos rfl]
      refine Res.Emits.emits_bind (inc_depth_emits ⟨_, vis, lim⟩ _ _) ?_
      rintro a s1 st ⟨hs, rfl⟩
      exact Res.Emits.emits_ok _ _ _ _ (Or.inl ⟨rfl, by rw [hs], rfl⟩)
    · rw [if_neg h2]
      exact Res.Emits.emits_throw _ ⟨_, vis, lim⟩ _ _

/-- The first call of `parse_object` for an object delivers its start, and its first key or
its end. -/
theorem parse_object_open_emits (below : List State) (vis : List Event) (lim pos : Nat)
    (r : Bytes) (stack : List OverFlowType) (h : stack.head? ≠ some .Object) :
    (parse_object 2 ⟨State.mk .parse_value .parse_object .initial .initial 0 :: below, vis, lim⟩
        ⟨pos, 0x7B :: r⟩).Emits vis stack fun ca p' st =>
      (ca = true ∧ p'.state_ = {} :: object_frame pos :: below ∧
        st = .Key :: .Object :: stack) ∨
      (ca = false ∧ p'.state_.tail = below ∧ p'.state_ ≠ [] ∧ st = close_value stack) := by
  have hrun : ∀ x, protocol_run stack [Event.on_object_start x] = some (.Object :: stack) := by
    intro x
    simp [protocol_run, protocol_step, h]
  rw [parse_object]
  simp only [JsonParserImpl.back, JsonParserImpl.set_back, JsonParserImpl.visit,
    List.headD_cons, Cursor.next_cons]
  generalize chomp_whitespace ⟨pos + 1, r⟩ = c1
  obtain ⟨q, rest1⟩ := c1
  refine Res.Emits.emits_after [Event.on_object_start pos] _ (hrun pos) ?_
  by_cases hc : rest1 = [] ∨ (Cursor.mk q rest1).peek ≠ 0x7D
  · rw [if_pos hc]
    refine Res.Emits.emits_bind (parse_member_key_emits ⟨_, _, lim⟩ _ _) ?_
    rintro a s st ⟨hst, rfl⟩
    obtain ⟨⟨st0, vis1, lim1⟩, c2⟩ := s
    simp only at hst
    subst hst
    simp only []
    refine Res.Emits.emits_bind (inc_depth_emits ⟨_, vis1, lim1⟩ _ _) ?_
    rintro a1 s1 st1 ⟨hs, rfl⟩
    refine Res.Emits.emits_ok _ _ _ _ (Or.inl ⟨rfl, ?_, rfl⟩)
    rw [hs]
    rfl
  · rw [if_neg hc]
    cases rest1 with
    | nil => exact absurd (Or.inl rfl) hc
    | cons d r1 =>
      simp only [ne_eq, reduceCtorEq, not_false_eq_true, if_true, parse_object,
        JsonParserImpl.back, JsonParserImpl.visit, List.headD_cons, Cursor.next_cons]
      exact ⟨[_], _, rfl, rfl, Or.inr ⟨rfl, rfl, by simp, rfl⟩⟩

/-- A call of `parse_object` after a member delivers a further key, or the end of the
object. -/
theorem parse_object_mid_emits (below : List State) (vis : List Event) (lim s : Nat)
    (c : Cursor) (stack : List OverFlowType) :
    (parse_object 2 ⟨object_frame s :: below, vis, lim⟩ c).Emits vis (.Object :: stack)
      fun ca p' st =>
        (ca = true ∧ p'.state_ = {} :: object_frame s :: below ∧
          st = .Key :: .Object :: stack) ∨
        (ca = false ∧ p'.state_.tail = below ∧ p'.state_ ≠ [] ∧ st = close_value stack) := by
  rw [parse_object]
  simp only [JsonParserImpl.back, object_frame, List.headD_cons]
  obtain ⟨pos, rest⟩ := c
  cases rest with
  | nil => simpa using Res.Emits.emits_throw _ ⟨_, vis, lim⟩ ⟨pos, []⟩ _
  | cons b r =>
    simp only [ne_eq, reduceCtorEq, not_false_eq_true, if_true, Cursor.peek_cons,
      Cursor.next_cons]
    by_cases h1 : b = 0x7D
    · subst h1
      simp only [if_true, parse_object, JsonParserImpl.back, JsonParserImpl.set_back,
        JsonParserImpl.visit, List.headD_cons, Cursor.next_cons]
      exact ⟨[_], _, rfl, rfl, Or.inr ⟨rfl, rfl, by simp, rfl⟩⟩
    rw [if_neg h1]
    by_cases h2 : b = 0x2C
    · subst h2
      rw [if_pos rfl]
      refine Res.Emits.emits_bind (parse_member_key_emits ⟨_, vis, lim⟩ _ _) ?_
      rintro a s0 st ⟨hst, rfl⟩
      refine Res.Emits.emits_bind (inc_depth_emits _ _ _) ?_
      rintro a1 s1 st1 ⟨hs, rfl⟩
      exact Res.Emits.emits_ok _ _ _ _ (Or.inl ⟨rfl, by rw [hs, hst], rfl⟩)
    · rw [if_neg h2]
      exact Res.Emits.emits_throw _ ⟨_, vis, lim⟩ _ _

/-- What `parse_value` delivers on a frame that has not reached its value. -/
theorem parse_value_fresh_emits (below : List State) (vis : List Event) (lim : Nat)
    (c : Cursor) (stack : List OverFlowType) (h : stack.head? ≠ some .Object) :
    (parse_value 2 ⟨value_frame :: below, vis, lim⟩ c).Emits vis stack fun ca p' st =>
      (ca = false ∧ p'.state_.tail = below ∧ p'.state_ ≠ [] ∧ st = close_value stack) ∨
      (ca = true ∧ (∃ s, p'.state_ = {} :: array_frame s :: below) ∧ st = .Array :: stack) ∨
      (ca = true ∧ (∃ s, p'.state_ = {} :: object_frame s :: below) ∧
        st = .Key :: .Object :: stack) := by
  obtain ⟨pos, rest⟩ := c
  rw [parse_value]
  simp only [JsonParserImpl.back, value_frame, List.headD_cons]
  cases rest with
  | nil =>
    rw [if_pos rfl]
    exact Res.Emits.emits_throw _ ⟨_, vis, lim⟩ _ _
  | cons b r =>
    simp only [reduceCtorEq, if_false, Cursor.peek_cons, ne_eq, not_false_eq_true, if_true]
    by_cases h1 : b = 0x7B
    · subst h1
      simp only [if_true, parse_value, JsonParserImpl.back, JsonParserImpl.set_back,
        List.headD_cons]
      refine (parse_object_open_emits below vis lim pos r stack h).emits_mono ?_
      rintro ca p' st (⟨rfl, hs, rfl⟩ | ⟨rfl, hs, hne, rfl⟩)
      · exact Or.inr (Or.inr ⟨rfl, ⟨_, hs⟩, rfl⟩)
      · exact Or.inl ⟨rfl, hs, hne, rfl⟩
    rw [if_neg h1]
    by_cases h2 : b = 0x5B
    · subst h2
      simp only [if_true, parse_value, JsonParserImpl.back, JsonParserImpl.set_back,
        List.headD_cons]
      refine (parse_array_open_emits below vis lim pos r stack h).emits_mono ?_
      rintro ca p' st (⟨rfl, hs, rfl⟩ | ⟨rfl, hs, hne, rfl⟩)
      · exact Or.inr (Or.inl ⟨rfl, ⟨_, hs⟩, rfl⟩)
      · exact Or.inl ⟨rfl, hs, hne, rfl⟩
    rw [if_neg h2]
    refine (parse_primitive_emits ⟨_, vis, lim⟩ pos b r stack h).emits_mono ?_
    rintro ca p' st ⟨rfl, hs, rfl⟩
    exact Or.inl ⟨rfl, by rw [hs]; rfl, by rw [hs]; simp, rfl⟩

/-- The end of a pass makes no call of a visitor method. -/
theorem Res.Emits.emits_pass_end {P : Bool → JsonParserImpl → List OverFlowType → Prop}
    {r : Res ParseState Bool} {vis : List Event} {stack : List OverFlowType}
    (h : r.Emits vis stack P) :
    (r.bind fun call_again s1 =>
      if call_again then .ok call_again s1
      else .ok false (s1.1, chomp_whitespace s1.2)).Emits vis stack P := by
  refine Res.Emits.emits_bind (h.emits_mono fun a p st hp => (⟨rfl, hp⟩ : st = st ∧ P a p st)) ?_
  rintro ca s st ⟨-, hp⟩
  cases ca with
  | true => exact Res.Emits.emits_ok _ _ _ _ hp
  | false => exact Res.Emits.emits_ok _ _ _ _ hp

theorem parse_element_fresh_emits (below : List State) (vis : List Event) (lim : Nat)
    (c : Cursor) (stack : List OverFlowType) (h : stack.head? ≠ some .Object) :
    (parse_element ⟨{} :: below, vis, lim⟩ c).Emits vis stack fun ca p' st =>
      (ca = false ∧ p'.state_.tail = below ∧ p'.state_ ≠ [] ∧ st = close_value stack) ∨
      (ca = true ∧ (∃ s, p'.state_ = {} :: array_frame s :: below) ∧ st = .Array :: stack) ∨
      (ca = true ∧ (∃ s, p'.state_ = {} :: object_frame s :: below) ∧
        st = .Key :: .Object :: stack) := by
  obtain ⟨ws, hws, e1, e2, hh⟩ := chomp_whitespace_spec c
  obtain ⟨pos, rest⟩ := c
  simp only at e1 e2
  generalize chomp_whitespace ⟨pos, rest⟩ = c1 at e1 e2 hh
  obtain ⟨q, rest1⟩ := c1
  simp only at e1 e2 hh
  subst e1 e2
  rw [parse_element_fresh below vis lim pos ws rest1 hws hh]
  exact (parse_value_fresh_emits below vis lim _ stack h).emits_pass_end

theorem parse_element_array_emits (below : List State) (vis : List Event) (lim s : Nat)
    (c : Cursor) (stack : List OverFlowType) :
    (parse_element ⟨array_frame s :: below, vis, lim⟩ c).Emits vis (.Array :: stack)
      fun ca p' st =>
        (ca = true ∧ p'.state_ = {} :: array_frame s :: below ∧ st = .Array :: stack) ∨
        (ca = false ∧ p'.state_.tail = below ∧ p'.state_ ≠ [] ∧ st = close_value stack) := by
  have e : parse_element ⟨array_frame s :: below, vis, lim⟩ c =
      (parse_array 2 ⟨array_frame s :: below, vis, lim⟩ c).bind fun call_again s1 =>
        if call_again then .ok call_again s1 else .ok false (s1.1, chomp_whitespace s1.2) := by
    simp [parse_element, parse_value, JsonParserImpl.back, array_frame]
  rw [e]
  exact (parse_array_mid_emits below vis lim s c stack).emits_pass_end

theorem parse_element_object_emits (below : List State) (vis : List Event) (lim s : Nat)
    (c : Cursor) (stack : List OverFlowType) :
    (parse_element ⟨object_frame s :: below, vis, lim⟩ c).Emits vis (.Object :: stack)
      fun ca p' st =>
        (ca = true ∧ p'.state_ = {} :: object_frame s :: below ∧
          st = .Key :: .Object :: stack) ∨
        (ca = false ∧ p'.state_.tail = below ∧ p'.state_ ≠ [] ∧ st = close_value stack) := by
  have e : parse_element ⟨object_frame s :: below, vis, lim⟩ c =
      (parse_object 2 ⟨object_frame s :: below, vis, lim⟩ c).bind fun call_again s1 =>
        if call_again then .ok call_again s1 else .ok false (s1.1, chomp_whitespace s1.2) := by
    simp [parse_element, parse_value, JsonParserImpl.back, object_frame]
  rw [e]
  exact (parse_object_mid_emits below vis lim s c stack).emits_pass_end

end flumps


namespace flumps

/-! ## The calls of visitor methods made by a parse -/

theorem frames_close (below : List State)
    (h : ∀ g ∈ below, (∃ s, g = array_frame s) ∨ ∃ s, g = object_frame s) :
    close_value (awaited_key below ++ frame_marks below) = frame_marks below := by
  cases below with
  | nil => rfl
  | cons g rest =>
    rcases h g (List.mem_cons_self _ _) with ⟨s, rfl⟩ | ⟨s, rfl⟩
    · simp [awaited_key, frame_marks, opened_collection, array_frame, close_value]
    · simp [awaited_key, frame_marks, opened_collection, object_frame, close_value]

theorem frames_head (below : List State)
    (h : ∀ g ∈ below, (∃ s, g = array_frame s) ∨ ∃ s, g = object_frame s) :
    (awaited_key below ++ frame_marks below).head? ≠ some .Object := by
  cases below with
  | nil => simp [awaited_key, frame_marks]
  | cons g rest =>
    rcases h g (List.mem_cons_self _ _) with ⟨s, rfl⟩ | ⟨s, rfl⟩
    · simp [awaited_key, frame_marks, opened_collection, array_frame]
    · simp [awaited_key, frame_marks, opened_collection, object_frame]

theorem Awaiting.frames_below : ∀ {below : List State} {pre : Bytes}, Awaiting below pre →
    ∀ g ∈ below, (∃ s, g = array_frame s) ∨ ∃ s, g = object_frame s
  | [], _, _ => by simp
  | f :: below, _, h => by
    obtain ⟨pre0, x, -, haw, hf⟩ := h
    intro g hg
    rcases List.mem_cons.1 hg with rfl | hg
    · rcases hf with ⟨hs, -⟩ | ⟨hs, -⟩
      · exact Or.inl hs
      · exact Or.inr hs
    · exact haw.frames_below g hg

theorem BetweenPasses.frames_between {stack : List State} {pre : Bytes}
    (h : BetweenPasses stack pre) :
    FramesBetween stack := by
  rcases h with ⟨below, rfl, haw⟩ | h
  · exact ⟨Or.inl rfl, haw.frames_below⟩
  · cases stack with
    | nil => trivial
    | cons f below =>
      obtain ⟨pre0, x, -, haw, hf⟩ := h
      refine ⟨Or.inr ?_, haw.frames_below⟩
      rcases hf with ⟨hs, -⟩ | ⟨hs, -⟩
      · exact Or.inl hs
      · exact Or.inr hs

theorem framesBetween_of_below (below : List State)
    (h : ∀ g ∈ below, (∃ s, g = array_frame s) ∨ ∃ s, g = object_frame s) :
    FramesBetween below := by
  cases below with
  | nil => trivial
  | cons g rest =>
    exact ⟨Or.inr (h g (List.mem_cons_self _ _)), fun x hx => h x (List.mem_cons_of_mem _ hx)⟩

/-- One pass of the loop of `parse_json`: the calls of visitor methods made in it are
expected after those made before, and the frames stand for the stack after them. -/
theorem parse_element_emits (p : JsonParserImpl) (c : Cursor) (h : FramesBetween p.state_)
    (hne : p.state_ ≠ []) :
    (parse_element p c).Emits p.visitor_ (frame_marks p.state_) fun ca p' st =>
      p'.state_ ≠ [] ∧ FramesBetween (if !ca then dec_depth p' else p').state_ ∧
        st = frame_marks (if !ca then dec_depth p' else p').state_ := by
  obtain ⟨st, vis, lim⟩ := p
  cases st with
  | nil => exact absurd rfl hne
  | cons f below =>
    obtain ⟨hf, hb⟩ := h
    have hclose := frames_close below hb
    have hhead := frames_head below hb
    have hbelow := framesBetween_of_below below hb
    rcases hf with rfl | ⟨s, rfl⟩ | ⟨s, rfl⟩
    · have e : frame_marks (({} : State) :: below) = awaited_key below ++ frame_marks below := by
        simp [frame_marks, opened_collection]
      simp only [e]
      refine (parse_element_fresh_emits below vis lim c _ hhead).emits_mono ?_
      rintro ca p' st (⟨rfl, hs, hn, rfl⟩ | ⟨rfl, ⟨s, hs⟩, rfl⟩ | ⟨rfl, ⟨s, hs⟩, rfl⟩)
      · simp only [Bool.not_false, if_true, dec_depth, hs]
        exact ⟨hn, hbelow, hclose⟩
      · simp only [Bool.not_true, Bool.false_eq_true, if_false, hs]
        refine ⟨by simp, ⟨Or.inl rfl, ?_⟩, ?_⟩
        · intro g hg
          rcases List.mem_cons.1 hg with rfl | hg
          · exact Or.inl ⟨s, rfl⟩
          · exact hb g hg
        · simp [frame_marks, opened_collection, awaited_key, array_frame]
      · simp only [Bool.not_true, Bool.false_eq_true, if_false, hs]
        refine ⟨by simp, ⟨Or.inl rfl, ?_⟩, ?_⟩
        · intro g hg
          rcases List.mem_cons.1 hg with rfl | hg
          · exact Or.inr ⟨s, rfl⟩
          · exact hb g hg
        · simp [frame_marks, opened_collection, awaited_key, object_frame]
    · have e : frame_marks (array_frame s :: below) =
          .Array :: (awaited_key below ++ frame_marks below) := by
        simp [frame_marks, opened_collection, array_frame]
      simp only [e]
      refine (parse_element_array_emits below vis lim s c _).emits_mono ?_
      rintro ca p' st (⟨rfl, hs, rfl⟩ | ⟨rfl, hs, hn, rfl⟩)
      · simp only [Bool.not_true, Bool.false_eq_true, if_false, hs]
        refine ⟨by simp, ⟨Or.inl rfl, ?_⟩, ?_⟩
        · intro g hg
          rcases List.mem_cons.1 hg with rfl | hg
          · exact Or.inl ⟨s, rfl⟩
          · exact hb g hg
        · simp [frame_marks, opened_collection, awaited_key, array_frame]
      · simp only [Bool.not_false, if_true, dec_depth, hs]
        exact ⟨hn, hbelow, hclose⟩
    · have e : frame_marks (object_frame s :: below) =
          .Object :: (awaited_key below ++ frame_marks below) := by
        simp [frame_marks, opened_collection, object_frame]
      simp only [e]
      refine (parse_element_object_emits below vis lim s c _).emits_mono ?_
      rintro ca p' st (⟨rfl, hs, rfl⟩ | ⟨rfl, hs, hn, rfl⟩)
      · simp only [Bool.not_true, Bool.false_eq_true, if_false, hs]
        refine ⟨by simp, ⟨Or.inl rfl, ?_⟩, ?_⟩
        · intro g hg
          rcases List.mem_cons.1 hg with rfl | hg
          · exact Or.inr ⟨s, rfl⟩
          · exact hb g hg
        · simp [frame_marks, opened_collection, awaited_key, object_frame]
      · simp only [Bool.not_false, if_true, dec_depth, hs]
        exact ⟨hn, hbelow, hclose⟩

theorem dec_depth_visitor (ca : Bool) (p : JsonParserImpl) :
    (if !ca then dec_depth p else p).visitor_ = p.visitor_ := by
  cases ca <;> rfl

/-- The loop of `parse_json`: however it ends, the calls of visitor methods made in it are
expected one after the other. -/
theorem parse_json_loop_emits (fuel : Nat) : ∀ (p : JsonParserImpl) (c : Cursor)
    (pre : Bytes), c.rest.length < fuel → BetweenPasses p.state_ pre → p.state_ ≠ [] →
    (parse_json_loop fuel p c).Emits p.visitor_ (frame_marks p.state_) fun _ _ _ => True := by
  induction fuel with
  | zero => intro p c pre h; omega
  | succ fuel ih =>
    intro p c pre hlen hbp hne
    rw [parse_json_loop_succ]
    have hs := parse_element_pass p c pre hbp hne
    have he := parse_element_emits p c hbp.frames_between hne
    cases hr : parse_element p c with
    | fuel => rw [hr] at hs; exact hs.elim
    | throw e s => rw [hr] at he; exact he
    | ok ca s =>
      rw [hr] at hs he
      obtain ⟨t, g1, g2, hnil, hq⟩ := hs
      obtain ⟨es, st, h1, h2, -, -, rfl⟩ := he
      simp only [Res.bind_ok]
      have hv := dec_depth_visitor ca s.1
      generalize (if (!ca) = true then dec_depth s.1 else s.1) = q at hq hv h2
      unfold loop_tail
      split_ifs with k1 k2
      · exact ⟨es, _, by rw [hv, h1], h2⟩
      · have hl : s.2.rest.length < fuel := by
          have := congrArg List.length g1
          have : 0 < t.length := List.length_pos.2 hnil
          simp only [List.length_append] at *
          omega
        have hq1 : q.state_ ≠ [] := fun h => k1 ⟨h, k2⟩
        have := ih q s.2 (pre ++ t) hl hq hq1
        rw [hv, h1] at this
        exact Res.Emits.emits_after es _ h2 this
      · exact ⟨es, _, by rw [hv, h1], h2, trivial⟩

/-- A call of `parse_json` ends, and the calls of visitor methods made in it are expected
one after the other, whether it returns or throws. -/
theorem parse_json_emits (p : JsonParserImpl) (input : Bytes) :
    (parse_json p input).Emits p.visitor_ [] fun _ _ _ => True := by
  have h0 : BetweenPasses [({} : State)] [] := Or.inl ⟨[], rfl, rfl⟩
  have hl := parse_json_loop_emits (input.length + 1) ⟨[{}], p.visitor_, p.depth_limit_⟩
    ⟨0, input⟩ [] (Nat.lt_succ_self _) h0 (by simp)
  have e0 : frame_marks [({} : State)] = [] := rfl
  rw [e0] at hl
  simp only at hl
  unfold parse_json
  rw [inc_depth_first]
  simp only [Res.bind_ok]
  cases hloop : parse_json_loop (input.length + 1) ⟨[{}], p.visitor_, p.depth_limit_⟩
      ⟨0, input⟩ with
  | fuel => rw [hloop] at hl; exact hl.elim
  | throw e s =>
    rw [hloop] at hl
    simpa only [Res.bind_throw] using hl
  | ok u s =>
    rw [hloop] at hl
    obtain ⟨es, st, h1, h2, -⟩ := hl
    simp only [Res.bind_ok]
    split_ifs
    · exact ⟨es, st, h1, h2⟩
    · exact ⟨es, st, h1, h2, trivial⟩

/-! ## The passes of the loop -/

/-- Every pass of the loop starts with a frame on the stack and reads one byte at least
when it returns, so that there are no more passes than bytes, and one. -/
theorem parse_json_passes_advance (fuel : Nat) : ∀ (p : JsonParserImpl) (c : Cursor)
    (pre : Bytes), BetweenPasses p.state_ pre → p.state_ ≠ [] →
    (parse_json_passes fuel p c).length ≤ c.rest.length + 1 ∧
      ∀ q ∈ parse_json_passes fuel p c, PassAdvances q := by
  induction fuel with
  | zero => intro p c pre _ _; simp [parse_json_passes]
  | succ fuel ih =>
    intro p c pre hbp hne
    have hs := parse_element_pass p c pre hbp hne
    have he := parse_element_emits p c hbp.frames_between hne
    have hadv : PassAdvances (p, c) := by
      refine ⟨hne, ?_⟩
      cases hr : parse_element p c with
      | fuel => rw [hr] at hs; exact hs.elim
      | throw e s => trivial
      | ok ca s =>
        rw [hr] at hs he
        obtain ⟨t, g1, g2, hnil, hq⟩ := hs
        obtain ⟨es, st, h1, h2, hn, -, -⟩ := he
        refine ⟨?_, hn⟩
        have := congrArg List.length g1
        have : 0 < t.length := List.length_pos.2 hnil
        simp only [List.length_append] at *
        omega
    simp only [parse_json_passes]
    cases hr : parse_element p c with
    | fuel => simpa using hadv
    | throw e s => simpa using hadv
    | ok ca s =>
      rw [hr] at hs
      obtain ⟨t, g1, g2, hnil, hq⟩ := hs
      simp only []
      generalize (if (!ca) = true then dec_depth s.1 else s.1) = q0 at hq ⊢
      split_ifs with k1 k2
      · simpa using hadv
      · have hq1 : q0.state_ ≠ [] := fun h => k1 ⟨h, k2⟩
        obtain ⟨i1, i2⟩ := ih q0 s.2 (pre ++ t) hq hq1
        have hl : s.2.rest.length < c.rest.length := by
          have := congrArg List.length g1
          have : 0 < t.length := List.length_pos.2 hnil
          simp only [List.length_append] at *
          omega
        refine ⟨by simp only [List.length_cons]; omega, ?_⟩
        intro q hq2
        rcases List.mem_cons.1 hq2 with rfl | hq2
        · exact hadv
        · exact i2 q hq2
      · simpa using hadv

end flumps


namespace flumps

open JsonCallbackVisitorImpl

/-! ## The dispatcher on calls that are expected one after the other -/

theorem AtValue.spec {regs : List (JsonValuePath × Nat)} {pos : List Node}
    {loc : List LocationStep} {marks : List OverFlowType} (h : AtValue regs pos loc marks) :
    ∃ n anc, pos = n :: anc ∧ n.type ≠ .Object ∧ Covers regs loc n ∧ n.KeysNonEmpty ∧
      (dispatcher_path loc = [] ∨ 2 ≤ (dispatcher_path loc).length) ∧
      marks.head? ≠ some .Object := by
  induction h with
  | root n ht hk hc =>
    exact ⟨n, [], rfl, by rw [ht]; decide, hc, hk, Or.inl rfl, by simp⟩
  | element a n anc loc marks _ he ih =>
    obtain ⟨n1, anc1, e, -, hc, hk, -, -⟩ := ih
    obtain ⟨rfl, rfl⟩ := List.cons.inj e
    have ha := List.find?_some (by simpa [Node.enter] using he)
    simp only [decide_eq_true_eq] at ha
    exact ⟨a, _, rfl, by rw [ha]; decide, hc.covers_of_enter _ he,
      hk.keys_of_enter _ he, dispatcher_path_element_length loc, by simp⟩
  | member c o n anc loc marks key _ ho hf ih =>
    obtain ⟨n1, anc1, e, -, hc, hk, -, -⟩ := ih
    obtain ⟨rfl, rfl⟩ := List.cons.inj e
    have he : n.enter (.member key) = some c := by
      simp only [Node.enter, ho, Option.some_bind]
      exact hf
    have hck := List.find?_some hf
    simp only [decide_eq_true_eq] at hck
    have hne : key ≠ [] := hk [] key (by simp [Node.walk, he])
    exact ⟨c, _, rfl, by rw [hck.1]; decide, hc.covers_of_enter _ he,
      hk.keys_of_enter _ he, dispatcher_path_member_length loc key hne, by simp⟩

theorem AtValue.not_object {regs : List (JsonValuePath × Nat)} {n : Node} {anc : List Node}
    {loc : List LocationStep} {marks : List OverFlowType}
    (h : AtValue regs (n :: anc) loc marks) : n.type ≠ .Object := by
  obtain ⟨n1, anc1, e, hn, -⟩ := h.spec
  obtain ⟨rfl, rfl⟩ := List.cons.inj e
  exact hn

theorem AtValue.covers {regs : List (JsonValuePath × Nat)} {n : Node} {anc : List Node}
    {loc : List LocationStep} {marks : List OverFlowType}
    (h : AtValue regs (n :: anc) loc marks) : Covers regs loc n := by
  obtain ⟨n1, anc1, e, -, hc, -⟩ := h.spec
  obtain ⟨rfl, rfl⟩ := List.cons.inj e
  exact hc

theorem AtValue.path_length {regs : List (JsonValuePath × Nat)} {pos : List Node}
    {loc : List LocationStep} {marks : List OverFlowType} (h : AtValue regs pos loc marks) :
    dispatcher_path loc = [] ∨ 2 ≤ (dispatcher_path loc).length := by
  obtain ⟨n1, anc1, -, -, -, -, hp, -⟩ := h.spec
  exact hp

theorem AtValue.head_marks {regs : List (JsonValuePath × Nat)} {pos : List Node}
    {loc : List LocationStep} {marks : List OverFlowType} (h : AtValue regs pos loc marks) :
    marks.head? ≠ some .Object := by
  obtain ⟨n1, anc1, -, -, -, -, -, hh⟩ := h.spec
  exact hh

/-- After the callbacks for a value the dispatcher stands where the end of the value leads:
at the same node, or at the object node when the value was that of a member. -/
theorem step_back_up_tracks {regs : List (JsonValuePath × Nat)} {pos : List Node}
    {loc : List LocationStep} {marks : List OverFlowType}
    (h : AtValue regs pos loc marks) (root : Node) (inv : List Invocation) :
    ∃ v1, step_back_up ⟨root, pos, [], dispatcher_path loc, inv⟩ = some v1 ∧
      Tracks regs v1 (close_value marks) := by
  cases h with
  | root n ht hk hc =>
    exact ⟨_, rfl, Or.inl ⟨[], [], AtValue.root n ht hk hc, rfl, rfl⟩⟩
  | element a n anc loc marks hat he =>
    refine ⟨_, step_back_up_stay root a n anc [] _ inv hat.not_object, ?_⟩
    exact Or.inl ⟨_, _, AtValue.element a n anc loc marks hat he, rfl, rfl⟩
  | member c o n anc loc marks key hat ho hf =>
    have hoo := List.find?_some ho
    simp only [decide_eq_true_eq] at hoo
    have hck := List.find?_some hf
    simp only [decide_eq_true_eq] at hck
    have e : dispatcher_path (loc ++ [.member key]) = (dispatcher_path loc ++ [0x2E]) ++ c.key := by
      rw [dispatcher_path_member, hck.2]
    rw [e]
    refine ⟨_, step_back_up_key root c o (n :: anc) [] _ inv hoo, ?_⟩
    exact Or.inr ⟨o, n, anc, loc, marks, rfl, hoo, ho, hat, rfl, rfl⟩

/-- The end of an array at the array node of a node that awaits a value. -/
theorem on_array_end_tracks {regs : List (JsonValuePath × Nat)} {pos : List Node}
    {loc : List LocationStep} {marks stack1 : List OverFlowType}
    (h : AtValue regs pos loc marks) (root : Node) (inv : List Invocation) (s l : Nat)
    (hp : protocol_step marks (.on_array_end s l) = some stack1) :
    ∃ v1, on_array_end ⟨root, pos, [], dispatcher_path loc, inv⟩ s l = some v1 ∧
      Tracks regs v1 stack1 := by
  cases h with
  | root n ht hk1 hc1 => simp [protocol_step] at hp
  | element a n1 anc1 loc1 marks1 hat1 he =>
    simp only [protocol_step, Option.some.injEq] at hp
    subst hp
    have ha := List.find?_some (by simpa [Node.enter] using he)
    simp only [decide_eq_true_eq] at ha
    rw [on_array_end_covers regs root a n1 anc1 loc1 inv ha hat1.covers hat1.path_length s l]
    exact step_back_up_tracks hat1 root _
  | member c o n1 anc1 loc1 marks1 key hat1 ho hf => simp [protocol_step] at hp

/-- The end of a collection that leaves the overflow empty while the dispatcher stands at an
object node. -/
theorem do_collection_end_last (root o n : Node) (anc : List Node)
    (traits : JsonCollectionTraits) (path : Bytes) (inv : List Invocation) (s l : Nat)
    (hn : n.type ≠ .Object) :
    ∃ inv1, do_collection_end ⟨root, o :: n :: anc, [traits.overflow_type], path, inv⟩ traits
        s l = some ⟨root, o :: n :: anc, [], path, inv1⟩ :=
  ⟨inv ++ o.callbacks.map fun callback =>
      ⟨callback, traits.value_type, if path.isEmpty then [0x2E] else path, s, l⟩,
    by simp [do_collection_end, exec_callbacks, step_back_up, hn]⟩

theorem close_value_cons (m : OverFlowType) (rest : List OverFlowType) :
    close_value (m :: rest) = if m = .Key then rest else m :: rest := by
  cases m <;> rfl

/-- An event that is expected is handled, and the dispatcher stands where it leads. -/
theorem visit_tracks (regs : List (JsonValuePath × Nat)) (input : Bytes)
    (v : JsonCallbackVisitorImpl) (stack stack1 : List OverFlowType) (e : Event)
    (h : Tracks regs v stack) (hp : protocol_step stack e = some stack1) :
    ∃ v1, v.visit input e = some v1 ∧ Tracks regs v1 stack1 := by
  obtain ⟨root, pos, ov, path, inv⟩ := v
  rcases h with ⟨loc, marks, hat, hpath, rfl⟩ |
    ⟨o, n, anc, loc, marks, hpos, ho, hno, hat, hpath, rfl⟩
  · -- the dispatcher awaits a value
    simp only at hat hpath hp
    subst hpath
    obtain ⟨n, anc, rfl, hn, hc, hk, hpl, hh⟩ := hat.spec
    cases ov with
    | nil =>
      simp only [List.nil_append] at hp
      cases e with
      | on_array_start s =>
        simp only [protocol_step, hh, if_false, Option.some.injEq] at hp
        subst hp
        simp only [visit]
        rw [on_array_start_covers root n anc loc inv hn s]
        cases he : n.enter .element with
        | none => exact ⟨_, rfl, Or.inl ⟨loc, marks, hat, rfl, rfl⟩⟩
        | some a =>
          exact ⟨_, rfl, Or.inl ⟨_, _, AtValue.element a n anc loc marks hat he, rfl, rfl⟩⟩
      | on_object_start s =>
        simp only [protocol_step, hh, if_false, Option.some.injEq] at hp
        subst hp
        simp only [visit]
        rw [on_object_start_covers root n anc loc inv hn s]
        cases hf : n.children.find? (fun c => decide (c.type = .Object)) with
        | none => exact ⟨_, rfl, Or.inl ⟨loc, marks, hat, rfl, rfl⟩⟩
        | some o =>
          have hoo := List.find?_some hf
          simp only [decide_eq_true_eq] at hoo
          exact ⟨_, rfl, Or.inr ⟨o, n, anc, loc, marks, rfl, hoo, hf, hat, rfl, rfl⟩⟩
      | on_object_key s l =>
        simp [protocol_step, hh] at hp
      | on_primitive_value type s l =>
        simp only [protocol_step, hh, if_false, Option.some.injEq] at hp
        subst hp
        simp only [visit]
        rw [on_primitive_value_covers regs root n anc loc inv hn hc type s l]
        exact step_back_up_tracks hat root _
      | on_array_end s l =>
        simp only [visit]
        exact on_array_end_tracks hat root inv s l hp
      | on_object_end s l =>
        cases marks with
        | nil => simp [protocol_step] at hp
        | cons m rest => cases m <;> simp [protocol_step] at hp hh
    | cons back below =>
      simp only [List.cons_append] at hp
      cases e with
      | on_array_start s =>
        have hb : back ≠ .Object := by
          intro hb
          simp [protocol_step, hb] at hp
        simp only [protocol_step, List.head?_cons, Option.some.injEq, hb, if_false] at hp
        subst hp
        simp only [visit, on_array_start]
        rw [do_collection_start_overflow root _ back below _ inv hb]
        exact ⟨_, rfl, Or.inl ⟨loc, marks, hat, rfl, rfl⟩⟩
      | on_object_start s =>
        have hb : back ≠ .Object := by
          intro hb
          simp [protocol_step, hb] at hp
        simp only [protocol_step, List.head?_cons, Option.some.injEq, hb, if_false] at hp
        subst hp
        simp only [visit, on_object_start]
        rw [do_collection_start_overflow root _ back below _ inv hb]
        exact ⟨_, rfl, Or.inl ⟨loc, marks, hat, rfl, rfl⟩⟩
      | on_object_key s l =>
        have hb : back = .Object := by
          by_contra hb
          simp [protocol_step, hb] at hp
        subst hb
        simp only [protocol_step, List.head?_cons, if_true, Option.some.injEq] at hp
        subst hp
        simp only [visit]
        rw [on_object_key_overflow]
        exact ⟨_, rfl, Or.inl ⟨loc, marks, hat, rfl, rfl⟩⟩
      | on_primitive_value type s l =>
        have hb : back ≠ .Object := by
          intro hb
          simp [protocol_step, hb] at hp
        simp only [protocol_step, List.head?_cons, Option.some.injEq, hb, if_false] at hp
        subst hp
        simp only [visit]
        rw [on_primitive_value_overflow root _ back below _ inv hb]
        refine ⟨_, rfl, Or.inl ⟨loc, marks, hat, rfl, ?_⟩⟩
        rw [close_value_cons]
        split_ifs <;> rfl
      | on_array_end s l =>
        cases back with
        | Object => simp [protocol_step] at hp
        | Key => simp [protocol_step] at hp
        | Array =>
          simp only [protocol_step, Option.some.injEq] at hp
          subst hp
          simp only [visit]
          cases below with
          | nil =>
            rw [on_array_end_overflow regs root n anc loc inv hc s l]
            exact step_back_up_tracks hat root _
          | cons m2 below2 =>
            have := do_collection_end_overflow root (n :: anc) m2 below2 (dispatcher_path loc)
              inv json_array_traits s l
            simp only [on_array_end]
            rw [show OverFlowType.Array = json_array_traits.overflow_type from rfl, this]
            refine ⟨_, rfl, Or.inl ⟨loc, marks, hat, rfl, ?_⟩⟩
            rw [List.cons_append, close_value_cons]
            split_ifs <;> rfl
      | on_object_end s l =>
        cases back with
        | Array => simp [protocol_step] at hp
        | Key => simp [protocol_step] at hp
        | Object =>
          simp only [protocol_step, Option.some.injEq] at hp
          subst hp
          simp only [visit]
          cases below with
          | nil =>
            rw [on_object_end_overflow regs root n anc loc inv hc s l]
            exact step_back_up_tracks hat root _
          | cons m2 below2 =>
            have := do_collection_end_overflow root (n :: anc) m2 below2 (dispatcher_path loc)
              inv json_object_traits s l
            simp only [on_object_end]
            rw [show OverFlowType.Object = json_object_traits.overflow_type from rfl, this]
            refine ⟨_, rfl, Or.inl ⟨loc, marks, hat, rfl, ?_⟩⟩
            rw [List.cons_append, close_value_cons]
            split_ifs <;> rfl
  · -- the dispatcher stands at an object node
    simp only at hpos hpath hp
    subst hpos hpath
    have hn := hat.not_object
    have hc := hat.covers
    cases ov with
    | nil =>
      simp only [List.nil_append] at hp
      cases e with
      | on_array_start s => simp [protocol_step] at hp
      | on_object_start s => simp [protocol_step] at hp
      | on_primitive_value type s l => simp [protocol_step] at hp
      | on_array_end s l => simp [protocol_step] at hp
      | on_object_key s l =>
        simp only [protocol_step, List.head?_cons, if_true, Option.some.injEq] at hp
        subst hp
        simp only [visit]
        rw [on_object_key_covers root o n anc loc inv ho hno]
        cases he : n.enter (.member ((input.drop s).take l)) with
        | none =>
          exact ⟨_, rfl, Or.inr ⟨o, n, anc, loc, marks, rfl, ho, hno, hat, rfl, rfl⟩⟩
        | some c =>
          have hf : o.children.find?
              (fun c => decide (c.type = .Key ∧ c.key = (input.drop s).take l)) = some c := by
            simpa [Node.enter, hno] using he
          exact ⟨_, rfl, Or.inl ⟨_, _, AtValue.member c o n anc loc marks _ hat hno hf, rfl,
            rfl⟩⟩
      | on_object_end s l =>
        simp only [protocol_step, Option.some.injEq] at hp
        subst hp
        simp only [visit]
        rw [on_object_end_covers regs root o n anc loc inv ho hc s l]
        exact step_back_up_tracks hat root _
    | cons back below =>
      simp only [List.cons_append] at hp
      cases e with
      | on_array_start s =>
        have hb : back ≠ .Object := by
          intro hb
          simp [protocol_step, hb] at hp
        simp only [protocol_step, List.head?_cons, Option.some.injEq, hb, if_false] at hp
        subst hp
        simp only [visit, on_array_start]
        rw [do_collection_start_overflow root _ back below _ inv hb]
        exact ⟨_, rfl, Or.inr ⟨o, n, anc, loc, marks, rfl, ho, hno, hat, rfl, rfl⟩⟩
      | on_object_start s =>
        have hb : back ≠ .Object := by
          intro hb
          simp [protocol_step, hb] at hp
        simp only [protocol_step, List.head?_cons, Option.some.injEq, hb, if_false] at hp
        subst hp
        simp only [visit, on_object_start]
        rw [do_collection_start_overflow root _ back below _ inv hb]
        exact ⟨_, rfl, Or.inr ⟨o, n, anc, loc, marks, rfl, ho, hno, hat, rfl, rfl⟩⟩
      | on_object_key s l =>
        have hb : back = .Object := by
          by_contra hb
          simp [protocol_step, hb] at hp
        subst hb
        simp only [protocol_step, List.head?_cons, if_true, Option.some.injEq] at hp
        subst hp
        simp only [visit]
        rw [on_object_key_overflow]
        exact ⟨_, rfl, Or.inr ⟨o, n, anc, loc, marks, rfl, ho, hno, hat, rfl, rfl⟩⟩
      | on_primitive_value type s l =>
        have hb : back ≠ .Object := by
          intro hb
          simp [protocol_step, hb] at hp
        simp only [protocol_step, List.head?_cons, Option.some.injEq, hb, if_false] at hp
        subst hp
        simp only [visit]
        rw [on_primitive_value_overflow root _ back below _ inv hb]
        refine ⟨_, rfl, Or.inr ⟨o, n, anc, loc, marks, rfl, ho, hno, hat, rfl, ?_⟩⟩
        rw [close_value_cons]
        split_ifs <;> rfl
      | on_array_end s l =>
        cases back with
        | Object => simp [protocol_step] at hp
        | Key => simp [protocol_step] at hp
        | Array =>
          simp only [protocol_step, Option.some.injEq] at hp
          subst hp
          simp only [visit]
          cases below with
          | nil =>
            obtain ⟨inv1, h1⟩ := do_collection_end_last root o n anc json_array_traits
              (dispatcher_path loc ++ [0x2E]) inv s l hn
            exact ⟨_, h1, Or.inr ⟨o, n, anc, loc, marks, rfl, ho, hno, hat, rfl, rfl⟩⟩
          | cons m2 below2 =>
            have := do_collection_end_overflow root (o :: n :: anc) m2 below2
              (dispatcher_path loc ++ [0x2E]) inv json_array_traits s l
            simp only [on_array_end]
            rw [show OverFlowType.Array = json_array_traits.overflow_type from rfl, this]
            refine ⟨_, rfl, Or.inr ⟨o, n, anc, loc, marks, rfl, ho, hno, hat, rfl, ?_⟩⟩
            rw [List.cons_append, close_value_cons]
            split_ifs <;> rfl
      | on_object_end s l =>
        cases back with
        | Array => simp [protocol_step] at hp
        | Key => simp [protocol_step] at hp
        | Object =>
          simp only [protocol_step, Option.some.injEq] at hp
          subst hp
          simp only [visit]
          cases below with
          | nil =>
            obtain ⟨inv1, h1⟩ := do_collection_end_last root o n anc json_object_traits
              (dispatcher_path loc ++ [0x2E]) inv s l hn
            exact ⟨_, h1, Or.inr ⟨o, n, anc, loc, marks, rfl, ho, hno, hat, rfl, rfl⟩⟩
          | cons m2 below2 =>
            have := do_collection_end_overflow root (o :: n :: anc) m2 below2
              (dispatcher_path loc ++ [0x2E]) inv json_object_traits s l
            simp only [on_object_end]
            rw [show OverFlowType.Object = json_object_traits.overflow_type from rfl, this]
            refine ⟨_, rfl, Or.inr ⟨o, n, anc, loc, marks, rfl, ho, hno, hat, rfl, ?_⟩⟩
            rw [List.cons_append, close_value_cons]
            split_ifs <;> rfl

/-- An event that is handled found the dispatcher in a state in which the `assert` of its
handler holds. -/
theorem visit_asserted (input : Bytes) (v v1 : JsonCallbackVisitorImpl) (e : Event)
    (h : v.visit input e = some v1) : v.asserted e = true := by
  obtain ⟨root, pos, ov, path, inv⟩ := v
  cases e with
  | on_array_start s =>
    simp only [visit, on_array_start, do_collection_start] at h
    simp only [asserted]
    cases ov with
    | nil =>
      cases pos with
      | nil => simp at h
      | cons n anc =>
        by_cases hn : n.type = .Object
        · simp [hn] at h
        · simp [hn]
    | cons back below =>
      by_cases hb : back = .Object
      · simp [hb] at h
      · simp [hb]
  | on_object_start s =>
    simp only [visit, on_object_start, do_collection_start] at h
    simp only [asserted]
    cases ov with
    | nil =>
      cases pos with
      | nil => simp at h
      | cons n anc =>
        by_cases hn : n.type = .Object
        · simp [hn] at h
        · simp [hn]
    | cons back below =>
      by_cases hb : back = .Object
      · simp [hb] at h
      · simp [hb]
  | on_primitive_value type s l =>
    simp only [visit, on_primitive_value] at h
    simp only [asserted]
    cases ov with
    | nil =>
      cases pos with
      | nil => simp at h
      | cons n anc =>
        by_cases hn : n.type = .Object
        · simp [hn] at h
        · simp [hn]
    | cons back below =>
      by_cases hb : back = .Object
      · simp [hb] at h
      · simp [hb]
  | on_object_key s l =>
    simp only [visit, on_object_key] at h
    simp only [asserted]
    cases ov with
    | nil =>
      cases pos with
      | nil => simp at h
      | cons n anc =>
        by_cases hn : n.type = .Object
        · simp [hn]
        · simp [hn] at h
    | cons back below =>
      by_cases hb : back = .Object
      · simp [hb]
      · simp [hb] at h
  | on_array_end s l =>
    simp only [visit, on_array_end, do_collection_end] at h
    simp only [asserted]
    cases ov with
    | nil =>
      cases pos with
      | nil => simp at h
      | cons n anc =>
        cases anc with
        | nil => simp at h
        | cons p above =>
          by_cases hn : n.type = json_array_traits.node_type
          · simp [hn]
          · simp [hn] at h
    | cons back below =>
      by_cases hb : back = json_array_traits.overflow_type
      · simp [hb]
      · simp [hb] at h
  | on_object_end s l =>
    simp only [visit, on_object_end, do_collection_end] at h
    simp only [asserted]
    cases ov with
    | nil =>
      cases pos with
      | nil => simp at h
      | cons n anc =>
        cases anc with
        | nil => simp at h
        | cons p above =>
          by_cases hn : n.type = json_object_traits.node_type
          · simp [hn]
          · simp [hn] at h
    | cons back below =>
      by_cases hb : back = json_object_traits.overflow_type
      · simp [hb]
      · simp [hb] at h

/-- Events that are expected one after the other are handled with every `assert` true. -/
theorem asserts_hold_of_run (regs : List (JsonValuePath × Nat)) (input : Bytes) :
    ∀ (es : List Event) (v : JsonCallbackVisitorImpl) (stack stack1 : List OverFlowType),
      Tracks regs v stack → protocol_run stack es = some stack1 →
      v.asserts_hold input es ∧ ∃ v1, v.feed input es = some v1 ∧ Tracks regs v1 stack1
  | [], v, stack, stack1, h, hr => by
    simp only [protocol_run, Option.some.injEq] at hr
    subst hr
    exact ⟨trivial, v, rfl, h⟩
  | e :: rest, v, stack, stack1, h, hr => by
    simp only [protocol_run, Option.bind_eq_some] at hr
    obtain ⟨s1, hs1, hr1⟩ := hr
    obtain ⟨v1, hv1, ht1⟩ := visit_tracks regs input v stack s1 e h hs1
    obtain ⟨ha, v2, hf, ht2⟩ := asserts_hold_of_run regs input rest v1 s1 stack1 ht1 hr1
    exact ⟨⟨visit_asserted input v v1 e hv1, v1, hv1, ha⟩, v2, by simp [feed, hv1, hf], ht2⟩

/-- The dispatcher after registrations stands at its root and awaits a value. -/
theorem registered_tracks (regs : List (JsonValuePath × Nat)) (inv : List Invocation) :
    Tracks regs { registered regs with invoked := inv } [] := by
  obtain ⟨root, hr, ht, hk, hc⟩ := registered_spec regs
  rw [hr]
  exact Or.inl ⟨[], [], AtValue.root root ht hk (fun rel => by simpa using hc rel), rfl, rfl⟩

end flumps


namespace flumps

/-! ## The tree of nodes after registrations -/

theorem update_match_labels (p : Node → Bool) (fresh : Node) (f : Node → Node)
    (hf : ∀ c, (f c).label = c.label) (cs : List Node) :
    (update_match p fresh f cs).map Node.label =
      cs.map Node.label ++ (if cs.any p then [] else [fresh.label]) := by
  induction cs with
  | nil => simp [update_match, hf]
  | cons c rest ih =>
    by_cases hc : p c = true
    · simp [update_match, hc, hf]
    · simp [update_match, hc, ih]

theorem nodes_wellFormed_iff (cs : List Node) :
    Nodes.WellFormed cs ↔ ∀ c ∈ cs, c.WellFormed := by
  induction cs with
  | nil => simp [Nodes.WellFormed]
  | cons c rest ih => simp [Nodes.WellFormed, ih]

theorem update_match_wellFormed (p : Node → Bool) (fresh : Node) (f : Node → Node)
    (cs : List Node) (h : Nodes.WellFormed cs)
    (hf : ∀ c ∈ cs, p c = true → c.WellFormed → (f c).WellFormed)
    (hfresh : (f fresh).WellFormed) : Nodes.WellFormed (update_match p fresh f cs) := by
  induction cs with
  | nil => exact ⟨hfresh, trivial⟩
  | cons c rest ih =>
    obtain ⟨hc, hrest⟩ := h
    by_cases hpc : p c = true
    · simp only [update_match, hpc, if_true]
      exact ⟨hf c (List.mem_cons_self _ _) hpc hc, hrest⟩
    · simp only [update_match, hpc, if_false]
      exact ⟨hc, ih hrest fun x hx => hf x (List.mem_cons_of_mem _ hx)⟩

theorem register_segments_label (segs : List PathSegment) (cb : Nat) (n : Node) :
    (register_segments segs cb n).label = n.label := by
  simp only [Node.label, register_segments_type, register_segments_key]

theorem childrenOk_object (t : NodeType) (ls : List (NodeType × Bytes)) (ht : t ≠ .Object)
    (h : ChildrenOk t ls) :
    ChildrenOk t (ls ++ if ls.any (fun l => decide (l.1 = .Object)) then []
      else [(.Object, [])]) := by
  by_cases ha : ls.any (fun l => decide (l.1 = .Object)) = true
  · rw [if_pos ha, List.append_nil]
    exact h
  · rw [if_neg ha]
    obtain ⟨h1, h2, h3, h4, h5⟩ := h
    have hno : ∀ l ∈ ls, l.1 ≠ .Object := by
      intro l hl hlo
      exact ha (List.any_eq_true.2 ⟨l, hl, by simpa using hlo⟩)
    have hz : ls.countP (fun l => decide (l.1 = .Object)) = 0 := by
      rw [List.countP_eq_zero]
      intro l hl
      simpa using hno l hl
    refine ⟨?_, ?_, ?_, ?_, fun hto => absurd hto ht⟩
    · simp [List.countP_append, hz]
    · simpa [List.countP_append] using h2
    · intro l hl
      rcases List.mem_append.1 hl with hl | hl
      · exact h3 l hl
      · simp only [List.mem_singleton] at hl
        subst hl
        intro hk
        cases hk
    · simpa [List.filter_append] using h4

theorem childrenOk_array (t : NodeType) (ls : List (NodeType × Bytes)) (ht : t ≠ .Object)
    (h : ChildrenOk t ls) :
    ChildrenOk t (ls ++ if ls.any (fun l => decide (l.1 = .Array)) then []
      else [(.Array, [])]) := by
  by_cases ha : ls.any (fun l => decide (l.1 = .Array)) = true
  · rw [if_pos ha, List.append_nil]
    exact h
  · rw [if_neg ha]
    obtain ⟨h1, h2, h3, h4, h5⟩ := h
    have hno : ∀ l ∈ ls, l.1 ≠ .Array := by
      intro l hl hlo
      exact ha (List.any_eq_true.2 ⟨l, hl, by simpa using hlo⟩)
    have hz : ls.countP (fun l => decide (l.1 = .Array)) = 0 := by
      rw [List.countP_eq_zero]
      intro l hl
      simpa using hno l hl
    refine ⟨?_, ?_, ?_, ?_, fun hto => absurd hto ht⟩
    · simpa [List.countP_append] using h1
    · simp [List.countP_append, hz]
    · intro l hl
      rcases List.mem_append.1 hl with hl | hl
      · exact h3 l hl
      · simp only [List.mem_singleton] at hl
        subst hl
        intro hk
        cases hk
    · simpa [List.filter_append] using h4

theorem childrenOk_key (ls : List (NodeType × Bytes)) (k : Bytes) (hk : k ≠ [])
    (h : ChildrenOk .Object ls) :
    ChildrenOk .Object (ls ++ if ls.any (fun l => decide (l.1 = .Key ∧ l.2 = k)) then []
      else [(.Key, k)]) := by
  by_cases ha : ls.any (fun l => decide (l.1 = .Key ∧ l.2 = k)) = true
  · rw [if_pos ha, List.append_nil]
    exact h
  · rw [if_neg ha]
    obtain ⟨h1, h2, h3, h4, h5⟩ := h
    have hno : ∀ l ∈ ls, ¬ (l.1 = .Key ∧ l.2 = k) := by
      intro l hl hlo
      exact ha (List.any_eq_true.2 ⟨l, hl, by simpa using hlo⟩)
    refine ⟨?_, ?_, ?_, ?_, ?_⟩
    · simpa [List.countP_append] using h1
    · simpa [List.countP_append] using h2
    · intro l hl
      rcases List.mem_append.1 hl with hl | hl
      · exact h3 l hl
      · simp only [List.mem_singleton] at hl
        subst hl
        exact fun _ => ⟨rfl, hk⟩
    · simp only [List.filter_append, List.map_append, List.filter_cons, decide_True, if_true,
        List.filter_nil, List.map_cons, List.map_nil]
      rw [List.nodup_append]
      refine ⟨h4, List.nodup_singleton _, ?_⟩
      intro x hx hx1
      simp only [List.mem_singleton] at hx1
      subst hx1
      obtain ⟨l, hl, rfl⟩ := List.mem_map.1 hx
      have hl1 := List.mem_filter.1 hl
      exact hno l hl1.1 ⟨by simpa using hl1.2, rfl⟩
    · intro _ l hl
      rcases List.mem_append.1 hl with hl | hl
      · exact h5 rfl l hl
      · simp only [List.mem_singleton] at hl
        subst hl
        rfl

theorem any_label (cs : List Node) (q : NodeType × Bytes → Bool) :
    cs.any (fun c => q c.label) = (cs.map Node.label).any q := by
  induction cs with
  | nil => rfl
  | cons c rest ih => simp [ih]

/-- A registration leaves the tree well formed; the node it starts from is not an object
node. -/
theorem register_segments_wellFormed (segs : List PathSegment) (cb : Nat) :
    ∀ n : Node, n.WellFormed → n.type ≠ .Object → (register_segments segs cb n).WellFormed := by
  induction segs with
  | nil =>
    intro n hn _
    cases n with
    | mk t cbs cs k => exact hn
  | cons seg rest ih =>
    intro n hn ht
    cases n with
    | mk t cbs cs k =>
      obtain ⟨hl, hcs⟩ := hn
      simp only [Node.type_mk] at ht
      by_cases hobj : seg.is_object = true
      · have hkey : seg.key ≠ [] := by
          intro h0
          simp [PathSegment.is_object, h0] at hobj
        simp only [register_segments, hobj, if_true]
        refine ⟨?_, ?_⟩
        · have hl2 : ∀ F : Node → Node, (∀ o, (F o).label = o.label) →
              ChildrenOk t ((update_match (fun c => decide (c.type = .Object))
                Node.object_node F cs).map Node.label) := by
            intro F hF
            rw [update_match_labels _ _ F hF]
            have := childrenOk_object t _ ht hl
            rw [← any_label cs (fun l => decide (l.1 = .Object))] at this
            exact this
          exact hl2 _ (fun o => rfl)
        · have hF : ∀ o : Node, o.WellFormed → o.type = .Object →
              (Node.mk o.type o.callbacks
                (update_match (fun c => decide (c.type = .Key ∧ c.key = seg.key))
                  (Node.key_node seg.key) (register_segments rest cb) o.children)
                o.key).WellFormed := by
            intro o ho hto
            cases o with
            | mk t1 cbs1 cs1 k1 =>
              obtain ⟨hl1, hcs1⟩ := ho
              simp only [Node.type_mk] at hto
              subst hto
              simp only [Node.type_mk, Node.children_mk]
              refine ⟨?_, ?_⟩
              · rw [update_match_labels _ _ (register_segments rest cb)
                  (register_segments_label rest cb)]
                have := childrenOk_key _ seg.key hkey hl1
                rw [← any_label cs1 (fun l => decide (l.1 = .Key ∧ l.2 = seg.key))] at this
                exact this
              · refine update_match_wellFormed _ _ _ cs1 hcs1 ?_ ?_
                · intro c _ hpc hc
                  simp only [decide_eq_true_eq] at hpc
                  exact ih c hc (by rw [hpc.1]; decide)
                · exact ih _ ⟨by simp [ChildrenOk, Node.key_node], trivial⟩ (by
                    simp [Node.key_node])
          refine update_match_wellFormed _ _ _ cs hcs ?_ ?_
          · intro o _ hpo ho
            simp only [decide_eq_true_eq] at hpo
            exact hF o ho hpo
          · exact hF Node.object_node ⟨by simp [ChildrenOk, Node.object_node], trivial⟩ rfl
      · simp only [register_segments, hobj, if_false, Bool.false_eq_true]
        refine ⟨?_, ?_⟩
        · rw [update_match_labels _ _ (register_segments rest cb)
            (register_segments_label rest cb)]
          have := childrenOk_array t _ ht hl
          rw [← any_label cs (fun l => decide (l.1 = .Array))] at this
          exact this
        · refine update_match_wellFormed _ _ _ cs hcs ?_ ?_
          · intro c _ hpc hc
            simp only [decide_eq_true_eq] at hpc
            exact ih c hc (by rw [hpc]; decide)
          · exact ih _ ⟨by simp [ChildrenOk, Node.array_node], trivial⟩ (by
              simp [Node.array_node])

/-! ### The numbers of callbacks and of nodes -/

theorem update_match_count_callbacks (p : Node → Bool) (fresh : Node) (f : Node → Node)
    (hf : ∀ c, (f c).count_callbacks = c.count_callbacks + 1)
    (hfresh : fresh.count_callbacks = 0) (cs : List Node) :
    Nodes.count_callbacks (update_match p fresh f cs) = Nodes.count_callbacks cs + 1 := by
  induction cs with
  | nil => simp [update_match, Nodes.count_callbacks, hf, hfresh]
  | cons c rest ih =>
    by_cases hc : p c = true
    · simp only [update_match, hc, if_true, Nodes.count_callbacks, hf]
      omega
    · simp only [update_match, hc, if_false, Nodes.count_callbacks, ih]
      omega

/-- A registration stores one callback more. -/
theorem register_segments_count_callbacks (segs : List PathSegment) (cb : Nat) :
    ∀ n : Node, (register_segments segs cb n).count_callbacks = n.count_callbacks + 1 := by
  induction segs with
  | nil =>
    intro n
    cases n with
    | mk t cbs cs k =>
      simp only [register_segments, Node.count_callbacks, List.length_append,
        List.length_singleton]
      omega
  | cons seg rest ih =>
    intro n
    cases n with
    | mk t cbs cs k =>
      by_cases hobj : seg.is_object = true
      · have hF : ∀ o : Node,
            (Node.mk o.type o.callbacks
              (update_match (fun c => decide (c.type = .Key ∧ c.key = seg.key))
                (Node.key_node seg.key) (register_segments rest cb) o.children)
              o.key).count_callbacks = o.count_callbacks + 1 := by
          intro o
          cases o with
          | mk t1 cbs1 cs1 k1 =>
            simp only [Node.type_mk, Node.children_mk, Node.count_callbacks, Node.callbacks,
              Node.key]
            rw [update_match_count_callbacks _ (Node.key_node seg.key)
              (register_segments rest cb) ih rfl]
            omega
        simp only [register_segments, hobj, if_true, Node.count_callbacks]
        rw [update_match_count_callbacks _ Node.object_node _ hF rfl]
        omega
      · simp only [register_segments, hobj, if_false, Bool.false_eq_true,
          Node.count_callbacks]
        rw [update_match_count_callbacks _ Node.array_node (register_segments rest cb) ih rfl]
        omega

theorem update_match_count_nodes (p : Node → Bool) (fresh : Node) (f : Node → Node)
    (cs : List Node) (c : Node) (hfind : cs.find? p = some c)
    (hf : (f c).count_nodes = c.count_nodes) :
    Nodes.count_nodes (update_match p fresh f cs) = Nodes.count_nodes cs := by
  induction cs with
  | nil => simp at hfind
  | cons x rest ih =>
    by_cases hx : p x = true
    · simp only [List.find?_cons, hx, Option.some.injEq] at hfind
      subst hfind
      simp only [update_match, hx, if_true, Nodes.count_nodes, hf]
    · have hx1 : p x = false := by simpa using hx
      simp only [List.find?_cons, hx1] at hfind
      simp only [update_match, hx, if_false, Nodes.count_nodes, ih hfind]

/-- A registration of a path whose nodes exist makes no node. -/
theorem register_segments_count_nodes (segs : List PathSegment) (cb : Nat) :
    ∀ n : Node, n.HasPath segs → (register_segments segs cb n).count_nodes = n.count_nodes := by
  induction segs with
  | nil =>
    intro n _
    cases n with
    | mk t cbs cs k => rfl
  | cons seg rest ih =>
    intro n hn
    cases n with
    | mk t cbs cs k =>
      by_cases hobj : seg.is_object = true
      · simp only [Node.HasPath, hobj, if_true, Node.children_mk] at hn
        obtain ⟨o, c, ho, hc, hrest⟩ := hn
        simp only [register_segments, hobj, if_true, Node.count_nodes]
        rw [update_match_count_nodes _ _ _ cs o ho]
        cases o with
        | mk t1 cbs1 cs1 k1 =>
          simp only [Node.children_mk] at hc
          simp only [Node.type_mk, Node.children_mk, Node.count_nodes]
          rw [update_match_count_nodes _ _ _ cs1 c hc (ih c hrest)]
      · simp only [Node.HasPath, hobj, if_false, Bool.false_eq_true, Node.children_mk] at hn
        obtain ⟨a, ha, hrest⟩ := hn
        simp only [register_segments, hobj, if_false, Bool.false_eq_true, Node.count_nodes]
        rw [update_match_count_nodes _ _ _ cs a ha (ih a hrest)]

/-- After the registration of a path its nodes exist. -/
theorem register_segments_hasPath (segs : List PathSegment) (cb : Nat) :
    ∀ n : Node, (register_segments segs cb n).HasPath segs := by
  induction segs with
  | nil => intro n; trivial
  | cons seg rest ih =>
    intro n
    cases n with
    | mk t cbs cs k =>
      by_cases hobj : seg.is_object = true
      · simp only [Node.HasPath, register_segments, hobj, if_true, Node.children_mk]
        have h1 := find_update_match_same (fun c => decide (c.type = .Object)) Node.object_node
          (fun o => Node.mk o.type o.callbacks
            (update_match (fun c => decide (c.type = .Key ∧ c.key = seg.key))
              (Node.key_node seg.key) (register_segments rest cb) o.children) o.key)
          (fun c => rfl) rfl cs
        have h2 := find_update_match_same (fun c => decide (c.type = .Key ∧ c.key = seg.key))
          (Node.key_node seg.key) (register_segments rest cb)
          (fun c => by simp [register_segments_type, register_segments_key])
          (by simp [Node.key_node])
          ((cs.find? (fun c => decide (c.type = .Object))).getD Node.object_node).children
        exact ⟨_, _, h1, h2, ih _⟩
      · simp only [Node.HasPath, register_segments, hobj, if_false, Bool.false_eq_true,
          Node.children_mk]
        exact ⟨_, find_update_match_same (fun c => decide (c.type = .Array)) Node.array_node
          (register_segments rest cb)
          (fun c => by simp [register_segments_type]) rfl cs, ih _⟩

/-! ### The registrations made one after the other -/

theorem registered_root (regs : List (JsonValuePath × Nat)) :
    ∀ v : JsonCallbackVisitorImpl,
      (regs.foldl (fun v r => v.register_callback r.1 r.2) v).root_ =
        regs.foldl (fun n r => register_segments r.1.segments r.2 n) v.root_ := by
  induction regs with
  | nil => intro v; rfl
  | cons r rest ih =>
    intro v
    simp only [List.foldl_cons]
    rw [ih]
    rfl

theorem foldl_register_invariant (P : Node → Prop)
    (hstep : ∀ n segs cb, P n → P (register_segments segs cb n))
    (regs : List (JsonValuePath × Nat)) :
    ∀ n, P n → P (regs.foldl (fun n r => register_segments r.1.segments r.2 n) n) := by
  induction regs with
  | nil => intro n h; exact h
  | cons r rest ih =>
    intro n h
    exact ih _ (hstep n _ _ h)

theorem registered_wellFormed (regs : List (JsonValuePath × Nat)) :
    (registered regs).root_.WellFormed := by
  have := foldl_register_invariant (fun n => n.WellFormed ∧ n.type = .Key)
    (fun n segs cb h => ⟨register_segments_wellFormed segs cb n h.1 (by rw [h.2]; decide),
      by rw [register_segments_type]; exact h.2⟩) regs Node.root_node
    ⟨⟨by simp [ChildrenOk], trivial⟩, rfl⟩
  unfold registered
  rw [registered_root]
  exact this.1

theorem registered_count_callbacks (regs : List (JsonValuePath × Nat)) :
    (registered regs).root_.count_callbacks = regs.length := by
  have key : ∀ (regs : List (JsonValuePath × Nat)) (n : Node),
      (regs.foldl (fun n r => register_segments r.1.segments r.2 n) n).count_callbacks =
        n.count_callbacks + regs.length := by
    intro regs
    induction regs with
    | nil => intro n; rfl
    | cons r rest ih =>
      intro n
      simp only [List.foldl_cons, List.length_cons]
      rw [ih, register_segments_count_callbacks]
      omega
  unfold registered
  rw [registered_root, key]
  simp [JsonCallbackVisitor, Node.root_node, Node.count_callbacks, Nodes.count_callbacks]

/-! ### The pointers `parent` -/

theorem erase_update_match (pred : PNode → Bool) (pred1 : Node → Bool) (fresh : PNode)
    (f : Nat → PNode → PNode) (f1 : Node → Node) (hp : ∀ c, pred c = pred1 c.erase)
    (hf : ∀ j c, (f j c).erase = f1 c.erase) (cs : List PNode) :
    ∀ i, PNodes.erase (PNode.update_match pred fresh f i cs) =
      update_match pred1 fresh.erase f1 (PNodes.erase cs) := by
  induction cs with
  | nil => intro i; simp [PNode.update_match, update_match, PNodes.erase, hf]
  | cons c rest ih =>
    intro i
    by_cases hc : pred c = true
    · have hc1 : pred1 c.erase = true := by rw [← hp]; exact hc
      simp [PNode.update_match, update_match, PNodes.erase, hc, hc1, hf]
    · have hc1 : ¬ pred1 c.erase = true := by rw [← hp]; exact hc
      simp [PNode.update_match, update_match, PNodes.erase, hc, hc1, ih]

theorem PNode.erase_type (n : PNode) : n.erase.type = n.type := by
  cases n; rfl

theorem PNode.erase_key (n : PNode) : n.erase.key = n.key := by
  cases n; rfl

/-- Without the pointers `parent` the registration is that of the dispatcher. -/
theorem erase_register_segments (segs : List PathSegment) (cb : Nat) :
    ∀ (pos : List Nat) (n : PNode),
      (PNode.register_segments segs cb pos n).erase = register_segments segs cb n.erase := by
  induction segs with
  | nil =>
    intro pos n
    cases n with
    | mk t cbs par cs k => rfl
  | cons seg rest ih =>
    intro pos n
    cases n with
    | mk t cbs par cs k =>
      by_cases hobj : seg.is_object = true
      · simp only [PNode.register_segments, register_segments, hobj, if_true, PNode.erase]
        congr 1
        refine erase_update_match _ _ _ _ _ (fun c => by cases c; rfl) ?_ cs 0
        intro j o
        cases o with
        | mk t1 cbs1 par1 cs1 k1 =>
          simp only [PNode.erase, PNode.type, PNode.callbacks, PNode.children, PNode.key,
            PNode.parent, Node.type_mk, Node.children_mk, Node.callbacks, Node.key]
          congr 1
          exact erase_update_match _ _ _ _ _
            (fun c => by cases c; rfl) (fun j2 c => ih _ c) cs1 0
      · simp only [PNode.register_segments, register_segments, hobj, if_false,
          Bool.false_eq_true, PNode.erase]
        congr 1
        exact erase_update_match _ _ _ _ _ (fun c => by cases c; rfl)
          (fun j c => ih _ c) cs 0

theorem registered_nodes_erase (regs : List (JsonValuePath × Nat)) :
    (registered_nodes regs).erase = (registered regs).root_ := by
  have key : ∀ (regs : List (JsonValuePath × Nat)) (n : PNode),
      (regs.foldl (fun root r => PNode.register_segments r.1.segments r.2 [] root) n).erase =
        regs.foldl (fun n r => register_segments r.1.segments r.2 n) n.erase := by
    intro regs
    induction regs with
    | nil => intro n; rfl
    | cons r rest ih =>
      intro n
      simp only [List.foldl_cons]
      rw [ih, erase_register_segments]
  unfold registered registered_nodes
  rw [registered_root, key]
  rfl

theorem update_match_parentsOk (pred : PNode → Bool) (fresh : PNode)
    (f : Nat → PNode → PNode) (pos : List Nat) (cs : List PNode)
    (hf : ∀ j c, c.parent = some pos → c.ParentsOk (pos ++ [j]) →
      (f j c).parent = some pos ∧ (f j c).ParentsOk (pos ++ [j]))
    (h1 : fresh.parent = some pos) (h2 : ∀ j, fresh.ParentsOk (pos ++ [j])) :
    ∀ i, PNodes.ParentsOk pos i cs →
      PNodes.ParentsOk pos i (PNode.update_match pred fresh f i cs) := by
  induction cs with
  | nil =>
    intro i _
    obtain ⟨g1, g2⟩ := hf i fresh h1 (h2 i)
    exact ⟨g1, g2, trivial⟩
  | cons c rest ih =>
    intro i h
    obtain ⟨hc1, hc2, hrest⟩ := h
    by_cases hc : pred c = true
    · simp only [PNode.update_match, hc, if_true]
      obtain ⟨g1, g2⟩ := hf i c hc1 hc2
      exact ⟨g1, g2, hrest⟩
    · simp only [PNode.update_match, hc, if_false]
      exact ⟨hc1, hc2, ih (i + 1) hrest⟩

/-- A registration keeps every pointer `parent` on the node that holds the child. -/
theorem register_segments_parentsOk (segs : List PathSegment) (cb : Nat) :
    ∀ (pos : List Nat) (n : PNode), n.ParentsOk pos →
      (PNode.register_segments segs cb pos n).parent = n.parent ∧
        (PNode.register_segments segs cb pos n).ParentsOk pos := by
  induction segs with
  | nil =>
    intro pos n hn
    cases n with
    | mk t cbs par cs k => exact ⟨rfl, hn⟩
  | cons seg rest ih =>
    intro pos n hn
    cases n with
    | mk t cbs par cs k =>
      simp only [PNode.ParentsOk] at hn
      by_cases hobj : seg.is_object = true
      · simp only [PNode.register_segments, hobj, if_true]
        refine ⟨rfl, ?_⟩
        simp only [PNode.ParentsOk]
        refine update_match_parentsOk _ (PNode.object_node pos) _ pos cs ?_ rfl
          (fun j => trivial) 0 hn
        intro j o ho1 ho2
        cases o with
        | mk t1 cbs1 par1 cs1 k1 =>
          simp only [PNode.ParentsOk] at ho2
          refine ⟨ho1, ?_⟩
          simp only [PNode.type, PNode.callbacks, PNode.parent, PNode.children, PNode.key,
            PNode.ParentsOk]
          refine update_match_parentsOk _ (PNode.key_node seg.key (pos ++ [j])) _ (pos ++ [j])
            cs1 ?_ rfl (fun j2 => trivial) 0 ho2
          intro j2 c hc1 hc2
          have e : pos ++ [j, j2] = (pos ++ [j]) ++ [j2] := by simp
          rw [e]
          obtain ⟨g1, g2⟩ := ih ((pos ++ [j]) ++ [j2]) c hc2
          exact ⟨by rw [g1]; exact hc1, g2⟩
      · simp only [PNode.register_segments, hobj, if_false, Bool.false_eq_true]
        refine ⟨rfl, ?_⟩
        simp only [PNode.ParentsOk]
        refine update_match_parentsOk _ (PNode.array_node pos) _ pos cs ?_ rfl
          (fun j => trivial) 0 hn
        intro j c hc1 hc2
        obtain ⟨g1, g2⟩ := ih (pos ++ [j]) c hc2
        exact ⟨by rw [g1]; exact hc1, g2⟩

theorem registered_nodes_parentsOk (regs : List (JsonValuePath × Nat)) :
    (registered_nodes regs).parent = none ∧ (registered_nodes regs).ParentsOk [] := by
  have key : ∀ (regs : List (JsonValuePath × Nat)) (n : PNode),
      n.parent = none → n.ParentsOk [] →
      (regs.foldl (fun root r => PNode.register_segments r.1.segments r.2 [] root) n).parent =
          none ∧
        (regs.foldl (fun root r => PNode.register_segments r.1.segments r.2 [] root)
          n).ParentsOk [] := by
    intro regs
    induction regs with
    | nil => intro n h1 h2; exact ⟨h1, h2⟩
    | cons r rest ih =>
      intro n h1 h2
      simp only [List.foldl_cons]
      obtain ⟨g1, g2⟩ := register_segments_parentsOk r.1.segments r.2 [] n h2
      exact ih _ (by rw [g1]; exact h1) g2
  exact key regs PNode.root_node rfl trivial

end flumps


namespace flumps

open JsonEchoVisitorImpl

/-! ## What the echo visitor writes -/

theorem output_indents_eq (n : Nat) : ∀ (indent out : Bytes) (stack : List EchoState),
    output_indents n ⟨indent, out, stack⟩ =
      ⟨indent, out ++ (List.replicate (n - 1) indent).flatten, stack⟩ := by
  induction n with
  | zero => intro indent out stack; simp [output_indents]
  | succ n ih =>
    intro indent out stack
    by_cases hn : n = 0
    · subst hn
      simp [output_indents]
    · obtain ⟨m, rfl⟩ : ∃ m, n = m + 1 := ⟨n - 1, by omega⟩
      rw [output_indents, if_pos (by omega)]
      simp only [output_string]
      rw [ih]
      simp [List.replicate_succ]

theorem output_new_line_eq (indent out : Bytes) (stack : List EchoState) :
    output_new_line ⟨indent, out, stack⟩ =
      ⟨indent, out ++ echo_new_line indent (stack.length - 1), stack⟩ := by
  simp only [output_new_line, output_char, output_indents_eq, echo_new_line]
  simp

theorem value_done_eq (indent out : Bytes) (st : EchoState) (below : List EchoState) :
    value_done ⟨indent, out, st :: below⟩ = ⟨indent, out, st.after_value :: below⟩ := by
  cases st <;> simp [value_done, is_back, set_back, EchoState.after_value]

theorem on_primitive_value_eq (indent out : Bytes) (st : EchoState) (below : List EchoState)
    (type : JsonValueType) (text : Bytes) :
    on_primitive_value ⟨indent, out, st :: below⟩ type text =
      ⟨indent, out ++ (echo_lead indent st below ++ primitive_text type text),
        st.after_value :: below⟩ := by
  by_cases hs : st = .in_array
  · subst hs
    by_cases ht : type = .String
    · simp [on_primitive_value, is_back, output_new_line_eq, output_char, output_string,
        value_done_eq, echo_lead, primitive_text, ht]
    · simp [on_primitive_value, is_back, output_new_line_eq, output_char, output_string,
        value_done_eq, echo_lead, primitive_text, ht]
  · by_cases ht : type = .String
    · simp [on_primitive_value, is_back, output_char, output_string,
        value_done_eq, echo_lead, primitive_text, ht, hs]
    · simp [on_primitive_value, is_back, output_char, output_string,
        value_done_eq, echo_lead, primitive_text, ht, hs]

theorem before_collection_eq (indent out : Bytes) (st : EchoState) (below : List EchoState)
    (h : st.awaits_value = true) :
    before_collection ⟨indent, out, st :: below⟩ =
      ⟨indent, out ++ echo_lead indent st below, st :: below⟩ := by
  cases st <;>
    simp [before_collection, is_back, output_new_line_eq, output_char, echo_lead,
      EchoState.awaits_value] at h ⊢

theorem on_array_start_eq (indent out : Bytes) (st : EchoState) (below : List EchoState)
    (h : st.awaits_value = true) (s : Nat) :
    on_array_start ⟨indent, out, st :: below⟩ s =
      ⟨indent, out ++ (echo_lead indent st below ++
        0x5B :: echo_new_line indent (below.length + 1)), .start_array :: st :: below⟩ := by
  simp [on_array_start, before_collection_eq indent out st below h, stack_push, output_char,
    output_new_line_eq]

theorem on_object_start_eq (indent out : Bytes) (st : EchoState) (below : List EchoState)
    (h : st.awaits_value = true) (s : Nat) :
    on_object_start ⟨indent, out, st :: below⟩ s =
      ⟨indent, out ++ (echo_lead indent st below ++
        0x7B :: echo_new_line indent (below.length + 1)), .start_object :: st :: below⟩ := by
  simp [on_object_start, before_collection_eq indent out st below h, stack_push, output_char,
    output_new_line_eq]

theorem on_array_end_eq (indent out : Bytes) (top st : EchoState) (below : List EchoState)
    (s l : Nat) :
    on_array_end ⟨indent, out, top :: st :: below⟩ s l =
      ⟨indent, out ++ (echo_new_line indent below.length ++ [0x5D]),
        st.after_value :: below⟩ := by
  simp [on_array_end, output_new_line_eq, output_char, value_done_eq]

theorem on_object_end_eq (indent out : Bytes) (top st : EchoState) (below : List EchoState)
    (s l : Nat) :
    on_object_end ⟨indent, out, top :: st :: below⟩ s l =
      ⟨indent, out ++ (echo_new_line indent below.length ++ [0x7D]),
        st.after_value :: below⟩ := by
  simp [on_object_end, output_new_line_eq, output_char, value_done_eq]

theorem on_object_key_first (indent out : Bytes) (below : List EchoState) (key : Bytes) :
    on_object_key ⟨indent, out, .start_object :: below⟩ key =
      ⟨indent, out ++ (0x22 :: (key ++ [0x22, 0x3A, 0x20])), .first_key_seen :: below⟩ := by
  simp [on_object_key, is_back, set_back, output_char, output_string]

theorem on_object_key_next (indent out : Bytes) (below : List EchoState) (key : Bytes) :
    on_object_key ⟨indent, out, .in_object :: below⟩ key =
      ⟨indent, out ++ (0x2C :: (echo_new_line indent below.length ++
        0x22 :: (key ++ [0x22, 0x3A, 0x20]))), .subsequent_key :: below⟩ := by
  simp [on_object_key, is_back, set_back, output_char, output_string, output_new_line_eq]

theorem echo_feed_nil (input : Bytes) (v : JsonEchoVisitorImpl) :
    JsonEchoVisitorImpl.feed input [] v = v := rfl

theorem echo_feed_cons (input : Bytes) (e : Event) (es : List Event)
    (v : JsonEchoVisitorImpl) :
    JsonEchoVisitorImpl.feed input (e :: es) v =
      JsonEchoVisitorImpl.feed input es (v.visit input e) := rfl

theorem echo_feed_append (input : Bytes) (es1 es2 : List Event) :
    ∀ v : JsonEchoVisitorImpl,
      JsonEchoVisitorImpl.feed input (es1 ++ es2) v =
        JsonEchoVisitorImpl.feed input es2 (JsonEchoVisitorImpl.feed input es1 v) := by
  induction es1 with
  | nil => intro v; rfl
  | cons e es ih => intro v; exact ih _

theorem Aligned.span {input : Bytes} {s : Nat} {text : Bytes} (h : Aligned input s text) :
    span_text input s text.length = text := h.read

theorem Aligned.primitive {input : Bytes} {s : Nat} {type : JsonValueType} {text : Bytes}
    (h : Aligned input s (primitive_text type text)) :
    span_text input (if type = .String then s + 1 else s) text.length = text := by
  by_cases ht : type = .String
  · rw [if_pos ht]
    have : Aligned input (s + 1) text :=
      h.sub [0x22] text [0x22] (by simp [primitive_text, ht]) _ (by simp)
    exact this.span
  · rw [if_neg ht]
    have : Aligned input s text := by simpa [primitive_text, ht] using h
    exact this.span

/-- The further elements and the new line before the closing bracket, as they are written and
as the echoed array holds them. -/
theorem elements_echo_text (indent : Bytes) (d : Nat) : ∀ more : JsonElements,
    more.echo_text indent (d + 1) ++ echo_new_line indent d =
      more.closing indent d ++ (more.echo indent d).render
  | .nil => by simp [JsonElements.echo_text, JsonElements.closing, JsonElements.echo,
      JsonElements.render]
  | .cons ws1 v ws2 tl => by
    have ih := elements_echo_text indent d tl
    simp only [JsonElements.echo_text, JsonElements.closing, JsonElements.echo,
      JsonElements.render, List.nil_append, List.cons_append, List.append_assoc, ih]

theorem members_echo_text (indent : Bytes) (d : Nat) : ∀ more : JsonMembers,
    more.echo_text indent (d + 1) ++ echo_new_line indent d =
      more.closing indent d ++ (more.echo indent d).render
  | .nil => by simp [JsonMembers.echo_text, JsonMembers.closing, JsonMembers.echo,
      JsonMembers.render]
  | .cons ws1 key ws2 ws3 v ws4 tl => by
    have ih := members_echo_text indent d tl
    simp only [JsonMembers.echo_text, JsonMembers.closing, JsonMembers.echo,
      JsonMembers.render, key_text, List.nil_append, List.cons_append, List.append_assoc, ih,
      List.singleton_append]

mutual
/-- The events of a value, fed to the echo visitor where a value is awaited, write the value
as `JsonValue.echo` gives it, after a comma and a new line for a further element. -/
theorem value_echo_feed (indent input : Bytes) : ∀ (v : JsonValue) (s : Nat) (out : Bytes)
    (st : EchoState) (below : List EchoState), Aligned input s v.render →
    st.awaits_value = true →
    JsonEchoVisitorImpl.feed input (v.events s) ⟨indent, out, st :: below⟩ =
      ⟨indent, out ++ (echo_lead indent st below ++ (v.echo indent below.length).render),
        st.after_value :: below⟩
  | .primitive type text, s, out, st, below, hal, hst => by
    simp only [JsonValue.events, echo_feed_cons, echo_feed_nil, JsonEchoVisitorImpl.visit,
      JsonValue.echo, JsonValue.render] at hal ⊢
    rw [hal.primitive, on_primitive_value_eq]
  | .empty_array ws, s, out, st, below, hal, hst => by
    simp only [JsonValue.events, echo_feed_cons, echo_feed_nil, JsonEchoVisitorImpl.visit,
      JsonValue.echo, JsonValue.render]
    rw [on_array_start_eq indent out st below hst, on_array_end_eq]
    simp
  | .array ws1 v ws2 more, s, out, st, below, hal, hst => by
    have halv : Aligned input (s + 1 + ws1.length) v.render :=
      hal.sub (0x5B :: ws1) v.render (ws2 ++ (more.render ++ [0x5D]))
        (by simp [JsonValue.render]) _
        (by simp only [List.length_cons, List.length_append, List.length_nil]; omega)
    have halm : Aligned input (s + 1 + ws1.length + v.render.length + ws2.length) more.render :=
      hal.sub (0x5B :: (ws1 ++ (v.render ++ ws2))) more.render [0x5D]
        (by simp [JsonValue.render]) _
        (by simp only [List.length_cons, List.length_append, List.length_nil]; omega)
    simp only [JsonValue.events, echo_feed_cons, echo_feed_append, echo_feed_nil,
      JsonEchoVisitorImpl.visit]
    rw [on_array_start_eq indent out st below hst,
      value_echo_feed indent input v _ _ .start_array (st :: below) halv rfl,
      show EchoState.start_array.after_value = EchoState.in_array from rfl]
    rw [elements_echo_feed indent input more _ _ (st :: below) halm, on_array_end_eq]
    have e := elements_echo_text indent below.length more
    have e2 : ∀ tail : Bytes, more.echo_text indent (below.length + 1) ++
        (echo_new_line indent below.length ++ tail) =
        more.closing indent below.length ++ ((more.echo indent below.length).render ++ tail) :=
      fun tail => by rw [← List.append_assoc, e, List.append_assoc]
    simp only [List.length_cons]
    simp only [JsonValue.echo, JsonValue.render, echo_lead, reduceCtorEq, if_false,
      List.nil_append, List.append_assoc, List.cons_append]
    rw [e2]
  | .empty_object ws, s, out, st, below, hal, hst => by
    simp only [JsonValue.events, echo_feed_cons, echo_feed_nil, JsonEchoVisitorImpl.visit,
      JsonValue.echo, JsonValue.render]
    rw [on_object_start_eq indent out st below hst, on_object_end_eq]
    simp
  | .object ws1 key ws2 ws3 v ws4 more, s, out, st, below, hal, hst => by
    have halk : Aligned input (s + 1 + ws1.length + 1) key :=
      hal.sub (0x7B :: (ws1 ++ [0x22])) key
        (0x22 :: (ws2 ++ [0x3A]) ++ (ws3 ++ (v.render ++ (ws4 ++ (more.render ++ [0x7D])))))
        (by simp [JsonValue.render, key_text]) _
        (by simp only [List.length_cons, List.length_append, List.length_nil]; omega)
    have halv : Aligned input (s + 1 + (key_text ws1 key ws2).length + ws3.length) v.render :=
      hal.sub (0x7B :: (key_text ws1 key ws2 ++ ws3)) v.render (ws4 ++ (more.render ++ [0x7D]))
        (by simp [JsonValue.render]) _
        (by simp only [List.length_cons, List.length_append, List.length_nil]; omega)
    have halm : Aligned input
        (s + 1 + (key_text ws1 key ws2).length + ws3.length + v.render.length + ws4.length)
        more.render :=
      hal.sub (0x7B :: (key_text ws1 key ws2 ++ (ws3 ++ (v.render ++ ws4)))) more.render [0x7D]
        (by simp [JsonValue.render]) _
        (by simp only [List.length_cons, List.length_append, List.length_nil]; omega)
    simp only [JsonValue.events, echo_feed_cons, echo_feed_append, echo_feed_nil,
      JsonEchoVisitorImpl.visit]
    rw [on_object_start_eq indent out st below hst, halk.span, on_object_key_first,
      value_echo_feed indent input v _ _ .first_key_seen (st :: below) halv rfl,
      show EchoState.first_key_seen.after_value = EchoState.in_object from rfl]
    rw [members_echo_feed indent input more _ _ (st :: below) halm, on_object_end_eq]
    have e := members_echo_text indent below.length more
    have e2 : ∀ tail : Bytes, more.echo_text indent (below.length + 1) ++
        (echo_new_line indent below.length ++ tail) =
        more.closing indent below.length ++ ((more.echo indent below.length).render ++ tail) :=
      fun tail => by rw [← List.append_assoc, e, List.append_assoc]
    simp only [List.length_cons]
    simp only [JsonValue.echo, JsonValue.render, echo_lead, reduceCtorEq, if_false,
      List.nil_append, List.append_assoc, List.cons_append, key_text, List.singleton_append]
    rw [e2]
/-- The events of the further elements of an array write each of them after a comma and a
new line. -/
theorem elements_echo_feed (indent input : Bytes) : ∀ (more : JsonElements) (s : Nat)
    (out : Bytes) (below : List EchoState), Aligned input s more.render →
    JsonEchoVisitorImpl.feed input (more.events s) ⟨indent, out, .in_array :: below⟩ =
      ⟨indent, out ++ more.echo_text indent below.length, .in_array :: below⟩
  | .nil, s, out, below, hal => by
    simp [JsonElements.events, echo_feed_nil, JsonElements.echo_text]
  | .cons ws1 v ws2 tl, s, out, below, hal => by
    have halv : Aligned input (s + 1 + ws1.length) v.render :=
      hal.sub (0x2C :: ws1) v.render (ws2 ++ tl.render)
        (by simp [JsonElements.render]) _
        (by simp only [List.length_cons, List.length_append, List.length_nil]; omega)
    have halm : Aligned input (s + 1 + ws1.length + v.render.length + ws2.length) tl.render :=
      hal.sub (0x2C :: (ws1 ++ (v.render ++ ws2))) tl.render []
        (by simp [JsonElements.render]) _
        (by simp only [List.length_cons, List.length_append, List.length_nil]; omega)
    simp only [JsonElements.events, echo_feed_append]
    rw [value_echo_feed indent input v _ _ .in_array below halv rfl,
      show EchoState.in_array.after_value = EchoState.in_array from rfl]
    rw [elements_echo_feed indent input tl _ _ below halm]
    simp [JsonElements.echo_text, echo_lead]
/-- The events of the further members of an object write each of them after a comma and a
new line, the key between quotes and a space after the colon. -/
theorem members_echo_feed (indent input : Bytes) : ∀ (more : JsonMembers) (s : Nat)
    (out : Bytes) (below : List EchoState), Aligned input s more.render →
    JsonEchoVisitorImpl.feed input (more.events s) ⟨indent, out, .in_object :: below⟩ =
      ⟨indent, out ++ more.echo_text indent below.length, .in_object :: below⟩
  | .nil, s, out, below, hal => by
    simp [JsonMembers.events, echo_feed_nil, JsonMembers.echo_text]
  | .cons ws1 key ws2 ws3 v ws4 tl, s, out, below, hal => by
    have halk : Aligned input (s + 1 + ws1.length + 1) key :=
      hal.sub (0x2C :: (ws1 ++ [0x22])) key
        (0x22 :: (ws2 ++ [0x3A]) ++ (ws3 ++ (v.render ++ (ws4 ++ tl.render))))
        (by simp [JsonMembers.render, key_text]) _
        (by simp only [List.length_cons, List.length_append, List.length_nil]; omega)
    have halv : Aligned input (s + 1 + (key_text ws1 key ws2).length + ws3.length) v.render :=
      hal.sub (0x2C :: (key_text ws1 key ws2 ++ ws3)) v.render (ws4 ++ tl.render)
        (by simp [JsonMembers.render]) _
        (by simp only [List.length_cons, List.length_append, List.length_nil]; omega)
    have halm : Aligned input
        (s + 1 + (key_text ws1 key ws2).length + ws3.length + v.render.length + ws4.length)
        tl.render :=
      hal.sub (0x2C :: (key_text ws1 key ws2 ++ (ws3 ++ (v.render ++ ws4)))) tl.render []
        (by simp [JsonMembers.render]) _
        (by simp only [List.length_cons, List.length_append, List.length_nil]; omega)
    simp only [JsonMembers.events, echo_feed_cons, echo_feed_append,
      JsonEchoVisitorImpl.visit]
    rw [halk.span, on_object_key_next,
      value_echo_feed indent input v _ _ .subsequent_key below halv rfl,
      show EchoState.subsequent_key.after_value = EchoState.in_object from rfl]
    rw [members_echo_feed indent input tl _ _ below halm]
    simp [JsonMembers.echo_text, echo_lead]
end

end flumps


namespace flumps

/-! ## The text that the echo visitor writes is a text of the grammar -/

theorem isWhitespace_echo_new_line (indent : Bytes) (hi : IsWhitespace indent) (d : Nat) :
    IsWhitespace (echo_new_line indent d) := by
  intro b hb
  simp only [echo_new_line, List.mem_cons, List.mem_flatten, List.mem_replicate] at hb
  rcases hb with rfl | ⟨l, ⟨-, rfl⟩, hl⟩
  · rfl
  · exact hi b hl

theorem isWhitespace_elements_closing (indent : Bytes) (hi : IsWhitespace indent) (d : Nat)
    (more : JsonElements) : IsWhitespace (more.closing indent d) := by
  cases more with
  | nil => exact isWhitespace_echo_new_line indent hi d
  | cons ws1 v ws2 tl => exact isWhitespace_nil

theorem isWhitespace_members_closing (indent : Bytes) (hi : IsWhitespace indent) (d : Nat)
    (more : JsonMembers) : IsWhitespace (more.closing indent d) := by
  cases more with
  | nil => exact isWhitespace_echo_new_line indent hi d
  | cons ws1 key ws2 ws3 v ws4 tl => exact isWhitespace_nil

theorem isWhitespace_space : IsWhitespace [0x20] := by
  intro b hb
  simp only [List.mem_singleton] at hb
  subst hb
  rfl

mutual
theorem value_echo_valid (indent : Bytes) (hi : IsWhitespace indent) : ∀ (v : JsonValue)
    (d : Nat), v.Valid → (v.echo indent d).Valid
  | .primitive type text, d, h => by simpa [JsonValue.echo, JsonValue.Valid] using h
  | .empty_array ws, d, h => by
    simp only [JsonValue.echo, JsonValue.Valid]
    exact isWhitespace_append (isWhitespace_echo_new_line indent hi _)
      (isWhitespace_echo_new_line indent hi _)
  | .array ws1 v ws2 more, d, h => by
    simp only [JsonValue.Valid] at h
    simp only [JsonValue.echo, JsonValue.Valid]
    exact ⟨isWhitespace_echo_new_line indent hi _, value_echo_valid indent hi v _ h.2.1,
      isWhitespace_elements_closing indent hi d more,
      elements_echo_valid indent hi more d h.2.2.2⟩
  | .empty_object ws, d, h => by
    simp only [JsonValue.echo, JsonValue.Valid]
    exact isWhitespace_append (isWhitespace_echo_new_line indent hi _)
      (isWhitespace_echo_new_line indent hi _)
  | .object ws1 key ws2 ws3 v ws4 more, d, h => by
    simp only [JsonValue.Valid] at h
    simp only [JsonValue.echo, JsonValue.Valid]
    exact ⟨isWhitespace_echo_new_line indent hi _, h.2.1, isWhitespace_nil, isWhitespace_space,
      value_echo_valid indent hi v _ h.2.2.2.2.1, isWhitespace_members_closing indent hi d more,
      members_echo_valid indent hi more d h.2.2.2.2.2.2⟩
theorem elements_echo_valid (indent : Bytes) (hi : IsWhitespace indent) :
    ∀ (more : JsonElements) (d : Nat), more.Valid → (more.echo indent d).Valid
  | .nil, d, _ => by simp [JsonElements.echo, JsonElements.Valid]
  | .cons ws1 v ws2 tl, d, h => by
    simp only [JsonElements.Valid] at h
    simp only [JsonElements.echo, JsonElements.Valid]
    exact ⟨isWhitespace_echo_new_line indent hi _, value_echo_valid indent hi v _ h.2.1,
      isWhitespace_elements_closing indent hi d tl, elements_echo_valid indent hi tl d h.2.2.2⟩
theorem members_echo_valid (indent : Bytes) (hi : IsWhitespace indent) :
    ∀ (more : JsonMembers) (d : Nat), more.Valid → (more.echo indent d).Valid
  | .nil, d, _ => by simp [JsonMembers.echo, JsonMembers.Valid]
  | .cons ws1 key ws2 ws3 v ws4 tl, d, h => by
    simp only [JsonMembers.Valid] at h
    simp only [JsonMembers.echo, JsonMembers.Valid]
    exact ⟨isWhitespace_echo_new_line indent hi _, h.2.1, isWhitespace_nil, isWhitespace_space,
      value_echo_valid indent hi v _ h.2.2.2.2.1, isWhitespace_members_closing indent hi d tl,
      members_echo_valid indent hi tl d h.2.2.2.2.2.2⟩
end

mutual
theorem value_echo_height (indent : Bytes) : ∀ (v : JsonValue) (d : Nat),
    (v.echo indent d).height = v.height
  | .primitive type text, d => rfl
  | .empty_array ws, d => rfl
  | .array ws1 v ws2 more, d => by
    simp only [JsonValue.echo, JsonValue.height, value_echo_height indent v,
      elements_echo_height indent more]
  | .empty_object ws, d => rfl
  | .object ws1 key ws2 ws3 v ws4 more, d => by
    simp only [JsonValue.echo, JsonValue.height, value_echo_height indent v,
      members_echo_height indent more]
theorem elements_echo_height (indent : Bytes) : ∀ (more : JsonElements) (d : Nat),
    (more.echo indent d).height = more.height
  | .nil, d => rfl
  | .cons ws1 v ws2 tl, d => by
    simp only [JsonElements.echo, JsonElements.height, value_echo_height indent v,
      elements_echo_height indent tl]
theorem members_echo_height (indent : Bytes) : ∀ (more : JsonMembers) (d : Nat),
    (more.echo indent d).height = more.height
  | .nil, d => rfl
  | .cons ws1 key ws2 ws3 v ws4 tl, d => by
    simp only [JsonMembers.echo, JsonMembers.height, value_echo_height indent v,
      members_echo_height indent tl]
end

mutual
theorem value_echo_contents (indent : Bytes) : ∀ (v : JsonValue) (d : Nat),
    (v.echo indent d).contents = v.contents
  | .primitive type text, d => rfl
  | .empty_array ws, d => rfl
  | .array ws1 v ws2 more, d => by
    simp only [JsonValue.echo, JsonValue.contents, value_echo_contents indent v,
      elements_echo_contents indent more]
  | .empty_object ws, d => rfl
  | .object ws1 key ws2 ws3 v ws4 more, d => by
    simp only [JsonValue.echo, JsonValue.contents, value_echo_contents indent v,
      members_echo_contents indent more]
theorem elements_echo_contents (indent : Bytes) : ∀ (more : JsonElements) (d : Nat),
    (more.echo indent d).contents = more.contents
  | .nil, d => rfl
  | .cons ws1 v ws2 tl, d => by
    simp only [JsonElements.echo, JsonElements.contents, value_echo_contents indent v,
      elements_echo_contents indent tl]
theorem members_echo_contents (indent : Bytes) : ∀ (more : JsonMembers) (d : Nat),
    (more.echo indent d).contents = more.contents
  | .nil, d => rfl
  | .cons ws1 key ws2 ws3 v ws4 tl, d => by
    simp only [JsonMembers.echo, JsonMembers.contents, value_echo_contents indent v,
      members_echo_contents indent tl]
end

theorem elements_closing_echo (indent : Bytes) (d e : Nat) (more : JsonElements) :
    (more.echo indent e).closing indent d = more.closing indent d := by
  cases more <;> rfl

theorem members_closing_echo (indent : Bytes) (d e : Nat) (more : JsonMembers) :
    (more.echo indent e).closing indent d = more.closing indent d := by
  cases more <;> rfl

mutual
/-- What the echo visitor writes is written again as it is. -/
theorem value_echo_echo (indent : Bytes) : ∀ (v : JsonValue) (d : Nat),
    (v.echo indent d).echo indent d = v.echo indent d
  | .primitive type text, d => rfl
  | .empty_array ws, d => rfl
  | .array ws1 v ws2 more, d => by
    simp only [JsonValue.echo, value_echo_echo indent v, elements_echo_echo indent more,
      elements_closing_echo]
  | .empty_object ws, d => rfl
  | .object ws1 key ws2 ws3 v ws4 more, d => by
    simp only [JsonValue.echo, value_echo_echo indent v, members_echo_echo indent more,
      members_closing_echo]
theorem elements_echo_echo (indent : Bytes) : ∀ (more : JsonElements) (d : Nat),
    (more.echo indent d).echo indent d = more.echo indent d
  | .nil, d => rfl
  | .cons ws1 v ws2 tl, d => by
    simp only [JsonElements.echo, value_echo_echo indent v, elements_echo_echo indent tl,
      elements_closing_echo]
theorem members_echo_echo (indent : Bytes) : ∀ (more : JsonMembers) (d : Nat),
    (more.echo indent d).echo indent d = more.echo indent d
  | .nil, d => rfl
  | .cons ws1 key ws2 ws3 v ws4 tl, d => by
    simp only [JsonMembers.echo, value_echo_echo indent v, members_echo_echo indent tl,
      members_closing_echo]
end

mutual
/-- What the events of a value report of the input in which the value stands. -/
theorem value_events_contents (input : Bytes) : ∀ (v : JsonValue) (s : Nat),
    Aligned input s v.render → (v.events s).map (Event.content input) = v.contents
  | .primitive type text, s, hal => by
    simp only [JsonValue.render] at hal
    simp only [JsonValue.events, List.map_cons, List.map_nil, Event.content, hal.primitive,
      JsonValue.contents]
  | .empty_array ws, s, hal => rfl
  | .array ws1 v ws2 more, s, hal => by
    have halv : Aligned input (s + 1 + ws1.length) v.render :=
      hal.sub (0x5B :: ws1) v.render (ws2 ++ (more.render ++ [0x5D]))
        (by simp [JsonValue.render]) _
        (by simp only [List.length_cons, List.length_append, List.length_nil]; omega)
    have halm : Aligned input (s + 1 + ws1.length + v.render.length + ws2.length) more.render :=
      hal.sub (0x5B :: (ws1 ++ (v.render ++ ws2))) more.render [0x5D]
        (by simp [JsonValue.render]) _
        (by simp only [List.length_cons, List.length_append, List.length_nil]; omega)
    simp only [JsonValue.events, List.map_cons, List.map_append, List.map_nil, Event.content,
      JsonValue.contents, value_events_contents input v _ halv,
      elements_events_contents input more _ halm]
  | .empty_object ws, s, hal => rfl
  | .object ws1 key ws2 ws3 v ws4 more, s, hal => by
    have halk : Aligned input (s + 1 + ws1.length + 1) key :=
      hal.sub (0x7B :: (ws1 ++ [0x22])) key
        (0x22 :: (ws2 ++ [0x3A]) ++ (ws3 ++ (v.render ++ (ws4 ++ (more.render ++ [0x7D])))))
        (by simp [JsonValue.render, key_text]) _
        (by simp only [List.length_cons, List.length_append, List.length_nil]; omega)
    have halv : Aligned input (s + 1 + (key_text ws1 key ws2).length + ws3.length) v.render :=
      hal.sub (0x7B :: (key_text ws1 key ws2 ++ ws3)) v.render (ws4 ++ (more.render ++ [0x7D]))
        (by simp [JsonValue.render]) _
        (by simp only [List.length_cons, List.length_append, List.length_nil]; omega)
    have halm : Aligned input
        (s + 1 + (key_text ws1 key ws2).length + ws3.length + v.render.length + ws4.length)
        more.render :=
      hal.sub (0x7B :: (key_text ws1 key ws2 ++ (ws3 ++ (v.render ++ ws4)))) more.render [0x7D]
        (by simp [JsonValue.render]) _
        (by simp only [List.length_cons, List.length_append, List.length_nil]; omega)
    simp only [JsonValue.events, List.map_cons, List.map_append, List.map_nil, Event.content,
      JsonValue.contents, halk.span, value_events_contents input v _ halv,
      members_events_contents input more _ halm]
theorem elements_events_contents (input : Bytes) : ∀ (more : JsonElements) (s : Nat),
    Aligned input s more.render → (more.events s).map (Event.content input) = more.contents
  | .nil, s, hal => rfl
  | .cons ws1 v ws2 tl, s, hal => by
    have halv : Aligned input (s + 1 + ws1.length) v.render :=
      hal.sub (0x2C :: ws1) v.render (ws2 ++ tl.render)
        (by simp [JsonElements.render]) _
        (by simp only [List.length_cons, List.length_append, List.length_nil]; omega)
    have halm : Aligned input (s + 1 + ws1.length + v.render.length + ws2.length) tl.render :=
      hal.sub (0x2C :: (ws1 ++ (v.render ++ ws2))) tl.render []
        (by simp [JsonElements.render]) _
        (by simp only [List.length_cons, List.length_append, List.length_nil]; omega)
    simp only [JsonElements.events, List.map_append, JsonElements.contents,
      value_events_contents input v _ halv, elements_events_contents input tl _ halm]
theorem members_events_contents (input : Bytes) : ∀ (more : JsonMembers) (s : Nat),
    Aligned input s more.render → (more.events s).map (Event.content input) = more.contents
  | .nil, s, hal => rfl
  | .cons ws1 key ws2 ws3 v ws4 tl, s, hal => by
    have halk : Aligned input (s + 1 + ws1.length + 1) key :=
      hal.sub (0x2C :: (ws1 ++ [0x22])) key
        (0x22 :: (ws2 ++ [0x3A]) ++ (ws3 ++ (v.render ++ (ws4 ++ tl.render))))
        (by simp [JsonMembers.render, key_text]) _
        (by simp only [List.length_cons, List.length_append, List.length_nil]; omega)
    have halv : Aligned input (s + 1 + (key_text ws1 key ws2).length + ws3.length) v.render :=
      hal.sub (0x2C :: (key_text ws1 key ws2 ++ ws3)) v.render (ws4 ++ tl.render)
        (by simp [JsonMembers.render]) _
        (by simp only [List.length_cons, List.length_append, List.length_nil]; omega)
    have halm : Aligned input
        (s + 1 + (key_text ws1 key ws2).length + ws3.length + v.render.length + ws4.length)
        tl.render :=
      hal.sub (0x2C :: (key_text ws1 key ws2 ++ (ws3 ++ (v.render ++ ws4)))) tl.render []
        (by simp [JsonMembers.render]) _
        (by simp only [List.length_cons, List.length_append, List.length_nil]; omega)
    simp only [JsonMembers.events, List.map_cons, List.map_append, Event.content,
      JsonMembers.contents, halk.span, value_events_contents input v _ halv,
      members_events_contents input tl _ halm]
end

/-- The events of a text, fed to an echo visitor as constructed, write the value of the text
as `JsonValue.echo` gives it at depth 0. -/
theorem text_echo_feed (indent : Bytes) (t : JsonText) :
    JsonEchoVisitorImpl.feed t.render (t.value.events t.ws1.length) (JsonEchoVisitor indent) =
      ⟨indent, (t.value.echo indent 0).render, [.root]⟩ := by
  have := value_echo_feed indent t.render t.value t.ws1.length [] .root []
    ⟨t.ws1, t.ws2, rfl, rfl⟩ rfl
  simpa [JsonEchoVisitor, echo_lead, EchoState.after_value] using this

end flumps


namespace flumps

open JsonCallbackVisitorImpl

/-! ## The overflow of the dispatcher -/

/-- C31 (as stated it fails): with `.a` registered and the text `{"a":[1]}`, the end of
the array finds the overflow in use, and handling it invokes the callback of `.a`. -/
theorem overflow_end_invokes_callback :
    ∃ v v1,
      (registered [(⟨[⟨[0x61]⟩]⟩, 7)]).feed [0x7B, 0x22, 0x61, 0x22, 0x3A, 0x5B, 0x31, 0x5D, 0x7D]
          [.on_object_start 0, .on_object_key 2 1, .on_array_start 5,
            .on_primitive_value .Number 6 1] = some v ∧
        v.overflow_ = [.Array] ∧ v.invoked = [] ∧
        v.visit [0x7B, 0x22, 0x61, 0x22, 0x3A, 0x5B, 0x31, 0x5D, 0x7D] (.on_array_end 5 3) =
          some v1 ∧
        v1.overflow_ = [] ∧ v1.invoked = [⟨7, .Array, [0x2E, 0x61], 5, 3⟩] :=
  ⟨_, _, rfl, rfl, rfl, rfl, rfl, rfl⟩

/-- C31 (amended): while the overflow is in use, a primitive value only takes away the
character of the key whose value it is; the end of an object or of an array takes away the
character of the collection and, when a character is left, that of the key whose value the
collection was, invoking nothing; when no character is left, it invokes the callbacks of the
node at which the dispatcher stands and steps back as after every value. -/
theorem overflow_pops_or_closes (v : JsonCallbackVisitorImpl) (h : v.overflow_ ≠ []) :
    (∀ type s l, v.overflow_.head? ≠ some .Object →
      v.on_primitive_value type s l = some { v with overflow_ := close_value v.overflow_ }) ∧
    (∀ s l, v.overflow_.head? = some .Object → 2 ≤ v.overflow_.length →
      v.on_object_end s l = some { v with overflow_ := close_value v.overflow_.tail }) ∧
    (∀ s l, v.overflow_.head? = some .Array → 2 ≤ v.overflow_.length →
      v.on_array_end s l = some { v with overflow_ := close_value v.overflow_.tail }) ∧
    (∀ s l n above, v.overflow_ = [.Object] → v.pos_ = n :: above →
      v.on_object_end s l =
        step_back_up { v with
          overflow_ := []
          invoked := v.invoked ++ n.callbacks.map fun callback =>
            ⟨callback, .Object, if v.path_.isEmpty then [0x2E] else v.path_, s, l⟩ }) ∧
    (∀ s l n above, v.overflow_ = [.Array] → v.pos_ = n :: above →
      v.on_array_end s l =
        step_back_up { v with
          overflow_ := []
          invoked := v.invoked ++ n.callbacks.map fun callback =>
            ⟨callback, .Array, if v.path_.isEmpty then [0x2E] else v.path_, s, l⟩ }) := by
  obtain ⟨root, pos, ov, path, inv⟩ := v
  cases ov with
  | nil => exact absurd rfl h
  | cons back below =>
    refine ⟨?_, ?_, ?_, ?_, ?_⟩
    · intro type s l hb
      have hb1 : back ≠ .Object := by simpa using hb
      rw [on_primitive_value_overflow root pos back below path inv hb1, close_value_cons]
    · intro s l hb hlen
      have hb1 : back = .Object := by simpa using hb
      subst hb1
      cases below with
      | nil => simp at hlen
      | cons m2 below2 =>
        have := do_collection_end_overflow root pos m2 below2 path inv json_object_traits s l
        simp only [on_object_end]
        rw [show OverFlowType.Object = json_object_traits.overflow_type from rfl, this,
          List.tail_cons, close_value_cons]
    · intro s l hb hlen
      have hb1 : back = .Array := by simpa using hb
      subst hb1
      cases below with
      | nil => simp at hlen
      | cons m2 below2 =>
        have := do_collection_end_overflow root pos m2 below2 path inv json_array_traits s l
        simp only [on_array_end]
        rw [show OverFlowType.Array = json_array_traits.overflow_type from rfl, this,
          List.tail_cons, close_value_cons]
    · intro s l n above hov hpos
      simp only at hov hpos
      obtain ⟨rfl, rfl⟩ := List.cons.inj hov
      subst hpos
      simp [on_object_end, do_collection_end, json_object_traits, exec_callbacks]
    · intro s l n above hov hpos
      simp only at hov hpos
      obtain ⟨rfl, rfl⟩ := List.cons.inj hov
      subst hpos
      simp [on_array_end, do_collection_end, json_array_traits, exec_callbacks]

theorem overflow_pops_or_closes_witness :
    ([OverFlowType.Key, .Array] : List OverFlowType) ≠ [] ∧
    ((∀ type s l, ([OverFlowType.Key, .Array] : List OverFlowType).head? ≠ some .Object →
      (JsonCallbackVisitorImpl.mk Node.root_node [Node.root_node] [.Key, .Array] [] []
        ).on_primitive_value type s l =
        some ⟨Node.root_node, [Node.root_node], close_value [.Key, .Array], [], []⟩) ∧
    (∀ s l, ([OverFlowType.Key, .Array] : List OverFlowType).head? = some .Object →
      2 ≤ ([OverFlowType.Key, .Array] : List OverFlowType).length →
      (JsonCallbackVisitorImpl.mk Node.root_node [Node.root_node] [.Key, .Array] [] []
        ).on_object_end s l =
        some ⟨Node.root_node, [Node.root_node],
          close_value ([OverFlowType.Key, .Array] : List OverFlowType).tail, [], []⟩) ∧
    (∀ s l, ([OverFlowType.Key, .Array] : List OverFlowType).head? = some .Array →
      2 ≤ ([OverFlowType.Key, .Array] : List OverFlowType).length →
      (JsonCallbackVisitorImpl.mk Node.root_node [Node.root_node] [.Key, .Array] [] []
        ).on_array_end s l =
        some ⟨Node.root_node, [Node.root_node],
          close_value ([OverFlowType.Key, .Array] : List OverFlowType).tail, [], []⟩) ∧
    (∀ s l n above, ([OverFlowType.Key, .Array] : List OverFlowType) = [.Object] →
      [Node.root_node] = n :: above →
      (JsonCallbackVisitorImpl.mk Node.root_node [Node.root_node] [.Key, .Array] [] []
        ).on_object_end s l =
        step_back_up ⟨Node.root_node, [Node.root_node], [],  [],
          [] ++ n.callbacks.map fun callback =>
            ⟨callback, .Object, if ([] : Bytes).isEmpty then [0x2E] else [], s, l⟩⟩) ∧
    (∀ s l n above, ([OverFlowType.Key, .Array] : List OverFlowType) = [.Array] →
      [Node.root_node] = n :: above →
      (JsonCallbackVisitorImpl.mk Node.root_node [Node.root_node] [.Key, .Array] [] []
        ).on_array_end s l =
        step_back_up ⟨Node.root_node, [Node.root_node], [],  [],
          [] ++ n.callbacks.map fun callback =>
            ⟨callback, .Array, if ([] : Bytes).isEmpty then [0x2E] else [], s, l⟩⟩)) :=
  ⟨by simp, overflow_pops_or_closes ⟨Node.root_node, [Node.root_node], [.Key, .Array], [], []⟩
    (by simp)⟩

/-- C32 (as stated it fails): on a fresh dispatcher the first two events of the parse of
`{"a":1}`, the start of the object and the key, leave an overflow of two characters after
one start event and no end event. -/
theorem overflow_counts_key :
    ∃ s v,
      parse_json (JsonParser 0) [0x7B, 0x22, 0x61, 0x22, 0x3A, 0x31, 0x7D] = .ok true s ∧
      s.1.visitor_.take 2 = [.on_object_start 0, .on_object_key 2 1] ∧
      JsonCallbackVisitor.InOverflow [0x7B, 0x22, 0x61, 0x22, 0x3A, 0x31, 0x7D]
        [.on_object_start 0, .on_object_key 2 1] ∧
      JsonCallbackVisitor.feed [0x7B, 0x22, 0x61, 0x22, 0x3A, 0x31, 0x7D]
        [.on_object_start 0, .on_object_key 2 1] = some v ∧
      v.overflow_.length = 2 ∧
      count_starts [.on_object_start 0, .on_object_key 2 1] -
        count_ends [.on_object_start 0, .on_object_key 2 1] = 1 :=
  ⟨_, _, rfl, rfl, ⟨_, rfl, by simp [visit, on_object_start, do_collection_start,
      JsonCallbackVisitor, json_object_traits, Node.root_node],
    _, rfl, by simp [visit, on_object_start, do_collection_start, on_object_key,
      JsonCallbackVisitor, json_object_traits, Node.root_node], trivial⟩, rfl, rfl, rfl⟩

/-- C32 (amended): while the events received since the overflow was empty all leave it in
use, the number of characters of objects and arrays in it is the number of start events less
the number of end events; its length is this number and the number of characters of keys. -/
theorem overflow_counts_collections (input : Bytes) (es : List Event)
    (v : JsonCallbackVisitorImpl) (h0 : v.overflow_ = []) (h : v.InOverflow input es) :
    ∃ v1, v.feed input es = some v1 ∧ count_ends es ≤ count_starts es ∧
      collection_markers v1.overflow_ = count_starts es - count_ends es ∧
      v1.overflow_.length = (count_starts es - count_ends es) + key_markers v1.overflow_ := by
  obtain ⟨v1, hf, hc⟩ := feed_markers input es v h
  rw [h0] at hc
  have hl := markers_length v1.overflow_
  simp only [collection_markers, List.countP_nil, Nat.zero_add] at hc
  refine ⟨v1, hf, ?_, ?_, ?_⟩
  · simp only [collection_markers] at hl
    omega
  · simp only [collection_markers]
    omega
  · simp only [collection_markers] at hl
    omega

theorem overflow_counts_collections_witness :
    JsonCallbackVisitor.overflow_ = [] ∧
    JsonCallbackVisitor.InOverflow [0x7B, 0x22, 0x61, 0x22, 0x3A, 0x31, 0x7D]
      [.on_object_start 0, .on_object_key 2 1] ∧
    ∃ v1, JsonCallbackVisitor.feed [0x7B, 0x22, 0x61, 0x22, 0x3A, 0x31, 0x7D]
        [.on_object_start 0, .on_object_key 2 1] = some v1 ∧
      count_ends [.on_object_start 0, .on_object_key 2 1] ≤
        count_starts [.on_object_start 0, .on_object_key 2 1] ∧
      collection_markers v1.overflow_ =
        count_starts [.on_object_start 0, .on_object_key 2 1] -
          count_ends [.on_object_start 0, .on_object_key 2 1] ∧
      v1.overflow_.length =
        (count_starts [.on_object_start 0, .on_object_key 2 1] -
          count_ends [.on_object_start 0, .on_object_key 2 1]) + key_markers v1.overflow_ :=
  have hin : JsonCallbackVisitor.InOverflow [0x7B, 0x22, 0x61, 0x22, 0x3A, 0x31, 0x7D]
      [.on_object_start 0, .on_object_key 2 1] :=
    ⟨_, rfl, by simp [visit, on_object_start, do_collection_start,
        JsonCallbackVisitor, json_object_traits, Node.root_node],
      _, rfl, by simp [visit, on_object_start, do_collection_start, on_object_key,
        JsonCallbackVisitor, json_object_traits, Node.root_node], trivial⟩
  ⟨rfl, hin, overflow_counts_collections _ _ JsonCallbackVisitor rfl hin⟩

/-! ## `force_to_utf8` -/

/-- C34: for a byte string `s`, `is_utf8` accepts `force_to_utf8(s)`; `chomp_utf8_char`,
called until the end of `force_to_utf8(s)`, gives the bytes of `s` in their order; so
`force_to_utf8` is injective on byte strings, and it returns `s` when every byte of `s` is
below 0x80. -/
theorem force_to_utf8_reversible (s : Bytes) (hs : IsByteString s) :
    is_utf8 (force_to_utf8 s) = .ok true () ∧
    chomp_utf8_chars ((force_to_utf8 s).length + 1) ⟨0, force_to_utf8 s⟩ =
      .ok s ⟨(force_to_utf8 s).length, []⟩ ∧
    (∀ s1, IsByteString s1 → force_to_utf8 s = force_to_utf8 s1 → s = s1) ∧
    ((∀ b ∈ s, b < 0x80) → force_to_utf8 s = s) := by
  refine ⟨is_utf8_force_to_utf8 s hs, ?_, fun s1 h1 h => force_to_utf8_injective s s1 hs h1 h,
    force_to_utf8_ascii s⟩
  have := chomp_utf8_chars_force s hs _ 0 (Nat.lt_succ_self _)
  simpa using this

theorem force_to_utf8_reversible_witness :
    IsByteString [0x41, 0xE9] ∧
    (is_utf8 (force_to_utf8 [0x41, 0xE9]) = .ok true () ∧
    chomp_utf8_chars ((force_to_utf8 [0x41, 0xE9]).length + 1) ⟨0, force_to_utf8 [0x41, 0xE9]⟩ =
      .ok [0x41, 0xE9] ⟨(force_to_utf8 [0x41, 0xE9]).length, []⟩ ∧
    (∀ s1, IsByteString s1 → force_to_utf8 [0x41, 0xE9] = force_to_utf8 s1 →
      [0x41, 0xE9] = s1) ∧
    ((∀ b ∈ ([0x41, 0xE9] : Bytes), b < 0x80) → force_to_utf8 [0x41, 0xE9] = [0x41, 0xE9])) :=
  have hs : IsByteString [0x41, 0xE9] := by
    intro b hb
    simp only [List.mem_cons, List.mem_singleton, List.not_mem_nil, or_false] at hb
    omega
  ⟨hs, force_to_utf8_reversible [0x41, 0xE9] hs⟩

/-! ## The assertions of the dispatcher -/

/-- C35: a call of `parse_json` ends, and whether it returns or throws, the events that it
delivered are handled one after the other by the dispatcher made by any registrations on a
fresh one, each event finding the dispatcher in a state in which the `assert` of its
handler holds: a key finds an object node or the overflow character of an object, the
start of a collection or a primitive value does not, and the end of a collection finds a
node of its type that has a parent or its overflow character. -/
theorem parse_json_asserts_hold (regs : List (JsonValuePath × Nat)) (p : JsonParserImpl)
    (input : Bytes) :
    match parse_json p input with
    | .ok _ s =>
      ∃ es, s.1.visitor_ = p.visitor_ ++ es ∧ (registered regs).asserts_hold input es
    | .throw _ s =>
      ∃ es, s.1.visitor_ = p.visitor_ ++ es ∧ (registered regs).asserts_hold input es
    | .fuel => False := by
  have h := parse_json_emits p input
  have ht : Tracks regs (registered regs) [] := registered_tracks regs (registered regs).invoked
  cases hr : parse_json p input with
  | fuel => rw [hr] at h; exact h
  | throw e s =>
    rw [hr] at h
    obtain ⟨es, st, h1, h2⟩ := h
    exact ⟨es, h1, (asserts_hold_of_run regs input es _ [] st ht h2).1⟩
  | ok b s =>
    rw [hr] at h
    obtain ⟨es, st, h1, h2, -⟩ := h
    exact ⟨es, h1, (asserts_hold_of_run regs input es _ [] st ht h2).1⟩

/-! ## A parser used for a second text -/

/-- C36: after a call of `parse_json` that returned, the dispatcher fed with its events
stands at its root with an empty path and an empty overflow, and the events of a further
call on the same parser that returned make it invoke what a fresh dispatcher with the same
registrations invokes, after what it invoked before. -/
theorem parse_json_leaves_dispatcher_at_root (regs : List (JsonValuePath × Nat))
    (p : JsonParserImpl) (input1 : Bytes) (b1 : Bool) (s1 : ParseState)
    (h1 : parse_json p input1 = .ok b1 s1) (input2 : Bytes) (b2 : Bool) (s2 : ParseState)
    (h2 : parse_json s1.1 input2 = .ok b2 s2) :
    ∃ e1 e2 v1 v2 fresh, s1.1.visitor_ = p.visitor_ ++ e1 ∧
      s2.1.visitor_ = s1.1.visitor_ ++ e2 ∧
      (registered regs).feed input1 e1 = some v1 ∧
      v1.root_ = (registered regs).root_ ∧ v1.pos_ = [v1.root_] ∧ v1.path_ = [] ∧
      v1.overflow_ = [] ∧
      v1.feed input2 e2 = some v2 ∧ (registered regs).feed input2 e2 = some fresh ∧
      v2.invoked = v1.invoked ++ fresh.invoked ∧
      v2.root_ = (registered regs).root_ ∧ v2.pos_ = [v2.root_] ∧ v2.path_ = [] ∧
      v2.overflow_ = [] := by
  obtain ⟨t1, -, -, -, hr1, -, hs1⟩ := parse_json_ok_read p input1 b1 s1 h1
  obtain ⟨t2, -, -, -, hr2, -, hs2⟩ := parse_json_ok_read s1.1 input2 b2 s2 h2
  obtain ⟨root, hreg, -, -, -⟩ := registered_spec regs
  have f1 := feed_events_registered t1 regs
  have f2 := feed_events_registered_from t2 regs (t1.value.invocations regs [] t1.ws1.length)
  have f3 := feed_events_registered t2 regs
  rw [hr1] at f1
  rw [hr2] at f2 f3
  refine ⟨_, _, _, _, _, by rw [hs1], by rw [hs2], f1, rfl, ?_, ?_, ?_, f2, f3, rfl, rfl, ?_,
    ?_, ?_⟩
  all_goals rw [hreg]

theorem parse_json_leaves_dispatcher_at_root_witness :
    parse_json (JsonParser 0) [0x31] =
      .ok true (⟨[], [.on_primitive_value .Number 0 1], 0⟩, ⟨1, []⟩) ∧
    parse_json ⟨[], [.on_primitive_value .Number 0 1], 0⟩ [0x5B, 0x5D] =
      .ok true (⟨[], [.on_primitive_value .Number 0 1, .on_array_start 0, .on_array_end 0 2],
        0⟩, ⟨2, []⟩) ∧
    ∃ e1 e2 v1 v2 fresh, [Event.on_primitive_value .Number 0 1] = (JsonParser 0).visitor_ ++ e1 ∧
      [Event.on_primitive_value .Number 0 1, .on_array_start 0, .on_array_end 0 2] =
        [Event.on_primitive_value .Number 0 1] ++ e2 ∧
      (registered [(JsonValuePath.root, 1)]).feed [0x31] e1 = some v1 ∧
      v1.root_ = (registered [(JsonValuePath.root, 1)]).root_ ∧ v1.pos_ = [v1.root_] ∧
      v1.path_ = [] ∧ v1.overflow_ = [] ∧
      v1.feed [0x5B, 0x5D] e2 = some v2 ∧
      (registered [(JsonValuePath.root, 1)]).feed [0x5B, 0x5D] e2 = some fresh ∧
      v2.invoked = v1.invoked ++ fresh.invoked ∧
      v2.root_ = (registered [(JsonValuePath.root, 1)]).root_ ∧ v2.pos_ = [v2.root_] ∧
      v2.path_ = [] ∧ v2.overflow_ = [] :=
  ⟨rfl, rfl, parse_json_leaves_dispatcher_at_root [(JsonValuePath.root, 1)] (JsonParser 0)
    [0x31] true (⟨[], [.on_primitive_value .Number 0 1], 0⟩, ⟨1, []⟩) rfl [0x5B, 0x5D] true
    (⟨[], [.on_primitive_value .Number 0 1, .on_array_start 0, .on_array_end 0 2], 0⟩,
      ⟨2, []⟩) rfl⟩

/-! ## The end of every parse -/

/-- C37: a call of `parse_json` ends, by a return or by an exception, and so does its loop
with any bound on the number of passes above the length of the input; every pass of the
loop starts with a frame on the stack, and when it returns it has read one byte at least
and left a frame for `dec_depth` to take away; so there are no more passes than the length
of the input and one. -/
theorem parse_json_terminates (p : JsonParserImpl) (input : Bytes) :
    parse_json p input ≠ .fuel ∧
    inc_depth { p with state_ := [] } ⟨0, input⟩ =
      .ok () (⟨[{}], p.visitor_, p.depth_limit_⟩, ⟨0, input⟩) ∧
    (∀ fuel, input.length < fuel →
      parse_json_loop fuel ⟨[{}], p.visitor_, p.depth_limit_⟩ ⟨0, input⟩ ≠ .fuel) ∧
    ∀ fuel,
      (parse_json_passes fuel ⟨[{}], p.visitor_, p.depth_limit_⟩ ⟨0, input⟩).length ≤
        input.length + 1 ∧
      ∀ q ∈ parse_json_passes fuel ⟨[{}], p.visitor_, p.depth_limit_⟩ ⟨0, input⟩,
        PassAdvances q := by
  have h0 : BetweenPasses [({} : State)] [] := Or.inl ⟨[], rfl, rfl⟩
  refine ⟨?_, inc_depth_first p ⟨0, input⟩, ?_, ?_⟩
  · rcases parse_json_outcome p input with ⟨s, h, -⟩ | ⟨inner, s, h, -⟩
    · rw [h]; exact fun h => by cases h
    · rw [h]; exact fun h => by cases h
  · intro fuel hf h
    have := parse_json_loop_steps fuel ⟨[{}], p.visitor_, p.depth_limit_⟩ ⟨0, input⟩ [] hf h0
      (by simp)
    rw [h] at this
    exact this
  · intro fuel
    exact parse_json_passes_advance fuel ⟨[{}], p.visitor_, p.depth_limit_⟩ ⟨0, input⟩ [] h0
      (by simp)

/-! ## The encoder read back by the decoder -/

/-- C38: for bytes `s` that `is_utf8` accepts and that hold no byte from 0x00 to 0x1F and no
0x7F other than 08, 09, 0A, 0C and 0D, `utf8_to_json_string_content(s)` returns and
`json_string_content_to_utf8` returns `s` from what it returned. -/
theorem utf8_json_string_round_trip (s : Bytes) (hv : is_utf8 s = .ok true ())
    (hc : ∀ b ∈ s, (b < 0x20 ∨ b = 0x7F) → b ∈ [0x08, 0x09, 0x0A, 0x0C, 0x0D]) :
    ∃ out, utf8_to_json_string_content s = .ok out () ∧
      json_string_content_to_utf8 out = .ok s () :=
  utf8_to_json_round_trip s hv hc

theorem utf8_json_string_round_trip_witness :
    is_utf8 [0x41, 0x0A, 0x22, 0xC3, 0xA9] = .ok true () ∧
    (∀ b ∈ ([0x41, 0x0A, 0x22, 0xC3, 0xA9] : Bytes), (b < 0x20 ∨ b = 0x7F) →
      b ∈ [0x08, 0x09, 0x0A, 0x0C, 0x0D]) ∧
    ∃ out, utf8_to_json_string_content [0x41, 0x0A, 0x22, 0xC3, 0xA9] = .ok out () ∧
      json_string_content_to_utf8 out = .ok [0x41, 0x0A, 0x22, 0xC3, 0xA9] () :=
  have hc : ∀ b ∈ ([0x41, 0x0A, 0x22, 0xC3, 0xA9] : Bytes), (b < 0x20 ∨ b = 0x7F) →
      b ∈ [0x08, 0x09, 0x0A, 0x0C, 0x0D] := by
    intro b hb
    simp only [List.mem_cons, List.mem_singleton, List.not_mem_nil, or_false] at hb ⊢
    omega
  ⟨rfl, hc, utf8_json_string_round_trip _ rfl hc⟩

/-! ## The names of the types -/

/-- C40 (the code differs for `False`): the stream output writes `array`, `object`, `true`,
`null`, `string` and `number` for `Array`, `Object`, `True`, `Null`, `String` and `Number`,
and sets the fail bit and writes nothing for a value that is none of the seven; for `False`
it writes `array`, the name of `Array`, and not `false`. -/
theorem operator_shl_names (os : OStream) :
    operator_shl os JsonValueType.Array.value = { os with written := os.written ++ "array" } ∧
    operator_shl os JsonValueType.Object.value =
      { os with written := os.written ++ "object" } ∧
    operator_shl os JsonValueType.True.value = { os with written := os.written ++ "true" } ∧
    operator_shl os JsonValueType.False.value = { os with written := os.written ++ "array" } ∧
    operator_shl os JsonValueType.Null.value = { os with written := os.written ++ "null" } ∧
    operator_shl os JsonValueType.String.value =
      { os with written := os.written ++ "string" } ∧
    operator_shl os JsonValueType.Number.value =
      { os with written := os.written ++ "number" } ∧
    (∀ t : Int, (∀ type : JsonValueType, t ≠ type.value) →
      operator_shl os t = { os with failbit := true }) ∧
    operator_shl os JsonValueType.False.value = operator_shl os JsonValueType.Array.value ∧
    operator_shl ⟨"", false⟩ JsonValueType.False.value ≠ ⟨"false", false⟩ := by
  refine ⟨rfl, rfl, rfl, rfl, rfl, rfl, rfl, ?_, rfl, by decide⟩
  intro t ht
  unfold operator_shl
  rw [if_neg (ht .Array), if_neg (ht .Object), if_neg (ht .True), if_neg (ht .False),
    if_neg (ht .Null), if_neg (ht .String), if_neg (ht .Number)]

/-! ## C33: the trie after any registrations -/

/-- C33: after any sequence of `register_callback` calls on a fresh dispatcher, every node of
the trie has at most one Object child and at most one Array child, Key children stand only
under Object nodes with non-empty and pairwise distinct keys, and Object nodes have no other
kind of child (`Node.WellFormed`); in the trie written with the parent links, which is the
same trie once the links are taken away, the root has no parent and the link of every child
is the position of the node that owns it (`PNode.ParentsOk`); the callbacks stored are as
many as the registrations; a registration of a path whose nodes all exist leaves the number
of nodes as it was, and after a registration the nodes of its path exist. -/
theorem registered_trie_invariants (regs : List (JsonValuePath × Nat)) :
    (registered regs).root_.WellFormed ∧
      (registered_nodes regs).erase = (registered regs).root_ ∧
      (registered_nodes regs).parent = none ∧
      (registered_nodes regs).ParentsOk [] ∧
      (registered regs).root_.count_callbacks = regs.length ∧
      (∀ (path : JsonValuePath) (cb : Nat), (registered regs).root_.HasPath path.segments →
        ((registered regs).register_callback path cb).root_.count_nodes =
          (registered regs).root_.count_nodes) ∧
      (∀ (path : JsonValuePath) (cb : Nat),
        ((registered regs).register_callback path cb).root_.HasPath path.segments) :=
  ⟨registered_wellFormed regs, registered_nodes_erase regs, (registered_nodes_parentsOk regs).1,
    (registered_nodes_parentsOk regs).2, registered_count_callbacks regs,
    fun path cb h => register_segments_count_nodes path.segments cb _ h,
    fun path cb => register_segments_hasPath path.segments cb _⟩

/-! ## C39: the text of the echo visitor -/

/-- C39: for a text `t` of the grammar whose values fit under the depth limit and an indent
made of space, tab, CR and LF only, `parse_json` returns `true` on `t`; the text `out` that
the echo visitor writes from the events of that parse is accepted by `parse_json` too, its
events have the kinds, the key bytes and the primitive bytes of the events of `t`, in the
same order, and the echo visitor fed with the events of `out` writes `out` again. -/
theorem echo_text_parses (t : JsonText) (ht : t.Valid) (indent : Bytes)
    (hi : IsWhitespace indent) (lim : Nat) (hd : lim = 0 ∨ 1 + t.value.height ≤ lim) :
    ∃ s s1 : ParseState,
      parse_json (JsonParser lim) t.render = .ok true s ∧
      parse_json (JsonParser lim)
        (JsonEchoVisitorImpl.feed t.render s.1.visitor_ (JsonEchoVisitor indent)).out_ =
          .ok true s1 ∧
      s1.1.visitor_.map (Event.content
          (JsonEchoVisitorImpl.feed t.render s.1.visitor_ (JsonEchoVisitor indent)).out_) =
        s.1.visitor_.map (Event.content t.render) ∧
      (JsonEchoVisitorImpl.feed
          (JsonEchoVisitorImpl.feed t.render s.1.visitor_ (JsonEchoVisitor indent)).out_
          s1.1.visitor_ (JsonEchoVisitor indent)).out_ =
        (JsonEchoVisitorImpl.feed t.render s.1.visitor_ (JsonEchoVisitor indent)).out_ := by
  have hp1 := parse_json_valid t ht (JsonParser lim) hd
  have hval : (t.value.echo indent 0).Valid := value_echo_valid indent hi t.value 0 ht.2.1
  have hp2 := parse_json_valid ⟨[], t.value.echo indent 0, []⟩
    ⟨isWhitespace_nil, hval, isWhitespace_nil⟩ (JsonParser lim)
    (by simpa only [value_echo_height] using hd)
  have hr : (JsonText.mk [] (t.value.echo indent 0) []).render =
      (t.value.echo indent 0).render := by
    simp [JsonText.render]
  have hf1 := text_echo_feed indent t
  have hf2 := text_echo_feed indent ⟨[], t.value.echo indent 0, []⟩
  simp only [hr, value_echo_echo, List.length_nil] at hf2 hp2
  simp only [JsonParser, List.nil_append] at hp1 hp2
  refine ⟨(⟨[], t.value.events t.ws1.length, lim⟩, ⟨t.render.length, []⟩),
    (⟨[], (t.value.echo indent 0).events 0, lim⟩,
      ⟨(t.value.echo indent 0).render.length, []⟩), hp1, ?_, ?_, ?_⟩
  · simp only [hf1]
    exact hp2
  · simp only [hf1]
    have hc2 := value_events_contents (t.value.echo indent 0).render (t.value.echo indent 0) 0
      ⟨[], [], by simp, rfl⟩
    have hc1 := value_events_contents t.render t.value t.ws1.length ⟨t.ws1, t.ws2, rfl, rfl⟩
    rw [hc1, hc2, value_echo_contents]
  · simp only [hf1]
    rw [hf2]

/-- C39 at the text `{"abc":1,"abc":{"efg":2},"abc":[3,{}]}` with an indent of two spaces. -/
theorem echo_text_parses_witness :
    ∃ s s1 : ParseState,
      parse_json (JsonParser 0) fanout_text.render = .ok true s ∧
      parse_json (JsonParser 0)
        (JsonEchoVisitorImpl.feed fanout_text.render s.1.visitor_
          (JsonEchoVisitor [0x20, 0x20])).out_ = .ok true s1 ∧
      s1.1.visitor_.map (Event.content
          (JsonEchoVisitorImpl.feed fanout_text.render s.1.visitor_
            (JsonEchoVisitor [0x20, 0x20])).out_) =
        s.1.visitor_.map (Event.content fanout_text.render) ∧
      (JsonEchoVisitorImpl.feed
          (JsonEchoVisitorImpl.feed fanout_text.render s.1.visitor_
            (JsonEchoVisitor [0x20, 0x20])).out_
          s1.1.visitor_ (JsonEchoVisitor [0x20, 0x20])).out_ =
        (JsonEchoVisitorImpl.feed fanout_text.render s.1.visitor_
          (JsonEchoVisitor [0x20, 0x20])).out_ :=
  echo_text_parses fanout_text fanout_text_valid [0x20, 0x20]
    (by simp [IsWhitespace, is_whitespace]) 0 (Or.inl rfl)

end flumps


namespace flumps

open JsonCallbackVisitorImpl

/-! ## The invocations of the dispatcher on any events that are expected -/

theorem events_located_cons (input : Bytes) (stack : List OpenStep) (e : Event)
    (es : List Event) :
    events_located input stack (e :: es) =
      reported stack e ++ events_located input (open_step input stack e) es := rfl

mutual
/-- The values that the events of a value report are the values of the value, at their
locations in the text. -/
theorem value_events_located (input : Bytes) : ∀ (v : JsonValue) (s : Nat)
    (stack : List OpenStep) (tail : List Event), Aligned input s v.render →
    events_located input stack (v.events s ++ tail) =
      v.located (open_location stack) s ++ events_located input (close_open stack) tail
  | .primitive type text, s, stack, tail, _ => rfl
  | .empty_array ws, s, stack, tail, _ => rfl
  | .array ws1 v ws2 more, s, stack, tail, hal => by
    have halv : Aligned input (s + 1 + ws1.length) v.render :=
      hal.sub (0x5B :: ws1) v.render (ws2 ++ (more.render ++ [0x5D]))
        (by simp [JsonValue.render]) _
        (by simp only [List.length_cons, List.length_append, List.length_nil]; omega)
    have halm : Aligned input (s + 1 + ws1.length + v.render.length + ws2.length) more.render :=
      hal.sub (0x5B :: (ws1 ++ (v.render ++ ws2))) more.render [0x5D]
        (by simp [JsonValue.render]) _
        (by simp only [List.length_cons, List.length_append, List.length_nil]; omega)
    simp only [JsonValue.events, JsonValue.located, List.cons_append, List.append_assoc,
      events_located_cons, reported, open_step, List.nil_append]
    rw [value_events_located input v _ (.array :: stack) _ halv,
      show close_open (OpenStep.array :: stack) = .array :: stack from rfl]
    rw [elements_events_located input more _ stack _ halm]
    simp only [open_location, events_located_cons, reported, open_step, List.tail_cons,
      List.singleton_append]
  | .empty_object ws, s, stack, tail, _ => rfl
  | .object ws1 key ws2 ws3 v ws4 more, s, stack, tail, hal => by
    have halk : Aligned input (s + 1 + ws1.length + 1) key :=
      hal.sub (0x7B :: (ws1 ++ [0x22])) key
        (0x22 :: (ws2 ++ [0x3A]) ++ (ws3 ++ (v.render ++ (ws4 ++ (more.render ++ [0x7D])))))
        (by simp [JsonValue.render, key_text]) _
        (by simp only [List.length_cons, List.length_append, List.length_nil]; omega)
    have halv : Aligned input (s + 1 + (key_text ws1 key ws2).length + ws3.length) v.render :=
      hal.sub (0x7B :: (key_text ws1 key ws2 ++ ws3)) v.render (ws4 ++ (more.render ++ [0x7D]))
        (by simp [JsonValue.render]) _
        (by simp only [List.length_cons, List.length_append, List.length_nil]; omega)
    have halm : Aligned input
        (s + 1 + (key_text ws1 key ws2).length + ws3.length + v.render.length + ws4.length)
        more.render :=
      hal.sub (0x7B :: (key_text ws1 key ws2 ++ (ws3 ++ (v.render ++ ws4)))) more.render [0x7D]
        (by simp [JsonValue.render]) _
        (by simp only [List.length_cons, List.length_append, List.length_nil]; omega)
    simp only [JsonValue.events, JsonValue.located, List.cons_append, List.append_assoc,
      events_located_cons, reported, open_step, List.nil_append, halk.read]
    rw [value_events_located input v _ (.key key :: .object :: stack) _ halv,
      show close_open (OpenStep.key key :: .object :: stack) = .object :: stack from rfl]
    rw [members_events_located input more _ stack _ halm]
    simp only [open_location, events_located_cons, reported, open_step, List.tail_cons,
      List.singleton_append]
theorem elements_events_located (input : Bytes) : ∀ (more : JsonElements) (s : Nat)
    (below : List OpenStep) (tail : List Event), Aligned input s more.render →
    events_located input (.array :: below) (more.events s ++ tail) =
      more.located (open_location below ++ [.element]) s ++
        events_located input (.array :: below) tail
  | .nil, s, below, tail, _ => rfl
  | .cons ws1 v ws2 tl, s, below, tail, hal => by
    have halv : Aligned input (s + 1 + ws1.length) v.render :=
      hal.sub (0x2C :: ws1) v.render (ws2 ++ tl.render)
        (by simp [JsonElements.render]) _
        (by simp only [List.length_cons, List.length_append, List.length_nil]; omega)
    have halm : Aligned input (s + 1 + ws1.length + v.render.length + ws2.length) tl.render :=
      hal.sub (0x2C :: (ws1 ++ (v.render ++ ws2))) tl.render []
        (by simp [JsonElements.render]) _
        (by simp only [List.length_cons, List.length_append, List.length_nil]; omega)
    simp only [JsonElements.events, JsonElements.located, List.append_assoc]
    rw [value_events_located input v _ (.array :: below) _ halv]
    simp only [close_open, open_location]
    rw [elements_events_located input tl _ below _ halm]
theorem members_events_located (input : Bytes) : ∀ (more : JsonMembers) (s : Nat)
    (below : List OpenStep) (tail : List Event), Aligned input s more.render →
    events_located input (.object :: below) (more.events s ++ tail) =
      more.located (open_location below) s ++ events_located input (.object :: below) tail
  | .nil, s, below, tail, _ => rfl
  | .cons ws1 key ws2 ws3 v ws4 tl, s, below, tail, hal => by
    have halk : Aligned input (s + 1 + ws1.length + 1) key :=
      hal.sub (0x2C :: (ws1 ++ [0x22])) key
        (0x22 :: (ws2 ++ [0x3A]) ++ (ws3 ++ (v.render ++ (ws4 ++ tl.render))))
        (by simp [JsonMembers.render, key_text]) _
        (by simp only [List.length_cons, List.length_append, List.length_nil]; omega)
    have halv : Aligned input (s + 1 + (key_text ws1 key ws2).length + ws3.length) v.render :=
      hal.sub (0x2C :: (key_text ws1 key ws2 ++ ws3)) v.render (ws4 ++ tl.render)
        (by simp [JsonMembers.render]) _
        (by simp only [List.length_cons, List.length_append, List.length_nil]; omega)
    have halm : Aligned input
        (s + 1 + (key_text ws1 key ws2).length + ws3.length + v.render.length + ws4.length)
        tl.render :=
      hal.sub (0x2C :: (key_text ws1 key ws2 ++ (ws3 ++ (v.render ++ ws4)))) tl.render []
        (by simp [JsonMembers.render]) _
        (by simp only [List.length_cons, List.length_append, List.length_nil]; omega)
    simp only [JsonMembers.events, JsonMembers.located, List.cons_append, List.append_assoc,
      events_located_cons, reported, open_step, List.nil_append, halk.read]
    rw [value_events_located input v _ (.key key :: .object :: below) _ halv]
    simp only [close_open, open_location]
    rw [members_events_located input tl _ below _ halm]
end

end flumps


namespace flumps

/-! ## A text cut short inside its array or object

The passes over a collection leave the read position at whatever follows it; when bytes
other than whitespace follow the value of a text, the loop of `parse_json` throws.  A text
that is read to its end has therefore no longer text that is read to its end and starts with
the same collection. -/

end flumps


namespace flumps

/-! ## The marked embedding computes what the embedding computes -/

theorem Traced.ret_result {ρ : Type} (r : ρ) : (Traced.ret r).result = r := rfl

theorem Traced.call_result {ρ : Type} (t : Traced ρ) : t.call.result = t.result := rfl

theorem Traced.andThen_result {ρ τ : Type} (t : Traced ρ) (k : ρ → Traced τ) :
    (t.andThen k).result = (k t.result).result := rfl

theorem Traced.raise_result {σ α : Type} (e : DecodeError) (s : σ) :
    (Traced.raise e s : Traced (Res σ α)).result = .throw e s := rfl

theorem Traced.fail_result {α : Type} (e : DecodeError) :
    (Traced.fail e : Traced (Except DecodeError α)).result = .error e := rfl

theorem Traced.bind_result {σ α β : Type} (t : Traced (Res σ α))
    (k : α → σ → Traced (Res σ β)) :
    (t.bind k).result = t.result.bind fun a s => (k a s).result := by
  unfold Traced.bind Res.bind
  rw [Traced.andThen_result]
  cases t.result <;> rfl

theorem Traced.lift_result {σ τ α : Type} (put : τ → σ) (t : Traced (Res τ α)) :
    (t.lift put).result = t.result.lift put := rfl

theorem Traced.ite_result {ρ : Type} (c : Prop) [Decidable c] (a b : Traced ρ) :
    (if c then a else b).result = if c then a.result else b.result := by
  split <;> rfl

theorem code_point_type_traced_result (cp : Nat) :
    (code_point_type_traced cp).result = code_point_type cp := by
  unfold code_point_type_traced code_point_type
  simp only [Traced.call_result, Traced.ite_result, Traced.fail_result, Traced.ret_result]

theorem surrogate_pair_to_code_point_traced_result (high low : Nat) :
    (surrogate_pair_to_code_point_traced high low).result =
      surrogate_pair_to_code_point high low := by
  unfold surrogate_pair_to_code_point_traced surrogate_pair_to_code_point
  simp only [Traced.call_result, Traced.andThen_result, code_point_type_traced_result]
  cases code_point_type high with
  | error e => rfl
  | ok th =>
    simp only [Traced.ite_result, Traced.fail_result, Traced.andThen_result,
      code_point_type_traced_result]
    cases code_point_type low with
    | error e => rfl
    | ok tl => simp only [Traced.ite_result, Traced.fail_result, Traced.ret_result]

theorem check_code_point_traced_result (t : utf8_surrogate_checker) (code_point : Nat) :
    (check_code_point_traced t code_point).result = t.check_code_point code_point := by
  unfold check_code_point_traced utf8_surrogate_checker.check_code_point
  simp only [Traced.call_result, Traced.andThen_result, code_point_type_traced_result]
  cases code_point_type code_point with
  | error e => rfl
  | ok th =>
    cases th with
    | low_surrogate =>
      simp only [Traced.ite_result, Traced.fail_result, Traced.andThen_result,
        surrogate_pair_to_code_point_traced_result]
      cases surrogate_pair_to_code_point t.last_code_point code_point <;> rfl
    | high_surrogate => simp only [Traced.ite_result, Traced.fail_result, Traced.ret_result]
    | non_surrogate => simp only [Traced.ite_result, Traced.fail_result, Traced.ret_result]

theorem chomp_utf8_continuation_traced_result : ∀ (k code_point : Nat) (c : Cursor),
    (chomp_utf8_continuation_traced k code_point c).result =
      chomp_utf8_continuation k code_point c
  | 0, _, _ => rfl
  | k + 1, code_point, c => by
    unfold chomp_utf8_continuation_traced chomp_utf8_continuation
    simp only [Traced.ite_result, Traced.raise_result,
      chomp_utf8_continuation_traced_result k]

theorem chomp_utf8_char_traced_result (c : Cursor) :
    (chomp_utf8_char_traced c).result = chomp_utf8_char c := by
  unfold chomp_utf8_char_traced chomp_utf8_char
  simp only [Traced.call_result, Traced.bind_result, Traced.andThen_result,
    code_point_type_traced_result]
  congr 1
  · cases c.rest with
    | nil => rfl
    | cons b r =>
      simp only
      cases utf8_lead b with
      | none => rfl
      | some x =>
        simp only [Traced.ite_result, Traced.raise_result,
          chomp_utf8_continuation_traced_result]
  · funext code_point c1
    cases code_point_type code_point with
    | error e => rfl
    | ok t => simp only [Traced.ite_result, Traced.raise_result, Traced.ret_result]

theorem json_hex_seq_loop_traced_result : ∀ (k column cp : Nat) (c : Cursor),
    (json_hex_seq_loop_traced k column cp c).result = json_hex_seq_loop k column cp c
  | 0, _, _, _ => rfl
  | k + 1, column, cp, c => by
    unfold json_hex_seq_loop_traced json_hex_seq_loop
    simp only [Traced.andThen_result, Traced.ite_result, Traced.raise_result,
      json_hex_seq_loop_traced_result k]
    rfl

theorem json_hex_seq_to_code_point_traced_result (c : Cursor) :
    (json_hex_seq_to_code_point_traced c).result = json_hex_seq_to_code_point c := by
  unfold json_hex_seq_to_code_point_traced json_hex_seq_to_code_point
  simp only [Traced.call_result, Traced.ite_result, Traced.raise_result,
    json_hex_seq_loop_traced_result]

theorem visit_traced_result (p : JsonParserImpl) (e : Event) :
    (visit_traced p e).result = p.visit e := rfl

theorem inc_depth_traced_result (p : JsonParserImpl) (c : Cursor) :
    (inc_depth_traced p c).result = inc_depth p c := by
  unfold inc_depth_traced inc_depth
  simp only [Traced.call_result, Traced.ite_result, Traced.raise_result, Traced.ret_result]

theorem chomp_whitespace_loop_traced_result : ∀ (rest : Bytes) (pos : Nat),
    (chomp_whitespace_loop_traced pos rest).result = chomp_whitespace_from pos rest
  | [], _ => rfl
  | b :: r, pos => by
    unfold chomp_whitespace_loop_traced chomp_whitespace_from
    simp only [Traced.andThen_result, Traced.ite_result,
      chomp_whitespace_loop_traced_result r]
    rfl

theorem chomp_whitespace_traced_result (c : Cursor) :
    (chomp_whitespace_traced c).result = chomp_whitespace c :=
  chomp_whitespace_loop_traced_result c.rest c.pos

theorem chomp_digits_traced_result : ∀ (rest : Bytes) (pos : Nat),
    (chomp_digits_traced pos rest).result = chomp_digits_from pos rest
  | [], _ => rfl
  | b :: r, pos => by
    unfold chomp_digits_traced chomp_digits_from
    simp only [Traced.andThen_result, Traced.ite_result, chomp_digits_traced_result r]
    rfl

theorem parse_number_exponent_traced_result (c : Cursor) :
    (parse_number_exponent_traced c).result = parse_number_exponent c := by
  unfold parse_number_exponent_traced parse_number_exponent
  simp only [Traced.ite_result, Traced.raise_result, Traced.ret_result,
    Traced.andThen_result, chomp_digits_traced_result]
  rfl

theorem parse_number_fraction_traced_result (c : Cursor) :
    (parse_number_fraction_traced c).result = parse_number_fraction c := by
  unfold parse_number_fraction_traced parse_number_fraction
  simp only [Traced.ite_result, Traced.raise_result, Traced.ret_result,
    Traced.andThen_result, Traced.bind_result, chomp_digits_traced_result,
    parse_number_exponent_traced_result]
  rfl

theorem parse_number_traced_result (c : Cursor) :
    (parse_number_traced c).result = parse_number c := by
  unfold parse_number_traced parse_number
  simp only [Traced.call_result, Traced.ite_result, Traced.raise_result, Traced.ret_result,
    Traced.andThen_result, Traced.bind_result, chomp_digits_traced_result,
    parse_number_fraction_traced_result]
  rfl

theorem parse_string_body_traced_result (sur : utf8_surrogate_checker) (last : Bool)
    (c : Cursor) :
    (parse_string_body_traced sur last c).result = parse_string_body sur last c := by
  unfold parse_string_body_traced parse_string_body
  simp only [Traced.ite_result, Traced.raise_result, Traced.ret_result,
    Traced.andThen_result, Traced.bind_result, chomp_utf8_char_traced_result,
    json_hex_seq_to_code_point_traced_result, check_code_point_traced_result]
  split_ifs <;> first | rfl | (congr 1; funext code_point c2; split <;>
    (rename_i h; try rw [h]) <;> rfl)

theorem parse_string_loop_traced_result : ∀ (fuel : Nat) (sur : utf8_surrogate_checker)
    (last : Bool) (c : Cursor),
    (parse_string_loop_traced fuel sur last c).result = parse_string_loop fuel sur last c
  | 0, _, _, _ => rfl
  | fuel + 1, sur, last, c => by
    unfold parse_string_loop_traced parse_string_loop
    simp only [Traced.ite_result, Traced.ret_result, Traced.andThen_result,
      Traced.bind_result, parse_string_body_traced_result, check_code_point_traced_result,
      parse_string_loop_traced_result fuel]
    split_ifs
    · rfl
    · congr 1
      funext x c1
      obtain ⟨sur1, last1⟩ := x
      simp only
      split_ifs
      · split <;>
          (rename_i h; try rw [h]) <;>
            first | rfl | exact parse_string_loop_traced_result fuel _ _ _
      · rfl

theorem parse_string_traced_result (c : Cursor) :
    (parse_string_traced c).result = parse_string c := by
  unfold parse_string_traced parse_string
  simp only [Traced.call_result, Traced.bind_result, Traced.andThen_result,
    parse_string_loop_traced_result, check_code_point_traced_result]
  congr 1
  funext sur c1
  split
  · rename_i h
    try rw [h]
    rfl
  · rename_i h
    try rw [h]
    simp only [Traced.ite_result, Traced.raise_result, Traced.ret_result]

theorem parse_member_key_traced_result (p : JsonParserImpl) (c : Cursor) :
    (parse_member_key_traced p c).result = parse_member_key p c := by
  unfold parse_member_key_traced parse_member_key
  simp only [Traced.call_result, Traced.andThen_result, Traced.ite_result,
    Traced.raise_result, Traced.ret_result, Traced.bind_result, Traced.lift_result,
    chomp_whitespace_traced_result, parse_string_traced_result]
  rfl

theorem parse_object_loop_traced_result : ∀ (fuel : Nat) (p : JsonParserImpl) (c : Cursor),
    (parse_object_loop_traced fuel p c).result = parse_object fuel p c
  | 0, _, _ => rfl
  | fuel + 1, p, c => by
    unfold parse_object_loop_traced parse_object
    generalize p.back.parse_object = phase
    cases phase
    · simp only [Traced.andThen_result, Traced.ite_result, Traced.bind_result,
        Traced.ret_result, parse_member_key_traced_result, inc_depth_traced_result,
        chomp_whitespace_traced_result, visit_traced_result,
        parse_object_loop_traced_result fuel]
    · simp only [Traced.andThen_result, Traced.ite_result, Traced.bind_result,
        Traced.ret_result, Traced.raise_result, parse_member_key_traced_result,
        inc_depth_traced_result, parse_object_loop_traced_result fuel]
    · rfl

theorem parse_object_traced_result (fuel : Nat) (p : JsonParserImpl) (c : Cursor) :
    (parse_object_traced fuel p c).result = parse_object fuel p c :=
  parse_object_loop_traced_result fuel p c

theorem parse_array_loop_traced_result : ∀ (fuel : Nat) (p : JsonParserImpl) (c : Cursor),
    (parse_array_loop_traced fuel p c).result = parse_array fuel p c
  | 0, _, _ => rfl
  | fuel + 1, p, c => by
    unfold parse_array_loop_traced parse_array
    generalize p.back.parse_array = phase
    cases phase
    · simp only [Traced.andThen_result, Traced.ite_result, Traced.bind_result,
        Traced.ret_result, inc_depth_traced_result, chomp_whitespace_traced_result,
        visit_traced_result, parse_array_loop_traced_result fuel]
    · simp only [Traced.andThen_result, Traced.ite_result, Traced.bind_result,
        Traced.ret_result, Traced.raise_result, inc_depth_traced_result,
        parse_array_loop_traced_result fuel]
    · rfl

theorem parse_array_traced_result (fuel : Nat) (p : JsonParserImpl) (c : Cursor) :
    (parse_array_traced fuel p c).result = parse_array fuel p c :=
  parse_array_loop_traced_result fuel p c

theorem parse_primitive_traced_result (p : JsonParserImpl) (c : Cursor) :
    (parse_primitive_traced p c).result = parse_primitive p c := by
  unfold parse_primitive_traced parse_primitive
  simp only [Traced.andThen_result, Traced.ite_result, Traced.bind_result,
    Traced.ret_result, Traced.raise_result, Traced.lift_result, parse_string_traced_result,
    parse_number_traced_result]
  by_cases h1 : c.peek = 0x22
  · simp only [h1, if_true]
    rfl
  · simp only [h1, if_false]
    by_cases h2 : c.peek = 0x2D
    · simp only [h2, if_true, true_or]
      rfl
    · simp only [h2, if_false, false_or]
      rfl

theorem parse_value_loop_traced_result : ∀ (fuel : Nat) (p : JsonParserImpl) (c : Cursor),
    (parse_value_loop_traced fuel p c).result = parse_value fuel p c
  | 0, _, _ => rfl
  | fuel + 1, p, c => by
    unfold parse_value_loop_traced parse_value
    generalize p.back.parse_value = phase
    cases phase
    · simp only [Traced.ite_result, Traced.ret_result, Traced.raise_result,
        parse_primitive_traced_result, parse_value_loop_traced_result fuel]
    · exact parse_array_traced_result 2 p c
    · exact parse_object_traced_result 2 p c

theorem parse_value_traced_result (fuel : Nat) (p : JsonParserImpl) (c : Cursor) :
    (parse_value_traced fuel p c).result = parse_value fuel p c :=
  parse_value_loop_traced_result fuel p c

theorem parse_element_traced_result (p : JsonParserImpl) (c : Cursor) :
    (parse_element_traced p c).result = parse_element p c := by
  unfold parse_element_traced parse_element
  simp only [Traced.call_result, Traced.andThen_result, Traced.bind_result,
    Traced.ite_result, Traced.ret_result, parse_value_traced_result,
    chomp_whitespace_traced_result]
  generalize p.back.parse_element = phase
  cases phase <;>
    simp only [Traced.andThen_result, Traced.ret_result, chomp_whitespace_traced_result]

theorem parse_json_loop_traced_result : ∀ (fuel : Nat) (p : JsonParserImpl) (c : Cursor),
    (parse_json_loop_traced fuel p c).result = parse_json_loop fuel p c
  | 0, _, _ => rfl
  | fuel + 1, p, c => by
    unfold parse_json_loop_traced parse_json_loop
    simp only [Traced.andThen_result, Traced.bind_result, Traced.ite_result,
      Traced.ret_result, Traced.raise_result, parse_element_traced_result,
      parse_json_loop_traced_result fuel]
    rfl

/-- The marked embedding of `parse_json` gives what `parse_json` gives. -/
theorem parse_json_traced_result (p : JsonParserImpl) (input : Bytes) :
    (parse_json_traced p input).result = parse_json p input := by
  unfold parse_json_traced parse_json
  simp only [Traced.call_result, Traced.andThen_result, Traced.bind_result,
    Traced.ite_result, Traced.ret_result, Traced.raise_result, inc_depth_traced_result,
    parse_json_loop_traced_result]
  congr 1
  funext u s0
  split <;> (rename_i h; try rw [h]) <;> rfl

/-! ## The nesting of the calls is bounded -/

theorem Traced.le_ret {ρ : Type} (r : ρ) (n : Nat) : (Traced.ret r).depth ≤ n := Nat.zero_le n

theorem Traced.le_raise {σ α : Type} (e : DecodeError) (s : σ) {n : Nat} (h : 2 ≤ n) :
    (Traced.raise e s : Traced (Res σ α)).depth ≤ n := h

theorem Traced.le_fail {α : Type} (e : DecodeError) {n : Nat} (h : 2 ≤ n) :
    (Traced.fail e : Traced (Except DecodeError α)).depth ≤ n := h

theorem Traced.le_call {ρ : Type} (n : Nat) (t : Traced ρ) (h : t.depth ≤ n) :
    t.call.depth ≤ n + 1 := Nat.succ_le_succ h

theorem Traced.le_andThen {ρ τ : Type} {t : Traced ρ} {k : ρ → Traced τ} {n : Nat}
    (h1 : t.depth ≤ n) (h2 : ∀ r, (k r).depth ≤ n) : (t.andThen k).depth ≤ n :=
  Nat.max_le.2 ⟨h1, h2 _⟩

theorem Traced.le_bind {σ α β : Type} {t : Traced (Res σ α)}
    {k : α → σ → Traced (Res σ β)} {n : Nat}
    (h1 : t.depth ≤ n) (h2 : ∀ a s, (k a s).depth ≤ n) : (t.bind k).depth ≤ n := by
  unfold Traced.bind
  refine Traced.le_andThen h1 fun r => ?_
  cases r with
  | ok a s => exact h2 a s
  | throw e s => exact Nat.zero_le n
  | fuel => exact Nat.zero_le n

theorem Traced.le_lift {σ τ α : Type} (put : τ → σ) {t : Traced (Res τ α)} {n : Nat}
    (h : t.depth ≤ n) : (t.lift put).depth ≤ n := h

theorem is_hex_traced_depth (ch : Nat) : (is_hex_traced ch).depth ≤ 1 := Nat.le_refl 1

theorem hex_to_dec_traced_depth (ch : Nat) : (hex_to_dec_traced ch).depth ≤ 1 := Nat.le_refl 1

theorem is_whitespace_traced_depth (ch : Nat) : (is_whitespace_traced ch).depth ≤ 1 :=
  Nat.le_refl 1

theorem is_dec_traced_depth (ch : Nat) : (is_dec_traced ch).depth ≤ 1 := Nat.le_refl 1

theorem visit_traced_depth (p : JsonParserImpl) (e : Event) : (visit_traced p e).depth ≤ 1 :=
  Nat.le_refl 1

theorem dec_depth_traced_depth (p : JsonParserImpl) : (dec_depth_traced p).depth ≤ 1 :=
  Nat.le_refl 1

theorem code_point_type_traced_depth (cp : Nat) :
    (code_point_type_traced cp).depth ≤ 3 := by
  unfold code_point_type_traced
  refine Traced.le_call 2 _ ?_
  try dsimp only
  repeat' first
    | with_reducible exact Traced.le_ret _ _
    | with_reducible exact Traced.le_raise _ _ (by omega)
    | with_reducible exact Traced.le_fail _ (by omega)
    | split

theorem surrogate_pair_to_code_point_traced_depth (high low : Nat) :
    (surrogate_pair_to_code_point_traced high low).depth ≤ 4 := by
  unfold surrogate_pair_to_code_point_traced
  refine Traced.le_call 3 _ ?_
  try dsimp only
  repeat' first
    | with_reducible exact Traced.le_ret _ _
    | with_reducible exact Traced.le_raise _ _ (by omega)
    | with_reducible exact Traced.le_fail _ (by omega)
    | with_reducible exact le_trans (code_point_type_traced_depth _) (by omega)
    | with_reducible apply Traced.le_andThen
    | with_reducible apply Traced.le_bind
    | with_reducible apply Traced.le_lift
    | (intro _; try dsimp only)
    | split

theorem check_code_point_traced_depth (t : utf8_surrogate_checker) (code_point : Nat) :
    (check_code_point_traced t code_point).depth ≤ 5 := by
  unfold check_code_point_traced
  refine Traced.le_call 4 _ ?_
  try dsimp only
  repeat' first
    | with_reducible exact Traced.le_ret _ _
    | with_reducible exact Traced.le_raise _ _ (by omega)
    | with_reducible exact Traced.le_fail _ (by omega)
    | with_reducible exact le_trans (code_point_type_traced_depth _) (by omega)
    | with_reducible exact le_trans (surrogate_pair_to_code_point_traced_depth _ _) (by omega)
    | with_reducible apply Traced.le_andThen
    | with_reducible apply Traced.le_bind
    | with_reducible apply Traced.le_lift
    | (intro _; try dsimp only)
    | split

theorem chomp_utf8_continuation_traced_depth : ∀ (k code_point : Nat) (c : Cursor),
    (chomp_utf8_continuation_traced k code_point c).depth ≤ 2
  | 0, _, _ => Nat.zero_le 2
  | k + 1, code_point, c => by
    unfold chomp_utf8_continuation_traced
    try dsimp only
    repeat' first
      | with_reducible exact Traced.le_ret _ _
      | with_reducible exact Traced.le_raise _ _ (by omega)
      | with_reducible exact Traced.le_fail _ (by omega)
      | exact chomp_utf8_continuation_traced_depth k _ _
      | split

theorem chomp_utf8_char_traced_depth (c : Cursor) :
    (chomp_utf8_char_traced c).depth ≤ 4 := by
  unfold chomp_utf8_char_traced
  refine Traced.le_call 3 _ ?_
  try dsimp only
  repeat' first
    | with_reducible exact Traced.le_ret _ _
    | with_reducible exact Traced.le_raise _ _ (by omega)
    | with_reducible exact Traced.le_fail _ (by omega)
    | with_reducible exact le_trans (code_point_type_traced_depth _) (by omega)
    | with_reducible exact le_trans (chomp_utf8_continuation_traced_depth _ _ _) (by omega)
    | with_reducible apply Traced.le_andThen
    | with_reducible apply Traced.le_bind
    | with_reducible apply Traced.le_lift
    | (intro _; try dsimp only)
    | split

theorem json_hex_seq_loop_traced_depth : ∀ (k column cp : Nat) (c : Cursor),
    (json_hex_seq_loop_traced k column cp c).depth ≤ 2
  | 0, _, _, _ => Nat.zero_le 2
  | k + 1, column, cp, c => by
    unfold json_hex_seq_loop_traced
    try dsimp only
    repeat' first
      | with_reducible exact Traced.le_ret _ _
      | with_reducible exact Traced.le_raise _ _ (by omega)
      | with_reducible exact Traced.le_fail _ (by omega)
      | with_reducible exact le_trans (is_hex_traced_depth _) (by omega)
      | with_reducible exact le_trans (hex_to_dec_traced_depth _) (by omega)
      | exact json_hex_seq_loop_traced_depth k _ _ _
      | with_reducible apply Traced.le_andThen
      | with_reducible apply Traced.le_bind
      | with_reducible apply Traced.le_lift
      | (intro _; try dsimp only)
      | split

theorem json_hex_seq_to_code_point_traced_depth (c : Cursor) :
    (json_hex_seq_to_code_point_traced c).depth ≤ 3 := by
  unfold json_hex_seq_to_code_point_traced
  refine Traced.le_call 2 _ ?_
  try dsimp only
  repeat' first
    | with_reducible exact Traced.le_ret _ _
    | with_reducible exact Traced.le_raise _ _ (by omega)
    | with_reducible exact Traced.le_fail _ (by omega)
    | with_reducible exact le_trans (json_hex_seq_loop_traced_depth _ _ _ _) (by omega)
    | split

theorem inc_depth_traced_depth (p : JsonParserImpl) (c : Cursor) :
    (inc_depth_traced p c).depth ≤ 3 := by
  unfold inc_depth_traced
  refine Traced.le_call 2 _ ?_
  try dsimp only
  repeat' first
    | with_reducible exact Traced.le_ret _ _
    | with_reducible exact Traced.le_raise _ _ (by omega)
    | with_reducible exact Traced.le_fail _ (by omega)
    | split

theorem chomp_whitespace_loop_traced_depth : ∀ (rest : Bytes) (pos : Nat),
    (chomp_whitespace_loop_traced pos rest).depth ≤ 1
  | [], _ => Nat.zero_le 1
  | b :: r, pos => by
    unfold chomp_whitespace_loop_traced
    try dsimp only
    repeat' first
      | with_reducible exact Traced.le_ret _ _
      | with_reducible exact Traced.le_raise _ _ (by omega)
      | with_reducible exact Traced.le_fail _ (by omega)
      | with_reducible exact le_trans (is_whitespace_traced_depth _) (by omega)
      | exact chomp_whitespace_loop_traced_depth r _
      | with_reducible apply Traced.le_andThen
      | with_reducible apply Traced.le_bind
      | with_reducible apply Traced.le_lift
      | (intro _; try dsimp only)
      | split

theorem chomp_whitespace_traced_depth (c : Cursor) : (chomp_whitespace_traced c).depth ≤ 2 :=
  Traced.le_call 1 _ (chomp_whitespace_loop_traced_depth c.rest c.pos)

theorem chomp_digits_traced_depth : ∀ (rest : Bytes) (pos : Nat),
    (chomp_digits_traced pos rest).depth ≤ 1
  | [], _ => Nat.zero_le 1
  | b :: r, pos => by
    unfold chomp_digits_traced
    try dsimp only
    repeat' first
      | with_reducible exact Traced.le_ret _ _
      | with_reducible exact Traced.le_raise _ _ (by omega)
      | with_reducible exact Traced.le_fail _ (by omega)
      | with_reducible exact le_trans (is_dec_traced_depth _) (by omega)
      | exact chomp_digits_traced_depth r _
      | with_reducible apply Traced.le_andThen
      | with_reducible apply Traced.le_bind
      | with_reducible apply Traced.le_lift
      | (intro _; try dsimp only)
      | split

theorem parse_number_exponent_traced_depth (c : Cursor) :
    (parse_number_exponent_traced c).depth ≤ 2 := by
  unfold parse_number_exponent_traced
  try dsimp only
  repeat' first
    | with_reducible exact Traced.le_ret _ _
    | with_reducible exact Traced.le_raise _ _ (by omega)
    | with_reducible exact Traced.le_fail _ (by omega)
    | with_reducible exact le_trans (is_dec_traced_depth _) (by omega)
    | with_reducible exact le_trans (chomp_digits_traced_depth _ _) (by omega)
    | with_reducible apply Traced.le_andThen
    | with_reducible apply Traced.le_bind
    | with_reducible apply Traced.le_lift
    | (intro _; try dsimp only)
    | split

theorem parse_number_fraction_traced_depth (c : Cursor) :
    (parse_number_fraction_traced c).depth ≤ 2 := by
  unfold parse_number_fraction_traced
  try dsimp only
  repeat' first
    | with_reducible exact Traced.le_ret _ _
    | with_reducible exact Traced.le_raise _ _ (by omega)
    | with_reducible exact Traced.le_fail _ (by omega)
    | with_reducible exact le_trans (is_dec_traced_depth _) (by omega)
    | with_reducible exact le_trans (chomp_digits_traced_depth _ _) (by omega)
    | with_reducible exact le_trans (parse_number_exponent_traced_depth _) (by omega)
    | with_reducible apply Traced.le_andThen
    | with_reducible apply Traced.le_bind
    | with_reducible apply Traced.le_lift
    | (intro _; try dsimp only)
    | split

theorem parse_number_traced_depth (c : Cursor) :
    (parse_number_traced c).depth ≤ 3 := by
  unfold parse_number_traced
  refine Traced.le_call 2 _ ?_
  try dsimp only
  repeat' first
    | with_reducible exact Traced.le_ret _ _
    | with_reducible exact Traced.le_raise _ _ (by omega)
    | with_reducible exact Traced.le_fail _ (by omega)
    | with_reducible exact le_trans (is_dec_traced_depth _) (by omega)
    | with_reducible exact le_trans (chomp_digits_traced_depth _ _) (by omega)
    | with_reducible exact le_trans (parse_number_fraction_traced_depth _) (by omega)
    | with_reducible apply Traced.le_andThen
    | with_reducible apply Traced.le_bind
    | with_reducible apply Traced.le_lift
    | (intro _; try dsimp only)
    | split

theorem parse_string_body_traced_depth (sur : utf8_surrogate_checker) (last : Bool) (c : Cursor) :
    (parse_string_body_traced sur last c).depth ≤ 5 := by
  unfold parse_string_body_traced
  try dsimp only
  repeat' first
    | with_reducible exact Traced.le_ret _ _
    | with_reducible exact Traced.le_raise _ _ (by omega)
    | with_reducible exact Traced.le_fail _ (by omega)
    | with_reducible exact le_trans (chomp_utf8_char_traced_depth _) (by omega)
    | with_reducible exact le_trans (json_hex_seq_to_code_point_traced_depth _) (by omega)
    | with_reducible exact le_trans (check_code_point_traced_depth _ _) (by omega)
    | with_reducible apply Traced.le_andThen
    | with_reducible apply Traced.le_bind
    | with_reducible apply Traced.le_lift
    | (intro _; try dsimp only)
    | split

theorem parse_string_loop_traced_depth : ∀ (fuel : Nat) (sur : utf8_surrogate_checker) (last : Bool) (c : Cursor),
    (parse_string_loop_traced fuel sur last c).depth ≤ 5
  | 0, _, _, _ => Nat.zero_le 5
  | fuel + 1, sur, last, c => by
    unfold parse_string_loop_traced
    try dsimp only
    repeat' first
      | with_reducible exact Traced.le_ret _ _
      | with_reducible exact Traced.le_raise _ _ (by omega)
      | with_reducible exact Traced.le_fail _ (by omega)
      | with_reducible exact le_trans (parse_string_body_traced_depth _ _ _) (by omega)
      | with_reducible exact le_trans (check_code_point_traced_depth _ _) (by omega)
      | exact parse_string_loop_traced_depth fuel _ _ _
      | with_reducible apply Traced.le_andThen
      | with_reducible apply Traced.le_bind
      | with_reducible apply Traced.le_lift
      | (intro _; try dsimp only)
      | split

theorem parse_string_traced_depth (c : Cursor) :
    (parse_string_traced c).depth ≤ 6 := by
  unfold parse_string_traced
  refine Traced.le_call 5 _ ?_
  try dsimp only
  repeat' first
    | with_reducible exact Traced.le_ret _ _
    | with_reducible exact Traced.le_raise _ _ (by omega)
    | with_reducible exact Traced.le_fail _ (by omega)
    | with_reducible exact le_trans (parse_string_loop_traced_depth _ _ _ _) (by omega)
    | with_reducible exact le_trans (check_code_point_traced_depth _ _) (by omega)
    | with_reducible apply Traced.le_andThen
    | with_reducible apply Traced.le_bind
    | with_reducible apply Traced.le_lift
    | (intro _; try dsimp only)
    | split

theorem parse_member_key_traced_depth (p : JsonParserImpl) (c : Cursor) :
    (parse_member_key_traced p c).depth ≤ 7 := by
  unfold parse_member_key_traced
  refine Traced.le_call 6 _ ?_
  try dsimp only
  repeat' first
    | with_reducible exact Traced.le_ret _ _
    | with_reducible exact Traced.le_raise _ _ (by omega)
    | with_reducible exact Traced.le_fail _ (by omega)
    | with_reducible exact le_trans (chomp_whitespace_traced_depth _) (by omega)
    | with_reducible exact le_trans (parse_string_traced_depth _) (by omega)
    | with_reducible exact le_trans (visit_traced_depth _ _) (by omega)
    | with_reducible apply Traced.le_andThen
    | with_reducible apply Traced.le_bind
    | with_reducible apply Traced.le_lift
    | (intro _; try dsimp only)
    | split

theorem parse_object_loop_traced_depth : ∀ (fuel : Nat) (p : JsonParserImpl) (c : Cursor),
    (parse_object_loop_traced fuel p c).depth ≤ 7
  | 0, _, _ => Nat.zero_le 7
  | fuel + 1, p, c => by
    unfold parse_object_loop_traced
    try dsimp only
    repeat' first
      | with_reducible exact Traced.le_ret _ _
      | with_reducible exact Traced.le_raise _ _ (by omega)
      | with_reducible exact Traced.le_fail _ (by omega)
      | with_reducible exact le_trans (visit_traced_depth _ _) (by omega)
      | with_reducible exact le_trans (chomp_whitespace_traced_depth _) (by omega)
      | with_reducible exact le_trans (parse_member_key_traced_depth _ _) (by omega)
      | with_reducible exact le_trans (inc_depth_traced_depth _ _) (by omega)
      | exact parse_object_loop_traced_depth fuel _ _
      | with_reducible apply Traced.le_andThen
      | with_reducible apply Traced.le_bind
      | with_reducible apply Traced.le_lift
      | (intro _; try dsimp only)
      | split

theorem parse_object_traced_depth (fuel : Nat) (p : JsonParserImpl) (c : Cursor) :
    (parse_object_traced fuel p c).depth ≤ 8 :=
  Traced.le_call 7 _ (parse_object_loop_traced_depth fuel p c)

theorem parse_array_loop_traced_depth : ∀ (fuel : Nat) (p : JsonParserImpl) (c : Cursor),
    (parse_array_loop_traced fuel p c).depth ≤ 3
  | 0, _, _ => Nat.zero_le 3
  | fuel + 1, p, c => by
    unfold parse_array_loop_traced
    try dsimp only
    repeat' first
      | with_reducible exact Traced.le_ret _ _
      | with_reducible exact Traced.le_raise _ _ (by omega)
      | with_reducible exact Traced.le_fail _ (by omega)
      | with_reducible exact le_trans (visit_traced_depth _ _) (by omega)
      | with_reducible exact le_trans (chomp_whitespace_traced_depth _) (by omega)
      | with_reducible exact le_trans (inc_depth_traced_depth _ _) (by omega)
      | exact parse_array_loop_traced_depth fuel _ _
      | with_reducible apply Traced.le_andThen
      | with_reducible apply Traced.le_bind
      | with_reducible apply Traced.le_lift
      | (intro _; try dsimp only)
      | split

theorem parse_array_traced_depth (fuel : Nat) (p : JsonParserImpl) (c : Cursor) :
    (parse_array_traced fuel p c).depth ≤ 4 :=
  Traced.le_call 3 _ (parse_array_loop_traced_depth fuel p c)

theorem parse_primitive_traced_depth (p : JsonParserImpl) (c : Cursor) :
    (parse_primitive_traced p c).depth ≤ 6 := by
  unfold parse_primitive_traced
  try dsimp only
  repeat' first
    | with_reducible exact Traced.le_ret _ _
    | with_reducible exact Traced.le_raise _ _ (by omega)
    | with_reducible exact Traced.le_fail _ (by omega)
    | with_reducible exact le_trans (parse_string_traced_depth _) (by omega)
    | with_reducible exact le_trans (parse_number_traced_depth _) (by omega)
    | with_reducible exact le_trans (visit_traced_depth _ _) (by omega)
    | with_reducible exact le_trans (is_dec_traced_depth _) (by omega)
    | with_reducible apply Traced.le_andThen
    | with_reducible apply Traced.le_bind
    | with_reducible apply Traced.le_lift
    | (intro _; try dsimp only)
    | split

theorem parse_value_loop_traced_depth : ∀ (fuel : Nat) (p : JsonParserImpl) (c : Cursor),
    (parse_value_loop_traced fuel p c).depth ≤ 8
  | 0, _, _ => Nat.zero_le 8
  | fuel + 1, p, c => by
    unfold parse_value_loop_traced
    try dsimp only
    repeat' first
      | with_reducible exact Traced.le_ret _ _
      | with_reducible exact Traced.le_raise _ _ (by omega)
      | with_reducible exact Traced.le_fail _ (by omega)
      | with_reducible exact le_trans (parse_primitive_traced_depth _ _) (by omega)
      | with_reducible exact le_trans (parse_object_traced_depth _ _ _) (by omega)
      | with_reducible exact le_trans (parse_array_traced_depth _ _ _) (by omega)
      | exact parse_value_loop_traced_depth fuel _ _
      | split

theorem parse_value_traced_depth (fuel : Nat) (p : JsonParserImpl) (c : Cursor) :
    (parse_value_traced fuel p c).depth ≤ 9 :=
  Traced.le_call 8 _ (parse_value_loop_traced_depth fuel p c)

theorem parse_element_traced_depth (p : JsonParserImpl) (c : Cursor) :
    (parse_element_traced p c).depth ≤ 10 := by
  unfold parse_element_traced
  refine Traced.le_call 9 _ ?_
  try dsimp only
  repeat' first
    | with_reducible exact Traced.le_ret _ _
    | with_reducible exact Traced.le_raise _ _ (by omega)
    | with_reducible exact Traced.le_fail _ (by omega)
    | with_reducible exact le_trans (chomp_whitespace_traced_depth _) (by omega)
    | with_reducible exact le_trans (parse_value_traced_depth _ _ _) (by omega)
    | with_reducible apply Traced.le_andThen
    | with_reducible apply Traced.le_bind
    | with_reducible apply Traced.le_lift
    | (intro _; try dsimp only)
    | split

theorem parse_json_loop_traced_depth : ∀ (fuel : Nat) (p : JsonParserImpl) (c : Cursor),
    (parse_json_loop_traced fuel p c).depth ≤ 10
  | 0, _, _ => Nat.zero_le 10
  | fuel + 1, p, c => by
    unfold parse_json_loop_traced
    try dsimp only
    repeat' first
      | with_reducible exact Traced.le_ret _ _
      | with_reducible exact Traced.le_raise _ _ (by omega)
      | with_reducible exact Traced.le_fail _ (by omega)
      | with_reducible exact le_trans (parse_element_traced_depth _ _) (by omega)
      | with_reducible exact le_trans (dec_depth_traced_depth _) (by omega)
      | exact parse_json_loop_traced_depth fuel _ _
      | with_reducible apply Traced.le_andThen
      | with_reducible apply Traced.le_bind
      | with_reducible apply Traced.le_lift
      | (intro _; try dsimp only)
      | split

/-- While `parse_json` runs, no more than 11 activations of routines are nested one in the
other, whatever the input is. -/
theorem parse_json_traced_depth (p : JsonParserImpl) (input : Bytes) :
    (parse_json_traced p input).depth ≤ 11 := by
  unfold parse_json_traced
  refine Traced.le_call 10 _ ?_
  try dsimp only
  repeat' first
    | with_reducible exact Traced.le_ret _ _
    | with_reducible exact Traced.le_raise _ _ (by omega)
    | with_reducible exact Traced.le_fail _ (by omega)
    | with_reducible exact le_trans (inc_depth_traced_depth _ _) (by omega)
    | with_reducible exact le_trans (parse_json_loop_traced_depth _ _ _) (by omega)
    | with_reducible apply Traced.le_andThen
    | with_reducible apply Traced.le_bind
    | with_reducible apply Traced.le_lift
    | (intro _; try dsimp only)
    | split

/-! ## Two runs -/

set_option maxRecDepth 100000 in
/-- On an object whose key holds the bytes F4 90 80 80, ten activations are nested: those
of `parse_json`, `parse_element`, `parse_value`, `parse_object`, `parse_member_key`,
`parse_string`, `chomp_utf8_char`, `code_point_type` and of the two constructors. -/
theorem long_key_chain_depth :
    (parse_json_traced (JsonParser 0) [0x7B, 0x22, 0xF4, 0x90, 0x80, 0x80]).depth = 10 := rfl

set_option maxRecDepth 100000 in
/-- A text of 40 arrays one in the other is read to its end with six activations nested. -/
theorem nested_arrays_depth :
    (parse_json_traced (JsonParser 0)
      (List.replicate 40 0x5B ++ [0x31] ++ List.replicate 40 0x5D)).depth = 6 ∧
    ∃ s, parse_json (JsonParser 0)
      (List.replicate 40 0x5B ++ [0x31] ++ List.replicate 40 0x5D) = .ok true s :=
  ⟨rfl, ⟨_, rfl⟩⟩

end flumps


namespace flumps

open JsonCallbackVisitorImpl

/-! ## An input that is cut short -/

/-- C30: the marked embedding of `parse_json` gives what `parse_json` gives, and on every
input and with every depth limit no more than 11 activations of routines of the repository
are nested one in the other while it runs (calls into the standard library not counted, a
call of a method of the visitor counted as one activation): the depth of the native call
stack does not grow with the nesting of the values, which is kept on `state_`.  The chain
of ten `parse_json`, `parse_element`, `parse_value`, `parse_object`, `parse_member_key`,
`parse_string`, `chomp_utf8_char`, `code_point_type`, `UnicodeCodePointError`,
`DecodeError` is reached on `{"` followed by the bytes F4 90 80 80, and a text of 40 arrays
one in the other is read to its end with no more than 6. -/
theorem parse_json_call_depth_bounded :
    (∀ (p : JsonParserImpl) (input : Bytes),
      (parse_json_traced p input).result = parse_json p input ∧
        (parse_json_traced p input).depth ≤ 11) ∧
    (parse_json_traced (JsonParser 0) [0x7B, 0x22, 0xF4, 0x90, 0x80, 0x80]).depth = 10 ∧
    (parse_json_traced (JsonParser 0)
      (List.replicate 40 0x5B ++ [0x31] ++ List.replicate 40 0x5D)).depth = 6 ∧
    ∃ s, parse_json (JsonParser 0)
      (List.replicate 40 0x5B ++ [0x31] ++ List.replicate 40 0x5D) = .ok true s :=
  ⟨fun p input => ⟨parse_json_traced_result p input, parse_json_traced_depth p input⟩,
    long_key_chain_depth, nested_arrays_depth.1, nested_arrays_depth.2⟩

end flumps
